import Mathlib

/-!
# Customizable Route Planning: a shallow embedding

The base graph, the multi-level partition, the overlay graph and the query
algorithms of the CRP implementation, as Lean definitions, with theorems
about them.

Conventions of the embedding.
* `std::vector` is a `List`; a read `xs[i]` is `xs.getD i d` and a write is
  `xs.set i x`.  The theorems carry the well-formedness facts under which
  every index that the C++ code uses is in range.
* Indices, counts, levels and cell numbers (`index`, `count`, `level`,
  `turnorder`, `pv`) are natural numbers; the embedding covers the runs in
  which they fit their machine type.  Distances (`weight`, an `unsigned`)
  are natural numbers reduced modulo `2^32` after every addition.
* `std::unordered_map` is an association list that is iterated in insertion
  order, and `std::sort` is a stable insertion sort.
* Geographic coordinates and `maxHeight` (floating point) are left out.
-/

namespace CRP

/-! ## constants.h -/

/-- The constant `invalid_id`. -/
def invalid_id : Nat := 4294967295

/-- The constant `inf_weight`, chosen so that it can be multiplied by 3 without overflow. -/
def inf_weight : Nat := 1431655765

/-- Reduction of an `unsigned` (32 bit) value. -/
def u32 (n : Nat) : Nat := n % 4294967296

/-! ## LevelInfo.h -/

/-- The class `LevelInfo`: the bit offsets of the levels in a packed cell number. -/
structure LevelInfo where
  offset : List Nat
deriving DecidableEq, Repr

namespace LevelInfo

/-- The loop of `getHighestDifferingLevel`:
`for (level l = offset.size()-1; l > 0; --l) if (diff >> offset[l-1] > 0) return l;`. -/
def hdlLoop (offset : List Nat) (diff : Nat) : Nat → Nat
  | 0 => 0
  | l + 1 => if diff >>> offset.getD l 0 > 0 then l + 1 else hdlLoop offset diff l

/-- `LevelInfo::getHighestDifferingLevel`. -/
def getHighestDifferingLevel (li : LevelInfo) (c1 c2 : Nat) : Nat :=
  let diff := c1 ^^^ c2
  if diff = 0 then 0 else hdlLoop li.offset diff (li.offset.length - 1)

/-- `LevelInfo::getQueryLevel`. -/
def getQueryLevel (li : LevelInfo) (sCellNumber tCellNumber vCellNumber : Nat) : Nat :=
  let l_sv := li.getHighestDifferingLevel sCellNumber vCellNumber
  let l_tv := li.getHighestDifferingLevel vCellNumber tCellNumber
  min l_sv l_tv

/-- `LevelInfo::truncateToLevel`. -/
def truncateToLevel (li : LevelInfo) (cellNumber l : Nat) : Nat :=
  cellNumber >>> li.offset.getD (l - 1) 0

/-- `LevelInfo::getLevelCount`. -/
def getLevelCount (li : LevelInfo) : Nat := li.offset.length - 1

end LevelInfo

/-! ## Graph.h, Graph.cpp -/

/-- The struct `Vertex` (without its coordinate). -/
structure Vertex where
  pvPtr : Nat
  turnTablePtr : Nat
  firstOut : Nat
  firstIn : Nat
deriving DecidableEq, Repr, Inhabited

/-- The struct `EdgeAttributes` (without `maxHeight`). -/
structure EdgeAttributes where
  stdAttributes : Nat
deriving DecidableEq, Repr, Inhabited

/-- The struct `ForwardEdge`: an outgoing edge, entering `head` at `entryPoint`. -/
structure ForwardEdge where
  head : Nat
  entryPoint : Nat
  attributes : EdgeAttributes
deriving DecidableEq, Repr, Inhabited

/-- The struct `BackwardEdge`: an incoming edge, leaving `tail` at `exitPoint`. -/
structure BackwardEdge where
  tail : Nat
  exitPoint : Nat
  attributes : EdgeAttributes
deriving DecidableEq, Repr, Inhabited

/-- The struct `SubVertex`: an entry or exit point of the graph. -/
structure SubVertex where
  originalId : Nat
  turnOrder : Nat
  exit : Bool
deriving DecidableEq, Repr, Inhabited

/-- The struct `VertexIdPair`. -/
structure VertexIdPair where
  originalVertex : Nat
  id : Nat
deriving DecidableEq, Repr, Inhabited

/-- The enum `Graph::TURN_TYPE`. -/
inductive TURN_TYPE where
  | LEFT_TURN | RIGHT_TURN | STRAIGHT_ON | U_TURN | NO_ENTRY | NONE
deriving DecidableEq, Repr, Inhabited

/-- The class `Graph`. -/
structure Graph where
  vertices : List Vertex
  forwardEdges : List ForwardEdge
  backwardEdges : List BackwardEdge
  turnTables : List TURN_TYPE
  cellNumbers : List Nat
  maxEdgesInCell : Nat
  forwardEdgeCellOffset : List Nat
  backwardEdgeCellOffset : List Nat
  overlayVertices : List (SubVertex × Nat)
deriving Repr

namespace Graph

/-- Read of `vertices[u]`. -/
def vertex (g : Graph) (u : Nat) : Vertex := g.vertices.getD u default

/-- `Graph::numberOfVertices`. -/
def numberOfVertices (g : Graph) : Nat := g.vertices.length - 1

/-- `Graph::numberOfEdges`. -/
def numberOfEdges (g : Graph) : Nat := g.forwardEdges.length

/-- `Graph::getOutDegree`. -/
def getOutDegree (g : Graph) (u : Nat) : Nat := (g.vertex (u + 1)).firstOut - (g.vertex u).firstOut

/-- `Graph::getInDegree`. -/
def getInDegree (g : Graph) (u : Nat) : Nat := (g.vertex (u + 1)).firstIn - (g.vertex u).firstIn

/-- `Graph::getExitOffset`. -/
def getExitOffset (g : Graph) (u : Nat) : Nat := (g.vertex u).firstOut

/-- `Graph::getEntryOffset`. -/
def getEntryOffset (g : Graph) (u : Nat) : Nat := (g.vertex u).firstIn

/-- `Graph::getForwardEdge`. -/
def getForwardEdge (g : Graph) (e : Nat) : ForwardEdge := g.forwardEdges.getD e default

/-- `Graph::getBackwardEdge`. -/
def getBackwardEdge (g : Graph) (e : Nat) : BackwardEdge := g.backwardEdges.getD e default

/-- `Graph::getHeadOfBackwardEdge`. -/
def getHeadOfBackwardEdge (g : Graph) (e : Nat) : Nat :=
  let backwardEdge := g.getBackwardEdge e
  let tail := g.vertex backwardEdge.tail
  (g.getForwardEdge (tail.firstOut + backwardEdge.exitPoint)).head

/-- `Graph::getTailOfForwardEdge`. -/
def getTailOfForwardEdge (g : Graph) (e : Nat) : Nat :=
  let forwardEdge := g.getForwardEdge e
  let head := g.vertex forwardEdge.head
  (g.getBackwardEdge (head.firstIn + forwardEdge.entryPoint)).tail

/-- `Graph::getExitOrder`. -/
def getExitOrder (g : Graph) (u forwardEdge : Nat) : Nat := forwardEdge - (g.vertex u).firstOut

/-- `Graph::getEntryOrder`. -/
def getEntryOrder (g : Graph) (v backwardEdge : Nat) : Nat := backwardEdge - (g.vertex v).firstIn

/-- `Graph::getTurnType`. -/
def getTurnType (g : Graph) (u entryPoint exitPoint : Nat) : TURN_TYPE :=
  g.turnTables.getD ((g.vertex u).turnTablePtr + entryPoint * g.getOutDegree u + exitPoint) default

/-- `Graph::getCellNumber`. -/
def getCellNumber (g : Graph) (u : Nat) : Nat := g.cellNumbers.getD (g.vertex u).pvPtr 0

/-- The lookup `overlayVertices.find` of `Graph::getOverlayVertex`. -/
def findOverlayVertex (k : SubVertex) : List (SubVertex × Nat) → Option Nat
  | [] => none
  | (k', x) :: rest => if k' = k then some x else findOverlayVertex k rest

/-- `Graph::getOverlayVertex`; the key is present whenever the C++ assertion holds. -/
def getOverlayVertex (g : Graph) (u turnOrder : Nat) (exit : Bool) : Nat :=
  (findOverlayVertex ⟨u, turnOrder, exit⟩ g.overlayVertices).getD invalid_id

/-- `Graph::getForwardEdgeCellOffset`. -/
def getForwardEdgeCellOffset (g : Graph) (v : Nat) : Nat :=
  g.forwardEdgeCellOffset.getD (g.vertex v).pvPtr 0

/-- `Graph::getBackwardEdgeCellOffset`. -/
def getBackwardEdgeCellOffset (g : Graph) (v : Nat) : Nat :=
  g.backwardEdgeCellOffset.getD (g.vertex v).pvPtr 0

/-- The loop of `Graph::findBackwardEdge` over the edge ids `e, e+1, ..., e+n-1`. -/
def findBackwardEdgeLoop (g : Graph) (u : Nat) : Nat → Nat → Nat
  | _, 0 => invalid_id
  | e, n + 1 => if (g.getBackwardEdge e).tail = u then e else findBackwardEdgeLoop g u (e + 1) n

/-- `Graph::findBackwardEdge`: the first incoming edge of `v` whose tail is `u`. -/
def findBackwardEdge (g : Graph) (u v : Nat) : Nat :=
  findBackwardEdgeLoop g u (g.vertex v).firstIn (g.getInDegree v)

/-- `Graph::forEdges`: the triples `(tail, head, forwardEdge)` in the order of the iteration. -/
def forEdges (g : Graph) : List (Nat × Nat × Nat) :=
  (List.range g.numberOfVertices).flatMap fun u =>
    (List.range' (g.vertex u).firstOut (g.getOutDegree u)).map fun e =>
      (u, (g.getForwardEdge e).head, e)

/-- `Graph::forOutEdgesOf`: the triples `(forwardEdge, exitPoint, turnType)` handed to the
handler, in order. -/
def forOutEdgesOf (g : Graph) (u entryPoint : Nat) : List (ForwardEdge × Nat × TURN_TYPE) :=
  (List.range (g.getOutDegree u)).map fun exitPoint =>
    (g.getForwardEdge ((g.vertex u).firstOut + exitPoint), exitPoint,
      g.turnTables.getD ((g.vertex u).turnTablePtr + entryPoint * g.getOutDegree u + exitPoint)
        default)

/-- `Graph::forInEdgesOf`: the triples `(backwardEdge, entryPoint, turnType)` handed to the
handler, in order. -/
def forInEdgesOf (g : Graph) (v exitPoint : Nat) : List (BackwardEdge × Nat × TURN_TYPE) :=
  (List.range (g.getInDegree v)).map fun entryPoint =>
    (g.getBackwardEdge ((g.vertex v).firstIn + entryPoint), entryPoint,
      g.turnTables.getD ((g.vertex v).turnTablePtr + exitPoint + entryPoint * g.getOutDegree v)
        default)

end Graph

/-! ### Graph::sortVerticesByCellNumber -/

namespace Graph

/-- The scratch vectors of the first loop of `sortVerticesByCellNumber`. -/
structure SortScratch where
  cellVertices : List (List (Vertex × Nat))
  numForwardEdgesInCell : List Nat
  numBackwardEdgesInCell : List Nat
  fEdges : List (List ForwardEdge)
  bEdges : List (List BackwardEdge)
  maxEdgesInCell : Nat
deriving Repr

/-- One iteration (vertex `i`) of the first loop of `sortVerticesByCellNumber`. -/
def sortCollect (g : Graph) (st : SortScratch) (i : Nat) : SortScratch :=
  let cell := (g.vertex i).pvPtr
  let cellVertices := st.cellVertices.set cell (st.cellVertices.getD cell [] ++ [(g.vertex i, i)])
  let fEdges := st.fEdges.set i
    ((List.range (g.getOutDegree i)).map fun k => g.getForwardEdge ((g.vertex i).firstOut + k))
  let bEdges := st.bEdges.set i
    ((List.range (g.getInDegree i)).map fun k => g.getBackwardEdge ((g.vertex i).firstIn + k))
  let numF := st.numForwardEdgesInCell.set cell
    (st.numForwardEdgesInCell.getD cell 0 + g.getOutDegree i)
  let numB := st.numBackwardEdgesInCell.set cell
    (st.numBackwardEdgesInCell.getD cell 0 + g.getInDegree i)
  let m1 := if st.maxEdgesInCell < numF.getD cell 0 then numF.getD cell 0 else st.maxEdgesInCell
  let m2 := if m1 < numB.getD cell 0 then numB.getD cell 0 else m1
  { cellVertices := cellVertices, numForwardEdgesInCell := numF, numBackwardEdgesInCell := numB,
    fEdges := fEdges, bEdges := bEdges, maxEdgesInCell := m2 }

/-- The first loop of `sortVerticesByCellNumber`. -/
def sortScratch (g : Graph) : SortScratch :=
  (List.range g.numberOfVertices).foldl (sortCollect g)
    { cellVertices := List.replicate g.cellNumbers.length [],
      numForwardEdgesInCell := List.replicate g.cellNumbers.length 0,
      numBackwardEdgesInCell := List.replicate g.cellNumbers.length 0,
      fEdges := List.replicate g.numberOfVertices [],
      bEdges := List.replicate g.numberOfVertices [],
      maxEdgesInCell := 0 }

/-- The vector `newId` of `sortVerticesByCellNumber`: old vertex id to new vertex id. -/
def sortNewId (g : Graph) (cellVertices : List (List (Vertex × Nat))) : List Nat :=
  (cellVertices.flatten.foldl
    (fun (acc : List Nat × Nat) p => (acc.1.set p.2 acc.2, acc.2 + 1))
    (List.replicate g.numberOfVertices 0, 0)).1

/-- The state of the last loop of `sortVerticesByCellNumber`. -/
structure SortState where
  vertices : List Vertex
  forwardEdges : List ForwardEdge
  backwardEdges : List BackwardEdge
  forwardEdgeCellOffset : List Nat
  backwardEdgeCellOffset : List Nat
  vId : Nat
  forwardOffset : Nat
  backwardOffset : Nat
deriving Repr

/-- The body of the last loop for one vertex `(vertex, vOldId)` of a cell. -/
def sortPlaceVertex (sc : SortScratch) (newId : List Nat) (st : SortState) (p : Vertex × Nat) :
    SortState :=
  let vOldId := p.2
  let vertices := st.vertices.set st.vId
    { p.1 with firstOut := st.forwardOffset, firstIn := st.backwardOffset }
  let fs := sc.fEdges.getD vOldId []
  let bs := sc.bEdges.getD vOldId []
  let forwardEdges := (List.range fs.length).foldl
    (fun (acc : List ForwardEdge) k =>
      acc.set (st.forwardOffset + k)
        { (fs.getD k default) with head := newId.getD (fs.getD k default).head 0 })
    st.forwardEdges
  let backwardEdges := (List.range bs.length).foldl
    (fun (acc : List BackwardEdge) k =>
      acc.set (st.backwardOffset + k)
        { (bs.getD k default) with tail := newId.getD (bs.getD k default).tail 0 })
    st.backwardEdges
  { st with vertices := vertices, forwardEdges := forwardEdges, backwardEdges := backwardEdges,
            vId := st.vId + 1, forwardOffset := st.forwardOffset + fs.length,
            backwardOffset := st.backwardOffset + bs.length }

/-- The body of the last loop for cell `i`. -/
def sortPlaceCell (sc : SortScratch) (newId : List Nat) (st : SortState) (i : Nat) : SortState :=
  let st1 := { st with
    forwardEdgeCellOffset := st.forwardEdgeCellOffset.set i st.forwardOffset,
    backwardEdgeCellOffset := st.backwardEdgeCellOffset.set i st.backwardOffset }
  (sc.cellVertices.getD i []).foldl (sortPlaceVertex sc newId) st1

/-- `Graph::sortVerticesByCellNumber`. -/
def sortVerticesByCellNumber (g : Graph) : Graph :=
  let sc := g.sortScratch
  let newId := g.sortNewId sc.cellVertices
  let st := (List.range g.cellNumbers.length).foldl (sortPlaceCell sc newId)
    { vertices := g.vertices, forwardEdges := g.forwardEdges, backwardEdges := g.backwardEdges,
      forwardEdgeCellOffset := List.replicate g.cellNumbers.length 0,
      backwardEdgeCellOffset := List.replicate g.cellNumbers.length 0,
      vId := 0, forwardOffset := 0, backwardOffset := 0 }
  { g with vertices := st.vertices, forwardEdges := st.forwardEdges,
           backwardEdges := st.backwardEdges, maxEdgesInCell := sc.maxEdgesInCell,
           forwardEdgeCellOffset := st.forwardEdgeCellOffset,
           backwardEdgeCellOffset := st.backwardEdgeCellOffset }

end Graph

/-! ## MultiLevelPartition.h, MultiLevelPartition.cpp -/

/-- The class `MultiLevelPartition`. -/
structure MultiLevelPartition where
  numCells : List Nat
  pvOffset : List Nat
  cellNumbers : List Nat
deriving Repr

namespace MultiLevelPartition

/-- Search for the least `k' ≥ k` with `n ≤ 2^k'`, in at most `fuel` steps. -/
def ceilLog2From (n : Nat) : Nat → Nat → Nat
  | 0, k => k
  | fuel + 1, k => if n ≤ 2 ^ k then k else ceilLog2From n fuel (k + 1)

/-- The value `ceil(log2(n))` for a cell count `n ≥ 1`: the least `k` with `n ≤ 2^k`. -/
def ceilLog2 (n : Nat) : Nat := ceilLog2From n n 0

/-- `MultiLevelPartition::setNumberOfLevels`. -/
def setNumberOfLevels (mlp : MultiLevelPartition) (numLevels : Nat) : MultiLevelPartition :=
  { mlp with numCells := List.replicate numLevels 0 }

/-- `MultiLevelPartition::setNumberOfVertices`. -/
def setNumberOfVertices (mlp : MultiLevelPartition) (numVertices : Nat) : MultiLevelPartition :=
  { mlp with cellNumbers := List.replicate numVertices 0 }

/-- `MultiLevelPartition::setNumberOfCellsInLevel`. -/
def setNumberOfCellsInLevel (mlp : MultiLevelPartition) (level numCells : Nat) :
    MultiLevelPartition :=
  { mlp with numCells := mlp.numCells.set level numCells }

/-- `MultiLevelPartition::computeBitmap`. -/
def computeBitmap (mlp : MultiLevelPartition) : MultiLevelPartition :=
  let pvOffset := (List.range mlp.numCells.length).foldl
    (fun (off : List Nat) i => off.set (i + 1) (off.getD i 0 + ceilLog2 (mlp.numCells.getD i 0)))
    (List.replicate (mlp.numCells.length + 1) 0)
  { mlp with pvOffset := pvOffset }

/-- `MultiLevelPartition::setCell`. -/
def setCell (mlp : MultiLevelPartition) (level vertexId cellId : Nat) : MultiLevelPartition :=
  let cellNumber := mlp.cellNumbers.getD vertexId 0 ||| (cellId <<< mlp.pvOffset.getD level 0)
  { mlp with cellNumbers := mlp.cellNumbers.set vertexId cellNumber }

/-- `MultiLevelPartition::getNumberOfLevels`. -/
def getNumberOfLevels (mlp : MultiLevelPartition) : Nat := mlp.numCells.length

/-- `MultiLevelPartition::getPVOffsets`. -/
def getPVOffsets (mlp : MultiLevelPartition) : List Nat := mlp.pvOffset

/-- `MultiLevelPartition::getCellNumber`. -/
def getCellNumber (mlp : MultiLevelPartition) (u : Nat) : Nat := mlp.cellNumbers.getD u 0

end MultiLevelPartition

/-- The function `buildCellNumbers` of Precalculation.cpp and OverlayGraphTest.cpp: one
iteration of its loop; `pvMap` is searched as the position of the cell number in
`cellNumbers`. -/
def buildCellNumbersStep (mlp : MultiLevelPartition) (st : List Nat × List Vertex) (u : Nat) :
    List Nat × List Vertex :=
  let cellNumber := mlp.getCellNumber u
  let vertex := st.2.getD u default
  if st.1.indexOf cellNumber < st.1.length then
    (st.1, st.2.set u { vertex with pvPtr := st.1.indexOf cellNumber })
  else
    (st.1 ++ [cellNumber], st.2.set u { vertex with pvPtr := st.1.length })

/-- The function `buildCellNumbers` of Precalculation.cpp and OverlayGraphTest.cpp. -/
def buildCellNumbers (g : Graph) (mlp : MultiLevelPartition) : Graph :=
  let r := (List.range g.numberOfVertices).foldl (buildCellNumbersStep mlp) ([], g.vertices)
  { g with vertices := r.2, cellNumbers := r.1 }

/-! ## OverlayGraph.h, OverlayGraph.cpp -/

/-- The struct `OverlayVertex`. -/
structure OverlayVertex where
  originalVertex : Nat
  neighborOverlayVertex : Nat
  cellNumber : Nat
  originalEdge : Nat
  entryExitPoint : List Nat
deriving DecidableEq, Repr, Inhabited

/-- The struct `Cell`. -/
structure Cell where
  numEntryPoints : Nat
  numExitPoints : Nat
  cellOffset : Nat
  overlayIdOffset : Nat
deriving DecidableEq, Repr, Inhabited

/-- The lookup `find` of an `unordered_map<pv, Cell>`. -/
def cellFind (k : Nat) : List (Nat × Cell) → Option Cell
  | [] => none
  | (k', c) :: rest => if k' = k then some c else cellFind k rest

/-- Update in place of the cell stored under key `k` of an `unordered_map<pv, Cell>`. -/
def cellUpdate (k : Nat) (f : Cell → Cell) : List (Nat × Cell) → List (Nat × Cell)
  | [] => []
  | (k', c) :: rest => if k' = k then (k', f c) :: rest else (k', c) :: cellUpdate k f rest

/-- The class `OverlayGraph`. -/
structure OverlayGraph where
  overlayVertices : List OverlayVertex
  vertexCountInLevel : List Nat
  cellMapping : List (List (Nat × Cell))
  overlayIdMapping : List Nat
  levelInfo : LevelInfo
  weightVectorSize : Nat
deriving Repr

namespace OverlayGraph

/-- `OverlayGraph::getVertex`. -/
def getVertex (og : OverlayGraph) (u : Nat) : OverlayVertex := og.overlayVertices.getD u default

/-- `OverlayGraph::getCell`; the cell is present whenever the C++ assertion holds. -/
def getCell (og : OverlayGraph) (cellNumber l : Nat) : Cell :=
  (cellFind (og.levelInfo.truncateToLevel cellNumber l) (og.cellMapping.getD (l - 1) [])).getD
    default

/-- `OverlayGraph::numberOfVertices`. -/
def numberOfVertices (og : OverlayGraph) : Nat := og.overlayVertices.length

/-- `OverlayGraph::numberOfVerticesInLevel`. -/
def numberOfVerticesInLevel (og : OverlayGraph) (l : Nat) : Nat :=
  og.vertexCountInLevel.getD (l - 1) 0

/-- `OverlayGraph::numberOfCellsInLevel`. -/
def numberOfCellsInLevel (og : OverlayGraph) (l : Nat) : Nat :=
  (og.cellMapping.getD (l - 1) []).length

/-- `OverlayGraph::getEntryPoint`. -/
def getEntryPoint (og : OverlayGraph) (cell : Cell) (entryPointIndex : Nat) : Nat :=
  og.overlayIdMapping.getD (cell.overlayIdOffset + entryPointIndex) 0

/-- `OverlayGraph::getExitPoint`. -/
def getExitPoint (og : OverlayGraph) (cell : Cell) (exitPointIndex : Nat) : Nat :=
  og.overlayIdMapping.getD (cell.overlayIdOffset + cell.numEntryPoints + exitPointIndex) 0

/-- `OverlayGraph::getQueryLevel`. -/
def getQueryLevel (og : OverlayGraph) (sCellNumber tCellNumber vCellNumber : Nat) : Nat :=
  og.levelInfo.getQueryLevel sCellNumber tCellNumber vCellNumber

/-- `OverlayGraph::getWeightVectorSize`. -/
def getWeightVectorSize (og : OverlayGraph) : Nat := og.weightVectorSize

/-- `OverlayGraph::forOutNeighborsOf`: the pairs `(exit overlay vertex, weight index)` handed
to the handler, in order. -/
def forOutNeighborsOf (og : OverlayGraph) (u l : Nat) : List (Nat × Nat) :=
  let vertex := og.getVertex u
  let entryPoint := vertex.entryExitPoint.getD (l - 1) 0
  let cell := og.getCell vertex.cellNumber l
  let weightOffset := cell.cellOffset + entryPoint * cell.numExitPoints
  let overlayIdOffset := cell.overlayIdOffset + cell.numEntryPoints
  (List.range cell.numExitPoints).map fun i =>
    (og.overlayIdMapping.getD (overlayIdOffset + i) 0, weightOffset + i)

/-- `OverlayGraph::forInNeighborsOf`: the pairs `(entry overlay vertex, weight index)` handed
to the handler, in order. -/
def forInNeighborsOf (og : OverlayGraph) (v l : Nat) : List (Nat × Nat) :=
  let vertex := og.getVertex v
  let exitPoint := vertex.entryExitPoint.getD (l - 1) 0
  let cell := og.getCell vertex.cellNumber l
  let weightOffset := cell.cellOffset + exitPoint
  let overlayIdOffset := cell.overlayIdOffset
  (List.range cell.numEntryPoints).map fun i =>
    (og.overlayIdMapping.getD (overlayIdOffset + i) 0, weightOffset + cell.numExitPoints * i)

/-- `OverlayGraph::forCells`: the pairs `(truncated cell number, cell)` of level `l`. -/
def forCells (og : OverlayGraph) (l : Nat) : List (Nat × Cell) := og.cellMapping.getD (l - 1) []

/-! ### OverlayGraph::buildOverlayVertices -/

/-- The handler of `graph.forEdges` in `buildOverlayVertices`: a boundary edge appends its
twin pair (exit vertex, entry vertex) to the bucket of its level. -/
def addBoundaryEdge (graph : Graph) (levelInfo : LevelInfo)
    (overlayVerticesByLevel : List (List OverlayVertex)) (edge : Nat × Nat × Nat) :
    List (List OverlayVertex) :=
  let start := edge.1
  let target := edge.2.1
  let forwardEdge := edge.2.2
  let startPV := graph.getCellNumber start
  let targetPV := graph.getCellNumber target
  let overlayLevel := levelInfo.getHighestDifferingLevel startPV targetPV
  if overlayLevel > 0 then
    let bucket := overlayVerticesByLevel.getD (overlayLevel - 1) []
    let startVertex : OverlayVertex :=
      { cellNumber := startPV, originalEdge := forwardEdge, originalVertex := start,
        neighborOverlayVertex := bucket.length + 1,
        entryExitPoint := List.replicate overlayLevel 0 }
    let targetVertex : OverlayVertex :=
      { cellNumber := targetPV, originalEdge := graph.findBackwardEdge start target,
        originalVertex := target, neighborOverlayVertex := (bucket.length + 1) - 1,
        entryExitPoint := List.replicate overlayLevel 0 }
    overlayVerticesByLevel.set (overlayLevel - 1) (bucket ++ [startVertex, targetVertex])
  else overlayVerticesByLevel

/-- The buckets `overlayVerticesByLevel` after the loop over all edges. -/
def collectOverlayVertices (graph : Graph) (levelInfo : LevelInfo) (numberOfLevels : Nat) :
    List (List OverlayVertex) :=
  graph.forEdges.foldl (addBoundaryEdge graph levelInfo) (List.replicate numberOfLevels [])

/-- The reversed `std::partial_sum`: entry `j` is the sum of the entries `j, j+1, ...`. -/
def suffixSums : List Nat → List Nat
  | [] => []
  | x :: rest => (x + (suffixSums rest).headD 0) :: suffixSums rest

/-- The vector `newToOldPosition`: the positions of a bucket sorted by cell number. -/
def newToOldPosition (v : List OverlayVertex) : List Nat :=
  (List.range v.length).insertionSort
    (fun lhs rhs => (v.getD lhs default).cellNumber ≤ (v.getD rhs default).cellNumber)

/-- The vector `oldToNewPosition`, the inverse of `newToOldPosition`. -/
def oldToNewPosition (newToOld : List Nat) : List Nat :=
  (List.range newToOld.length).foldl (fun (acc : List Nat) i => acc.set (newToOld.getD i 0) i)
    (List.replicate newToOld.length 0)

/-- The result of the sorting loop of `buildOverlayVertices` for the bucket of one level. -/
structure SortedBucket where
  sortedVertices : List OverlayVertex
  exitFlags : List Bool
  mapEntries : List (SubVertex × Nat)
deriving Repr

/-- The body of the loop over `i` in the sorting loop of `buildOverlayVertices`. -/
def sortBucketStep (graph : Graph) (v : List OverlayVertex) (newToOld oldToNew : List Nat)
    (vertexOffset : Nat) (acc : SortedBucket) (i : Nat) : SortedBucket :=
  let old := v.getD (newToOld.getD i 0) default
  let vertex : OverlayVertex :=
    { old with neighborOverlayVertex := oldToNew.getD old.neighborOverlayVertex 0 + vertexOffset }
  let isExitPoint : Bool := newToOld.getD i 0 % 2 == 0
  let order :=
    if isExitPoint then graph.getExitOrder vertex.originalVertex vertex.originalEdge
    else graph.getEntryOrder vertex.originalVertex vertex.originalEdge
  { sortedVertices := acc.sortedVertices ++ [vertex],
    exitFlags := acc.exitFlags ++ [isExitPoint],
    mapEntries := acc.mapEntries ++ [(⟨vertex.originalVertex, order, isExitPoint⟩, i + vertexOffset)] }

/-- The sorting loop of `buildOverlayVertices` for the bucket `v` of one level. -/
def sortBucket (graph : Graph) (v : List OverlayVertex) (vertexOffset : Nat) : SortedBucket :=
  let newToOld := newToOldPosition v
  let oldToNew := oldToNewPosition newToOld
  (List.range v.length).foldl (sortBucketStep graph v newToOld oldToNew vertexOffset)
    { sortedVertices := [], exitFlags := [], mapEntries := [] }

/-- The assignment `map[key] = value` of an `unordered_map<SubVertex, index>`. -/
def subVertexInsert (k : SubVertex) (x : Nat) : List (SubVertex × Nat) → List (SubVertex × Nat)
  | [] => [(k, x)]
  | (k', y) :: rest => if k' = k then (k', x) :: rest else (k', y) :: subVertexInsert k x rest

/-- The result of `buildOverlayVertices`. -/
structure OverlayVertexBuild where
  overlayVertices : List OverlayVertex
  vertexCountInLevel : List Nat
  exitFlagsArray : List Bool
  originalToOverlayVertexMap : List (SubVertex × Nat)
deriving Repr

/-- `OverlayGraph::buildOverlayVertices`. -/
def buildOverlayVertices (graph : Graph) (levelInfo : LevelInfo) (numberOfLevels : Nat) :
    OverlayVertexBuild :=
  let overlayVerticesByLevel := collectOverlayVertices graph levelInfo numberOfLevels
  let vertexCountInLevel := suffixSums (overlayVerticesByLevel.map List.length)
  let sorted := (List.range overlayVerticesByLevel.length).map fun j =>
    sortBucket graph (overlayVerticesByLevel.getD j [])
      (vertexCountInLevel.getD j 0 - (overlayVerticesByLevel.getD j []).length)
  { overlayVertices := (sorted.reverse.map SortedBucket.sortedVertices).flatten,
    vertexCountInLevel := vertexCountInLevel,
    exitFlagsArray := (sorted.reverse.map SortedBucket.exitFlags).flatten,
    originalToOverlayVertexMap :=
      (sorted.map SortedBucket.mapEntries).flatten.foldl
        (fun m p => subVertexInsert p.1 p.2 m) [] }

/-! ### OverlayGraph::buildCells -/

/-- The body of the loop over the overlay vertices `v` of a level in `buildCells`: vertex `v`
is counted in its cell of level `l + 1` and receives its entry or exit point index there. -/
def placeVertex (levelInfo : LevelInfo) (exitFlagsArray : List Bool) (l : Nat)
    (st : List (Nat × Cell) × List OverlayVertex) (v : Nat) :
    List (Nat × Cell) × List OverlayVertex :=
  let vertex := st.2.getD v default
  let isExitPoint := exitFlagsArray.getD v false
  let cellNumberInLevel := levelInfo.truncateToLevel vertex.cellNumber (l + 1)
  match cellFind cellNumberInLevel st.1 with
  | none =>
    (st.1 ++ [(cellNumberInLevel,
        { numEntryPoints := if isExitPoint then 0 else 1,
          numExitPoints := if isExitPoint then 1 else 0,
          cellOffset := 0, overlayIdOffset := 0 })],
      st.2.set v { vertex with entryExitPoint := vertex.entryExitPoint.set l 0 })
  | some cell =>
    if isExitPoint then
      (cellUpdate cellNumberInLevel (fun c => { c with numExitPoints := c.numExitPoints + 1 }) st.1,
        st.2.set v { vertex with entryExitPoint := vertex.entryExitPoint.set l cell.numExitPoints })
    else
      (cellUpdate cellNumberInLevel (fun c => { c with numEntryPoints := c.numEntryPoints + 1 }) st.1,
        st.2.set v { vertex with entryExitPoint := vertex.entryExitPoint.set l cell.numEntryPoints })

/-- The loop "calculate offsets" of `buildCells` over the cells of one level; the state is
`(cells done, overlayIdOffset, cellOffset)`. -/
def assignOffsets : List (Nat × Cell) → Nat → Nat → List (Nat × Cell) × Nat × Nat
  | [], overlayIdOffset, cellOffset => ([], overlayIdOffset, cellOffset)
  | (k, cell) :: rest, overlayIdOffset, cellOffset =>
    let r := assignOffsets rest (overlayIdOffset + (cell.numEntryPoints + cell.numExitPoints))
      (cellOffset + cell.numEntryPoints * cell.numExitPoints)
    ((k, { cell with overlayIdOffset := overlayIdOffset, cellOffset := cellOffset }) :: r.1, r.2)

/-- The state of the first loop over the levels in `buildCells`. -/
structure CellBuild where
  cellMapping : List (List (Nat × Cell))
  overlayVertices : List OverlayVertex
  cellOffset : Nat
  overlayIdOffset : Nat
deriving Repr

/-- The body of the first loop over the levels in `buildCells`, for level index `l`. -/
def buildCellsLevel (levelInfo : LevelInfo) (vertexCountInLevel : List Nat)
    (exitFlagsArray : List Bool) (st : CellBuild) (l : Nat) : CellBuild :=
  let placed := (List.range (vertexCountInLevel.getD l 0)).foldl
    (placeVertex levelInfo exitFlagsArray l) (st.cellMapping.getD l [], st.overlayVertices)
  let r := assignOffsets placed.1 st.overlayIdOffset st.cellOffset
  { cellMapping := st.cellMapping.set l r.1, overlayVertices := placed.2,
    cellOffset := r.2.2, overlayIdOffset := r.2.1 }

/-- The levels `numberOfLevels - 1, ..., 0` in the order of the loops of `buildCells`. -/
def levelsDown (numberOfLevels : Nat) : List Nat := (List.range numberOfLevels).reverse

/-- The body of the loop "fill overlayIdMapping" for vertex `v` on level index `l`. -/
def fillMapping (levelInfo : LevelInfo) (exitFlagsArray : List Bool)
    (overlayVertices : List OverlayVertex) (cellsInLevel : List (Nat × Cell)) (l : Nat)
    (overlayIdMapping : List Nat) (v : Nat) : List Nat :=
  let vertex := overlayVertices.getD v default
  let isExitVertex := exitFlagsArray.getD v false
  let cellNumberInLevel := levelInfo.truncateToLevel vertex.cellNumber (l + 1)
  let cell := (cellFind cellNumberInLevel cellsInLevel).getD default
  let mappingIndex := cell.overlayIdOffset + vertex.entryExitPoint.getD l 0
  let mappingIndex := if isExitVertex then mappingIndex + cell.numEntryPoints else mappingIndex
  overlayIdMapping.set mappingIndex v

/-- `OverlayGraph::buildCells`. -/
def buildCells (levelInfo : LevelInfo) (numberOfLevels : Nat) (b : OverlayVertexBuild) :
    OverlayGraph :=
  let st := (levelsDown numberOfLevels).foldl
    (buildCellsLevel levelInfo b.vertexCountInLevel b.exitFlagsArray)
    { cellMapping := List.replicate numberOfLevels [], overlayVertices := b.overlayVertices,
      cellOffset := 0, overlayIdOffset := 0 }
  let overlayIdMapping := (levelsDown numberOfLevels).foldl
    (fun (m : List Nat) l =>
      (List.range (b.vertexCountInLevel.getD l 0)).foldl
        (fillMapping levelInfo b.exitFlagsArray st.overlayVertices (st.cellMapping.getD l []) l) m)
    (List.replicate st.overlayIdOffset 0)
  { overlayVertices := st.overlayVertices, vertexCountInLevel := b.vertexCountInLevel,
    cellMapping := st.cellMapping, overlayIdMapping := overlayIdMapping,
    levelInfo := levelInfo, weightVectorSize := st.cellOffset }

/-- The constructor `OverlayGraph(graph, mlp)`: the overlay graph, the exit flags of its
vertices, and the graph with its overlay mapping set. -/
def build (graph : Graph) (mlp : MultiLevelPartition) : OverlayGraph × List Bool × Graph :=
  let levelInfo : LevelInfo := ⟨mlp.getPVOffsets⟩
  let b := buildOverlayVertices graph levelInfo mlp.getNumberOfLevels
  (buildCells levelInfo mlp.getNumberOfLevels b, b.exitFlagsArray,
    { graph with overlayVertices := b.originalToOverlayVertexMap })

end OverlayGraph

/-! ## OverlayGraphTest.cpp -/

/-- The graph of `buildGraph` in OverlayGraphTest.cpp. -/
def testGraph : Graph :=
  let attr : EdgeAttributes := ⟨1⟩
  { vertices := [⟨0, 0, 0, 0⟩, ⟨0, 0, 1, 1⟩, ⟨0, 0, 5, 2⟩, ⟨0, 0, 7, 4⟩, ⟨0, 0, 7, 7⟩,
      ⟨0, 0, 8, 9⟩, ⟨0, 0, 10, 10⟩, ⟨0, 0, 12, 12⟩, ⟨0, 0, 13, 13⟩],
    forwardEdges := [⟨4, 0, attr⟩, ⟨0, 0, attr⟩, ⟨2, 0, attr⟩, ⟨4, 1, attr⟩, ⟨6, 0, attr⟩,
      ⟨3, 0, attr⟩, ⟨5, 0, attr⟩, ⟨6, 1, attr⟩, ⟨3, 1, attr⟩, ⟨7, 0, attr⟩, ⟨1, 0, attr⟩,
      ⟨3, 2, attr⟩, ⟨2, 1, attr⟩],
    backwardEdges := [⟨1, 0, attr⟩, ⟨6, 0, attr⟩, ⟨1, 1, attr⟩, ⟨7, 0, attr⟩, ⟨2, 0, attr⟩,
      ⟨5, 0, attr⟩, ⟨6, 1, attr⟩, ⟨0, 0, attr⟩, ⟨1, 2, attr⟩, ⟨2, 1, attr⟩, ⟨1, 3, attr⟩,
      ⟨4, 0, attr⟩, ⟨5, 1, attr⟩],
    turnTables := List.replicate 4 TURN_TYPE.NONE,
    cellNumbers := [], maxEdgesInCell := 0, forwardEdgeCellOffset := [],
    backwardEdgeCellOffset := [], overlayVertices := [] }

/-- The partition of `buildMultiLevelPartition` in OverlayGraphTest.cpp. -/
def testMultiLevelPartition (g : Graph) : MultiLevelPartition :=
  let mlp : MultiLevelPartition := ⟨[], [], []⟩
  let mlp := mlp.setNumberOfLevels 2
  let mlp := mlp.setNumberOfVertices g.numberOfVertices
  let mlp := mlp.setNumberOfCellsInLevel 0 4
  let mlp := mlp.setNumberOfCellsInLevel 1 2
  let mlp := mlp.computeBitmap
  let cells : List Nat := [0, 0, 1, 3, 2, 1, 2, 1]
  let topLeveLCell : List Nat := [0, 0, 1, 1]
  (List.range g.numberOfVertices).foldl
    (fun (m : MultiLevelPartition) v =>
      (m.setCell 0 v (cells.getD v 0)).setCell 1 v (topLeveLCell.getD (cells.getD v 0) 0))
    mlp

/-- The partition that `main` of OverlayGraphTest.cpp builds. -/
def testPartition : MultiLevelPartition := testMultiLevelPartition testGraph

/-- The graph of `main` of OverlayGraphTest.cpp after `buildCellNumbers` and
`sortVerticesByCellNumber`. -/
def testSortedGraph : Graph := (buildCellNumbers testGraph testPartition).sortVerticesByCellNumber

/-- The overlay graph that `main` of OverlayGraphTest.cpp builds, with its exit flags and
the graph with its overlay mapping. -/
def testOverlay : OverlayGraph × List Bool × Graph := OverlayGraph.build testSortedGraph testPartition

/-! ## Notions used to state the properties of the overlay graph -/

/-- The number of `y < n` with key `kf y = k` and flag `fl y = b`. -/
def countKF (kf : Nat → Nat) (fl : Nat → Bool) (k : Nat) (b : Bool) (n : Nat) : Nat :=
  (List.range n).countP (fun y => decide (kf y = k) && (fl y == b))

/-- The fields of an overlay vertex that `buildCells` does not touch, and the length of its
`entryExitPoint`. -/
def OverlayVertex.core (v : OverlayVertex) : Nat × Nat × Nat × Nat × Nat :=
  (v.originalVertex, v.neighborOverlayVertex, v.cellNumber, v.originalEdge,
    v.entryExitPoint.length)

/-- The truncated cell number of the overlay vertex `x` of `verts` on level `l + 1`. -/
def levelKey (levelInfo : LevelInfo) (verts : List OverlayVertex) (l x : Nat) : Nat :=
  levelInfo.truncateToLevel (verts.getD x default).cellNumber (l + 1)

/-- The entry or exit point index that `placeVertex` assigns to vertex `v`. -/
def placeOrdinal (levelInfo : LevelInfo) (exitFlagsArray : List Bool) (l : Nat)
    (st : List (Nat × Cell) × List OverlayVertex) (v : Nat) : Nat :=
  match cellFind (levelKey levelInfo st.2 l v) st.1 with
  | none => 0
  | some cell => if exitFlagsArray.getD v false then cell.numExitPoints else cell.numEntryPoints

/-- Consecutive blocks: the elements of the list occupy `[off a, off a + sz a)`, one after the
other, from `s` to `e`. -/
def Tiled {α : Type} (off sz : α → Nat) : List α → Nat → Nat → Prop
  | [], s, e => s = e
  | a :: rest, s, e => off a = s ∧ Tiled off sz rest (s + sz a) e

/-- The state of the loop over the overlay vertices of level index `l` in `buildCells`
after the vertices `0, ..., n-1`, started on the vertices `verts0`: every cell that has a
vertex is present with its counts, and every vertex placed so far has its ordinal. -/
structure PlaceInv (levelInfo : LevelInfo) (exitFlagsArray : List Bool) (l : Nat)
    (verts0 : List OverlayVertex) (n : Nat) (st : List (Nat × Cell) × List OverlayVertex) :
    Prop where
  len : st.2.length = verts0.length
  core : ∀ x, (st.2.getD x default).core = (verts0.getD x default).core
  ord : ∀ x, x < n → x < verts0.length → l < (verts0.getD x default).entryExitPoint.length →
    (st.2.getD x default).entryExitPoint.getD l 0 =
      countKF (levelKey levelInfo verts0 l) (fun y => exitFlagsArray.getD y false)
        (levelKey levelInfo verts0 l x) (exitFlagsArray.getD x false) x
  other : ∀ x l', l' ≠ l → (st.2.getD x default).entryExitPoint.getD l' 0 =
    (verts0.getD x default).entryExitPoint.getD l' 0
  find : ∀ k, cellFind k st.1 =
    if 0 < countKF (levelKey levelInfo verts0 l) (fun y => exitFlagsArray.getD y false) k false n
        + countKF (levelKey levelInfo verts0 l) (fun y => exitFlagsArray.getD y false) k true n
    then some
      { numEntryPoints :=
          countKF (levelKey levelInfo verts0 l) (fun y => exitFlagsArray.getD y false) k false n,
        numExitPoints :=
          countKF (levelKey levelInfo verts0 l) (fun y => exitFlagsArray.getD y false) k true n,
        cellOffset := 0, overlayIdOffset := 0 }
    else none
  nodup : (st.1.map Prod.fst).Nodup

/-- The cells of the levels `ls` (level indices), tagged `(level index, key, cell)`, in the
order in which `buildCells` assigns their offsets. -/
def taggedCells (cellMapping : List (List (Nat × Cell))) (ls : List Nat) :
    List (Nat × Nat × Cell) :=
  ls.flatMap fun l => (cellMapping.getD l []).map fun p => (l, p.1, p.2)

/-- The state of the first loop over the levels in `buildCells` after the levels `ls`. -/
structure LevelsInv (levelInfo : LevelInfo) (b : OverlayGraph.OverlayVertexBuild)
    (numberOfLevels : Nat) (ls : List Nat) (st : OverlayGraph.CellBuild) : Prop where
  lenMap : st.cellMapping.length = numberOfLevels
  unproc : ∀ l, l ∉ ls → st.cellMapping.getD l [] = []
  len : st.overlayVertices.length = b.overlayVertices.length
  core : ∀ x, (st.overlayVertices.getD x default).core = (b.overlayVertices.getD x default).core
  nodup : ∀ l, l ∈ ls → ((st.cellMapping.getD l []).map Prod.fst).Nodup
  counts : ∀ l, l ∈ ls → ∀ k,
    (cellFind k (st.cellMapping.getD l [])).map (fun x => (x.numEntryPoints, x.numExitPoints)) =
      if 0 < countKF (levelKey levelInfo b.overlayVertices l)
            (fun y => b.exitFlagsArray.getD y false) k false (b.vertexCountInLevel.getD l 0)
          + countKF (levelKey levelInfo b.overlayVertices l)
            (fun y => b.exitFlagsArray.getD y false) k true (b.vertexCountInLevel.getD l 0)
      then some
        (countKF (levelKey levelInfo b.overlayVertices l)
            (fun y => b.exitFlagsArray.getD y false) k false (b.vertexCountInLevel.getD l 0),
          countKF (levelKey levelInfo b.overlayVertices l)
            (fun y => b.exitFlagsArray.getD y false) k true (b.vertexCountInLevel.getD l 0))
      else none
  ord : ∀ l, l ∈ ls → ∀ x, x < b.vertexCountInLevel.getD l 0 → x < b.overlayVertices.length →
    l < (b.overlayVertices.getD x default).entryExitPoint.length →
    (st.overlayVertices.getD x default).entryExitPoint.getD l 0 =
      countKF (levelKey levelInfo b.overlayVertices l) (fun y => b.exitFlagsArray.getD y false)
        (levelKey levelInfo b.overlayVertices l x) (b.exitFlagsArray.getD x false) x
  tiledId : Tiled (fun p : Nat × Nat × Cell => p.2.2.overlayIdOffset)
    (fun p => p.2.2.numEntryPoints + p.2.2.numExitPoints)
    (taggedCells st.cellMapping ls) 0 st.overlayIdOffset
  tiledW : Tiled (fun p : Nat × Nat × Cell => p.2.2.cellOffset)
    (fun p => p.2.2.numEntryPoints * p.2.2.numExitPoints)
    (taggedCells st.cellMapping ls) 0 st.cellOffset

/-- The index of `overlayIdMapping` that `fillMapping` writes for vertex `v` on level index
`l`. -/
def slotOf (levelInfo : LevelInfo) (exitFlagsArray : List Bool)
    (overlayVertices : List OverlayVertex) (cellMapping : List (List (Nat × Cell)))
    (l v : Nat) : Nat :=
  let vertex := overlayVertices.getD v default
  let cell := (cellFind (levelInfo.truncateToLevel vertex.cellNumber (l + 1))
    (cellMapping.getD l [])).getD default
  if exitFlagsArray.getD v false then
    cell.overlayIdOffset + vertex.entryExitPoint.getD l 0 + cell.numEntryPoints
  else cell.overlayIdOffset + vertex.entryExitPoint.getD l 0

/-- The pairs `(level index, vertex)` in the order of the loop "fill overlayIdMapping". -/
def fillPairs (vertexCountInLevel : List Nat) (ls : List Nat) : List (Nat × Nat) :=
  ls.flatMap fun l => (List.range (vertexCountInLevel.getD l 0)).map fun v => (l, v)

/-- What `buildCells` needs of the result of `buildOverlayVertices`: on every level index
`l`, the first `vertexCountInLevel[l]` overlay vertices are exactly the vertices whose
`entryExitPoint` has room for level `l + 1`. -/
structure BuildWF (b : OverlayGraph.OverlayVertexBuild) (numberOfLevels : Nat) : Prop where
  countLe : ∀ l, l < numberOfLevels → b.vertexCountInLevel.getD l 0 ≤ b.overlayVertices.length
  room : ∀ l, l < numberOfLevels → ∀ x, x < b.vertexCountInLevel.getD l 0 →
    l < (b.overlayVertices.getD x default).entryExitPoint.length
  first : ∀ l, l < numberOfLevels → ∀ x, x < b.overlayVertices.length →
    l < (b.overlayVertices.getD x default).entryExitPoint.length →
    x < b.vertexCountInLevel.getD l 0

/-- The state of `buildCells` after its first loop over the levels. -/
def buildCellsState (levelInfo : LevelInfo) (numberOfLevels : Nat)
    (b : OverlayGraph.OverlayVertexBuild) : OverlayGraph.CellBuild :=
  (OverlayGraph.levelsDown numberOfLevels).foldl
    (OverlayGraph.buildCellsLevel levelInfo b.vertexCountInLevel b.exitFlagsArray)
    { cellMapping := List.replicate numberOfLevels [], overlayVertices := b.overlayVertices,
      cellOffset := 0, overlayIdOffset := 0 }

end CRP

namespace CRP

/-! ## CostFunction.h, HopFunction.h, TimeFunction.h, Metric.h -/

/-- `EdgeAttributes::getLength`. -/
def EdgeAttributes.getLength (a : EdgeAttributes) : Nat := a.stdAttributes >>> 12

/-- `EdgeAttributes::getStreetType`, as the number of the street type. -/
def EdgeAttributes.getStreetType (a : EdgeAttributes) : Nat := a.stdAttributes &&& 15

/-- `EdgeAttributes::getSpeed`. -/
def EdgeAttributes.getSpeed (a : EdgeAttributes) : Nat := (a.stdAttributes >>> 4) &&& 255

/-- The abstract class `CostFunction`: an `unsigned` weight for the attributes of an edge and
an `unsigned` cost for a turn type. -/
structure CostFunction where
  getWeight : EdgeAttributes → Nat
  getTurnCosts : TURN_TYPE → Nat

/-- The class `HopFunction`. -/
def HopFunction : CostFunction where
  getWeight := fun _ => 1
  getTurnCosts := fun turnType =>
    match turnType with
    | TURN_TYPE.U_TURN => inf_weight
    | TURN_TYPE.NO_ENTRY => inf_weight
    | _ => 0

/-- The class `TimeFunction`. The floating point expression
`static_cast<weight>(3.6f * length / speed)` is the parameter `toWeight length speed`. -/
def TimeFunction (toWeight : Nat → Nat → Nat) : CostFunction where
  getWeight := fun attributes =>
    let speed := attributes.getSpeed
    let speed :=
      if speed = 0 then
        match attributes.getStreetType with
        | 0 => 100 | 1 => 85 | 2 => 70 | 3 => 60 | 4 => 50 | 5 => 40 | 6 => 20 | 7 => 5
        | 8 => 60 | 9 => 60 | 10 => 55 | 11 => 50 | 12 => 40 | 13 => 5 | 14 => 50 | _ => 30
      else speed
    let length := attributes.getLength
    let w := u32 (toWeight length speed)
    if w > inf_weight then inf_weight else w
  getTurnCosts := fun turnType =>
    match turnType with
    | TURN_TYPE.U_TURN => inf_weight
    | TURN_TYPE.NO_ENTRY => inf_weight
    | _ => 0

/-- The class `Metric`: the cost function, the overlay weights and the tables for stalling,
which only the bidirectional queries read. -/
structure Metric where
  costFunction : CostFunction
  weights : List Nat
  turnTablePtr : List Nat
  turnTableDiffs : List Int

namespace Metric

/-- `Metric::getWeight`. -/
def getWeight (m : Metric) (attributes : EdgeAttributes) : Nat := m.costFunction.getWeight attributes

/-- `Metric::getTurnCosts`. -/
def getTurnCosts (m : Metric) (turnType : TURN_TYPE) : Nat := m.costFunction.getTurnCosts turnType

/-- `Metric::getCellWeight`. -/
def getCellWeight (m : Metric) (offset : Nat) : Nat := m.weights.getD offset 0

/-- `Metric::getMaxEntryTurnTableDiff`; the mask `~(~0 << 16)` is 65535. -/
def getMaxEntryTurnTableDiff (m : Metric) (v offset : Nat) : Int :=
  m.turnTableDiffs.getD (u32 ((m.turnTablePtr.getD v 0 &&& 65535) + offset)) 0

/-- `Metric::getMaxExitTurnTableDiff`. -/
def getMaxExitTurnTableDiff (m : Metric) (v offset : Nat) : Int :=
  m.turnTableDiffs.getD (u32 ((m.turnTablePtr.getD v 0 >>> 16) + offset)) 0

end Metric

/-! ## id_queue.h, QueryResult.h -/

/-- Modelled from the spec: an entry `{id, vertexId, key}` of the queue of base graph labels. -/
structure IDKeyTriple where
  id : Nat
  vertexId : Nat
  key : Nat
deriving DecidableEq, Repr, Inhabited

/-- Modelled from the spec: an entry `{id, key}` of the queue of overlay labels. -/
structure IDKeyPair where
  id : Nat
  key : Nat
deriving DecidableEq, Repr, Inhabited

/-- The id and the key of a queue entry. -/
class IDKey (α : Type) where
  id : α → Nat
  key : α → Nat

instance : IDKey IDKeyTriple := ⟨IDKeyTriple.id, IDKeyTriple.key⟩

instance : IDKey IDKeyPair := ⟨IDKeyPair.id, IDKeyPair.key⟩

namespace MinIDQueue

variable {α : Type} [IDKey α]

/-- Modelled from the spec: `contains_id` of the addressable min-priority queue `MinIDQueue`,
which is a list of entries with pairwise different ids. -/
def contains_id (q : List α) (id : Nat) : Bool := q.any fun x => IDKey.id x == id

/-- Modelled from the spec: `push`. -/
def push (q : List α) (p : α) : List α := q ++ [p]

/-- Modelled from the spec: `decrease_key` replaces the entry with the id of `p`. -/
def decrease_key (q : List α) (p : α) : List α :=
  q.map fun x => if IDKey.id x = IDKey.id p then p else x

/-- The key under which `id` is queued. -/
def keyOf (q : List α) (id : Nat) : Nat :=
  match q.find? fun x => IDKey.id x == id with
  | some x => IDKey.key x
  | none => 0

/-- Modelled from the spec: `pushOrDecrease` pushes an id that is not queued and lowers the
key of an id that is queued with a larger key. -/
def pushOrDecrease (q : List α) (p : α) : List α :=
  if contains_id q (IDKey.id p) then
    if IDKey.key p < keyOf q (IDKey.id p) then decrease_key q p else q
  else push q p

/-- Modelled from the spec: `peek`, an entry with the least key (the first one of them). -/
def peek : List α → Option α
  | [] => none
  | a :: rest =>
    match peek rest with
    | none => some a
    | some b => if IDKey.key b < IDKey.key a then some b else some a

/-- Modelled from the spec: `pop` removes the entry that `peek` shows. -/
def pop (q : List α) : Option (α × List α) :=
  match peek q with
  | none => none
  | some a => some (a, q.filter fun x => IDKey.id x != IDKey.id a)

end MinIDQueue

/-- Modelled from the spec: the struct `QueryResult`, a path and its weight. -/
structure QueryResult where
  path : List Nat
  pathWeight : Nat
deriving DecidableEq, Repr, Inhabited

/-! ## Dijkstra.cpp -/

/-- The members of `Dijkstra` that a query reads and writes. -/
structure Dijkstra where
  dist : List Nat
  round : List Nat
  parent : List VertexIdPair
  currentRound : Nat
  graphPQ : List IDKeyTriple
deriving Repr

namespace Dijkstra

/-- The constructor `Dijkstra::Dijkstra`. -/
def create (graph : Graph) : Dijkstra where
  dist := List.replicate graph.numberOfEdges inf_weight
  round := List.replicate graph.numberOfEdges 0
  parent := List.replicate graph.numberOfEdges default
  currentRound := 0
  graphPQ := []

/-- The object together with the locals `shortestPath` and `tId` of `edgeQuery`. -/
structure Search where
  self : Dijkstra
  shortestPath : Nat
  tId : Nat
deriving Repr

/-- The handler of `forOutEdgesOf` in `Dijkstra::edgeQuery`: the relaxation of one edge out
of `u`, which was entered at the entry point with id `uId`. -/
def relax (graph : Graph) (metric : Metric) (s t u uId : Nat) (st : Search)
    (x : ForwardEdge × Nat × TURN_TYPE) : Search :=
  let e := x.1
  let v := e.head
  let edgeWeight := metric.getWeight e.attributes
  let turnCosts := if u = s ∨ u = t then 0 else metric.getTurnCosts x.2.2
  let newDist := u32 (u32 (st.self.dist.getD uId 0 + turnCosts) + edgeWeight)
  if newDist ≥ inf_weight then st
  else
    let vId := graph.getEntryOffset v + e.entryPoint
    if st.self.round.getD vId 0 < st.self.currentRound ∨ newDist < st.self.dist.getD vId 0 then
      { st with
        self :=
          { st.self with
            dist := st.self.dist.set vId newDist
            graphPQ := MinIDQueue.pushOrDecrease st.self.graphPQ ⟨vId, v, newDist⟩
            round := st.self.round.set vId st.self.currentRound
            parent := st.self.parent.set vId ⟨u, uId⟩ } }
    else st

/-- The `while (!graphPQ.empty())` loop of `Dijkstra::edgeQuery`; `fuel` bounds the number of
iterations, and the result is `none` when it is used up. -/
def loop (graph : Graph) (metric : Metric) (s t : Nat) : Nat → Search → Option Search
  | 0, _ => none
  | fuel + 1, st =>
    match MinIDQueue.pop st.self.graphPQ with
    | none => some st
    | some (triple, q) =>
      let st : Search := { st with self := { st.self with graphPQ := q } }
      let u := triple.vertexId
      let uId := triple.id
      let entryPoint := graph.getEntryOrder u uId
      if st.self.round.getD uId 0 = st.self.currentRound ∧
          st.self.dist.getD uId 0 > st.shortestPath then some st
      else
        let st : Search :=
          if u = t then
            let newShortestPath := st.self.dist.getD uId 0
            if newShortestPath < st.shortestPath then
              { st with shortestPath := newShortestPath, tId := uId }
            else st
          else st
        loop graph metric s t fuel ((graph.forOutEdgesOf u entryPoint).foldl
          (relax graph metric s t u uId) st)

/-- The loop `while (uId != sId)` that collects the path; `fuel` bounds the number of
iterations, and the result is `none` when it is used up. -/
def pathLoop (parent : List VertexIdPair) (sId : Nat) : Nat → Nat → List Nat → Option (List Nat)
  | 0, _, _ => none
  | fuel + 1, uId, path =>
    if uId = sId then some path
    else pathLoop parent sId fuel (parent.getD uId default).id
      (path ++ [(parent.getD uId default).originalVertex])

/-- `Dijkstra::edgeQuery` with the metric `metrics[metricId]`: the result and the object
after the call, or `none` when a loop does not end within `fuel` iterations. The counter
`currentRound` is a `count` of 32 bits, so `currentRound++` wraps. -/
def edgeQuery (graph : Graph) (metric : Metric) (fuel : Nat) (self : Dijkstra)
    (sourceEdgeId targetEdgeId : Nat) : Option (QueryResult × Dijkstra) :=
  let currentRound := u32 (self.currentRound + 1)
  let s := (graph.getForwardEdge sourceEdgeId).head
  let sId := graph.getEntryOffset s + (graph.getForwardEdge sourceEdgeId).entryPoint
  let t := (graph.getBackwardEdge targetEdgeId).tail
  let st : Search :=
    { self :=
        { dist := self.dist.set sId 0
          round := self.round.set sId currentRound
          parent := self.parent.set sId ⟨s, sId⟩
          currentRound := currentRound
          graphPQ := MinIDQueue.push [] ⟨sId, s, 0⟩ }
      shortestPath := 2 * inf_weight
      tId := invalid_id }
  match loop graph metric s t fuel st with
  | none => none
  | some st =>
    if st.shortestPath = 2 * inf_weight then some (⟨[], inf_weight⟩, st.self)
    else
      match pathLoop st.self.parent sId fuel st.tId [t] with
      | none => none
      | some path => some (⟨path.reverse, st.shortestPath⟩, st.self)

/-- `Dijkstra::vertexQuery`. -/
def vertexQuery (graph : Graph) (metric : Metric) (fuel : Nat) (self : Dijkstra)
    (sourceVertexId targetVertexId : Nat) : Option (QueryResult × Dijkstra) :=
  let backwardEdgeToStart := graph.getBackwardEdge (graph.getEntryOffset sourceVertexId)
  let sourceEdgeId := graph.getExitOffset backwardEdgeToStart.tail + backwardEdgeToStart.exitPoint
  let forwardEdgeFromTarget := graph.getForwardEdge (graph.getExitOffset targetVertexId)
  let targetEdgeId :=
    graph.getEntryOffset forwardEdgeFromTarget.head + forwardEdgeFromTarget.entryPoint
  edgeQuery graph metric fuel self sourceEdgeId targetEdgeId

end Dijkstra

/-! ## OverlayWeights.cpp -/

namespace OverlayWeights

/-- The scratch vectors of one thread in `buildLowestLevel`, with the vector `overlayDist`
and the member `weights`. The embedding runs the cells one after the other on the thread 0
(`omp_get_max_threads() = 1`). -/
structure Lowest where
  dist : List Nat
  round : List Nat
  currentRound : Nat
  queue : List IDKeyTriple
  overlayDist : List Nat
  weights : List Nat
deriving Repr

/-- The handler of `forOutEdgesOf` in `buildLowestLevel`. -/
def lowestRelax (graph : Graph) (costFunction : CostFunction) (cellNumber forwardCellOffset : Nat)
    (minTriple : IDKeyTriple) (st : Lowest) (x : ForwardEdge × Nat × TURN_TYPE) : Lowest :=
  let edge := x.1
  let exitPoint := x.2.1
  let u := minTriple.vertexId
  let v := edge.head
  let exitPointDist := u32 (minTriple.key + costFunction.getTurnCosts x.2.2)
  let newDist := u32 (exitPointDist + costFunction.getWeight edge.attributes)
  if newDist ≥ inf_weight then st
  else if graph.getCellNumber v = cellNumber then
    let vId := graph.getEntryOffset v + edge.entryPoint - forwardCellOffset
    if st.round.getD vId 0 = st.currentRound ∧ newDist ≥ st.dist.getD vId 0 then st
    else
      { st with
        dist := st.dist.set vId newDist
        round := st.round.set vId st.currentRound
        queue := MinIDQueue.pushOrDecrease st.queue ⟨vId, v, newDist⟩ }
  else
    let exitOverlay := graph.getOverlayVertex u exitPoint true
    if exitPointDist < st.overlayDist.getD exitOverlay 0 then
      { st with overlayDist := st.overlayDist.set exitOverlay exitPointDist }
    else st

/-- The `while (!queue.empty())` loop of `buildLowestLevel`; `none` when it does not end
within `fuel` iterations. -/
def lowestLoop (graph : Graph) (costFunction : CostFunction) (cellNumber forwardCellOffset : Nat) :
    Nat → Lowest → Option Lowest
  | 0, _ => none
  | fuel + 1, st =>
    match MinIDQueue.pop st.queue with
    | none => some st
    | some (minTriple, q) =>
      let st : Lowest := { st with queue := q }
      let uId := minTriple.id
      let u := minTriple.vertexId
      lowestLoop graph costFunction cellNumber forwardCellOffset fuel
        ((graph.forOutEdgesOf u (graph.getEntryOrder u (uId + forwardCellOffset))).foldl
          (lowestRelax graph costFunction cellNumber forwardCellOffset minTriple) st)

/-- The loop over the exit points `j` that stores the weights of the entry point `i`. -/
def lowestStore (overlayGraph : OverlayGraph) (cell : Cell) (i : Nat) (st : Lowest) (j : Nat) :
    Lowest :=
  let exitPoint := overlayGraph.getExitPoint cell j
  { st with
    weights := st.weights.set (cell.cellOffset + i * cell.numExitPoints + j)
      (st.overlayDist.getD exitPoint 0)
    overlayDist := st.overlayDist.set exitPoint inf_weight }

/-- The body of the loop over the entry points `i` of a cell in `buildLowestLevel`. The
counter `currentRound` starts at 0 in `buildLowestLevel` and counts the entry points of the
level, whose ids are of type `index`, so it stays below `2^32` and is not reduced. -/
def lowestEntry (graph : Graph) (overlayGraph : OverlayGraph) (costFunction : CostFunction)
    (fuel : Nat) (cell : Cell) (cellNumber : Nat) (st : Lowest) (i : Nat) : Option Lowest :=
  let startOverlay := overlayGraph.getEntryPoint cell i
  let overlayVertex := overlayGraph.getVertex startOverlay
  let start := overlayVertex.originalVertex
  let forwardCellOffset := graph.getBackwardEdgeCellOffset start
  let startId := overlayVertex.originalEdge - forwardCellOffset
  let currentRound := st.currentRound + 1
  let st : Lowest :=
    { st with
      currentRound := currentRound
      dist := st.dist.set startId 0
      round := st.round.set startId currentRound
      queue := MinIDQueue.push st.queue ⟨startId, start, 0⟩ }
  match lowestLoop graph costFunction cellNumber forwardCellOffset fuel st with
  | none => none
  | some st => some ((List.range cell.numExitPoints).foldl (lowestStore overlayGraph cell i) st)

/-- `OverlayWeights::buildLowestLevel`, started with the member `weights`. -/
def buildLowestLevel (graph : Graph) (overlayGraph : OverlayGraph) (costFunction : CostFunction)
    (fuel : Nat) (weights : List Nat) : Option (List Nat) :=
  let st : Lowest :=
    { dist := List.replicate graph.maxEdgesInCell inf_weight
      round := List.replicate graph.maxEdgesInCell 0
      currentRound := 0
      queue := []
      overlayDist := List.replicate overlayGraph.numberOfVertices inf_weight
      weights := weights }
  ((overlayGraph.forCells 1).foldl
    (fun (st : Option Lowest) (p : Nat × Cell) =>
      (List.range p.2.numEntryPoints).foldl
        (fun (st : Option Lowest) i =>
          st.bind fun st => lowestEntry graph overlayGraph costFunction fuel p.2 p.1 st i) st)
    (some st)).map fun st => st.weights

/-- The scratch vectors of one thread in `buildLevel`, with the member `weights`. -/
structure Upper where
  dist : List Nat
  round : List Nat
  currentRound : Nat
  queue : List IDKeyPair
  weights : List Nat
deriving Repr

/-- The handler of `forOutNeighborsOf` in `buildLevel`. -/
def levelRelax (graph : Graph) (overlayGraph : OverlayGraph) (costFunction : CostFunction)
    (l truncatedCellNumber : Nat) (minPair : IDKeyPair) (st : Upper) (x : Nat × Nat) : Upper :=
  let exit := x.1
  let w := x.2
  let newDist := u32 (minPair.key + st.weights.getD w 0)
  if newDist ≥ inf_weight then st
  else if st.round.getD exit 0 = st.currentRound ∧ newDist ≥ st.dist.getD exit 0 then st
  else
    let st : Upper :=
      { st with dist := st.dist.set exit newDist, round := st.round.set exit st.currentRound }
    let exitVertex := overlayGraph.getVertex exit
    let neighbor := exitVertex.neighborOverlayVertex
    let neighborVertex := overlayGraph.getVertex neighbor
    if overlayGraph.levelInfo.truncateToLevel neighborVertex.cellNumber l ≠ truncatedCellNumber
    then st
    else
      let edgeWeight := costFunction.getWeight (graph.getForwardEdge exitVertex.originalEdge).attributes
      let st : Upper := { st with dist := st.dist.set neighbor (u32 (newDist + edgeWeight)) }
      if MinIDQueue.contains_id st.queue neighbor then
        { st with queue := MinIDQueue.decrease_key st.queue ⟨neighbor, u32 (newDist + edgeWeight)⟩ }
      else
        { st with
          queue := MinIDQueue.push st.queue ⟨neighbor, u32 (newDist + edgeWeight)⟩
          round := st.round.set neighbor st.currentRound }

/-- The `while (!queue.empty())` loop of `buildLevel`; `none` when it does not end within
`fuel` iterations. -/
def levelLoop (graph : Graph) (overlayGraph : OverlayGraph) (costFunction : CostFunction)
    (l truncatedCellNumber : Nat) : Nat → Upper → Option Upper
  | 0, _ => none
  | fuel + 1, st =>
    match MinIDQueue.pop st.queue with
    | none => some st
    | some (minPair, q) =>
      let st : Upper := { st with queue := q }
      let entry := minPair.id
      levelLoop graph overlayGraph costFunction l truncatedCellNumber fuel
        ((overlayGraph.forOutNeighborsOf entry (l - 1)).foldl
          (levelRelax graph overlayGraph costFunction l truncatedCellNumber minPair) st)

/-- The loop over the exit points `j` that stores the weights of the entry point `i`. -/
def levelStore (overlayGraph : OverlayGraph) (cell : Cell) (i : Nat) (st : Upper) (j : Nat) :
    Upper :=
  let exit := overlayGraph.getExitPoint cell j
  { st with
    weights := st.weights.set (cell.cellOffset + i * cell.numExitPoints + j)
      (if st.round.getD exit 0 = st.currentRound then st.dist.getD exit 0 else inf_weight) }

/-- The body of the loop over the entry points `i` of a cell in `buildLevel`. The counter
`currentRound` starts at 0 in `buildLevel` and counts the entry points of the level, whose
ids are of type `index`, so it stays below `2^32` and is not reduced. -/
def levelEntry (graph : Graph) (overlayGraph : OverlayGraph) (costFunction : CostFunction)
    (fuel l : Nat) (cell : Cell) (truncatedCellNumber : Nat) (st : Upper) (i : Nat) :
    Option Upper :=
  let start := overlayGraph.getEntryPoint cell i
  let currentRound := st.currentRound + 1
  let st : Upper :=
    { st with
      currentRound := currentRound
      dist := st.dist.set start 0
      round := st.round.set start currentRound
      queue := MinIDQueue.push st.queue ⟨start, 0⟩ }
  match levelLoop graph overlayGraph costFunction l truncatedCellNumber fuel st with
  | none => none
  | some st => some ((List.range cell.numExitPoints).foldl (levelStore overlayGraph cell i) st)

/-- `OverlayWeights::buildLevel`, started with the member `weights`. -/
def buildLevel (graph : Graph) (overlayGraph : OverlayGraph) (costFunction : CostFunction)
    (fuel : Nat) (weights : List Nat) (l : Nat) : Option (List Nat) :=
  let numberOfOverlayVertices := overlayGraph.numberOfVerticesInLevel (l - 1)
  let st : Upper :=
    { dist := List.replicate numberOfOverlayVertices inf_weight
      round := List.replicate numberOfOverlayVertices 0
      currentRound := 0
      queue := []
      weights := weights }
  ((overlayGraph.forCells l).foldl
    (fun (st : Option Upper) (p : Nat × Cell) =>
      (List.range p.2.numEntryPoints).foldl
        (fun (st : Option Upper) i =>
          st.bind fun st => levelEntry graph overlayGraph costFunction fuel l p.2 p.1 st i) st)
    (some st)).map fun st => st.weights

/-- `OverlayWeights::build` after the constructor has filled `weights` with `inf_weight`:
the lowest level, then the levels `2, ..., getLevelCount()`. -/
def build (graph : Graph) (overlayGraph : OverlayGraph) (costFunction : CostFunction)
    (fuel : Nat) : Option (List Nat) :=
  (List.range' 2 (overlayGraph.levelInfo.getLevelCount - 1)).foldl
    (fun (weights : Option (List Nat)) l =>
      weights.bind fun weights => buildLevel graph overlayGraph costFunction fuel weights l)
    (buildLowestLevel graph overlayGraph costFunction fuel
      (List.replicate overlayGraph.getWeightVectorSize inf_weight))

end OverlayWeights

/-! ## Metric.h: the tables for stalling -/

/-- The value of an expression of type `int`: the representative of `x` modulo `2^32` between
`-2^31` and `2^31 - 1`; also the conversion `(int)` of an `unsigned` value. -/
def toInt32 (x : Int) : Int := (x + 2147483648) % 4294967296 - 2147483648

namespace Metric

/-- The difference `(int) T(i, k) - (int) T(j, k)` of the turn costs at `v` from the entry
points `i` and `j` to the exit point `k`. -/
def entryDiff (graph : Graph) (costFunction : CostFunction) (v i j k : Nat) : Int :=
  toInt32 (toInt32 (costFunction.getTurnCosts (graph.getTurnType v i k)) -
    toInt32 (costFunction.getTurnCosts (graph.getTurnType v j k)))

/-- The difference `(int) T(k, i) - (int) T(k, j)` of the turn costs at `v` from the entry
point `k` to the exit points `i` and `j`. -/
def exitDiff (graph : Graph) (costFunction : CostFunction) (v i j k : Nat) : Int :=
  toInt32 (toInt32 (costFunction.getTurnCosts (graph.getTurnType v k i)) -
    toInt32 (costFunction.getTurnCosts (graph.getTurnType v k j)))

/-- The vector `entryTurnTableDifferences` of the vertex `v` in the constructor: the entry
`i * n + j` is `maxDiff` after the loop over `k = 1, ..., m - 1`. -/
def entryTurnTableDifferences (graph : Graph) (costFunction : CostFunction) (v : Nat) :
    List Int :=
  let n := graph.getInDegree v
  let m := graph.getOutDegree v
  (List.range n).flatMap fun i => (List.range n).map fun j =>
    (List.range' 1 (m - 1)).foldl
      (fun maxDiff k => max maxDiff (entryDiff graph costFunction v i j k))
      (entryDiff graph costFunction v i j 0)

/-- The vector `exitTurnTableDifferences` of the vertex `v` in the constructor: the entry
`i * m + j` is `maxDiff` after the loop over `k = 1, ..., n - 1`. -/
def exitTurnTableDifferences (graph : Graph) (costFunction : CostFunction) (v : Nat) :
    List Int :=
  let n := graph.getInDegree v
  let m := graph.getOutDegree v
  (List.range m).flatMap fun i => (List.range m).map fun j =>
    (List.range' 1 (n - 1)).foldl
      (fun maxDiff k => max maxDiff (exitDiff graph costFunction v i j k))
      (exitDiff graph costFunction v i j 0)

/-- The locals `matrixOffset` and `matrixMap` and the members `turnTableDiffs` and
`turnTablePtr` in the loop of the constructor over the vertices. -/
structure TurnTableBuild where
  matrixOffset : Nat
  matrixMap : List (List Int × Nat)
  turnTableDiffs : List Int
  turnTablePtr : List Nat
deriving Repr

/-- The lookup `matrixMap.find`. -/
def matrixFind (key : List Int) : List (List Int × Nat) → Option Nat
  | [] => none
  | (k, x) :: rest => if k = key then some x else matrixFind key rest

/-- The offset of the matrix `differences` in `turnTableDiffs`: the one under which
`matrixMap` holds it, or `matrixOffset` after the matrix is appended. -/
def storeMatrix (st : TurnTableBuild) (differences : List Int) : Nat × TurnTableBuild :=
  match matrixFind differences st.matrixMap with
  | some offset => (offset, st)
  | none =>
    (st.matrixOffset,
      { st with
        matrixMap := st.matrixMap ++ [(differences, st.matrixOffset)]
        turnTableDiffs := st.turnTableDiffs ++ differences
        matrixOffset := u32 (st.matrixOffset + differences.length) })

/-- The body of the loop of the constructor over the vertices `v`. -/
def turnTableStep (graph : Graph) (costFunction : CostFunction) (st : TurnTableBuild)
    (v : Nat) : TurnTableBuild :=
  let n := graph.getInDegree v
  let m := graph.getOutDegree v
  if n = 0 ∨ m = 0 then st
  else
    let entry := storeMatrix st (entryTurnTableDifferences graph costFunction v)
    let st : TurnTableBuild :=
      { entry.2 with turnTablePtr := entry.2.turnTablePtr.set v entry.1 }
    let exit := storeMatrix st (exitTurnTableDifferences graph costFunction v)
    { exit.2 with
      turnTablePtr := exit.2.turnTablePtr.set v
        (exit.2.turnTablePtr.getD v 0 ||| u32 (exit.1 <<< 16)) }

/-- The loop of the constructor that fills `turnTablePtr` and `turnTableDiffs`. -/
def buildTurnTables (graph : Graph) (costFunction : CostFunction) : TurnTableBuild :=
  (List.range graph.numberOfVertices).foldl (turnTableStep graph costFunction)
    { matrixOffset := 0, matrixMap := [], turnTableDiffs := [],
      turnTablePtr := List.replicate graph.numberOfVertices 0 }

end Metric

/-- The constructor `Metric::Metric(graph, overlayGraph, costFunction)`. -/
def Metric.create (graph : Graph) (overlayGraph : OverlayGraph) (costFunction : CostFunction)
    (fuel : Nat) : Option Metric :=
  (OverlayWeights.build graph overlayGraph costFunction fuel).map fun weights =>
    { costFunction := costFunction, weights := weights,
      turnTablePtr := (Metric.buildTurnTables graph costFunction).turnTablePtr,
      turnTableDiffs := (Metric.buildTurnTables graph costFunction).turnTableDiffs }

/-! ## PathUnpacker.cpp -/

/-- The members of `PathUnpacker` that `unpackPath` reads and writes; the two queues are
empty between the calls. -/
structure PathUnpacker where
  dist : List Nat
  round : List Nat
  parent : List VertexIdPair
  currentRound : Nat
deriving Repr

namespace PathUnpacker

/-- The constructor `PathUnpacker::PathUnpacker`. -/
def create (graph : Graph) (overlayGraph : OverlayGraph) : PathUnpacker where
  dist := List.replicate (graph.numberOfEdges + overlayGraph.numberOfVertices) 0
  round := List.replicate (graph.numberOfEdges + overlayGraph.numberOfVertices) 0
  parent := List.replicate (graph.numberOfEdges + overlayGraph.numberOfVertices) default
  currentRound := 1

/-- The handler of `forOutEdgesOf` in `unpackPathInLowestLevelCell`. -/
def lowestRelax (graph : Graph) (metric : Metric) (cellNumber targetId : Nat)
    (minTriple : IDKeyTriple) (st : PathUnpacker × List IDKeyTriple)
    (x : ForwardEdge × Nat × TURN_TYPE) : PathUnpacker × List IDKeyTriple :=
  let edge := x.1
  let headVertex := edge.head
  let headId := graph.getEntryOffset headVertex + edge.entryPoint
  if graph.getCellNumber headVertex ≠ cellNumber ∧ headId ≠ targetId then st
  else
    let newDist :=
      u32 (u32 (minTriple.key + metric.getTurnCosts x.2.2) + metric.getWeight edge.attributes)
    if newDist > inf_weight then st
    else if st.1.round.getD headId 0 = st.1.currentRound ∧ st.1.dist.getD headId 0 ≤ newDist
    then st
    else
      ({ st.1 with
          round := st.1.round.set headId st.1.currentRound
          dist := st.1.dist.set headId newDist
          parent := st.1.parent.set headId ⟨minTriple.vertexId, minTriple.id⟩ },
        MinIDQueue.pushOrDecrease st.2 ⟨headId, headVertex, newDist⟩)

/-- The `while (!graphPQ.empty())` loop of `unpackPathInLowestLevelCell`; `none` when it
does not end within `fuel` iterations. -/
def lowestLoop (graph : Graph) (metric : Metric) (cellNumber targetId : Nat) :
    Nat → PathUnpacker × List IDKeyTriple → Option PathUnpacker
  | 0, _ => none
  | fuel + 1, st =>
    match MinIDQueue.pop st.2 with
    | none => some st.1
    | some (minTriple, q) =>
      if minTriple.id = targetId then some st.1
      else
        lowestLoop graph metric cellNumber targetId fuel
          ((graph.forOutEdgesOf minTriple.vertexId
              (graph.getEntryOrder minTriple.vertexId minTriple.id)).foldl
            (lowestRelax graph metric cellNumber targetId minTriple) (st.1, q))

/-- The loop `while (parent[uId].id != sourceId)` of `unpackPathInLowestLevelCell`. -/
def lowestPath (parent : List VertexIdPair) (sourceId : Nat) :
    Nat → Nat → List Nat → Option (List Nat)
  | 0, _, _ => none
  | fuel + 1, uId, path =>
    if (parent.getD uId default).id ≠ sourceId then
      lowestPath parent sourceId fuel (parent.getD uId default).id
        (path ++ [(parent.getD uId default).originalVertex])
    else some (path ++ [(parent.getD uId default).originalVertex])

/-- `PathUnpacker::unpackPathInLowestLevelCell`. The counter `currentRound` is a `count` of
32 bits, so `currentRound++` wraps. -/
def unpackPathInLowestLevelCell (graph : Graph) (metric : Metric) (fuel : Nat)
    (self : PathUnpacker) (sourceId targetId : Nat) (result : List Nat) :
    Option (PathUnpacker × List Nat) :=
  let sourceVertex := graph.getHeadOfBackwardEdge sourceId
  let cellNumber := graph.getCellNumber sourceVertex
  let currentRound := u32 (self.currentRound + 1)
  let self : PathUnpacker :=
    { self with
      currentRound := currentRound
      dist := self.dist.set sourceId 0
      round := self.round.set sourceId currentRound }
  match lowestLoop graph metric cellNumber targetId fuel
      (self, MinIDQueue.push [] ⟨sourceId, sourceVertex, 0⟩) with
  | none => none
  | some self =>
    match lowestPath self.parent sourceId fuel targetId [] with
    | none => none
    | some path => some (self, result ++ path.reverse)

/-- The handler of `forOutNeighborsOf` in `unpackPathInOverlayCell`. -/
def overlayRelax (graph : Graph) (overlayGraph : OverlayGraph) (metric : Metric)
    (l truncatedCellNumber targetId : Nat) (minPair : IDKeyPair)
    (st : PathUnpacker × List IDKeyPair) (x : Nat × Nat) : PathUnpacker × List IDKeyPair :=
  let exit := x.1
  let newDist := u32 (minPair.key + metric.getCellWeight x.2)
  if st.1.round.getD exit 0 = st.1.currentRound ∧ st.1.dist.getD exit 0 ≤ newDist then st
  else
    let self : PathUnpacker :=
      { st.1 with
        dist := st.1.dist.set exit newDist
        round := st.1.round.set exit st.1.currentRound
        parent := st.1.parent.set exit ⟨(overlayGraph.getVertex minPair.id).originalVertex,
          minPair.id⟩ }
    let q := if exit = targetId then MinIDQueue.pushOrDecrease st.2 ⟨exit, newDist⟩ else st.2
    let entry := (overlayGraph.getVertex exit).neighborOverlayVertex
    let entryCellNumber := (overlayGraph.getVertex entry).cellNumber
    if overlayGraph.levelInfo.truncateToLevel entryCellNumber l ≠ truncatedCellNumber then (self, q)
    else
      let fEdge := graph.getForwardEdge (overlayGraph.getVertex exit).originalEdge
      let newDist := u32 (newDist + metric.getWeight fEdge.attributes)
      ({ self with
          dist := self.dist.set entry newDist
          round := self.round.set entry self.currentRound
          parent := self.parent.set entry ⟨(overlayGraph.getVertex exit).originalVertex, exit⟩ },
        MinIDQueue.pushOrDecrease q ⟨entry, newDist⟩)

/-- The `while (!overlayGraphPQ.empty())` loop of `unpackPathInOverlayCell`; `none` when it
does not end within `fuel` iterations. -/
def overlayLoop (graph : Graph) (overlayGraph : OverlayGraph) (metric : Metric)
    (l truncatedCellNumber targetId : Nat) :
    Nat → PathUnpacker × List IDKeyPair → Option PathUnpacker
  | 0, _ => none
  | fuel + 1, st =>
    match MinIDQueue.pop st.2 with
    | none => some st.1
    | some (minPair, q) =>
      if minPair.id = targetId then some st.1
      else
        overlayLoop graph overlayGraph metric l truncatedCellNumber targetId fuel
          ((overlayGraph.forOutNeighborsOf minPair.id (l - 1)).foldl
            (overlayRelax graph overlayGraph metric l truncatedCellNumber targetId minPair)
            (st.1, q))

/-- The loop `while (uId != sourceId)` of `unpackPathInOverlayCell`. -/
def overlayPath (parent : List VertexIdPair) (sourceId : Nat) :
    Nat → Nat → List Nat → Option (List Nat)
  | 0, _, _ => none
  | fuel + 1, uId, path =>
    if uId ≠ sourceId then
      overlayPath parent sourceId fuel (parent.getD uId default).id
        (path ++ [(parent.getD uId default).id])
    else some path

/-- The pairs `(*it, *(it+1))` of the loop `for (it = rbegin; it != rend; it += 2)`; `none`
when the number of elements is odd. -/
def pairs : List Nat → Option (List (Nat × Nat))
  | [] => some []
  | [_] => none
  | a :: b :: rest => (pairs rest).map fun ps => (a, b) :: ps

/-- `PathUnpacker::unpackPathInOverlayCell`. The recursion is on the level `l`; a call with
`l = 0` is outside the embedding. The counter `currentRound` is a `count` of 32 bits, so
`currentRound++` wraps. -/
def unpackPathInOverlayCell (graph : Graph) (overlayGraph : OverlayGraph) (metric : Metric)
    (fuel : Nat) : Nat → PathUnpacker → Nat → Nat → List Nat → Option (PathUnpacker × List Nat)
  | 0, _, _, _, _ => none
  | l + 1, self, sourceId, targetId, result =>
    if l + 1 = 1 then
      let newSourceId := (overlayGraph.getVertex sourceId).originalEdge
      let neighborOfTarget := (overlayGraph.getVertex targetId).neighborOverlayVertex
      let newTargetId := (overlayGraph.getVertex neighborOfTarget).originalEdge
      unpackPathInLowestLevelCell graph metric fuel self newSourceId newTargetId result
    else
      let truncatedCellNumber :=
        overlayGraph.levelInfo.truncateToLevel (overlayGraph.getVertex sourceId).cellNumber (l + 1)
      let currentRound := u32 (self.currentRound + 1)
      let self : PathUnpacker :=
        { self with
          currentRound := currentRound
          dist := self.dist.set sourceId 0
          round := self.round.set sourceId currentRound }
      match overlayLoop graph overlayGraph metric (l + 1) truncatedCellNumber targetId fuel
          (self, MinIDQueue.push [] ⟨sourceId, 0⟩) with
      | none => none
      | some self =>
        match overlayPath self.parent sourceId fuel targetId [targetId] with
        | none => none
        | some overlayPath =>
          match pairs overlayPath.reverse with
          | none => none
          | some ps =>
            ps.foldl
              (fun (acc : Option (PathUnpacker × List Nat)) (p : Nat × Nat) =>
                acc.bind fun acc =>
                  unpackPathInOverlayCell graph overlayGraph metric fuel l acc.1 p.1 p.2 acc.2)
              (some (self, result))

/-- The loop of `PathUnpacker::unpackPath` over the packed path. -/
def unpackLoop (graph : Graph) (overlayGraph : OverlayGraph) (metric : Metric) (fuel : Nat)
    (sourceCellNumber targetCellNumber : Nat) :
    List VertexIdPair → PathUnpacker → List Nat → Option (PathUnpacker × List Nat)
  | [], self, result => some (self, result)
  | p :: rest, self, result =>
    if p.id < graph.numberOfEdges then
      unpackLoop graph overlayGraph metric fuel sourceCellNumber targetCellNumber rest self
        (result ++ [p.originalVertex])
    else
      let entryVertex := p.id - graph.numberOfEdges
      let cellNumber := (overlayGraph.getVertex entryVertex).cellNumber
      let queryLevel :=
        overlayGraph.levelInfo.getQueryLevel sourceCellNumber targetCellNumber cellNumber
      match rest with
      | [] => none
      | p' :: rest' =>
        let exitVertex := p'.id - graph.numberOfEdges
        match unpackPathInOverlayCell graph overlayGraph metric fuel queryLevel self entryVertex
            exitVertex result with
        | none => none
        | some (self, result) =>
          unpackLoop graph overlayGraph metric fuel sourceCellNumber targetCellNumber rest' self
            result

/-- `PathUnpacker::unpackPath` with the metric `metrics[metricId]`. -/
def unpackPath (graph : Graph) (overlayGraph : OverlayGraph) (metric : Metric) (fuel : Nat)
    (self : PathUnpacker) (packedPath : List VertexIdPair)
    (sourceCellNumber targetCellNumber : Nat) : Option (PathUnpacker × List Nat) :=
  unpackLoop graph overlayGraph metric fuel sourceCellNumber targetCellNumber packedPath self []

end PathUnpacker

/-! ## CRPQueryUni.cpp -/

/-- The members of `CRPQueryUni` that a query reads and writes. -/
structure CRPQueryUni where
  dist : List Nat
  round : List Nat
  parent : List VertexIdPair
  currentRound : Nat
  graphPQ : List IDKeyTriple
  overlayGraphPQ : List IDKeyPair
deriving Repr

namespace CRPQueryUni

/-- The constructor `CRPQueryUni::CRPQueryUni`. -/
def create (graph : Graph) (overlayGraph : OverlayGraph) : CRPQueryUni where
  dist := List.replicate (graph.numberOfEdges + overlayGraph.numberOfVertices) inf_weight
  round := List.replicate (graph.numberOfEdges + overlayGraph.numberOfVertices) 0
  parent := List.replicate (graph.numberOfEdges + overlayGraph.numberOfVertices) default
  currentRound := 0
  graphPQ := []
  overlayGraphPQ := []

/-- The object together with the locals `shortestPath` and `tId` of `edgeQuery`. -/
structure Search where
  self : CRPQueryUni
  shortestPath : Nat
  tId : Nat
deriving Repr

/-- The handler of `forOutEdgesOf` in `CRPQueryUni::edgeQuery`. -/
def relaxGraph (graph : Graph) (overlayGraph : OverlayGraph) (metric : Metric)
    (s t sCellNumber tCellNumber u uId : Nat) (st : Search)
    (x : ForwardEdge × Nat × TURN_TYPE) : Search :=
  let e := x.1
  let v := e.head
  let vQueryLevel := overlayGraph.getQueryLevel sCellNumber tCellNumber (graph.getCellNumber v)
  let edgeWeight := metric.getWeight e.attributes
  let turnCosts := if u = s ∨ u = t then 0 else metric.getTurnCosts x.2.2
  let newDist := u32 (u32 (st.self.dist.getD uId 0 + turnCosts) + edgeWeight)
  if newDist ≥ inf_weight then st
  else if vQueryLevel = 0 then
    let vId := graph.getEntryOffset v + e.entryPoint
    if st.self.round.getD vId 0 < st.self.currentRound ∨ newDist < st.self.dist.getD vId 0 then
      { st with
        self :=
          { st.self with
            dist := st.self.dist.set vId newDist
            graphPQ := MinIDQueue.pushOrDecrease st.self.graphPQ ⟨vId, v, newDist⟩
            round := st.self.round.set vId st.self.currentRound
            parent := st.self.parent.set vId ⟨u, uId⟩ } }
    else st
  else
    let v := graph.getOverlayVertex v e.entryPoint false
    let vId := v + graph.numberOfEdges
    if st.self.round.getD vId 0 < st.self.currentRound ∨ newDist < st.self.dist.getD vId 0 then
      { st with
        self :=
          { st.self with
            dist := st.self.dist.set vId newDist
            overlayGraphPQ := MinIDQueue.pushOrDecrease st.self.overlayGraphPQ ⟨v, newDist⟩
            round := st.self.round.set vId st.self.currentRound
            parent := st.self.parent.set vId ⟨u, uId⟩ } }
    else st

/-- The handler of `forOutNeighborsOf` in `CRPQueryUni::edgeQuery`. -/
def relaxOverlay (graph : Graph) (overlayGraph : OverlayGraph) (metric : Metric)
    (sCellNumber tCellNumber u uId : Nat) (st : Search) (x : Nat × Nat) : Search :=
  let v := x.1
  let newDist := u32 (st.self.dist.getD uId 0 + metric.getCellWeight x.2)
  if newDist ≥ inf_weight then st
  else
    let vId := v + graph.numberOfEdges
    if st.self.round.getD vId 0 < st.self.currentRound ∨ newDist < st.self.dist.getD vId 0 then
      let st : Search :=
        { st with
          self :=
            { st.self with
              dist := st.self.dist.set vId newDist
              round := st.self.round.set vId st.self.currentRound
              parent := st.self.parent.set vId ⟨(overlayGraph.getVertex u).originalVertex, uId⟩ } }
      let w := (overlayGraph.getVertex v).neighborOverlayVertex
      let fEdge := graph.getForwardEdge (overlayGraph.getVertex v).originalEdge
      let newDist := u32 (st.self.dist.getD vId 0 + metric.getWeight fEdge.attributes)
      if newDist ≥ inf_weight then st
      else
        let wQueryLevel := overlayGraph.getQueryLevel sCellNumber tCellNumber
          (overlayGraph.getVertex w).cellNumber
        if wQueryLevel = 0 then
          let originalW := (overlayGraph.getVertex w).originalVertex
          let originalWId := graph.getEntryOffset originalW + fEdge.entryPoint
          if st.self.round.getD originalWId 0 < st.self.currentRound ∨
              newDist < st.self.dist.getD originalWId 0 then
            { st with
              self :=
                { st.self with
                  dist := st.self.dist.set originalWId newDist
                  graphPQ := MinIDQueue.pushOrDecrease st.self.graphPQ
                    ⟨originalWId, originalW, newDist⟩
                  round := st.self.round.set originalWId st.self.currentRound
                  parent := st.self.parent.set originalWId
                    ⟨(overlayGraph.getVertex v).originalVertex, vId⟩ } }
          else st
        else
          let wId := w + graph.numberOfEdges
          if st.self.round.getD wId 0 < st.self.currentRound ∨
              newDist < st.self.dist.getD wId 0 then
            { st with
              self :=
                { st.self with
                  dist := st.self.dist.set wId newDist
                  overlayGraphPQ := MinIDQueue.pushOrDecrease st.self.overlayGraphPQ ⟨w, newDist⟩
                  round := st.self.round.set wId st.self.currentRound
                  parent := st.self.parent.set wId
                    ⟨(overlayGraph.getVertex v).originalVertex, vId⟩ } }
          else st
    else st

/-- The test `overlayGraphPQ.empty() || (!graphPQ.empty() && graphPQ.peek().key <
overlayGraphPQ.peek().key)` that selects the queue of the base graph. -/
def takeGraph (graphPQ : List IDKeyTriple) (overlayGraphPQ : List IDKeyPair) : Bool :=
  match MinIDQueue.peek overlayGraphPQ with
  | none => true
  | some b =>
    match MinIDQueue.peek graphPQ with
    | none => false
    | some a => a.key < b.key

/-- The `while (!graphPQ.empty() || !overlayGraphPQ.empty())` loop of
`CRPQueryUni::edgeQuery`; `none` when it does not end within `fuel` iterations. -/
def loop (graph : Graph) (overlayGraph : OverlayGraph) (metric : Metric)
    (s t sCellNumber tCellNumber : Nat) : Nat → Search → Option Search
  | 0, _ => none
  | fuel + 1, st =>
    if st.self.graphPQ.isEmpty ∧ st.self.overlayGraphPQ.isEmpty then some st
    else if takeGraph st.self.graphPQ st.self.overlayGraphPQ then
      match MinIDQueue.pop st.self.graphPQ with
      | none => some st
      | some (triple, q) =>
        let st : Search := { st with self := { st.self with graphPQ := q } }
        let u := triple.vertexId
        let uId := triple.id
        let entryPoint := graph.getEntryOrder u uId
        if st.self.round.getD uId 0 = st.self.currentRound ∧
            st.self.dist.getD uId 0 > st.shortestPath then some st
        else
          let st : Search :=
            if u = t then
              if st.self.dist.getD uId 0 < st.shortestPath then
                { st with shortestPath := st.self.dist.getD uId 0, tId := uId }
              else st
            else st
          loop graph overlayGraph metric s t sCellNumber tCellNumber fuel
            ((graph.forOutEdgesOf u entryPoint).foldl
              (relaxGraph graph overlayGraph metric s t sCellNumber tCellNumber u uId) st)
    else
      match MinIDQueue.pop st.self.overlayGraphPQ with
      | none => some st
      | some (pair, q) =>
        let st : Search := { st with self := { st.self with overlayGraphPQ := q } }
        let u := pair.id
        let uId := u + graph.numberOfEdges
        if st.self.round.getD uId 0 = st.self.currentRound ∧
            st.self.dist.getD uId 0 > st.shortestPath then some st
        else
          let uQueryLevel := overlayGraph.getQueryLevel sCellNumber tCellNumber
            (overlayGraph.getVertex u).cellNumber
          loop graph overlayGraph metric s t sCellNumber tCellNumber fuel
            ((overlayGraph.forOutNeighborsOf u uQueryLevel).foldl
              (relaxOverlay graph overlayGraph metric sCellNumber tCellNumber u uId) st)

/-- The loop `while (uId != sId)` that collects `path` and `idPath`. -/
def pathLoop (parent : List VertexIdPair) (sId : Nat) :
    Nat → Nat → List Nat → List VertexIdPair → Option (List Nat × List VertexIdPair)
  | 0, _, _, _ => none
  | fuel + 1, uId, path, idPath =>
    if uId = sId then some (path, idPath)
    else pathLoop parent sId fuel (parent.getD uId default).id
      (path ++ [(parent.getD uId default).originalVertex]) (idPath ++ [parent.getD uId default])

/-- `CRPQueryUni::edgeQuery` with the metric `metrics[metricId]` (built without `QUERYTEST`
and `UNPACKPATHTEST`): the result, the object and the path unpacker after the call, or `none`
when a loop does not end within `fuel` iterations. The counter `currentRound` is a `count`
of 32 bits, so `currentRound++` wraps. -/
def edgeQuery (graph : Graph) (overlayGraph : OverlayGraph) (metric : Metric) (fuel : Nat)
    (self : CRPQueryUni) (pathUnpacker : PathUnpacker) (sourceEdgeId targetEdgeId : Nat) :
    Option (QueryResult × CRPQueryUni × PathUnpacker) :=
  let currentRound := u32 (self.currentRound + 1)
  let s := (graph.getForwardEdge sourceEdgeId).head
  let sId := graph.getEntryOffset s + (graph.getForwardEdge sourceEdgeId).entryPoint
  let sCellNumber := graph.getCellNumber s
  let t := (graph.getBackwardEdge targetEdgeId).tail
  let tCellNumber := graph.getCellNumber t
  let st : Search :=
    { self :=
        { dist := self.dist.set sId 0
          round := self.round.set sId currentRound
          parent := self.parent.set sId ⟨s, sId⟩
          currentRound := currentRound
          graphPQ := MinIDQueue.push [] ⟨sId, s, 0⟩
          overlayGraphPQ := [] }
      shortestPath := 2 * inf_weight
      tId := invalid_id }
  match loop graph overlayGraph metric s t sCellNumber tCellNumber fuel st with
  | none => none
  | some st =>
    let self : CRPQueryUni := { st.self with graphPQ := [], overlayGraphPQ := [] }
    if st.shortestPath = 2 * inf_weight then some (⟨[], inf_weight⟩, self, pathUnpacker)
    else
      match pathLoop st.self.parent sId fuel st.tId [t] [⟨t, st.tId⟩] with
      | none => none
      | some (_, idPath) =>
        match PathUnpacker.unpackPath graph overlayGraph metric fuel pathUnpacker idPath.reverse
            sCellNumber tCellNumber with
        | none => none
        | some (pathUnpacker, unpackedPath) =>
          some (⟨unpackedPath, st.shortestPath⟩, self, pathUnpacker)

/-- `CRPQueryUni::vertexQuery`. -/
def vertexQuery (graph : Graph) (overlayGraph : OverlayGraph) (metric : Metric) (fuel : Nat)
    (self : CRPQueryUni) (pathUnpacker : PathUnpacker) (sourceVertexId targetVertexId : Nat) :
    Option (QueryResult × CRPQueryUni × PathUnpacker) :=
  let backwardEdgeToStart := graph.getBackwardEdge (graph.getEntryOffset sourceVertexId)
  let sourceEdgeId := graph.getExitOffset backwardEdgeToStart.tail + backwardEdgeToStart.exitPoint
  let forwardEdgeFromTarget := graph.getForwardEdge (graph.getExitOffset targetVertexId)
  let targetEdgeId :=
    graph.getEntryOffset forwardEdgeFromTarget.head + forwardEdgeFromTarget.entryPoint
  edgeQuery graph overlayGraph metric fuel self pathUnpacker sourceEdgeId targetEdgeId

end CRPQueryUni

end CRP

namespace CRP

/-! ## Notions used to state the properties of the searches -/

/-- `Reach Edge s x d`: there is a walk from the state `s` to the state `x` of cost `d`,
where `Edge x y c` is an arc from `x` to `y` of cost `c`. -/
inductive Reach (Edge : Nat → Nat → Nat → Prop) (s : Nat) : Nat → Nat → Prop
  | start : Reach Edge s s 0
  | step {x y d c : Nat} : Reach Edge s x d → Edge x y c → Reach Edge s y (d + c)

/-- The labels `lab'` are at most the labels `lab`. -/
def LabLe (lab lab' : Nat → Option Nat) : Prop :=
  ∀ x d, lab x = some d → ∃ d', lab' x = some d' ∧ d' ≤ d

/-- The arc from `x` to `y` of cost `c` is relaxed: it cannot improve the label of `y` with a
value below the bound `B`. -/
def EdgeOk (B : Nat) (lab : Nat → Option Nat) (x y c : Nat) : Prop :=
  ∀ d, lab x = some d → d + c < B → ∃ d', lab y = some d' ∧ d' ≤ d + c

/-- All arcs out of `x` are relaxed. -/
def ClosedAt (Edge : Nat → Nat → Nat → Prop) (B : Nat) (lab : Nat → Option Nat) (x : Nat) :
    Prop :=
  ∀ y c, Edge x y c → EdgeOk B lab x y c

/-- The invariant of a label-correcting search from `s`: the label of a state is the cost of
a walk to it, and the arcs out of every state that is not open are relaxed. -/
structure SearchInv (Edge : Nat → Nat → Nat → Prop) (s B : Nat) (lab : Nat → Option Nat)
    (Open : Nat → Prop) : Prop where
  src : lab s = some 0
  sound : ∀ x d, lab x = some d → Reach Edge s x d
  closed : ∀ x, ¬ Open x → ClosedAt Edge B lab x

/-- The invariant of the parent pointers: the parent of a labelled state other than `s` is
labelled, an arc leads from it to the state and accounts for the label, and the pair
(label, rank) decreases towards the parent. -/
def ParInv (Edge : Nat → Nat → Nat → Prop) (s : Nat) (lab : Nat → Option Nat)
    (par : Nat → Nat) : Prop :=
  ∃ rank : Nat → Nat, ∀ x d, lab x = some d → x ≠ s →
    ∃ dp c, lab (par x) = some dp ∧ Edge (par x) x c ∧ dp + c ≤ d ∧
      (dp < d ∨ rank (par x) < rank x)

/-! ## The base graph as a graph of entry points -/

/-- The invariants of the base graph: the offsets `firstOut` and `firstIn` split the edge
arrays, which have equal length, and every forward edge has its backward edge (and back). -/
structure Graph.Consistent (g : Graph) : Prop where
  sentinel : 0 < g.vertices.length
  lenBackward : g.backwardEdges.length = g.forwardEdges.length
  firstOutLast : (g.vertex g.numberOfVertices).firstOut = g.numberOfEdges
  firstInLast : (g.vertex g.numberOfVertices).firstIn = g.numberOfEdges
  firstOutZero : (g.vertex 0).firstOut = 0
  firstInZero : (g.vertex 0).firstIn = 0
  monoOut : ∀ u, u < g.numberOfVertices → (g.vertex u).firstOut ≤ (g.vertex (u + 1)).firstOut
  monoIn : ∀ v, v < g.numberOfVertices → (g.vertex v).firstIn ≤ (g.vertex (v + 1)).firstIn
  forward : ∀ u, u < g.numberOfVertices → ∀ k, k < g.getOutDegree u →
    (g.getForwardEdge ((g.vertex u).firstOut + k)).head < g.numberOfVertices ∧
    (g.getForwardEdge ((g.vertex u).firstOut + k)).entryPoint <
      g.getInDegree (g.getForwardEdge ((g.vertex u).firstOut + k)).head ∧
    g.getBackwardEdge ((g.vertex (g.getForwardEdge ((g.vertex u).firstOut + k)).head).firstIn +
        (g.getForwardEdge ((g.vertex u).firstOut + k)).entryPoint) =
      ⟨u, k, (g.getForwardEdge ((g.vertex u).firstOut + k)).attributes⟩
  backward : ∀ v, v < g.numberOfVertices → ∀ p, p < g.getInDegree v →
    (g.getBackwardEdge ((g.vertex v).firstIn + p)).tail < g.numberOfVertices ∧
    (g.getBackwardEdge ((g.vertex v).firstIn + p)).exitPoint <
      g.getOutDegree (g.getBackwardEdge ((g.vertex v).firstIn + p)).tail ∧
    g.getForwardEdge ((g.vertex (g.getBackwardEdge ((g.vertex v).firstIn + p)).tail).firstOut +
        (g.getBackwardEdge ((g.vertex v).firstIn + p)).exitPoint) =
      ⟨v, p, (g.getBackwardEdge ((g.vertex v).firstIn + p)).attributes⟩

/-- The values of the cost function are at most `inf_weight`, as those of `HopFunction` and
of `TimeFunction` are. -/
structure CostFunction.Bounded (cf : CostFunction) : Prop where
  weight : ∀ a, cf.getWeight a ≤ inf_weight
  turn : ∀ t, cf.getTurnCosts t ≤ inf_weight

/-- The id `x` is an entry point of the vertex `u`. -/
def Graph.isEntry (g : Graph) (u x : Nat) : Prop :=
  u < g.numberOfVertices ∧ (g.vertex u).firstIn ≤ x ∧ x < (g.vertex (u + 1)).firstIn

/-- The head of the edge that leaves `u` at the exit point `k`. -/
def Graph.arcHead (g : Graph) (u k : Nat) : Nat :=
  (g.getForwardEdge ((g.vertex u).firstOut + k)).head

/-- The id of the entry point at which the edge that leaves `u` at the exit point `k`
arrives. -/
def Graph.arcId (g : Graph) (u k : Nat) : Nat :=
  g.getEntryOffset (g.arcHead u k) + (g.getForwardEdge ((g.vertex u).firstOut + k)).entryPoint

/-- The cost of the turn at `u` from the entry point with id `x` to the exit point `k` and
of the edge that leaves there; the turn costs at `s` and at `t` count as 0. -/
def Graph.arcCost (g : Graph) (cf : CostFunction) (s t u x k : Nat) : Nat :=
  (if u = s ∨ u = t then 0 else cf.getTurnCosts (g.getTurnType u (g.getEntryOrder u x) k)) +
    cf.getWeight (g.getForwardEdge ((g.vertex u).firstOut + k)).attributes

/-- The walk that starts at the vertex `u`, entered at the entry point with id `x`, with the
cost `d` so far, and takes the exit points `ks` one after the other: the vertex and the
entry point at which it ends, and its cost. -/
def Graph.walk (g : Graph) (cf : CostFunction) (s t : Nat) :
    Nat → Nat → Nat → List Nat → Option (Nat × Nat × Nat)
  | u, x, d, [] => some (u, x, d)
  | u, x, d, k :: ks =>
    if k < g.getOutDegree u then
      Graph.walk g cf s t (g.arcHead u k) (g.arcId u k) (d + g.arcCost cf s t u x k) ks
    else none

/-- The arcs between the entry points: from an entry point `x` of `u` along an edge out of
`u`. -/
def Graph.QEdge (g : Graph) (cf : CostFunction) (s t x y c : Nat) : Prop :=
  ∃ u k, g.isEntry u x ∧ k < g.getOutDegree u ∧ y = g.arcId u k ∧ c = g.arcCost cf s t u x k

/-- The label of `x` in the round `currentRound`. -/
def labOf (dist round : List Nat) (currentRound x : Nat) : Option Nat :=
  if round.getD x 0 = currentRound then some (dist.getD x 0) else none

namespace Dijkstra

/-- The invariant of the object between the queries. -/
structure Valid (graph : Graph) (object : Dijkstra) : Prop where
  lenDist : object.dist.length = graph.numberOfEdges
  lenRound : object.round.length = graph.numberOfEdges
  lenParent : object.parent.length = graph.numberOfEdges
  rounds : ∀ i, object.round.getD i 0 ≤ object.currentRound

/-- The id `x` is queued. -/
def inQ (self : Dijkstra) (x : Nat) : Prop := ∃ p, p ∈ self.graphPQ ∧ p.id = x

/-- The measure that every iteration of the loop of `edgeQuery` lowers. -/
def potential (graph : Graph) (self : Dijkstra) : Nat :=
  2 * (Finset.range graph.numberOfEdges).sum
      (fun x => (labOf self.dist self.round self.currentRound x).getD inf_weight) +
    self.graphPQ.length

/-- The invariant of the loop of `edgeQuery`; `extra` holds for the entry point whose edges
are being relaxed. -/
structure Inv (graph : Graph) (cf : CostFunction) (s sId t : Nat) (extra : Nat → Prop)
    (st : Search) : Prop where
  curPos : 0 < st.self.currentRound
  valid : Valid graph st.self
  search : SearchInv (graph.QEdge cf s t) sId inf_weight
    (labOf st.self.dist st.self.round st.self.currentRound) (fun x => inQ st.self x ∨ extra x)
  labLt : ∀ x d, labOf st.self.dist st.self.round st.self.currentRound x = some d →
    d < inf_weight
  nodup : (st.self.graphPQ.map IDKeyTriple.id).Nodup
  queue : ∀ p, p ∈ st.self.graphPQ →
    labOf st.self.dist st.self.round st.self.currentRound p.id = some p.key ∧
      graph.isEntry p.vertexId p.id
  settled : ∀ x d, labOf st.self.dist st.self.round st.self.currentRound x = some d →
    ¬ inQ st.self x → graph.isEntry t x → st.shortestPath ≤ d
  best : st.shortestPath = 2 * inf_weight ∨
    (st.shortestPath < inf_weight ∧ Reach (graph.QEdge cf s t) sId st.tId st.shortestPath ∧
      graph.isEntry t st.tId ∧
      ∃ d, labOf st.self.dist st.self.round st.self.currentRound st.tId = some d)
  par : ParInv (graph.QEdge cf s t) sId
    (labOf st.self.dist st.self.round st.self.currentRound)
    (fun x => (st.self.parent.getD x default).id)

end Dijkstra

end CRP

namespace CRP

/-! ## MultiLevelPartition::getCell -/

namespace MultiLevelPartition

/-- `MultiLevelPartition::getCell`:
`(cellNumbers[vertexId] >> pvOffset[level]) & ~(~0 << pvOffset[level+1])`; for an offset
`k < 32` the mask `~(~0 << k)` is `2^k - 1`. -/
def getCell (mlp : MultiLevelPartition) (level vertexId : Nat) : Nat :=
  (mlp.cellNumbers.getD vertexId 0 >>> mlp.pvOffset.getD level 0) &&&
    (2 ^ mlp.pvOffset.getD (level + 1) 0 - 1)

/-- A partition of `numVertices` vertices with the cell counts `numCells`, after
`setNumberOfLevels`, `setNumberOfVertices`, `setNumberOfCellsInLevel` for every level and
`computeBitmap`. -/
def prepare (numCells : List Nat) (numVertices : Nat) : MultiLevelPartition :=
  let mlp : MultiLevelPartition := ⟨[], [], []⟩
  let mlp := mlp.setNumberOfLevels numCells.length
  let mlp := mlp.setNumberOfVertices numVertices
  let mlp := (List.range numCells.length).foldl
    (fun (m : MultiLevelPartition) l => m.setNumberOfCellsInLevel l (numCells.getD l 0)) mlp
  mlp.computeBitmap

/-- One call `setCell(level, v, cellId[level])` for every level, in increasing order. -/
def setCells (mlp : MultiLevelPartition) (v : Nat) (cellId : List Nat) : MultiLevelPartition :=
  (List.range cellId.length).foldl
    (fun (m : MultiLevelPartition) l => m.setCell l v (cellId.getD l 0)) mlp

end MultiLevelPartition

end CRP

namespace CRP

/-! ## Notions used to state the properties of `buildOverlayVertices` -/

namespace OverlayGraph

/-- The vector `vertexCountInLevel` of `buildOverlayVertices` after the partial sums. -/
def bucketCounts (graph : Graph) (levelInfo : LevelInfo) (numberOfLevels : Nat) : List Nat :=
  suffixSums ((collectOverlayVertices graph levelInfo numberOfLevels).map List.length)

/-- The value `vertexOffset` of the sorting loop of `buildOverlayVertices` for the bucket with
index `j`: the number of the overlay vertices of the higher levels. -/
def bucketOffset (graph : Graph) (levelInfo : LevelInfo) (numberOfLevels j : Nat) : Nat :=
  (bucketCounts graph levelInfo numberOfLevels).getD j 0 -
    ((collectOverlayVertices graph levelInfo numberOfLevels).getD j []).length

/-- The sorted bucket with index `j` of `buildOverlayVertices`. -/
def sortedBucket (graph : Graph) (levelInfo : LevelInfo) (numberOfLevels j : Nat) :
    SortedBucket :=
  sortBucket graph ((collectOverlayVertices graph levelInfo numberOfLevels).getD j [])
    (bucketOffset graph levelInfo numberOfLevels j)

/-- The key under which `buildOverlayVertices` enters the overlay vertex `x` into
`originalToOverlayVertexMap`. -/
def mapKey (graph : Graph) (b : OverlayVertexBuild) (x : Nat) : SubVertex :=
  let vertex := b.overlayVertices.getD x default
  let isExitPoint := b.exitFlagsArray.getD x false
  ⟨vertex.originalVertex,
    if isExitPoint then graph.getExitOrder vertex.originalVertex vertex.originalEdge
    else graph.getEntryOrder vertex.originalVertex vertex.originalEdge,
    isExitPoint⟩

end OverlayGraph

/-- The boundary edges of level `l` among the edges `es`, in their order. -/
def levelEdges (graph : Graph) (levelInfo : LevelInfo) (l : Nat) (es : List (Nat × Nat × Nat)) :
    List (Nat × Nat × Nat) :=
  es.filter fun t =>
    decide (levelInfo.getHighestDifferingLevel (graph.getCellNumber t.1)
      (graph.getCellNumber t.2.1) = l)

/-- A bucket of `buildOverlayVertices` holds the twin pairs of the edges `ts`: the exit
vertex of the edge with index `i` at the position `2 i` and its entry vertex at the position
`2 i + 1`, each with the position of the other one as its neighbour. -/
def TwinBucket (graph : Graph) (l : Nat) (bucket : List OverlayVertex)
    (ts : List (Nat × Nat × Nat)) : Prop :=
  bucket.length = 2 * ts.length ∧
  ∀ i, i < ts.length →
    bucket.getD (2 * i) default =
      ⟨(ts.getD i default).1, 2 * i + 1, graph.getCellNumber (ts.getD i default).1,
        (ts.getD i default).2.2, List.replicate l 0⟩ ∧
    bucket.getD (2 * i + 1) default =
      ⟨(ts.getD i default).2.1, 2 * i, graph.getCellNumber (ts.getD i default).2.1,
        graph.findBackwardEdge (ts.getD i default).1 (ts.getD i default).2.1,
        List.replicate l 0⟩

end CRP

namespace CRP

namespace OverlayGraph

/-- The id that the sorting loop of `buildOverlayVertices` gives to the overlay vertex at
the position `p` of the bucket with index `j`. -/
def twinId (graph : Graph) (levelInfo : LevelInfo) (numberOfLevels j p : Nat) : Nat :=
  bucketOffset graph levelInfo numberOfLevels j +
    (oldToNewPosition
      (newToOldPosition ((collectOverlayVertices graph levelInfo numberOfLevels).getD j []))).getD
      p 0

/-- The overlay vertices `xe` and `xn` of `b` are the exit vertex and the entry vertex of the
edge `t = (tail, head, forward edge id)`: they are each other's neighbour, and they carry the
data of the edge. -/
structure TwinPair (graph : Graph) (levelInfo : LevelInfo) (b : OverlayVertexBuild)
    (t : Nat × Nat × Nat) (xe xn : Nat) : Prop where
  exitLt : xe < b.overlayVertices.length
  entryLt : xn < b.overlayVertices.length
  exitFlag : b.exitFlagsArray.getD xe false = true
  entryFlag : b.exitFlagsArray.getD xn false = false
  exitVertex : b.overlayVertices.getD xe default =
    ⟨t.1, xn, graph.getCellNumber t.1, t.2.2,
      List.replicate (levelInfo.getHighestDifferingLevel (graph.getCellNumber t.1)
        (graph.getCellNumber t.2.1)) 0⟩
  entryVertex : b.overlayVertices.getD xn default =
    ⟨t.2.1, xe, graph.getCellNumber t.2.1, graph.findBackwardEdge t.1 t.2.1,
      List.replicate (levelInfo.getHighestDifferingLevel (graph.getCellNumber t.1)
        (graph.getCellNumber t.2.1)) 0⟩

end OverlayGraph

end CRP

namespace CRP

namespace OverlayGraph

/-- The overlay vertex `x` is the exit vertex of the forward edge `e` out of the vertex
`u`. -/
def IsExitOf (og : OverlayGraph) (exitFlags : List Bool) (x u e : Nat) : Prop :=
  x < og.numberOfVertices ∧ exitFlags.getD x false = true ∧
    (og.getVertex x).originalVertex = u ∧ (og.getVertex x).originalEdge = e

/-- The overlay vertex `y` is the entry vertex of the forward edge `e` from `u` to `v`: an
entry vertex at `v` whose neighbour is the exit vertex of `e`. -/
def IsEntryOf (og : OverlayGraph) (exitFlags : List Bool) (y u v e : Nat) : Prop :=
  y < og.numberOfVertices ∧ exitFlags.getD y false = false ∧
    (og.getVertex y).originalVertex = v ∧
    og.IsExitOf exitFlags (og.getVertex y).neighborOverlayVertex u e

end OverlayGraph

end CRP

namespace CRP

/-! ## Notions used to state the properties of `sortVerticesByCellNumber` -/

/-- The sum of `f` over the first `j` entries of `order`. -/
def prefixSum (f : Nat → Nat) (order : List Nat) (j : Nat) : Nat :=
  ((order.take j).map f).sum

namespace Graph

/-- The offsets `firstOut` and `firstIn` split the edge arrays, which have equal length, and
every vertex points to a cell. -/
structure Offsets (g : Graph) : Prop where
  sentinel : 0 < g.vertices.length
  lenBackward : g.backwardEdges.length = g.forwardEdges.length
  firstOutLast : (g.vertex g.numberOfVertices).firstOut = g.numberOfEdges
  firstInLast : (g.vertex g.numberOfVertices).firstIn = g.numberOfEdges
  firstOutZero : (g.vertex 0).firstOut = 0
  firstInZero : (g.vertex 0).firstIn = 0
  monoOut : ∀ u, u < g.numberOfVertices → (g.vertex u).firstOut ≤ (g.vertex (u + 1)).firstOut
  monoIn : ∀ v, v < g.numberOfVertices → (g.vertex v).firstIn ≤ (g.vertex (v + 1)).firstIn
  cell : ∀ u, u < g.numberOfVertices → (g.vertex u).pvPtr < g.cellNumbers.length

/-- The invariant of the base graph: every forward edge `f` from `u` at the exit point `k`
has a backward edge of `head(f)` at the entry point `f.entryPoint`, with `tail = u` and
`exitPoint = k`. -/
def Paired (g : Graph) : Prop :=
  ∀ u, u < g.numberOfVertices → ∀ k, k < g.getOutDegree u →
    (g.getForwardEdge ((g.vertex u).firstOut + k)).head < g.numberOfVertices ∧
    (g.getForwardEdge ((g.vertex u).firstOut + k)).entryPoint <
      g.getInDegree (g.getForwardEdge ((g.vertex u).firstOut + k)).head ∧
    (g.getBackwardEdge ((g.vertex (g.getForwardEdge ((g.vertex u).firstOut + k)).head).firstIn +
        (g.getForwardEdge ((g.vertex u).firstOut + k)).entryPoint)).tail = u ∧
    (g.getBackwardEdge ((g.vertex (g.getForwardEdge ((g.vertex u).firstOut + k)).head).firstIn +
        (g.getForwardEdge ((g.vertex u).firstOut + k)).entryPoint)).exitPoint = k

/-- The old ids of the vertices in the order in which `sortVerticesByCellNumber` places
them: entry `j` is the old id of the vertex with the new id `j`. -/
def sortOrder (g : Graph) : List Nat := g.sortScratch.cellVertices.flatten.map Prod.snd

/-- The first new id of the cell `c`: the number of the vertices of the cells before `c`. -/
def cellStart (g : Graph) (c : Nat) : Nat :=
  ((g.sortScratch.cellVertices.take c).map List.length).sum

/-- The state of the last loop of `sortVerticesByCellNumber` when the first `J` vertices of
the order are placed: they have their new offsets, and their edges stand at the new offsets
with the new ids of their heads and tails. -/
structure SortInv (g : Graph) (J : Nat) (st : SortState) : Prop where
  vId : st.vId = J
  forwardOffset : st.forwardOffset = prefixSum g.getOutDegree g.sortOrder J
  backwardOffset : st.backwardOffset = prefixSum g.getInDegree g.sortOrder J
  lenVertices : st.vertices.length = g.vertices.length
  lenForward : st.forwardEdges.length = g.forwardEdges.length
  lenBackward : st.backwardEdges.length = g.backwardEdges.length
  placed : ∀ j, j < J → st.vertices.getD j default =
    { g.vertex (g.sortOrder.getD j 0) with
      firstOut := prefixSum g.getOutDegree g.sortOrder j,
      firstIn := prefixSum g.getInDegree g.sortOrder j }
  rest : ∀ j, J ≤ j → st.vertices.getD j default = g.vertices.getD j default
  forward : ∀ j, j < J → ∀ k, k < g.getOutDegree (g.sortOrder.getD j 0) →
    st.forwardEdges.getD (prefixSum g.getOutDegree g.sortOrder j + k) default =
      { g.getForwardEdge ((g.vertex (g.sortOrder.getD j 0)).firstOut + k) with
        head := (g.sortNewId g.sortScratch.cellVertices).getD
          (g.getForwardEdge ((g.vertex (g.sortOrder.getD j 0)).firstOut + k)).head 0 }
  backward : ∀ j, j < J → ∀ k, k < g.getInDegree (g.sortOrder.getD j 0) →
    st.backwardEdges.getD (prefixSum g.getInDegree g.sortOrder j + k) default =
      { g.getBackwardEdge ((g.vertex (g.sortOrder.getD j 0)).firstIn + k) with
        tail := (g.sortNewId g.sortScratch.cellVertices).getD
          (g.getBackwardEdge ((g.vertex (g.sortOrder.getD j 0)).firstIn + k)).tail 0 }

/-- The state of `sortVerticesByCellNumber` after its last loop. -/
def sortState (g : Graph) : SortState :=
  (List.range g.cellNumbers.length).foldl
    (sortPlaceCell g.sortScratch (g.sortNewId g.sortScratch.cellVertices))
    { vertices := g.vertices, forwardEdges := g.forwardEdges, backwardEdges := g.backwardEdges,
      forwardEdgeCellOffset := List.replicate g.cellNumbers.length 0,
      backwardEdgeCellOffset := List.replicate g.cellNumbers.length 0,
      vId := 0, forwardOffset := 0, backwardOffset := 0 }

/-- The state of the last loop of `sortVerticesByCellNumber` before the cell `c`: the
vertices of the cells before `c` are placed, and the offsets of these cells are recorded. -/
structure CellInv (g : Graph) (c : Nat) (st : SortState) : Prop where
  inv : g.SortInv (g.cellStart c) st
  lenForwardOffset : st.forwardEdgeCellOffset.length = g.cellNumbers.length
  lenBackwardOffset : st.backwardEdgeCellOffset.length = g.cellNumbers.length
  forwardOffsets : ∀ d, d < c → st.forwardEdgeCellOffset.getD d 0 =
    prefixSum g.getOutDegree g.sortOrder (g.cellStart d)
  backwardOffsets : ∀ d, d < c → st.backwardEdgeCellOffset.getD d 0 =
    prefixSum g.getInDegree g.sortOrder (g.cellStart d)

end Graph

end CRP

namespace CRP

/-! ## Notions used to state the properties of the counters of sortVerticesByCellNumber -/

/-- `Graph::getMaxEdgesInCell`. -/
def Graph.getMaxEdgesInCell (g : Graph) : Nat := g.maxEdgesInCell

/-- The state of the counters of the first loop of `sortVerticesByCellNumber` after its
first `k` iterations: the counters of a cell hold the sums of the degrees of the vertices
`i < k` of the cell, and `maxEdgesInCell` bounds them and is reached by one of them. -/
structure CountInv (g : Graph) (k : Nat) (st : Graph.SortScratch) : Prop where
  lenF : st.numForwardEdgesInCell.length = g.cellNumbers.length
  lenB : st.numBackwardEdgesInCell.length = g.cellNumbers.length
  numF : ∀ c, c < g.cellNumbers.length → st.numForwardEdgesInCell.getD c 0 =
    (((List.range k).filter (fun i => decide ((g.vertex i).pvPtr = c))).map g.getOutDegree).sum
  numB : ∀ c, c < g.cellNumbers.length → st.numBackwardEdgesInCell.getD c 0 =
    (((List.range k).filter (fun i => decide ((g.vertex i).pvPtr = c))).map g.getInDegree).sum
  bound : ∀ c, c < g.cellNumbers.length →
    st.numForwardEdgesInCell.getD c 0 ≤ st.maxEdgesInCell ∧
    st.numBackwardEdgesInCell.getD c 0 ≤ st.maxEdgesInCell
  attained : st.maxEdgesInCell = 0 ∨ ∃ c, c < g.cellNumbers.length ∧
    (st.maxEdgesInCell ≤ st.numForwardEdgesInCell.getD c 0 ∨
      st.maxEdgesInCell ≤ st.numBackwardEdgesInCell.getD c 0)

end CRP

namespace CRP

/-! ## A graph with parallel edges -/

/-- A base graph with the vertices 0 and 1 and two parallel edges from the vertex 0 to the
vertex 1: the forward edge 0 enters the vertex 1 at the entry point 0 and the forward edge 1
enters it at the entry point 1. -/
def parallelGraph : Graph :=
  let attr : EdgeAttributes := ⟨1⟩
  { vertices := [⟨0, 0, 0, 0⟩, ⟨0, 0, 2, 0⟩, ⟨0, 0, 2, 2⟩],
    forwardEdges := [⟨1, 0, attr⟩, ⟨1, 1, attr⟩],
    backwardEdges := [⟨0, 0, attr⟩, ⟨0, 1, attr⟩],
    turnTables := [],
    cellNumbers := [], maxEdgesInCell := 0, forwardEdgeCellOffset := [],
    backwardEdgeCellOffset := [], overlayVertices := [] }

/-- A partition of the two vertices of `parallelGraph` with one level of two cells: the
vertex 0 in the cell 0 and the vertex 1 in the cell 1. -/
def parallelPartition : MultiLevelPartition :=
  ((MultiLevelPartition.prepare [2] 2).setCells 0 [0]).setCells 1 [1]

/-- The graph `parallelGraph` after `buildCellNumbers` and `sortVerticesByCellNumber`. -/
def parallelSortedGraph : Graph :=
  (buildCellNumbers parallelGraph parallelPartition).sortVerticesByCellNumber

/-- The overlay graph of `parallelSortedGraph`, with its exit flags and the graph with its
overlay mapping. -/
def parallelOverlay : OverlayGraph × List Bool × Graph :=
  OverlayGraph.build parallelSortedGraph parallelPartition

end CRP

namespace CRP

/-! ## ParallelCRPQuery.cpp: the stalling step of the forward search -/

namespace ParallelCRPQuery

/-- The struct `VertexInfo`. -/
structure VertexInfo where
  dist : Nat
  round : Nat
  parent : VertexIdPair
deriving DecidableEq, Repr, Inhabited

/-- The body of the stalling loop of the forward search for the entry point `j` of `u`, whose
label is `forwardInfo[entryId]`: the sum `(int) forwardInfo[uId].dist +
getMaxEntryTurnTableDiff(u, uOffset + j)` is a value of type `int`. -/
def stallEntry (metric : Metric) (currentRound u uId uOffset : Nat)
    (forwardInfo : List VertexInfo) (j entryId : Nat) : List VertexInfo :=
  if (forwardInfo.getD entryId default).round < currentRound then
    forwardInfo.set entryId
      { forwardInfo.getD entryId default with
        dist := min (forwardInfo.getD entryId default).dist
          (max 0 (toInt32 (toInt32 (forwardInfo.getD uId default).dist +
            metric.getMaxEntryTurnTableDiff u (u32 (uOffset + j))))).toNat }
  else forwardInfo

/-- The stalling step of the forward search of `ParallelCRPQuery::edgeQuery` for the popped
label `triple` of the base graph; `forwardSOffset` and `forwardTOffset` are the values of the
locals as `unsigned` numbers, and `entryPoint` is a `turnorder` (8 bits). -/
def stall (graph : Graph) (metric : Metric) (currentRound forwardSOffset forwardTOffset : Nat)
    (forwardInfo : List VertexInfo) (triple : IDKeyTriple) : List VertexInfo :=
  let u := triple.vertexId
  let uId := triple.id
  let entryPoint :=
    if uId < graph.getMaxEdgesInCell then
      u32 (u32 (uId + forwardSOffset) + 4294967296 - graph.getEntryOffset u) % 256
    else u32 (u32 (uId + forwardTOffset) + 4294967296 - graph.getEntryOffset u) % 256
  let uInDeg := graph.getInDegree u
  let uOffset := u32 (uInDeg * entryPoint)
  let offset := if uId < graph.getMaxEdgesInCell then forwardSOffset else forwardTOffset
  let first := u32 (graph.getEntryOffset u + 4294967296 - offset)
  let last := u32 (u32 (graph.getEntryOffset u + uInDeg) + 4294967296 - offset)
  (List.range (last - first)).foldl
    (fun (forwardInfo : List VertexInfo) j =>
      stallEntry metric currentRound u uId uOffset forwardInfo j (first + j))
    forwardInfo

end ParallelCRPQuery

/-! ## A graph with a forbidden turn -/

/-- A base graph with the vertices 0 and 1 in one cell: two parallel edges from the vertex 0
to the vertex 1 and one edge from the vertex 1 to the vertex 0. At the vertex 1 the turn from
the entry point 0 to the exit point 0 is `NO_ENTRY`; the other turns are `NONE`. -/
def turnGraph : Graph :=
  let attr : EdgeAttributes := ⟨1⟩
  { vertices := [⟨0, 0, 0, 0⟩, ⟨0, 2, 2, 1⟩, ⟨0, 0, 3, 3⟩],
    forwardEdges := [⟨1, 0, attr⟩, ⟨1, 1, attr⟩, ⟨0, 0, attr⟩],
    backwardEdges := [⟨1, 0, attr⟩, ⟨0, 0, attr⟩, ⟨0, 1, attr⟩],
    turnTables := [TURN_TYPE.NONE, TURN_TYPE.NONE, TURN_TYPE.NO_ENTRY, TURN_TYPE.NONE],
    cellNumbers := [0], maxEdgesInCell := 3, forwardEdgeCellOffset := [0],
    backwardEdgeCellOffset := [0], overlayVertices := [] }

/-- The metric of `turnGraph` with the hop function and its tables for stalling (the overlay
graph of a single cell has no weights). -/
def turnMetric : Metric :=
  { costFunction := HopFunction, weights := [],
    turnTablePtr := (Metric.buildTurnTables turnGraph HopFunction).turnTablePtr,
    turnTableDiffs := (Metric.buildTurnTables turnGraph HopFunction).turnTableDiffs }

end CRP

namespace CRP

/-! ## Notions used to state the properties of the tables for stalling -/

namespace Metric

/-- The matrix `key` stands in `diffs` at the offset `L`. -/
def StoredAt (diffs : List Int) (L : Nat) (key : List Int) : Prop :=
  L + key.length ≤ diffs.length ∧ ∀ i, i < key.length → diffs.getD (L + i) 0 = key.getD i 0

/-- The state of the loop of the constructor of `Metric` before the vertex `k`: the offsets
in `matrixMap` and in `turnTablePtr` are the offsets (modulo `2^32`, and the second one
shifted by 16 bits) at which the matrices stand in `turnTableDiffs`. -/
structure TableInv (graph : Graph) (costFunction : CostFunction) (k : Nat)
    (st : TurnTableBuild) : Prop where
  lenPtr : st.turnTablePtr.length = graph.numberOfVertices
  offset : st.matrixOffset = u32 st.turnTableDiffs.length
  map : ∀ key o, (key, o) ∈ st.matrixMap →
    ∃ L, o = u32 L ∧ StoredAt st.turnTableDiffs L key
  ptr : ∀ v, v < k → 1 ≤ graph.getInDegree v → 1 ≤ graph.getOutDegree v →
    ∃ LE LX, st.turnTablePtr.getD v 0 = u32 LE ||| u32 (u32 LX <<< 16) ∧
      StoredAt st.turnTableDiffs LE (entryTurnTableDifferences graph costFunction v) ∧
      StoredAt st.turnTableDiffs LX (exitTurnTableDifferences graph costFunction v)

end Metric

/-! ## A graph with a vertex of in-degree 256 -/

/-- A base graph with the vertices 0, 1 and 2: 256 parallel edges from the vertex 2 to the
vertex 0 (the edge `2 + p` enters the vertex 0 at the entry point `p`), the edge 0 from the
vertex 0 to the vertex 1 and the loop 1 at the vertex 1. At the vertex 1 the turn from the
entry point 0 to the exit point 0 is `NO_ENTRY`; the other turns are `NONE`. -/
def wideGraph : Graph :=
  let attr : EdgeAttributes := ⟨1⟩
  { vertices := [⟨0, 0, 0, 0⟩, ⟨0, 256, 1, 256⟩, ⟨0, 258, 2, 258⟩, ⟨0, 0, 258, 258⟩],
    forwardEdges := [⟨1, 0, attr⟩, ⟨1, 1, attr⟩] ++
      (List.range 256).map fun p => ⟨0, p, attr⟩,
    backwardEdges := ((List.range 256).map fun p => ⟨2, p, attr⟩) ++
      [⟨0, 0, attr⟩, ⟨1, 0, attr⟩],
    turnTables := List.replicate 256 TURN_TYPE.NONE ++ [TURN_TYPE.NO_ENTRY, TURN_TYPE.NONE],
    cellNumbers := [0], maxEdgesInCell := 258, forwardEdgeCellOffset := [0],
    backwardEdgeCellOffset := [0], overlayVertices := [] }

end CRP

namespace CRP

/-! ## Text streams -/

/-- Modelled from the C++ standard library: `operator<<` for an unsigned integer writes its
decimal digits. -/
def writeUnsigned (n : Nat) : List Char := Nat.toDigits 10 n

/-- Modelled from the C++ standard library: `operator<<` for an `int` writes a minus sign for
a negative number and the decimal digits of the absolute value. -/
def writeInt (x : Int) : List Char :=
  if x < 0 then '-' :: Nat.toDigits 10 (-x).toNat else Nat.toDigits 10 x.toNat

/-- The loop `for (i = 0; i < v.size(); ++i) { stream << v[i]; if (i < v.size()-1)
stream << " "; }`, and the loop `for (...) { if (i > 0) file << " "; file << v[i]; }`: the
items with one blank between two of them. -/
def writeSeparated {α : Type} (write : α → List Char) : List α → List Char
  | [] => []
  | [x] => write x
  | x :: y :: rest => write x ++ ' ' :: writeSeparated write (y :: rest)

/-- Modelled from the C++ standard library: an input file stream, as the characters that are
not read yet and the state bits `eofbit` and `failbit`. -/
structure IStream where
  rest : List Char
  eofbit : Bool
  failbit : Bool
deriving DecidableEq, Repr

/-- The stream of a file with the content `text` after `open`. -/
def IStream.ofText (text : List Char) : IStream := ⟨text, false, false⟩

/-- Modelled from the C++ standard library: `eof()`. -/
def IStream.eof (stream : IStream) : Bool := stream.eofbit

/-- The characters before the first line feed, and the characters after it (`none` when
there is no line feed). -/
def readLine : List Char → List Char × Option (List Char)
  | [] => ([], none)
  | c :: rest =>
    if c = '\n' then ([], some rest) else ((c :: (readLine rest).1), (readLine rest).2)

/-- Modelled from the C++ standard library: `std::getline(stream, line)`. A stream that is
not good sets `failbit` and leaves `line` as it is; otherwise the characters up to the line
feed are stored and the line feed is dropped, the end of the file sets `eofbit`, and
`failbit` is set when nothing was extracted. -/
def getline (stream : IStream) (line : List Char) : IStream × List Char :=
  if stream.eofbit ∨ stream.failbit then ({ stream with failbit := true }, line)
  else
    match (readLine stream.rest).2 with
    | some rest => (⟨rest, false, false⟩, (readLine stream.rest).1)
    | none => (⟨[], true, (readLine stream.rest).1.isEmpty⟩, (readLine stream.rest).1)

/-- Modelled from the C++ standard library: `isspace` in the "C" locale. -/
def isSpace (c : Char) : Bool :=
  c = ' ' ∨ c = '\t' ∨ c = '\n' ∨ c = '\r' ∨ c.toNat = 11 ∨ c.toNat = 12

/-- The value of the decimal digits at the start of `str`. -/
def digitsValue (str : List Char) : Nat :=
  (str.takeWhile Char.isDigit).foldl (fun acc c => 10 * acc + (c.toNat - 48)) 0

/-- Modelled from the C++ standard library: the conversion of `std::stoul` and `std::stoull`
to an unsigned integer of `bits` bits. White space is skipped, a sign is accepted, the digits
are read and the rest is ignored; `none` stands for the exceptions `invalid_argument` (no
digit) and `out_of_range`. -/
def parseUnsigned (bits : Nat) (str : List Char) : Option Nat :=
  let s := str.dropWhile isSpace
  let negative := s.head? = some '-'
  let s := if s.head? = some '-' ∨ s.head? = some '+' then s.tail else s
  if (s.takeWhile Char.isDigit).isEmpty then none
  else if digitsValue s ≥ 2 ^ bits then none
  else some (if negative then (2 ^ bits - digitsValue s) % 2 ^ bits else digitsValue s)

/-- Modelled from the C++ standard library: `std::stoul` (`unsigned long` has 64 bits). -/
def stoul (str : List Char) : Option Nat := parseUnsigned 64 str

/-- Modelled from the C++ standard library: `std::stoull`. -/
def stoull (str : List Char) : Option Nat := parseUnsigned 64 str

/-- Modelled from the C++ standard library: `std::stoi`; `none` stands for the exceptions
`invalid_argument` and `out_of_range`. -/
def stoi (str : List Char) : Option Int :=
  let s := str.dropWhile isSpace
  let negative := s.head? = some '-'
  let s := if s.head? = some '-' ∨ s.head? = some '+' then s.tail else s
  if (s.takeWhile Char.isDigit).isEmpty then none
  else if negative then
    if digitsValue s > 2147483648 then none else some (-(digitsValue s : Int))
  else if digitsValue s ≥ 2147483648 then none
  else some (digitsValue s : Int)

namespace GraphIO

/-- The loop of `GraphIO::splitString`; `sstream` holds the characters of the current
token. -/
def splitLoop (splitToken : Char) : List Char → List Char → List (List Char)
  | [], sstream => [sstream]
  | c :: str, sstream =>
    if c = splitToken then sstream :: splitLoop splitToken str []
    else splitLoop splitToken str (sstream ++ [c])

/-- `GraphIO::splitString`. -/
def splitString (str : List Char) (splitToken : Char) : List (List Char) :=
  splitLoop splitToken str []

/-- `GraphIO::stoui`; `none` stands for an exception. -/
def stoui (str : List Char) : Option Nat :=
  (stoul str).bind fun val => if u32 val ≠ val then none else some (u32 val)

end GraphIO

/-! ## Metric.h: write and read -/

namespace Metric

/-- `Metric::write` on an open stream: the text that it writes. -/
def write (metric : Metric) : List Char :=
  writeUnsigned metric.weights.length ++ ' ' :: writeUnsigned metric.turnTablePtr.length ++
    ' ' :: writeUnsigned metric.turnTableDiffs.length ++ '\n' ::
    writeSeparated writeUnsigned metric.weights ++ '\n' ::
    writeSeparated writeUnsigned metric.turnTablePtr ++ '\n' ::
    writeSeparated writeInt metric.turnTableDiffs

/-- `Metric::read` on an open stream with the content `text`: the metric that it stores, or
`none` when an assertion fails or a conversion throws. -/
def read (text : List Char) (costFunction : CostFunction) : Option Metric :=
  let r := getline (IStream.ofText text) []
  let tokens := GraphIO.splitString r.2 ' '
  if tokens.length ≠ 3 then none
  else
    (stoul (tokens.getD 0 [])).bind fun wSize =>
    (stoul (tokens.getD 1 [])).bind fun turnTablePtrSize =>
    (stoul (tokens.getD 2 [])).bind fun turnTableDiffsSize =>
    let r := getline r.1 r.2
    let tokens := GraphIO.splitString r.2 ' '
    if tokens.length ≠ wSize then none
    else
      (tokens.mapM stoul).bind fun w =>
      let r := getline r.1 r.2
      let tokens := GraphIO.splitString r.2 ' '
      if tokens.length ≠ turnTablePtrSize then none
      else
        (tokens.mapM stoul).bind fun turnTablePtr =>
        let r := getline r.1 r.2
        let tokens := GraphIO.splitString r.2 ' '
        if tokens.length ≠ turnTableDiffsSize then none
        else
          (tokens.mapM stoi).bind fun turnTableDiffs =>
          some
            { costFunction := costFunction, weights := w.map u32,
              turnTablePtr := turnTablePtr.map u32, turnTableDiffs := turnTableDiffs }

end Metric

/-! ## GraphIO.cpp: writeOverlayGraph and readOverlayGraph -/

namespace GraphIO

/-- The line that `writeOverlayGraph` writes for an overlay vertex. -/
def writeVertex (v : OverlayVertex) : List Char :=
  writeUnsigned v.cellNumber ++ ' ' :: writeUnsigned v.neighborOverlayVertex ++
    ' ' :: writeUnsigned v.originalVertex ++ ' ' :: writeUnsigned v.originalEdge ++
    (v.entryExitPoint.flatMap fun e => ' ' :: writeUnsigned e) ++ ['\n']

/-- The line that `writeOverlayGraph` writes for a cell with its truncated cell number. -/
def writeCell (p : Nat × Cell) : List Char :=
  writeUnsigned p.1 ++ ' ' :: writeUnsigned p.2.numEntryPoints ++
    ' ' :: writeUnsigned p.2.numExitPoints ++ ' ' :: writeUnsigned p.2.cellOffset ++
    ' ' :: writeUnsigned p.2.overlayIdOffset ++ ['\n']

/-- `GraphIO::writeOverlayGraph` when the file opens: the text that it writes. The loops over
the levels `l = 1, ..., getLevelCount()` are those of a level count below 255 (`l` has 8
bits). -/
def writeOverlayGraph (graph : OverlayGraph) : List Char :=
  writeSeparated writeUnsigned graph.levelInfo.offset ++ '\n' ::
    writeSeparated writeUnsigned
      ((List.range' 1 graph.levelInfo.getLevelCount).map graph.numberOfVerticesInLevel) ++
    '\n' :: graph.overlayVertices.flatMap writeVertex ++
    writeUnsigned graph.getWeightVectorSize ++ '\n' ::
    (graph.overlayIdMapping.flatMap fun x => writeUnsigned x ++ [' ']) ++ '\n' ::
    (List.range' 1 graph.levelInfo.getLevelCount).flatMap fun l =>
      writeUnsigned (graph.numberOfCellsInLevel l) ++ '\n' :: (graph.forCells l).flatMap writeCell

/-- The assignment `map[key] = cell` of an `unordered_map<pv, Cell>`. -/
def cellAssign (key : Nat) (cell : Cell) : List (Nat × Cell) → List (Nat × Cell)
  | [] => [(key, cell)]
  | (k', c) :: rest =>
    if k' = key then (k', cell) :: rest else (k', c) :: cellAssign key cell rest

/-- The loop of `readOverlayGraph` that reads `n` overlay vertices. -/
def readVertices : Nat → IStream → List Char → List OverlayVertex →
    Option (IStream × List Char × List OverlayVertex)
  | 0, file, line, vertices => some (file, line, vertices)
  | n + 1, file, line, vertices =>
    if file.eof then none
    else
      let r := getline file line
      let tokens := splitString r.2 ' '
      if tokens.length < 5 then none
      else
        (stoull (tokens.getD 0 [])).bind fun cellNumber =>
        (stoui (tokens.getD 1 [])).bind fun neighborOverlayVertex =>
        (stoui (tokens.getD 2 [])).bind fun originalVertex =>
        (stoui (tokens.getD 3 [])).bind fun originalEdge =>
        ((tokens.drop 4).mapM stoui).bind fun entryExitPoint =>
        readVertices n r.1 r.2
          (vertices ++ [⟨originalVertex, neighborOverlayVertex, cellNumber, originalEdge,
            entryExitPoint⟩])

/-- The loop of `readOverlayGraph` that reads the `n` cells of the level with index `i`. -/
def readCells (i : Nat) : Nat → IStream → List Char → List (List (Nat × Cell)) →
    Option (IStream × List Char × List (List (Nat × Cell)))
  | 0, file, line, cellMapping => some (file, line, cellMapping)
  | n + 1, file, line, cellMapping =>
    if file.eof then none
    else
      let r := getline file line
      let tokens := splitString r.2 ' '
      if tokens.length ≠ 5 then none
      else
        (stoull (tokens.getD 0 [])).bind fun key =>
        (stoui (tokens.getD 1 [])).bind fun numEntryPoints =>
        (stoui (tokens.getD 2 [])).bind fun numExitPoints =>
        (stoui (tokens.getD 3 [])).bind fun cellOffset =>
        (stoui (tokens.getD 4 [])).bind fun overlayIdOffset =>
        readCells i n r.1 r.2
          (cellMapping.set i
            (cellAssign key ⟨numEntryPoints, numExitPoints, cellOffset, overlayIdOffset⟩
              (cellMapping.getD i [])))

/-- The loop of `readOverlayGraph` over the levels `i, i + 1, ..., i + n - 1`. -/
def readLevels : Nat → Nat → IStream → List Char → List (List (Nat × Cell)) →
    Option (IStream × List Char × List (List (Nat × Cell)))
  | 0, _, file, line, cellMapping => some (file, line, cellMapping)
  | n + 1, i, file, line, cellMapping =>
    if file.eof then none
    else
      let r := getline file line
      (stoui r.2).bind fun cellsInLevel =>
      (readCells i cellsInLevel r.1 r.2 cellMapping).bind fun c =>
      readLevels n (i + 1) c.1 c.2.1 c.2.2

/-- `GraphIO::readOverlayGraph` on a file with the content `text` that opens: the overlay
graph that it stores, or `none` when it returns false, an assertion fails or a conversion
throws. -/
def readOverlayGraph (text : List Char) : Option OverlayGraph :=
  let file := IStream.ofText text
  if file.eof then none
  else
    let r := getline file []
    ((splitString r.2 ' ').mapM stoui).bind fun offsets =>
    let levelInfo : LevelInfo := ⟨offsets.map fun x => x % 256⟩
    if r.1.eof then none
    else
      let r := getline r.1 r.2
      let tokens := splitString r.2 ' '
      if tokens.length ≠ levelInfo.getLevelCount then none
      else
        (tokens.mapM stoui).bind fun vertexCountInLevel =>
        let vertexCount := vertexCountInLevel.getD 0 0
        (readVertices vertexCount r.1 r.2 []).bind fun v =>
        if v.1.eof then none
        else
          let r := getline v.1 v.2.1
          (stoui r.2).bind fun weightVectorSize =>
          if r.1.eof then none
          else
            let r := getline r.1 r.2
            let tokens := splitString r.2 ' '
            ((tokens.take (tokens.length - 1)).mapM stoui).bind fun overlayIdMapping =>
            (readLevels levelInfo.getLevelCount 0 r.1 r.2
              (List.replicate levelInfo.getLevelCount [])).bind fun c =>
            some
              { overlayVertices := v.2.2, vertexCountInLevel := vertexCountInLevel,
                cellMapping := c.2.2, overlayIdMapping := overlayIdMapping,
                levelInfo := levelInfo, weightVectorSize := weightVectorSize }

end GraphIO

end CRP

namespace CRP

/-! ## Notions used to state the round trip of the overlay graph -/

/-- The overlay graph is one that `writeOverlayGraph` and `readOverlayGraph` can hold: it has
at least one level, the vectors `vertexCountInLevel` and `cellMapping` have one entry per
level, `vertexCountInLevel[0]` is the number of overlay vertices, every overlay vertex has an
`entryExitPoint` that is not empty, the keys of every cell table are different, and the
numbers fit their types (`uint8_t` offsets, 64 bits for a cell number, 32 bits otherwise). -/
structure GraphIO.Writable (g : OverlayGraph) : Prop where
  levels : 1 ≤ g.levelInfo.getLevelCount ∧ g.levelInfo.getLevelCount < 255
  offsets : ∀ x, x ∈ g.levelInfo.offset → x < 256
  lenCount : g.vertexCountInLevel.length = g.levelInfo.getLevelCount
  counts : ∀ x, x ∈ g.vertexCountInLevel → x < 2 ^ 32
  lenVertices : g.overlayVertices.length = g.vertexCountInLevel.getD 0 0
  vertices : ∀ v, v ∈ g.overlayVertices →
    v.cellNumber < 2 ^ 64 ∧ v.neighborOverlayVertex < 2 ^ 32 ∧ v.originalVertex < 2 ^ 32 ∧
    v.originalEdge < 2 ^ 32 ∧ v.entryExitPoint ≠ [] ∧ ∀ e, e ∈ v.entryExitPoint → e < 2 ^ 32
  weightVectorSize : g.weightVectorSize < 2 ^ 32
  mapping : ∀ x, x ∈ g.overlayIdMapping → x < 2 ^ 32
  lenCells : g.cellMapping.length = g.levelInfo.getLevelCount
  cells : ∀ m, m ∈ g.cellMapping →
    m.length < 2 ^ 32 ∧ (m.map Prod.fst).Nodup ∧
    ∀ p, p ∈ m → p.1 < 2 ^ 64 ∧ p.2.numEntryPoints < 2 ^ 32 ∧ p.2.numExitPoints < 2 ^ 32 ∧
      p.2.cellOffset < 2 ^ 32 ∧ p.2.overlayIdOffset < 2 ^ 32

end CRP

namespace CRP

/-! ## Notions used to state the termination of the queries -/

/-- The sum of the labels of the ids below `n` in the round `currentRound`, where an id
without a label counts as `inf_weight`. -/
def labSum (n : Nat) (dist round : List Nat) (currentRound : Nat) : Nat :=
  (Finset.range n).sum fun x => (labOf dist round currentRound x).getD inf_weight

namespace OverlayGraph

/-- What a query needs of the overlay graph `og` of the base graph `graph`, whose overlay
vertices have the exit flags `exitFlags`: the entry vertex of a boundary edge is found in the
map of the base graph, the neighbours of an entry vertex on a level of its cell are exit
vertices of that cell, and the twin of an exit vertex is the entry vertex at the head of its
edge. -/
structure Routable (graph : Graph) (og : OverlayGraph) (exitFlags : List Bool) : Prop where
  entry : ∀ u k, u < graph.numberOfVertices → k < graph.getOutDegree u →
    0 < og.levelInfo.getHighestDifferingLevel (graph.getCellNumber u)
      (graph.getCellNumber (graph.arcHead u k)) →
    graph.getOverlayVertex (graph.arcHead u k)
        (graph.getForwardEdge ((graph.vertex u).firstOut + k)).entryPoint false <
      og.numberOfVertices ∧
    exitFlags.getD (graph.getOverlayVertex (graph.arcHead u k)
        (graph.getForwardEdge ((graph.vertex u).firstOut + k)).entryPoint false) false = false ∧
    (og.getVertex (graph.getOverlayVertex (graph.arcHead u k)
        (graph.getForwardEdge ((graph.vertex u).firstOut + k)).entryPoint false)).cellNumber =
      graph.getCellNumber (graph.arcHead u k) ∧
    (og.getVertex (graph.getOverlayVertex (graph.arcHead u k)
        (graph.getForwardEdge ((graph.vertex u).firstOut + k)).entryPoint
        false)).entryExitPoint.length =
      og.levelInfo.getHighestDifferingLevel (graph.getCellNumber u)
        (graph.getCellNumber (graph.arcHead u k))
  out : ∀ x l, x < og.numberOfVertices → exitFlags.getD x false = false → 1 ≤ l →
    l ≤ (og.getVertex x).entryExitPoint.length → ∀ p, p ∈ og.forOutNeighborsOf x l →
    p.1 < og.numberOfVertices ∧ exitFlags.getD p.1 false = true ∧
    l ≤ (og.getVertex p.1).entryExitPoint.length ∧
    og.levelInfo.getHighestDifferingLevel (og.getVertex x).cellNumber
      (og.getVertex p.1).cellNumber < l
  twin : ∀ v, v < og.numberOfVertices → exitFlags.getD v false = true →
    (og.getVertex v).neighborOverlayVertex < og.numberOfVertices ∧
    exitFlags.getD (og.getVertex v).neighborOverlayVertex false = false ∧
    (og.getVertex v).entryExitPoint.length =
      og.levelInfo.getHighestDifferingLevel (og.getVertex v).cellNumber
        (og.getVertex (og.getVertex v).neighborOverlayVertex).cellNumber ∧
    (og.getVertex (og.getVertex v).neighborOverlayVertex).entryExitPoint.length =
      og.levelInfo.getHighestDifferingLevel (og.getVertex v).cellNumber
        (og.getVertex (og.getVertex v).neighborOverlayVertex).cellNumber ∧
    ∃ u k, u < graph.numberOfVertices ∧ k < graph.getOutDegree u ∧
      (og.getVertex v).originalEdge = (graph.vertex u).firstOut + k ∧
      (og.getVertex (og.getVertex v).neighborOverlayVertex).originalVertex =
        graph.arcHead u k ∧
      (og.getVertex (og.getVertex v).neighborOverlayVertex).cellNumber =
        graph.getCellNumber (graph.arcHead u k)

end OverlayGraph

namespace Dijkstra

/-- The part of the invariant of the loop of `edgeQuery` on which its termination rests: the
vectors have their length, no round is ahead of the current one, and every queued id is an
entry point of its vertex. -/
structure Term (graph : Graph) (st : Search) : Prop where
  lenDist : st.self.dist.length = graph.numberOfEdges
  lenRound : st.self.round.length = graph.numberOfEdges
  queue : ∀ p, p ∈ st.self.graphPQ → graph.isEntry p.vertexId p.id

end Dijkstra

namespace CRPQueryUni

/-- The invariant of the object between the queries. -/
structure Valid (graph : Graph) (overlayGraph : OverlayGraph) (object : CRPQueryUni) :
    Prop where
  lenDist : object.dist.length = graph.numberOfEdges + overlayGraph.numberOfVertices
  lenRound : object.round.length = graph.numberOfEdges + overlayGraph.numberOfVertices
  lenParent : object.parent.length = graph.numberOfEdges + overlayGraph.numberOfVertices
  rounds : ∀ i, object.round.getD i 0 ≤ object.currentRound

/-- The measure that every iteration of the loop of `edgeQuery` lowers; `n` is the number of
the ids. -/
def potential (n : Nat) (self : CRPQueryUni) : Nat :=
  2 * labSum n self.dist self.round self.currentRound + self.graphPQ.length +
    self.overlayGraphPQ.length

/-- The overlay vertex `x` may be queued in a query between the cells `sCellNumber` and
`tCellNumber`: it is an entry vertex, and its query level is a level of the overlay graph on
which it has a cell. -/
def Queueable (og : OverlayGraph) (exitFlags : List Bool) (sCellNumber tCellNumber x : Nat) :
    Prop :=
  x < og.numberOfVertices ∧ exitFlags.getD x false = false ∧
    1 ≤ og.getQueryLevel sCellNumber tCellNumber (og.getVertex x).cellNumber ∧
    og.getQueryLevel sCellNumber tCellNumber (og.getVertex x).cellNumber ≤
      (og.getVertex x).entryExitPoint.length

/-- The part of the invariant of the loop of `edgeQuery` on which its termination rests: the
vectors have their length, every id of the base graph that is queued is an entry point of
its vertex, whose cell is the cell of `s` or of `t`, and every overlay vertex that is queued
may be queued. -/
structure Term (graph : Graph) (og : OverlayGraph) (exitFlags : List Bool)
    (sCellNumber tCellNumber : Nat) (st : Search) : Prop where
  lenDist : st.self.dist.length = graph.numberOfEdges + og.numberOfVertices
  lenRound : st.self.round.length = graph.numberOfEdges + og.numberOfVertices
  graphQ : ∀ p, p ∈ st.self.graphPQ → graph.isEntry p.vertexId p.id ∧
    og.getQueryLevel sCellNumber tCellNumber (graph.getCellNumber p.vertexId) = 0
  overlayQ : ∀ p, p ∈ st.self.overlayGraphPQ →
    Queueable og exitFlags sCellNumber tCellNumber p.id

/-- The state `st'` of the loop of `edgeQuery` follows the state `st`: it keeps the invariant,
the measure is not larger, and `shortestPath` and `tId` are the same. -/
def Step (graph : Graph) (og : OverlayGraph) (exitFlags : List Bool)
    (sCellNumber tCellNumber : Nat) (st st' : Search) : Prop :=
  Term graph og exitFlags sCellNumber tCellNumber st' ∧
    potential (graph.numberOfEdges + og.numberOfVertices) st'.self ≤
      potential (graph.numberOfEdges + og.numberOfVertices) st.self ∧
    st'.shortestPath = st.shortestPath ∧ st'.tId = st.tId

end CRPQueryUni

end CRP

namespace CRP

/-! ## Notions used to state the validity of the returned paths -/

namespace Graph

/-- The vertices of the walk that starts at the vertex `u` and takes the exit points `ks` one
after the other. -/
def walkVertices (g : Graph) : Nat → List Nat → List Nat
  | u, [] => [u]
  | u, k :: ks => u :: walkVertices g (g.arcHead u k) ks

/-- The turns of the walk that starts at the vertex `u`, entered at the entry point with id
`x`, and takes the exit points `ks`: the vertex, the entry point and the exit point of each
turn. -/
def walkTurns (g : Graph) : Nat → Nat → List Nat → List (Nat × Nat × Nat)
  | _, _, [] => []
  | u, x, k :: ks => (u, g.getEntryOrder u x, k) :: walkTurns g (g.arcHead u k) (g.arcId u k) ks

/-- The cost of the turn at `u` from the entry point with id `x` to the exit point `k` and of
the edge that leaves there. -/
def fullCost (g : Graph) (cf : CostFunction) (u x k : Nat) : Nat :=
  cf.getTurnCosts (g.getTurnType u (g.getEntryOrder u x) k) +
    cf.getWeight (g.getForwardEdge ((g.vertex u).firstOut + k)).attributes

/-- `g.Trail cost x0 x d vs`: a walk leads from the entry point `x0` to the entry point `x`,
its cost is `d`, and `vs` lists the vertices at which it takes an exit point; `cost u x k` is
the cost of the turn at `u` from the entry point `x` to the exit point `k` and of the edge
that leaves there. -/
inductive Trail (g : Graph) (cost : Nat → Nat → Nat → Nat) (x0 : Nat) :
    Nat → Nat → List Nat → Prop
  | start : Trail g cost x0 x0 0 []
  | step {x d : Nat} {vs : List Nat} {u k : Nat} : Trail g cost x0 x d vs → g.isEntry u x →
      k < g.getOutDegree u → Trail g cost x0 (g.arcId u k) (d + cost u x k) (vs ++ [u])

end Graph

/-- The parent pointers account for the labels: the parent of a labelled state other than `s`
is labelled, and an arc leads from it to the state whose cost, added to the label of the
parent, is at most the label of the state. -/
def ParOk (Edge : Nat → Nat → Nat → Prop) (s : Nat) (lab : Nat → Option Nat)
    (par : Nat → Nat) : Prop :=
  ∀ x d, lab x = some d → x ≠ s →
    ∃ dp c, lab (par x) = some dp ∧ Edge (par x) x c ∧ dp + c ≤ d

/-- The parent of every labelled id other than `sId` names the vertex that owns its id. -/
def Owned (graph : Graph) (sId : Nat) (lab : Nat → Option Nat) (parent : List VertexIdPair) :
    Prop :=
  ∀ x d, lab x = some d → x ≠ sId →
    graph.isEntry (parent.getD x default).originalVertex (parent.getD x default).id

end CRP

namespace CRP

/-- `Chain par s u l`: the parent pointers `par` lead from `u` to `s`, and `l` lists the
states on the way, from `u` to `s`. -/
inductive Chain (par : Nat → Nat) (s : Nat) : Nat → List Nat → Prop
  | base : Chain par s s [s]
  | step {u : Nat} {l : List Nat} : u ≠ s → Chain par s (par u) l → Chain par s u (u :: l)

namespace Dijkstra

/-- The part of the invariant of the loop of `edgeQuery` on which the validity of the
returned path rests: the labels are below `inf_weight`, every queued id is a labelled entry
point of its vertex, the parent pointers account for the labels and name the vertices that
own the ids, and `tId` has a label that is at most `shortestPath`. -/
structure PathInv (graph : Graph) (cf : CostFunction) (s sId t : Nat) (st : Search) :
    Prop where
  lenDist : st.self.dist.length = graph.numberOfEdges
  lenRound : st.self.round.length = graph.numberOfEdges
  lenParent : st.self.parent.length = graph.numberOfEdges
  labLt : ∀ x d, labOf st.self.dist st.self.round st.self.currentRound x = some d →
    d < inf_weight
  queue : ∀ p, p ∈ st.self.graphPQ → graph.isEntry p.vertexId p.id ∧
    ∃ d, labOf st.self.dist st.self.round st.self.currentRound p.id = some d
  par : ParOk (graph.QEdge cf s t) sId
    (labOf st.self.dist st.self.round st.self.currentRound)
    (fun x => (st.self.parent.getD x default).id)
  own : Owned graph sId (labOf st.self.dist st.self.round st.self.currentRound)
    st.self.parent
  best : st.shortestPath = 2 * inf_weight ∨
    (st.shortestPath < inf_weight ∧ graph.isEntry t st.tId ∧
      ∃ d, labOf st.self.dist st.self.round st.self.currentRound st.tId = some d ∧
        d ≤ st.shortestPath)

end Dijkstra

end CRP

namespace CRP

/-! ## Notions used to state the properties of the searches of the path unpacker -/

/-- The id `x` is queued in `q`. -/
def QOpen {α : Type} [IDKey α] (q : List α) (x : Nat) : Prop := ∃ p, p ∈ q ∧ IDKey.id p = x

/-- The invariant of a search with the queue `q`: the invariant of the labels, where the
states that are queued or have the property `extra` are open, the ids in the queue are
pairwise different, and every queued id is queued with its label. -/
structure QInv {α : Type} [IDKey α] (Edge : Nat → Nat → Nat → Prop) (s B : Nat)
    (dist round : List Nat) (cur : Nat) (q : List α) (extra : Nat → Prop) : Prop where
  search : SearchInv Edge s B (labOf dist round cur) (fun x => QOpen q x ∨ extra x)
  nodup : (q.map IDKey.id).Nodup
  keys : ∀ p, p ∈ q → labOf dist round cur (IDKey.id p) = some (IDKey.key p)

/-- The arcs between the entry points of the vertices of the cell `cellNumber`: from an entry
point `a` of a vertex `u` of the cell along an edge out of `u` whose head is in the cell or
whose entry point at the head has the property `last`; the turn costs are those of the cost
function at every vertex. -/
def Graph.LEdge (g : Graph) (cf : CostFunction) (cellNumber : Nat) (last : Nat → Prop)
    (a b c : Nat) : Prop :=
  ∃ u k, g.isEntry u a ∧ g.getCellNumber u = cellNumber ∧ k < g.getOutDegree u ∧
    b = g.arcId u k ∧ c = g.fullCost cf u a k ∧
    (g.getCellNumber (g.arcHead u k) = cellNumber ∨ last b)

namespace PathUnpacker

/-- The invariant of the object between the calls; `n` is the number of the ids. -/
structure Valid (n : Nat) (object : PathUnpacker) : Prop where
  lenDist : object.dist.length = n
  lenRound : object.round.length = n
  lenParent : object.parent.length = n
  rounds : ∀ i, object.round.getD i 0 ≤ object.currentRound

/-- The invariant of the loop of `unpackPathInLowestLevelCell`; `extra` holds for the entry
point whose edges are being relaxed. -/
structure LowestInv (graph : Graph) (cf : CostFunction) (n cellNumber sourceId targetId : Nat)
    (st : PathUnpacker × List IDKeyTriple) (extra : Nat → Prop) : Prop where
  valid : Valid n st.1
  search : QInv (graph.LEdge cf cellNumber (fun b => b = targetId)) sourceId (inf_weight + 1)
    st.1.dist st.1.round st.1.currentRound st.2 extra
  queue : ∀ p, p ∈ st.2 → graph.isEntry p.vertexId p.id ∧
    (p.id ≠ targetId → graph.getCellNumber p.vertexId = cellNumber)
  par : ParOk (graph.LEdge cf cellNumber (fun b => b = targetId)) sourceId
    (labOf st.1.dist st.1.round st.1.currentRound) (fun x => (st.1.parent.getD x default).id)
  own : Owned graph sourceId (labOf st.1.dist st.1.round st.1.currentRound) st.1.parent
  tgtOpen : ∀ d, labOf st.1.dist st.1.round st.1.currentRound targetId = some d →
    QOpen st.2 targetId

end PathUnpacker

end CRP

namespace CRP

/-! ## The states that the loops of the queries pass -/

namespace Dijkstra

/-- The state in which `edgeQuery` enters its loop. -/
def start (graph : Graph) (self : Dijkstra) (sourceEdgeId : Nat) : Search :=
  { self :=
      { dist := self.dist.set (graph.getEntryOffset (graph.getForwardEdge sourceEdgeId).head +
          (graph.getForwardEdge sourceEdgeId).entryPoint) 0
        round := self.round.set (graph.getEntryOffset (graph.getForwardEdge sourceEdgeId).head +
          (graph.getForwardEdge sourceEdgeId).entryPoint) (u32 (self.currentRound + 1))
        parent := self.parent.set (graph.getEntryOffset (graph.getForwardEdge sourceEdgeId).head +
          (graph.getForwardEdge sourceEdgeId).entryPoint)
          ⟨(graph.getForwardEdge sourceEdgeId).head,
            graph.getEntryOffset (graph.getForwardEdge sourceEdgeId).head +
              (graph.getForwardEdge sourceEdgeId).entryPoint⟩
        currentRound := u32 (self.currentRound + 1)
        graphPQ := MinIDQueue.push []
          ⟨graph.getEntryOffset (graph.getForwardEdge sourceEdgeId).head +
            (graph.getForwardEdge sourceEdgeId).entryPoint,
            (graph.getForwardEdge sourceEdgeId).head, 0⟩ }
    shortestPath := 2 * inf_weight
    tId := invalid_id }

/-- The state of the loop of `edgeQuery` after the label `triple` is popped and the test
`u == t` is made. -/
def popped (st : Search) (triple : IDKeyTriple) (q : List IDKeyTriple) (t : Nat) : Search :=
  if triple.vertexId = t then
    if st.self.dist.getD triple.id 0 < st.shortestPath then
      { self := { st.self with graphPQ := q },
        shortestPath := st.self.dist.getD triple.id 0, tId := triple.id }
    else { st with self := { st.self with graphPQ := q } }
  else { st with self := { st.self with graphPQ := q } }

/-- One iteration of the loop of `edgeQuery` that does not leave the loop: it leads from the
state `st` at the head of the loop to the state at the end of its body. -/
inductive Iteration (graph : Graph) (metric : Metric) (s t : Nat) : Search → Search → Prop
  | pop {st : Search} {triple : IDKeyTriple} {q : List IDKeyTriple} :
      MinIDQueue.pop st.self.graphPQ = some (triple, q) →
      ¬ (st.self.round.getD triple.id 0 = st.self.currentRound ∧
        st.self.dist.getD triple.id 0 > st.shortestPath) →
      Iteration graph metric s t st
        ((graph.forOutEdgesOf triple.vertexId
            (graph.getEntryOrder triple.vertexId triple.id)).foldl
          (relax graph metric s t triple.vertexId triple.id) (popped st triple q t))

/-- The states at the head of the loop of `edgeQuery` in the run that enters the loop in the
state `st0`. -/
inductive Reached (graph : Graph) (metric : Metric) (s t : Nat) (st0 : Search) :
    Search → Prop
  | start : Reached graph metric s t st0 st0
  | next {st st' : Search} : Reached graph metric s t st0 st →
      Iteration graph metric s t st st' → Reached graph metric s t st0 st'

end Dijkstra

namespace CRPQueryUni

/-- The state in which `edgeQuery` enters its loop. -/
def start (graph : Graph) (self : CRPQueryUni) (sourceEdgeId : Nat) : Search :=
  { self :=
      { dist := self.dist.set (graph.getEntryOffset (graph.getForwardEdge sourceEdgeId).head +
          (graph.getForwardEdge sourceEdgeId).entryPoint) 0
        round := self.round.set (graph.getEntryOffset (graph.getForwardEdge sourceEdgeId).head +
          (graph.getForwardEdge sourceEdgeId).entryPoint) (u32 (self.currentRound + 1))
        parent := self.parent.set (graph.getEntryOffset (graph.getForwardEdge sourceEdgeId).head +
          (graph.getForwardEdge sourceEdgeId).entryPoint)
          ⟨(graph.getForwardEdge sourceEdgeId).head,
            graph.getEntryOffset (graph.getForwardEdge sourceEdgeId).head +
              (graph.getForwardEdge sourceEdgeId).entryPoint⟩
        currentRound := u32 (self.currentRound + 1)
        graphPQ := MinIDQueue.push []
          ⟨graph.getEntryOffset (graph.getForwardEdge sourceEdgeId).head +
            (graph.getForwardEdge sourceEdgeId).entryPoint,
            (graph.getForwardEdge sourceEdgeId).head, 0⟩
        overlayGraphPQ := [] }
    shortestPath := 2 * inf_weight
    tId := invalid_id }

/-- The state of the loop of `edgeQuery` after the label `triple` of the base graph is popped
and the test `u == t` is made. -/
def popped (st : Search) (triple : IDKeyTriple) (q : List IDKeyTriple) (t : Nat) : Search :=
  if triple.vertexId = t then
    if st.self.dist.getD triple.id 0 < st.shortestPath then
      { self := { st.self with graphPQ := q },
        shortestPath := st.self.dist.getD triple.id 0, tId := triple.id }
    else { st with self := { st.self with graphPQ := q } }
  else { st with self := { st.self with graphPQ := q } }

/-- One iteration of the loop of `edgeQuery` that does not leave the loop: it leads from the
state `st` at the head of the loop to the state at the end of its body, through the branch of
the base graph or through the branch of the overlay graph. -/
inductive Iteration (graph : Graph) (overlayGraph : OverlayGraph) (metric : Metric)
    (s t sCellNumber tCellNumber : Nat) : Search → Search → Prop
  | base {st : Search} {triple : IDKeyTriple} {q : List IDKeyTriple} :
      ¬ (st.self.graphPQ.isEmpty ∧ st.self.overlayGraphPQ.isEmpty) →
      takeGraph st.self.graphPQ st.self.overlayGraphPQ = true →
      MinIDQueue.pop st.self.graphPQ = some (triple, q) →
      ¬ (st.self.round.getD triple.id 0 = st.self.currentRound ∧
        st.self.dist.getD triple.id 0 > st.shortestPath) →
      Iteration graph overlayGraph metric s t sCellNumber tCellNumber st
        ((graph.forOutEdgesOf triple.vertexId
            (graph.getEntryOrder triple.vertexId triple.id)).foldl
          (relaxGraph graph overlayGraph metric s t sCellNumber tCellNumber triple.vertexId
            triple.id) (popped st triple q t))
  | overlay {st : Search} {pair : IDKeyPair} {q : List IDKeyPair} :
      ¬ (st.self.graphPQ.isEmpty ∧ st.self.overlayGraphPQ.isEmpty) →
      takeGraph st.self.graphPQ st.self.overlayGraphPQ = false →
      MinIDQueue.pop st.self.overlayGraphPQ = some (pair, q) →
      ¬ (st.self.round.getD (pair.id + graph.numberOfEdges) 0 = st.self.currentRound ∧
        st.self.dist.getD (pair.id + graph.numberOfEdges) 0 > st.shortestPath) →
      Iteration graph overlayGraph metric s t sCellNumber tCellNumber st
        ((overlayGraph.forOutNeighborsOf pair.id
            (overlayGraph.getQueryLevel sCellNumber tCellNumber
              (overlayGraph.getVertex pair.id).cellNumber)).foldl
          (relaxOverlay graph overlayGraph metric sCellNumber tCellNumber pair.id
            (pair.id + graph.numberOfEdges))
          { st with self := { st.self with overlayGraphPQ := q } })

/-- The states at the head of the loop of `edgeQuery` in the run that enters the loop in the
state `st0`. -/
inductive Reached (graph : Graph) (overlayGraph : OverlayGraph) (metric : Metric)
    (s t sCellNumber tCellNumber : Nat) (st0 : Search) : Search → Prop
  | start : Reached graph overlayGraph metric s t sCellNumber tCellNumber st0 st0
  | next {st st' : Search} :
      Reached graph overlayGraph metric s t sCellNumber tCellNumber st0 st →
      Iteration graph overlayGraph metric s t sCellNumber tCellNumber st st' →
      Reached graph overlayGraph metric s t sCellNumber tCellNumber st0 st'

end CRPQueryUni

end CRP


namespace CRP

/-! ## A run on the graph of OverlayGraphTest.cpp -/

/-- The state of `CRPQueryUni::edgeQuery(1, 0, m)` on the graph of OverlayGraphTest.cpp with
the hop metric after the first iteration of the loop, which pops the label of the source
(the entry point with id 0 of the vertex 0) and relaxes the edges out of the vertex 0. -/
def testFirstState : CRPQueryUni.Search :=
  ((OverlayGraph.build testSortedGraph testPartition).2.2.forOutEdgesOf 0
      ((OverlayGraph.build testSortedGraph testPartition).2.2.getEntryOrder 0 0)).foldl
    (CRPQueryUni.relaxGraph (OverlayGraph.build testSortedGraph testPartition).2.2
      (OverlayGraph.build testSortedGraph testPartition).1 ⟨HopFunction, [], [], []⟩
      (((OverlayGraph.build testSortedGraph testPartition).2.2).getForwardEdge 1).head
      (((OverlayGraph.build testSortedGraph testPartition).2.2).getBackwardEdge 0).tail
      ((OverlayGraph.build testSortedGraph testPartition).2.2.getCellNumber
        (((OverlayGraph.build testSortedGraph testPartition).2.2).getForwardEdge 1).head)
      ((OverlayGraph.build testSortedGraph testPartition).2.2.getCellNumber
        (((OverlayGraph.build testSortedGraph testPartition).2.2).getBackwardEdge 0).tail) 0 0)
    (CRPQueryUni.popped
      (CRPQueryUni.start (OverlayGraph.build testSortedGraph testPartition).2.2
        (CRPQueryUni.create (OverlayGraph.build testSortedGraph testPartition).2.2
          (OverlayGraph.build testSortedGraph testPartition).1) 1)
      ⟨0, 0, 0⟩ []
      (((OverlayGraph.build testSortedGraph testPartition).2.2).getBackwardEdge 0).tail)

/-- Every entry of the vector `dist` is at most `inf_weight`. -/
def DistBound (dist : List Nat) : Prop := ∀ i, dist.getD i 0 ≤ inf_weight

/-- What the customization needs of the cells of the overlay graph `og`, whose overlay
vertices have the exit flags `exitFlags`: the entry points of a cell of level `l` are entry
vertices whose `entryExitPoint` reaches the level `l`, and its exit points are exit
vertices. -/
structure OverlayGraph.CellsOk (og : OverlayGraph) (exitFlags : List Bool) : Prop where
  entry : ∀ l k C, 1 ≤ l → (k, C) ∈ og.forCells l → ∀ i, i < C.numEntryPoints →
    og.getEntryPoint C i < og.numberOfVertices ∧
    exitFlags.getD (og.getEntryPoint C i) false = false ∧
    l ≤ (og.getVertex (og.getEntryPoint C i)).entryExitPoint.length
  exit : ∀ l k C, 1 ≤ l → (k, C) ∈ og.forCells l → ∀ j, j < C.numExitPoints →
    exitFlags.getD (og.getExitPoint C j) false = true

namespace OverlayWeights

/-- The bound on the values of `buildLowestLevel`: the entries of `overlayDist` and of
`weights` are at most `inf_weight`. -/
def LowestBound (st : Lowest) : Prop :=
  DistBound st.overlayDist ∧ DistBound st.weights

/-- The bound on the values of `buildLevel` for the level `l`: the entries of `dist` at the
exit vertices and the entries of `weights` are at most `inf_weight`, and the queue holds
entry vertices whose `entryExitPoint` reaches the level `l - 1`. -/
structure UpperBound (og : OverlayGraph) (exitFlags : List Bool) (l : Nat) (st : Upper) :
    Prop where
  dist : ∀ x, exitFlags.getD x false = true → st.dist.getD x 0 ≤ inf_weight
  weights : DistBound st.weights
  queue : ∀ p, p ∈ st.queue → p.id < og.numberOfVertices ∧
    exitFlags.getD p.id false = false ∧ l - 1 ≤ (og.getVertex p.id).entryExitPoint.length

end OverlayWeights

end CRP


namespace CRP

/-! ## A graph on which the stalling step writes a value below the distance -/

/-- A base graph with the vertices 0, 1, 2 and 3 in one cell and the edges 0 -> 1 (edge 0,
into the entry point 0 of the vertex 1), 1 -> 0 (edge 1), 1 -> 2 (edge 2), 2 -> 1 (edge 3,
into the entry point 1 of the vertex 1) and the loop 3 -> 3 (edge 4). All turns are `NONE`.
The entry points have the ids 0 (vertex 0), 1 and 2 (vertex 1), 3 (vertex 2) and 4
(vertex 3). -/
def stallGraph : Graph :=
  let attr : EdgeAttributes := ⟨1⟩
  { vertices := [⟨0, 0, 0, 0⟩, ⟨0, 1, 1, 1⟩, ⟨0, 5, 3, 3⟩, ⟨0, 6, 4, 4⟩, ⟨0, 0, 5, 5⟩],
    forwardEdges := [⟨1, 0, attr⟩, ⟨0, 0, attr⟩, ⟨2, 0, attr⟩, ⟨1, 1, attr⟩, ⟨3, 0, attr⟩],
    backwardEdges := [⟨1, 0, attr⟩, ⟨0, 0, attr⟩, ⟨2, 0, attr⟩, ⟨1, 1, attr⟩, ⟨3, 0, attr⟩],
    turnTables := List.replicate 7 TURN_TYPE.NONE,
    cellNumbers := [0], maxEdgesInCell := 5, forwardEdgeCellOffset := [0],
    backwardEdgeCellOffset := [0], overlayVertices := [] }

/-- The metric of `stallGraph` with the hop function and its tables for stalling (the overlay
graph of a single cell has no weights). -/
def stallMetric : Metric :=
  { costFunction := HopFunction, weights := [],
    turnTablePtr := (Metric.buildTurnTables stallGraph HopFunction).turnTablePtr,
    turnTableDiffs := (Metric.buildTurnTables stallGraph HopFunction).turnTableDiffs }

/-- The vector `forwardInfo` of `ParallelCRPQuery::edgeQuery(1, 4, m)` on `stallGraph`, on
an object as the constructor leaves it, when the forward search pops its second label: the
loop before the searches has set every `dist` to `inf_weight`, the source (the entry point
with the id 0 of the vertex 0) has the label 0 of the round 1, and the first iteration has
relaxed the edge 0 -> 1 and given the entry point with the id 1 the label 1. -/
def stallInfo : List ParallelCRPQuery.VertexInfo :=
  [⟨0, 1, ⟨0, 0⟩⟩, ⟨1, 1, ⟨0, 0⟩⟩] ++ List.replicate 8 ⟨inf_weight, 0, default⟩

/-- What the stalling step keeps of the vector `forwardInfo`: its length, the `round` and the
`parent` of every entry, and every entry whose round is not older than `currentRound`; it
does not raise a `dist`. -/
def ParallelCRPQuery.StallKeeps (currentRound : Nat)
    (info info' : List ParallelCRPQuery.VertexInfo) : Prop :=
  info'.length = info.length ∧
  ∀ i, (info'.getD i default).round = (info.getD i default).round ∧
    (info'.getD i default).parent = (info.getD i default).parent ∧
    (info'.getD i default).dist ≤ (info.getD i default).dist ∧
    (currentRound ≤ (info.getD i default).round → info'.getD i default = info.getD i default)

end CRP


namespace CRP

/-! ## Notions used to compare a query on a used object with a query on a fresh one -/

/-- The vectors of labels of a query object and its round counter. -/
structure Scratch where
  dist : List Nat
  round : List Nat
  parent : List VertexIdPair
  cur : Nat

namespace Scratch

/-- The id `i` has a label of the current round. -/
def labelled (a : Scratch) (i : Nat) : Prop := a.round.getD i 0 = a.cur

/-- The assignments `dist[i] = v; round[i] = currentRound; parent[i] = p`. -/
def label (a : Scratch) (i v : Nat) (p : VertexIdPair) : Scratch :=
  ⟨a.dist.set i v, a.round.set i a.cur, a.parent.set i p, a.cur⟩

end Scratch

/-- The vectors `a` and `b` of `n` ids hold the same labels of their current rounds, no round
is ahead of the current one, and the parent of a labelled id other than `sId` is labelled. -/
structure ScratchSim (n sId : Nat) (a b : Scratch) : Prop where
  lenDistA : a.dist.length = n
  lenRoundA : a.round.length = n
  lenParentA : a.parent.length = n
  lenDistB : b.dist.length = n
  lenRoundB : b.round.length = n
  lenParentB : b.parent.length = n
  leA : ∀ i, a.round.getD i 0 ≤ a.cur
  leB : ∀ i, b.round.getD i 0 ≤ b.cur
  lab : ∀ i, a.labelled i ↔ b.labelled i
  val : ∀ i, a.labelled i → a.dist.getD i 0 = b.dist.getD i 0 ∧
    a.parent.getD i default = b.parent.getD i default
  chain : ∀ i, a.labelled i → i ≠ sId → a.labelled (a.parent.getD i default).id

/-- Two results are both absent, or both present and related. -/
def OptSim {α β : Type} (R : α → β → Prop) : Option α → Option β → Prop
  | none, none => True
  | some x, some y => R x y
  | _, _ => False

namespace Dijkstra

/-- The labels of the object. -/
def scratch (self : Dijkstra) : Scratch := ⟨self.dist, self.round, self.parent, self.currentRound⟩

/-- The states `st` and `st'` of the loops of two queries agree: they hold the same labels,
the same queue and the same locals, every queued id is labelled or no id of the graph, and
`tId` is labelled when a path is found. -/
structure Sim (n sId : Nat) (st st' : Search) : Prop where
  labels : ScratchSim n sId (scratch st.self) (scratch st'.self)
  queue : st.self.graphPQ = st'.self.graphPQ
  shortest : st.shortestPath = st'.shortestPath
  target : st.tId = st'.tId
  queued : ∀ p, p ∈ st.self.graphPQ → (scratch st.self).labelled p.id ∨ n ≤ p.id
  best : st.shortestPath = 2 * inf_weight ∨ (scratch st.self).labelled st.tId

/-- The states in which the loops of two queries end agree. -/
structure FinalSim (n sId : Nat) (st st' : Search) : Prop where
  labels : ScratchSim n sId (scratch st.self) (scratch st'.self)
  shortest : st.shortestPath = st'.shortestPath
  target : st.tId = st'.tId
  best : st.shortestPath = 2 * inf_weight ∨ (scratch st.self).labelled st.tId

end Dijkstra

namespace CRPQueryUni

/-- The labels of the object. -/
def scratch (self : CRPQueryUni) : Scratch :=
  ⟨self.dist, self.round, self.parent, self.currentRound⟩

/-- The states `st` and `st'` of the loops of two queries agree: they hold the same labels,
the same queues and the same locals, every queued id is labelled or no id of the graphs, and
`tId` is labelled when a path is found; `m` is the number of the edges of the base graph. -/
structure Sim (n m sId : Nat) (st st' : Search) : Prop where
  labels : ScratchSim n sId (scratch st.self) (scratch st'.self)
  graphQueue : st.self.graphPQ = st'.self.graphPQ
  overlayQueue : st.self.overlayGraphPQ = st'.self.overlayGraphPQ
  shortest : st.shortestPath = st'.shortestPath
  target : st.tId = st'.tId
  graphQueued : ∀ p, p ∈ st.self.graphPQ → (scratch st.self).labelled p.id ∨ n ≤ p.id
  overlayQueued : ∀ p, p ∈ st.self.overlayGraphPQ →
    (scratch st.self).labelled (p.id + m) ∨ n ≤ p.id + m
  best : st.shortestPath = 2 * inf_weight ∨ (scratch st.self).labelled st.tId

/-- The states in which the loops of two queries end agree. -/
structure FinalSim (n sId : Nat) (st st' : Search) : Prop where
  labels : ScratchSim n sId (scratch st.self) (scratch st'.self)
  shortest : st.shortestPath = st'.shortestPath
  target : st.tId = st'.tId
  best : st.shortestPath = 2 * inf_weight ∨ (scratch st.self).labelled st.tId

end CRPQueryUni

/-! ## Objects that a query has used -/

/-- The `Dijkstra` object on the graph of OverlayGraphTest.cpp after the query from the
edge 1 to the edge 0 with the hop metric. -/
def testUsedDijkstra : Dijkstra :=
  ((Dijkstra.edgeQuery testSortedGraph ⟨HopFunction, [], [], []⟩ 1000
    (Dijkstra.create testSortedGraph) 1 0).map Prod.snd).getD (Dijkstra.create testSortedGraph)

/-- The `CRPQueryUni` object on the graph of OverlayGraphTest.cpp and its overlay graph after
the query from the edge 1 to the edge 1, with the weights of the hop function. -/
def testUsedQuery : CRPQueryUni :=
  ((CRPQueryUni.edgeQuery (OverlayGraph.build testSortedGraph testPartition).2.2
    (OverlayGraph.build testSortedGraph testPartition).1
    ⟨HopFunction, [1, 0, 0, 1, 2, 1, 1, 0, inf_weight, inf_weight, 1, 0, 0, 0, 0, 1, 1, 1, 1, 1,
      0, 0], [], []⟩ 1000
    (CRPQueryUni.create (OverlayGraph.build testSortedGraph testPartition).2.2
      (OverlayGraph.build testSortedGraph testPartition).1)
    (PathUnpacker.create (OverlayGraph.build testSortedGraph testPartition).2.2
      (OverlayGraph.build testSortedGraph testPartition).1) 1 1).map fun r => r.2.1).getD
    (CRPQueryUni.create (OverlayGraph.build testSortedGraph testPartition).2.2
      (OverlayGraph.build testSortedGraph testPartition).1)

end CRP

namespace CRP

/-! ## Notions used to state the properties of the searches on the overlay graph -/

/-- The sum of the labels of the ids below `n` in the round `currentRound`, where an id
without a label counts as `B`. -/
def labTotal (B n : Nat) (dist round : List Nat) (currentRound : Nat) : Nat :=
  (Finset.range n).sum fun x => (labOf dist round currentRound x).getD B

/-- The exit flags of the overlay vertices of `path` alternate and start with `b`. -/
def Alternates (exitFlags : List Bool) : Bool → List Nat → Prop
  | _, [] => True
  | b, x :: rest => exitFlags.getD x false = b ∧ Alternates exitFlags (!b) rest

/-- The metric of the hop function on the graph of OverlayGraphTest.cpp with its partition:
the weights are those that `OverlayWeights::build` computes; the tables for stalling are not
used by the path unpacker and left empty. -/
def testMetric : Metric :=
  ⟨HopFunction, [1, 0, 0, 1, 2, 1, 1, 0, inf_weight, inf_weight, 1, 0, 0, 0, 0, 1, 1, 1, 1, 1,
    0, 0], [], []⟩

namespace OverlayGraph

/-- The arcs of the searches of `buildLevel` and of `unpackPathInOverlayCell` in the cell
with the key `k` of the level `l`: from an entry vertex `a` to an exit vertex `b` that
`forOutNeighborsOf(a, l - 1)` hands over, at the cost of the weight with the index handed
over, and from an exit vertex `a` to its twin `b` in the cell, at the cost of the weight of
the edge of `a`. -/
def OEdge (graph : Graph) (og : OverlayGraph) (exitFlags : List Bool) (cf : CostFunction)
    (weights : List Nat) (l k a b c : Nat) : Prop :=
  (exitFlags.getD a false = false ∧
    ∃ wo, (b, wo) ∈ og.forOutNeighborsOf a (l - 1) ∧ c = weights.getD wo 0) ∨
  (exitFlags.getD a false = true ∧ b = (og.getVertex a).neighborOverlayVertex ∧
    og.levelInfo.truncateToLevel (og.getVertex b).cellNumber l = k ∧
    c = cf.getWeight (graph.getForwardEdge (og.getVertex a).originalEdge).attributes)

/-- The index `wo` is the index of a weight of a cell of the level `m`. -/
def WeightAt (og : OverlayGraph) (m wo : Nat) : Prop :=
  ∃ k C i j, (k, C) ∈ og.forCells m ∧ i < C.numEntryPoints ∧ j < C.numExitPoints ∧
    wo = C.cellOffset + i * C.numExitPoints + j

/-- The overlay vertex `x` is a vertex of the level `l - 1` in the cell with the key `k` of
the level `l`. -/
def InCell (og : OverlayGraph) (l k x : Nat) : Prop :=
  x < og.numberOfVertices ∧ l - 1 ≤ (og.getVertex x).entryExitPoint.length ∧
    og.levelInfo.truncateToLevel (og.getVertex x).cellNumber l = k

/-- What the searches on the overlay graph `og` need of its cells: the offsets of the levels
do not decrease, every level with a cell is a level of the partition, twins reference each
other, the entry and exit points of a cell are vertices of the cell, the neighbours of an
entry vertex on a level are the exit points of its cell with the weights of its row, and the
weights of different pairs of points have different indices below the size of the weight
vector. -/
structure Wired (og : OverlayGraph) (exitFlags : List Bool) : Prop where
  mono : og.levelInfo.offset.Pairwise (fun a b => a ≤ b)
  levels : ∀ l k C, 1 ≤ l → (k, C) ∈ og.forCells l → l ≤ og.levelInfo.getLevelCount
  twin : ∀ x, x < og.numberOfVertices →
    (og.getVertex (og.getVertex x).neighborOverlayVertex).neighborOverlayVertex = x
  entryKey : ∀ l k C, 1 ≤ l → (k, C) ∈ og.forCells l → ∀ i, i < C.numEntryPoints →
    og.levelInfo.truncateToLevel (og.getVertex (og.getEntryPoint C i)).cellNumber l = k
  exitKey : ∀ l k C, 1 ≤ l → (k, C) ∈ og.forCells l → ∀ j, j < C.numExitPoints →
    og.getExitPoint C j < og.numberOfVertices ∧
    l ≤ (og.getVertex (og.getExitPoint C j)).entryExitPoint.length ∧
    og.levelInfo.truncateToLevel (og.getVertex (og.getExitPoint C j)).cellNumber l = k
  hop : ∀ x l, x < og.numberOfVertices → exitFlags.getD x false = false → 1 ≤ l →
    l ≤ (og.getVertex x).entryExitPoint.length →
    ∃ k C i, (k, C) ∈ og.forCells l ∧ i < C.numEntryPoints ∧ x = og.getEntryPoint C i ∧
      og.forOutNeighborsOf x l = (List.range C.numExitPoints).map fun j =>
        (og.getExitPoint C j, C.cellOffset + i * C.numExitPoints + j)
  index : ∀ l k C i j l' k' C' i' j', 1 ≤ l → (k, C) ∈ og.forCells l →
    i < C.numEntryPoints → j < C.numExitPoints → 1 ≤ l' → (k', C') ∈ og.forCells l' →
    i' < C'.numEntryPoints → j' < C'.numExitPoints →
    C.cellOffset + i * C.numExitPoints + j = C'.cellOffset + i' * C'.numExitPoints + j' →
    l = l' ∧ k = k' ∧ C = C' ∧ i = i' ∧ j = j'
  size : ∀ l k C i j, 1 ≤ l → (k, C) ∈ og.forCells l → i < C.numEntryPoints →
    j < C.numExitPoints → C.cellOffset + i * C.numExitPoints + j < og.getWeightVectorSize

end OverlayGraph

namespace OverlayWeights

/-- The state of the vector `weights` while `build` works on the level `m`: it has its
size, the weights of the levels above `m` are `inf_weight`, and a weight below `inf_weight` of a level from 2 on is the cost of a walk in
its cell from the entry point to the exit point. -/
structure WInv (graph : Graph) (og : OverlayGraph) (exitFlags : List Bool)
    (cf : CostFunction) (m : Nat) (weights : List Nat) : Prop where
  len : weights.length = og.getWeightVectorSize
  above : ∀ l k C i j, m < l → (k, C) ∈ og.forCells l → i < C.numEntryPoints →
    j < C.numExitPoints → weights.getD (C.cellOffset + i * C.numExitPoints + j) 0 = inf_weight
  sound : ∀ l k C i j, 2 ≤ l → (k, C) ∈ og.forCells l → i < C.numEntryPoints →
    j < C.numExitPoints → weights.getD (C.cellOffset + i * C.numExitPoints + j) 0 < inf_weight →
    Reach (og.OEdge graph exitFlags cf weights l k) (og.getEntryPoint C i)
      (og.getExitPoint C j) (weights.getD (C.cellOffset + i * C.numExitPoints + j) 0)

/-- The invariant of the search of `buildLevel` from the entry point `s` of the cell with the
key `k` of the level `l`: the vectors `dist` and `round` have the same length, the current
round is not 0, no round is ahead of the current one, the label of an exit vertex
is the cost of a walk to it, and the queue holds entry vertices with the cost of a walk to
them as key. -/
structure UpperSound (graph : Graph) (og : OverlayGraph) (exitFlags : List Bool)
    (cf : CostFunction) (l k s : Nat) (st : Upper) : Prop where
  len : st.dist.length = st.round.length
  pos : 1 ≤ st.currentRound
  rounds : ∀ x, st.round.getD x 0 ≤ st.currentRound
  lab : ∀ x, exitFlags.getD x false = true → st.round.getD x 0 = st.currentRound →
    Reach (og.OEdge graph exitFlags cf st.weights l k) s x (st.dist.getD x 0)
  queue : ∀ p, p ∈ st.queue → exitFlags.getD p.id false = false ∧ p.key < 2 * inf_weight ∧
    Reach (og.OEdge graph exitFlags cf st.weights l k) s p.id p.key

end OverlayWeights

namespace PathUnpacker

/-- The invariant of the loop of `unpackPathInOverlayCell` in the cell with the key `k` of
the level `l`; `extra` holds for the entry vertex whose neighbours are being relaxed. The
labels are the costs of walks, the parent pointers account for them and lead to the source,
every queued vertex other than the target is an entry vertex, the target is queued while it
has a label, and the labels are below `3 * inf_weight`. -/
structure OverlayInv (graph : Graph) (og : OverlayGraph) (exitFlags : List Bool)
    (metric : Metric) (n l k sourceId targetId : Nat)
    (st : PathUnpacker × List IDKeyPair) (extra : Nat → Prop) : Prop where
  valid : Valid n st.1
  search : QInv (og.OEdge graph exitFlags metric.costFunction metric.weights l k) sourceId
    inf_weight st.1.dist st.1.round st.1.currentRound st.2 extra
  queue : ∀ p, p ∈ st.2 → p.id ≠ targetId → exitFlags.getD p.id false = false
  par : ParInv (og.OEdge graph exitFlags metric.costFunction metric.weights l k) sourceId
    (labOf st.1.dist st.1.round st.1.currentRound) (fun x => (st.1.parent.getD x default).id)
  tgtOpen : ∀ d, labOf st.1.dist st.1.round st.1.currentRound targetId = some d →
    QOpen st.2 targetId
  small : ∀ x d, labOf st.1.dist st.1.round st.1.currentRound x = some d →
    d < 3 * inf_weight

/-- The measure that every iteration of the loop of `unpackPathInOverlayCell` lowers; `n` is
the number of the ids. -/
def overlayPotential (n : Nat) (st : PathUnpacker × List IDKeyPair) : Nat :=
  3 * labTotal (3 * inf_weight) n st.1.dist st.1.round st.1.currentRound + st.2.length

end PathUnpacker

end CRP

namespace CRP

/-! ## ParallelCRPQuery.cpp: the values of the stalling step -/

namespace ParallelCRPQuery

/-- The local `entryPoint` of the forward search for the popped label `triple` of the base
graph, a `turnorder` (8 bits): `uId + forwardSOffset - graph.getEntryOffset(u)` for a label of
the source cell and `uId + forwardTOffset - graph.getEntryOffset(u)` otherwise. -/
def forwardEntryPoint (graph : Graph) (forwardSOffset forwardTOffset : Nat)
    (triple : IDKeyTriple) : Nat :=
  if triple.id < graph.getMaxEdgesInCell then
    u32 (u32 (triple.id + forwardSOffset) + 4294967296 - graph.getEntryOffset triple.vertexId)
      % 256
  else
    u32 (u32 (triple.id + forwardTOffset) + 4294967296 - graph.getEntryOffset triple.vertexId)
      % 256

/-- The first value `graph.getEntryOffset(u) - offset` of `entryId` in the stalling loop of
the forward search. -/
def stallFirst (graph : Graph) (forwardSOffset forwardTOffset : Nat) (triple : IDKeyTriple) :
    Nat :=
  u32 (graph.getEntryOffset triple.vertexId + 4294967296 -
    (if triple.id < graph.getMaxEdgesInCell then forwardSOffset else forwardTOffset))

/-- The bound `graph.getEntryOffset(u) + uInDeg - offset` of `entryId` in the stalling loop of
the forward search. -/
def stallLast (graph : Graph) (forwardSOffset forwardTOffset : Nat) (triple : IDKeyTriple) :
    Nat :=
  u32 (u32 (graph.getEntryOffset triple.vertexId + graph.getInDegree triple.vertexId) +
    4294967296 - (if triple.id < graph.getMaxEdgesInCell then forwardSOffset else forwardTOffset))

/-- The value `(weight) std::max(0, (int) forwardInfo[uId].dist +
metrics[metricId].getMaxEntryTurnTableDiff(u, uOffset + j))` of the stalling loop of the
forward search for the entry point `j`, with `uOffset = uInDeg * entryPoint`; the sum is a
value of type `int`. -/
def stallValue (graph : Graph) (metric : Metric) (forwardSOffset forwardTOffset : Nat)
    (forwardInfo : List VertexInfo) (triple : IDKeyTriple) (j : Nat) : Nat :=
  (max 0 (toInt32 (toInt32 (forwardInfo.getD triple.id default).dist +
    metric.getMaxEntryTurnTableDiff triple.vertexId
      (u32 (u32 (graph.getInDegree triple.vertexId *
        forwardEntryPoint graph forwardSOffset forwardTOffset triple) + j))))).toNat

end ParallelCRPQuery

/-! ## ParallelCRPQuery.cpp: the two searches of `edgeQuery` -/

/-- The members of `ParallelCRPQuery` that a query reads and writes. -/
structure ParallelCRPQuery where
  forwardInfo : List ParallelCRPQuery.VertexInfo
  backwardInfo : List ParallelCRPQuery.VertexInfo
  currentRound : Nat
  forwardGraphPQ : List IDKeyTriple
  backwardGraphPQ : List IDKeyTriple
  forwardOverlayGraphPQ : List IDKeyTriple
  backwardOverlayGraphPQ : List IDKeyTriple
deriving Repr

namespace ParallelCRPQuery

/-- The constructor `ParallelCRPQuery::ParallelCRPQuery`. -/
def create (graph : Graph) (overlayGraph : OverlayGraph) : ParallelCRPQuery where
  forwardInfo := List.replicate
    (u32 (u32 (2 * graph.getMaxEdgesInCell) + overlayGraph.numberOfVertices))
    ⟨inf_weight, 0, default⟩
  backwardInfo := List.replicate
    (u32 (u32 (2 * graph.getMaxEdgesInCell) + overlayGraph.numberOfVertices))
    ⟨inf_weight, 0, default⟩
  currentRound := 0
  forwardGraphPQ := []
  backwardGraphPQ := []
  forwardOverlayGraphPQ := []
  backwardOverlayGraphPQ := []

/-- The locals of `edgeQuery` that are set before the two searches start. The offsets
`forwardSOffset`, `forwardTOffset`, `backwardSOffset` and `backwardTOffset` are locals of type
`int`; the fields hold their values as `unsigned` numbers. -/
structure Locals where
  s : Nat
  t : Nat
  sCellNumber : Nat
  tCellNumber : Nat
  forwardSOffset : Nat
  forwardTOffset : Nat
  backwardSOffset : Nat
  backwardTOffset : Nat
  overlayOffset : Nat
  sForwardId : Nat
  tBackwardId : Nat
deriving Repr

/-- The values of the locals of `edgeQuery(sourceEdgeId, targetEdgeId, metricId)`. -/
def locals (graph : Graph) (sourceEdgeId targetEdgeId : Nat) : Locals :=
  let s := (graph.getForwardEdge sourceEdgeId).head
  let sGlobalId := u32 (graph.getEntryOffset s + (graph.getForwardEdge sourceEdgeId).entryPoint)
  let sCellNumber := graph.getCellNumber s
  let t := (graph.getBackwardEdge targetEdgeId).tail
  let tCellNumber := graph.getCellNumber t
  let tGlobalId := u32 (graph.getExitOffset t + (graph.getBackwardEdge targetEdgeId).exitPoint)
  let forwardSOffset := u32 (graph.getBackwardEdgeCellOffset s)
  let forwardTOffset :=
    u32 (graph.getBackwardEdgeCellOffset t + 4294967296 - graph.getMaxEdgesInCell)
  let backwardSOffset := u32 (graph.getForwardEdgeCellOffset s)
  let backwardTOffset :=
    u32 (graph.getForwardEdgeCellOffset t + 4294967296 - graph.getMaxEdgesInCell)
  { s := s
    t := t
    sCellNumber := sCellNumber
    tCellNumber := tCellNumber
    forwardSOffset := forwardSOffset
    forwardTOffset := forwardTOffset
    backwardSOffset := backwardSOffset
    backwardTOffset := backwardTOffset
    overlayOffset := u32 (2 * graph.getMaxEdgesInCell)
    sForwardId := u32 (sGlobalId + 4294967296 - forwardSOffset)
    tBackwardId := u32 (tGlobalId + 4294967296 -
      (if sCellNumber = tCellNumber then backwardSOffset else backwardTOffset)) }

/-- The object together with the locals `forwardPath`, `backwardPath`, `forwardMid` and
`backwardMid` of `edgeQuery`, which the two threads share. -/
structure Search where
  self : ParallelCRPQuery
  forwardPath : Nat
  backwardPath : Nat
  forwardMid : VertexIdPair
  backwardMid : VertexIdPair
deriving Repr

/-- The loop `for (index i = 0; i < overlayOffset; ++i)` that resets the `dist` of the labels
of the base graph in one of the vectors. -/
def resetDist (overlayOffset : Nat) (info : List VertexInfo) : List VertexInfo :=
  (List.range overlayOffset).foldl
    (fun (info : List VertexInfo) i =>
      info.set i { info.getD i default with dist := inf_weight })
    info

/-- The state in which `edgeQuery` starts the two threads. The four queues are empty when
`edgeQuery` is entered: the constructor builds them empty, and `edgeQuery` clears them before
it returns. The counter `currentRound` is a `count` of 32 bits, so `currentRound++` wraps. -/
def start (graph : Graph) (self : ParallelCRPQuery) (sourceEdgeId targetEdgeId : Nat) :
    Search :=
  let loc := locals graph sourceEdgeId targetEdgeId
  let currentRound := u32 (self.currentRound + 1)
  { self :=
      { forwardInfo := (resetDist loc.overlayOffset self.forwardInfo).set loc.sForwardId
          ⟨0, currentRound, ⟨loc.s, loc.sForwardId⟩⟩
        backwardInfo := (resetDist loc.overlayOffset self.backwardInfo).set loc.tBackwardId
          ⟨0, currentRound, ⟨loc.t, loc.tBackwardId⟩⟩
        currentRound := currentRound
        forwardGraphPQ := MinIDQueue.push [] ⟨loc.sForwardId, loc.s, 0⟩
        backwardGraphPQ := MinIDQueue.push [] ⟨loc.tBackwardId, loc.t, 0⟩
        forwardOverlayGraphPQ := []
        backwardOverlayGraphPQ := [] }
    forwardPath := 2 * inf_weight
    backwardPath := 2 * inf_weight
    forwardMid := default
    backwardMid := default }

/-! ### The forward search -/

/-- The handler of the inner `forOutEdgesOf` of the forward search, which looks for an exit
point of `v` that the backward search has visited; the second component is the local
`exitId`. -/
def forwardMeet (metric : Metric) (v vId : Nat) (acc : Search × Nat)
    (x : ForwardEdge × Nat × TURN_TYPE) : Search × Nat :=
  let st := acc.1
  let exitId := acc.2
  let st : Search :=
    if (st.self.backwardInfo.getD exitId default).round = st.self.currentRound then
      let newPathLength := u32 (u32 ((st.self.forwardInfo.getD vId default).dist +
        metric.getTurnCosts x.2.2) + (st.self.backwardInfo.getD exitId default).dist)
      if newPathLength < st.forwardPath then
        { st with forwardPath := newPathLength, forwardMid := ⟨v, vId⟩,
                  backwardMid := ⟨v, exitId⟩ }
      else st
    else st
  (st, u32 (exitId + 1))

/-- The update of the label `vId` of the entry point `entryPoint` of the vertex `v` of the
base graph in the forward search, with the push on `forwardGraphPQ`. -/
def forwardPushGraph (graph : Graph) (metric : Metric) (loc : Locals) (st : Search)
    (v entryPoint vId newDist : Nat) (vInSCell : Bool) (parent : VertexIdPair) : Search :=
  if (st.self.forwardInfo.getD vId default).round < st.self.currentRound ∧
      newDist > (st.self.forwardInfo.getD vId default).dist then st
  else if (st.self.forwardInfo.getD vId default).round < st.self.currentRound ∨
      newDist < (st.self.forwardInfo.getD vId default).dist then
    let st : Search :=
      { st with
        self :=
          { st.self with
            forwardInfo := st.self.forwardInfo.set vId ⟨newDist, st.self.currentRound, parent⟩
            forwardGraphPQ := MinIDQueue.pushOrDecrease st.self.forwardGraphPQ
              ⟨vId, v, newDist⟩ } }
    let exitOffset := u32 (graph.getExitOffset v + 4294967296 -
      (if vInSCell then loc.backwardSOffset else loc.backwardTOffset))
    ((graph.forOutEdgesOf v entryPoint).foldl (forwardMeet metric v vId) (st, exitOffset)).1
  else st

/-- The update of the label `vId` of the overlay vertex `v` with the query level `vQueryLevel`
in the forward search, with the push on `forwardOverlayGraphPQ`; `midVertex` is the vertex
that the search stores in `forwardMid` and `backwardMid`. -/
def forwardPushOverlay (st : Search) (v vQueryLevel vId newDist : Nat)
    (parent : VertexIdPair) (midVertex : Nat) : Search :=
  if (st.self.forwardInfo.getD vId default).round < st.self.currentRound ∨
      newDist < (st.self.forwardInfo.getD vId default).dist then
    let st : Search :=
      { st with
        self :=
          { st.self with
            forwardInfo := st.self.forwardInfo.set vId ⟨newDist, st.self.currentRound, parent⟩
            forwardOverlayGraphPQ := MinIDQueue.pushOrDecrease st.self.forwardOverlayGraphPQ
              ⟨v, vQueryLevel, newDist⟩ } }
    if (st.self.backwardInfo.getD vId default).round = st.self.currentRound ∧
        u32 ((st.self.forwardInfo.getD vId default).dist +
          (st.self.backwardInfo.getD vId default).dist) < st.forwardPath then
      { st with
        forwardPath := u32 ((st.self.forwardInfo.getD vId default).dist +
          (st.self.backwardInfo.getD vId default).dist)
        forwardMid := ⟨midVertex, vId⟩
        backwardMid := ⟨midVertex, vId⟩ }
    else st
  else st

/-- The handler of `forOutEdgesOf` in the forward search for the popped label `(u, uId)` of
the base graph. -/
def forwardRelaxGraph (graph : Graph) (overlayGraph : OverlayGraph) (metric : Metric)
    (loc : Locals) (u uId : Nat) (st : Search) (x : ForwardEdge × Nat × TURN_TYPE) : Search :=
  let e := x.1
  let v := e.head
  let vQueryLevel :=
    overlayGraph.getQueryLevel loc.sCellNumber loc.tCellNumber (graph.getCellNumber v)
  let edgeWeight := metric.getWeight e.attributes
  let turnCosts := if u = loc.s then 0 else metric.getTurnCosts x.2.2
  let newDist := u32 (u32 ((st.self.forwardInfo.getD uId default).dist + edgeWeight) + turnCosts)
  if newDist ≥ inf_weight then st
  else if vQueryLevel = 0 then
    let vInSCell := decide (graph.getCellNumber v = loc.sCellNumber)
    let vId := u32 (u32 (graph.getEntryOffset v + e.entryPoint) + 4294967296 -
      (if vInSCell then loc.forwardSOffset else loc.forwardTOffset))
    forwardPushGraph graph metric loc st v e.entryPoint vId newDist vInSCell ⟨u, uId⟩
  else
    let v := graph.getOverlayVertex v e.entryPoint false
    let vId := u32 (v + loc.overlayOffset)
    forwardPushOverlay st v vQueryLevel vId newDist ⟨u, uId⟩ v

/-- The handler of `forOutNeighborsOf` in the forward search for the popped overlay vertex
`u` with the label `uId`. -/
def forwardRelaxOverlay (graph : Graph) (overlayGraph : OverlayGraph) (metric : Metric)
    (loc : Locals) (u uId : Nat) (st : Search) (x : Nat × Nat) : Search :=
  let v := x.1
  let newDist := u32 ((st.self.forwardInfo.getD uId default).dist + metric.getCellWeight x.2)
  if newDist ≥ inf_weight then st
  else
    let vId := u32 (v + loc.overlayOffset)
    if (st.self.forwardInfo.getD vId default).round < st.self.currentRound ∨
        newDist < (st.self.forwardInfo.getD vId default).dist then
      let st : Search :=
        { st with
          self :=
            { st.self with
              forwardInfo := st.self.forwardInfo.set vId
                ⟨newDist, st.self.currentRound, ⟨(overlayGraph.getVertex u).originalVertex, uId⟩⟩ } }
      let vVertex := overlayGraph.getVertex v
      let fEdge := graph.getForwardEdge vVertex.originalEdge
      let newDist := u32 ((st.self.forwardInfo.getD vId default).dist +
        metric.getWeight fEdge.attributes)
      if newDist ≥ inf_weight then st
      else
        let w := vVertex.neighborOverlayVertex
        let wVertex := overlayGraph.getVertex w
        let wQueryLevel :=
          overlayGraph.getQueryLevel loc.sCellNumber loc.tCellNumber wVertex.cellNumber
        if wQueryLevel = 0 then
          let wInSCell := decide (wVertex.cellNumber = loc.sCellNumber)
          let originalW := wVertex.originalVertex
          let originalWId := u32 (u32 (graph.getEntryOffset originalW + fEdge.entryPoint) +
            4294967296 - (if wInSCell then loc.forwardSOffset else loc.forwardTOffset))
          forwardPushGraph graph metric loc st originalW fEdge.entryPoint originalWId newDist
            wInSCell ⟨vVertex.originalVertex, vId⟩
        else
          let wId := u32 (w + loc.overlayOffset)
          forwardPushOverlay st w wQueryLevel wId newDist ⟨vVertex.originalVertex, vId⟩
            wVertex.originalVertex
    else st

/-! ### The backward search -/

/-- The local `exitPoint` of the backward search for the popped label `triple` of the base
graph, a `turnorder` (8 bits). -/
def backwardExitPoint (graph : Graph) (backwardSOffset backwardTOffset : Nat)
    (triple : IDKeyTriple) : Nat :=
  if triple.id < graph.getMaxEdgesInCell then
    u32 (u32 (triple.id + backwardSOffset) + 4294967296 - graph.getExitOffset triple.vertexId)
      % 256
  else
    u32 (u32 (triple.id + backwardTOffset) + 4294967296 - graph.getExitOffset triple.vertexId)
      % 256

/-- The body of the stalling loop of the backward search for the exit point `j` of `u`, whose
label is `backwardInfo[exitId]`. -/
def backwardStallExit (metric : Metric) (currentRound u uId uOffset : Nat)
    (backwardInfo : List VertexInfo) (j exitId : Nat) : List VertexInfo :=
  if (backwardInfo.getD exitId default).round < currentRound then
    backwardInfo.set exitId
      { backwardInfo.getD exitId default with
        dist := min (backwardInfo.getD exitId default).dist
          (max 0 (toInt32 (toInt32 (backwardInfo.getD uId default).dist +
            metric.getMaxExitTurnTableDiff u (u32 (uOffset + j))))).toNat }
  else backwardInfo

/-- The stalling step of the backward search for the popped label `triple` of the base
graph. -/
def backwardStall (graph : Graph) (metric : Metric)
    (currentRound backwardSOffset backwardTOffset : Nat) (backwardInfo : List VertexInfo)
    (triple : IDKeyTriple) : List VertexInfo :=
  let u := triple.vertexId
  let uId := triple.id
  let exitPoint := backwardExitPoint graph backwardSOffset backwardTOffset triple
  let uOutDeg := graph.getOutDegree u
  let uOffset := u32 (uOutDeg * exitPoint)
  let offset := if uId < graph.getMaxEdgesInCell then backwardSOffset else backwardTOffset
  let first := u32 (graph.getExitOffset u + 4294967296 - offset)
  let last := u32 (u32 (graph.getExitOffset u + uOutDeg) + 4294967296 - offset)
  (List.range (last - first)).foldl
    (fun (backwardInfo : List VertexInfo) j =>
      backwardStallExit metric currentRound u uId uOffset backwardInfo j (first + j))
    backwardInfo

/-- The handler of the inner `forInEdgesOf` of the backward search, which looks for an entry
point of `v` that the forward search has visited; the second component is the local
`entryId`. -/
def backwardMeet (metric : Metric) (v vId : Nat) (acc : Search × Nat)
    (x : BackwardEdge × Nat × TURN_TYPE) : Search × Nat :=
  let st := acc.1
  let entryId := acc.2
  let st : Search :=
    if (st.self.forwardInfo.getD entryId default).round = st.self.currentRound then
      let newPathLength := u32 (u32 ((st.self.forwardInfo.getD entryId default).dist +
        metric.getTurnCosts x.2.2) + (st.self.backwardInfo.getD vId default).dist)
      if newPathLength < st.backwardPath then
        { st with backwardPath := newPathLength, forwardMid := ⟨v, entryId⟩,
                  backwardMid := ⟨v, vId⟩ }
      else st
    else st
  (st, u32 (entryId + 1))

/-- The update of the label `vId` of the exit point `exitPoint` of the vertex `v` of the base
graph in the backward search, with the push on `backwardGraphPQ`. -/
def backwardPushGraph (graph : Graph) (metric : Metric) (loc : Locals) (st : Search)
    (v exitPoint vId newDist : Nat) (vInSCell : Bool) (parent : VertexIdPair) : Search :=
  if (st.self.backwardInfo.getD vId default).round < st.self.currentRound ∧
      newDist > (st.self.backwardInfo.getD vId default).dist then st
  else if (st.self.backwardInfo.getD vId default).round < st.self.currentRound ∨
      newDist < (st.self.backwardInfo.getD vId default).dist then
    let st : Search :=
      { st with
        self :=
          { st.self with
            backwardInfo := st.self.backwardInfo.set vId
              ⟨newDist, st.self.currentRound, parent⟩
            backwardGraphPQ := MinIDQueue.pushOrDecrease st.self.backwardGraphPQ
              ⟨vId, v, newDist⟩ } }
    let entryOffset := u32 (graph.getEntryOffset v + 4294967296 -
      (if vInSCell then loc.forwardSOffset else loc.forwardTOffset))
    ((graph.forInEdgesOf v exitPoint).foldl (backwardMeet metric v vId) (st, entryOffset)).1
  else st

/-- The update of the label `vId` of the overlay vertex `v` with the query level `vQueryLevel`
in the backward search, with the push on `backwardOverlayGraphPQ` under the key `key`;
`midVertex` is the vertex that the search stores in `forwardMid` and `backwardMid`. -/
def backwardPushOverlay (st : Search) (v vQueryLevel vId newDist key : Nat)
    (parent : VertexIdPair) (midVertex : Nat) : Search :=
  if (st.self.backwardInfo.getD vId default).round < st.self.currentRound ∨
      newDist < (st.self.backwardInfo.getD vId default).dist then
    let st : Search :=
      { st with
        self :=
          { st.self with
            backwardInfo := st.self.backwardInfo.set vId
              ⟨newDist, st.self.currentRound, parent⟩
            backwardOverlayGraphPQ := MinIDQueue.pushOrDecrease st.self.backwardOverlayGraphPQ
              ⟨v, vQueryLevel, key⟩ } }
    if (st.self.forwardInfo.getD vId default).round = st.self.currentRound ∧
        u32 ((st.self.forwardInfo.getD vId default).dist +
          (st.self.backwardInfo.getD vId default).dist) < st.backwardPath then
      { st with
        backwardPath := u32 ((st.self.forwardInfo.getD vId default).dist +
          (st.self.backwardInfo.getD vId default).dist)
        forwardMid := ⟨midVertex, vId⟩
        backwardMid := ⟨midVertex, vId⟩ }
    else st
  else st

/-- The handler of `forInEdgesOf` in the backward search for the popped label `(u, uId)` of
the base graph. The label of an overlay vertex is `backwardInfo[uId].dist + edgeWeight`,
without the turn costs, and the key of its push is read from `backwardInfo[vId].dist` after
the label is written. -/
def backwardRelaxGraph (graph : Graph) (overlayGraph : OverlayGraph) (metric : Metric)
    (loc : Locals) (u uId : Nat) (st : Search) (x : BackwardEdge × Nat × TURN_TYPE) : Search :=
  let e := x.1
  let v := e.tail
  let vQueryLevel :=
    overlayGraph.getQueryLevel loc.sCellNumber loc.tCellNumber (graph.getCellNumber v)
  let edgeWeight := metric.getWeight e.attributes
  let turnCosts := if u = loc.t then 0 else metric.getTurnCosts x.2.2
  let newDist :=
    u32 (u32 ((st.self.backwardInfo.getD uId default).dist + edgeWeight) + turnCosts)
  if newDist ≥ inf_weight then st
  else if vQueryLevel = 0 then
    let vInSCell := decide (graph.getCellNumber v = loc.sCellNumber)
    let vId := u32 (u32 (graph.getExitOffset v + e.exitPoint) + 4294967296 -
      (if vInSCell then loc.backwardSOffset else loc.backwardTOffset))
    backwardPushGraph graph metric loc st v e.exitPoint vId newDist vInSCell ⟨u, uId⟩
  else
    let v := graph.getOverlayVertex v e.exitPoint true
    let vId := u32 (v + loc.overlayOffset)
    let dist := u32 ((st.self.backwardInfo.getD uId default).dist + edgeWeight)
    backwardPushOverlay st v vQueryLevel vId dist
      (((st.self.backwardInfo.set vId ⟨dist, st.self.currentRound, ⟨u, uId⟩⟩).getD vId
        default).dist) ⟨u, uId⟩ v

/-- The handler of `forInNeighborsOf` in the backward search for the popped overlay vertex
`u` with the label `uId`. -/
def backwardRelaxOverlay (graph : Graph) (overlayGraph : OverlayGraph) (metric : Metric)
    (loc : Locals) (u uId : Nat) (st : Search) (x : Nat × Nat) : Search :=
  let v := x.1
  let newDist := u32 ((st.self.backwardInfo.getD uId default).dist + metric.getCellWeight x.2)
  if newDist ≥ inf_weight then st
  else
    let vId := u32 (v + loc.overlayOffset)
    if (st.self.backwardInfo.getD vId default).round < st.self.currentRound ∨
        newDist < (st.self.backwardInfo.getD vId default).dist then
      let st : Search :=
        { st with
          self :=
            { st.self with
              backwardInfo := st.self.backwardInfo.set vId
                ⟨newDist, st.self.currentRound, ⟨(overlayGraph.getVertex u).originalVertex, uId⟩⟩ } }
      let vVertex := overlayGraph.getVertex v
      let bEdge := graph.getBackwardEdge vVertex.originalEdge
      let newDist := u32 ((st.self.backwardInfo.getD vId default).dist +
        metric.getWeight bEdge.attributes)
      if newDist ≥ inf_weight then st
      else
        let w := vVertex.neighborOverlayVertex
        let wVertex := overlayGraph.getVertex w
        let wQueryLevel :=
          overlayGraph.getQueryLevel loc.sCellNumber loc.tCellNumber wVertex.cellNumber
        if wQueryLevel = 0 then
          let wInSCell := decide (wVertex.cellNumber = loc.sCellNumber)
          let originalW := wVertex.originalVertex
          let originalWId := u32 (u32 (graph.getExitOffset originalW + bEdge.exitPoint) +
            4294967296 - (if wInSCell then loc.backwardSOffset else loc.backwardTOffset))
          backwardPushGraph graph metric loc st originalW bEdge.exitPoint originalWId newDist
            wInSCell ⟨vVertex.originalVertex, vId⟩
        else
          let wId := u32 (w + loc.overlayOffset)
          backwardPushOverlay st w wQueryLevel wId newDist newDist
            ⟨vVertex.originalVertex, vId⟩ wVertex.originalVertex
    else st

/-! ### The runs of the two threads -/

/-- Where the forward thread stands: at the head of its loop, or in `forOutEdgesOf` for the
popped label `(u, uId)` of the base graph, or in `forOutNeighborsOf` for the popped overlay
vertex `u` with the label `uId`; `todo` holds the calls of the handler that are to come. -/
inductive ForwardWork where
  | head : ForwardWork
  | graph (u uId : Nat) (todo : List (ForwardEdge × Nat × TURN_TYPE)) : ForwardWork
  | overlay (u uId : Nat) (todo : List (Nat × Nat)) : ForwardWork

/-- Where the backward thread stands: at the head of its loop, or in `forInEdgesOf` for the
popped label `(u, uId)` of the base graph, or in `forInNeighborsOf` for the popped overlay
vertex `u` with the label `uId`; `todo` holds the calls of the handler that are to come. -/
inductive BackwardWork where
  | head : BackwardWork
  | graph (u uId : Nat) (todo : List (BackwardEdge × Nat × TURN_TYPE)) : BackwardWork
  | overlay (u uId : Nat) (todo : List (Nat × Nat)) : BackwardWork

/-- The position of the forward thread with the calls `todo` of the handler of
`forOutEdgesOf` to come: back at the head of the loop when none is left. -/
def ForwardWork.ofGraph (u uId : Nat) : List (ForwardEdge × Nat × TURN_TYPE) → ForwardWork
  | [] => ForwardWork.head
  | x :: todo => ForwardWork.graph u uId (x :: todo)

/-- The position of the forward thread with the calls `todo` of the handler of
`forOutNeighborsOf` to come. -/
def ForwardWork.ofOverlay (u uId : Nat) : List (Nat × Nat) → ForwardWork
  | [] => ForwardWork.head
  | x :: todo => ForwardWork.overlay u uId (x :: todo)

/-- The position of the backward thread with the calls `todo` of the handler of
`forInEdgesOf` to come. -/
def BackwardWork.ofGraph (u uId : Nat) : List (BackwardEdge × Nat × TURN_TYPE) → BackwardWork
  | [] => BackwardWork.head
  | x :: todo => BackwardWork.graph u uId (x :: todo)

/-- The position of the backward thread with the calls `todo` of the handler of
`forInNeighborsOf` to come. -/
def BackwardWork.ofOverlay (u uId : Nat) : List (Nat × Nat) → BackwardWork
  | [] => BackwardWork.head
  | x :: todo => BackwardWork.overlay u uId (x :: todo)

/-- The shared state of a query and the positions of its two threads. -/
structure Run where
  search : Search
  forward : ForwardWork
  backward : BackwardWork

/-- One step of one of the two threads of `edgeQuery`. A thread at the head of its loop pops
a label of the base graph (and makes its stalling step) or of the overlay graph and enters
the loop over the edges or neighbours; a thread in such a loop makes the next call of its
handler. The steps of the two threads follow each other in any order, and a call of a handler
reads the labels of the other thread as they are when the call is made. The tests at the head
of the loops (the test that ends the search and the choice between the two queues of the
thread) compare values of `peekKey` of the queues; the relation does not restrict the steps
by them, so every iteration that a loop makes is a sequence of steps of the relation. -/
inductive Step (graph : Graph) (overlayGraph : OverlayGraph) (metric : Metric) (loc : Locals) :
    Run → Run → Prop
  | forwardPopGraph {r : Run} {triple : IDKeyTriple} {q : List IDKeyTriple} :
      r.forward = ForwardWork.head →
      MinIDQueue.pop r.search.self.forwardGraphPQ = some (triple, q) →
      Step graph overlayGraph metric loc r
        { r with
          search :=
            { r.search with
              self :=
                { r.search.self with
                  forwardGraphPQ := q
                  forwardInfo := stall graph metric r.search.self.currentRound
                    loc.forwardSOffset loc.forwardTOffset r.search.self.forwardInfo triple } }
          forward := ForwardWork.ofGraph triple.vertexId triple.id
            (graph.forOutEdgesOf triple.vertexId
              (forwardEntryPoint graph loc.forwardSOffset loc.forwardTOffset triple)) }
  | forwardGraph {r : Run} {u uId : Nat} {x : ForwardEdge × Nat × TURN_TYPE}
      {todo : List (ForwardEdge × Nat × TURN_TYPE)} :
      r.forward = ForwardWork.graph u uId (x :: todo) →
      Step graph overlayGraph metric loc r
        { r with
          search := forwardRelaxGraph graph overlayGraph metric loc u uId r.search x
          forward := ForwardWork.ofGraph u uId todo }
  | forwardPopOverlay {r : Run} {triple : IDKeyTriple} {q : List IDKeyTriple} :
      r.forward = ForwardWork.head →
      MinIDQueue.pop r.search.self.forwardOverlayGraphPQ = some (triple, q) →
      Step graph overlayGraph metric loc r
        { r with
          search := { r.search with self := { r.search.self with forwardOverlayGraphPQ := q } }
          forward := ForwardWork.ofOverlay triple.id (u32 (triple.id + loc.overlayOffset))
            (overlayGraph.forOutNeighborsOf triple.id triple.vertexId) }
  | forwardOverlay {r : Run} {u uId : Nat} {x : Nat × Nat} {todo : List (Nat × Nat)} :
      r.forward = ForwardWork.overlay u uId (x :: todo) →
      Step graph overlayGraph metric loc r
        { r with
          search := forwardRelaxOverlay graph overlayGraph metric loc u uId r.search x
          forward := ForwardWork.ofOverlay u uId todo }
  | backwardPopGraph {r : Run} {triple : IDKeyTriple} {q : List IDKeyTriple} :
      r.backward = BackwardWork.head →
      MinIDQueue.pop r.search.self.backwardGraphPQ = some (triple, q) →
      Step graph overlayGraph metric loc r
        { r with
          search :=
            { r.search with
              self :=
                { r.search.self with
                  backwardGraphPQ := q
                  backwardInfo := backwardStall graph metric r.search.self.currentRound
                    loc.backwardSOffset loc.backwardTOffset r.search.self.backwardInfo
                    triple } }
          backward := BackwardWork.ofGraph triple.vertexId triple.id
            (graph.forInEdgesOf triple.vertexId
              (backwardExitPoint graph loc.backwardSOffset loc.backwardTOffset triple)) }
  | backwardGraph {r : Run} {u uId : Nat} {x : BackwardEdge × Nat × TURN_TYPE}
      {todo : List (BackwardEdge × Nat × TURN_TYPE)} :
      r.backward = BackwardWork.graph u uId (x :: todo) →
      Step graph overlayGraph metric loc r
        { r with
          search := backwardRelaxGraph graph overlayGraph metric loc u uId r.search x
          backward := BackwardWork.ofGraph u uId todo }
  | backwardPopOverlay {r : Run} {triple : IDKeyTriple} {q : List IDKeyTriple} :
      r.backward = BackwardWork.head →
      MinIDQueue.pop r.search.self.backwardOverlayGraphPQ = some (triple, q) →
      Step graph overlayGraph metric loc r
        { r with
          search :=
            { r.search with self := { r.search.self with backwardOverlayGraphPQ := q } }
          backward := BackwardWork.ofOverlay triple.id (u32 (triple.id + loc.overlayOffset))
            (overlayGraph.forInNeighborsOf triple.id triple.vertexId) }
  | backwardOverlay {r : Run} {u uId : Nat} {x : Nat × Nat} {todo : List (Nat × Nat)} :
      r.backward = BackwardWork.overlay u uId (x :: todo) →
      Step graph overlayGraph metric loc r
        { r with
          search := backwardRelaxOverlay graph overlayGraph metric loc u uId r.search x
          backward := BackwardWork.ofOverlay u uId todo }

/-- The states that the two threads of `edgeQuery` pass in a run that starts in the state
`r0`. -/
inductive Reached (graph : Graph) (overlayGraph : OverlayGraph) (metric : Metric)
    (loc : Locals) (r0 : Run) : Run → Prop
  | start : Reached graph overlayGraph metric loc r0 r0
  | next {r r' : Run} : Reached graph overlayGraph metric loc r0 r →
      Step graph overlayGraph metric loc r r' → Reached graph overlayGraph metric loc r0 r'

/-- The labels in the queues of the base graph of the two searches belong to vertices of the
cells `sCellNumber` and `tCellNumber`, and the overlay vertices that the handlers of a thread
in a loop over neighbours are still to get are vertices of the overlay graph. -/
structure BaseInCells (graph : Graph) (overlayGraph : OverlayGraph)
    (sCellNumber tCellNumber : Nat) (r : Run) : Prop where
  forwardQ : ∀ p, p ∈ r.search.self.forwardGraphPQ →
    graph.getCellNumber p.vertexId = sCellNumber ∨ graph.getCellNumber p.vertexId = tCellNumber
  backwardQ : ∀ p, p ∈ r.search.self.backwardGraphPQ →
    graph.getCellNumber p.vertexId = sCellNumber ∨ graph.getCellNumber p.vertexId = tCellNumber
  forwardTodo : ∀ u uId todo, r.forward = ForwardWork.overlay u uId todo →
    ∀ x, x ∈ todo → x.1 < overlayGraph.numberOfVertices
  backwardTodo : ∀ u uId todo, r.backward = BackwardWork.overlay u uId todo →
    ∀ x, x ∈ todo → x.1 < overlayGraph.numberOfVertices

end ParallelCRPQuery

end CRP


namespace CRP

theorem getD_set_eq {α} (l : List α) (i : Nat) (x d : α) (h : i < l.length) :
    (l.set i x).getD i d = x := by
  simp [List.getD_eq_getElem?_getD, h]

theorem getD_set_ne {α} (l : List α) (i j : Nat) (x d : α) (h : i ≠ j) :
    (l.set i x).getD j d = l.getD j d := by
  simp [List.getD_eq_getElem?_getD, List.getElem?_set_ne h]

theorem getD_set_of_ge {α} (l : List α) (i j : Nat) (x d : α) (h : l.length ≤ i) :
    (l.set i x).getD j d = l.getD j d := by
  rw [List.set_eq_of_length_le h]

theorem cellFind_append (k : Nat) (xs ys : List (Nat × Cell)) :
    cellFind k (xs ++ ys) = (cellFind k xs).orElse (fun _ => cellFind k ys) := by
  induction xs with
  | nil => simp [cellFind]
  | cons p xs ih =>
    obtain ⟨k', c⟩ := p
    by_cases h : k' = k <;> simp [cellFind, h, ih]

theorem cellFind_cellUpdate (k k' : Nat) (f : Cell → Cell) (xs : List (Nat × Cell)) :
    cellFind k (cellUpdate k' f xs) = if k = k' then (cellFind k xs).map f else cellFind k xs := by
  induction xs with
  | nil => simp [cellFind, cellUpdate]
  | cons p xs ih =>
    obtain ⟨k'', c⟩ := p
    by_cases h : k'' = k'
    · subst h
      by_cases h2 : k = k''
      · subst h2; simp [cellFind, cellUpdate]
      · have h3 : ¬ k'' = k := fun e => h2 e.symm
        simp [cellFind, cellUpdate, h2, h3]
    · by_cases h2 : k = k'
      · subst h2; simp [cellFind, cellUpdate, h, ih]
      · simp [cellFind, cellUpdate, h, h2, ih]

theorem cellUpdate_keys (k : Nat) (f : Cell → Cell) (xs : List (Nat × Cell)) :
    (cellUpdate k f xs).map Prod.fst = xs.map Prod.fst := by
  induction xs with
  | nil => simp [cellUpdate]
  | cons p xs ih =>
    obtain ⟨k', c⟩ := p
    by_cases h : k' = k <;> simp [cellUpdate, h, ih]

theorem cellFind_eq_none_iff (k : Nat) (xs : List (Nat × Cell)) :
    cellFind k xs = none ↔ k ∉ xs.map Prod.fst := by
  induction xs with
  | nil => simp [cellFind]
  | cons p xs ih =>
    obtain ⟨k', c⟩ := p
    by_cases h : k' = k
    · simp [cellFind, h]
    · have h3 : ¬ k = k' := fun e => h e.symm
      simp [cellFind, h, h3, ih]

theorem cellFind_mem {k : Nat} {c : Cell} {xs : List (Nat × Cell)} (h : cellFind k xs = some c) :
    (k, c) ∈ xs := by
  induction xs with
  | nil => simp [cellFind] at h
  | cons p xs ih =>
    obtain ⟨k', c'⟩ := p
    by_cases h2 : k' = k
    · simp [cellFind, h2] at h; simp [h2, h]
    · simp [cellFind, h2] at h; simp [ih h]

theorem cellFind_of_mem {k : Nat} {c : Cell} {xs : List (Nat × Cell)}
    (hnd : (xs.map Prod.fst).Nodup) (h : (k, c) ∈ xs) : cellFind k xs = some c := by
  induction xs with
  | nil => simp at h
  | cons p xs ih =>
    obtain ⟨k', c'⟩ := p
    simp only [List.map_cons, List.nodup_cons] at hnd
    rcases List.mem_cons.1 h with h1 | h1
    · simp only [Prod.mk.injEq] at h1; simp [cellFind, h1.1, h1.2]
    · have : k' ≠ k := by
        rintro rfl
        exact hnd.1 (List.mem_map.2 ⟨(k', c), h1, rfl⟩)
      simp [cellFind, this, ih hnd.2 h1]

end CRP

namespace CRP

theorem countKF_zero (kf : Nat → Nat) (fl : Nat → Bool) (k : Nat) (b : Bool) :
    countKF kf fl k b 0 = 0 := by
  simp [countKF]

theorem countKF_succ (kf : Nat → Nat) (fl : Nat → Bool) (k : Nat) (b : Bool) (n : Nat) :
    countKF kf fl k b (n + 1) =
      countKF kf fl k b n + if kf n = k ∧ fl n = b then 1 else 0 := by
  unfold countKF
  rw [List.range_succ, List.countP_append]
  by_cases h1 : kf n = k <;> by_cases h2 : fl n = b <;> simp [List.countP_cons, h1, h2]

theorem countKF_mono (kf : Nat → Nat) (fl : Nat → Bool) (k : Nat) (b : Bool) {m n : Nat}
    (h : m ≤ n) : countKF kf fl k b m ≤ countKF kf fl k b n := by
  induction n with
  | zero => simp at h; subst h; exact le_refl _
  | succ n ih =>
    rcases Nat.lt_or_ge m (n + 1) with h1 | h1
    · rw [countKF_succ]; exact le_trans (ih (by omega)) (Nat.le_add_right _ _)
    · have : m = n + 1 := by omega
      subst this; exact le_refl _

/-- A vertex `x < n` with key `k` and flag `b` is counted after its own ordinal. -/
theorem countKF_lt (kf : Nat → Nat) (fl : Nat → Bool) {x n : Nat} (h : x < n) :
    countKF kf fl (kf x) (fl x) x < countKF kf fl (kf x) (fl x) n := by
  have h1 : countKF kf fl (kf x) (fl x) (x + 1) = countKF kf fl (kf x) (fl x) x + 1 := by
    rw [countKF_succ]; simp
  have h2 := countKF_mono kf fl (kf x) (fl x) (show x + 1 ≤ n from h)
  omega

/-- The ordinals of two different vertices with the same key and flag differ. -/
theorem countKF_inj (kf : Nat → Nat) (fl : Nat → Bool) {x y : Nat}
    (hk : kf x = kf y) (hf : fl x = fl y)
    (h : countKF kf fl (kf x) (fl x) x = countKF kf fl (kf y) (fl y) y) : x = y := by
  rcases Nat.lt_trichotomy x y with h1 | h1 | h1
  · have := countKF_lt kf fl h1
    rw [hk, hf] at h; rw [hk, hf] at this; omega
  · exact h1
  · have := countKF_lt kf fl h1
    rw [hk, hf] at h; omega

/-- Every ordinal below the count is the ordinal of a vertex. -/
theorem countKF_surj (kf : Nat → Nat) (fl : Nat → Bool) (k : Nat) (b : Bool) (n i : Nat)
    (h : i < countKF kf fl k b n) :
    ∃ x, x < n ∧ kf x = k ∧ fl x = b ∧ countKF kf fl k b x = i := by
  induction n with
  | zero => simp [countKF_zero] at h
  | succ n ih =>
    rw [countKF_succ] at h
    by_cases hi : i < countKF kf fl k b n
    · obtain ⟨x, hx, h1, h2, h3⟩ := ih hi
      exact ⟨x, by omega, h1, h2, h3⟩
    · by_cases hc : kf n = k ∧ fl n = b
      · simp only [hc, and_self, if_true] at h
        exact ⟨n, by omega, hc.1, hc.2, by omega⟩
      · simp only [hc, if_false] at h; omega

theorem countKF_pos_iff (kf : Nat → Nat) (fl : Nat → Bool) (k : Nat) (n : Nat) :
    0 < countKF kf fl k false n + countKF kf fl k true n ↔ ∃ x, x < n ∧ kf x = k := by
  induction n with
  | zero => simp [countKF_zero]
  | succ n ih =>
    rw [countKF_succ, countKF_succ]
    constructor
    · intro h
      by_cases hn : kf n = k
      · exact ⟨n, by omega, hn⟩
      · simp only [hn, false_and, if_false, Nat.add_zero] at h
        obtain ⟨x, hx, h1⟩ := ih.1 h
        exact ⟨x, by omega, h1⟩
    · rintro ⟨x, hx, h1⟩
      by_cases hn : kf n = k
      · cases hb : fl n <;> simp [hn, hb]
      · have hx2 : x < n := by
          rcases Nat.lt_or_ge x n with h2 | h2
          · exact h2
          · have : x = n := by omega
            subst this; exact absurd h1 hn
        have := ih.2 ⟨x, hx2, h1⟩
        omega

end CRP

namespace CRP


theorem core_set_eep (v : OverlayVertex) (l x : Nat) :
    ({ v with entryExitPoint := v.entryExitPoint.set l x } : OverlayVertex).core = v.core := by
  simp [OverlayVertex.core]

theorem getD_set_self_or {α} (l : List α) (i j : Nat) (x d : α) :
    (l.set i x).getD j d = if i = j ∧ i < l.length then x else l.getD j d := by
  by_cases h : i = j
  · subst h
    by_cases h2 : i < l.length
    · simp [h2, getD_set_eq]
    · rw [getD_set_of_ge l i i x d (by omega)]; simp [h2]
  · simp [h, getD_set_ne l i j x d h]

/-- The vertex list after `placeVertex`. -/
theorem placeVertex_snd (li : LevelInfo) (flags : List Bool) (l : Nat)
    (st : List (Nat × Cell) × List OverlayVertex) (v : Nat) :
    (OverlayGraph.placeVertex li flags l st v).2 =
      st.2.set v { (st.2.getD v default) with
        entryExitPoint := (st.2.getD v default).entryExitPoint.set l (placeOrdinal li flags l st v) } := by
  cases h : cellFind (li.truncateToLevel (st.2.getD v default).cellNumber (l + 1)) st.1 with
  | none => simp only [OverlayGraph.placeVertex, placeOrdinal, levelKey, h]
  | some c =>
    cases hf : flags.getD v false <;>
      simp only [OverlayGraph.placeVertex, placeOrdinal, levelKey, h, hf] <;> rfl

/-- The cell map after `placeVertex`. -/
theorem placeVertex_fst (li : LevelInfo) (flags : List Bool) (l : Nat)
    (st : List (Nat × Cell) × List OverlayVertex) (v : Nat) :
    (OverlayGraph.placeVertex li flags l st v).1 =
      match cellFind (levelKey li st.2 l v) st.1 with
      | none => st.1 ++ [(levelKey li st.2 l v,
          { numEntryPoints := if flags.getD v false then 0 else 1,
            numExitPoints := if flags.getD v false then 1 else 0,
            cellOffset := 0, overlayIdOffset := 0 })]
      | some _ =>
        cellUpdate (levelKey li st.2 l v)
          (fun c => if flags.getD v false then { c with numExitPoints := c.numExitPoints + 1 }
            else { c with numEntryPoints := c.numEntryPoints + 1 }) st.1 := by
  cases h : cellFind (li.truncateToLevel (st.2.getD v default).cellNumber (l + 1)) st.1 with
  | none => simp only [OverlayGraph.placeVertex, levelKey, h]
  | some c =>
    cases hf : flags.getD v false <;>
      simp only [OverlayGraph.placeVertex, levelKey, h, hf] <;> rfl


theorem core_cellNumber {a b : OverlayVertex} (h : a.core = b.core) :
    a.cellNumber = b.cellNumber := by
  simp only [OverlayVertex.core, Prod.mk.injEq] at h
  exact h.2.2.1

theorem core_eep_length {a b : OverlayVertex} (h : a.core = b.core) :
    a.entryExitPoint.length = b.entryExitPoint.length := by
  simp only [OverlayVertex.core, Prod.mk.injEq] at h
  exact h.2.2.2.2

theorem placeInv_zero (li : LevelInfo) (flags : List Bool) (l : Nat)
    (verts0 : List OverlayVertex) : PlaceInv li flags l verts0 0 ([], verts0) where
  len := rfl
  core := fun _ => rfl
  ord := fun x hx => absurd hx (Nat.not_lt_zero x)
  other := fun _ _ _ => rfl
  find := fun k => by simp [cellFind, countKF_zero]
  nodup := by simp

theorem levelKey_of_core (li : LevelInfo) (l : Nat) {vs ws : List OverlayVertex}
    (h : ∀ x, (vs.getD x default).core = (ws.getD x default).core) (x : Nat) :
    levelKey li vs l x = levelKey li ws l x := by
  unfold levelKey
  rw [core_cellNumber (h x)]

theorem placeOrdinal_eq (li : LevelInfo) (flags : List Bool) (l : Nat)
    (verts0 : List OverlayVertex) (n : Nat) (st : List (Nat × Cell) × List OverlayVertex)
    (h : PlaceInv li flags l verts0 n st) :
    placeOrdinal li flags l st n =
      countKF (levelKey li verts0 l) (fun y => flags.getD y false)
        (levelKey li verts0 l n) (flags.getD n false) n := by
  unfold placeOrdinal
  rw [levelKey_of_core li l h.core n, h.find (levelKey li verts0 l n)]
  by_cases hpos : 0 < countKF (levelKey li verts0 l) (fun y => flags.getD y false)
        (levelKey li verts0 l n) false n +
      countKF (levelKey li verts0 l) (fun y => flags.getD y false)
        (levelKey li verts0 l n) true n
  · rw [if_pos hpos]
    cases hf : flags.getD n false <;> simp
  · rw [if_neg hpos]
    have h0 : countKF (levelKey li verts0 l) (fun y => flags.getD y false)
        (levelKey li verts0 l n) false n = 0 ∧
      countKF (levelKey li verts0 l) (fun y => flags.getD y false)
        (levelKey li verts0 l n) true n = 0 := by omega
    cases hf : flags.getD n false
    · exact h0.1.symm
    · exact h0.2.symm

theorem placeInv_step (li : LevelInfo) (flags : List Bool) (l : Nat)
    (verts0 : List OverlayVertex) (n : Nat) (st : List (Nat × Cell) × List OverlayVertex)
    (h : PlaceInv li flags l verts0 n st) :
    PlaceInv li flags l verts0 (n + 1) (OverlayGraph.placeVertex li flags l st n) := by
  have hkey := levelKey_of_core li l h.core n
  have hord := placeOrdinal_eq li flags l verts0 n st h
  refine ⟨?_, ?_, ?_, ?_, ?_, ?_⟩
  · rw [placeVertex_snd]; simp [h.len]
  · intro x
    rw [placeVertex_snd, getD_set_self_or]
    split_ifs with hx
    · rw [core_set_eep, ← hx.1]; exact h.core n
    · exact h.core x
  · intro x hx hxl hl
    rw [placeVertex_snd, getD_set_self_or]
    by_cases hxn : n = x
    · subst hxn
      rw [if_pos ⟨rfl, by rw [h.len]; exact hxl⟩]
      show ((st.2.getD n default).entryExitPoint.set l _).getD l 0 = _
      rw [getD_set_eq _ _ _ _ (by rw [core_eep_length (h.core n)]; exact hl), hord]
    · rw [if_neg (fun hc => hxn hc.1)]
      exact h.ord x (by omega) hxl hl
  · intro x l' hl'
    rw [placeVertex_snd, getD_set_self_or]
    split_ifs with hx
    · show ((st.2.getD n default).entryExitPoint.set l _).getD l' 0 = _
      rw [getD_set_ne _ _ _ _ _ (fun e => hl' e.symm), ← hx.1]
      exact h.other n l' hl'
    · exact h.other x l' hl'
  · intro k
    rw [placeVertex_fst, hkey, countKF_succ, countKF_succ]
    have hfk := h.find k
    have hfn := h.find (levelKey li verts0 l n)
    by_cases hk : levelKey li verts0 l n = k
    · subst hk
      by_cases hpos : 0 < countKF (levelKey li verts0 l) (fun y => flags.getD y false)
            (levelKey li verts0 l n) false n +
          countKF (levelKey li verts0 l) (fun y => flags.getD y false)
            (levelKey li verts0 l n) true n
      · rw [if_pos hpos] at hfn
        rw [hfn]
        simp only [cellFind_cellUpdate, if_true, hfn, Option.map_some']
        cases hf : flags.getD n false <;> simp [-List.getD_eq_getElem?_getD]
      · rw [if_neg hpos] at hfn
        rw [hfn]
        simp only [cellFind_append, hfn, cellFind, if_true, Option.orElse]
        have h0 : countKF (levelKey li verts0 l) (fun y => flags.getD y false)
            (levelKey li verts0 l n) false n = 0 ∧
          countKF (levelKey li verts0 l) (fun y => flags.getD y false)
            (levelKey li verts0 l n) true n = 0 := by omega
        cases hf : flags.getD n false <;> simp [-List.getD_eq_getElem?_getD, h0.1, h0.2]
    · have hk' : ¬ k = levelKey li verts0 l n := fun e => hk e.symm
      simp only [hk, false_and, if_false, Nat.add_zero]
      rw [← hfk]
      cases hc : cellFind (levelKey li verts0 l n) st.1 with
      | none =>
        simp only [cellFind_append, cellFind, hk, if_false]
        cases cellFind k st.1 <;> rfl
      | some c =>
        simp only [cellFind_cellUpdate, hk', if_false]
  · rw [placeVertex_fst, hkey]
    cases hc : cellFind (levelKey li verts0 l n) st.1 with
    | none =>
      simp only [List.map_append, List.map_cons, List.map_nil]
      rw [List.nodup_append]
      refine ⟨h.nodup, by simp, ?_⟩
      intro a ha hb
      simp only [List.mem_singleton] at hb
      subst hb
      exact (cellFind_eq_none_iff _ _).1 hc ha
    | some c =>
      simp only [cellUpdate_keys]
      exact h.nodup

theorem placeInv_fold (li : LevelInfo) (flags : List Bool) (l : Nat)
    (verts0 : List OverlayVertex) (n : Nat) :
    PlaceInv li flags l verts0 n
      ((List.range n).foldl (OverlayGraph.placeVertex li flags l) ([], verts0)) := by
  induction n with
  | zero => exact placeInv_zero li flags l verts0
  | succ n ih =>
    rw [List.range_succ, List.foldl_append]
    exact placeInv_step li flags l verts0 n _ ih

end CRP

namespace CRP

theorem tiled_cons {α : Type} (off sz : α → Nat) (a : α) (xs : List α) (s e : Nat) :
    Tiled off sz (a :: xs) s e ↔ off a = s ∧ Tiled off sz xs (s + sz a) e := Iff.rfl

theorem tiled_append {α : Type} (off sz : α → Nat) (xs ys : List α) (s e : Nat) :
    Tiled off sz (xs ++ ys) s e ↔ ∃ m, Tiled off sz xs s m ∧ Tiled off sz ys m e := by
  induction xs generalizing s with
  | nil => simp [Tiled]
  | cons a xs ih =>
    rw [List.cons_append, tiled_cons, ih]
    constructor
    · rintro ⟨h1, m, h2, h3⟩; exact ⟨m, (tiled_cons off sz a xs s m).2 ⟨h1, h2⟩, h3⟩
    · rintro ⟨m, h12, h3⟩
      obtain ⟨h1, h2⟩ := (tiled_cons off sz a xs s m).1 h12
      exact ⟨h1, m, h2, h3⟩

theorem tiled_le {α : Type} (off sz : α → Nat) (xs : List α) (s e : Nat)
    (h : Tiled off sz xs s e) : s ≤ e := by
  induction xs generalizing s with
  | nil => simp only [Tiled] at h; omega
  | cons a xs ih =>
    simp only [Tiled] at h
    have := ih _ h.2
    omega

theorem tiled_sum {α : Type} (off sz : α → Nat) (xs : List α) (s e : Nat)
    (h : Tiled off sz xs s e) : e = s + (xs.map sz).sum := by
  induction xs generalizing s with
  | nil => simp only [Tiled] at h; simp [h]
  | cons a xs ih =>
    simp only [Tiled] at h
    rw [ih _ h.2]; simp; omega

theorem tiled_bounds {α : Type} (off sz : α → Nat) (xs : List α) (s e : Nat)
    (h : Tiled off sz xs s e) (a : α) (ha : a ∈ xs) : s ≤ off a ∧ off a + sz a ≤ e := by
  induction xs generalizing s with
  | nil => simp at ha
  | cons b xs ih =>
    simp only [Tiled] at h
    rcases List.mem_cons.1 ha with h1 | h1
    · subst h1
      have := tiled_le off sz xs _ _ h.2
      omega
    · have := ih _ h.2 h1
      omega

theorem tiled_pairwise {α : Type} (off sz : α → Nat) (xs : List α) (s e : Nat)
    (h : Tiled off sz xs s e) : xs.Pairwise (fun a b => off a + sz a ≤ off b) := by
  induction xs generalizing s with
  | nil => exact List.Pairwise.nil
  | cons b xs ih =>
    simp only [Tiled] at h
    refine List.Pairwise.cons ?_ (ih _ h.2)
    intro a ha
    have := tiled_bounds off sz xs _ _ h.2 a ha
    omega

theorem tiled_cover {α : Type} (off sz : α → Nat) (xs : List α) (s e : Nat)
    (h : Tiled off sz xs s e) (w : Nat) (h1 : s ≤ w) (h2 : w < e) :
    ∃ a, a ∈ xs ∧ off a ≤ w ∧ w < off a + sz a := by
  induction xs generalizing s with
  | nil => simp only [Tiled] at h; omega
  | cons b xs ih =>
    simp only [Tiled] at h
    by_cases hw : w < s + sz b
    · exact ⟨b, List.mem_cons_self _ _, by omega, by omega⟩
    · obtain ⟨a, ha, h3, h4⟩ := ih _ h.2 (by omega)
      exact ⟨a, List.mem_cons_of_mem _ ha, h3, h4⟩

theorem tiled_map {α β : Type} (off sz : β → Nat) (f : α → β) (xs : List α) (s e : Nat) :
    Tiled off sz (xs.map f) s e ↔ Tiled (fun a => off (f a)) (fun a => sz (f a)) xs s e := by
  induction xs generalizing s with
  | nil => simp [Tiled]
  | cons a xs ih => simp [Tiled, ih]

/-- Two members of a tiled list that differ have disjoint blocks. -/
theorem tiled_disjoint {α : Type} (off sz : α → Nat) (xs : List α) (s e : Nat)
    (h : Tiled off sz xs s e) (a b : α) (ha : a ∈ xs) (hb : b ∈ xs) (hab : a ≠ b) :
    off a + sz a ≤ off b ∨ off b + sz b ≤ off a := by
  have hp := (tiled_pairwise off sz xs s e h).imp
    (S := fun a b => off a + sz a ≤ off b ∨ off b + sz b ≤ off a) (fun h => Or.inl h)
  exact hp.forall (fun x y hxy => hxy.symm) ha hb hab

theorem assignOffsets_keys (cells : List (Nat × Cell)) (o c : Nat) :
    (OverlayGraph.assignOffsets cells o c).1.map Prod.fst = cells.map Prod.fst := by
  induction cells generalizing o c with
  | nil => simp [OverlayGraph.assignOffsets]
  | cons p cells ih =>
    obtain ⟨k, cell⟩ := p
    simp [OverlayGraph.assignOffsets, ih]

theorem assignOffsets_counts (cells : List (Nat × Cell)) (o c : Nat) (k : Nat) :
    (cellFind k (OverlayGraph.assignOffsets cells o c).1).map
        (fun x => (x.numEntryPoints, x.numExitPoints)) =
      (cellFind k cells).map (fun x => (x.numEntryPoints, x.numExitPoints)) := by
  induction cells generalizing o c with
  | nil => simp [OverlayGraph.assignOffsets]
  | cons p cells ih =>
    obtain ⟨k', cell⟩ := p
    by_cases h : k' = k <;> simp [OverlayGraph.assignOffsets, cellFind, h, ih]

theorem assignOffsets_tiled_id (cells : List (Nat × Cell)) (o c : Nat) :
    Tiled (fun p : Nat × Cell => p.2.overlayIdOffset)
      (fun p => p.2.numEntryPoints + p.2.numExitPoints)
      (OverlayGraph.assignOffsets cells o c).1 o (OverlayGraph.assignOffsets cells o c).2.1 := by
  induction cells generalizing o c with
  | nil => simp [OverlayGraph.assignOffsets, Tiled]
  | cons p cells ih =>
    obtain ⟨k, cell⟩ := p
    simp only [OverlayGraph.assignOffsets, Tiled, true_and]
    exact ih _ _

theorem assignOffsets_tiled_w (cells : List (Nat × Cell)) (o c : Nat) :
    Tiled (fun p : Nat × Cell => p.2.cellOffset)
      (fun p => p.2.numEntryPoints * p.2.numExitPoints)
      (OverlayGraph.assignOffsets cells o c).1 c (OverlayGraph.assignOffsets cells o c).2.2 := by
  induction cells generalizing o c with
  | nil => simp [OverlayGraph.assignOffsets, Tiled]
  | cons p cells ih =>
    obtain ⟨k, cell⟩ := p
    simp only [OverlayGraph.assignOffsets, Tiled, true_and]
    exact ih _ _

end CRP

namespace CRP

theorem levelKey_funext (li : LevelInfo) (l : Nat) {vs ws : List OverlayVertex}
    (h : ∀ x, (vs.getD x default).core = (ws.getD x default).core) :
    levelKey li vs l = levelKey li ws l :=
  funext (levelKey_of_core li l h)

theorem taggedCells_append (cm : List (List (Nat × Cell))) (ls ms : List Nat) :
    taggedCells cm (ls ++ ms) = taggedCells cm ls ++ taggedCells cm ms := by
  simp [taggedCells]

theorem taggedCells_congr (cm cm' : List (List (Nat × Cell))) (ls : List Nat)
    (h : ∀ l, l ∈ ls → cm.getD l [] = cm'.getD l []) :
    taggedCells cm ls = taggedCells cm' ls := by
  induction ls with
  | nil => rfl
  | cons a ls ih =>
    simp only [taggedCells, List.flatMap_cons] at ih ⊢
    rw [h a (List.mem_cons_self _ _), ih (fun l hl => h l (List.mem_cons_of_mem _ hl))]

theorem levelsInv_init (li : LevelInfo) (b : OverlayGraph.OverlayVertexBuild) (L : Nat) :
    LevelsInv li b L []
      { cellMapping := List.replicate L [], overlayVertices := b.overlayVertices,
        cellOffset := 0, overlayIdOffset := 0 } where
  lenMap := by simp
  unproc := fun l _ => by
    simp only [List.getD_eq_getElem?_getD, List.getElem?_replicate]
    split_ifs <;> rfl
  len := rfl
  core := fun _ => rfl
  nodup := fun l hl => by simp at hl
  counts := fun l hl => by simp at hl
  ord := fun l hl => by simp at hl
  tiledId := by simp [taggedCells, Tiled]
  tiledW := by simp [taggedCells, Tiled]

theorem levelsInv_step (li : LevelInfo) (b : OverlayGraph.OverlayVertexBuild) (L : Nat)
    (ls : List Nat) (st : OverlayGraph.CellBuild) (l : Nat)
    (h : LevelsInv li b L ls st) (hl : l ∉ ls) (hL : l < L) :
    LevelsInv li b L (ls ++ [l])
      (OverlayGraph.buildCellsLevel li b.vertexCountInLevel b.exitFlagsArray st l) := by
  have hP := placeInv_fold li b.exitFlagsArray l st.overlayVertices (b.vertexCountInLevel.getD l 0)
  have hk := levelKey_funext li l h.core
  have hget : ∀ l', l' ≠ l → ∀ r : List (Nat × Cell),
      (st.cellMapping.set l r).getD l' [] = st.cellMapping.getD l' [] :=
    fun l' hne r => getD_set_ne _ _ _ _ _ (fun e => hne e.symm)
  have hgetl : ∀ r : List (Nat × Cell), (st.cellMapping.set l r).getD l [] = r :=
    fun r => getD_set_eq _ _ _ _ (by rw [h.lenMap]; exact hL)
  have hne : ∀ l', l' ∈ ls → l' ≠ l := fun l' hl' e => hl (e ▸ hl')
  unfold OverlayGraph.buildCellsLevel
  simp only [h.unproc l hl]
  refine ⟨?_, ?_, ?_, ?_, ?_, ?_, ?_, ?_, ?_⟩
  · simp [h.lenMap]
  · intro l' hl'
    have h1 : l' ∉ ls := fun e => hl' (List.mem_append_left _ e)
    have h2 : l' ≠ l := fun e => hl' (by simp [e])
    rw [hget l' h2]; exact h.unproc l' h1
  · rw [hP.len]; exact h.len
  · intro x; rw [hP.core x]; exact h.core x
  · intro l' hl'
    rcases List.mem_append.1 hl' with h1 | h1
    · rw [hget l' (hne l' h1)]; exact h.nodup l' h1
    · simp only [List.mem_singleton] at h1
      subst h1
      rw [hgetl, assignOffsets_keys]; exact hP.nodup
  · intro l' hl' k
    rcases List.mem_append.1 hl' with h1 | h1
    · rw [hget l' (hne l' h1)]; exact h.counts l' h1 k
    · simp only [List.mem_singleton] at h1
      subst h1
      have hf := hP.find k
      rw [hk] at hf
      rw [hgetl, assignOffsets_counts, hf]
      split_ifs <;> rfl
  · intro l' hl' x hx hxl hxe
    rcases List.mem_append.1 hl' with h1 | h1
    · rw [hP.other x l' (hne l' h1)]; exact h.ord l' h1 x hx hxl hxe
    · simp only [List.mem_singleton] at h1
      subst h1
      have ho := hP.ord x hx (by rw [h.len]; exact hxl)
        (by rw [core_eep_length (h.core x)]; exact hxe)
      rw [hk] at ho
      exact ho
  · rw [taggedCells_append, tiled_append]
    refine ⟨st.overlayIdOffset, ?_, ?_⟩
    · rw [taggedCells_congr _ st.cellMapping ls (fun l' hl' => hget l' (hne l' hl') _)]
      exact h.tiledId
    · simp only [taggedCells, List.flatMap_cons, List.flatMap_nil, List.append_nil, hgetl]
      rw [tiled_map]
      exact assignOffsets_tiled_id _ _ _
  · rw [taggedCells_append, tiled_append]
    refine ⟨st.cellOffset, ?_, ?_⟩
    · rw [taggedCells_congr _ st.cellMapping ls (fun l' hl' => hget l' (hne l' hl') _)]
      exact h.tiledW
    · simp only [taggedCells, List.flatMap_cons, List.flatMap_nil, List.append_nil, hgetl]
      rw [tiled_map]
      exact assignOffsets_tiled_w _ _ _

theorem levelsInv_fold (li : LevelInfo) (b : OverlayGraph.OverlayVertexBuild) (L : Nat)
    (ms : List Nat) : ∀ (ls : List Nat) (st : OverlayGraph.CellBuild),
    LevelsInv li b L ls st → ms.Nodup → (∀ l, l ∈ ms → l < L ∧ l ∉ ls) →
    LevelsInv li b L (ls ++ ms)
      (ms.foldl (OverlayGraph.buildCellsLevel li b.vertexCountInLevel b.exitFlagsArray) st) := by
  induction ms with
  | nil => intro ls st h _ _; simpa using h
  | cons m ms ih =>
    intro ls st h hnd hms
    rw [List.nodup_cons] at hnd
    have h1 := levelsInv_step li b L ls st m h (hms m (List.mem_cons_self _ _)).2
      (hms m (List.mem_cons_self _ _)).1
    have h2 := ih (ls ++ [m]) _ h1 hnd.2 (fun l hl => by
      refine ⟨(hms l (List.mem_cons_of_mem _ hl)).1, ?_⟩
      intro hc
      rcases List.mem_append.1 hc with h3 | h3
      · exact (hms l (List.mem_cons_of_mem _ hl)).2 h3
      · simp only [List.mem_singleton] at h3
        subst h3; exact hnd.1 hl)
    simpa using h2

theorem levelsDown_nodup (L : Nat) : (OverlayGraph.levelsDown L).Nodup := by
  unfold OverlayGraph.levelsDown
  exact List.nodup_reverse.2 (List.nodup_range L)

theorem mem_levelsDown (L l : Nat) : l ∈ OverlayGraph.levelsDown L ↔ l < L := by
  simp [OverlayGraph.levelsDown]

/-- The state of `buildCells` after its first loop over the levels. -/
theorem levelsInv_final (li : LevelInfo) (b : OverlayGraph.OverlayVertexBuild) (L : Nat) :
    LevelsInv li b L (OverlayGraph.levelsDown L)
      ((OverlayGraph.levelsDown L).foldl
        (OverlayGraph.buildCellsLevel li b.vertexCountInLevel b.exitFlagsArray)
        { cellMapping := List.replicate L [], overlayVertices := b.overlayVertices,
          cellOffset := 0, overlayIdOffset := 0 }) := by
  have := levelsInv_fold li b L (OverlayGraph.levelsDown L) [] _ (levelsInv_init li b L)
    (levelsDown_nodup L) (fun l hl => ⟨(mem_levelsDown L l).1 hl, by simp⟩)
  simpa using this

end CRP

namespace CRP

/-- A fold of array writes: if some write goes to index `j`, and every write to `j` writes
`y`, the array holds `y` at `j` afterwards. -/
theorem foldl_set_getD {β : Type} (idx val : β → Nat) (ps : List β) (j y d : Nat) :
    ∀ (m : List Nat), j < m.length → (∀ p, p ∈ ps → idx p = j → val p = y) →
    (m.getD j d = y ∨ ∃ p, p ∈ ps ∧ idx p = j) →
    (ps.foldl (fun m p => m.set (idx p) (val p)) m).getD j d = y := by
  induction ps with
  | nil =>
    intro m _ _ h
    rcases h with h | ⟨p, hp, _⟩
    · exact h
    · simp at hp
  | cons p ps ih =>
    intro m hj hall h
    rw [List.foldl_cons]
    apply ih (m.set (idx p) (val p)) (by simpa using hj)
      (fun q hq => hall q (List.mem_cons_of_mem _ hq))
    by_cases hp : idx p = j
    · left
      rw [hp, getD_set_eq _ _ _ _ hj]
      exact hall p (List.mem_cons_self _ _) hp
    · rcases h with h | ⟨q, hq, hqj⟩
      · left; rw [getD_set_ne _ _ _ _ _ hp]; exact h
      · right
        rcases List.mem_cons.1 hq with h1 | h1
        · subst h1; exact absurd hqj hp
        · exact ⟨q, h1, hqj⟩

theorem fillMapping_eq (li : LevelInfo) (flags : List Bool) (verts : List OverlayVertex)
    (cm : List (List (Nat × Cell))) (l : Nat) (m : List Nat) (v : Nat) :
    OverlayGraph.fillMapping li flags verts (cm.getD l []) l m v =
      m.set (slotOf li flags verts cm l v) v := by
  unfold OverlayGraph.fillMapping slotOf
  cases hf : flags.getD v false <;> simp [-List.getD_eq_getElem?_getD, hf]

theorem fill_fold_eq (li : LevelInfo) (flags : List Bool) (verts : List OverlayVertex)
    (cm : List (List (Nat × Cell))) (counts : List Nat) (ls : List Nat) (m : List Nat) :
    ls.foldl (fun (m : List Nat) l =>
        (List.range (counts.getD l 0)).foldl
          (OverlayGraph.fillMapping li flags verts (cm.getD l []) l) m) m =
      (fillPairs counts ls).foldl
        (fun m p => m.set (slotOf li flags verts cm p.1 p.2) p.2) m := by
  induction ls generalizing m with
  | nil => rfl
  | cons l ls ih =>
    rw [List.foldl_cons, ih]
    simp only [fillPairs, List.flatMap_cons, List.foldl_append]
    congr 1
    rw [List.foldl_map]
    have : OverlayGraph.fillMapping li flags verts (cm.getD l []) l =
        fun m v => m.set (slotOf li flags verts cm l v) v := by
      funext m v
      exact fillMapping_eq li flags verts cm l m v
    rw [this]

theorem mem_fillPairs (counts : List Nat) (ls : List Nat) (p : Nat × Nat) :
    p ∈ fillPairs counts ls ↔ p.1 ∈ ls ∧ p.2 < counts.getD p.1 0 := by
  obtain ⟨l, v⟩ := p
  simp only [fillPairs, List.mem_flatMap, List.mem_map, List.mem_range, Prod.mk.injEq]
  constructor
  · rintro ⟨l', hl', v', hv', h1, h2⟩
    subst h1; subst h2; exact ⟨hl', hv'⟩
  · rintro ⟨h1, h2⟩
    exact ⟨l, h1, v, h2, rfl, rfl⟩

end CRP

namespace CRP

/-- The cell of a vertex that is placed on level index `l`. -/
theorem cell_of_vertex (li : LevelInfo) (b : OverlayGraph.OverlayVertexBuild) (L : Nat)
    (ls : List Nat) (st : OverlayGraph.CellBuild) (h : LevelsInv li b L ls st)
    (l : Nat) (hl : l ∈ ls) (v : Nat) (hv : v < b.vertexCountInLevel.getD l 0) :
    ∃ C, cellFind (levelKey li b.overlayVertices l v) (st.cellMapping.getD l []) = some C ∧
      C.numEntryPoints = countKF (levelKey li b.overlayVertices l)
        (fun y => b.exitFlagsArray.getD y false) (levelKey li b.overlayVertices l v) false
        (b.vertexCountInLevel.getD l 0) ∧
      C.numExitPoints = countKF (levelKey li b.overlayVertices l)
        (fun y => b.exitFlagsArray.getD y false) (levelKey li b.overlayVertices l v) true
        (b.vertexCountInLevel.getD l 0) := by
  have hc := h.counts l hl (levelKey li b.overlayVertices l v)
  have hpos := (countKF_pos_iff (levelKey li b.overlayVertices l)
    (fun y => b.exitFlagsArray.getD y false) (levelKey li b.overlayVertices l v)
    (b.vertexCountInLevel.getD l 0)).2 ⟨v, hv, rfl⟩
  rw [if_pos hpos] at hc
  cases hf : cellFind (levelKey li b.overlayVertices l v) (st.cellMapping.getD l []) with
  | none => rw [hf] at hc; simp at hc
  | some C =>
    rw [hf] at hc
    simp only [Option.map_some', Option.some.injEq, Prod.mk.injEq] at hc
    exact ⟨C, rfl, hc.1, hc.2⟩

/-- The slot of a placed vertex: the offset of its cell, plus the number of entry points
for an exit vertex, plus its ordinal, which is below the count of its kind. -/
theorem slot_spec (li : LevelInfo) (b : OverlayGraph.OverlayVertexBuild) (L : Nat)
    (ls : List Nat) (st : OverlayGraph.CellBuild) (h : LevelsInv li b L ls st)
    (wf : BuildWF b L) (l : Nat) (hl : l ∈ ls) (hL : l < L) (v : Nat)
    (hv : v < b.vertexCountInLevel.getD l 0) :
    ∃ C, cellFind (levelKey li b.overlayVertices l v) (st.cellMapping.getD l []) = some C ∧
      (st.overlayVertices.getD v default).entryExitPoint.getD l 0 =
        countKF (levelKey li b.overlayVertices l) (fun y => b.exitFlagsArray.getD y false)
          (levelKey li b.overlayVertices l v) (b.exitFlagsArray.getD v false) v ∧
      (b.exitFlagsArray.getD v false = false →
        slotOf li b.exitFlagsArray st.overlayVertices st.cellMapping l v =
          C.overlayIdOffset + (st.overlayVertices.getD v default).entryExitPoint.getD l 0 ∧
        (st.overlayVertices.getD v default).entryExitPoint.getD l 0 < C.numEntryPoints) ∧
      (b.exitFlagsArray.getD v false = true →
        slotOf li b.exitFlagsArray st.overlayVertices st.cellMapping l v =
          C.overlayIdOffset + C.numEntryPoints +
            (st.overlayVertices.getD v default).entryExitPoint.getD l 0 ∧
        (st.overlayVertices.getD v default).entryExitPoint.getD l 0 < C.numExitPoints) := by
  obtain ⟨C, hC, hE, hX⟩ := cell_of_vertex li b L ls st h l hl v hv
  have hord := h.ord l hl v hv (lt_of_lt_of_le hv (wf.countLe l hL)) (wf.room l hL v hv)
  have hlt := countKF_lt (levelKey li b.overlayVertices l)
    (fun y => b.exitFlagsArray.getD y false) hv
  have hkey : li.truncateToLevel (st.overlayVertices.getD v default).cellNumber (l + 1) =
      levelKey li b.overlayVertices l v := levelKey_of_core li l h.core v
  refine ⟨C, hC, hord, ?_, ?_⟩
  · intro hf
    refine ⟨?_, ?_⟩
    · unfold slotOf
      simp only [hkey, hC, hf, Option.getD_some]
      rfl
    · rw [hord, hE]
      simp only [hf] at hlt ⊢
      exact hlt
  · intro hf
    refine ⟨?_, ?_⟩
    · unfold slotOf
      simp only [hkey, hC, hf, Option.getD_some, if_true]
      omega
    · rw [hord, hX]
      simp only [hf] at hlt ⊢
      exact hlt

end CRP

namespace CRP

theorem mem_taggedCells (cm : List (List (Nat × Cell))) (ls : List Nat) (l k : Nat) (C : Cell) :
    (l, k, C) ∈ taggedCells cm ls ↔ l ∈ ls ∧ (k, C) ∈ cm.getD l [] := by
  simp only [taggedCells, List.mem_flatMap, List.mem_map, Prod.mk.injEq]
  constructor
  · rintro ⟨l', hl', p, hp, h1, h2, h3⟩
    subst h1
    obtain ⟨k', C'⟩ := p
    simp only at h2 h3
    subst h2; subst h3
    exact ⟨hl', hp⟩
  · rintro ⟨h1, h2⟩
    exact ⟨l, h1, (k, C), h2, rfl, rfl, rfl⟩

/-- The slot of a placed vertex lies in the block of ids of its cell. -/
theorem slot_range (li : LevelInfo) (b : OverlayGraph.OverlayVertexBuild) (L : Nat)
    (ls : List Nat) (st : OverlayGraph.CellBuild) (h : LevelsInv li b L ls st)
    (wf : BuildWF b L) (l : Nat) (hl : l ∈ ls) (hL : l < L) (v : Nat)
    (hv : v < b.vertexCountInLevel.getD l 0) :
    ∃ C, cellFind (levelKey li b.overlayVertices l v) (st.cellMapping.getD l []) = some C ∧
      C.overlayIdOffset ≤ slotOf li b.exitFlagsArray st.overlayVertices st.cellMapping l v ∧
      slotOf li b.exitFlagsArray st.overlayVertices st.cellMapping l v <
        C.overlayIdOffset + (C.numEntryPoints + C.numExitPoints) := by
  obtain ⟨C, hC, _, hE, hX⟩ := slot_spec li b L ls st h wf l hl hL v hv
  refine ⟨C, hC, ?_⟩
  cases hf : b.exitFlagsArray.getD v false
  · have := hE hf; omega
  · have := hX hf; omega

theorem slot_lt_total (li : LevelInfo) (b : OverlayGraph.OverlayVertexBuild) (L : Nat)
    (ls : List Nat) (st : OverlayGraph.CellBuild) (h : LevelsInv li b L ls st)
    (wf : BuildWF b L) (l : Nat) (hl : l ∈ ls) (hL : l < L) (v : Nat)
    (hv : v < b.vertexCountInLevel.getD l 0) :
    slotOf li b.exitFlagsArray st.overlayVertices st.cellMapping l v < st.overlayIdOffset := by
  obtain ⟨C, hC, h1, h2⟩ := slot_range li b L ls st h wf l hl hL v hv
  have hm : (l, levelKey li b.overlayVertices l v, C) ∈ taggedCells st.cellMapping ls :=
    (mem_taggedCells _ _ _ _ _).2 ⟨hl, cellFind_mem hC⟩
  have := tiled_bounds _ _ _ _ _ h.tiledId _ hm
  simp only at this
  omega

/-- Two placed vertices with the same slot are the same vertex on the same level. -/
theorem slot_inj (li : LevelInfo) (b : OverlayGraph.OverlayVertexBuild) (L : Nat)
    (ls : List Nat) (st : OverlayGraph.CellBuild) (h : LevelsInv li b L ls st)
    (wf : BuildWF b L) (l : Nat) (hl : l ∈ ls) (hL : l < L) (v : Nat)
    (hv : v < b.vertexCountInLevel.getD l 0)
    (l0 : Nat) (hl0 : l0 ∈ ls) (hL0 : l0 < L) (v0 : Nat)
    (hv0 : v0 < b.vertexCountInLevel.getD l0 0)
    (heq : slotOf li b.exitFlagsArray st.overlayVertices st.cellMapping l v =
      slotOf li b.exitFlagsArray st.overlayVertices st.cellMapping l0 v0) :
    l = l0 ∧ v = v0 := by
  obtain ⟨C, hC, hord, hE, hX⟩ := slot_spec li b L ls st h wf l hl hL v hv
  obtain ⟨C0, hC0, hord0, hE0, hX0⟩ := slot_spec li b L ls st h wf l0 hl0 hL0 v0 hv0
  have hm : (l, levelKey li b.overlayVertices l v, C) ∈ taggedCells st.cellMapping ls :=
    (mem_taggedCells _ _ _ _ _).2 ⟨hl, cellFind_mem hC⟩
  have hm0 : (l0, levelKey li b.overlayVertices l0 v0, C0) ∈ taggedCells st.cellMapping ls :=
    (mem_taggedCells _ _ _ _ _).2 ⟨hl0, cellFind_mem hC0⟩
  by_cases hab : (l, levelKey li b.overlayVertices l v, C) =
      (l0, levelKey li b.overlayVertices l0 v0, C0)
  · simp only [Prod.mk.injEq] at hab
    obtain ⟨h1, h2, h3⟩ := hab
    subst h1; subst h3
    refine ⟨rfl, ?_⟩
    cases hf : b.exitFlagsArray.getD v false <;> cases hf0 : b.exitFlagsArray.getD v0 false
    · have a1 := hE hf; have a2 := hE0 hf0
      apply countKF_inj (levelKey li b.overlayVertices l)
        (fun y => b.exitFlagsArray.getD y false) h2 (by simp only [hf, hf0])
      rw [← hord, ← hord0]; omega
    · have a1 := hE hf; have a2 := hX0 hf0; omega
    · have a1 := hX hf; have a2 := hE0 hf0; omega
    · have a1 := hX hf; have a2 := hX0 hf0
      apply countKF_inj (levelKey li b.overlayVertices l)
        (fun y => b.exitFlagsArray.getD y false) h2 (by simp only [hf, hf0])
      rw [← hord, ← hord0]; omega
  · have hd := tiled_disjoint _ _ _ _ _ h.tiledId _ _ hm hm0 hab
    simp only at hd
    obtain ⟨C', hC', r1, r2⟩ := slot_range li b L ls st h wf l hl hL v hv
    obtain ⟨C0', hC0', r3, r4⟩ := slot_range li b L ls st h wf l0 hl0 hL0 v0 hv0
    rw [hC] at hC'; rw [hC0] at hC0'
    simp only [Option.some.injEq] at hC' hC0'
    subst hC'; subst hC0'
    omega

end CRP

namespace CRP

theorem buildCells_vertices (li : LevelInfo) (L : Nat) (b : OverlayGraph.OverlayVertexBuild) :
    (OverlayGraph.buildCells li L b).overlayVertices = (buildCellsState li L b).overlayVertices :=
  rfl

theorem buildCells_cellMapping (li : LevelInfo) (L : Nat) (b : OverlayGraph.OverlayVertexBuild) :
    (OverlayGraph.buildCells li L b).cellMapping = (buildCellsState li L b).cellMapping := rfl

theorem buildCells_weightVectorSize (li : LevelInfo) (L : Nat)
    (b : OverlayGraph.OverlayVertexBuild) :
    (OverlayGraph.buildCells li L b).weightVectorSize = (buildCellsState li L b).cellOffset := rfl

theorem buildCells_levelInfo (li : LevelInfo) (L : Nat) (b : OverlayGraph.OverlayVertexBuild) :
    (OverlayGraph.buildCells li L b).levelInfo = li := rfl

theorem buildCells_mapping (li : LevelInfo) (L : Nat) (b : OverlayGraph.OverlayVertexBuild) :
    (OverlayGraph.buildCells li L b).overlayIdMapping =
      (fillPairs b.vertexCountInLevel (OverlayGraph.levelsDown L)).foldl
        (fun m p => m.set (slotOf li b.exitFlagsArray (buildCellsState li L b).overlayVertices
          (buildCellsState li L b).cellMapping p.1 p.2) p.2)
        (List.replicate (buildCellsState li L b).overlayIdOffset 0) := by
  rw [← fill_fold_eq]
  rfl

theorem buildCellsState_inv (li : LevelInfo) (L : Nat) (b : OverlayGraph.OverlayVertexBuild) :
    LevelsInv li b L (OverlayGraph.levelsDown L) (buildCellsState li L b) :=
  levelsInv_final li b L

/-- After `buildCells`, the id mapping holds every placed vertex at its slot. -/
theorem mapping_at_slot (li : LevelInfo) (L : Nat) (b : OverlayGraph.OverlayVertexBuild)
    (wf : BuildWF b L) (l : Nat) (hL : l < L) (v : Nat)
    (hv : v < b.vertexCountInLevel.getD l 0) :
    (OverlayGraph.buildCells li L b).overlayIdMapping.getD
      (slotOf li b.exitFlagsArray (buildCellsState li L b).overlayVertices
        (buildCellsState li L b).cellMapping l v) 0 = v := by
  have h := buildCellsState_inv li L b
  have hl : l ∈ OverlayGraph.levelsDown L := (mem_levelsDown L l).2 hL
  rw [buildCells_mapping]
  apply foldl_set_getD (fun p : Nat × Nat => slotOf li b.exitFlagsArray
      (buildCellsState li L b).overlayVertices (buildCellsState li L b).cellMapping p.1 p.2)
    (fun p => p.2)
  · rw [List.length_replicate]
    exact slot_lt_total li b L _ _ h wf l hl hL v hv
  · intro p hp hpe
    obtain ⟨h1, h2⟩ := (mem_fillPairs _ _ p).1 hp
    exact (slot_inj li b L _ _ h wf p.1 h1 ((mem_levelsDown L p.1).1 h1) p.2 h2 l hl hL v hv
      hpe).2
  · right
    exact ⟨(l, v), (mem_fillPairs _ _ _).2 ⟨hl, hv⟩, rfl⟩

end CRP

namespace CRP

theorem suffixSums_length (xs : List Nat) : (OverlayGraph.suffixSums xs).length = xs.length := by
  induction xs with
  | nil => rfl
  | cons x xs ih => simp [OverlayGraph.suffixSums, ih]

/-- The concatenation of the buckets from the highest level to the lowest. -/
theorem flatten_reverse_cons {α : Type} (b0 : List α) (rest : List (List α)) :
    (b0 :: rest).reverse.flatten = rest.reverse.flatten ++ b0 := by
  simp

theorem suffixSums_head (bs : List (List OverlayVertex)) :
    (OverlayGraph.suffixSums (bs.map List.length)).headD 0 = bs.reverse.flatten.length := by
  induction bs with
  | nil => rfl
  | cons b0 rest ih =>
    rw [flatten_reverse_cons, List.length_append]
    simp only [List.map_cons, OverlayGraph.suffixSums, List.headD_cons, ih]
    omega

theorem suffixSums_le (bs : List (List OverlayVertex)) (j : Nat) :
    (OverlayGraph.suffixSums (bs.map List.length)).getD j 0 ≤ bs.reverse.flatten.length := by
  induction bs generalizing j with
  | nil => simp [OverlayGraph.suffixSums]
  | cons b0 rest ih =>
    rw [flatten_reverse_cons, List.length_append]
    cases j with
    | zero =>
      simp only [List.map_cons, OverlayGraph.suffixSums, List.getD_cons_zero, suffixSums_head]
      omega
    | succ j =>
      simp only [List.map_cons, OverlayGraph.suffixSums, List.getD_cons_succ]
      have := ih j
      omega

theorem flat_room (k : Nat) (bs : List (List OverlayVertex))
    (h : ∀ j w, w ∈ bs.getD j [] → w.entryExitPoint.length = k + j + 1) :
    ∀ w, w ∈ bs.reverse.flatten → k < w.entryExitPoint.length := by
  intro w hw
  simp only [List.mem_flatten, List.mem_reverse] at hw
  obtain ⟨l, hl, hwl⟩ := hw
  obtain ⟨j, hj, rfl⟩ := List.getElem_of_mem hl
  have := h j w (by rw [List.getD_eq_getElem _ _ hj]; exact hwl)
  omega

theorem getD_mem {α : Type} (xs : List α) (i : Nat) (d : α) (h : i < xs.length) :
    xs.getD i d ∈ xs := by
  rw [List.getD_eq_getElem _ _ h]
  exact List.getElem_mem h

/-- In the concatenation of the buckets, the vertices below `vertexCountInLevel[j]` are
those with room for level index `j`. -/
theorem flat_first (bs : List (List OverlayVertex)) : ∀ (k : Nat),
    (∀ j w, w ∈ bs.getD j [] → w.entryExitPoint.length = k + j + 1) →
    ∀ j, j < bs.length → ∀ x, x < bs.reverse.flatten.length →
      (x < (OverlayGraph.suffixSums (bs.map List.length)).getD j 0 ↔
        k + j < (bs.reverse.flatten.getD x default).entryExitPoint.length) := by
  induction bs with
  | nil => intro k _ j hj; simp at hj
  | cons b0 rest ih =>
    intro k h j hj x hx
    have hrest : ∀ j w, w ∈ rest.getD j [] → w.entryExitPoint.length = (k + 1) + j + 1 := by
      intro j w hw
      have := h (j + 1) w (by simpa using hw)
      omega
    have hroom := flat_room k (b0 :: rest) h
    cases j with
    | zero =>
      have h1 : x < (OverlayGraph.suffixSums ((b0 :: rest).map List.length)).getD 0 0 := by
        simp only [List.map_cons, OverlayGraph.suffixSums, List.getD_cons_zero, suffixSums_head]
        rw [flatten_reverse_cons, List.length_append] at hx
        omega
      have h2 := hroom _ (getD_mem _ x default hx)
      constructor
      · intro _; simpa using h2
      · intro _; exact h1
    | succ j =>
      have hj' : j < rest.length := by simpa using hj
      simp only [List.map_cons, OverlayGraph.suffixSums, List.getD_cons_succ]
      rw [flatten_reverse_cons] at hx ⊢
      by_cases hxr : x < rest.reverse.flatten.length
      · rw [List.getD_append _ _ _ _ hxr]
        have := ih (k + 1) hrest j hj' x hxr
        rw [this]
        constructor <;> intro h3 <;> omega
      · have hxr' : rest.reverse.flatten.length ≤ x := by omega
        rw [List.getD_append_right _ _ _ _ hxr']
        rw [List.length_append] at hx
        have hm := getD_mem b0 (x - rest.reverse.flatten.length) default (by omega)
        have hlen := h 0 (b0.getD (x - rest.reverse.flatten.length) default) (by simpa using hm)
        have hle := suffixSums_le rest j
        constructor
        · intro h3; omega
        · intro h3; omega

end CRP

namespace CRP

theorem addBoundaryEdge_inv (g : Graph) (li : LevelInfo) (bs : List (List OverlayVertex))
    (e : Nat × Nat × Nat)
    (h : ∀ j w, w ∈ bs.getD j [] → w.entryExitPoint.length = j + 1) :
    (OverlayGraph.addBoundaryEdge g li bs e).length = bs.length ∧
    ∀ j w, w ∈ (OverlayGraph.addBoundaryEdge g li bs e).getD j [] →
      w.entryExitPoint.length = j + 1 := by
  unfold OverlayGraph.addBoundaryEdge
  simp only
  split_ifs with hpos
  · refine ⟨by simp, ?_⟩
    intro j w hw
    rw [getD_set_self_or] at hw
    split_ifs at hw with hj
    · rcases List.mem_append.1 hw with h1 | h1
      · have := h _ w h1
        omega
      · simp only [List.mem_cons, List.mem_singleton, List.not_mem_nil, or_false] at h1
        rcases h1 with h1 | h1 <;> subst h1 <;> simp <;> omega
    · exact h j w hw
  · exact ⟨rfl, h⟩

theorem collect_inv (g : Graph) (li : LevelInfo) (L : Nat) :
    (OverlayGraph.collectOverlayVertices g li L).length = L ∧
    ∀ j w, w ∈ (OverlayGraph.collectOverlayVertices g li L).getD j [] →
      w.entryExitPoint.length = j + 1 := by
  unfold OverlayGraph.collectOverlayVertices
  have key : ∀ (es : List (Nat × Nat × Nat)) (bs : List (List OverlayVertex)),
      (∀ j w, w ∈ bs.getD j [] → w.entryExitPoint.length = j + 1) →
      (es.foldl (OverlayGraph.addBoundaryEdge g li) bs).length = bs.length ∧
      ∀ j w, w ∈ (es.foldl (OverlayGraph.addBoundaryEdge g li) bs).getD j [] →
        w.entryExitPoint.length = j + 1 := by
    intro es
    induction es with
    | nil => intro bs h; exact ⟨rfl, h⟩
    | cons e es ih =>
      intro bs h
      have h1 := addBoundaryEdge_inv g li bs e h
      have h2 := ih _ h1.2
      exact ⟨by rw [List.foldl_cons, h2.1, h1.1], h2.2⟩
  have := key g.forEdges (List.replicate L []) (by
    intro j w hw
    simp only [List.getD_eq_getElem?_getD, List.getElem?_replicate] at hw
    split_ifs at hw <;> simp at hw)
  simpa using this

theorem sortBucket_fold (g : Graph) (v : List OverlayVertex) (n2o o2n : List Nat) (off : Nat)
    (is : List Nat) (acc : OverlayGraph.SortedBucket) :
    (is.foldl (OverlayGraph.sortBucketStep g v n2o o2n off) acc).sortedVertices =
      acc.sortedVertices ++ is.map (fun i =>
        { (v.getD (n2o.getD i 0) default) with
          neighborOverlayVertex :=
            o2n.getD (v.getD (n2o.getD i 0) default).neighborOverlayVertex 0 + off }) := by
  induction is generalizing acc with
  | nil => simp
  | cons i is ih =>
    rw [List.foldl_cons, ih]
    simp [OverlayGraph.sortBucketStep]

theorem newToOld_length (v : List OverlayVertex) :
    (OverlayGraph.newToOldPosition v).length = v.length := by
  unfold OverlayGraph.newToOldPosition
  rw [(List.perm_insertionSort _ _).length_eq, List.length_range]

theorem newToOld_lt (v : List OverlayVertex) (i : Nat) (hi : i < v.length) :
    (OverlayGraph.newToOldPosition v).getD i 0 < v.length := by
  have hm := getD_mem (OverlayGraph.newToOldPosition v) i 0 (by rw [newToOld_length]; exact hi)
  unfold OverlayGraph.newToOldPosition at hm
  rw [(List.perm_insertionSort _ _).mem_iff, List.mem_range] at hm
  exact hm

theorem sortBucket_vertices (g : Graph) (v : List OverlayVertex) (off : Nat) :
    (OverlayGraph.sortBucket g v off).sortedVertices.length = v.length ∧
    ∀ w, w ∈ (OverlayGraph.sortBucket g v off).sortedVertices →
      ∃ u, u ∈ v ∧ w.entryExitPoint = u.entryExitPoint ∧ w.cellNumber = u.cellNumber := by
  unfold OverlayGraph.sortBucket
  simp only [sortBucket_fold, List.nil_append]
  refine ⟨by simp, ?_⟩
  intro w hw
  simp only [List.mem_map, List.mem_range] at hw
  obtain ⟨i, hi, rfl⟩ := hw
  exact ⟨_, getD_mem v _ default (newToOld_lt v i hi), rfl, rfl⟩

end CRP

namespace CRP

/-- The sorted buckets of `buildOverlayVertices`, one list of overlay vertices per level. -/
theorem buildOverlayVertices_shape (g : Graph) (li : LevelInfo) (L : Nat) :
    ∃ sv : List (List OverlayVertex),
      sv.length = L ∧
      (∀ j w, w ∈ sv.getD j [] → w.entryExitPoint.length = 0 + j + 1) ∧
      (OverlayGraph.buildOverlayVertices g li L).overlayVertices = sv.reverse.flatten ∧
      (OverlayGraph.buildOverlayVertices g li L).vertexCountInLevel =
        OverlayGraph.suffixSums (sv.map List.length) := by
  obtain ⟨hlen, hin⟩ := collect_inv g li L
  let bs := OverlayGraph.collectOverlayVertices g li L
  let counts := OverlayGraph.suffixSums (bs.map List.length)
  let sorted := (List.range bs.length).map fun j =>
    OverlayGraph.sortBucket g (bs.getD j []) (counts.getD j 0 - (bs.getD j []).length)
  refine ⟨sorted.map OverlayGraph.SortedBucket.sortedVertices, ?_, ?_, ?_, ?_⟩
  · simp [sorted, bs, hlen]
  · intro j w hw
    by_cases hj : j < bs.length
    · have : (sorted.map OverlayGraph.SortedBucket.sortedVertices).getD j [] =
          (OverlayGraph.sortBucket g (bs.getD j [])
            (counts.getD j 0 - (bs.getD j []).length)).sortedVertices := by
        rw [List.getD_eq_getElem _ _ (by simp [sorted, hj])]
        simp [sorted]
      rw [this] at hw
      obtain ⟨u, hu, he, _⟩ := (sortBucket_vertices g _ _).2 w hw
      rw [he, hin j u hu]; omega
    · rw [List.getD_eq_default _ _ (by simp [sorted]; omega)] at hw
      simp at hw
  · show _ = (sorted.map OverlayGraph.SortedBucket.sortedVertices).reverse.flatten
    rw [← List.map_reverse]
    rfl
  · show counts = _
    have : (sorted.map OverlayGraph.SortedBucket.sortedVertices).map List.length =
        bs.map List.length := by
      apply List.ext_getElem
      · simp [sorted]
      · intro i h1 h2
        simp only [List.getElem_map, sorted, List.getElem_range]
        rw [(sortBucket_vertices g _ _).1]
        rw [List.getD_eq_getElem _ _ (by simpa using h2)]
    rw [this]

/-- The result of `buildOverlayVertices` is well-formed for `buildCells`. -/
theorem buildOverlayVertices_wf (g : Graph) (li : LevelInfo) (L : Nat) :
    BuildWF (OverlayGraph.buildOverlayVertices g li L) L := by
  obtain ⟨sv, hlen, hroom, hv, hc⟩ := buildOverlayVertices_shape g li L
  refine ⟨?_, ?_, ?_⟩
  · intro l _
    rw [hv, hc]; exact suffixSums_le sv l
  · intro l hl x hx
    rw [hv, hc] at *
    have hxl : x < sv.reverse.flatten.length := lt_of_lt_of_le hx (suffixSums_le sv l)
    have := (flat_first sv 0 hroom l (by omega) x hxl).1 hx
    omega
  · intro l hl x hx hr
    rw [hv] at hx hr
    rw [hc]
    exact (flat_first sv 0 hroom l (by omega) x hx).2 (by omega)

end CRP

namespace CRP

/-- Every placed vertex of a cell is found at its ordinal among the entry points (or the
exit points) of the cell. -/
theorem point_of_vertex (li : LevelInfo) (L : Nat) (b : OverlayGraph.OverlayVertexBuild)
    (wf : BuildWF b L) (l : Nat) (hL : l < L) (k : Nat) (C : Cell)
    (hC : cellFind k ((buildCellsState li L b).cellMapping.getD l []) = some C)
    (x : Nat) (hx : x < b.vertexCountInLevel.getD l 0)
    (hk : levelKey li b.overlayVertices l x = k) :
    (b.exitFlagsArray.getD x false = false →
      ((buildCellsState li L b).overlayVertices.getD x default).entryExitPoint.getD l 0
        < C.numEntryPoints ∧
      (OverlayGraph.buildCells li L b).overlayIdMapping.getD (C.overlayIdOffset +
        ((buildCellsState li L b).overlayVertices.getD x default).entryExitPoint.getD l 0) 0
        = x) ∧
    (b.exitFlagsArray.getD x false = true →
      ((buildCellsState li L b).overlayVertices.getD x default).entryExitPoint.getD l 0
        < C.numExitPoints ∧
      (OverlayGraph.buildCells li L b).overlayIdMapping.getD (C.overlayIdOffset +
        C.numEntryPoints +
        ((buildCellsState li L b).overlayVertices.getD x default).entryExitPoint.getD l 0) 0
        = x) := by
  have h := buildCellsState_inv li L b
  have hl : l ∈ OverlayGraph.levelsDown L := (mem_levelsDown L l).2 hL
  obtain ⟨C', hC', _, hE, hX⟩ := slot_spec li b L _ _ h wf l hl hL x hx
  rw [hk, hC] at hC'
  simp only [Option.some.injEq] at hC'
  subst hC'
  have hm := mapping_at_slot li L b wf l hL x hx
  constructor
  · intro hf
    obtain ⟨h1, h2⟩ := hE hf
    rw [h1] at hm
    exact ⟨h2, hm⟩
  · intro hf
    obtain ⟨h1, h2⟩ := hX hf
    rw [h1] at hm
    exact ⟨h2, hm⟩

/-- The counts of a cell are the numbers of its entry and exit vertices. -/
theorem cell_counts (li : LevelInfo) (L : Nat) (b : OverlayGraph.OverlayVertexBuild)
    (l : Nat) (hL : l < L) (k : Nat) (C : Cell)
    (hC : cellFind k ((buildCellsState li L b).cellMapping.getD l []) = some C) :
    C.numEntryPoints = countKF (levelKey li b.overlayVertices l)
        (fun y => b.exitFlagsArray.getD y false) k false (b.vertexCountInLevel.getD l 0) ∧
    C.numExitPoints = countKF (levelKey li b.overlayVertices l)
        (fun y => b.exitFlagsArray.getD y false) k true (b.vertexCountInLevel.getD l 0) := by
  have h := buildCellsState_inv li L b
  have hc := h.counts l ((mem_levelsDown L l).2 hL) k
  rw [hC] at hc
  split_ifs at hc with hpos
  · simp only [Option.map_some', Option.some.injEq, Prod.mk.injEq] at hc
    exact hc
  · simp at hc

/-- Every entry point index (or exit point index) of a cell holds a placed vertex of the
cell with that ordinal. -/
theorem vertex_of_point (li : LevelInfo) (L : Nat) (b : OverlayGraph.OverlayVertexBuild)
    (wf : BuildWF b L) (l : Nat) (hL : l < L) (k : Nat) (C : Cell)
    (hC : cellFind k ((buildCellsState li L b).cellMapping.getD l []) = some C) (i : Nat) :
    (i < C.numEntryPoints → ∃ x, x < b.vertexCountInLevel.getD l 0 ∧
      levelKey li b.overlayVertices l x = k ∧ b.exitFlagsArray.getD x false = false ∧
      ((buildCellsState li L b).overlayVertices.getD x default).entryExitPoint.getD l 0 = i ∧
      (OverlayGraph.buildCells li L b).overlayIdMapping.getD (C.overlayIdOffset + i) 0 = x) ∧
    (i < C.numExitPoints → ∃ x, x < b.vertexCountInLevel.getD l 0 ∧
      levelKey li b.overlayVertices l x = k ∧ b.exitFlagsArray.getD x false = true ∧
      ((buildCellsState li L b).overlayVertices.getD x default).entryExitPoint.getD l 0 = i ∧
      (OverlayGraph.buildCells li L b).overlayIdMapping.getD
        (C.overlayIdOffset + C.numEntryPoints + i) 0 = x) := by
  have h := buildCellsState_inv li L b
  have hl : l ∈ OverlayGraph.levelsDown L := (mem_levelsDown L l).2 hL
  obtain ⟨hnE, hnX⟩ := cell_counts li L b l hL k C hC
  constructor
  · intro hi
    rw [hnE] at hi
    obtain ⟨x, hx, hkx, hfx, hox⟩ := countKF_surj _ _ k false _ i hi
    have hord := h.ord l hl x hx (lt_of_lt_of_le hx (wf.countLe l hL)) (wf.room l hL x hx)
    rw [hkx, hfx, hox] at hord
    have hp := (point_of_vertex li L b wf l hL k C hC x hx hkx).1 hfx
    rw [hord] at hp
    exact ⟨x, hx, hkx, hfx, hord, hp.2⟩
  · intro hi
    rw [hnX] at hi
    obtain ⟨x, hx, hkx, hfx, hox⟩ := countKF_surj _ _ k true _ i hi
    have hord := h.ord l hl x hx (lt_of_lt_of_le hx (wf.countLe l hL)) (wf.room l hL x hx)
    rw [hkx, hfx, hox] at hord
    have hp := (point_of_vertex li L b wf l hL k C hC x hx hkx).2 hfx
    rw [hord] at hp
    exact ⟨x, hx, hkx, hfx, hord, hp.2⟩

end CRP

namespace CRP

/-- A cell listed by `forCells` on level `l` is the cell found under its key. -/
theorem forCells_cellFind (li : LevelInfo) (L : Nat) (b : OverlayGraph.OverlayVertexBuild)
    (l : Nat) (hl : 0 < l) (hL : l ≤ L) (k : Nat) (C : Cell)
    (hC : (k, C) ∈ (OverlayGraph.buildCells li L b).forCells l) :
    cellFind k ((buildCellsState li L b).cellMapping.getD (l - 1) []) = some C := by
  have h := buildCellsState_inv li L b
  exact cellFind_of_mem (h.nodup (l - 1) ((mem_levelsDown L (l - 1)).2 (by omega))) hC

/-- A vertex belongs to the first vertices of level `l` exactly when its `entryExitPoint`
reaches level `l`. -/
theorem level_iff (li : LevelInfo) (L : Nat) (b : OverlayGraph.OverlayVertexBuild)
    (wf : BuildWF b L) (l : Nat) (hl : 0 < l) (hL : l ≤ L) (x : Nat)
    (hx : x < (OverlayGraph.buildCells li L b).numberOfVertices) :
    l ≤ ((OverlayGraph.buildCells li L b).getVertex x).entryExitPoint.length ↔
      x < b.vertexCountInLevel.getD (l - 1) 0 := by
  have h := buildCellsState_inv li L b
  have hlen : ((OverlayGraph.buildCells li L b).getVertex x).entryExitPoint.length =
      (b.overlayVertices.getD x default).entryExitPoint.length := core_eep_length (h.core x)
  have hx' : x < b.overlayVertices.length := by
    have : (OverlayGraph.buildCells li L b).numberOfVertices = b.overlayVertices.length := h.len
    omega
  rw [hlen]
  constructor
  · intro h1
    exact wf.first (l - 1) (by omega) x hx' (by omega)
  · intro h1
    have := wf.room (l - 1) (by omega) x h1
    omega

theorem key_eq (li : LevelInfo) (L : Nat) (b : OverlayGraph.OverlayVertexBuild)
    (l : Nat) (hl : 0 < l) (x : Nat) :
    (OverlayGraph.buildCells li L b).levelInfo.truncateToLevel
      ((OverlayGraph.buildCells li L b).getVertex x).cellNumber l =
    levelKey li b.overlayVertices (l - 1) x := by
  have h := buildCellsState_inv li L b
  have hc : ((OverlayGraph.buildCells li L b).getVertex x).cellNumber =
      (b.overlayVertices.getD x default).cellNumber := core_cellNumber (h.core x)
  rw [hc, buildCells_levelInfo]
  unfold levelKey
  have : l - 1 + 1 = l := by omega
  rw [this]

theorem count_lt_vertices (li : LevelInfo) (L : Nat) (b : OverlayGraph.OverlayVertexBuild)
    (wf : BuildWF b L) (l : Nat) (hl : 0 < l) (hL : l ≤ L) (x : Nat)
    (hx : x < b.vertexCountInLevel.getD (l - 1) 0) :
    x < (OverlayGraph.buildCells li L b).numberOfVertices := by
  have h := buildCellsState_inv li L b
  have : (OverlayGraph.buildCells li L b).numberOfVertices = b.overlayVertices.length := h.len
  have := wf.countLe (l - 1) (by omega)
  omega

/-- The entry points of a cell: what `getEntryPoint` returns, on the built overlay graph. -/
theorem entry_points (li : LevelInfo) (L : Nat) (b : OverlayGraph.OverlayVertexBuild)
    (wf : BuildWF b L) (l : Nat) (hl : 0 < l) (hL : l ≤ L) (k : Nat) (C : Cell)
    (hC : (k, C) ∈ (OverlayGraph.buildCells li L b).forCells l) :
    (∀ i, i < C.numEntryPoints →
      (OverlayGraph.buildCells li L b).getEntryPoint C i <
        (OverlayGraph.buildCells li L b).numberOfVertices ∧
      b.exitFlagsArray.getD ((OverlayGraph.buildCells li L b).getEntryPoint C i) false = false ∧
      l ≤ ((OverlayGraph.buildCells li L b).getVertex
        ((OverlayGraph.buildCells li L b).getEntryPoint C i)).entryExitPoint.length ∧
      (OverlayGraph.buildCells li L b).levelInfo.truncateToLevel
        ((OverlayGraph.buildCells li L b).getVertex
          ((OverlayGraph.buildCells li L b).getEntryPoint C i)).cellNumber l = k ∧
      ((OverlayGraph.buildCells li L b).getVertex
        ((OverlayGraph.buildCells li L b).getEntryPoint C i)).entryExitPoint.getD (l - 1) 0
        = i) ∧
    (∀ x, x < (OverlayGraph.buildCells li L b).numberOfVertices →
      b.exitFlagsArray.getD x false = false →
      l ≤ ((OverlayGraph.buildCells li L b).getVertex x).entryExitPoint.length →
      (OverlayGraph.buildCells li L b).levelInfo.truncateToLevel
        ((OverlayGraph.buildCells li L b).getVertex x).cellNumber l = k →
      ∃ i, i < C.numEntryPoints ∧ (OverlayGraph.buildCells li L b).getEntryPoint C i = x) := by
  have hF := forCells_cellFind li L b l hl hL k C hC
  have hL' : l - 1 < L := by omega
  constructor
  · intro i hi
    obtain ⟨x, hx, hkx, hfx, hox, hm⟩ := (vertex_of_point li L b wf (l - 1) hL' k C hF i).1 hi
    have hg : (OverlayGraph.buildCells li L b).getEntryPoint C i = x := hm
    rw [hg]
    have hxv := count_lt_vertices li L b wf l hl hL x hx
    refine ⟨hxv, hfx, (level_iff li L b wf l hl hL x hxv).2 hx, ?_, hox⟩
    rw [key_eq li L b l hl x]; exact hkx
  · intro x hx hfx hlev hkx
    have hx' := (level_iff li L b wf l hl hL x hx).1 hlev
    rw [key_eq li L b l hl x] at hkx
    have hp := (point_of_vertex li L b wf (l - 1) hL' k C hF x hx' hkx).1 hfx
    exact ⟨_, hp.1, hp.2⟩

/-- The exit points of a cell: what `getExitPoint` returns, on the built overlay graph. -/
theorem exit_points (li : LevelInfo) (L : Nat) (b : OverlayGraph.OverlayVertexBuild)
    (wf : BuildWF b L) (l : Nat) (hl : 0 < l) (hL : l ≤ L) (k : Nat) (C : Cell)
    (hC : (k, C) ∈ (OverlayGraph.buildCells li L b).forCells l) :
    (∀ i, i < C.numExitPoints →
      (OverlayGraph.buildCells li L b).getExitPoint C i <
        (OverlayGraph.buildCells li L b).numberOfVertices ∧
      b.exitFlagsArray.getD ((OverlayGraph.buildCells li L b).getExitPoint C i) false = true ∧
      l ≤ ((OverlayGraph.buildCells li L b).getVertex
        ((OverlayGraph.buildCells li L b).getExitPoint C i)).entryExitPoint.length ∧
      (OverlayGraph.buildCells li L b).levelInfo.truncateToLevel
        ((OverlayGraph.buildCells li L b).getVertex
          ((OverlayGraph.buildCells li L b).getExitPoint C i)).cellNumber l = k ∧
      ((OverlayGraph.buildCells li L b).getVertex
        ((OverlayGraph.buildCells li L b).getExitPoint C i)).entryExitPoint.getD (l - 1) 0
        = i) ∧
    (∀ x, x < (OverlayGraph.buildCells li L b).numberOfVertices →
      b.exitFlagsArray.getD x false = true →
      l ≤ ((OverlayGraph.buildCells li L b).getVertex x).entryExitPoint.length →
      (OverlayGraph.buildCells li L b).levelInfo.truncateToLevel
        ((OverlayGraph.buildCells li L b).getVertex x).cellNumber l = k →
      ∃ i, i < C.numExitPoints ∧ (OverlayGraph.buildCells li L b).getExitPoint C i = x) := by
  have hF := forCells_cellFind li L b l hl hL k C hC
  have hL' : l - 1 < L := by omega
  constructor
  · intro i hi
    obtain ⟨x, hx, hkx, hfx, hox, hm⟩ := (vertex_of_point li L b wf (l - 1) hL' k C hF i).2 hi
    have hg : (OverlayGraph.buildCells li L b).getExitPoint C i = x := hm
    rw [hg]
    have hxv := count_lt_vertices li L b wf l hl hL x hx
    refine ⟨hxv, hfx, (level_iff li L b wf l hl hL x hxv).2 hx, ?_, hox⟩
    rw [key_eq li L b l hl x]; exact hkx
  · intro x hx hfx hlev hkx
    have hx' := (level_iff li L b wf l hl hL x hx).1 hlev
    rw [key_eq li L b l hl x] at hkx
    have hp := (point_of_vertex li L b wf (l - 1) hL' k C hF x hx' hkx).2 hfx
    exact ⟨_, hp.1, hp.2⟩

/-- The cell of an overlay vertex with key `k` on level `l` is the cell listed under `k`. -/
theorem getCell_of_key (li : LevelInfo) (L : Nat) (b : OverlayGraph.OverlayVertexBuild)
    (l : Nat) (hl : 0 < l) (hL : l ≤ L) (k : Nat) (C : Cell)
    (hC : (k, C) ∈ (OverlayGraph.buildCells li L b).forCells l) (c : Nat)
    (hk : (OverlayGraph.buildCells li L b).levelInfo.truncateToLevel c l = k) :
    (OverlayGraph.buildCells li L b).getCell c l = C := by
  have hF := forCells_cellFind li L b l hl hL k C hC
  unfold OverlayGraph.getCell
  rw [hk, buildCells_cellMapping, hF]
  rfl

end CRP

namespace CRP

/-- The pairs that `forOutNeighborsOf` hands over for the `i`-th entry point of a cell. -/
theorem out_neighbors (li : LevelInfo) (L : Nat) (b : OverlayGraph.OverlayVertexBuild)
    (wf : BuildWF b L) (l : Nat) (hl : 0 < l) (hL : l ≤ L) (k : Nat) (C : Cell)
    (hC : (k, C) ∈ (OverlayGraph.buildCells li L b).forCells l) (i : Nat)
    (hi : i < C.numEntryPoints) :
    (OverlayGraph.buildCells li L b).forOutNeighborsOf
        ((OverlayGraph.buildCells li L b).getEntryPoint C i) l =
      (List.range C.numExitPoints).map fun j =>
        ((OverlayGraph.buildCells li L b).getExitPoint C j,
          C.cellOffset + i * C.numExitPoints + j) := by
  obtain ⟨_, _, _, hk, ho⟩ := (entry_points li L b wf l hl hL k C hC).1 i hi
  have hc := getCell_of_key li L b l hl hL k C hC _ hk
  unfold OverlayGraph.forOutNeighborsOf
  simp only [hc, ho]
  rfl

/-- The pairs that `forInNeighborsOf` hands over for the `j`-th exit point of a cell. -/
theorem in_neighbors (li : LevelInfo) (L : Nat) (b : OverlayGraph.OverlayVertexBuild)
    (wf : BuildWF b L) (l : Nat) (hl : 0 < l) (hL : l ≤ L) (k : Nat) (C : Cell)
    (hC : (k, C) ∈ (OverlayGraph.buildCells li L b).forCells l) (j : Nat)
    (hj : j < C.numExitPoints) :
    (OverlayGraph.buildCells li L b).forInNeighborsOf
        ((OverlayGraph.buildCells li L b).getExitPoint C j) l =
      (List.range C.numEntryPoints).map fun i =>
        ((OverlayGraph.buildCells li L b).getEntryPoint C i,
          C.cellOffset + i * C.numExitPoints + j) := by
  obtain ⟨_, _, _, hk, ho⟩ := (exit_points li L b wf l hl hL k C hC).1 j hj
  have hc := getCell_of_key li L b l hl hL k C hC _ hk
  unfold OverlayGraph.forInNeighborsOf
  simp only [hc, ho]
  apply List.map_congr_left
  intro i _
  show ((OverlayGraph.buildCells li L b).getEntryPoint C i, _) = _
  congr 1
  rw [Nat.mul_comm]; omega

theorem countP_range_extend (p : Nat → Bool) (n d : Nat)
    (h : ∀ x, n ≤ x → x < n + d → p x = false) :
    (List.range (n + d)).countP p = (List.range n).countP p := by
  induction d with
  | zero => rfl
  | succ d ih =>
    rw [← Nat.add_assoc, List.range_succ, List.countP_append, ih (fun x h1 h2 => h x h1 (by omega))]
    simp [h (n + d) (by omega) (by omega)]

theorem countP_range_congr (p q : Nat → Bool) (n : Nat) (h : ∀ x, x < n → p x = q x) :
    (List.range n).countP p = (List.range n).countP q := by
  apply List.countP_congr
  intro x hx
  rw [h x (List.mem_range.1 hx)]

/-- The counts of a cell are the numbers of the overlay vertices with that flag, on a
boundary of level `l` or higher, in that cell. -/
theorem cell_counts_vertices (li : LevelInfo) (L : Nat) (b : OverlayGraph.OverlayVertexBuild)
    (wf : BuildWF b L) (l : Nat) (hl : 0 < l) (hL : l ≤ L) (k : Nat) (C : Cell)
    (hC : (k, C) ∈ (OverlayGraph.buildCells li L b).forCells l) (f : Bool) :
    (List.range (OverlayGraph.buildCells li L b).numberOfVertices).countP (fun x =>
      (b.exitFlagsArray.getD x false == f) &&
      decide (l ≤ ((OverlayGraph.buildCells li L b).getVertex x).entryExitPoint.length) &&
      decide ((OverlayGraph.buildCells li L b).levelInfo.truncateToLevel
        ((OverlayGraph.buildCells li L b).getVertex x).cellNumber l = k)) =
    if f then C.numExitPoints else C.numEntryPoints := by
  have hF := forCells_cellFind li L b l hl hL k C hC
  have hL' : l - 1 < L := by omega
  obtain ⟨hE, hX⟩ := cell_counts li L b (l - 1) hL' k C hF
  have h := buildCellsState_inv li L b
  have hn : (OverlayGraph.buildCells li L b).numberOfVertices = b.overlayVertices.length := h.len
  have hle := wf.countLe (l - 1) hL'
  have hsplit : (OverlayGraph.buildCells li L b).numberOfVertices =
      b.vertexCountInLevel.getD (l - 1) 0 +
        ((OverlayGraph.buildCells li L b).numberOfVertices -
          b.vertexCountInLevel.getD (l - 1) 0) := by omega
  have hres : (if f then C.numExitPoints else C.numEntryPoints) =
      countKF (levelKey li b.overlayVertices (l - 1)) (fun y => b.exitFlagsArray.getD y false)
        k f (b.vertexCountInLevel.getD (l - 1) 0) := by
    cases f
    · simpa using hE
    · simpa using hX
  rw [hres, hsplit, countP_range_extend]
  · unfold countKF
    apply countP_range_congr
    intro x hx
    have hxv := count_lt_vertices li L b wf l hl hL x hx
    have h1 := (level_iff li L b wf l hl hL x hxv).2 hx
    rw [key_eq li L b l hl x]
    simp only [h1, decide_True, Bool.and_true]
    rw [Bool.and_comm]
  · intro x h1 h2
    have hxv : x < (OverlayGraph.buildCells li L b).numberOfVertices := by omega
    have h3 : ¬ l ≤ ((OverlayGraph.buildCells li L b).getVertex x).entryExitPoint.length := by
      intro h4
      have := (level_iff li L b wf l hl hL x hxv).1 h4
      omega
    simp [h3]

end CRP

namespace CRP

theorem taggedCells_sum (cm : List (List (Nat × Cell))) (sz : Cell → Nat) (ls : List Nat) :
    ((taggedCells cm ls).map fun p => sz p.2.2).sum =
      (ls.map fun l => ((cm.getD l []).map fun p => sz p.2).sum).sum := by
  induction ls with
  | nil => rfl
  | cons l ls ih =>
    have : taggedCells cm (l :: ls) =
        ((cm.getD l []).map fun p => (l, p.1, p.2)) ++ taggedCells cm ls := rfl
    rw [this, List.map_append, List.sum_append, ih, List.map_cons, List.sum_cons,
      List.map_map]
    rfl

theorem levelsDown_sum (f : Nat → Nat) (L : Nat) :
    ((OverlayGraph.levelsDown L).map f).sum = ((List.range L).map f).sum := by
  unfold OverlayGraph.levelsDown
  rw [List.map_reverse, List.sum_reverse]

/-- The weight blocks of the cells tile the weight vector. -/
theorem weight_blocks (li : LevelInfo) (L : Nat) (b : OverlayGraph.OverlayVertexBuild) :
    (∀ l k C l' k' C', 0 < l → l ≤ L → (k, C) ∈ (OverlayGraph.buildCells li L b).forCells l →
      0 < l' → l' ≤ L → (k', C') ∈ (OverlayGraph.buildCells li L b).forCells l' →
      (l ≠ l' ∨ k ≠ k') →
      C.cellOffset + C.numEntryPoints * C.numExitPoints ≤ C'.cellOffset ∨
      C'.cellOffset + C'.numEntryPoints * C'.numExitPoints ≤ C.cellOffset) ∧
    (∀ l k C, 0 < l → l ≤ L → (k, C) ∈ (OverlayGraph.buildCells li L b).forCells l →
      C.cellOffset + C.numEntryPoints * C.numExitPoints ≤
        (OverlayGraph.buildCells li L b).weightVectorSize) ∧
    (∀ w, w < (OverlayGraph.buildCells li L b).weightVectorSize →
      ∃ l k C, 0 < l ∧ l ≤ L ∧ (k, C) ∈ (OverlayGraph.buildCells li L b).forCells l ∧
        C.cellOffset ≤ w ∧ w < C.cellOffset + C.numEntryPoints * C.numExitPoints) ∧
    (OverlayGraph.buildCells li L b).weightVectorSize =
      ((List.range L).map fun l =>
        (((OverlayGraph.buildCells li L b).forCells (l + 1)).map fun p =>
          p.2.numEntryPoints * p.2.numExitPoints).sum).sum := by
  have h := buildCellsState_inv li L b
  have ht := h.tiledW
  have hmem : ∀ l k C, 0 < l → l ≤ L →
      (k, C) ∈ (OverlayGraph.buildCells li L b).forCells l →
      (l - 1, k, C) ∈ taggedCells (buildCellsState li L b).cellMapping
        (OverlayGraph.levelsDown L) := by
    intro l k C hl hL hC
    exact (mem_taggedCells _ _ _ _ _).2 ⟨(mem_levelsDown L (l - 1)).2 (by omega), hC⟩
  refine ⟨?_, ?_, ?_, ?_⟩
  · intro l k C l' k' C' hl hL hC hl' hL' hC' hne
    have hab : ((l - 1, k, C) : Nat × Nat × Cell) ≠ (l' - 1, k', C') := by
      intro e
      simp only [Prod.mk.injEq] at e
      rcases hne with h1 | h1
      · omega
      · exact h1 e.2.1
    exact tiled_disjoint _ _ _ _ _ ht _ _ (hmem l k C hl hL hC) (hmem l' k' C' hl' hL' hC') hab
  · intro l k C hl hL hC
    exact (tiled_bounds _ _ _ _ _ ht _ (hmem l k C hl hL hC)).2
  · intro w hw
    obtain ⟨a, ha, h1, h2⟩ := tiled_cover _ _ _ _ _ ht w (Nat.zero_le _) hw
    obtain ⟨l, k, C⟩ := a
    obtain ⟨hl, hC⟩ := (mem_taggedCells _ _ _ _ _).1 ha
    have hlL := (mem_levelsDown L l).1 hl
    exact ⟨l + 1, k, C, by omega, by omega, hC, h1, h2⟩
  · have hs := tiled_sum _ _ _ _ _ ht
    rw [taggedCells_sum _ (fun c => c.numEntryPoints * c.numExitPoints), levelsDown_sum,
      Nat.zero_add] at hs
    exact hs

end CRP

namespace CRP

/-! ## Label-correcting searches -/

theorem labLe_refl (lab : Nat → Option Nat) : LabLe lab lab :=
  fun _ d h => ⟨d, h, le_refl d⟩

theorem labLe_trans {a b c : Nat → Option Nat} (h1 : LabLe a b) (h2 : LabLe b c) : LabLe a c := by
  intro x d h
  obtain ⟨d', h3, h4⟩ := h1 x d h
  obtain ⟨d'', h5, h6⟩ := h2 x d' h3
  exact ⟨d'', h5, le_trans h6 h4⟩

/-- Lowering one label (or setting a missing one). -/
theorem labLe_update (lab : Nat → Option Nat) (y v : Nat)
    (h : ∀ d, lab y = some d → v ≤ d) :
    LabLe lab (fun x => if x = y then some v else lab x) := by
  intro x d hx
  by_cases hxy : x = y
  · subst hxy
    exact ⟨v, by simp, h d hx⟩
  · exact ⟨d, by simp [hxy, hx], le_refl d⟩

theorem edgeOk_mono {B : Nat} {lab lab' : Nat → Option Nat} {x y c : Nat}
    (h : EdgeOk B lab x y c) (hx : lab' x = lab x) (hle : LabLe lab lab') :
    EdgeOk B lab' x y c := by
  intro d hd hlt
  rw [hx] at hd
  obtain ⟨d', h1, h2⟩ := h d hd hlt
  obtain ⟨d'', h3, h4⟩ := hle y d' h1
  exact ⟨d'', h3, le_trans h4 h2⟩

theorem closedAt_mono {Edge : Nat → Nat → Nat → Prop} {B : Nat} {lab lab' : Nat → Option Nat}
    {x : Nat} (h : ClosedAt Edge B lab x) (hx : lab' x = lab x) (hle : LabLe lab lab') :
    ClosedAt Edge B lab' x :=
  fun y c he => edgeOk_mono (h y c he) hx hle

theorem closedAt_of_none {Edge : Nat → Nat → Nat → Prop} {B : Nat} {lab : Nat → Option Nat}
    {x : Nat} (h : lab x = none) : ClosedAt Edge B lab x := by
  intro y c _ d hd
  rw [h] at hd
  exact absurd hd (by simp)

/-- The arc is relaxed once the label of its head is at most the label of its tail plus the
cost. -/
theorem edgeOk_of_le {B : Nat} {lab : Nat → Option Nat} {x y c dx dy : Nat}
    (hx : lab x = some dx) (hy : lab y = some dy) (h : dy ≤ dx + c) : EdgeOk B lab x y c := by
  intro d hd _
  rw [hx] at hd
  simp only [Option.some.injEq] at hd
  subst hd
  exact ⟨dy, hy, h⟩

theorem edgeOk_of_ge {B : Nat} {lab : Nat → Option Nat} {x y c dx : Nat}
    (hx : lab x = some dx) (h : B ≤ dx + c) : EdgeOk B lab x y c := by
  intro d hd hlt
  rw [hx] at hd
  simp only [Option.some.injEq] at hd
  subst hd
  omega

theorem reach_trans {Edge : Nat → Nat → Nat → Prop} {s x y d e : Nat}
    (h1 : Reach Edge s x d) (h2 : Reach Edge x y e) : Reach Edge s y (d + e) := by
  induction h2 with
  | start => simpa using h1
  | step _ he ih =>
    rw [← Nat.add_assoc]
    exact Reach.step ih he

theorem reach_mono {Edge Edge' : Nat → Nat → Nat → Prop} {s x d : Nat}
    (h : ∀ a b c, Edge a b c → Edge' a b c) (h1 : Reach Edge s x d) : Reach Edge' s x d := by
  induction h1 with
  | start => exact Reach.start
  | step _ he ih => exact Reach.step ih (h _ _ _ he)

/-- Every walk of cost below the bound ends at a state with a label that is at most the
cost, or passes an open state with such a label. -/
theorem searchInv_reach {Edge : Nat → Nat → Nat → Prop} {s B : Nat} {lab : Nat → Option Nat}
    {Open : Nat → Prop} (inv : SearchInv Edge s B lab Open) {y d : Nat}
    (h : Reach Edge s y d) (hd : d < B) :
    (∃ d', lab y = some d' ∧ d' ≤ d) ∨ ∃ x dx, Open x ∧ lab x = some dx ∧ dx ≤ d := by
  induction h with
  | start => exact Or.inl ⟨0, inv.src, le_refl 0⟩
  | @step x y d c _ he ih =>
    rcases ih (by omega) with ⟨d', h1, h2⟩ | ⟨z, dz, h1, h2, h3⟩
    · by_cases ho : Open x
      · exact Or.inr ⟨x, d', ho, h1, by omega⟩
      · obtain ⟨d'', h3, h4⟩ := inv.closed x ho y c he d' h1 (by omega)
        exact Or.inl ⟨d'', h3, by omega⟩
    · exact Or.inr ⟨z, dz, h1, h2, by omega⟩

/-- When no state is open, the labels are the least costs below the bound. -/
theorem searchInv_final {Edge : Nat → Nat → Nat → Prop} {s B : Nat} {lab : Nat → Option Nat}
    {Open : Nat → Prop} (inv : SearchInv Edge s B lab Open) (hO : ∀ x, ¬ Open x) {y d : Nat}
    (h : Reach Edge s y d) (hd : d < B) : ∃ d', lab y = some d' ∧ d' ≤ d := by
  rcases searchInv_reach inv h hd with h1 | ⟨x, _, h1, _⟩
  · exact h1
  · exact absurd h1 (hO x)

/-- The invariant after the label of `y` has been lowered to `v`, the cost of a walk, and
`y` has been opened. -/
theorem searchInv_update {Edge : Nat → Nat → Nat → Prop} {s B : Nat} {lab : Nat → Option Nat}
    {Open Open' : Nat → Prop} (inv : SearchInv Edge s B lab Open) (y v : Nat)
    (hr : Reach Edge s y v) (hlt : ∀ d, lab y = some d → v < d)
    (hO : ∀ x, Open x → Open' x) (hy : Open' y) :
    SearchInv Edge s B (fun x => if x = y then some v else lab x) Open' := by
  have hle : LabLe lab (fun x => if x = y then some v else lab x) :=
    labLe_update lab y v (fun d hd => le_of_lt (hlt d hd))
  refine ⟨?_, ?_, ?_⟩
  · by_cases hs : s = y
    · have := hlt 0 (hs ▸ inv.src)
      omega
    · simp [hs, inv.src]
  · intro x d hx
    by_cases hxy : x = y
    · subst hxy
      simp at hx
      subst hx
      exact hr
    · simp [hxy] at hx
      exact inv.sound x d hx
  · intro x hx
    have hxy : x ≠ y := fun e => hx (e ▸ hy)
    exact closedAt_mono (inv.closed x (fun h => hx (hO x h))) (by simp [hxy]) hle

/-- The invariant when an open state whose arcs are all relaxed is closed. -/
theorem searchInv_close {Edge : Nat → Nat → Nat → Prop} {s B : Nat} {lab : Nat → Option Nat}
    {Open Open' : Nat → Prop} (inv : SearchInv Edge s B lab Open)
    (h : ∀ x, Open x → ¬ Open' x → ClosedAt Edge B lab x) :
    SearchInv Edge s B lab Open' := by
  refine ⟨inv.src, inv.sound, ?_⟩
  intro x hx
  by_cases ho : Open x
  · exact h x ho hx
  · exact inv.closed x ho

/-- The invariant of the parent pointers after the label of `y` has been lowered to
`du + c` along the arc from `u`. -/
theorem parInv_update {Edge : Nat → Nat → Nat → Prop} {s : Nat} {lab : Nat → Option Nat}
    {par : Nat → Nat} (inv : ParInv Edge s lab par) (y u du c : Nat)
    (hu : lab u = some du) (he : Edge u y c) (hlt : ∀ d, lab y = some d → du + c < d) :
    ParInv Edge s (fun x => if x = y then some (du + c) else lab x)
      (fun x => if x = y then u else par x) := by
  obtain ⟨rank, hr⟩ := inv
  have huy : u ≠ y := by
    intro e
    have := hlt du (e ▸ hu)
    omega
  refine ⟨fun x => if x = y then rank u + 1 else rank x, ?_⟩
  intro x d hx hxs
  by_cases hxy : x = y
  · subst hxy
    simp only [if_true] at hx ⊢
    simp only [Option.some.injEq] at hx
    subst hx
    refine ⟨du, c, by simp [huy, hu], he, le_refl _, Or.inr ?_⟩
    simp [huy]
  · simp only [hxy, if_false] at hx ⊢
    obtain ⟨dp, c', h1, h2, h3, h4⟩ := hr x d hx hxs
    by_cases hpy : par x = y
    · have hlt' := hlt dp (hpy ▸ h1)
      refine ⟨du + c, c', by simp [hpy], h2, by omega, Or.inl (by omega)⟩
    · exact ⟨dp, c', by simp [hpy, h1], h2, h3, by simpa [hpy] using h4⟩

/-- The chain of parent pointers from a labelled state leads to `s`. -/
theorem parInv_chain {Edge : Nat → Nat → Nat → Prop} {s : Nat} {lab : Nat → Option Nat}
    {par : Nat → Nat} (inv : ParInv Edge s lab par) (x d : Nat) (hx : lab x = some d) :
    ∃ n, par^[n] x = s ∧ ∀ i, i ≤ n → ∃ di, lab (par^[i] x) = some di := by
  obtain ⟨rank, hr⟩ := inv
  suffices H : ∀ d r x, lab x = some d → rank x = r →
      ∃ n, par^[n] x = s ∧ ∀ i, i ≤ n → ∃ di, lab (par^[i] x) = some di from H d _ x hx rfl
  intro d
  induction d using Nat.strong_induction_on with
  | _ d ihd =>
    intro r
    induction r using Nat.strong_induction_on with
    | _ r ihr =>
      intro x hx hrk
      by_cases hxs : x = s
      · exact ⟨0, by simpa using hxs, fun i hi => by
          have : i = 0 := by omega
          subst this
          exact ⟨d, by simpa using hx⟩⟩
      · obtain ⟨dp, c, h1, _, h3, h4⟩ := hr x d hx hxs
        have hrec : ∃ n, par^[n] (par x) = s ∧
            ∀ i, i ≤ n → ∃ di, lab (par^[i] (par x)) = some di := by
          by_cases h5 : dp < d
          · exact ihd dp h5 _ (par x) h1 rfl
          · have h6 : dp = d := by omega
            rcases h4 with h4 | h4
            · exact absurd h4 h5
            · exact ihr (rank (par x)) (hrk ▸ h4) (par x) (h6 ▸ h1) rfl
        obtain ⟨n, hn, hall⟩ := hrec
        refine ⟨n + 1, by simpa [Function.iterate_succ_apply] using hn, ?_⟩
        intro i hi
        cases i with
        | zero => exact ⟨d, by simpa using hx⟩
        | succ i =>
          rw [Function.iterate_succ_apply]
          exact hall i (by omega)

end CRP

namespace CRP

/-! ## The queue -/

namespace MinIDQueue

variable {α : Type} [IDKey α]

theorem peek_eq_none (q : List α) : peek q = none ↔ q = [] := by
  cases q with
  | nil => simp [peek]
  | cons a rest =>
    simp only [peek]
    cases peek rest with
    | none => simp
    | some b => by_cases h : IDKey.key b < IDKey.key a <;> simp [h]

theorem peek_spec (q : List α) (a : α) (h : peek q = some a) :
    a ∈ q ∧ ∀ b, b ∈ q → IDKey.key a ≤ IDKey.key b := by
  induction q generalizing a with
  | nil => simp [peek] at h
  | cons x rest ih =>
    simp only [peek] at h
    cases hp : peek rest with
    | none =>
      rw [hp] at h
      simp only [Option.some.injEq] at h
      subst h
      have : rest = [] := (peek_eq_none rest).1 hp
      subst this
      simp
    | some b =>
      rw [hp] at h
      obtain ⟨hb1, hb2⟩ := ih b hp
      by_cases hlt : IDKey.key b < IDKey.key x
      · simp only [hlt, if_true, Option.some.injEq] at h
        subst h
        refine ⟨List.mem_cons_of_mem _ hb1, ?_⟩
        intro c hc
        rcases List.mem_cons.1 hc with rfl | hc
        · omega
        · exact hb2 c hc
      · simp only [hlt, if_false, Option.some.injEq] at h
        subst h
        refine ⟨List.mem_cons_self _ _, ?_⟩
        intro c hc
        rcases List.mem_cons.1 hc with rfl | hc
        · exact le_refl _
        · have := hb2 c hc
          omega

theorem pop_eq_none (q : List α) : pop q = none ↔ q = [] := by
  unfold pop
  cases hp : peek q with
  | none => simpa using (peek_eq_none q).1 hp
  | some a =>
    constructor
    · intro h; simp at h
    · intro h
      rw [h] at hp
      simp [peek] at hp

theorem pop_spec (q : List α) (a : α) (q' : List α) (h : pop q = some (a, q')) :
    a ∈ q ∧ (∀ b, b ∈ q → IDKey.key a ≤ IDKey.key b) ∧
      q' = q.filter fun x => IDKey.id x != IDKey.id a := by
  unfold pop at h
  cases hp : peek q with
  | none => rw [hp] at h; simp at h
  | some b =>
    rw [hp] at h
    simp only [Option.some.injEq, Prod.mk.injEq] at h
    obtain ⟨h1, h2⟩ := h
    subst h1
    obtain ⟨h3, h4⟩ := peek_spec q b hp
    exact ⟨h3, h4, h2.symm⟩

theorem mem_pop (q : List α) (a : α) (q' : List α) (h : pop q = some (a, q')) (b : α) :
    b ∈ q' ↔ b ∈ q ∧ IDKey.id b ≠ IDKey.id a := by
  obtain ⟨_, _, h3⟩ := pop_spec q a q' h
  subst h3
  simp [List.mem_filter]

theorem pop_nodup (q : List α) (a : α) (q' : List α) (h : pop q = some (a, q'))
    (hn : (q.map IDKey.id).Nodup) : (q'.map IDKey.id).Nodup := by
  obtain ⟨_, _, h3⟩ := pop_spec q a q' h
  subst h3
  exact hn.sublist ((List.filter_sublist q).map _)

theorem pop_length (q : List α) (a : α) (q' : List α) (h : pop q = some (a, q')) :
    q'.length < q.length := by
  obtain ⟨h1, _, h3⟩ := pop_spec q a q' h
  subst h3
  apply List.length_filter_lt_length_iff_exists.2
  exact ⟨a, h1, by simp⟩

theorem contains_id_iff (q : List α) (i : Nat) :
    contains_id q i = true ↔ ∃ b, b ∈ q ∧ IDKey.id b = i := by
  simp [contains_id]

theorem keyOf_eq (q : List α) (hn : (q.map IDKey.id).Nodup) (b : α) (hb : b ∈ q) :
    keyOf q (IDKey.id b) = IDKey.key b := by
  induction q with
  | nil => simp at hb
  | cons x rest ih =>
    simp only [List.map_cons, List.nodup_cons] at hn
    unfold keyOf
    by_cases hx : IDKey.id x = IDKey.id b
    · simp only [List.find?_cons, hx, beq_self_eq_true]
      rcases List.mem_cons.1 hb with rfl | hb'
      · rfl
      · exact absurd (hx ▸ List.mem_map_of_mem _ hb') hn.1
    · have hb' : b ∈ rest := by
        rcases List.mem_cons.1 hb with rfl | hb'
        · exact absurd rfl hx
        · exact hb'
      have hx' : (IDKey.id x == IDKey.id b) = false := by simpa using hx
      simp only [List.find?_cons, hx']
      exact ih hn.2 hb'

theorem mem_decrease_key (q : List α) (p b : α) (hc : ∃ x, x ∈ q ∧ IDKey.id x = IDKey.id p) :
    b ∈ decrease_key q p ↔ b = p ∨ (b ∈ q ∧ IDKey.id b ≠ IDKey.id p) := by
  unfold decrease_key
  simp only [List.mem_map]
  constructor
  · rintro ⟨x, hx, rfl⟩
    by_cases h : IDKey.id x = IDKey.id p
    · simp [h]
    · simp only [h, if_false]
      exact Or.inr ⟨hx, h⟩
  · rintro (rfl | ⟨hb, hne⟩)
    · obtain ⟨x, hx, hxp⟩ := hc
      exact ⟨x, hx, by simp [hxp]⟩
    · exact ⟨b, hb, by simp [hne]⟩

theorem decrease_key_ids (q : List α) (p : α) :
    (decrease_key q p).map IDKey.id = q.map IDKey.id := by
  unfold decrease_key
  rw [List.map_map]
  apply List.map_congr_left
  intro x _
  by_cases h : IDKey.id x = IDKey.id p
  · simp [h]
  · simp [h]

/-- What `pushOrDecrease` does with an entry that improves on the queued key of its id. -/
theorem pushOrDecrease_spec (q : List α) (p : α) (hn : (q.map IDKey.id).Nodup)
    (himp : ∀ b, b ∈ q → IDKey.id b = IDKey.id p → IDKey.key p < IDKey.key b) :
    (∀ b, b ∈ pushOrDecrease q p ↔ b = p ∨ (b ∈ q ∧ IDKey.id b ≠ IDKey.id p)) ∧
    ((pushOrDecrease q p).map IDKey.id).Nodup ∧
    (pushOrDecrease q p).length ≤ q.length + 1 := by
  unfold pushOrDecrease
  by_cases hc : contains_id q (IDKey.id p) = true
  · obtain ⟨x, hx, hxp⟩ := (contains_id_iff q _).1 hc
    have hk : IDKey.key p < keyOf q (IDKey.id p) := by
      rw [← hxp, keyOf_eq q hn x hx]
      exact himp x hx hxp
    simp only [hc, if_true, hk]
    refine ⟨fun b => mem_decrease_key q p b ⟨x, hx, hxp⟩, ?_, ?_⟩
    · rw [decrease_key_ids]; exact hn
    · have : (decrease_key q p).length = q.length := by simp [decrease_key]
      omega
  · have hc' : ∀ b, b ∈ q → IDKey.id b ≠ IDKey.id p := by
      intro b hb e
      exact hc ((contains_id_iff q _).2 ⟨b, hb, e⟩)
    simp only [hc, if_false, Bool.false_eq_true]
    refine ⟨?_, ?_, ?_⟩
    · intro b
      have hmp : b ∈ push q p ↔ b ∈ q ∨ b = p := by simp [push]
      rw [hmp]
      constructor
      · rintro (h | h)
        · exact Or.inr ⟨h, hc' b h⟩
        · exact Or.inl h
      · rintro (h | h)
        · exact Or.inr h
        · exact Or.inl h.1
    · unfold push
      rw [List.map_append, List.nodup_append]
      refine ⟨hn, by simp, ?_⟩
      intro i hi hi'
      simp only [List.map_cons, List.map_nil, List.mem_singleton] at hi'
      obtain ⟨b, hb, hbi⟩ := List.mem_map.1 hi
      exact hc' b hb (hbi.trans hi')
    · simp [push]

end MinIDQueue

/-! ## Chains of parent pointers -/

/-- A chain of parent pointers that reaches `s` and stays below `N` reaches `s` in fewer than
`N` steps. -/
theorem chain_bound (par : Nat → Nat) (s x N n : Nat) (hn : par^[n] x = s)
    (hall : ∀ i, i ≤ n → par^[i] x < N) : ∃ n', n' < N ∧ par^[n'] x = s ∧
      ∀ i, i < n' → par^[i] x ≠ s := by
  classical
  have hex : ∃ n, par^[n] x = s := ⟨n, hn⟩
  let n' := Nat.find hex
  have hn' : par^[n'] x = s := Nat.find_spec hex
  have hmin : ∀ i, i < n' → par^[i] x ≠ s := fun i hi => Nat.find_min hex hi
  have hle : n' ≤ n := Nat.find_min' hex hn
  refine ⟨n', ?_, hn', hmin⟩
  have hne : ∀ i j, i < j → j ≤ n' → par^[i] x ≠ par^[j] x := by
    intro i j hlt hj hij
    have h1 : par^[n' - j + i] x = s := by
      rw [Function.iterate_add_apply, hij, ← Function.iterate_add_apply]
      have : n' - j + j = n' := by omega
      rw [this]; exact hn'
    exact hmin (n' - j + i) (by omega) h1
  have hinj : Set.InjOn (fun i => par^[i] x) (Finset.range (n' + 1) : Set Nat) := by
    intro i hi j hj hij
    simp only [Finset.coe_range, Set.mem_Iio] at hi hj
    have hij' : par^[i] x = par^[j] x := hij
    rcases Nat.lt_trichotomy i j with h | h | h
    · exact absurd hij' (hne i j h (by omega))
    · exact h
    · exact absurd hij'.symm (hne j i h (by omega))
  have hcard := Finset.card_le_card_of_injOn (fun i => par^[i] x)
    (s := Finset.range (n' + 1)) (t := Finset.range N)
    (fun i hi => by
      simp only [Finset.coe_range, Set.mem_Iio, Finset.mem_range] at hi ⊢
      exact hall i (by omega)) hinj
  simp only [Finset.card_range] at hcard
  omega

end CRP

namespace CRP

/-! ## Labels and the base graph -/

theorem u32_of_lt {a : Nat} (h : a < 4294967296) : u32 a = a := Nat.mod_eq_of_lt h

theorem labOf_set (dist round : List Nat) (cur y v x : Nat) (hd : y < dist.length)
    (hr : y < round.length) :
    labOf (dist.set y v) (round.set y cur) cur x =
      if x = y then some v else labOf dist round cur x := by
  unfold labOf
  by_cases h : x = y
  · subst h
    rw [getD_set_eq _ _ _ _ hd, getD_set_eq _ _ _ _ hr]
    simp
  · have h' : y ≠ x := fun e => h e.symm
    simp only [getD_set_ne _ _ _ _ _ h', h, if_false]

theorem labOf_lt {dist round : List Nat} {cur x d : Nat} (h : labOf dist round cur x = some d)
    (hc : 0 < cur) : x < round.length := by
  unfold labOf at h
  by_contra hx
  have : round.getD x 0 = 0 := by
    rw [List.getD_eq_default]
    omega
  rw [this] at h
  have : ¬ (0 = cur) := by omega
  simp [this] at h

theorem labOf_none_iff {dist round : List Nat} {cur x : Nat} (hr : round.getD x 0 ≤ cur) :
    labOf dist round cur x = none ↔ round.getD x 0 < cur := by
  unfold labOf
  by_cases h : round.getD x 0 = cur
  · rw [if_pos h]
    constructor
    · intro h'; exact absurd h' (by simp)
    · intro h'; omega
  · rw [if_neg h]
    constructor
    · intro _; omega
    · intro _; rfl

theorem labOf_some_iff {dist round : List Nat} {cur x d : Nat} :
    labOf dist round cur x = some d ↔ round.getD x 0 = cur ∧ dist.getD x 0 = d := by
  unfold labOf
  by_cases h : round.getD x 0 = cur
  · rw [if_pos h]
    constructor
    · intro h'; exact ⟨h, Option.some.inj h'⟩
    · intro h'; rw [h'.2]
  · rw [if_neg h]
    constructor
    · intro h'; exact absurd h' (by simp)
    · intro h'; exact absurd h'.1 h

namespace Graph

theorem firstIn_mono (g : Graph) (hg : g.Consistent) (a b : Nat) (hab : a ≤ b)
    (hb : b ≤ g.numberOfVertices) : (g.vertex a).firstIn ≤ (g.vertex b).firstIn := by
  induction b with
  | zero =>
    have : a = 0 := by omega
    subst this; exact le_refl _
  | succ b ih =>
    rcases Nat.eq_or_lt_of_le hab with h | h
    · subst h; exact le_refl _
    · exact le_trans (ih (by omega) (by omega)) (hg.monoIn b (by omega))

theorem firstOut_mono (g : Graph) (hg : g.Consistent) (a b : Nat) (hab : a ≤ b)
    (hb : b ≤ g.numberOfVertices) : (g.vertex a).firstOut ≤ (g.vertex b).firstOut := by
  induction b with
  | zero =>
    have : a = 0 := by omega
    subst this; exact le_refl _
  | succ b ih =>
    rcases Nat.eq_or_lt_of_le hab with h | h
    · subst h; exact le_refl _
    · exact le_trans (ih (by omega) (by omega)) (hg.monoOut b (by omega))

theorem isEntry_unique (g : Graph) (hg : g.Consistent) {u u' x : Nat} (h : g.isEntry u x)
    (h' : g.isEntry u' x) : u = u' := by
  obtain ⟨h1, h2, h3⟩ := h
  obtain ⟨h1', h2', h3'⟩ := h'
  rcases Nat.lt_trichotomy u u' with hlt | heq | hgt
  · have := g.firstIn_mono hg (u + 1) u' (by omega) (by omega)
    omega
  · exact heq
  · have := g.firstIn_mono hg (u' + 1) u (by omega) (by omega)
    omega

theorem isEntry_lt (g : Graph) (hg : g.Consistent) {u x : Nat} (h : g.isEntry u x) :
    x < g.numberOfEdges := by
  obtain ⟨h1, _, h3⟩ := h
  have := g.firstIn_mono hg (u + 1) g.numberOfVertices (by omega) (le_refl _)
  rw [hg.firstInLast] at this
  omega

theorem arc_isEntry (g : Graph) (hg : g.Consistent) {u k : Nat} (hu : u < g.numberOfVertices)
    (hk : k < g.getOutDegree u) : g.isEntry (g.arcHead u k) (g.arcId u k) := by
  obtain ⟨h1, h2, _⟩ := hg.forward u hu k hk
  unfold Graph.isEntry Graph.arcId Graph.arcHead Graph.getEntryOffset
  unfold Graph.getInDegree at h2
  refine ⟨h1, by omega, by omega⟩

/-- Every edge id below the number of edges is an edge out of a vertex. -/
theorem edge_owner (g : Graph) (hg : g.Consistent) (e : Nat) (he : e < g.numberOfEdges) :
    ∃ u k, u < g.numberOfVertices ∧ k < g.getOutDegree u ∧ e = (g.vertex u).firstOut + k := by
  have H : ∀ b, b ≤ g.numberOfVertices → e < (g.vertex b).firstOut →
      ∃ u k, u < g.numberOfVertices ∧ k < g.getOutDegree u ∧ e = (g.vertex u).firstOut + k := by
    intro b
    induction b with
    | zero =>
      intro _ h
      rw [hg.firstOutZero] at h
      omega
    | succ b ih =>
      intro hb h
      by_cases h1 : e < (g.vertex b).firstOut
      · exact ih (by omega) h1
      · refine ⟨b, e - (g.vertex b).firstOut, by omega, ?_, by omega⟩
        unfold Graph.getOutDegree
        omega
  exact H g.numberOfVertices (le_refl _) (by rw [hg.firstOutLast]; exact he)

/-- The entry point at which a forward edge arrives. -/
theorem source_isEntry (g : Graph) (hg : g.Consistent) (e : Nat) (he : e < g.numberOfEdges) :
    g.isEntry (g.getForwardEdge e).head
      (g.getEntryOffset (g.getForwardEdge e).head + (g.getForwardEdge e).entryPoint) := by
  obtain ⟨u, k, hu, hk, rfl⟩ := g.edge_owner hg e he
  exact g.arc_isEntry hg hu hk

theorem reach_isEntry (g : Graph) (hg : g.Consistent) (cf : CostFunction) (s t sId x d : Nat)
    (hs : ∃ u, g.isEntry u sId) (h : Reach (g.QEdge cf s t) sId x d) : ∃ u, g.isEntry u x := by
  cases h with
  | start => exact hs
  | step _ he =>
    obtain ⟨u, k, hu, hk, rfl, _⟩ := he
    exact ⟨_, g.arc_isEntry hg hu.1 hk⟩

/-- A walk is a walk in the graph of the entry points. -/
theorem walk_reach (g : Graph) (hg : g.Consistent) (cf : CostFunction) (s t sId : Nat)
    (ks : List Nat) : ∀ (u x d v y e : Nat), g.isEntry u x → Reach (g.QEdge cf s t) sId x d →
      g.walk cf s t u x d ks = some (v, y, e) →
      g.isEntry v y ∧ Reach (g.QEdge cf s t) sId y e := by
  induction ks with
  | nil =>
    intro u x d v y e hu hr hw
    simp only [Graph.walk, Option.some.injEq, Prod.mk.injEq] at hw
    obtain ⟨rfl, rfl, rfl⟩ := hw
    exact ⟨hu, hr⟩
  | cons k ks ih =>
    intro u x d v y e hu hr hw
    simp only [Graph.walk] at hw
    by_cases hk : k < g.getOutDegree u
    · simp only [hk, if_true] at hw
      exact ih _ _ _ v y e (g.arc_isEntry hg hu.1 hk)
        (Reach.step hr ⟨u, k, hu, hk, rfl, rfl⟩) hw
    · simp [hk] at hw

theorem walk_append (g : Graph) (cf : CostFunction) (s t : Nat) (ks : List Nat) :
    ∀ (u x d v y e k : Nat), g.walk cf s t u x d ks = some (v, y, e) → k < g.getOutDegree v →
      g.walk cf s t u x d (ks ++ [k]) =
        some (g.arcHead v k, g.arcId v k, e + g.arcCost cf s t v y k) := by
  induction ks with
  | nil =>
    intro u x d v y e k hw hk
    simp only [Graph.walk, Option.some.injEq, Prod.mk.injEq] at hw
    obtain ⟨rfl, rfl, rfl⟩ := hw
    simp [Graph.walk, hk]
  | cons k' ks ih =>
    intro u x d v y e k hw hk
    simp only [Graph.walk] at hw
    by_cases hk' : k' < g.getOutDegree u
    · simp only [hk', if_true] at hw
      simp only [List.cons_append, Graph.walk, hk', if_true]
      exact ih _ _ _ v y e k hw hk
    · simp [hk'] at hw

/-- A walk in the graph of the entry points is a walk. -/
theorem reach_walk (g : Graph) (hg : g.Consistent) (cf : CostFunction) (s t u0 sId x d : Nat)
    (hs : g.isEntry u0 sId) (h : Reach (g.QEdge cf s t) sId x d) :
    ∃ ks v, g.isEntry v x ∧ g.walk cf s t u0 sId 0 ks = some (v, x, d) := by
  induction h with
  | start => exact ⟨[], u0, hs, rfl⟩
  | step _ he ih =>
    obtain ⟨ks, v, hv, hw⟩ := ih
    obtain ⟨u, k, hu, hk, rfl, rfl⟩ := he
    have huv : u = v := g.isEntry_unique hg hu hv
    subst huv
    exact ⟨ks ++ [k], _, g.arc_isEntry hg hu.1 hk, g.walk_append cf s t ks _ _ _ _ _ _ k hw hk⟩

end Graph

end CRP

namespace CRP

namespace Dijkstra

/-- The sum of a turn cost and an edge weight after a label does not overflow. -/
theorem newDist_eq (cf : CostFunction) (hb : cf.Bounded) (k0 : Nat) (hk0 : k0 < inf_weight)
    (tc : Nat) (htc : tc ≤ inf_weight) (a : EdgeAttributes) :
    u32 (u32 (k0 + tc) + cf.getWeight a) = k0 + (tc + cf.getWeight a) := by
  have hw := hb.weight a
  unfold inf_weight at hk0 htc hw
  have h1 : u32 (k0 + tc) = k0 + tc := u32_of_lt (by omega)
  rw [h1, u32_of_lt (by omega)]
  omega

theorem relax_eq (graph : Graph) (metric : Metric) (s t u uId k0 k : Nat)
    (hb : metric.costFunction.Bounded) (st : Search) (hd : st.self.dist.getD uId 0 = k0)
    (hk0 : k0 < inf_weight) :
    relax graph metric s t u uId st (graph.getForwardEdge ((graph.vertex u).firstOut + k), k,
        graph.turnTables.getD ((graph.vertex u).turnTablePtr +
          graph.getEntryOrder u uId * graph.getOutDegree u + k) default) =
      if inf_weight ≤ k0 + graph.arcCost metric.costFunction s t u uId k then st
      else if st.self.round.getD (graph.arcId u k) 0 < st.self.currentRound ∨
          k0 + graph.arcCost metric.costFunction s t u uId k <
            st.self.dist.getD (graph.arcId u k) 0 then
        { st with
          self :=
            { st.self with
              dist := st.self.dist.set (graph.arcId u k)
                (k0 + graph.arcCost metric.costFunction s t u uId k)
              graphPQ := MinIDQueue.pushOrDecrease st.self.graphPQ
                ⟨graph.arcId u k, graph.arcHead u k,
                  k0 + graph.arcCost metric.costFunction s t u uId k⟩
              round := st.self.round.set (graph.arcId u k) st.self.currentRound
              parent := st.self.parent.set (graph.arcId u k) ⟨u, uId⟩ } }
      else st := by
  have htc : (if u = s ∨ u = t then 0 else metric.costFunction.getTurnCosts
      (graph.getTurnType u (graph.getEntryOrder u uId) k)) ≤ inf_weight := by
    split_ifs
    · exact Nat.zero_le _
    · exact hb.turn _
  have hnew := newDist_eq metric.costFunction hb k0 hk0 _ htc
    (graph.getForwardEdge ((graph.vertex u).firstOut + k)).attributes
  unfold relax
  simp only [Metric.getWeight, Metric.getTurnCosts, hd]
  unfold Graph.arcCost Graph.arcId Graph.arcHead
  unfold Graph.getTurnType at hnew
  rw [hnew]
  rfl

theorem inQ_pushOrDecrease (q : List IDKeyTriple) (p : IDKeyTriple)
    (hn : (q.map IDKeyTriple.id).Nodup)
    (himp : ∀ b, b ∈ q → b.id = p.id → p.key < b.key) :
    (∀ b, b ∈ MinIDQueue.pushOrDecrease q p ↔ b = p ∨ (b ∈ q ∧ b.id ≠ p.id)) ∧
    ((MinIDQueue.pushOrDecrease q p).map IDKeyTriple.id).Nodup ∧
    (MinIDQueue.pushOrDecrease q p).length ≤ q.length + 1 :=
  MinIDQueue.pushOrDecrease_spec q p hn himp

/-- The relaxation of the edge at the exit point `k` of `u` keeps the invariant of the loop
and lowers the measure when it changes a label. -/
theorem relax_inv (graph : Graph) (metric : Metric) (s sId t u uId k0 : Nat)
    (hg : graph.Consistent) (hb : metric.costFunction.Bounded) (st : Search)
    (hinv : Inv graph metric.costFunction s sId t (fun x => x = uId) st)
    (hu : graph.isEntry u uId)
    (hk0 : labOf st.self.dist st.self.round st.self.currentRound uId = some k0)
    (hnq : ¬ inQ st.self uId) (k : Nat) (hk : k < graph.getOutDegree u) (st' : Search)
    (hst' : st' = relax graph metric s t u uId st
      (graph.getForwardEdge ((graph.vertex u).firstOut + k), k,
        graph.turnTables.getD ((graph.vertex u).turnTablePtr +
          graph.getEntryOrder u uId * graph.getOutDegree u + k) default)) :
    Inv graph metric.costFunction s sId t (fun x => x = uId) st' ∧
    labOf st'.self.dist st'.self.round st'.self.currentRound uId = some k0 ∧
    ¬ inQ st'.self uId ∧
    LabLe (labOf st.self.dist st.self.round st.self.currentRound)
      (labOf st'.self.dist st'.self.round st'.self.currentRound) ∧
    EdgeOk inf_weight (labOf st'.self.dist st'.self.round st'.self.currentRound) uId
      (graph.arcId u k) (graph.arcCost metric.costFunction s t u uId k) ∧
    potential graph st'.self ≤ potential graph st.self ∧
    st'.shortestPath = st.shortestPath ∧ st'.tId = st.tId := by
  obtain ⟨hr0, hd0⟩ := labOf_some_iff.1 hk0
  have hk0lt := hinv.labLt uId k0 hk0
  rw [relax_eq graph metric s t u uId k0 k hb st hd0 hk0lt] at hst'
  by_cases hA : inf_weight ≤ k0 + graph.arcCost metric.costFunction s t u uId k
  · rw [if_pos hA] at hst'
    rw [hst']
    exact ⟨hinv, hk0, hnq, labLe_refl _, edgeOk_of_ge hk0 hA, le_refl _, rfl, rfl⟩
  rw [if_neg hA] at hst'
  by_cases hB : st.self.round.getD (graph.arcId u k) 0 < st.self.currentRound ∨
      k0 + graph.arcCost metric.costFunction s t u uId k <
        st.self.dist.getD (graph.arcId u k) 0
  swap
  · rw [if_neg hB] at hst'
    rw [hst']
    have hry := hinv.valid.rounds (graph.arcId u k)
    have hy : labOf st.self.dist st.self.round st.self.currentRound (graph.arcId u k) =
        some (st.self.dist.getD (graph.arcId u k) 0) :=
      labOf_some_iff.2 ⟨by omega, rfl⟩
    exact ⟨hinv, hk0, hnq, labLe_refl _, edgeOk_of_le hk0 hy (by omega), le_refl _, rfl, rfl⟩
  rw [if_pos hB] at hst'
  have hy := graph.arc_isEntry hg hu.1 hk
  have hym := graph.isEntry_lt hg hy
  have hyd : graph.arcId u k < st.self.dist.length := by rw [hinv.valid.lenDist]; exact hym
  have hyr : graph.arcId u k < st.self.round.length := by rw [hinv.valid.lenRound]; exact hym
  have hyp : graph.arcId u k < st.self.parent.length := by rw [hinv.valid.lenParent]; exact hym
  have hlt : ∀ d, labOf st.self.dist st.self.round st.self.currentRound (graph.arcId u k) = some d →
      k0 + graph.arcCost metric.costFunction s t u uId k < d := by
    intro d hd
    obtain ⟨h1, h2⟩ := labOf_some_iff.1 hd
    rcases hB with h | h
    · omega
    · omega
  have huy : uId ≠ graph.arcId u k := by
    intro e
    have := hlt k0 (e ▸ hk0)
    omega
  have hlab : labOf st'.self.dist st'.self.round st'.self.currentRound =
      fun x => if x = graph.arcId u k then
        some (k0 + graph.arcCost metric.costFunction s t u uId k)
      else labOf st.self.dist st.self.round st.self.currentRound x := by
    subst hst'
    funext x
    exact labOf_set _ _ _ _ _ _ hyd hyr
  have hq := inQ_pushOrDecrease st.self.graphPQ
    ⟨graph.arcId u k, graph.arcHead u k, k0 + graph.arcCost metric.costFunction s t u uId k⟩
    hinv.nodup (by
      intro b hb hbid
      have h1 := (hinv.queue b hb).1
      have hbid' : b.id = graph.arcId u k := hbid
      rw [hbid'] at h1
      exact hlt b.key h1)
  have hqeq : st'.self.graphPQ = MinIDQueue.pushOrDecrease st.self.graphPQ
      ⟨graph.arcId u k, graph.arcHead u k,
        k0 + graph.arcCost metric.costFunction s t u uId k⟩ := by
    subst hst'; rfl
  have hinQ : ∀ x, inQ st'.self x ↔ x = graph.arcId u k ∨ inQ st.self x := by
    intro x
    unfold inQ
    rw [hqeq]
    constructor
    · rintro ⟨p, hp, rfl⟩
      rcases (hq.1 p).1 hp with h | h
      · left; rw [h]
      · right; exact ⟨p, h.1, rfl⟩
    · rintro (h | ⟨p, hp, rfl⟩)
      · exact ⟨_, (hq.1 _).2 (Or.inl rfl), h.symm⟩
      · by_cases hpy : p.id = graph.arcId u k
        · exact ⟨_, (hq.1 _).2 (Or.inl rfl), hpy.symm⟩
        · exact ⟨p, (hq.1 p).2 (Or.inr ⟨hp, hpy⟩), rfl⟩
  have hle : LabLe (labOf st.self.dist st.self.round st.self.currentRound)
      (labOf st'.self.dist st'.self.round st'.self.currentRound) := by
    rw [hlab]
    exact labLe_update _ _ _ (fun d hd => le_of_lt (hlt d hd))
  have hedge : graph.QEdge metric.costFunction s t uId (graph.arcId u k)
      (graph.arcCost metric.costFunction s t u uId k) := ⟨u, k, hu, hk, rfl, rfl⟩
  have hk0' : labOf st'.self.dist st'.self.round st'.self.currentRound uId = some k0 := by
    rw [hlab]; simp only [huy, if_false]; exact hk0
  have hy' : labOf st'.self.dist st'.self.round st'.self.currentRound (graph.arcId u k) =
      some (k0 + graph.arcCost metric.costFunction s t u uId k) := by
    rw [hlab]; simp
  have hcur : st'.self.currentRound = st.self.currentRound := by subst hst'; rfl
  have hsp : st'.shortestPath = st.shortestPath := by subst hst'; rfl
  have htid : st'.tId = st.tId := by subst hst'; rfl
  have hnq' : ¬ inQ st'.self uId := by
    rw [hinQ]
    rintro (h | h)
    · exact huy h
    · exact hnq h
  refine ⟨?_, hk0', hnq', hle, edgeOk_of_le hk0' hy' (le_refl _), ?_, hsp, htid⟩
  · refine ⟨?_, ?_, ?_, ?_, ?_, ?_, ?_, ?_, ?_⟩
    · rw [hcur]; exact hinv.curPos
    · subst hst'
      refine ⟨?_, ?_, ?_, ?_⟩
      · simp only [List.length_set]; exact hinv.valid.lenDist
      · simp only [List.length_set]; exact hinv.valid.lenRound
      · simp only [List.length_set]; exact hinv.valid.lenParent
      · intro i
        show (st.self.round.set (graph.arcId u k) st.self.currentRound).getD i 0 ≤
          st.self.currentRound
        rw [getD_set_self_or]
        split_ifs
        · exact le_refl _
        · exact hinv.valid.rounds i
    · rw [hlab]
      exact searchInv_update hinv.search _ _ (Reach.step (hinv.search.sound uId k0 hk0) hedge)
        hlt (by
          intro x hx
          rcases hx with hx | hx
          · exact Or.inl ((hinQ x).2 (Or.inr hx))
          · exact Or.inr hx) (Or.inl ((hinQ _).2 (Or.inl rfl)))
    · intro x d hx
      rw [hlab] at hx
      by_cases hxy : x = graph.arcId u k
      · simp only [hxy, if_true, Option.some.injEq] at hx
        omega
      · simp only [hxy, if_false] at hx
        exact hinv.labLt x d hx
    · rw [hqeq]; exact hq.2.1
    · intro p hp
      rw [hqeq] at hp
      rcases (hq.1 p).1 hp with h | h
      · subst h
        exact ⟨hy', hy⟩
      · have hpy : p.id ≠ graph.arcId u k := h.2
        rw [hlab]
        simp only [hpy, if_false]
        exact hinv.queue p h.1
    · intro x d hx hxq hxt
      rw [hsp]
      have hxy : x ≠ graph.arcId u k := fun e => hxq ((hinQ x).2 (Or.inl e))
      rw [hlab] at hx
      simp only [hxy, if_false] at hx
      exact hinv.settled x d hx (fun h => hxq ((hinQ x).2 (Or.inr h))) hxt
    · rw [hsp, htid]
      rcases hinv.best with h | ⟨h1, h2, h3, d, h4⟩
      · exact Or.inl h
      · obtain ⟨d', h5, _⟩ := hle _ _ h4
        exact Or.inr ⟨h1, h2, h3, d', h5⟩
    · have hpar : (fun x => (st'.self.parent.getD x default).id) =
          fun x => if x = graph.arcId u k then uId
            else (st.self.parent.getD x default).id := by
        subst hst'
        funext x
        show ((st.self.parent.set (graph.arcId u k) ⟨u, uId⟩).getD x default).id = _
        rw [getD_set_self_or]
        by_cases hxy : x = graph.arcId u k
        · subst hxy; simp [hyp]
        · have : ¬ (graph.arcId u k = x ∧ graph.arcId u k < st.self.parent.length) :=
            fun h => hxy h.1.symm
          simp only [this, if_false, hxy]
      rw [hlab, hpar]
      exact parInv_update hinv.par _ uId k0 _ hk0 hedge hlt
  · unfold potential
    rw [hqeq, hlab]
    have hsum : (Finset.range graph.numberOfEdges).sum (fun x =>
        ((fun x => if x = graph.arcId u k then
            some (k0 + graph.arcCost metric.costFunction s t u uId k)
          else labOf st.self.dist st.self.round st.self.currentRound x) x).getD inf_weight) <
        (Finset.range graph.numberOfEdges).sum (fun x =>
          (labOf st.self.dist st.self.round st.self.currentRound x).getD inf_weight) := by
      apply Finset.sum_lt_sum
      · intro x _
        by_cases hxy : x = graph.arcId u k
        · subst hxy
          simp only [if_true, Option.getD_some]
          cases hl : labOf st.self.dist st.self.round st.self.currentRound (graph.arcId u k) with
          | none => simp only [Option.getD_none]; omega
          | some d => simp only [Option.getD_some]; exact le_of_lt (hlt d hl)
        · simp only [hxy, if_false]; exact le_refl _
      · refine ⟨graph.arcId u k, Finset.mem_range.2 hym, ?_⟩
        simp only [if_true, Option.getD_some]
        cases hl : labOf st.self.dist st.self.round st.self.currentRound (graph.arcId u k) with
        | none => simp only [Option.getD_none]; omega
        | some d => simp only [Option.getD_some]; exact hlt d hl
    have := hq.2.2
    omega

end Dijkstra

end CRP

namespace CRP

namespace Dijkstra

/-- The relaxation of the edges at the exit points below `n` of `u`. -/
theorem relaxRange_inv (graph : Graph) (metric : Metric) (s sId t u uId k0 : Nat)
    (hg : graph.Consistent) (hb : metric.costFunction.Bounded) (st : Search)
    (hinv : Inv graph metric.costFunction s sId t (fun x => x = uId) st)
    (hu : graph.isEntry u uId)
    (hk0 : labOf st.self.dist st.self.round st.self.currentRound uId = some k0)
    (hnq : ¬ inQ st.self uId) (n : Nat) (hn : n ≤ graph.getOutDegree u) (st' : Search)
    (hst' : st' = (List.range n).foldl (fun acc exitPoint =>
      relax graph metric s t u uId acc
        (graph.getForwardEdge ((graph.vertex u).firstOut + exitPoint), exitPoint,
          graph.turnTables.getD ((graph.vertex u).turnTablePtr +
            graph.getEntryOrder u uId * graph.getOutDegree u + exitPoint) default)) st) :
    Inv graph metric.costFunction s sId t (fun x => x = uId) st' ∧
    labOf st'.self.dist st'.self.round st'.self.currentRound uId = some k0 ∧
    ¬ inQ st'.self uId ∧
    (∀ k, k < n → EdgeOk inf_weight (labOf st'.self.dist st'.self.round st'.self.currentRound)
      uId (graph.arcId u k) (graph.arcCost metric.costFunction s t u uId k)) ∧
    potential graph st'.self ≤ potential graph st.self ∧
    st'.shortestPath = st.shortestPath ∧ st'.tId = st.tId := by
  induction n generalizing st' with
  | zero =>
    simp only [List.range_zero, List.foldl_nil] at hst'
    rw [hst']
    exact ⟨hinv, hk0, hnq, fun k hk => absurd hk (Nat.not_lt_zero k), le_refl _, rfl, rfl⟩
  | succ n ih =>
    rw [List.range_succ, List.foldl_append] at hst'
    simp only [List.foldl_cons, List.foldl_nil] at hst'
    obtain ⟨h1, h2, h3, h4, h5, h6, h7⟩ := ih (by omega) _ rfl
    obtain ⟨g1, g2, g3, g4, g5, g6, g7, g8⟩ :=
      relax_inv graph metric s sId t u uId k0 hg hb _ h1 hu h2 h3 n (by omega) st' hst'
    refine ⟨g1, g2, g3, ?_, le_trans g6 h5, g7.trans h6, g8.trans h7⟩
    intro k hk
    by_cases hkn : k = n
    · subst hkn; exact g5
    · exact edgeOk_mono (h4 k (by omega)) (g2.trans h2.symm) g4

/-- The relaxation of all edges out of `u` closes the entry point `uId`. -/
theorem relaxAll_inv (graph : Graph) (metric : Metric) (s sId t u uId k0 : Nat)
    (hg : graph.Consistent) (hb : metric.costFunction.Bounded) (st : Search)
    (hinv : Inv graph metric.costFunction s sId t (fun x => x = uId) st)
    (hu : graph.isEntry u uId)
    (hk0 : labOf st.self.dist st.self.round st.self.currentRound uId = some k0)
    (hnq : ¬ inQ st.self uId) (st' : Search)
    (hst' : st' = (graph.forOutEdgesOf u (graph.getEntryOrder u uId)).foldl
      (relax graph metric s t u uId) st) :
    Inv graph metric.costFunction s sId t (fun _ => False) st' ∧
    potential graph st'.self ≤ potential graph st.self := by
  unfold Graph.forOutEdgesOf at hst'
  rw [List.foldl_map] at hst'
  obtain ⟨h1, h2, h3, h4, h5, h6, h7⟩ := relaxRange_inv graph metric s sId t u uId k0 hg hb st
    hinv hu hk0 hnq (graph.getOutDegree u) (le_refl _) st' hst'
  refine ⟨⟨h1.curPos, h1.valid, ?_, h1.labLt, h1.nodup, h1.queue, h1.settled, h1.best, h1.par⟩,
    h5⟩
  apply searchInv_close h1.search
  intro x hx hx'
  have hxu : x = uId := by
    rcases hx with hx | hx
    · exact absurd (Or.inl hx) hx'
    · exact hx
  subst hxu
  intro y c he
  obtain ⟨u', k, hu', hk, rfl, rfl⟩ := he
  have : u' = u := graph.isEntry_unique hg hu' hu
  subst this
  exact h4 k hk

theorem loop_succ (graph : Graph) (metric : Metric) (s t fuel : Nat) (st : Search) :
    loop graph metric s t (fuel + 1) st =
      match MinIDQueue.pop st.self.graphPQ with
      | none => some st
      | some (triple, q) =>
        if ({ st with self := { st.self with graphPQ := q } } : Search).self.round.getD
              triple.id 0 = st.self.currentRound ∧
            st.self.dist.getD triple.id 0 > st.shortestPath then
          some { st with self := { st.self with graphPQ := q } }
        else
          loop graph metric s t fuel
            ((graph.forOutEdgesOf triple.vertexId
                (graph.getEntryOrder triple.vertexId triple.id)).foldl
              (relax graph metric s t triple.vertexId triple.id)
              (if triple.vertexId = t then
                if st.self.dist.getD triple.id 0 < st.shortestPath then
                  { self := { st.self with graphPQ := q },
                    shortestPath := st.self.dist.getD triple.id 0, tId := triple.id }
                else { st with self := { st.self with graphPQ := q } }
              else { st with self := { st.self with graphPQ := q } })) := by
  rfl

/-- The loop of `edgeQuery` ends within the fuel that the measure allows, with the least
cost of a walk to an entry point of `t` in `shortestPath`. -/
theorem loop_spec (graph : Graph) (metric : Metric) (s sId t : Nat) (hg : graph.Consistent)
    (hb : metric.costFunction.Bounded) :
    ∀ (fuel : Nat) (st : Search), Inv graph metric.costFunction s sId t (fun _ => False) st →
      potential graph st.self < fuel →
      ∃ st', loop graph metric s t fuel st = some st' ∧
        Valid graph st'.self ∧ 0 < st'.self.currentRound ∧
        (st'.shortestPath = 2 * inf_weight ∨
          (st'.shortestPath < inf_weight ∧
            Reach (graph.QEdge metric.costFunction s t) sId st'.tId st'.shortestPath ∧
            graph.isEntry t st'.tId ∧
            ∃ d, labOf st'.self.dist st'.self.round st'.self.currentRound st'.tId = some d)) ∧
        (∀ y d, Reach (graph.QEdge metric.costFunction s t) sId y d → graph.isEntry t y →
          d < inf_weight → st'.shortestPath ≤ d) ∧
        ParInv (graph.QEdge metric.costFunction s t) sId
          (labOf st'.self.dist st'.self.round st'.self.currentRound)
          (fun x => (st'.self.parent.getD x default).id) := by
  intro fuel
  induction fuel with
  | zero => intro st _ h; exact absurd h (Nat.not_lt_zero _)
  | succ fuel ih =>
    intro st hinv hpot
    rw [loop_succ]
    cases hpop : MinIDQueue.pop st.self.graphPQ with
    | none =>
      have hq : st.self.graphPQ = [] := (MinIDQueue.pop_eq_none _).1 hpop
      refine ⟨st, rfl, hinv.valid, hinv.curPos, hinv.best, ?_, hinv.par⟩
      intro y d hr hy hd
      have hO : ∀ x, ¬ (inQ st.self x ∨ False) := by
        rintro x (⟨p, hp, _⟩ | h)
        · rw [hq] at hp; simp at hp
        · exact h
      obtain ⟨d', h1, h2⟩ := searchInv_final hinv.search hO hr hd
      have := hinv.settled y d' h1 (fun h => hO y (Or.inl h)) hy
      omega
    | some r =>
      obtain ⟨triple, q⟩ := r
      obtain ⟨hmem, hmin, hqeq⟩ := MinIDQueue.pop_spec _ _ _ hpop
      have hmemq : ∀ b, b ∈ q ↔ b ∈ st.self.graphPQ ∧ b.id ≠ triple.id :=
        MinIDQueue.mem_pop _ _ _ hpop
      obtain ⟨hlab, hent⟩ := hinv.queue triple hmem
      obtain ⟨hr0, hd0⟩ := labOf_some_iff.1 hlab
      have hklt := hinv.labLt _ _ hlab
      simp only []
      by_cases hbreak : st.self.round.getD triple.id 0 = st.self.currentRound ∧
          st.self.dist.getD triple.id 0 > st.shortestPath
      · rw [if_pos hbreak]
        refine ⟨_, rfl, ⟨hinv.valid.lenDist, hinv.valid.lenRound, hinv.valid.lenParent,
          hinv.valid.rounds⟩, hinv.curPos, hinv.best, ?_, hinv.par⟩
        intro y d hr hy hd
        show st.shortestPath ≤ d
        have hkey : ∀ p, p ∈ st.self.graphPQ → st.shortestPath < p.key := by
          intro p hp
          have := hmin p hp
          have h2 : triple.key ≤ p.key := this
          omega
        rcases searchInv_reach hinv.search hr hd with ⟨d', h1, h2⟩ | ⟨x, dx, h1, h2, h3⟩
        · by_cases hyq : inQ st.self y
          · obtain ⟨p, hp, hpy⟩ := hyq
            have h3 := (hinv.queue p hp).1
            rw [hpy, h1] at h3
            have := hkey p hp
            simp only [Option.some.injEq] at h3
            omega
          · have := hinv.settled y d' h1 hyq hy
            omega
        · rcases h1 with ⟨p, hp, hpx⟩ | h1
          · have h4 := (hinv.queue p hp).1
            rw [hpx, h2] at h4
            have := hkey p hp
            simp only [Option.some.injEq] at h4
            omega
          · exact absurd h1 id
      · rw [if_neg hbreak]
        -- the state after the pop and the update of `shortestPath`
        have hinQ1 : ∀ (st1 : Search), st1.self.graphPQ = q → ∀ x,
            inQ st1.self x ↔ (inQ st.self x ∧ x ≠ triple.id) := by
          intro st1 h1 x
          unfold inQ
          rw [h1]
          constructor
          · rintro ⟨p, hp, rfl⟩
            exact ⟨⟨p, ((hmemq p).1 hp).1, rfl⟩, ((hmemq p).1 hp).2⟩
          · rintro ⟨⟨p, hp, rfl⟩, hne⟩
            exact ⟨p, (hmemq p).2 ⟨hp, hne⟩, rfl⟩
        have hstep : ∀ (st1 : Search), st1.self.dist = st.self.dist →
            st1.self.round = st.self.round → st1.self.parent = st.self.parent →
            st1.self.currentRound = st.self.currentRound → st1.self.graphPQ = q →
            st1.shortestPath ≤ st.shortestPath →
            (graph.isEntry t triple.id → st1.shortestPath ≤ triple.key) →
            (st1.shortestPath = 2 * inf_weight ∨
              (st1.shortestPath < inf_weight ∧
                Reach (graph.QEdge metric.costFunction s t) sId st1.tId st1.shortestPath ∧
                graph.isEntry t st1.tId ∧
                ∃ d, labOf st.self.dist st.self.round st.self.currentRound st1.tId = some d)) →
            Inv graph metric.costFunction s sId t (fun x => x = triple.id) st1 ∧
              labOf st1.self.dist st1.self.round st1.self.currentRound triple.id =
                some triple.key ∧
              ¬ inQ st1.self triple.id ∧ potential graph st1.self < potential graph st.self := by
          intro st1 e1 e2 e3 e4 e5 hsp hspt hbest
          have hiq := hinQ1 st1 e5
          refine ⟨⟨?_, ?_, ?_, ?_, ?_, ?_, ?_, ?_, ?_⟩, ?_, ?_, ?_⟩
          · rw [e4]; exact hinv.curPos
          · exact ⟨by rw [e1]; exact hinv.valid.lenDist, by rw [e2]; exact hinv.valid.lenRound,
              by rw [e3]; exact hinv.valid.lenParent, by rw [e2, e4]; exact hinv.valid.rounds⟩
          · rw [e1, e2, e4]
            apply searchInv_close hinv.search
            intro x hx hx'
            exfalso
            rcases hx with hx | hx
            · by_cases hxt : x = triple.id
              · exact hx' (Or.inr hxt)
              · exact hx' (Or.inl ((hiq x).2 ⟨hx, hxt⟩))
            · exact hx
          · rw [e1, e2, e4]; exact hinv.labLt
          · rw [e5]; exact MinIDQueue.pop_nodup _ _ _ hpop hinv.nodup
          · intro p hp
            rw [e5] at hp
            rw [e1, e2, e4]
            exact hinv.queue p ((hmemq p).1 hp).1
          · intro x d hx hxq hxt
            rw [e1, e2, e4] at hx
            by_cases hxid : x = triple.id
            · subst hxid
              rw [hlab] at hx
              simp only [Option.some.injEq] at hx
              have := hspt hxt
              omega
            · have := hinv.settled x d hx (fun h => hxq ((hiq x).2 ⟨h, hxid⟩)) hxt
              omega
          · rw [e1, e2, e4]; exact hbest
          · rw [e1, e2, e3, e4]; exact hinv.par
          · rw [e1, e2, e4]; exact hlab
          · rw [hiq]; exact fun h => h.2 rfl
          · unfold potential
            rw [e1, e2, e4, e5]
            have := MinIDQueue.pop_length _ _ _ hpop
            omega
        have hfin : ∀ (st1 : Search),
            Inv graph metric.costFunction s sId t (fun x => x = triple.id) st1 ∧
              labOf st1.self.dist st1.self.round st1.self.currentRound triple.id =
                some triple.key ∧
              ¬ inQ st1.self triple.id ∧ potential graph st1.self < potential graph st.self →
            ∃ st', loop graph metric s t fuel
                ((graph.forOutEdgesOf triple.vertexId
                  (graph.getEntryOrder triple.vertexId triple.id)).foldl
                  (relax graph metric s t triple.vertexId triple.id) st1) = some st' ∧
              Valid graph st'.self ∧ 0 < st'.self.currentRound ∧
              (st'.shortestPath = 2 * inf_weight ∨
                (st'.shortestPath < inf_weight ∧
                  Reach (graph.QEdge metric.costFunction s t) sId st'.tId st'.shortestPath ∧
                  graph.isEntry t st'.tId ∧
                  ∃ d, labOf st'.self.dist st'.self.round st'.self.currentRound st'.tId =
                    some d)) ∧
              (∀ y d, Reach (graph.QEdge metric.costFunction s t) sId y d →
                graph.isEntry t y → d < inf_weight → st'.shortestPath ≤ d) ∧
              ParInv (graph.QEdge metric.costFunction s t) sId
                (labOf st'.self.dist st'.self.round st'.self.currentRound)
                (fun x => (st'.self.parent.getD x default).id) := by
          rintro st1 ⟨h1, h2, h3, h4⟩
          obtain ⟨g1, g2⟩ := relaxAll_inv graph metric s sId t triple.vertexId triple.id
            triple.key hg hb st1 h1 hent h2 h3 _ rfl
          exact ih _ g1 (by omega)
        by_cases hut : triple.vertexId = t
        · rw [if_pos hut]
          by_cases hlt : st.self.dist.getD triple.id 0 < st.shortestPath
          · rw [if_pos hlt]
            apply hfin
            apply hstep (⟨{ st.self with graphPQ := q }, st.self.dist.getD triple.id 0,
              triple.id⟩ : Search) rfl rfl rfl rfl rfl
            · show st.self.dist.getD triple.id 0 ≤ st.shortestPath
              omega
            · intro _
              show st.self.dist.getD triple.id 0 ≤ triple.key
              omega
            · right
              refine ⟨?_, ?_, ?_, ?_⟩
              · show st.self.dist.getD triple.id 0 < inf_weight
                omega
              · show Reach _ sId triple.id (st.self.dist.getD triple.id 0)
                rw [hd0]
                exact hinv.search.sound _ _ hlab
              · show graph.isEntry t triple.id
                rw [← hut]; exact hent
              · exact ⟨_, hlab⟩
          · rw [if_neg hlt]
            apply hfin
            apply hstep (⟨{ st.self with graphPQ := q }, st.shortestPath, st.tId⟩ : Search)
              rfl rfl rfl rfl rfl (le_refl _)
            · intro _
              show st.shortestPath ≤ triple.key
              omega
            · exact hinv.best
        · rw [if_neg hut]
          apply hfin
          apply hstep (⟨{ st.self with graphPQ := q }, st.shortestPath, st.tId⟩ : Search)
            rfl rfl rfl rfl rfl (le_refl _)
          · intro h
            exact absurd (graph.isEntry_unique hg hent h) hut
          · exact hinv.best

end Dijkstra

end CRP

namespace CRP

namespace Dijkstra

theorem pathLoop_some (parent : List VertexIdPair) (sId : Nat) :
    ∀ (n fuel uId : Nat) (path : List Nat),
      (fun x => (parent.getD x default).id)^[n] uId = sId →
      (∀ i, i < n → (fun x => (parent.getD x default).id)^[i] uId ≠ sId) → n < fuel →
      ∃ p, pathLoop parent sId fuel uId path = some p ∧ p.length = path.length + n := by
  intro n
  induction n with
  | zero =>
    intro fuel uId path h _ hf
    obtain ⟨fuel, rfl⟩ : ∃ f, fuel = f + 1 := ⟨fuel - 1, by omega⟩
    simp only [Function.iterate_zero, id_eq] at h
    exact ⟨path, by simp [pathLoop, h], rfl⟩
  | succ n ih =>
    intro fuel uId path h hne hf
    obtain ⟨fuel, rfl⟩ : ∃ f, fuel = f + 1 := ⟨fuel - 1, by omega⟩
    have h0 : uId ≠ sId := by simpa using hne 0 (by omega)
    simp only [pathLoop, h0, if_false]
    rw [Function.iterate_succ_apply] at h
    obtain ⟨p, hp, hl⟩ := ih fuel _ (path ++ [(parent.getD uId default).originalVertex]) h
      (fun i hi => by
        have := hne (i + 1) (by omega)
        rwa [Function.iterate_succ_apply] at this) (by omega)
    exact ⟨p, hp, by simp at hl; omega⟩

/-- The state with which the loop of `edgeQuery` starts. -/
theorem init_inv (graph : Graph) (cf : CostFunction) (self : Dijkstra) (s sId t : Nat)
    (hv : Valid graph self) (hs : graph.isEntry s sId) (hg : graph.Consistent) (st : Search)
    (hst : st = ⟨⟨self.dist.set sId 0, self.round.set sId (self.currentRound + 1),
      self.parent.set sId ⟨s, sId⟩, self.currentRound + 1, MinIDQueue.push [] ⟨sId, s, 0⟩⟩,
      2 * inf_weight, invalid_id⟩) :
    Inv graph cf s sId t (fun _ => False) st ∧
      potential graph st.self ≤ 2 * graph.numberOfEdges * inf_weight + 1 := by
  have hsm := graph.isEntry_lt hg hs
  have hlab : labOf st.self.dist st.self.round st.self.currentRound =
      fun x => if x = sId then some 0 else none := by
    subst hst
    funext x
    show labOf (self.dist.set sId 0) (self.round.set sId (self.currentRound + 1))
      (self.currentRound + 1) x = _
    rw [labOf_set _ _ _ _ _ _ (by rw [hv.lenDist]; exact hsm) (by rw [hv.lenRound]; exact hsm)]
    by_cases hx : x = sId
    · simp [hx]
    · simp only [hx, if_false]
      unfold labOf
      have := hv.rounds x
      have hne : ¬ (self.round.getD x 0 = self.currentRound + 1) := by omega
      rw [if_neg hne]
  have hq : st.self.graphPQ = [⟨sId, s, 0⟩] := by subst hst; rfl
  have hinQ : ∀ x, inQ st.self x ↔ x = sId := by
    intro x
    unfold inQ
    rw [hq]
    constructor
    · rintro ⟨p, hp, rfl⟩
      simp only [List.mem_singleton] at hp
      rw [hp]
    · intro h
      exact ⟨_, List.mem_singleton.2 rfl, h.symm⟩
  refine ⟨⟨?_, ?_, ?_, ?_, ?_, ?_, ?_, ?_, ?_⟩, ?_⟩
  · subst hst; exact Nat.succ_pos _
  · subst hst
    refine ⟨?_, ?_, ?_, ?_⟩
    · simp only [List.length_set]; exact hv.lenDist
    · simp only [List.length_set]; exact hv.lenRound
    · simp only [List.length_set]; exact hv.lenParent
    · intro i
      show (self.round.set sId (self.currentRound + 1)).getD i 0 ≤ self.currentRound + 1
      rw [getD_set_self_or]
      split_ifs
      · exact le_refl _
      · have := hv.rounds i; omega
  · rw [hlab]
    refine ⟨by simp, ?_, ?_⟩
    · intro x d hx
      by_cases hxs : x = sId
      · simp only [hxs, if_true, Option.some.injEq] at hx
        subst hx; subst hxs
        exact Reach.start
      · simp [hxs] at hx
    · intro x hx
      have hxs : x ≠ sId := fun e => hx (Or.inl ((hinQ x).2 e))
      exact closedAt_of_none (by simp [hxs])
  · intro x d hx
    rw [hlab] at hx
    by_cases hxs : x = sId
    · simp only [hxs, if_true, Option.some.injEq] at hx
      subst hx; unfold inf_weight; omega
    · simp [hxs] at hx
  · rw [hq]; simp
  · intro p hp
    rw [hq] at hp
    simp only [List.mem_singleton] at hp
    subst hp
    rw [hlab]
    exact ⟨by simp, hs⟩
  · intro x d hx hxq _
    exfalso
    rw [hlab] at hx
    by_cases hxs : x = sId
    · exact hxq ((hinQ x).2 hxs)
    · simp [hxs] at hx
  · left; subst hst; rfl
  · refine ⟨fun _ => 0, ?_⟩
    intro x d hx hxs
    rw [hlab] at hx
    simp [hxs] at hx
  · unfold potential
    rw [hlab, hq]
    have : (Finset.range graph.numberOfEdges).sum
        (fun x => ((fun x => if x = sId then some 0 else none) x : Option Nat).getD inf_weight) ≤
        (Finset.range graph.numberOfEdges).card • inf_weight := by
      apply Finset.sum_le_card_nsmul
      intro x _
      by_cases hx : x = sId
      · simp [hx]
      · simp [hx]
    simp only [Finset.card_range, smul_eq_mul] at this
    simp only [List.length_singleton]
    have h2 : 2 * graph.numberOfEdges * inf_weight = 2 * (graph.numberOfEdges * inf_weight) :=
      Nat.mul_assoc _ _ _
    omega

/-- `Dijkstra::edgeQuery` returns, and what it returns: either no entry point of `t` is
reached with a cost below `inf_weight` and the result is the empty path with `inf_weight`, or
the result is a path that is not empty with the least cost. -/
theorem edgeQuery_spec (graph : Graph) (metric : Metric) (fuel : Nat) (self : Dijkstra)
    (sourceEdgeId targetEdgeId : Nat) (hg : graph.Consistent)
    (hb : metric.costFunction.Bounded) (hv : Valid graph self)
    (hround : self.currentRound < 4294967295)
    (hs : sourceEdgeId < graph.numberOfEdges)
    (hfuel : 2 * graph.numberOfEdges * inf_weight + 2 ≤ fuel) :
    ∃ r self', edgeQuery graph metric fuel self sourceEdgeId targetEdgeId = some (r, self') ∧
      Valid graph self' ∧
      ((r.path = [] ∧ r.pathWeight = inf_weight ∧
          ∀ y d, Reach (graph.QEdge metric.costFunction (graph.getForwardEdge sourceEdgeId).head
              (graph.getBackwardEdge targetEdgeId).tail)
            (graph.getEntryOffset (graph.getForwardEdge sourceEdgeId).head +
              (graph.getForwardEdge sourceEdgeId).entryPoint) y d →
            graph.isEntry (graph.getBackwardEdge targetEdgeId).tail y → inf_weight ≤ d) ∨
        (r.path ≠ [] ∧ r.pathWeight < inf_weight ∧
          (∃ y, graph.isEntry (graph.getBackwardEdge targetEdgeId).tail y ∧
            Reach (graph.QEdge metric.costFunction (graph.getForwardEdge sourceEdgeId).head
                (graph.getBackwardEdge targetEdgeId).tail)
              (graph.getEntryOffset (graph.getForwardEdge sourceEdgeId).head +
                (graph.getForwardEdge sourceEdgeId).entryPoint) y r.pathWeight) ∧
          ∀ y d, Reach (graph.QEdge metric.costFunction (graph.getForwardEdge sourceEdgeId).head
              (graph.getBackwardEdge targetEdgeId).tail)
            (graph.getEntryOffset (graph.getForwardEdge sourceEdgeId).head +
              (graph.getForwardEdge sourceEdgeId).entryPoint) y d →
            graph.isEntry (graph.getBackwardEdge targetEdgeId).tail y → r.pathWeight ≤ d)) := by
  have hsE := graph.source_isEntry hg sourceEdgeId hs
  obtain ⟨hinv, hpot⟩ := init_inv graph metric.costFunction self
    (graph.getForwardEdge sourceEdgeId).head
    (graph.getEntryOffset (graph.getForwardEdge sourceEdgeId).head +
      (graph.getForwardEdge sourceEdgeId).entryPoint)
    (graph.getBackwardEdge targetEdgeId).tail hv hsE hg _ rfl
  obtain ⟨st', hloop, hval, hcur, hbest, hmin, hpar⟩ := loop_spec graph metric
    (graph.getForwardEdge sourceEdgeId).head
    (graph.getEntryOffset (graph.getForwardEdge sourceEdgeId).head +
      (graph.getForwardEdge sourceEdgeId).entryPoint)
    (graph.getBackwardEdge targetEdgeId).tail hg hb fuel _ hinv (by omega)
  unfold edgeQuery
  simp only []
  rw [u32_of_lt (show self.currentRound + 1 < 4294967296 by omega), hloop]
  simp only []
  by_cases hsp : st'.shortestPath = 2 * inf_weight
  · rw [if_pos hsp]
    refine ⟨_, _, rfl, hval, Or.inl ⟨rfl, rfl, ?_⟩⟩
    intro y d hr hy
    by_contra hd
    have := hmin y d hr hy (by omega)
    unfold inf_weight at *
    omega
  · rw [if_neg hsp]
    rcases hbest with h | ⟨h1, h2, h3, d, h4⟩
    · exact absurd h hsp
    · obtain ⟨n, hn, hall⟩ := parInv_chain hpar st'.tId d h4
      obtain ⟨n', hn', hn'', hne⟩ := chain_bound _ _ _ graph.numberOfEdges n hn (by
        intro i hi
        obtain ⟨di, hdi⟩ := hall i hi
        have := labOf_lt hdi hcur
        rw [hval.lenRound] at this
        exact this)
      have hinf : 0 < inf_weight := by unfold inf_weight; omega
      have hfu : n' < fuel := by
        have : graph.numberOfEdges ≤ 2 * graph.numberOfEdges * inf_weight := by
          calc graph.numberOfEdges = graph.numberOfEdges * 1 := (Nat.mul_one _).symm
            _ ≤ graph.numberOfEdges * (2 * inf_weight) := Nat.mul_le_mul_left _ (by omega)
            _ = 2 * graph.numberOfEdges * inf_weight := by ring
        omega
      obtain ⟨p, hp, hl⟩ := pathLoop_some st'.self.parent _ n' fuel st'.tId
        [(graph.getBackwardEdge targetEdgeId).tail] hn'' hne hfu
      rw [hp]
      refine ⟨_, _, rfl, hval, Or.inr ⟨?_, h1, ⟨st'.tId, h3, h2⟩, ?_⟩⟩
      · intro hnil
        have hp0 : p = [] := List.reverse_eq_nil_iff.1 hnil
        rw [hp0] at hl
        simp only [List.length_nil, List.length_singleton] at hl
        omega
      · intro y d' hr hy
        by_cases hd : d' < inf_weight
        · exact hmin y d' hr hy hd
        · show st'.shortestPath ≤ d'
          omega

end Dijkstra

end CRP

namespace CRP

theorem hopFunction_bounded : HopFunction.Bounded where
  weight := by intro a; unfold HopFunction inf_weight; simp
  turn := by
    intro t
    unfold HopFunction
    cases t <;> simp

theorem timeFunction_bounded (toWeight : Nat → Nat → Nat) : (TimeFunction toWeight).Bounded where
  weight := by
    intro a
    unfold TimeFunction
    simp only
    split_ifs <;> omega
  turn := by
    intro t
    unfold TimeFunction
    cases t <;> simp

theorem Dijkstra.create_valid (graph : Graph) : Dijkstra.Valid graph (Dijkstra.create graph) where
  lenDist := by simp [Dijkstra.create]
  lenRound := by simp [Dijkstra.create]
  lenParent := by simp [Dijkstra.create]
  rounds := by
    intro i
    show (List.replicate graph.numberOfEdges 0).getD i 0 ≤ 0
    by_cases h : i < graph.numberOfEdges
    · rw [List.getD_eq_getElem _ _ (by simpa using h)]
      simp
    · rw [List.getD_eq_default _ _ (by simpa using h)]

set_option maxRecDepth 100000 in
theorem testSortedGraph_consistent : testSortedGraph.Consistent where
  sentinel := by decide
  lenBackward := by decide
  firstOutLast := by decide
  firstInLast := by decide
  firstOutZero := by decide
  firstInZero := by decide
  monoOut := by decide
  monoIn := by decide
  forward := by decide
  backward := by decide

end CRP


namespace CRP

/-! ## LevelInfo: the highest differing level and the query level -/

theorem shiftRight_xor (a b k : Nat) : (a ^^^ b) >>> k = (a >>> k) ^^^ (b >>> k) := by
  apply Nat.eq_of_testBit_eq
  intro i
  simp only [Nat.testBit_shiftRight, Nat.testBit_xor]

theorem shiftRight_ne_iff (a b k : Nat) : (a ^^^ b) >>> k ≠ 0 ↔ a >>> k ≠ b >>> k := by
  rw [shiftRight_xor, Ne, Nat.xor_eq_zero]

theorem shiftRight_ne_zero_of_le (d : Nat) {j k : Nat} (hjk : j ≤ k) (h : d >>> k ≠ 0) :
    d >>> j ≠ 0 := by
  intro h0
  apply h
  obtain ⟨e, rfl⟩ := Nat.exists_eq_add_of_le hjk
  rw [Nat.shiftRight_add, h0, Nat.zero_shiftRight]

theorem hdlLoop_spec (offset : List Nat) (diff : Nat) (n : Nat) :
    LevelInfo.hdlLoop offset diff n ≤ n ∧
    (1 ≤ LevelInfo.hdlLoop offset diff n →
      diff >>> offset.getD (LevelInfo.hdlLoop offset diff n - 1) 0 ≠ 0) ∧
    ∀ l, 1 ≤ l → l ≤ n → diff >>> offset.getD (l - 1) 0 ≠ 0 →
      l ≤ LevelInfo.hdlLoop offset diff n := by
  induction n with
  | zero =>
    refine ⟨le_refl _, ?_, ?_⟩
    · intro h; simp [LevelInfo.hdlLoop] at h
    · intro l h1 h2; omega
  | succ n ih =>
    unfold LevelInfo.hdlLoop
    split_ifs with hc
    · refine ⟨le_refl _, ?_, ?_⟩
      · intro _
        simp only [Nat.add_sub_cancel]
        omega
      · intro l _ h2 _; exact h2
    · obtain ⟨h1, h2, h3⟩ := ih
      refine ⟨by omega, h2, ?_⟩
      intro l hl1 hl2 hne
      by_cases hl : l = n + 1
      · subst hl
        simp only [Nat.add_sub_cancel] at hne
        exact absurd (Nat.pos_of_ne_zero hne) hc
      · exact h3 l hl1 (by omega) hne

theorem hdl_spec (li : LevelInfo) (c1 c2 : Nat) :
    li.getHighestDifferingLevel c1 c2 ≤ li.getLevelCount ∧
    (1 ≤ li.getHighestDifferingLevel c1 c2 →
      (c1 ^^^ c2) >>> li.offset.getD (li.getHighestDifferingLevel c1 c2 - 1) 0 ≠ 0) ∧
    ∀ l, 1 ≤ l → l ≤ li.getLevelCount → (c1 ^^^ c2) >>> li.offset.getD (l - 1) 0 ≠ 0 →
      l ≤ li.getHighestDifferingLevel c1 c2 := by
  unfold LevelInfo.getHighestDifferingLevel LevelInfo.getLevelCount
  simp only
  split_ifs with h0
  · refine ⟨Nat.zero_le _, ?_, ?_⟩
    · intro h; omega
    · intro l _ _ hne
      rw [h0, Nat.zero_shiftRight] at hne
      exact absurd rfl hne
  · exact hdlLoop_spec li.offset (c1 ^^^ c2) (li.offset.length - 1)

theorem hdl_eq_zero_iff (li : LevelInfo) (c1 c2 : Nat) (h0 : li.offset.getD 0 0 = 0)
    (hL : 1 ≤ li.getLevelCount) : li.getHighestDifferingLevel c1 c2 = 0 ↔ c1 = c2 := by
  constructor
  · intro h
    by_contra hne
    have h3 := (hdl_spec li c1 c2).2.2 1 (le_refl _) hL (by
      simp only [Nat.sub_self, h0, Nat.shiftRight_zero]
      rw [Ne, Nat.xor_eq_zero]; exact hne)
    omega
  · intro h
    unfold LevelInfo.getHighestDifferingLevel
    simp [h]

theorem offset_mono (li : LevelInfo) (hmono : li.offset.Pairwise (fun a b => a ≤ b))
    {i j : Nat} (hij : i ≤ j) (hj : j < li.offset.length) :
    li.offset.getD i 0 ≤ li.offset.getD j 0 := by
  rcases Nat.eq_or_lt_of_le hij with h | h
  · rw [h]
  · rw [List.getD_eq_getElem _ _ hj, List.getD_eq_getElem _ _ (by omega)]
    exact List.pairwise_iff_getElem.1 hmono i j (by omega) hj h

/-- On a level `l` in `[1, L]` two cell numbers fall into different cells exactly when `l` is
at most their highest differing level. -/
theorem truncate_ne_iff (li : LevelInfo) (hmono : li.offset.Pairwise (fun a b => a ≤ b))
    (a b l : Nat) (hl1 : 1 ≤ l) (hl2 : l ≤ li.getLevelCount) :
    li.truncateToLevel a l ≠ li.truncateToLevel b l ↔ l ≤ li.getHighestDifferingLevel a b := by
  obtain ⟨h1, h2, h3⟩ := hdl_spec li a b
  unfold LevelInfo.truncateToLevel
  rw [← shiftRight_ne_iff]
  constructor
  · intro h; exact h3 l hl1 hl2 h
  · intro h
    have hh := h2 (by omega)
    refine shiftRight_ne_zero_of_le _ (offset_mono li hmono (by omega) ?_) hh
    unfold LevelInfo.getLevelCount at h1
    omega

theorem and_mask (x n : Nat) : x &&& (2 ^ n - 1) = x % 2 ^ n :=
  Nat.and_pow_two_sub_one_eq_mod x n

end CRP

namespace CRP

/-! ## buildOverlayVertices: the positions of the sorted buckets -/

theorem suffix_head {α : Type} (bs : List (List α)) :
    (OverlayGraph.suffixSums (bs.map List.length)).headD 0 = bs.reverse.flatten.length := by
  induction bs with
  | nil => rfl
  | cons b0 rest ih =>
    rw [flatten_reverse_cons, List.length_append]
    simp only [List.map_cons, OverlayGraph.suffixSums, List.headD_cons, ih]
    omega

/-- The bucket with index `j` starts, in the concatenation from the highest level to the
lowest, at its count minus its length. -/
theorem getD_reverse_flatten {α : Type} (d : α) (bs : List (List α)) :
    ∀ j, j < bs.length → ∀ i, i < (bs.getD j []).length →
      bs.reverse.flatten.getD
        ((OverlayGraph.suffixSums (bs.map List.length)).getD j 0 - (bs.getD j []).length + i) d =
        (bs.getD j []).getD i d ∧
      (bs.getD j []).length ≤ (OverlayGraph.suffixSums (bs.map List.length)).getD j 0 ∧
      (OverlayGraph.suffixSums (bs.map List.length)).getD j 0 ≤ bs.reverse.flatten.length := by
  induction bs with
  | nil => intro j hj; simp at hj
  | cons b0 rest ih =>
    intro j hj i hi
    rw [flatten_reverse_cons]
    cases j with
    | zero =>
      simp only [List.map_cons, OverlayGraph.suffixSums, List.getD_cons_zero, suffix_head,
        List.length_append] at hi ⊢
      refine ⟨?_, by omega, by omega⟩
      rw [List.getD_append_right _ _ _ _ (by omega)]
      congr 1
      omega
    | succ j =>
      simp only [List.map_cons, OverlayGraph.suffixSums, List.getD_cons_succ,
        List.length_append] at hi ⊢
      obtain ⟨h1, h2, h3⟩ := ih j (by simpa using hj) i hi
      refine ⟨?_, h2, by omega⟩
      rw [List.getD_append _ _ _ _ (by omega)]
      exact h1

/-- Every position of the concatenation lies in one bucket. -/
theorem reverse_flatten_split {α : Type} (bs : List (List α)) :
    ∀ x, x < bs.reverse.flatten.length →
      ∃ j i, j < bs.length ∧ i < (bs.getD j []).length ∧
        x = (OverlayGraph.suffixSums (bs.map List.length)).getD j 0 - (bs.getD j []).length + i := by
  induction bs with
  | nil => intro x hx; simp at hx
  | cons b0 rest ih =>
    intro x hx
    rw [flatten_reverse_cons, List.length_append] at hx
    by_cases hxr : x < rest.reverse.flatten.length
    · obtain ⟨j, i, hj, hi, he⟩ := ih x hxr
      refine ⟨j + 1, i, by simpa using hj, by simpa using hi, ?_⟩
      simpa only [List.map_cons, OverlayGraph.suffixSums, List.getD_cons_succ] using he
    · refine ⟨0, x - rest.reverse.flatten.length, by simp, ?_, ?_⟩
      · show x - rest.reverse.flatten.length < b0.length
        omega
      · simp only [List.map_cons, OverlayGraph.suffixSums, List.getD_cons_zero, suffix_head]
        omega

/-! ### The permutation of a bucket -/

theorem newToOld_perm (v : List OverlayVertex) :
    (OverlayGraph.newToOldPosition v).Perm (List.range v.length) := by
  unfold OverlayGraph.newToOldPosition
  exact List.perm_insertionSort _ _

theorem newToOld_inj (v : List OverlayVertex) {i j : Nat} (hi : i < v.length)
    (hj : j < v.length)
    (h : (OverlayGraph.newToOldPosition v).getD i 0 = (OverlayGraph.newToOldPosition v).getD j 0) :
    i = j := by
  have hnd : (OverlayGraph.newToOldPosition v).Nodup :=
    (newToOld_perm v).nodup_iff.2 (List.nodup_range _)
  have hi' : i < (OverlayGraph.newToOldPosition v).length := by rw [newToOld_length]; exact hi
  have hj' : j < (OverlayGraph.newToOldPosition v).length := by rw [newToOld_length]; exact hj
  rw [List.getD_eq_getElem _ _ hi', List.getD_eq_getElem _ _ hj'] at h
  exact (List.Nodup.getElem_inj_iff hnd).1 h

theorem newToOld_surj (v : List OverlayVertex) {p : Nat} (hp : p < v.length) :
    ∃ i, i < v.length ∧ (OverlayGraph.newToOldPosition v).getD i 0 = p := by
  have hm : p ∈ OverlayGraph.newToOldPosition v :=
    (newToOld_perm v).mem_iff.2 (List.mem_range.2 hp)
  obtain ⟨i, hi, he⟩ := List.getElem_of_mem hm
  refine ⟨i, by rw [← newToOld_length]; exact hi, ?_⟩
  rw [List.getD_eq_getElem _ _ hi]; exact he

theorem oldToNew_newToOld (v : List OverlayVertex) {i : Nat} (hi : i < v.length) :
    (OverlayGraph.oldToNewPosition (OverlayGraph.newToOldPosition v)).getD
      ((OverlayGraph.newToOldPosition v).getD i 0) 0 = i := by
  unfold OverlayGraph.oldToNewPosition
  rw [newToOld_length]
  apply foldl_set_getD (fun i => (OverlayGraph.newToOldPosition v).getD i 0) (fun i => i)
  · simp only [List.length_replicate]
    exact newToOld_lt v i hi
  · intro p hp h
    exact newToOld_inj v (List.mem_range.1 hp) hi h
  · right
    exact ⟨i, List.mem_range.2 hi, rfl⟩

theorem oldToNew_spec (v : List OverlayVertex) {p : Nat} (hp : p < v.length) :
    (OverlayGraph.oldToNewPosition (OverlayGraph.newToOldPosition v)).getD p 0 < v.length ∧
    (OverlayGraph.newToOldPosition v).getD
      ((OverlayGraph.oldToNewPosition (OverlayGraph.newToOldPosition v)).getD p 0) 0 = p := by
  obtain ⟨i, hi, he⟩ := newToOld_surj v hp
  have := oldToNew_newToOld v hi
  rw [he] at this
  rw [this]
  exact ⟨hi, he⟩

end CRP
namespace CRP

/-! ### The sorted buckets -/

theorem sortBucket_fold_flags (g : Graph) (v : List OverlayVertex) (n2o o2n : List Nat)
    (off : Nat) (is : List Nat) (acc : OverlayGraph.SortedBucket) :
    (is.foldl (OverlayGraph.sortBucketStep g v n2o o2n off) acc).exitFlags =
      acc.exitFlags ++ is.map (fun i => n2o.getD i 0 % 2 == 0) := by
  induction is generalizing acc with
  | nil => simp
  | cons i is ih =>
    rw [List.foldl_cons, ih]
    simp [OverlayGraph.sortBucketStep]

theorem sortBucket_fold_entries (g : Graph) (v : List OverlayVertex) (n2o o2n : List Nat)
    (off : Nat) (is : List Nat) (acc : OverlayGraph.SortedBucket) :
    (is.foldl (OverlayGraph.sortBucketStep g v n2o o2n off) acc).mapEntries =
      acc.mapEntries ++ is.map (fun i =>
        ((⟨(v.getD (n2o.getD i 0) default).originalVertex,
          if n2o.getD i 0 % 2 == 0 then
            g.getExitOrder (v.getD (n2o.getD i 0) default).originalVertex
              (v.getD (n2o.getD i 0) default).originalEdge
          else g.getEntryOrder (v.getD (n2o.getD i 0) default).originalVertex
              (v.getD (n2o.getD i 0) default).originalEdge,
          n2o.getD i 0 % 2 == 0⟩ : SubVertex), i + off)) := by
  induction is generalizing acc with
  | nil => simp
  | cons i is ih =>
    rw [List.foldl_cons, ih]
    simp [OverlayGraph.sortBucketStep]

/-- The entries of a sorted bucket at the position `i`. -/
theorem sortBucket_at (g : Graph) (v : List OverlayVertex) (off : Nat) (i : Nat)
    (hi : i < v.length) :
    (OverlayGraph.sortBucket g v off).sortedVertices.getD i default =
      { (v.getD ((OverlayGraph.newToOldPosition v).getD i 0) default) with
        neighborOverlayVertex :=
          (OverlayGraph.oldToNewPosition (OverlayGraph.newToOldPosition v)).getD
            (v.getD ((OverlayGraph.newToOldPosition v).getD i 0) default).neighborOverlayVertex 0
            + off } ∧
    (OverlayGraph.sortBucket g v off).exitFlags.getD i false =
      ((OverlayGraph.newToOldPosition v).getD i 0 % 2 == 0) := by
  unfold OverlayGraph.sortBucket
  simp only [sortBucket_fold, sortBucket_fold_flags, List.nil_append]
  constructor
  · rw [List.getD_eq_getElem _ _ (by simpa using hi)]
    simp
  · rw [List.getD_eq_getElem _ _ (by simpa using hi)]
    simp

theorem sortBucket_lengths (g : Graph) (v : List OverlayVertex) (off : Nat) :
    (OverlayGraph.sortBucket g v off).sortedVertices.length = v.length ∧
    (OverlayGraph.sortBucket g v off).exitFlags.length = v.length ∧
    (OverlayGraph.sortBucket g v off).mapEntries.length = v.length := by
  unfold OverlayGraph.sortBucket
  simp [sortBucket_fold, sortBucket_fold_flags, sortBucket_fold_entries]

/-- The result of `buildOverlayVertices` in terms of the sorted buckets. -/
theorem buildOverlayVertices_eq (g : Graph) (li : LevelInfo) (L : Nat) :
    (OverlayGraph.buildOverlayVertices g li L).overlayVertices =
      (((List.range L).map fun j =>
        (OverlayGraph.sortedBucket g li L j).sortedVertices).reverse).flatten ∧
    (OverlayGraph.buildOverlayVertices g li L).exitFlagsArray =
      (((List.range L).map fun j =>
        (OverlayGraph.sortedBucket g li L j).exitFlags).reverse).flatten ∧
    (OverlayGraph.buildOverlayVertices g li L).originalToOverlayVertexMap =
      (((List.range L).map fun j =>
        (OverlayGraph.sortedBucket g li L j).mapEntries).flatten).foldl
        (fun m p => OverlayGraph.subVertexInsert p.1 p.2 m) [] := by
  have hlen := (collect_inv g li L).1
  unfold OverlayGraph.buildOverlayVertices
  simp only [hlen]
  refine ⟨?_, ?_, ?_⟩
  · rw [List.map_reverse, List.map_map]; rfl
  · rw [List.map_reverse, List.map_map]; rfl
  · rw [List.map_map]; rfl

theorem sortedBucket_lengths (g : Graph) (li : LevelInfo) (L : Nat) :
    ((List.range L).map fun j => (OverlayGraph.sortedBucket g li L j).sortedVertices).map
        List.length = (OverlayGraph.collectOverlayVertices g li L).map List.length ∧
    ((List.range L).map fun j => (OverlayGraph.sortedBucket g li L j).exitFlags).map
        List.length = (OverlayGraph.collectOverlayVertices g li L).map List.length ∧
    ((List.range L).map fun j => (OverlayGraph.sortedBucket g li L j).mapEntries).map
        List.length = (OverlayGraph.collectOverlayVertices g li L).map List.length := by
  have hlen := (collect_inv g li L).1
  refine ⟨?_, ?_, ?_⟩ <;>
  · apply List.ext_getElem
    · simp [hlen]
    · intro i h1 h2
      simp only [List.getElem_map, List.getElem_range, OverlayGraph.sortedBucket]
      first
        | rw [(sortBucket_lengths g _ _).1]
        | rw [(sortBucket_lengths g _ _).2.1]
        | rw [(sortBucket_lengths g _ _).2.2]
      rw [List.getD_eq_getElem _ _ (by simpa using h2)]

end CRP
namespace CRP

theorem getD_map_range {α : Type} (f : Nat → α) (L j : Nat) (d : α) (hj : j < L) :
    ((List.range L).map f).getD j d = f j := by
  rw [List.getD_eq_getElem _ _ (by simpa using hj)]
  simp

/-- The overlay vertex and the exit flag at the position `i` of the sorted bucket `j`. -/
theorem build_at (g : Graph) (li : LevelInfo) (L : Nat) (j : Nat) (hj : j < L) (i : Nat)
    (hi : i < ((OverlayGraph.collectOverlayVertices g li L).getD j []).length) :
    OverlayGraph.bucketOffset g li L j + i <
      (OverlayGraph.buildOverlayVertices g li L).overlayVertices.length ∧
    (OverlayGraph.buildOverlayVertices g li L).overlayVertices.getD
        (OverlayGraph.bucketOffset g li L j + i) default =
      (OverlayGraph.sortedBucket g li L j).sortedVertices.getD i default ∧
    (OverlayGraph.buildOverlayVertices g li L).exitFlagsArray.getD
        (OverlayGraph.bucketOffset g li L j + i) false =
      (OverlayGraph.sortedBucket g li L j).exitFlags.getD i false := by
  obtain ⟨hv, hf, _⟩ := buildOverlayVertices_eq g li L
  obtain ⟨lv, lf, _⟩ := sortedBucket_lengths g li L
  have hsl := sortBucket_lengths g ((OverlayGraph.collectOverlayVertices g li L).getD j [])
    (OverlayGraph.bucketOffset g li L j)
  have hv1 := getD_reverse_flatten (default : OverlayVertex)
    ((List.range L).map fun j => (OverlayGraph.sortedBucket g li L j).sortedVertices) j
    (by simpa using hj) i (by
      rw [getD_map_range _ _ _ _ hj]
      show (OverlayGraph.sortBucket g _ _).sortedVertices.length > i
      rw [hsl.1]; exact hi)
  have hf1 := getD_reverse_flatten false
    ((List.range L).map fun j => (OverlayGraph.sortedBucket g li L j).exitFlags) j
    (by simpa using hj) i (by
      rw [getD_map_range _ _ _ _ hj]
      show (OverlayGraph.sortBucket g _ _).exitFlags.length > i
      rw [hsl.2.1]; exact hi)
  rw [lv, getD_map_range _ _ _ _ hj] at hv1
  rw [lf, getD_map_range _ _ _ _ hj] at hf1
  have e1 : (OverlayGraph.sortedBucket g li L j).sortedVertices.length =
      ((OverlayGraph.collectOverlayVertices g li L).getD j []).length := hsl.1
  have e2 : (OverlayGraph.sortedBucket g li L j).exitFlags.length =
      ((OverlayGraph.collectOverlayVertices g li L).getD j []).length := hsl.2.1
  rw [e1] at hv1
  rw [e2] at hf1
  rw [hv, hf]
  refine ⟨?_, hv1.1, hf1.1⟩
  have := hv1.2
  show (OverlayGraph.suffixSums _).getD j 0 - _ + i < _
  omega

/-- Every overlay vertex has a position in a sorted bucket. -/
theorem build_split (g : Graph) (li : LevelInfo) (L : Nat) (x : Nat)
    (hx : x < (OverlayGraph.buildOverlayVertices g li L).overlayVertices.length) :
    ∃ j i, j < L ∧ i < ((OverlayGraph.collectOverlayVertices g li L).getD j []).length ∧
      x = OverlayGraph.bucketOffset g li L j + i := by
  obtain ⟨hv, _, _⟩ := buildOverlayVertices_eq g li L
  obtain ⟨lv, _, _⟩ := sortedBucket_lengths g li L
  rw [hv] at hx
  obtain ⟨j, i, hj, hi, he⟩ := reverse_flatten_split _ x hx
  have hj' : j < L := by simpa using hj
  rw [getD_map_range _ _ _ _ hj'] at hi he
  have e1 : (OverlayGraph.sortedBucket g li L j).sortedVertices.length =
      ((OverlayGraph.collectOverlayVertices g li L).getD j []).length :=
    (sortBucket_lengths g _ _).1
  rw [e1] at hi he
  rw [lv] at he
  exact ⟨j, i, hj', hi, he⟩

theorem build_flags_length (g : Graph) (li : LevelInfo) (L : Nat) :
    (OverlayGraph.buildOverlayVertices g li L).exitFlagsArray.length =
      (OverlayGraph.buildOverlayVertices g li L).overlayVertices.length := by
  obtain ⟨hv, hf, _⟩ := buildOverlayVertices_eq g li L
  obtain ⟨lv, lf, _⟩ := sortedBucket_lengths g li L
  rw [hv, hf, List.length_flatten, List.length_flatten, List.map_reverse, List.map_reverse,
    lv, lf]

end CRP
namespace CRP

/-! ### The buckets hold twin pairs -/

theorem twinBucket_nil (g : Graph) (l : Nat) : TwinBucket g l [] [] := by
  refine ⟨rfl, ?_⟩
  intro i hi
  simp at hi

theorem twinBucket_append (g : Graph) (l : Nat) (bucket : List OverlayVertex)
    (ts : List (Nat × Nat × Nat)) (t : Nat × Nat × Nat) (h : TwinBucket g l bucket ts) :
    TwinBucket g l
      (bucket ++ [⟨t.1, bucket.length + 1, g.getCellNumber t.1, t.2.2, List.replicate l 0⟩,
        ⟨t.2.1, bucket.length + 1 - 1, g.getCellNumber t.2.1, g.findBackwardEdge t.1 t.2.1,
          List.replicate l 0⟩])
      (ts ++ [t]) := by
  obtain ⟨hlen, hall⟩ := h
  refine ⟨by simp [hlen]; omega, ?_⟩
  intro i hi
  rw [List.length_append, List.length_singleton] at hi
  by_cases hlt : i < ts.length
  · obtain ⟨h1, h2⟩ := hall i hlt
    have e0 : (ts ++ [t]).getD i default = ts.getD i default := List.getD_append _ _ _ _ hlt
    rw [e0]
    constructor
    · rw [List.getD_append _ _ _ _ (by omega)]; exact h1
    · rw [List.getD_append _ _ _ _ (by omega)]; exact h2
  · have hi' : i = ts.length := by omega
    subst hi'
    have e0 : (ts ++ [t]).getD ts.length default = t := by
      rw [List.getD_append_right _ _ _ _ (le_refl _)]; simp
    rw [e0]
    constructor
    · rw [List.getD_append_right _ _ _ _ (by omega)]
      have e1 : 2 * ts.length - bucket.length = 0 := by omega
      rw [e1, hlen]
      rfl
    · rw [List.getD_append_right _ _ _ _ (by omega)]
      have e2 : 2 * ts.length + 1 - bucket.length = 1 := by omega
      rw [e2, hlen]
      rfl

theorem levelEdges_append (g : Graph) (li : LevelInfo) (l : Nat)
    (es fs : List (Nat × Nat × Nat)) :
    levelEdges g li l (es ++ fs) = levelEdges g li l es ++ levelEdges g li l fs := by
  unfold levelEdges
  rw [List.filter_append]

theorem levelEdges_single (g : Graph) (li : LevelInfo) (l : Nat) (t : Nat × Nat × Nat) :
    levelEdges g li l [t] =
      if li.getHighestDifferingLevel (g.getCellNumber t.1) (g.getCellNumber t.2.1) = l
      then [t] else [] := by
  unfold levelEdges
  simp only [List.filter_cons, List.filter_nil, decide_eq_true_eq]

theorem addBoundaryEdge_length (g : Graph) (li : LevelInfo) (bs : List (List OverlayVertex))
    (e : Nat × Nat × Nat) : (OverlayGraph.addBoundaryEdge g li bs e).length = bs.length := by
  unfold OverlayGraph.addBoundaryEdge
  simp only
  split_ifs <;> simp

theorem addBoundaryEdge_twins (g : Graph) (li : LevelInfo) (bs : List (List OverlayVertex))
    (pre : List (Nat × Nat × Nat)) (e : Nat × Nat × Nat)
    (h : ∀ j, j < bs.length → TwinBucket g (j + 1) (bs.getD j []) (levelEdges g li (j + 1) pre)) :
    ∀ j, j < bs.length → TwinBucket g (j + 1)
      ((OverlayGraph.addBoundaryEdge g li bs e).getD j [])
      (levelEdges g li (j + 1) (pre ++ [e])) := by
  intro j hj
  rw [levelEdges_append, levelEdges_single]
  unfold OverlayGraph.addBoundaryEdge
  simp only
  by_cases hlev : li.getHighestDifferingLevel (g.getCellNumber e.1) (g.getCellNumber e.2.1)
      = j + 1
  · rw [if_pos hlev, if_pos (by omega)]
    have hjl : li.getHighestDifferingLevel (g.getCellNumber e.1) (g.getCellNumber e.2.1) - 1
        = j := by omega
    rw [hjl, getD_set_eq _ _ _ _ hj, hlev]
    exact twinBucket_append g (j + 1) _ _ e (h j hj)
  · rw [if_neg hlev, List.append_nil]
    split_ifs with hpos
    · rw [getD_set_ne _ _ _ _ _ (by omega)]
      exact h j hj
    · exact h j hj

/-- The bucket with index `j` holds the twin pairs of the boundary edges of level `j + 1`. -/
theorem collect_twins (g : Graph) (li : LevelInfo) (L : Nat) (j : Nat) (hj : j < L) :
    TwinBucket g (j + 1) ((OverlayGraph.collectOverlayVertices g li L).getD j [])
      (levelEdges g li (j + 1) g.forEdges) := by
  unfold OverlayGraph.collectOverlayVertices
  have key : ∀ (es pre : List (Nat × Nat × Nat)) (bs : List (List OverlayVertex)),
      bs.length = L →
      (∀ j, j < bs.length →
        TwinBucket g (j + 1) (bs.getD j []) (levelEdges g li (j + 1) pre)) →
      ∀ j, j < L → TwinBucket g (j + 1)
        ((es.foldl (OverlayGraph.addBoundaryEdge g li) bs).getD j [])
        (levelEdges g li (j + 1) (pre ++ es)) := by
    intro es
    induction es with
    | nil =>
      intro pre bs hl h j hj
      simpa using h j (by omega)
    | cons e es ih =>
      intro pre bs hl h j hj
      rw [List.foldl_cons]
      have h1 := addBoundaryEdge_twins g li bs pre e h
      have hl1 := addBoundaryEdge_length g li bs e
      have := ih (pre ++ [e]) _ (by rw [hl1, hl]) (by rw [hl1]; exact h1) j hj
      simpa using this
  have := key g.forEdges [] (List.replicate L []) (by simp) (by
    intro j hj
    have e1 : (List.replicate L ([] : List OverlayVertex)).getD j [] = [] := by
      simp only [List.getD_eq_getElem?_getD, List.getElem?_replicate]
      split_ifs <;> rfl
    rw [e1]
    exact twinBucket_nil g (j + 1)) j hj
  simpa using this

/-! ### The list of the edges -/

theorem mem_forEdges (g : Graph) (t : Nat × Nat × Nat) :
    t ∈ g.forEdges ↔
      t.1 < g.numberOfVertices ∧ (g.vertex t.1).firstOut ≤ t.2.2 ∧
      t.2.2 < (g.vertex t.1).firstOut + g.getOutDegree t.1 ∧
      t.2.1 = (g.getForwardEdge t.2.2).head := by
  unfold Graph.forEdges
  simp only [List.mem_flatMap, List.mem_range, List.mem_map, List.mem_range'_1]
  constructor
  · rintro ⟨u, hu, e, ⟨h1, h2⟩, rfl⟩
    exact ⟨hu, h1, h2, rfl⟩
  · rintro ⟨h1, h2, h3, h4⟩
    refine ⟨t.1, h1, t.2.2, ⟨h2, h3⟩, ?_⟩
    rw [← h4]

theorem forEdges_nodup (g : Graph) : g.forEdges.Nodup := by
  unfold Graph.forEdges
  rw [List.nodup_flatMap]
  constructor
  · intro u _
    apply List.Nodup.map
    · intro a b h
      simp only [Prod.mk.injEq] at h
      exact h.2.2
    · exact List.nodup_range' _ _
  · apply List.Pairwise.imp _ (List.nodup_range _)
    intro a b hab
    simp only [Function.onFun, List.disjoint_left, List.mem_map]
    rintro t ⟨e1, _, rfl⟩ ⟨e2, _, h2⟩
    simp only [Prod.mk.injEq] at h2
    exact hab h2.1.symm

theorem forEdges_ext (g : Graph) {s t : Nat × Nat × Nat} (hs : s ∈ g.forEdges)
    (ht : t ∈ g.forEdges) (h2 : s.2.2 = t.2.2) (h1 : s.1 = t.1) : s = t := by
  have a := ((mem_forEdges g s).1 hs).2.2.2
  have b := ((mem_forEdges g t).1 ht).2.2.2
  rw [h2, ← b] at a
  exact Prod.ext h1 (Prod.ext a h2)

end CRP
namespace CRP

/-! ### The ids of the twins -/

/-- The overlay vertex with the id `twinId j p` is the vertex at the position `p` of the
bucket `j`, with the id of its twin as its neighbour; it is an exit vertex exactly when `p`
is even. -/
theorem twinId_at (g : Graph) (li : LevelInfo) (L : Nat) (j : Nat) (hj : j < L) (p : Nat)
    (hp : p < ((OverlayGraph.collectOverlayVertices g li L).getD j []).length) :
    OverlayGraph.twinId g li L j p <
      (OverlayGraph.buildOverlayVertices g li L).overlayVertices.length ∧
    (OverlayGraph.buildOverlayVertices g li L).overlayVertices.getD
        (OverlayGraph.twinId g li L j p) default =
      { (((OverlayGraph.collectOverlayVertices g li L).getD j []).getD p default) with
        neighborOverlayVertex := OverlayGraph.twinId g li L j
          (((OverlayGraph.collectOverlayVertices g li L).getD j []).getD p
            default).neighborOverlayVertex } ∧
    (OverlayGraph.buildOverlayVertices g li L).exitFlagsArray.getD
        (OverlayGraph.twinId g li L j p) false = (p % 2 == 0) := by
  obtain ⟨hi, hn⟩ := oldToNew_spec ((OverlayGraph.collectOverlayVertices g li L).getD j []) hp
  obtain ⟨h1, h2, h3⟩ := build_at g li L j hj _ hi
  obtain ⟨h4, h5⟩ := sortBucket_at g ((OverlayGraph.collectOverlayVertices g li L).getD j [])
    (OverlayGraph.bucketOffset g li L j) _ hi
  rw [hn] at h4 h5
  refine ⟨h1, ?_, ?_⟩
  · show (OverlayGraph.buildOverlayVertices g li L).overlayVertices.getD
      (OverlayGraph.bucketOffset g li L j + _) default = _
    rw [h2]
    show (OverlayGraph.sortBucket g _ _).sortedVertices.getD _ default = _
    rw [h4]
    unfold OverlayGraph.twinId
    rw [Nat.add_comm]
  · show (OverlayGraph.buildOverlayVertices g li L).exitFlagsArray.getD
      (OverlayGraph.bucketOffset g li L j + _) false = _
    rw [h3]
    exact h5

theorem twinId_split (g : Graph) (li : LevelInfo) (L : Nat) (x : Nat)
    (hx : x < (OverlayGraph.buildOverlayVertices g li L).overlayVertices.length) :
    ∃ j p, j < L ∧ p < ((OverlayGraph.collectOverlayVertices g li L).getD j []).length ∧
      x = OverlayGraph.twinId g li L j p := by
  obtain ⟨j, i, hj, hi, he⟩ := build_split g li L x hx
  refine ⟨j, (OverlayGraph.newToOldPosition
    ((OverlayGraph.collectOverlayVertices g li L).getD j [])).getD i 0, hj,
    newToOld_lt _ i hi, ?_⟩
  unfold OverlayGraph.twinId
  rw [oldToNew_newToOld _ hi]
  exact he

theorem twinId_inj (g : Graph) (li : LevelInfo) (L : Nat) (j : Nat) {p q : Nat}
    (hp : p < ((OverlayGraph.collectOverlayVertices g li L).getD j []).length)
    (hq : q < ((OverlayGraph.collectOverlayVertices g li L).getD j []).length)
    (h : OverlayGraph.twinId g li L j p = OverlayGraph.twinId g li L j q) : p = q := by
  unfold OverlayGraph.twinId at h
  have h' := Nat.add_left_cancel h
  have a := (oldToNew_spec _ hp).2
  have b := (oldToNew_spec _ hq).2
  rw [h'] at a
  rw [← a, b]

theorem mem_levelEdges (g : Graph) (li : LevelInfo) (l : Nat) (es : List (Nat × Nat × Nat))
    (t : Nat × Nat × Nat) :
    t ∈ levelEdges g li l es ↔ t ∈ es ∧
      li.getHighestDifferingLevel (g.getCellNumber t.1) (g.getCellNumber t.2.1) = l := by
  unfold levelEdges
  simp

/-- The twin pair of the edge with index `q` among the boundary edges of level `j + 1`. -/
theorem twinPair_at (g : Graph) (li : LevelInfo) (L : Nat) (j : Nat) (hj : j < L) (q : Nat)
    (hq : q < (levelEdges g li (j + 1) g.forEdges).length) :
    OverlayGraph.TwinPair g li (OverlayGraph.buildOverlayVertices g li L)
      ((levelEdges g li (j + 1) g.forEdges).getD q default)
      (OverlayGraph.twinId g li L j (2 * q)) (OverlayGraph.twinId g li L j (2 * q + 1)) := by
  obtain ⟨hlen, hall⟩ := collect_twins g li L j hj
  obtain ⟨b1, b2⟩ := hall q hq
  have hlev := ((mem_levelEdges g li (j + 1) g.forEdges _).1
    (getD_mem _ q default hq)).2
  obtain ⟨e1, e2, e3⟩ := twinId_at g li L j hj (2 * q) (by omega)
  obtain ⟨n1, n2, n3⟩ := twinId_at g li L j hj (2 * q + 1) (by omega)
  rw [b1] at e2
  rw [b2] at n2
  refine ⟨e1, n1, ?_, ?_, ?_, ?_⟩
  · rw [e3]; simp
  · rw [n3]; simp [Nat.add_mod]
  · rw [e2, hlev]
  · rw [n2, hlev]

/-- Every overlay vertex is the exit vertex or the entry vertex of a boundary edge. -/
theorem twinPair_of_vertex (g : Graph) (li : LevelInfo) (L : Nat) (x : Nat)
    (hx : x < (OverlayGraph.buildOverlayVertices g li L).overlayVertices.length) :
    ∃ j q, j < L ∧ q < (levelEdges g li (j + 1) g.forEdges).length ∧
      (x = OverlayGraph.twinId g li L j (2 * q) ∨
        x = OverlayGraph.twinId g li L j (2 * q + 1)) := by
  obtain ⟨j, p, hj, hp, rfl⟩ := twinId_split g li L x hx
  obtain ⟨hlen, _⟩ := collect_twins g li L j hj
  refine ⟨j, p / 2, hj, by omega, ?_⟩
  rcases Nat.mod_two_eq_zero_or_one p with h | h
  · left
    have : 2 * (p / 2) = p := by omega
    rw [this]
  · right
    have : 2 * (p / 2) + 1 = p := by omega
    rw [this]

/-- Every boundary edge of a level up to `L` has its twin pair. -/
theorem twinPair_of_edge (g : Graph) (li : LevelInfo) (L : Nat) (t : Nat × Nat × Nat)
    (ht : t ∈ g.forEdges)
    (h0 : 0 < li.getHighestDifferingLevel (g.getCellNumber t.1) (g.getCellNumber t.2.1))
    (hL : li.getHighestDifferingLevel (g.getCellNumber t.1) (g.getCellNumber t.2.1) ≤ L) :
    ∃ j q, j < L ∧ q < (levelEdges g li (j + 1) g.forEdges).length ∧
      j + 1 = li.getHighestDifferingLevel (g.getCellNumber t.1) (g.getCellNumber t.2.1) ∧
      (levelEdges g li (j + 1) g.forEdges).getD q default = t := by
  have hm : t ∈ levelEdges g li
      ((li.getHighestDifferingLevel (g.getCellNumber t.1) (g.getCellNumber t.2.1) - 1) + 1)
      g.forEdges := by
    rw [mem_levelEdges]
    exact ⟨ht, by omega⟩
  obtain ⟨q, hq, he⟩ := List.getElem_of_mem hm
  refine ⟨_, q, by omega, hq, by omega, ?_⟩
  rw [List.getD_eq_getElem _ _ hq]
  exact he

/-- The exit vertex of a boundary edge is unique. -/
theorem twinPair_unique (g : Graph) (li : LevelInfo) (L : Nat) (t : Nat × Nat × Nat)
    (ht : t ∈ g.forEdges) (xe xn x : Nat)
    (hp : OverlayGraph.TwinPair g li (OverlayGraph.buildOverlayVertices g li L) t xe xn)
    (hx : x < (OverlayGraph.buildOverlayVertices g li L).overlayVertices.length)
    (hf : (OverlayGraph.buildOverlayVertices g li L).exitFlagsArray.getD x false = true)
    (hv : ((OverlayGraph.buildOverlayVertices g li L).overlayVertices.getD x
      default).originalVertex = t.1)
    (he : ((OverlayGraph.buildOverlayVertices g li L).overlayVertices.getD x
      default).originalEdge = t.2.2) : x = xe := by
  -- both `x` and `xe` are exit vertices of edges at positions of buckets
  have key : ∀ y, y < (OverlayGraph.buildOverlayVertices g li L).overlayVertices.length →
      (OverlayGraph.buildOverlayVertices g li L).exitFlagsArray.getD y false = true →
      ((OverlayGraph.buildOverlayVertices g li L).overlayVertices.getD y
        default).originalVertex = t.1 →
      ((OverlayGraph.buildOverlayVertices g li L).overlayVertices.getD y
        default).originalEdge = t.2.2 →
      ∃ j q, j < L ∧ q < (levelEdges g li (j + 1) g.forEdges).length ∧
        (levelEdges g li (j + 1) g.forEdges).getD q default = t ∧
        y = OverlayGraph.twinId g li L j (2 * q) := by
    intro y hy hfy hvy hey
    obtain ⟨j, q, hj, hq, hor⟩ := twinPair_of_vertex g li L y hy
    have tp := twinPair_at g li L j hj q hq
    have hmem := (mem_levelEdges g li (j + 1) g.forEdges _).1 (getD_mem _ q default hq)
    rcases hor with h | h
    · refine ⟨j, q, hj, hq, ?_, h⟩
      have ev := tp.exitVertex
      rw [← h] at ev
      rw [ev] at hvy hey
      exact forEdges_ext g hmem.1 ht hey hvy
    · have := tp.entryFlag
      rw [← h, hfy] at this
      exact absurd this (by simp)
  obtain ⟨j, q, hj, hq, hjq, h1⟩ := key x hx hf hv he
  obtain ⟨j', q', hj', hq', hjq', h2⟩ := key xe hp.exitLt hp.exitFlag
    (by rw [hp.exitVertex]) (by rw [hp.exitVertex])
  have m1 := (mem_levelEdges g li (j + 1) g.forEdges _).1 (getD_mem _ q default hq)
  have m2 := (mem_levelEdges g li (j' + 1) g.forEdges _).1 (getD_mem _ q' default hq')
  rw [hjq] at m1
  rw [hjq'] at m2
  have hjj : j = j' := by
    have := m1.2.symm.trans m2.2
    omega
  subst hjj
  have hnd : (levelEdges g li (j + 1) g.forEdges).Nodup := by
    unfold levelEdges
    exact (forEdges_nodup g).filter _
  rw [List.getD_eq_getElem _ _ hq] at hjq
  rw [List.getD_eq_getElem _ _ hq'] at hjq'
  have hqq : q = q' := (List.Nodup.getElem_inj_iff hnd).1 (hjq.trans hjq'.symm)
  rw [h1, h2, hqq]

end CRP
namespace CRP

/-! ### The number of the overlay vertices -/

theorem filter_level_succ {α : Type} (f : α → Nat) (es : List α) (L : Nat) :
    (es.filter (fun t => decide (0 < f t ∧ f t ≤ L + 1))).length =
      (es.filter (fun t => decide (0 < f t ∧ f t ≤ L))).length +
        (es.filter (fun t => decide (f t = L + 1))).length := by
  rw [← List.countP_eq_length_filter, ← List.countP_eq_length_filter,
    ← List.countP_eq_length_filter]
  induction es with
  | nil => rfl
  | cons e es ih =>
    rw [List.countP_cons, List.countP_cons, List.countP_cons, ih]
    by_cases h1 : f e = L + 1
    · have h2 : ¬ (0 < f e ∧ f e ≤ L) := by omega
      have h3 : 0 < f e ∧ f e ≤ L + 1 := by omega
      rw [if_pos (decide_eq_true h3), if_neg (by rw [decide_eq_true_eq]; exact h2),
        if_pos (decide_eq_true h1)]
      omega
    · by_cases h2 : 0 < f e ∧ f e ≤ L
      · have h3 : 0 < f e ∧ f e ≤ L + 1 := by omega
        rw [if_pos (decide_eq_true h3), if_pos (decide_eq_true h2),
          if_neg (by rw [decide_eq_true_eq]; exact h1)]
        omega
      · have h3 : ¬ (0 < f e ∧ f e ≤ L + 1) := by omega
        rw [if_neg (by rw [decide_eq_true_eq]; exact h3),
          if_neg (by rw [decide_eq_true_eq]; exact h2),
          if_neg (by rw [decide_eq_true_eq]; exact h1)]
        omega

theorem sum_filter_levels {α : Type} (f : α → Nat) (es : List α) (L : Nat) :
    ((List.range L).map fun j => 2 * (es.filter (fun t => decide (f t = j + 1))).length).sum =
      2 * (es.filter (fun t => decide (0 < f t ∧ f t ≤ L))).length := by
  induction L with
  | zero =>
    have : es.filter (fun t => decide (0 < f t ∧ f t ≤ 0)) = [] := by
      rw [List.filter_eq_nil_iff]
      intro a _
      rw [decide_eq_true_eq]
      omega
    rw [this]
    rfl
  | succ L ih =>
    rw [List.range_succ, List.map_append, List.sum_append, ih, filter_level_succ]
    simp only [List.map_cons, List.map_nil, List.sum_cons, List.sum_nil]
    omega

/-- The number of the overlay vertices is twice the number of the boundary edges of the
levels `1, ..., L`. -/
theorem build_length (g : Graph) (li : LevelInfo) (L : Nat) :
    (OverlayGraph.buildOverlayVertices g li L).overlayVertices.length =
      2 * (g.forEdges.filter (fun t => decide
        (0 < li.getHighestDifferingLevel (g.getCellNumber t.1) (g.getCellNumber t.2.1) ∧
          li.getHighestDifferingLevel (g.getCellNumber t.1) (g.getCellNumber t.2.1) ≤ L))).length
      := by
  obtain ⟨hv, _, _⟩ := buildOverlayVertices_eq g li L
  obtain ⟨lv, _, _⟩ := sortedBucket_lengths g li L
  have hlen := (collect_inv g li L).1
  rw [hv, List.length_flatten, List.map_reverse, List.sum_reverse, lv]
  rw [← sum_filter_levels (fun t : Nat × Nat × Nat =>
    li.getHighestDifferingLevel (g.getCellNumber t.1) (g.getCellNumber t.2.1)) g.forEdges L]
  congr 1
  apply List.ext_getElem
  · simp [hlen]
  · intro j h1 h2
    have hj : j < L := by simpa using h2
    simp only [List.getElem_map, List.getElem_range]
    have := (collect_twins g li L j hj).1
    rw [List.getD_eq_getElem _ _ (by omega)] at this
    rw [this]
    rfl

/-! ### The map from the entry and exit points to the overlay vertices -/

theorem subVertexInsert_length (k : SubVertex) (x : Nat) (m : List (SubVertex × Nat)) :
    (OverlayGraph.subVertexInsert k x m).length =
      if (Graph.findOverlayVertex k m).isSome then m.length else m.length + 1 := by
  induction m with
  | nil => rfl
  | cons p m ih =>
    obtain ⟨k', y⟩ := p
    unfold OverlayGraph.subVertexInsert Graph.findOverlayVertex
    by_cases h : k' = k
    · simp [h]
    · simp only [h, if_false, List.length_cons, ih]
      split_ifs <;> rfl

theorem find_subVertexInsert (k : SubVertex) (x : Nat) (m : List (SubVertex × Nat))
    (k' : SubVertex) :
    Graph.findOverlayVertex k' (OverlayGraph.subVertexInsert k x m) =
      if k = k' then some x else Graph.findOverlayVertex k' m := by
  induction m with
  | nil =>
    unfold OverlayGraph.subVertexInsert Graph.findOverlayVertex
    split_ifs <;> rfl
  | cons p m ih =>
    obtain ⟨k1, y⟩ := p
    unfold OverlayGraph.subVertexInsert
    by_cases h : k1 = k
    · subst h
      simp only [if_true]
      unfold Graph.findOverlayVertex
      split_ifs <;> rfl
    · simp only [h, if_false]
      unfold Graph.findOverlayVertex
      rw [ih]
      by_cases h2 : k1 = k'
      · subst h2
        simp only [if_true]
        rw [if_neg (fun h3 => h h3.symm)]
      · simp only [h2, if_false]

/-- When the map has as many keys as there were entries, every entry is found. -/
theorem insert_fold_find (ps : List (SubVertex × Nat)) :
    ∀ (m : List (SubVertex × Nat)),
      (ps.foldl (fun m p => OverlayGraph.subVertexInsert p.1 p.2 m) m).length ≤
        m.length + ps.length ∧
      ((ps.foldl (fun m p => OverlayGraph.subVertexInsert p.1 p.2 m) m).length =
          m.length + ps.length →
        (∀ p, p ∈ ps → Graph.findOverlayVertex p.1
          (ps.foldl (fun m p => OverlayGraph.subVertexInsert p.1 p.2 m) m) = some p.2) ∧
        (∀ k x, Graph.findOverlayVertex k m = some x → Graph.findOverlayVertex k
          (ps.foldl (fun m p => OverlayGraph.subVertexInsert p.1 p.2 m) m) = some x)) := by
  induction ps with
  | nil =>
    intro m
    refine ⟨le_refl _, ?_⟩
    intro _
    exact ⟨fun p hp => by simp at hp, fun k x h => h⟩
  | cons p ps ih =>
    intro m
    rw [List.foldl_cons]
    obtain ⟨h1, h2⟩ := ih (OverlayGraph.subVertexInsert p.1 p.2 m)
    have hl := subVertexInsert_length p.1 p.2 m
    have hle : (OverlayGraph.subVertexInsert p.1 p.2 m).length ≤ m.length + 1 := by
      rw [hl]; split_ifs <;> omega
    rw [List.length_cons]
    refine ⟨by omega, ?_⟩
    intro heq
    have hfresh : (OverlayGraph.subVertexInsert p.1 p.2 m).length = m.length + 1 := by omega
    have hnone : Graph.findOverlayVertex p.1 m = none := by
      rw [hl] at hfresh
      split_ifs at hfresh with h3
      · omega
      · simpa using h3
    obtain ⟨h3, h4⟩ := h2 (by omega)
    constructor
    · intro q hq
      rcases List.mem_cons.1 hq with h5 | h5
      · subst h5
        apply h4
        rw [find_subVertexInsert, if_pos rfl]
      · exact h3 q h5
    · intro k x hk
      apply h4
      rw [find_subVertexInsert]
      split_ifs with h5
      · rw [← h5, hnone] at hk
        exact absurd hk (by simp)
      · exact hk

theorem sortBucket_entry_at (g : Graph) (v : List OverlayVertex) (off : Nat) (i : Nat)
    (hi : i < v.length) :
    (OverlayGraph.sortBucket g v off).mapEntries.getD i default =
      ((⟨(v.getD ((OverlayGraph.newToOldPosition v).getD i 0) default).originalVertex,
          if (OverlayGraph.newToOldPosition v).getD i 0 % 2 == 0 then
            g.getExitOrder (v.getD ((OverlayGraph.newToOldPosition v).getD i 0)
              default).originalVertex
              (v.getD ((OverlayGraph.newToOldPosition v).getD i 0) default).originalEdge
          else g.getEntryOrder (v.getD ((OverlayGraph.newToOldPosition v).getD i 0)
              default).originalVertex
              (v.getD ((OverlayGraph.newToOldPosition v).getD i 0) default).originalEdge,
          (OverlayGraph.newToOldPosition v).getD i 0 % 2 == 0⟩ : SubVertex), i + off) := by
  unfold OverlayGraph.sortBucket
  simp only [sortBucket_fold_entries, List.nil_append]
  rw [List.getD_eq_getElem _ _ (by simpa using hi)]
  simp

/-- The entry of every overlay vertex is in the list of the entries of the map. -/
theorem mapEntries_mem (g : Graph) (li : LevelInfo) (L : Nat) (x : Nat)
    (hx : x < (OverlayGraph.buildOverlayVertices g li L).overlayVertices.length) :
    (OverlayGraph.mapKey g (OverlayGraph.buildOverlayVertices g li L) x, x) ∈
      ((List.range L).map fun j => (OverlayGraph.sortedBucket g li L j).mapEntries).flatten := by
  obtain ⟨j, i, hj, hi, rfl⟩ := build_split g li L x hx
  obtain ⟨_, h2, h3⟩ := build_at g li L j hj i hi
  obtain ⟨h4, h5⟩ := sortBucket_at g ((OverlayGraph.collectOverlayVertices g li L).getD j [])
    (OverlayGraph.bucketOffset g li L j) i hi
  have h6 := sortBucket_entry_at g ((OverlayGraph.collectOverlayVertices g li L).getD j [])
    (OverlayGraph.bucketOffset g li L j) i hi
  rw [List.mem_flatten]
  refine ⟨(OverlayGraph.sortedBucket g li L j).mapEntries, ?_, ?_⟩
  · rw [List.mem_map]
    exact ⟨j, List.mem_range.2 hj, rfl⟩
  · have hm := getD_mem (OverlayGraph.sortedBucket g li L j).mapEntries i default (by
      show i < (OverlayGraph.sortBucket g _ _).mapEntries.length
      rw [(sortBucket_lengths g _ _).2.2]; exact hi)
    have e : (OverlayGraph.sortedBucket g li L j).mapEntries.getD i default =
        (OverlayGraph.mapKey g (OverlayGraph.buildOverlayVertices g li L)
          (OverlayGraph.bucketOffset g li L j + i), OverlayGraph.bucketOffset g li L j + i) := by
      show (OverlayGraph.sortBucket g _ _).mapEntries.getD i default = _
      rw [h6]
      unfold OverlayGraph.mapKey
      simp only
      rw [h2, h3]
      show _ = ((⟨((OverlayGraph.sortBucket g _ _).sortedVertices.getD i default).originalVertex,
        if (OverlayGraph.sortBucket g _ _).exitFlags.getD i false then
          g.getExitOrder ((OverlayGraph.sortBucket g _ _).sortedVertices.getD i
            default).originalVertex
            ((OverlayGraph.sortBucket g _ _).sortedVertices.getD i default).originalEdge
        else g.getEntryOrder ((OverlayGraph.sortBucket g _ _).sortedVertices.getD i
            default).originalVertex
            ((OverlayGraph.sortBucket g _ _).sortedVertices.getD i default).originalEdge,
        (OverlayGraph.sortBucket g _ _).exitFlags.getD i false⟩ : SubVertex), _)
      rw [h4, h5, Nat.add_comm]
    rw [e] at hm
    exact hm

theorem mapEntries_length (g : Graph) (li : LevelInfo) (L : Nat) :
    ((List.range L).map fun j =>
        (OverlayGraph.sortedBucket g li L j).mapEntries).flatten.length =
      (OverlayGraph.buildOverlayVertices g li L).overlayVertices.length := by
  obtain ⟨hv, _, _⟩ := buildOverlayVertices_eq g li L
  obtain ⟨lv, _, le⟩ := sortedBucket_lengths g li L
  rw [hv, List.length_flatten, List.length_flatten, List.map_reverse, List.sum_reverse, lv, le]

/-- When the map has as many keys as there are overlay vertices, the lookup of the key of an
overlay vertex gives the vertex. -/
theorem map_lookup (g : Graph) (li : LevelInfo) (L : Nat)
    (hsize : (OverlayGraph.buildOverlayVertices g li L).originalToOverlayVertexMap.length =
      (OverlayGraph.buildOverlayVertices g li L).overlayVertices.length)
    (x : Nat) (hx : x < (OverlayGraph.buildOverlayVertices g li L).overlayVertices.length) :
    Graph.findOverlayVertex (OverlayGraph.mapKey g (OverlayGraph.buildOverlayVertices g li L) x)
      (OverlayGraph.buildOverlayVertices g li L).originalToOverlayVertexMap = some x := by
  obtain ⟨_, _, hm⟩ := buildOverlayVertices_eq g li L
  rw [hm] at hsize ⊢
  have h := (insert_fold_find _ []).2 (by
    rw [hsize, mapEntries_length]; simp)
  exact h.1 _ (mapEntries_mem g li L x hx)

end CRP
namespace CRP

/-! ### The twin pairs in the overlay graph -/

theorem twinPair_cases (g : Graph) (li : LevelInfo) (L : Nat) (x : Nat)
    (hx : x < (OverlayGraph.buildOverlayVertices g li L).overlayVertices.length) :
    ∃ t xe xn, t ∈ g.forEdges ∧
      0 < li.getHighestDifferingLevel (g.getCellNumber t.1) (g.getCellNumber t.2.1) ∧
      li.getHighestDifferingLevel (g.getCellNumber t.1) (g.getCellNumber t.2.1) ≤ L ∧
      OverlayGraph.TwinPair g li (OverlayGraph.buildOverlayVertices g li L) t xe xn ∧
      (x = xe ∨ x = xn) := by
  obtain ⟨j, q, hj, hq, hor⟩ := twinPair_of_vertex g li L x hx
  have hm := (mem_levelEdges g li (j + 1) g.forEdges _).1 (getD_mem _ q default hq)
  exact ⟨_, _, _, hm.1, by omega, by omega, twinPair_at g li L j hj q hq, hor⟩

theorem twinPair_exists (g : Graph) (li : LevelInfo) (L : Nat) (t : Nat × Nat × Nat)
    (ht : t ∈ g.forEdges)
    (h0 : 0 < li.getHighestDifferingLevel (g.getCellNumber t.1) (g.getCellNumber t.2.1))
    (hL : li.getHighestDifferingLevel (g.getCellNumber t.1) (g.getCellNumber t.2.1) ≤ L) :
    ∃ xe xn, OverlayGraph.TwinPair g li (OverlayGraph.buildOverlayVertices g li L) t xe xn := by
  obtain ⟨j, q, hj, hq, _, he⟩ := twinPair_of_edge g li L t ht h0 hL
  have := twinPair_at g li L j hj q hq
  rw [he] at this
  exact ⟨_, _, this⟩

/-- The fields of an overlay vertex that `buildCells` keeps. -/
theorem buildCells_fields (li : LevelInfo) (L : Nat) (b : OverlayGraph.OverlayVertexBuild)
    (x : Nat) :
    (OverlayGraph.buildCells li L b).numberOfVertices = b.overlayVertices.length ∧
    ((OverlayGraph.buildCells li L b).getVertex x).originalVertex =
      (b.overlayVertices.getD x default).originalVertex ∧
    ((OverlayGraph.buildCells li L b).getVertex x).neighborOverlayVertex =
      (b.overlayVertices.getD x default).neighborOverlayVertex ∧
    ((OverlayGraph.buildCells li L b).getVertex x).cellNumber =
      (b.overlayVertices.getD x default).cellNumber ∧
    ((OverlayGraph.buildCells li L b).getVertex x).originalEdge =
      (b.overlayVertices.getD x default).originalEdge ∧
    ((OverlayGraph.buildCells li L b).getVertex x).entryExitPoint.length =
      (b.overlayVertices.getD x default).entryExitPoint.length := by
  have h := buildCellsState_inv li L b
  have hc := h.core x
  have hc' : ((OverlayGraph.buildCells li L b).getVertex x).core =
      (b.overlayVertices.getD x default).core := hc
  unfold OverlayVertex.core at hc'
  simp only [Prod.mk.injEq] at hc'
  exact ⟨h.len, hc'.1, hc'.2.1, hc'.2.2.1, hc'.2.2.2.1, hc'.2.2.2.2⟩

end CRP
namespace CRP

/-- A twin pair of the result of `buildOverlayVertices`, read in the overlay graph. -/
theorem twinPair_overlay (g : Graph) (li : LevelInfo) (L : Nat) (t : Nat × Nat × Nat)
    (xe xn : Nat)
    (hp : OverlayGraph.TwinPair g li (OverlayGraph.buildOverlayVertices g li L) t xe xn) :
    (OverlayGraph.buildCells li L (OverlayGraph.buildOverlayVertices g li L)).IsExitOf
        (OverlayGraph.buildOverlayVertices g li L).exitFlagsArray xe t.1 t.2.2 ∧
    ((OverlayGraph.buildCells li L
      (OverlayGraph.buildOverlayVertices g li L)).getVertex xe).neighborOverlayVertex = xn ∧
    ((OverlayGraph.buildCells li L
      (OverlayGraph.buildOverlayVertices g li L)).getVertex xn).neighborOverlayVertex = xe ∧
    ((OverlayGraph.buildCells li L
      (OverlayGraph.buildOverlayVertices g li L)).getVertex xn).originalVertex = t.2.1 ∧
    xn < (OverlayGraph.buildCells li L
      (OverlayGraph.buildOverlayVertices g li L)).numberOfVertices ∧
    (OverlayGraph.buildOverlayVertices g li L).exitFlagsArray.getD xn false = false ∧
    ((OverlayGraph.buildCells li L
      (OverlayGraph.buildOverlayVertices g li L)).getVertex xe).entryExitPoint.length =
      li.getHighestDifferingLevel (g.getCellNumber t.1) (g.getCellNumber t.2.1) ∧
    ((OverlayGraph.buildCells li L
      (OverlayGraph.buildOverlayVertices g li L)).getVertex xn).entryExitPoint.length =
      li.getHighestDifferingLevel (g.getCellNumber t.1) (g.getCellNumber t.2.1) := by
  obtain ⟨n1, a1, a2, _, a4, a5⟩ := buildCells_fields li L
    (OverlayGraph.buildOverlayVertices g li L) xe
  obtain ⟨_, b1, b2, _, b4, b5⟩ := buildCells_fields li L
    (OverlayGraph.buildOverlayVertices g li L) xn
  rw [hp.exitVertex] at a1 a2 a4 a5
  rw [hp.entryVertex] at b1 b2 b4 b5
  refine ⟨⟨by rw [n1]; exact hp.exitLt, hp.exitFlag, a1, a4⟩, a2, b2, b1,
    by rw [n1]; exact hp.entryLt, hp.entryFlag, ?_, ?_⟩
  · rw [a5]; simp
  · rw [b5]; simp

/-- The twins of the overlay graph reference each other, one of them is the exit vertex, and
the edge of the exit vertex leads to the vertex of the entry vertex. -/
theorem twin_neighbor (g : Graph) (li : LevelInfo) (L : Nat) (x : Nat)
    (hx : x < (OverlayGraph.buildCells li L
      (OverlayGraph.buildOverlayVertices g li L)).numberOfVertices) :
    ((OverlayGraph.buildCells li L
        (OverlayGraph.buildOverlayVertices g li L)).getVertex x).neighborOverlayVertex <
      (OverlayGraph.buildCells li L
        (OverlayGraph.buildOverlayVertices g li L)).numberOfVertices ∧
    ((OverlayGraph.buildCells li L (OverlayGraph.buildOverlayVertices g li L)).getVertex
      ((OverlayGraph.buildCells li L
        (OverlayGraph.buildOverlayVertices g li L)).getVertex x).neighborOverlayVertex
      ).neighborOverlayVertex = x ∧
    (OverlayGraph.buildOverlayVertices g li L).exitFlagsArray.getD
      ((OverlayGraph.buildCells li L
        (OverlayGraph.buildOverlayVertices g li L)).getVertex x).neighborOverlayVertex false =
      !(OverlayGraph.buildOverlayVertices g li L).exitFlagsArray.getD x false ∧
    ((OverlayGraph.buildOverlayVertices g li L).exitFlagsArray.getD x false = true →
      (g.getForwardEdge ((OverlayGraph.buildCells li L
        (OverlayGraph.buildOverlayVertices g li L)).getVertex x).originalEdge).head =
      ((OverlayGraph.buildCells li L (OverlayGraph.buildOverlayVertices g li L)).getVertex
        ((OverlayGraph.buildCells li L
          (OverlayGraph.buildOverlayVertices g li L)).getVertex x).neighborOverlayVertex
        ).originalVertex) ∧
    ((OverlayGraph.buildOverlayVertices g li L).exitFlagsArray.getD x false = false →
      (g.getForwardEdge ((OverlayGraph.buildCells li L
          (OverlayGraph.buildOverlayVertices g li L)).getVertex
        ((OverlayGraph.buildCells li L
          (OverlayGraph.buildOverlayVertices g li L)).getVertex x).neighborOverlayVertex
        ).originalEdge).head =
      ((OverlayGraph.buildCells li L
        (OverlayGraph.buildOverlayVertices g li L)).getVertex x).originalVertex) := by
  have hn := (buildCells_fields li L (OverlayGraph.buildOverlayVertices g li L) x).1
  obtain ⟨t, xe, xn, ht, _, _, hp, hor⟩ := twinPair_cases g li L x (by rw [← hn]; exact hx)
  obtain ⟨⟨e1, e2, e3, e4⟩, h2, h3, h4, h5, h6, _, _⟩ := twinPair_overlay g li L t xe xn hp
  have hhead := ((mem_forEdges g t).1 ht).2.2.2
  rcases hor with h | h
  · subst h
    rw [h2, h3, h6, e2, e4, h4]
    refine ⟨h5, rfl, rfl, fun _ => hhead.symm, fun h => absurd h (by simp)⟩
  · subst h
    rw [h3, h2, h6, e2, e4]
    refine ⟨e1, rfl, rfl, fun h => absurd h (by simp), fun _ => ?_⟩
    rw [h4]; exact hhead.symm

/-- The exit vertex and the entry vertex of a boundary edge exist and are unique. -/
theorem twin_exists_unique (g : Graph) (li : LevelInfo) (L : Nat) (t : Nat × Nat × Nat)
    (ht : t ∈ g.forEdges)
    (h0 : 0 < li.getHighestDifferingLevel (g.getCellNumber t.1) (g.getCellNumber t.2.1))
    (hL : li.getHighestDifferingLevel (g.getCellNumber t.1) (g.getCellNumber t.2.1) ≤ L) :
    (∃! x, (OverlayGraph.buildCells li L (OverlayGraph.buildOverlayVertices g li L)).IsExitOf
      (OverlayGraph.buildOverlayVertices g li L).exitFlagsArray x t.1 t.2.2) ∧
    (∃! y, (OverlayGraph.buildCells li L (OverlayGraph.buildOverlayVertices g li L)).IsEntryOf
      (OverlayGraph.buildOverlayVertices g li L).exitFlagsArray y t.1 t.2.1 t.2.2) ∧
    (∀ x, (OverlayGraph.buildCells li L (OverlayGraph.buildOverlayVertices g li L)).IsExitOf
        (OverlayGraph.buildOverlayVertices g li L).exitFlagsArray x t.1 t.2.2 →
      ((OverlayGraph.buildCells li L
        (OverlayGraph.buildOverlayVertices g li L)).getVertex x).entryExitPoint.length =
        li.getHighestDifferingLevel (g.getCellNumber t.1) (g.getCellNumber t.2.1)) ∧
    (∀ y, (OverlayGraph.buildCells li L (OverlayGraph.buildOverlayVertices g li L)).IsEntryOf
        (OverlayGraph.buildOverlayVertices g li L).exitFlagsArray y t.1 t.2.1 t.2.2 →
      ((OverlayGraph.buildCells li L
        (OverlayGraph.buildOverlayVertices g li L)).getVertex y).entryExitPoint.length =
        li.getHighestDifferingLevel (g.getCellNumber t.1) (g.getCellNumber t.2.1)) := by
  obtain ⟨xe, xn, hp⟩ := twinPair_exists g li L t ht h0 hL
  obtain ⟨hE, h2, h3, h4, h5, h6, h7, h8⟩ := twinPair_overlay g li L t xe xn hp
  have uniqE : ∀ x, (OverlayGraph.buildCells li L
      (OverlayGraph.buildOverlayVertices g li L)).IsExitOf
      (OverlayGraph.buildOverlayVertices g li L).exitFlagsArray x t.1 t.2.2 → x = xe := by
    rintro x ⟨x1, x2, x3, x4⟩
    obtain ⟨n1, a1, _, _, a4, _⟩ := buildCells_fields li L
      (OverlayGraph.buildOverlayVertices g li L) x
    exact twinPair_unique g li L t ht xe xn x hp (by rw [← n1]; exact x1) x2
      (by rw [← a1]; exact x3) (by rw [← a4]; exact x4)
  have uniqN : ∀ y, (OverlayGraph.buildCells li L
      (OverlayGraph.buildOverlayVertices g li L)).IsEntryOf
      (OverlayGraph.buildOverlayVertices g li L).exitFlagsArray y t.1 t.2.1 t.2.2 → y = xn := by
    rintro y ⟨y1, y2, y3, y4⟩
    have hnb := uniqE _ y4
    have := (twin_neighbor g li L y y1).2.1
    rw [hnb, h2] at this
    exact this.symm
  refine ⟨⟨xe, hE, uniqE⟩, ⟨xn, ⟨h5, h6, h4, by rw [h3]; exact hE⟩, uniqN⟩, ?_, ?_⟩
  · intro x hx
    rw [uniqE x hx]; exact h7
  · intro y hy
    rw [uniqN y hy]; exact h8

/-- Every overlay vertex is the exit vertex or the entry vertex of a boundary edge. -/
theorem twin_of_vertex (g : Graph) (li : LevelInfo) (L : Nat) (x : Nat)
    (hx : x < (OverlayGraph.buildCells li L
      (OverlayGraph.buildOverlayVertices g li L)).numberOfVertices) :
    ∃ t, t ∈ g.forEdges ∧
      0 < li.getHighestDifferingLevel (g.getCellNumber t.1) (g.getCellNumber t.2.1) ∧
      ((OverlayGraph.buildCells li L (OverlayGraph.buildOverlayVertices g li L)).IsExitOf
          (OverlayGraph.buildOverlayVertices g li L).exitFlagsArray x t.1 t.2.2 ∨
        (OverlayGraph.buildCells li L (OverlayGraph.buildOverlayVertices g li L)).IsEntryOf
          (OverlayGraph.buildOverlayVertices g li L).exitFlagsArray x t.1 t.2.1 t.2.2) := by
  have hn := (buildCells_fields li L (OverlayGraph.buildOverlayVertices g li L) x).1
  obtain ⟨t, xe, xn, ht, h0, _, hp, hor⟩ := twinPair_cases g li L x (by rw [← hn]; exact hx)
  obtain ⟨hE, h2, h3, h4, h5, h6, _, _⟩ := twinPair_overlay g li L t xe xn hp
  refine ⟨t, ht, h0, ?_⟩
  rcases hor with h | h
  · left; rw [h]; exact hE
  · right; rw [h]; exact ⟨h5, h6, h4, by rw [h3]; exact hE⟩

end CRP
namespace CRP

/-! ### The keys of the map -/

theorem mem_subVertexInsert (k : SubVertex) (x : Nat) (m : List (SubVertex × Nat))
    (q : SubVertex × Nat) (h : q ∈ OverlayGraph.subVertexInsert k x m) : q ∈ m ∨ q = (k, x) := by
  induction m with
  | nil =>
    unfold OverlayGraph.subVertexInsert at h
    right
    simpa using h
  | cons p m ih =>
    obtain ⟨k', y⟩ := p
    unfold OverlayGraph.subVertexInsert at h
    by_cases hk : k' = k
    · rw [if_pos hk] at h
      rcases List.mem_cons.1 h with h1 | h1
      · right; rw [h1, hk]
      · left; exact List.mem_cons_of_mem _ h1
    · rw [if_neg hk] at h
      rcases List.mem_cons.1 h with h1 | h1
      · left; rw [h1]; exact List.mem_cons_self _ _
      · rcases ih h1 with h2 | h2
        · left; exact List.mem_cons_of_mem _ h2
        · right; exact h2

theorem mem_insert_fold (ps : List (SubVertex × Nat)) :
    ∀ (m : List (SubVertex × Nat)) (q : SubVertex × Nat),
      q ∈ ps.foldl (fun m p => OverlayGraph.subVertexInsert p.1 p.2 m) m → q ∈ m ∨ q ∈ ps := by
  induction ps with
  | nil => intro m q h; left; exact h
  | cons p ps ih =>
    intro m q h
    rw [List.foldl_cons] at h
    rcases ih _ q h with h1 | h1
    · rcases mem_subVertexInsert _ _ _ _ h1 with h2 | h2
      · left; exact h2
      · right; rw [h2]; exact List.mem_cons_self _ _
    · right; exact List.mem_cons_of_mem _ h1

/-- Every entry of the map is the entry of an overlay vertex. -/
theorem mapEntries_of_mem (g : Graph) (li : LevelInfo) (L : Nat) (q : SubVertex × Nat)
    (hq : q ∈ (OverlayGraph.buildOverlayVertices g li L).originalToOverlayVertexMap) :
    q.2 < (OverlayGraph.buildOverlayVertices g li L).overlayVertices.length ∧
    q.1 = OverlayGraph.mapKey g (OverlayGraph.buildOverlayVertices g li L) q.2 := by
  obtain ⟨_, _, hm⟩ := buildOverlayVertices_eq g li L
  rw [hm] at hq
  rcases mem_insert_fold _ _ q hq with h | h
  · simp at h
  · rw [List.mem_flatten] at h
    obtain ⟨l, hl, hql⟩ := h
    rw [List.mem_map] at hl
    obtain ⟨j, hj, rfl⟩ := hl
    rw [List.mem_range] at hj
    obtain ⟨i, hi, he⟩ := List.getElem_of_mem hql
    have hi' : i < ((OverlayGraph.collectOverlayVertices g li L).getD j []).length := by
      have : (OverlayGraph.sortedBucket g li L j).mapEntries.length =
          ((OverlayGraph.collectOverlayVertices g li L).getD j []).length :=
        (sortBucket_lengths g _ _).2.2
      omega
    obtain ⟨h1, h2, h3⟩ := build_at g li L j hj i hi'
    obtain ⟨h4, h5⟩ := sortBucket_at g ((OverlayGraph.collectOverlayVertices g li L).getD j [])
      (OverlayGraph.bucketOffset g li L j) i hi'
    have h6 := sortBucket_entry_at g ((OverlayGraph.collectOverlayVertices g li L).getD j [])
      (OverlayGraph.bucketOffset g li L j) i hi'
    have e : (OverlayGraph.sortedBucket g li L j).mapEntries.getD i default =
        (OverlayGraph.mapKey g (OverlayGraph.buildOverlayVertices g li L)
          (OverlayGraph.bucketOffset g li L j + i), OverlayGraph.bucketOffset g li L j + i) := by
      show (OverlayGraph.sortBucket g _ _).mapEntries.getD i default = _
      rw [h6]
      unfold OverlayGraph.mapKey
      simp only
      rw [h2, h3]
      show _ = ((⟨((OverlayGraph.sortBucket g _ _).sortedVertices.getD i default).originalVertex,
        if (OverlayGraph.sortBucket g _ _).exitFlags.getD i false then
          g.getExitOrder ((OverlayGraph.sortBucket g _ _).sortedVertices.getD i
            default).originalVertex
            ((OverlayGraph.sortBucket g _ _).sortedVertices.getD i default).originalEdge
        else g.getEntryOrder ((OverlayGraph.sortBucket g _ _).sortedVertices.getD i
            default).originalVertex
            ((OverlayGraph.sortBucket g _ _).sortedVertices.getD i default).originalEdge,
        (OverlayGraph.sortBucket g _ _).exitFlags.getD i false⟩ : SubVertex), _)
      rw [h4, h5, Nat.add_comm]
    rw [List.getD_eq_getElem _ _ hi, he] at e
    rw [e]
    exact ⟨h1, rfl⟩

end CRP

namespace CRP

/-! ## sortVerticesByCellNumber -/

/-! ### The first loop -/

theorem sortCollect_cellVertices (g : Graph) (st : Graph.SortScratch) (i : Nat) :
    (g.sortCollect st i).cellVertices =
      st.cellVertices.set (g.vertex i).pvPtr
        (st.cellVertices.getD (g.vertex i).pvPtr [] ++ [(g.vertex i, i)]) := rfl

theorem sortCollect_fEdges (g : Graph) (st : Graph.SortScratch) (i : Nat) :
    (g.sortCollect st i).fEdges = st.fEdges.set i
      ((List.range (g.getOutDegree i)).map fun k =>
        g.getForwardEdge ((g.vertex i).firstOut + k)) := rfl

theorem sortCollect_bEdges (g : Graph) (st : Graph.SortScratch) (i : Nat) :
    (g.sortCollect st i).bEdges = st.bEdges.set i
      ((List.range (g.getInDegree i)).map fun k =>
        g.getBackwardEdge ((g.vertex i).firstIn + k)) := rfl

/-- The scratch vectors after the first `k` iterations of the first loop. -/
theorem sortScratch_prefix (g : Graph) (k : Nat) (hk : k ≤ g.numberOfVertices) :
    (((List.range k).foldl (g.sortCollect)
        { cellVertices := List.replicate g.cellNumbers.length [],
          numForwardEdgesInCell := List.replicate g.cellNumbers.length 0,
          numBackwardEdgesInCell := List.replicate g.cellNumbers.length 0,
          fEdges := List.replicate g.numberOfVertices [],
          bEdges := List.replicate g.numberOfVertices [],
          maxEdgesInCell := 0 }).cellVertices.length = g.cellNumbers.length ∧
      ∀ c, c < g.cellNumbers.length →
        ((List.range k).foldl (g.sortCollect)
          { cellVertices := List.replicate g.cellNumbers.length [],
            numForwardEdgesInCell := List.replicate g.cellNumbers.length 0,
            numBackwardEdgesInCell := List.replicate g.cellNumbers.length 0,
            fEdges := List.replicate g.numberOfVertices [],
            bEdges := List.replicate g.numberOfVertices [],
            maxEdgesInCell := 0 }).cellVertices.getD c [] =
          ((List.range k).filter (fun i => decide ((g.vertex i).pvPtr = c))).map
            (fun i => (g.vertex i, i))) ∧
    (((List.range k).foldl (g.sortCollect)
        { cellVertices := List.replicate g.cellNumbers.length [],
          numForwardEdgesInCell := List.replicate g.cellNumbers.length 0,
          numBackwardEdgesInCell := List.replicate g.cellNumbers.length 0,
          fEdges := List.replicate g.numberOfVertices [],
          bEdges := List.replicate g.numberOfVertices [],
          maxEdgesInCell := 0 }).fEdges.length = g.numberOfVertices ∧
      ∀ i, i < k →
        ((List.range k).foldl (g.sortCollect)
          { cellVertices := List.replicate g.cellNumbers.length [],
            numForwardEdgesInCell := List.replicate g.cellNumbers.length 0,
            numBackwardEdgesInCell := List.replicate g.cellNumbers.length 0,
            fEdges := List.replicate g.numberOfVertices [],
            bEdges := List.replicate g.numberOfVertices [],
            maxEdgesInCell := 0 }).fEdges.getD i [] =
          (List.range (g.getOutDegree i)).map fun k =>
            g.getForwardEdge ((g.vertex i).firstOut + k)) ∧
    (((List.range k).foldl (g.sortCollect)
        { cellVertices := List.replicate g.cellNumbers.length [],
          numForwardEdgesInCell := List.replicate g.cellNumbers.length 0,
          numBackwardEdgesInCell := List.replicate g.cellNumbers.length 0,
          fEdges := List.replicate g.numberOfVertices [],
          bEdges := List.replicate g.numberOfVertices [],
          maxEdgesInCell := 0 }).bEdges.length = g.numberOfVertices ∧
      ∀ i, i < k →
        ((List.range k).foldl (g.sortCollect)
          { cellVertices := List.replicate g.cellNumbers.length [],
            numForwardEdgesInCell := List.replicate g.cellNumbers.length 0,
            numBackwardEdgesInCell := List.replicate g.cellNumbers.length 0,
            fEdges := List.replicate g.numberOfVertices [],
            bEdges := List.replicate g.numberOfVertices [],
            maxEdgesInCell := 0 }).bEdges.getD i [] =
          (List.range (g.getInDegree i)).map fun k =>
            g.getBackwardEdge ((g.vertex i).firstIn + k)) := by
  induction k with
  | zero =>
    refine ⟨⟨by simp, ?_⟩, ⟨by simp, fun i hi => by omega⟩, ⟨by simp, fun i hi => by omega⟩⟩
    intro c hc
    simp only [List.range_zero, List.foldl_nil, List.filter_nil, List.map_nil]
    rw [List.getD_eq_getElem _ _ (by simpa using hc)]
    simp
  | succ k ih =>
    obtain ⟨⟨c1, c2⟩, ⟨f1, f2⟩, ⟨b1, b2⟩⟩ := ih (by omega)
    rw [List.range_succ, List.foldl_append, List.foldl_cons, List.foldl_nil]
    refine ⟨⟨?_, ?_⟩, ⟨?_, ?_⟩, ⟨?_, ?_⟩⟩
    · rw [sortCollect_cellVertices, List.length_set, c1]
    · intro c hc
      rw [sortCollect_cellVertices, List.filter_append, List.map_append]
      by_cases h : (g.vertex k).pvPtr = c
      · rw [h, getD_set_eq _ _ _ _ (by rw [c1]; exact hc), c2 c hc]
        simp [h]
      · rw [getD_set_ne _ _ _ _ _ h, c2 c hc]
        simp [h]
    · rw [sortCollect_fEdges, List.length_set, f1]
    · intro i hi
      rw [sortCollect_fEdges]
      by_cases h : i = k
      · subst h
        rw [getD_set_eq _ _ _ _ (by rw [f1]; omega)]
      · rw [getD_set_ne _ _ _ _ _ (fun h' => h h'.symm)]
        exact f2 i (by omega)
    · rw [sortCollect_bEdges, List.length_set, b1]
    · intro i hi
      rw [sortCollect_bEdges]
      by_cases h : i = k
      · subst h
        rw [getD_set_eq _ _ _ _ (by rw [b1]; omega)]
      · rw [getD_set_ne _ _ _ _ _ (fun h' => h h'.symm)]
        exact b2 i (by omega)

end CRP

namespace CRP

/-- The scratch vectors of `sortVerticesByCellNumber` after its first loop: the vertices of
every cell in increasing order, and the edges of every vertex. -/
theorem sortScratch_spec (g : Graph) :
    g.sortScratch.cellVertices =
      (List.range g.cellNumbers.length).map (fun c =>
        ((List.range g.numberOfVertices).filter (fun i => decide ((g.vertex i).pvPtr = c))).map
          (fun i => (g.vertex i, i))) ∧
    (∀ i, i < g.numberOfVertices → g.sortScratch.fEdges.getD i [] =
      (List.range (g.getOutDegree i)).map fun k =>
        g.getForwardEdge ((g.vertex i).firstOut + k)) ∧
    (∀ i, i < g.numberOfVertices → g.sortScratch.bEdges.getD i [] =
      (List.range (g.getInDegree i)).map fun k =>
        g.getBackwardEdge ((g.vertex i).firstIn + k)) := by
  obtain ⟨⟨c1, c2⟩, ⟨_, f2⟩, ⟨_, b2⟩⟩ := sortScratch_prefix g g.numberOfVertices (le_refl _)
  refine ⟨?_, f2, b2⟩
  apply List.ext_getElem
  · rw [List.length_map, List.length_range]; exact c1
  · intro c h1 h2
    have hc : c < g.cellNumbers.length := by simpa using h2
    have this : g.sortScratch.cellVertices.getD c [] = _ := c2 c hc
    rw [List.getD_eq_getElem _ _ h1] at this
    rw [List.getElem_map, List.getElem_range]
    exact this

theorem sortOrder_eq (g : Graph) :
    g.sortOrder = (List.range g.cellNumbers.length).flatMap (fun c =>
      (List.range g.numberOfVertices).filter (fun i => decide ((g.vertex i).pvPtr = c))) := by
  unfold Graph.sortOrder
  rw [(sortScratch_spec g).1, List.flatMap_def, List.map_flatten, List.map_map]
  congr 1
  apply List.map_congr_left
  intro c _
  show List.map Prod.snd (List.map (fun i => (g.vertex i, i)) _) = _
  rw [List.map_map]
  exact List.map_id' _

theorem sortScratch_flatten (g : Graph) :
    g.sortScratch.cellVertices.flatten = g.sortOrder.map (fun i => (g.vertex i, i)) := by
  rw [sortOrder_eq, (sortScratch_spec g).1, List.flatMap_def, List.map_flatten, List.map_map]
  rfl

theorem mem_sortOrder (g : Graph) (i : Nat) :
    i ∈ g.sortOrder ↔ i < g.numberOfVertices ∧ (g.vertex i).pvPtr < g.cellNumbers.length := by
  rw [sortOrder_eq]
  simp only [List.mem_flatMap, List.mem_range, List.mem_filter, decide_eq_true_eq]
  constructor
  · rintro ⟨c, hc, hi, rfl⟩
    exact ⟨hi, hc⟩
  · rintro ⟨hi, hc⟩
    exact ⟨_, hc, hi, rfl⟩

theorem sortOrder_nodup (g : Graph) : g.sortOrder.Nodup := by
  rw [sortOrder_eq, List.nodup_flatMap]
  constructor
  · intro c _
    exact (List.nodup_range _).filter _
  · apply List.Pairwise.imp _ (List.nodup_range _)
    intro a b hab
    simp only [Function.onFun, List.disjoint_left, List.mem_filter, decide_eq_true_eq]
    rintro i ⟨_, h1⟩ ⟨_, h2⟩
    exact hab (h1.symm.trans h2)

/-- The order of `sortVerticesByCellNumber` is a permutation of the vertices. -/
theorem sortOrder_perm (g : Graph)
    (hcell : ∀ u, u < g.numberOfVertices → (g.vertex u).pvPtr < g.cellNumbers.length) :
    g.sortOrder.Perm (List.range g.numberOfVertices) := by
  rw [List.perm_ext_iff_of_nodup (sortOrder_nodup g) (List.nodup_range _)]
  intro i
  rw [mem_sortOrder, List.mem_range]
  constructor
  · intro h; exact h.1
  · intro h; exact ⟨h, hcell i h⟩

theorem sortOrder_length (g : Graph)
    (hcell : ∀ u, u < g.numberOfVertices → (g.vertex u).pvPtr < g.cellNumbers.length) :
    g.sortOrder.length = g.numberOfVertices := by
  rw [(sortOrder_perm g hcell).length_eq, List.length_range]

theorem sortOrder_lt (g : Graph)
    (hcell : ∀ u, u < g.numberOfVertices → (g.vertex u).pvPtr < g.cellNumbers.length)
    (j : Nat) (hj : j < g.numberOfVertices) : g.sortOrder.getD j 0 < g.numberOfVertices := by
  have := getD_mem g.sortOrder j 0 (by rw [sortOrder_length g hcell]; exact hj)
  exact ((mem_sortOrder g _).1 this).1

/-! ### The vector `newId` -/

theorem newId_fold (ps : List (Vertex × Nat)) :
    ∀ (m : List Nat) (c : Nat), (ps.map Prod.snd).Nodup → (∀ p, p ∈ ps → p.2 < m.length) →
      (ps.foldl (fun (acc : List Nat × Nat) p => (acc.1.set p.2 acc.2, acc.2 + 1))
        (m, c)).1.length = m.length ∧
      ∀ j, j < ps.length →
        (ps.foldl (fun (acc : List Nat × Nat) p => (acc.1.set p.2 acc.2, acc.2 + 1))
          (m, c)).1.getD (ps.getD j default).2 0 = c + j := by
  induction ps with
  | nil =>
    intro m c _ _
    exact ⟨rfl, fun j hj => by simp at hj⟩
  | cons p ps ih =>
    intro m c hnd hlt
    rw [List.foldl_cons]
    rw [List.map_cons, List.nodup_cons] at hnd
    obtain ⟨h1, h2⟩ := ih (m.set p.2 c) (c + 1) hnd.2 (by
      intro q hq
      rw [List.length_set]
      exact hlt q (List.mem_cons_of_mem _ hq))
    refine ⟨by rw [h1, List.length_set], ?_⟩
    intro j hj
    cases j with
    | zero =>
      simp only [List.getD_cons_zero, Nat.add_zero]
      -- the later writes go to other indices
      have key : ∀ (qs : List (Vertex × Nat)) (m' : List Nat) (c' : Nat),
          p.2 ∉ qs.map Prod.snd →
          (qs.foldl (fun (acc : List Nat × Nat) p => (acc.1.set p.2 acc.2, acc.2 + 1))
            (m', c')).1.getD p.2 0 = m'.getD p.2 0 := by
        intro qs
        induction qs with
        | nil => intro m' c' _; rfl
        | cons q qs ih2 =>
          intro m' c' hn
          rw [List.map_cons, List.mem_cons, not_or] at hn
          rw [List.foldl_cons, ih2 _ _ hn.2]
          exact getD_set_ne _ _ _ _ _ (fun h => hn.1 h.symm)
      rw [key ps _ _ hnd.1, getD_set_eq _ _ _ _ (hlt p (List.mem_cons_self _ _))]
    | succ j =>
      simp only [List.getD_cons_succ]
      rw [h2 j (by simpa using hj)]
      omega

/-- The vector `newId` is the inverse of the order. -/
theorem sortNewId_spec (g : Graph)
    (hcell : ∀ u, u < g.numberOfVertices → (g.vertex u).pvPtr < g.cellNumbers.length) :
    (∀ j, j < g.numberOfVertices →
      (g.sortNewId g.sortScratch.cellVertices).getD (g.sortOrder.getD j 0) 0 = j) ∧
    (∀ i, i < g.numberOfVertices →
      (g.sortNewId g.sortScratch.cellVertices).getD i 0 < g.numberOfVertices ∧
      g.sortOrder.getD ((g.sortNewId g.sortScratch.cellVertices).getD i 0) 0 = i) := by
  have hlen := sortOrder_length g hcell
  have hfold := newId_fold g.sortScratch.cellVertices.flatten
    (List.replicate g.numberOfVertices 0) 0 (sortOrder_nodup g) (by
      intro p hp
      rw [List.length_replicate]
      have : p.2 ∈ g.sortOrder := List.mem_map_of_mem _ hp
      exact ((mem_sortOrder g _).1 this).1)
  have h1 : ∀ j, j < g.numberOfVertices →
      (g.sortNewId g.sortScratch.cellVertices).getD (g.sortOrder.getD j 0) 0 = j := by
    intro j hj
    have := hfold.2 j (by
      have : g.sortScratch.cellVertices.flatten.length = g.sortOrder.length := by
        unfold Graph.sortOrder; rw [List.length_map]
      rw [this, hlen]; exact hj)
    have hfl : g.sortScratch.cellVertices.flatten.length = g.sortOrder.length := by
      unfold Graph.sortOrder; rw [List.length_map]
    have e : (g.sortScratch.cellVertices.flatten.getD j default).2 = g.sortOrder.getD j 0 := by
      unfold Graph.sortOrder
      rw [List.getD_eq_getElem _ _ (by rw [hfl, hlen]; exact hj),
        List.getD_eq_getElem _ _ (by rw [List.length_map, hfl, hlen]; exact hj),
        List.getElem_map]
    rw [e] at this
    unfold Graph.sortNewId
    rw [this, Nat.zero_add]
  refine ⟨h1, ?_⟩
  intro i hi
  have hm : i ∈ g.sortOrder := (mem_sortOrder g i).2 ⟨hi, hcell i hi⟩
  obtain ⟨j, hj, he⟩ := List.getElem_of_mem hm
  have hj' : j < g.numberOfVertices := by rw [← hlen]; exact hj
  have e : g.sortOrder.getD j 0 = i := by rw [List.getD_eq_getElem _ _ hj]; exact he
  have := h1 j hj'
  rw [e] at this
  rw [this]
  exact ⟨hj', e⟩

end CRP
namespace CRP

/-! ### Lists of blocks -/

theorem prefixSum_zero (f : Nat → Nat) (order : List Nat) : prefixSum f order 0 = 0 := by
  simp [prefixSum]

theorem prefixSum_succ (f : Nat → Nat) (order : List Nat) (j : Nat) (hj : j < order.length) :
    prefixSum f order (j + 1) = prefixSum f order j + f (order.getD j 0) := by
  unfold prefixSum
  rw [List.take_succ, List.map_append, List.sum_append]
  rw [List.getD_eq_getElem _ _ hj, List.getElem?_eq_getElem hj]
  simp

theorem prefixSum_mono (f : Nat → Nat) (order : List Nat) {i j : Nat} (hij : i ≤ j) :
    prefixSum f order i ≤ prefixSum f order j := by
  induction j with
  | zero =>
    have : i = 0 := by omega
    rw [this]
  | succ j ih =>
    rcases Nat.eq_or_lt_of_le hij with h | h
    · rw [h]
    · have h1 := ih (by omega)
      by_cases hj : j < order.length
      · rw [prefixSum_succ f order j hj]; omega
      · have : prefixSum f order (j + 1) = prefixSum f order j := by
          unfold prefixSum
          rw [List.take_of_length_le (by omega), List.take_of_length_le (by omega)]
        rw [this]; exact h1

theorem prefixSum_total (f : Nat → Nat) (order : List Nat) :
    prefixSum f order order.length = (order.map f).sum := by
  unfold prefixSum
  rw [List.take_length]

/-- In a list of blocks, the block `c` starts at the sum of the lengths of the blocks before
it. -/
theorem flatten_getD_at {α : Type} (d : α) (bs : List (List α)) :
    ∀ c, c < bs.length →
      ((bs.take c).map List.length).sum + (bs.getD c []).length =
        ((bs.take (c + 1)).map List.length).sum ∧
      ((bs.take (c + 1)).map List.length).sum ≤ bs.flatten.length ∧
      ∀ i, i < (bs.getD c []).length →
        bs.flatten.getD (((bs.take c).map List.length).sum + i) d = (bs.getD c []).getD i d := by
  induction bs with
  | nil => intro c hc; simp at hc
  | cons b0 rest ih =>
    intro c hc
    cases c with
    | zero =>
      refine ⟨by simp, by simp, ?_⟩
      intro i hi
      have hi' : i < b0.length := hi
      simp only [List.take_zero, List.map_nil, List.sum_nil, Nat.zero_add, List.flatten_cons,
        List.getD_cons_zero]
      rw [List.getD_append _ _ _ _ hi']
    | succ c =>
      obtain ⟨h1, h2, h3⟩ := ih c (by simpa using hc)
      simp only [List.take_succ_cons, List.map_cons, List.sum_cons, List.getD_cons_succ,
        List.flatten_cons, List.length_append]
      refine ⟨by omega, by omega, ?_⟩
      intro i hi
      rw [List.getD_append_right _ _ _ _ (by omega)]
      have : b0.length + ((rest.take c).map List.length).sum + i - b0.length =
          ((rest.take c).map List.length).sum + i := by omega
      rw [this]
      exact h3 i hi

theorem take_sum_all {α : Type} (bs : List (List α)) :
    ((bs.take bs.length).map List.length).sum = bs.flatten.length := by
  rw [List.take_length, List.length_flatten]

/-- Induction over a fold with the index of the element. -/
theorem foldl_index {α β : Type} (f : β → α → β) (xs : List α) (d : α) (I : Nat → β → Prop) :
    ∀ (s : β) (J : Nat), I J s →
      (∀ i s, i < xs.length → I (J + i) s → I (J + i + 1) (f s (xs.getD i d))) →
      I (J + xs.length) (xs.foldl f s) := by
  induction xs with
  | nil => intro s J h _; exact h
  | cons x xs ih =>
    intro s J h hstep
    rw [List.foldl_cons, List.length_cons]
    have h1 : I (J + 1) (f s x) := hstep 0 s (by simp) h
    have := ih (f s x) (J + 1) h1 (by
      intro i s' hi hI
      have := hstep (i + 1) s' (by simpa using hi) (by
        have e : J + (i + 1) = J + 1 + i := by omega
        rw [e]; exact hI)
      have e : J + (i + 1) + 1 = J + 1 + i + 1 := by omega
      rw [← e]
      simpa using this)
    have e : J + (xs.length + 1) = J + 1 + xs.length := by omega
    rw [e]; exact this

/-- A block of array writes at the indices `off, ..., off + len - 1`. -/
theorem foldl_block {α : Type} (vals : Nat → α) (off : Nat) (xs : List α) (d : α) (len : Nat) :
    ((List.range len).foldl (fun (acc : List α) k => acc.set (off + k) (vals k)) xs).length =
      xs.length ∧
    ∀ q, ((List.range len).foldl (fun (acc : List α) k => acc.set (off + k) (vals k)) xs).getD
        q d =
      if off ≤ q ∧ q < off + len ∧ q < xs.length then vals (q - off) else xs.getD q d := by
  induction len with
  | zero =>
    refine ⟨rfl, ?_⟩
    intro q
    rw [if_neg (by omega)]
    rfl
  | succ len ih =>
    obtain ⟨h1, h2⟩ := ih
    rw [List.range_succ, List.foldl_append, List.foldl_cons, List.foldl_nil]
    refine ⟨by rw [List.length_set, h1], ?_⟩
    intro q
    by_cases hq : off + len = q
    · by_cases hlt : q < xs.length
      · rw [hq, getD_set_eq _ _ _ _ (by rw [h1]; exact hlt), if_pos (by omega)]
        congr 1
        omega
      · rw [hq, getD_set_of_ge _ _ _ _ _ (by rw [h1]; omega), h2 q, if_neg (by omega),
          if_neg (by omega)]
    · rw [getD_set_ne _ _ _ _ _ hq, h2 q]
      by_cases hc : off ≤ q ∧ q < off + len ∧ q < xs.length
      · rw [if_pos hc, if_pos (by omega)]
      · rw [if_neg hc, if_neg (by omega)]

end CRP
namespace CRP

/-! ### The degrees add up to the number of the edges -/

theorem offsets_firstOut_sum (g : Graph) (hoff : g.Offsets) (k : Nat)
    (hk : k ≤ g.numberOfVertices) :
    ((List.range k).map g.getOutDegree).sum = (g.vertex k).firstOut ∧
    ((List.range k).map g.getInDegree).sum = (g.vertex k).firstIn := by
  induction k with
  | zero => simp [hoff.firstOutZero, hoff.firstInZero]
  | succ k ih =>
    obtain ⟨h1, h2⟩ := ih (by omega)
    have m1 := hoff.monoOut k (by omega)
    have m2 := hoff.monoIn k (by omega)
    rw [List.range_succ, List.map_append, List.sum_append, List.map_append, List.sum_append,
      h1, h2]
    simp only [List.map_cons, List.map_nil, List.sum_cons, List.sum_nil, Nat.add_zero]
    unfold Graph.getOutDegree Graph.getInDegree
    omega

theorem sortOrder_total (g : Graph) (hoff : g.Offsets) :
    prefixSum g.getOutDegree g.sortOrder g.numberOfVertices = g.numberOfEdges ∧
    prefixSum g.getInDegree g.sortOrder g.numberOfVertices = g.numberOfEdges := by
  have hp := sortOrder_perm g hoff.cell
  have hl := sortOrder_length g hoff.cell
  obtain ⟨h1, h2⟩ := offsets_firstOut_sum g hoff g.numberOfVertices (le_refl _)
  rw [hoff.firstOutLast] at h1
  rw [hoff.firstInLast] at h2
  constructor
  · rw [← hl, prefixSum_total, (hp.map _).sum_eq, h1]
  · rw [← hl, prefixSum_total, (hp.map _).sum_eq, h2]

theorem sortOrder_bound (g : Graph) (hoff : g.Offsets) (j : Nat)
    (hj : j ≤ g.numberOfVertices) :
    prefixSum g.getOutDegree g.sortOrder j ≤ g.numberOfEdges ∧
    prefixSum g.getInDegree g.sortOrder j ≤ g.numberOfEdges := by
  obtain ⟨h1, h2⟩ := sortOrder_total g hoff
  have a := prefixSum_mono g.getOutDegree g.sortOrder hj
  have b := prefixSum_mono g.getInDegree g.sortOrder hj
  omega

/-! ### The last loop -/

theorem sortPlaceVertex_fields (sc : Graph.SortScratch) (newId : List Nat)
    (st : Graph.SortState) (p : Vertex × Nat) :
    (Graph.sortPlaceVertex sc newId st p).vertices = st.vertices.set st.vId
      { p.1 with firstOut := st.forwardOffset, firstIn := st.backwardOffset } ∧
    (Graph.sortPlaceVertex sc newId st p).forwardEdges =
      (List.range (sc.fEdges.getD p.2 []).length).foldl
        (fun (acc : List ForwardEdge) k =>
          acc.set (st.forwardOffset + k)
            { ((sc.fEdges.getD p.2 []).getD k default) with
              head := newId.getD ((sc.fEdges.getD p.2 []).getD k default).head 0 })
        st.forwardEdges ∧
    (Graph.sortPlaceVertex sc newId st p).backwardEdges =
      (List.range (sc.bEdges.getD p.2 []).length).foldl
        (fun (acc : List BackwardEdge) k =>
          acc.set (st.backwardOffset + k)
            { ((sc.bEdges.getD p.2 []).getD k default) with
              tail := newId.getD ((sc.bEdges.getD p.2 []).getD k default).tail 0 })
        st.backwardEdges ∧
    (Graph.sortPlaceVertex sc newId st p).vId = st.vId + 1 ∧
    (Graph.sortPlaceVertex sc newId st p).forwardOffset =
      st.forwardOffset + (sc.fEdges.getD p.2 []).length ∧
    (Graph.sortPlaceVertex sc newId st p).backwardOffset =
      st.backwardOffset + (sc.bEdges.getD p.2 []).length ∧
    (Graph.sortPlaceVertex sc newId st p).forwardEdgeCellOffset = st.forwardEdgeCellOffset ∧
    (Graph.sortPlaceVertex sc newId st p).backwardEdgeCellOffset = st.backwardEdgeCellOffset :=
  ⟨rfl, rfl, rfl, rfl, rfl, rfl, rfl, rfl⟩

/-- Placing the vertex with the index `J` of the order. -/
theorem sortPlaceVertex_inv (g : Graph) (hoff : g.Offsets) (J : Nat)
    (hJ : J < g.numberOfVertices) (st : Graph.SortState) (h : g.SortInv J st) :
    g.SortInv (J + 1) (Graph.sortPlaceVertex g.sortScratch
      (g.sortNewId g.sortScratch.cellVertices) st
      (g.vertex (g.sortOrder.getD J 0), g.sortOrder.getD J 0)) := by
  have hl := sortOrder_length g hoff.cell
  have hi := sortOrder_lt g hoff.cell J hJ
  obtain ⟨_, hf, hb⟩ := sortScratch_spec g
  have hfs := hf _ hi
  have hbs := hb _ hi
  obtain ⟨e1, e2, e3, e4, e5, e6, _, _⟩ := sortPlaceVertex_fields g.sortScratch
    (g.sortNewId g.sortScratch.cellVertices) st
    (g.vertex (g.sortOrder.getD J 0), g.sortOrder.getD J 0)
  simp only at e1 e2 e3 e4 e5 e6
  rw [hfs] at e2 e5
  rw [hbs] at e3 e6
  rw [List.length_map, List.length_range] at e2 e3 e5 e6
  have pF := prefixSum_succ g.getOutDegree g.sortOrder J (by rw [hl]; exact hJ)
  have pB := prefixSum_succ g.getInDegree g.sortOrder J (by rw [hl]; exact hJ)
  obtain ⟨bF, bB⟩ := sortOrder_bound g hoff (J + 1) (by omega)
  have hn : g.numberOfVertices + 1 = g.vertices.length := by
    have := hoff.sentinel
    unfold Graph.numberOfVertices
    omega
  have blkF := foldl_block (fun k =>
    ({ (((List.range (g.getOutDegree (g.sortOrder.getD J 0))).map fun k =>
          g.getForwardEdge ((g.vertex (g.sortOrder.getD J 0)).firstOut + k)).getD k default) with
        head := (g.sortNewId g.sortScratch.cellVertices).getD
          ((((List.range (g.getOutDegree (g.sortOrder.getD J 0))).map fun k =>
            g.getForwardEdge ((g.vertex (g.sortOrder.getD J 0)).firstOut + k)).getD k
              default).head) 0 } : ForwardEdge))
    st.forwardOffset st.forwardEdges default (g.getOutDegree (g.sortOrder.getD J 0))
  have blkB := foldl_block (fun k =>
    ({ (((List.range (g.getInDegree (g.sortOrder.getD J 0))).map fun k =>
          g.getBackwardEdge ((g.vertex (g.sortOrder.getD J 0)).firstIn + k)).getD k default) with
        tail := (g.sortNewId g.sortScratch.cellVertices).getD
          ((((List.range (g.getInDegree (g.sortOrder.getD J 0))).map fun k =>
            g.getBackwardEdge ((g.vertex (g.sortOrder.getD J 0)).firstIn + k)).getD k
              default).tail) 0 } : BackwardEdge))
    st.backwardOffset st.backwardEdges default (g.getInDegree (g.sortOrder.getD J 0))
  rw [← e2] at blkF
  rw [← e3] at blkB
  refine ⟨?_, ?_, ?_, ?_, ?_, ?_, ?_, ?_, ?_, ?_⟩
  · rw [e4, h.vId]
  · rw [e5, h.forwardOffset, pF]
  · rw [e6, h.backwardOffset, pB]
  · rw [e1, List.length_set, h.lenVertices]
  · rw [blkF.1, h.lenForward]
  · rw [blkB.1, h.lenBackward]
  · intro j hj
    rw [e1, h.vId, h.forwardOffset, h.backwardOffset]
    by_cases hjJ : j = J
    · subst hjJ
      rw [getD_set_eq _ _ _ _ (by rw [h.lenVertices]; omega)]
    · rw [getD_set_ne _ _ _ _ _ (fun h' => hjJ h'.symm)]
      exact h.placed j (by omega)
  · intro j hj
    rw [e1, h.vId, getD_set_ne _ _ _ _ _ (by omega)]
    exact h.rest j (by omega)
  · intro j hj k hk
    rw [blkF.2, h.forwardOffset, h.lenForward]
    by_cases hjJ : j = J
    · subst hjJ
      rw [if_pos ⟨by omega, by omega, by
        unfold Graph.numberOfEdges at bF; omega⟩]
      simp only [Nat.add_sub_cancel_left]
      rw [getD_map_range _ _ _ _ hk]
    · have hlt : j < J := by omega
      have p1 := prefixSum_succ g.getOutDegree g.sortOrder j (by rw [hl]; omega)
      have p2 := prefixSum_mono g.getOutDegree g.sortOrder (show j + 1 ≤ J by omega)
      rw [if_neg (by omega)]
      exact h.forward j hlt k hk
  · intro j hj k hk
    rw [blkB.2, h.backwardOffset, h.lenBackward]
    by_cases hjJ : j = J
    · subst hjJ
      rw [if_pos ⟨by omega, by omega, by
        unfold Graph.numberOfEdges at bB; have := hoff.lenBackward; omega⟩]
      simp only [Nat.add_sub_cancel_left]
      rw [getD_map_range _ _ _ _ hk]
    · have hlt : j < J := by omega
      have p1 := prefixSum_succ g.getInDegree g.sortOrder j (by rw [hl]; omega)
      have p2 := prefixSum_mono g.getInDegree g.sortOrder (show j + 1 ≤ J by omega)
      rw [if_neg (by omega)]
      exact h.backward j hlt k hk

end CRP
namespace CRP

theorem sortScratch_length (g : Graph) :
    g.sortScratch.cellVertices.length = g.cellNumbers.length := by
  rw [(sortScratch_spec g).1, List.length_map, List.length_range]

theorem cellStart_facts (g : Graph)
    (hcell : ∀ u, u < g.numberOfVertices → (g.vertex u).pvPtr < g.cellNumbers.length)
    (c : Nat) (hc : c < g.cellNumbers.length) :
    g.cellStart c + (g.sortScratch.cellVertices.getD c []).length = g.cellStart (c + 1) ∧
    g.cellStart (c + 1) ≤ g.numberOfVertices ∧
    ∀ i, i < (g.sortScratch.cellVertices.getD c []).length →
      (g.sortScratch.cellVertices.getD c []).getD i default =
        (g.vertex (g.sortOrder.getD (g.cellStart c + i) 0),
          g.sortOrder.getD (g.cellStart c + i) 0) := by
  obtain ⟨h1, h2, h3⟩ := flatten_getD_at (default : Vertex × Nat) g.sortScratch.cellVertices c
    (by rw [sortScratch_length]; exact hc)
  have hl := sortOrder_length g hcell
  have hfl : g.sortScratch.cellVertices.flatten.length = g.numberOfVertices := by
    rw [← hl]; unfold Graph.sortOrder; rw [List.length_map]
  have h1' : g.cellStart c + (g.sortScratch.cellVertices.getD c []).length =
      g.cellStart (c + 1) := h1
  have h2' : g.cellStart (c + 1) ≤ g.sortScratch.cellVertices.flatten.length := h2
  refine ⟨h1', by rw [← hfl]; exact h2', ?_⟩
  intro i hi
  rw [← h3 i hi, sortScratch_flatten]
  have hlt : g.cellStart c + i < g.sortOrder.length := by omega
  show (g.sortOrder.map fun i => (g.vertex i, i)).getD (g.cellStart c + i) default = _
  rw [List.getD_eq_getElem _ _ (by rw [List.length_map]; exact hlt), List.getElem_map,
    List.getD_eq_getElem _ _ hlt]

theorem cellStart_zero (g : Graph) : g.cellStart 0 = 0 := by
  simp [Graph.cellStart]

theorem cellStart_last (g : Graph)
    (hcell : ∀ u, u < g.numberOfVertices → (g.vertex u).pvPtr < g.cellNumbers.length) :
    g.cellStart g.cellNumbers.length = g.numberOfVertices := by
  unfold Graph.cellStart
  rw [← sortScratch_length, take_sum_all, ← sortOrder_length g hcell]
  unfold Graph.sortOrder
  rw [List.length_map]

/-- Placing the vertices of the cell `c`. -/
theorem sortPlaceCell_inv (g : Graph) (hoff : g.Offsets) (c : Nat)
    (hc : c < g.cellNumbers.length) (st : Graph.SortState) (h : g.CellInv c st) :
    g.CellInv (c + 1) (Graph.sortPlaceCell g.sortScratch
      (g.sortNewId g.sortScratch.cellVertices) st c) := by
  obtain ⟨c1, c2, c3⟩ := cellStart_facts g hoff.cell c hc
  have hI := foldl_index
    (Graph.sortPlaceVertex g.sortScratch (g.sortNewId g.sortScratch.cellVertices))
    (g.sortScratch.cellVertices.getD c []) default
    (fun J s => g.SortInv J s ∧
      s.forwardEdgeCellOffset = st.forwardEdgeCellOffset.set c st.forwardOffset ∧
      s.backwardEdgeCellOffset = st.backwardEdgeCellOffset.set c st.backwardOffset)
    { st with
      forwardEdgeCellOffset := st.forwardEdgeCellOffset.set c st.forwardOffset,
      backwardEdgeCellOffset := st.backwardEdgeCellOffset.set c st.backwardOffset }
    (g.cellStart c)
    ⟨⟨h.inv.vId, h.inv.forwardOffset, h.inv.backwardOffset, h.inv.lenVertices,
      h.inv.lenForward, h.inv.lenBackward, h.inv.placed, h.inv.rest, h.inv.forward,
      h.inv.backward⟩, rfl, rfl⟩
    (by
      intro i s hi ⟨hs, hf, hb⟩
      rw [c3 i hi]
      refine ⟨sortPlaceVertex_inv g hoff _ (by omega) s hs, ?_, ?_⟩
      · rw [← hf]; rfl
      · rw [← hb]; rfl)
  rw [c1] at hI
  obtain ⟨hs, hf, hb⟩ := hI
  have hf' : (Graph.sortPlaceCell g.sortScratch (g.sortNewId g.sortScratch.cellVertices) st
      c).forwardEdgeCellOffset = st.forwardEdgeCellOffset.set c st.forwardOffset := hf
  have hb' : (Graph.sortPlaceCell g.sortScratch (g.sortNewId g.sortScratch.cellVertices) st
      c).backwardEdgeCellOffset = st.backwardEdgeCellOffset.set c st.backwardOffset := hb
  refine ⟨hs, ?_, ?_, ?_, ?_⟩
  · rw [hf', List.length_set, h.lenForwardOffset]
  · rw [hb', List.length_set, h.lenBackwardOffset]
  · intro d hd
    rw [hf']
    by_cases hdc : d = c
    · subst hdc
      rw [getD_set_eq _ _ _ _ (by rw [h.lenForwardOffset]; exact hc), h.inv.forwardOffset]
    · rw [getD_set_ne _ _ _ _ _ (fun h' => hdc h'.symm)]
      exact h.forwardOffsets d (by omega)
  · intro d hd
    rw [hb']
    by_cases hdc : d = c
    · subst hdc
      rw [getD_set_eq _ _ _ _ (by rw [h.lenBackwardOffset]; exact hc), h.inv.backwardOffset]
    · rw [getD_set_ne _ _ _ _ _ (fun h' => hdc h'.symm)]
      exact h.backwardOffsets d (by omega)

/-- The state after the last loop: all vertices are placed. -/
theorem sortState_inv (g : Graph) (hoff : g.Offsets) :
    g.CellInv g.cellNumbers.length g.sortState ∧
    g.SortInv g.numberOfVertices g.sortState := by
  have hI := foldl_index
    (Graph.sortPlaceCell g.sortScratch (g.sortNewId g.sortScratch.cellVertices))
    (List.range g.cellNumbers.length) 0 (fun c s => g.CellInv c s)
    { vertices := g.vertices, forwardEdges := g.forwardEdges, backwardEdges := g.backwardEdges,
      forwardEdgeCellOffset := List.replicate g.cellNumbers.length 0,
      backwardEdgeCellOffset := List.replicate g.cellNumbers.length 0,
      vId := 0, forwardOffset := 0, backwardOffset := 0 } 0
    (by
      refine ⟨⟨?_, ?_, ?_, rfl, rfl, rfl, ?_, ?_, ?_, ?_⟩, by simp, by simp, ?_, ?_⟩
      · rw [cellStart_zero]
      · rw [cellStart_zero, prefixSum_zero]
      · rw [cellStart_zero, prefixSum_zero]
      · intro j hj; rw [cellStart_zero] at hj; omega
      · intro j _; rfl
      · intro j hj; rw [cellStart_zero] at hj; omega
      · intro j hj; rw [cellStart_zero] at hj; omega
      · intro d hd; omega
      · intro d hd; omega)
    (by
      intro c s hc hs
      rw [List.length_range] at hc
      rw [Nat.zero_add] at hs ⊢
      rw [List.getD_eq_getElem _ _ (by simpa using hc), List.getElem_range]
      exact sortPlaceCell_inv g hoff c hc s hs)
  rw [Nat.zero_add, List.length_range] at hI
  have hI' : g.CellInv g.cellNumbers.length g.sortState := hI
  refine ⟨hI', ?_⟩
  have := hI'.inv
  rw [cellStart_last g hoff.cell] at this
  exact this

end CRP
namespace CRP

/-! ### The sorted graph -/

theorem sorted_fields (g : Graph) :
    g.sortVerticesByCellNumber.vertices = g.sortState.vertices ∧
    g.sortVerticesByCellNumber.forwardEdges = g.sortState.forwardEdges ∧
    g.sortVerticesByCellNumber.backwardEdges = g.sortState.backwardEdges ∧
    g.sortVerticesByCellNumber.forwardEdgeCellOffset = g.sortState.forwardEdgeCellOffset ∧
    g.sortVerticesByCellNumber.backwardEdgeCellOffset = g.sortState.backwardEdgeCellOffset ∧
    g.sortVerticesByCellNumber.cellNumbers = g.cellNumbers :=
  ⟨rfl, rfl, rfl, rfl, rfl, rfl⟩

/-- The graph after `sortVerticesByCellNumber`: the vertex with the new id `j` is the vertex
with the old id `sortOrder[j]`, its edges are the edges of that vertex in the same order, and
the heads and tails carry the new ids. -/
theorem sorted_spec (g : Graph) (hoff : g.Offsets) :
    g.sortVerticesByCellNumber.numberOfVertices = g.numberOfVertices ∧
    g.sortVerticesByCellNumber.numberOfEdges = g.numberOfEdges ∧
    g.sortVerticesByCellNumber.backwardEdges.length = g.backwardEdges.length ∧
    (∀ j, j ≤ g.numberOfVertices →
      (g.sortVerticesByCellNumber.vertex j).firstOut = prefixSum g.getOutDegree g.sortOrder j ∧
      (g.sortVerticesByCellNumber.vertex j).firstIn = prefixSum g.getInDegree g.sortOrder j) ∧
    (∀ j, j < g.numberOfVertices →
      (g.sortVerticesByCellNumber.vertex j).pvPtr = (g.vertex (g.sortOrder.getD j 0)).pvPtr ∧
      (g.sortVerticesByCellNumber.vertex j).turnTablePtr =
        (g.vertex (g.sortOrder.getD j 0)).turnTablePtr ∧
      g.sortVerticesByCellNumber.getOutDegree j = g.getOutDegree (g.sortOrder.getD j 0) ∧
      g.sortVerticesByCellNumber.getInDegree j = g.getInDegree (g.sortOrder.getD j 0)) ∧
    (∀ j, j < g.numberOfVertices → ∀ k, k < g.getOutDegree (g.sortOrder.getD j 0) →
      g.sortVerticesByCellNumber.getForwardEdge
          ((g.sortVerticesByCellNumber.vertex j).firstOut + k) =
        { g.getForwardEdge ((g.vertex (g.sortOrder.getD j 0)).firstOut + k) with
          head := (g.sortNewId g.sortScratch.cellVertices).getD
            (g.getForwardEdge ((g.vertex (g.sortOrder.getD j 0)).firstOut + k)).head 0 }) ∧
    (∀ j, j < g.numberOfVertices → ∀ k, k < g.getInDegree (g.sortOrder.getD j 0) →
      g.sortVerticesByCellNumber.getBackwardEdge
          ((g.sortVerticesByCellNumber.vertex j).firstIn + k) =
        { g.getBackwardEdge ((g.vertex (g.sortOrder.getD j 0)).firstIn + k) with
          tail := (g.sortNewId g.sortScratch.cellVertices).getD
            (g.getBackwardEdge ((g.vertex (g.sortOrder.getD j 0)).firstIn + k)).tail 0 }) := by
  obtain ⟨hC, hS⟩ := sortState_inv g hoff
  obtain ⟨tF, tB⟩ := sortOrder_total g hoff
  have hl := sortOrder_length g hoff.cell
  have hfirst : ∀ j, j ≤ g.numberOfVertices →
      (g.sortVerticesByCellNumber.vertex j).firstOut = prefixSum g.getOutDegree g.sortOrder j ∧
      (g.sortVerticesByCellNumber.vertex j).firstIn = prefixSum g.getInDegree g.sortOrder j := by
    intro j hj
    show (g.sortState.vertices.getD j default).firstOut = _ ∧
      (g.sortState.vertices.getD j default).firstIn = _
    rcases Nat.eq_or_lt_of_le hj with h | h
    · rw [hS.rest j (by omega), h, tF, tB]
      exact ⟨hoff.firstOutLast, hoff.firstInLast⟩
    · rw [hS.placed j h]
      exact ⟨rfl, rfl⟩
  have hdeg : ∀ j, j < g.numberOfVertices →
      g.sortVerticesByCellNumber.getOutDegree j = g.getOutDegree (g.sortOrder.getD j 0) ∧
      g.sortVerticesByCellNumber.getInDegree j = g.getInDegree (g.sortOrder.getD j 0) := by
    intro j hj
    unfold Graph.getOutDegree Graph.getInDegree
    rw [(hfirst j (by omega)).1, (hfirst (j + 1) (by omega)).1, (hfirst j (by omega)).2,
      (hfirst (j + 1) (by omega)).2, prefixSum_succ _ _ j (by rw [hl]; exact hj),
      prefixSum_succ _ _ j (by rw [hl]; exact hj)]
    unfold Graph.getOutDegree Graph.getInDegree
    omega
  refine ⟨?_, ?_, hS.lenBackward, hfirst, ?_, ?_, ?_⟩
  · show g.sortState.vertices.length - 1 = _
    rw [hS.lenVertices]; rfl
  · show g.sortState.forwardEdges.length = _
    rw [hS.lenForward]; rfl
  · intro j hj
    refine ⟨?_, ?_, (hdeg j hj).1, (hdeg j hj).2⟩
    · show (g.sortState.vertices.getD j default).pvPtr = _
      rw [hS.placed j hj]
    · show (g.sortState.vertices.getD j default).turnTablePtr = _
      rw [hS.placed j hj]
  · intro j hj k hk
    rw [(hfirst j (by omega)).1]
    exact hS.forward j hj k hk
  · intro j hj k hk
    rw [(hfirst j (by omega)).2]
    exact hS.backward j hj k hk

/-- The offsets of the sorted graph split its edge arrays. -/
theorem sorted_offsets (g : Graph) (hoff : g.Offsets) : g.sortVerticesByCellNumber.Offsets := by
  obtain ⟨h1, h2, h3, h4, h5, _, _⟩ := sorted_spec g hoff
  obtain ⟨tF, tB⟩ := sortOrder_total g hoff
  have hl := sortOrder_length g hoff.cell
  refine ⟨?_, ?_, ?_, ?_, ?_, ?_, ?_, ?_, ?_⟩
  · show 0 < g.sortState.vertices.length
    rw [(sortState_inv g hoff).2.lenVertices]; exact hoff.sentinel
  · rw [h3, hoff.lenBackward]; exact h2.symm
  · rw [h1, h2, (h4 _ (le_refl _)).1, tF]
  · rw [h1, h2, (h4 _ (le_refl _)).2, tB]
  · rw [(h4 0 (Nat.zero_le _)).1, prefixSum_zero]
  · rw [(h4 0 (Nat.zero_le _)).2, prefixSum_zero]
  · intro u hu
    rw [h1] at hu
    rw [(h4 u (by omega)).1, (h4 (u + 1) (by omega)).1]
    exact prefixSum_mono _ _ (by omega)
  · intro u hu
    rw [h1] at hu
    rw [(h4 u (by omega)).2, (h4 (u + 1) (by omega)).2]
    exact prefixSum_mono _ _ (by omega)
  · intro u hu
    rw [h1] at hu
    rw [(h5 u hu).1]
    exact hoff.cell _ (sortOrder_lt g hoff.cell u hu)

/-- The pairing of the forward and backward edges survives the sort. -/
theorem sorted_paired (g : Graph) (hoff : g.Offsets) (hp : g.Paired) :
    g.sortVerticesByCellNumber.Paired := by
  obtain ⟨h1, h2, h3, h4, h5, h6, h7⟩ := sorted_spec g hoff
  obtain ⟨n1, n2⟩ := sortNewId_spec g hoff.cell
  intro u hu k hk
  rw [h1] at hu
  rw [(h5 u hu).2.2.1] at hk
  have hi := sortOrder_lt g hoff.cell u hu
  obtain ⟨p1, p2, p3, p4⟩ := hp _ hi k hk
  rw [h6 u hu k hk]
  simp only
  obtain ⟨q1, q2⟩ := n2 _ p1
  have hdeg := (h5 _ q1).2.2.2
  rw [q2] at hdeg
  have hb := h7 _ q1 (g.getForwardEdge ((g.vertex (g.sortOrder.getD u 0)).firstOut + k)).entryPoint
    (by rw [q2]; exact p2)
  rw [q2] at hb
  rw [h1, hdeg, hb]
  simp only
  rw [p3, p4, n1 u hu]
  exact ⟨q1, p2, rfl, rfl⟩

end CRP
namespace CRP

/-! ### The cells of the sorted graph -/

theorem cellStart_mono (g : Graph) (hoff : g.Offsets) (c : Nat) (hc : c < g.cellNumbers.length) :
    g.cellStart c ≤ g.cellStart (c + 1) := by
  have := (cellStart_facts g hoff.cell c hc).1
  omega

/-- Every new id lies in the range of one cell. -/
theorem cell_of_position (g : Graph) (hoff : g.Offsets) (j : Nat)
    (hj : j < g.numberOfVertices) :
    ∃ c, c < g.cellNumbers.length ∧ g.cellStart c ≤ j ∧ j < g.cellStart (c + 1) := by
  have key : ∀ C, C ≤ g.cellNumbers.length → j < g.cellStart C →
      ∃ c, c < g.cellNumbers.length ∧ g.cellStart c ≤ j ∧ j < g.cellStart (c + 1) := by
    intro C
    induction C with
    | zero =>
      intro _ h
      rw [cellStart_zero] at h
      omega
    | succ C ih =>
      intro hC h
      by_cases h1 : j < g.cellStart C
      · exact ih (by omega) h1
      · exact ⟨C, by omega, by omega, h⟩
  exact key g.cellNumbers.length (le_refl _) (by rw [cellStart_last g hoff.cell]; exact hj)

/-- The vertices with the new ids of the range of the cell `c` point to the cell `c`. -/
theorem pvPtr_of_position (g : Graph) (hoff : g.Offsets) (c : Nat)
    (hc : c < g.cellNumbers.length) (j : Nat) (h1 : g.cellStart c ≤ j)
    (h2 : j < g.cellStart (c + 1)) :
    (g.vertex (g.sortOrder.getD j 0)).pvPtr = c := by
  obtain ⟨c1, c2, c3⟩ := cellStart_facts g hoff.cell c hc
  have hi : j - g.cellStart c < (g.sortScratch.cellVertices.getD c []).length := by omega
  have h3 := c3 _ hi
  have e : g.cellStart c + (j - g.cellStart c) = j := by omega
  rw [e] at h3
  have hm := getD_mem _ _ default hi
  rw [h3] at hm
  have hs : g.sortScratch.cellVertices.getD c [] =
      ((List.range g.numberOfVertices).filter
        (fun i => decide ((g.vertex i).pvPtr = c))).map (fun i => (g.vertex i, i)) := by
    rw [(sortScratch_spec g).1, getD_map_range _ _ _ _ hc]
  rw [hs, List.mem_map] at hm
  obtain ⟨i, hi1, hi2⟩ := hm
  rw [List.mem_filter, decide_eq_true_eq] at hi1
  have : i = g.sortOrder.getD j 0 := (Prod.mk.inj hi2).2
  rw [← this]
  exact hi1.2

/-- The new ids of the vertices of the cell `c` are the range of the cell. -/
theorem sorted_pvPtr_iff (g : Graph) (hoff : g.Offsets) (c : Nat)
    (hc : c < g.cellNumbers.length) (j : Nat) :
    (j < g.sortVerticesByCellNumber.numberOfVertices ∧
      (g.sortVerticesByCellNumber.vertex j).pvPtr = c) ↔
    (g.cellStart c ≤ j ∧ j < g.cellStart (c + 1)) := by
  obtain ⟨h1, _, _, _, h5, _, _⟩ := sorted_spec g hoff
  rw [h1]
  constructor
  · rintro ⟨hj, hp⟩
    rw [(h5 j hj).1] at hp
    obtain ⟨c', hc', a, b⟩ := cell_of_position g hoff j hj
    have := pvPtr_of_position g hoff c' hc' j a b
    rw [hp] at this
    rw [this]
    exact ⟨a, b⟩
  · rintro ⟨a, b⟩
    have hj : j < g.numberOfVertices := by
      have := (cellStart_facts g hoff.cell c hc).2.1
      omega
    refine ⟨hj, ?_⟩
    rw [(h5 j hj).1]
    exact pvPtr_of_position g hoff c hc j a b

/-- An index between two prefix sums lies in the block of one entry. -/
theorem prefixSum_locate (f : Nat → Nat) (order : List Nat) (a : Nat) :
    ∀ b, a ≤ b → b ≤ order.length → ∀ e, prefixSum f order a ≤ e → e < prefixSum f order b →
      ∃ v, a ≤ v ∧ v < b ∧ prefixSum f order v ≤ e ∧
        e < prefixSum f order v + f (order.getD v 0) := by
  intro b
  induction b with
  | zero =>
    intro hab _ e h1 h2
    have : a = 0 := by omega
    rw [this] at h1
    omega
  | succ b ih =>
    intro hab hb e h1 h2
    rcases Nat.eq_or_lt_of_le hab with h | h
    · rw [h] at h1; omega
    · have hs := prefixSum_succ f order b (by omega)
      by_cases h3 : e < prefixSum f order b
      · obtain ⟨v, v1, v2, v3, v4⟩ := ih (by omega) (by omega) e h1 h3
        exact ⟨v, v1, by omega, v3, v4⟩
      · exact ⟨b, by omega, by omega, by omega, by omega⟩

theorem filter_range_interval (a b : Nat) (n : Nat) :
    (List.range n).filter (fun v => decide (a ≤ v ∧ v < b)) = List.range' a (min n b - a) := by
  induction n with
  | zero => simp
  | succ n ih =>
    rw [List.range_succ, List.filter_append, ih]
    by_cases h : a ≤ n ∧ n < b
    · have e1 : min n b = n := by omega
      have e2 : min (n + 1) b = n + 1 := by omega
      have e3 : n + 1 - a = (n - a) + 1 := by omega
      rw [e1, e2, e3, List.range'_concat]
      simp only [List.filter_cons, List.filter_nil, h, decide_True, and_self, if_true,
        Nat.one_mul]
      congr 2
      omega
    · have e : min (n + 1) b - a = min n b - a := by omega
      rw [e]
      simp only [List.filter_cons, List.filter_nil, h, decide_False, if_false,
        Bool.false_eq_true, List.append_nil]

theorem sum_range'_prefix (f : Nat → Nat) (order : List Nat) (a : Nat) :
    ∀ len, a + len ≤ order.length →
      ((List.range' a len).map (fun v => f (order.getD v 0))).sum + prefixSum f order a =
        prefixSum f order (a + len) := by
  intro len
  induction len with
  | zero => intro _; simp
  | succ len ih =>
    intro h
    rw [List.range'_concat, List.map_append, List.sum_append, ← Nat.add_assoc,
      prefixSum_succ f order (a + len) (by omega)]
    have := ih (by omega)
    simp only [Nat.one_mul, List.map_cons, List.map_nil, List.sum_cons, List.sum_nil,
      Nat.add_zero]
    omega

/-- The sum of the degrees of the vertices of the cell `c` in the sorted graph. -/
theorem sorted_cell_degrees (g : Graph) (hoff : g.Offsets) (c : Nat)
    (hc : c < g.cellNumbers.length) :
    (((List.range g.sortVerticesByCellNumber.numberOfVertices).filter
        (fun v => decide ((g.sortVerticesByCellNumber.vertex v).pvPtr = c))).map
        g.sortVerticesByCellNumber.getOutDegree).sum +
      prefixSum g.getOutDegree g.sortOrder (g.cellStart c) =
      prefixSum g.getOutDegree g.sortOrder (g.cellStart (c + 1)) ∧
    (((List.range g.sortVerticesByCellNumber.numberOfVertices).filter
        (fun v => decide ((g.sortVerticesByCellNumber.vertex v).pvPtr = c))).map
        g.sortVerticesByCellNumber.getInDegree).sum +
      prefixSum g.getInDegree g.sortOrder (g.cellStart c) =
      prefixSum g.getInDegree g.sortOrder (g.cellStart (c + 1)) := by
  obtain ⟨h1, _, _, _, h5, _, _⟩ := sorted_spec g hoff
  obtain ⟨c1, c2, _⟩ := cellStart_facts g hoff.cell c hc
  have hl := sortOrder_length g hoff.cell
  have hfilter : (List.range g.sortVerticesByCellNumber.numberOfVertices).filter
      (fun v => decide ((g.sortVerticesByCellNumber.vertex v).pvPtr = c)) =
      List.range' (g.cellStart c) (g.cellStart (c + 1) - g.cellStart c) := by
    have e : min g.sortVerticesByCellNumber.numberOfVertices (g.cellStart (c + 1)) =
        g.cellStart (c + 1) := by rw [h1]; omega
    rw [← e, ← filter_range_interval]
    apply List.filter_congr
    intro v hv
    rw [List.mem_range] at hv
    rw [decide_eq_decide]
    have := sorted_pvPtr_iff g hoff c hc v
    constructor
    · intro h; exact this.1 ⟨hv, h⟩
    · intro h; exact (this.2 h).2
  rw [hfilter]
  have hmapO : (List.range' (g.cellStart c) (g.cellStart (c + 1) - g.cellStart c)).map
      g.sortVerticesByCellNumber.getOutDegree =
      (List.range' (g.cellStart c) (g.cellStart (c + 1) - g.cellStart c)).map
        (fun v => g.getOutDegree (g.sortOrder.getD v 0)) := by
    apply List.map_congr_left
    intro v hv
    rw [List.mem_range'_1] at hv
    exact (h5 v (by omega)).2.2.1
  have hmapI : (List.range' (g.cellStart c) (g.cellStart (c + 1) - g.cellStart c)).map
      g.sortVerticesByCellNumber.getInDegree =
      (List.range' (g.cellStart c) (g.cellStart (c + 1) - g.cellStart c)).map
        (fun v => g.getInDegree (g.sortOrder.getD v 0)) := by
    apply List.map_congr_left
    intro v hv
    rw [List.mem_range'_1] at hv
    exact (h5 v (by omega)).2.2.2
  rw [hmapO, hmapI]
  have e : g.cellStart c + (g.cellStart (c + 1) - g.cellStart c) = g.cellStart (c + 1) := by
    omega
  have s1 := sum_range'_prefix g.getOutDegree g.sortOrder (g.cellStart c)
    (g.cellStart (c + 1) - g.cellStart c) (by rw [e, hl]; exact c2)
  have s2 := sum_range'_prefix g.getInDegree g.sortOrder (g.cellStart c)
    (g.cellStart (c + 1) - g.cellStart c) (by rw [e, hl]; exact c2)
  rw [e] at s1 s2
  exact ⟨s1, s2⟩

/-- The edges of the vertices of the cell `c` in the sorted graph are the edges of a range
that starts at the offset of the cell. -/
theorem sorted_cell_edges (g : Graph) (hoff : g.Offsets) (c : Nat)
    (hc : c < g.cellNumbers.length) (e : Nat) :
    ((∃ v, v < g.sortVerticesByCellNumber.numberOfVertices ∧
        (g.sortVerticesByCellNumber.vertex v).pvPtr = c ∧
        (g.sortVerticesByCellNumber.vertex v).firstOut ≤ e ∧
        e < (g.sortVerticesByCellNumber.vertex v).firstOut +
          g.sortVerticesByCellNumber.getOutDegree v) ↔
      (g.sortVerticesByCellNumber.forwardEdgeCellOffset.getD c 0 ≤ e ∧
        e < g.sortVerticesByCellNumber.forwardEdgeCellOffset.getD c 0 +
          (((List.range g.sortVerticesByCellNumber.numberOfVertices).filter
            (fun v => decide ((g.sortVerticesByCellNumber.vertex v).pvPtr = c))).map
            g.sortVerticesByCellNumber.getOutDegree).sum)) ∧
    ((∃ v, v < g.sortVerticesByCellNumber.numberOfVertices ∧
        (g.sortVerticesByCellNumber.vertex v).pvPtr = c ∧
        (g.sortVerticesByCellNumber.vertex v).firstIn ≤ e ∧
        e < (g.sortVerticesByCellNumber.vertex v).firstIn +
          g.sortVerticesByCellNumber.getInDegree v) ↔
      (g.sortVerticesByCellNumber.backwardEdgeCellOffset.getD c 0 ≤ e ∧
        e < g.sortVerticesByCellNumber.backwardEdgeCellOffset.getD c 0 +
          (((List.range g.sortVerticesByCellNumber.numberOfVertices).filter
            (fun v => decide ((g.sortVerticesByCellNumber.vertex v).pvPtr = c))).map
            g.sortVerticesByCellNumber.getInDegree).sum)) := by
  obtain ⟨h1, _, _, h4, h5, _, _⟩ := sorted_spec g hoff
  obtain ⟨c1, c2, _⟩ := cellStart_facts g hoff.cell c hc
  obtain ⟨d1, d2⟩ := sorted_cell_degrees g hoff c hc
  have hC := (sortState_inv g hoff).1
  have hl := sortOrder_length g hoff.cell
  have oF : g.sortVerticesByCellNumber.forwardEdgeCellOffset.getD c 0 =
      prefixSum g.getOutDegree g.sortOrder (g.cellStart c) := hC.forwardOffsets c hc
  have oB : g.sortVerticesByCellNumber.backwardEdgeCellOffset.getD c 0 =
      prefixSum g.getInDegree g.sortOrder (g.cellStart c) := hC.backwardOffsets c hc
  rw [oF, oB]
  constructor
  · constructor
    · rintro ⟨v, hv, hp, a, b⟩
      obtain ⟨r1, r2⟩ := (sorted_pvPtr_iff g hoff c hc v).1 ⟨hv, hp⟩
      rw [h1] at hv
      rw [(h4 v (by omega)).1] at a b
      rw [(h5 v hv).2.2.1] at b
      have s := prefixSum_succ g.getOutDegree g.sortOrder v (by rw [hl]; exact hv)
      have m1 := prefixSum_mono g.getOutDegree g.sortOrder r1
      have m2 := prefixSum_mono g.getOutDegree g.sortOrder (show v + 1 ≤ g.cellStart (c + 1) by
        omega)
      omega
    · rintro ⟨a, b⟩
      obtain ⟨v, v1, v2, v3, v4⟩ := prefixSum_locate g.getOutDegree g.sortOrder (g.cellStart c)
        (g.cellStart (c + 1)) (by omega) (by rw [hl]; exact c2) e a (by omega)
      obtain ⟨r1, r2⟩ := (sorted_pvPtr_iff g hoff c hc v).2 ⟨v1, v2⟩
      rw [h1] at r1
      refine ⟨v, by rw [h1]; exact r1, r2, ?_, ?_⟩
      · rw [(h4 v (by omega)).1]; exact v3
      · rw [(h4 v (by omega)).1, (h5 v r1).2.2.1]; exact v4
  · constructor
    · rintro ⟨v, hv, hp, a, b⟩
      obtain ⟨r1, r2⟩ := (sorted_pvPtr_iff g hoff c hc v).1 ⟨hv, hp⟩
      rw [h1] at hv
      rw [(h4 v (by omega)).2] at a b
      rw [(h5 v hv).2.2.2] at b
      have s := prefixSum_succ g.getInDegree g.sortOrder v (by rw [hl]; exact hv)
      have m1 := prefixSum_mono g.getInDegree g.sortOrder r1
      have m2 := prefixSum_mono g.getInDegree g.sortOrder (show v + 1 ≤ g.cellStart (c + 1) by
        omega)
      omega
    · rintro ⟨a, b⟩
      obtain ⟨v, v1, v2, v3, v4⟩ := prefixSum_locate g.getInDegree g.sortOrder (g.cellStart c)
        (g.cellStart (c + 1)) (by omega) (by rw [hl]; exact c2) e a (by omega)
      obtain ⟨r1, r2⟩ := (sorted_pvPtr_iff g hoff c hc v).2 ⟨v1, v2⟩
      rw [h1] at r1
      refine ⟨v, by rw [h1]; exact r1, r2, ?_, ?_⟩
      · rw [(h4 v (by omega)).2]; exact v3
      · rw [(h4 v (by omega)).2, (h5 v r1).2.2.2]; exact v4

/-- The vertices of a cell have consecutive new ids. -/
theorem sorted_contiguous (g : Graph) (hoff : g.Offsets) (a b c : Nat) (hab : a ≤ b)
    (hbc : b ≤ c) (hc : c < g.sortVerticesByCellNumber.numberOfVertices)
    (h : (g.sortVerticesByCellNumber.vertex a).pvPtr =
      (g.sortVerticesByCellNumber.vertex c).pvPtr) :
    (g.sortVerticesByCellNumber.vertex b).pvPtr = (g.sortVerticesByCellNumber.vertex a).pvPtr := by
  have hO := sorted_offsets g hoff
  have hcell := hO.cell c hc
  have e6 : g.sortVerticesByCellNumber.cellNumbers = g.cellNumbers := rfl
  rw [e6] at hcell
  obtain ⟨a1, a2⟩ := (sorted_pvPtr_iff g hoff _ hcell a).1 ⟨by omega, h⟩
  obtain ⟨c1, c2⟩ := (sorted_pvPtr_iff g hoff _ hcell c).1 ⟨hc, rfl⟩
  have := ((sorted_pvPtr_iff g hoff _ hcell b).2 ⟨by omega, by omega⟩).2
  rw [this, h]

end CRP

namespace CRP

/-! ### The graph of OverlayGraphTest.cpp before the sort -/

set_option maxRecDepth 100000 in
theorem testCellGraph_offsets : (buildCellNumbers testGraph testPartition).Offsets where
  sentinel := by decide
  lenBackward := by decide
  firstOutLast := by decide
  firstInLast := by decide
  firstOutZero := by decide
  firstInZero := by decide
  monoOut := by decide
  monoIn := by decide
  cell := by decide

set_option maxRecDepth 100000 in
theorem testCellGraph_paired : (buildCellNumbers testGraph testPartition).Paired := by
  unfold Graph.Paired
  decide

end CRP

namespace CRP

/-! ### The counters of the first loop of `sortVerticesByCellNumber` -/

/-- The sum of `f` over the vertices `i < k` that point to the cell `c`. -/
theorem cellSum_succ (g : Graph) (f : Nat → Nat) (c k : Nat) :
    (((List.range (k + 1)).filter (fun i => decide ((g.vertex i).pvPtr = c))).map f).sum =
      (((List.range k).filter (fun i => decide ((g.vertex i).pvPtr = c))).map f).sum +
        (if (g.vertex k).pvPtr = c then f k else 0) := by
  rw [List.range_succ, List.filter_append, List.map_append, List.sum_append]
  by_cases h : (g.vertex k).pvPtr = c
  · simp [h]
  · simp [h]

theorem sortCollect_count (g : Graph) (k : Nat) (st : Graph.SortScratch)
    (hc : (g.vertex k).pvPtr < g.cellNumbers.length) (h : CountInv g k st) :
    CountInv g (k + 1) (g.sortCollect st k) := by
  obtain ⟨lF, lB, nF, nB, bd, att⟩ := h
  have eF : (g.sortCollect st k).numForwardEdgesInCell =
      st.numForwardEdgesInCell.set (g.vertex k).pvPtr
        (st.numForwardEdgesInCell.getD (g.vertex k).pvPtr 0 + g.getOutDegree k) := rfl
  have eB : (g.sortCollect st k).numBackwardEdgesInCell =
      st.numBackwardEdgesInCell.set (g.vertex k).pvPtr
        (st.numBackwardEdgesInCell.getD (g.vertex k).pvPtr 0 + g.getInDegree k) := rfl
  have eM : (g.sortCollect st k).maxEdgesInCell =
      (if (if st.maxEdgesInCell < (g.sortCollect st k).numForwardEdgesInCell.getD
            (g.vertex k).pvPtr 0
          then (g.sortCollect st k).numForwardEdgesInCell.getD (g.vertex k).pvPtr 0
          else st.maxEdgesInCell) <
          (g.sortCollect st k).numBackwardEdgesInCell.getD (g.vertex k).pvPtr 0
        then (g.sortCollect st k).numBackwardEdgesInCell.getD (g.vertex k).pvPtr 0
        else (if st.maxEdgesInCell < (g.sortCollect st k).numForwardEdgesInCell.getD
            (g.vertex k).pvPtr 0
          then (g.sortCollect st k).numForwardEdgesInCell.getD (g.vertex k).pvPtr 0
          else st.maxEdgesInCell)) := rfl
  have gF : ∀ c, c < g.cellNumbers.length →
      (g.sortCollect st k).numForwardEdgesInCell.getD c 0 =
        st.numForwardEdgesInCell.getD c 0 +
          (if (g.vertex k).pvPtr = c then g.getOutDegree k else 0) := by
    intro c hcc
    rw [eF]
    by_cases e : (g.vertex k).pvPtr = c
    · rw [e, getD_set_eq _ _ _ _ (by rw [lF]; exact hcc), if_pos rfl]
    · rw [getD_set_ne _ _ _ _ _ e, if_neg e, Nat.add_zero]
  have gB : ∀ c, c < g.cellNumbers.length →
      (g.sortCollect st k).numBackwardEdgesInCell.getD c 0 =
        st.numBackwardEdgesInCell.getD c 0 +
          (if (g.vertex k).pvPtr = c then g.getInDegree k else 0) := by
    intro c hcc
    rw [eB]
    by_cases e : (g.vertex k).pvPtr = c
    · rw [e, getD_set_eq _ _ _ _ (by rw [lB]; exact hcc), if_pos rfl]
    · rw [getD_set_ne _ _ _ _ _ e, if_neg e, Nat.add_zero]
  have hM1 : st.maxEdgesInCell ≤ (g.sortCollect st k).maxEdgesInCell := by
    rw [eM]; split_ifs <;> omega
  have hM2 : (g.sortCollect st k).numForwardEdgesInCell.getD (g.vertex k).pvPtr 0 ≤
      (g.sortCollect st k).maxEdgesInCell := by
    rw [eM]; split_ifs <;> omega
  have hM3 : (g.sortCollect st k).numBackwardEdgesInCell.getD (g.vertex k).pvPtr 0 ≤
      (g.sortCollect st k).maxEdgesInCell := by
    rw [eM]; split_ifs <;> omega
  have hM4 : (g.sortCollect st k).maxEdgesInCell = st.maxEdgesInCell ∨
      (g.sortCollect st k).maxEdgesInCell =
        (g.sortCollect st k).numForwardEdgesInCell.getD (g.vertex k).pvPtr 0 ∨
      (g.sortCollect st k).maxEdgesInCell =
        (g.sortCollect st k).numBackwardEdgesInCell.getD (g.vertex k).pvPtr 0 := by
    rw [eM]; split_ifs <;> simp
  refine ⟨by rw [eF, List.length_set, lF], by rw [eB, List.length_set, lB], ?_, ?_, ?_, ?_⟩
  · intro c hcc
    rw [gF c hcc, nF c hcc, cellSum_succ]
  · intro c hcc
    rw [gB c hcc, nB c hcc, cellSum_succ]
  · intro c hcc
    by_cases e : (g.vertex k).pvPtr = c
    · rw [← e]; exact ⟨hM2, hM3⟩
    · have a := gF c hcc
      have b := gB c hcc
      rw [if_neg e] at a b
      have := bd c hcc
      omega
  · rcases hM4 with h0 | h1 | h2
    · rcases att with a0 | ⟨c, hcc, a1⟩
      · left; omega
      · right
        refine ⟨c, hcc, ?_⟩
        have a := gF c hcc
        have b := gB c hcc
        rcases a1 with a1 | a1
        · left; omega
        · right; omega
    · right; exact ⟨_, hc, Or.inl (by omega)⟩
    · right; exact ⟨_, hc, Or.inr (by omega)⟩

theorem sortScratch_count (g : Graph)
    (hcell : ∀ u, u < g.numberOfVertices → (g.vertex u).pvPtr < g.cellNumbers.length) :
    CountInv g g.numberOfVertices g.sortScratch := by
  have key : ∀ k, k ≤ g.numberOfVertices → CountInv g k
      ((List.range k).foldl g.sortCollect
        { cellVertices := List.replicate g.cellNumbers.length [],
          numForwardEdgesInCell := List.replicate g.cellNumbers.length 0,
          numBackwardEdgesInCell := List.replicate g.cellNumbers.length 0,
          fEdges := List.replicate g.numberOfVertices [],
          bEdges := List.replicate g.numberOfVertices [],
          maxEdgesInCell := 0 }) := by
    intro k
    induction k with
    | zero =>
      intro _
      refine ⟨by simp, by simp, ?_, ?_, ?_, Or.inl rfl⟩
      · intro c hc
        simp only [List.range_zero, List.foldl_nil, List.filter_nil, List.map_nil, List.sum_nil]
        rw [List.getD_eq_getElem _ _ (by simpa using hc)]
        simp
      · intro c hc
        simp only [List.range_zero, List.foldl_nil, List.filter_nil, List.map_nil, List.sum_nil]
        rw [List.getD_eq_getElem _ _ (by simpa using hc)]
        simp
      · intro c hc
        simp only [List.range_zero, List.foldl_nil]
        rw [List.getD_eq_getElem _ _ (by simpa using hc)]
        simp
    | succ k ih =>
      intro hk
      rw [List.range_succ, List.foldl_append, List.foldl_cons, List.foldl_nil]
      exact sortCollect_count g k _ (hcell k (by omega)) (ih (by omega))
  exact key g.numberOfVertices (le_refl _)

/-- The vertices of the cell `c` are the vertices at the positions of the cell in the order of
the sort. -/
theorem cell_block (g : Graph)
    (hcell : ∀ u, u < g.numberOfVertices → (g.vertex u).pvPtr < g.cellNumbers.length)
    (c : Nat) (hc : c < g.cellNumbers.length) :
    (List.range' (g.cellStart c) (g.cellStart (c + 1) - g.cellStart c)).map
        (fun j => g.sortOrder.getD j 0) =
      (List.range g.numberOfVertices).filter (fun i => decide ((g.vertex i).pvPtr = c)) := by
  obtain ⟨c1, c2, c3⟩ := cellStart_facts g hcell c hc
  have hs := (sortScratch_spec g).1
  have hget : g.sortScratch.cellVertices.getD c [] =
      ((List.range g.numberOfVertices).filter (fun i => decide ((g.vertex i).pvPtr = c))).map
        (fun i => (g.vertex i, i)) := by
    rw [hs, List.getD_eq_getElem _ _ (by simpa using hc), List.getElem_map, List.getElem_range]
  have hlen : (g.sortScratch.cellVertices.getD c []).length =
      ((List.range g.numberOfVertices).filter
        (fun i => decide ((g.vertex i).pvPtr = c))).length := by
    rw [hget, List.length_map]
  apply List.ext_getElem
  · rw [List.length_map, List.length_range', ← hlen]; omega
  · intro i h1 h2
    have hi : i < (g.sortScratch.cellVertices.getD c []).length := by rw [hlen]; exact h2
    have h3 := c3 i hi
    rw [hget, List.getD_eq_getElem _ _ (by rw [List.length_map]; exact h2),
      List.getElem_map] at h3
    rw [List.getElem_map, List.getElem_range', Nat.one_mul]
    exact (congrArg Prod.snd h3).symm

/-- The sums of the degrees of the vertices of the cell `c` are the same before and after
the sort. -/
theorem sorted_cell_count (g : Graph) (hoff : g.Offsets) (c : Nat)
    (hc : c < g.cellNumbers.length) :
    (((List.range g.sortVerticesByCellNumber.numberOfVertices).filter
        (fun v => decide ((g.sortVerticesByCellNumber.vertex v).pvPtr = c))).map
        g.sortVerticesByCellNumber.getOutDegree).sum =
      (((List.range g.numberOfVertices).filter
        (fun i => decide ((g.vertex i).pvPtr = c))).map g.getOutDegree).sum ∧
    (((List.range g.sortVerticesByCellNumber.numberOfVertices).filter
        (fun v => decide ((g.sortVerticesByCellNumber.vertex v).pvPtr = c))).map
        g.sortVerticesByCellNumber.getInDegree).sum =
      (((List.range g.numberOfVertices).filter
        (fun i => decide ((g.vertex i).pvPtr = c))).map g.getInDegree).sum := by
  obtain ⟨d1, d2⟩ := sorted_cell_degrees g hoff c hc
  obtain ⟨c1, c2, _⟩ := cellStart_facts g hoff.cell c hc
  have hl := sortOrder_length g hoff.cell
  have hb := cell_block g hoff.cell c hc
  have hsum : ∀ f : Nat → Nat,
      (((List.range g.numberOfVertices).filter
        (fun i => decide ((g.vertex i).pvPtr = c))).map f).sum +
        prefixSum f g.sortOrder (g.cellStart c) =
      prefixSum f g.sortOrder (g.cellStart (c + 1)) := by
    intro f
    have := sum_range'_prefix f g.sortOrder (g.cellStart c)
      (g.cellStart (c + 1) - g.cellStart c) (by rw [hl]; omega)
    rw [← hb, List.map_map]
    have e : g.cellStart c + (g.cellStart (c + 1) - g.cellStart c) = g.cellStart (c + 1) := by
      omega
    rw [e] at this
    exact this
  have s1 := hsum g.getOutDegree
  have s2 := hsum g.getInDegree
  constructor <;> omega

end CRP
namespace CRP

theorem foldr_max_le (L : List Nat) (M : Nat) (hb : ∀ x, x ∈ L → x ≤ M) :
    L.foldr max 0 ≤ M := by
  induction L with
  | nil => simp
  | cons a L ih =>
    simp only [List.foldr_cons]
    have := hb a (List.mem_cons_self _ _)
    have := ih (fun x hx => hb x (List.mem_cons_of_mem _ hx))
    omega

theorem le_foldr_max (L : List Nat) (x : Nat) (hx : x ∈ L) : x ≤ L.foldr max 0 := by
  induction L with
  | nil => simp at hx
  | cons a L ih =>
    simp only [List.foldr_cons]
    rcases List.mem_cons.1 hx with h | h
    · subst h; omega
    · have := ih h; omega

theorem foldr_max_eq (L : List Nat) (M : Nat) (hb : ∀ x, x ∈ L → x ≤ M)
    (ha : M = 0 ∨ M ∈ L) : L.foldr max 0 = M := by
  have h1 := foldr_max_le L M hb
  rcases ha with h | h
  · omega
  · have := le_foldr_max L M h
    omega

end CRP
namespace CRP

/-! ### The edges that `vertexQuery` hands to `edgeQuery` -/

/-- The source edge of `vertexQuery`: the forward edge that matches the first incoming edge
of `s`. -/
theorem Graph.vertexQuery_source (g : Graph) (hg : g.Consistent) (s : Nat)
    (hs : s < g.numberOfVertices) (hin : 1 ≤ g.getInDegree s) :
    g.getExitOffset (g.getBackwardEdge (g.getEntryOffset s)).tail +
        (g.getBackwardEdge (g.getEntryOffset s)).exitPoint < g.numberOfEdges ∧
    g.getForwardEdge (g.getExitOffset (g.getBackwardEdge (g.getEntryOffset s)).tail +
        (g.getBackwardEdge (g.getEntryOffset s)).exitPoint) =
      ⟨s, 0, (g.getBackwardEdge (g.getEntryOffset s)).attributes⟩ := by
  obtain ⟨h1, h2, h3⟩ := hg.backward s hs 0 (by omega)
  rw [Nat.add_zero] at h1 h2 h3
  refine ⟨?_, h3⟩
  have := g.firstOut_mono hg ((g.getBackwardEdge (g.vertex s).firstIn).tail + 1)
    g.numberOfVertices (by omega)
  rw [hg.firstOutLast] at this
  unfold Graph.getOutDegree at h2
  show (g.vertex (g.getBackwardEdge (g.vertex s).firstIn).tail).firstOut +
    (g.getBackwardEdge (g.vertex s).firstIn).exitPoint < g.numberOfEdges
  omega

/-- The target edge of `vertexQuery`: the backward edge that matches the first outgoing edge
of `t`. -/
theorem Graph.vertexQuery_target (g : Graph) (hg : g.Consistent) (t : Nat)
    (ht : t < g.numberOfVertices) (hout : 1 ≤ g.getOutDegree t) :
    g.getEntryOffset (g.getForwardEdge (g.getExitOffset t)).head +
        (g.getForwardEdge (g.getExitOffset t)).entryPoint < g.numberOfEdges ∧
    g.getBackwardEdge (g.getEntryOffset (g.getForwardEdge (g.getExitOffset t)).head +
        (g.getForwardEdge (g.getExitOffset t)).entryPoint) =
      ⟨t, 0, (g.getForwardEdge (g.getExitOffset t)).attributes⟩ := by
  obtain ⟨h1, h2, h3⟩ := hg.forward t ht 0 (by omega)
  rw [Nat.add_zero] at h1 h2 h3
  refine ⟨?_, h3⟩
  have := g.firstIn_mono hg ((g.getForwardEdge (g.vertex t).firstOut).head + 1)
    g.numberOfVertices (by omega)
  rw [hg.firstInLast] at this
  unfold Graph.getInDegree at h2
  show (g.vertex (g.getForwardEdge (g.vertex t).firstOut).head).firstIn +
    (g.getForwardEdge (g.vertex t).firstOut).entryPoint < g.numberOfEdges
  omega

end CRP
namespace CRP

/-! ### The tables for stalling -/

theorem toInt32_eq (x : Int) (h1 : -2147483648 ≤ x) (h2 : x < 2147483648) : toInt32 x = x := by
  unfold toInt32
  rw [Int.emod_eq_of_lt (by omega) (by omega)]
  omega

theorem flatMap_range_length {α : Type} (a b : Nat) (f : Nat → Nat → α) :
    ((List.range a).flatMap fun i => (List.range b).map fun j => f i j).length = a * b := by
  induction a with
  | zero => simp
  | succ a ih =>
    rw [List.range_succ, List.flatMap_append, List.length_append, ih]
    simp [Nat.succ_mul]

theorem flatMap_range_getD {α : Type} (a b : Nat) (f : Nat → Nat → α) (d : α) (i j : Nat)
    (hi : i < a) (hj : j < b) :
    ((List.range a).flatMap fun i => (List.range b).map fun j => f i j).getD (i * b + j) d =
      f i j := by
  induction a with
  | zero => omega
  | succ a ih =>
    rw [List.range_succ, List.flatMap_append]
    by_cases h : i < a
    · rw [List.getD_append _ _ _ _ (by
        rw [flatMap_range_length]
        calc i * b + j < i * b + b := by omega
          _ = (i + 1) * b := by rw [Nat.succ_mul]
          _ ≤ a * b := Nat.mul_le_mul_right b h)]
      exact ih h
    · have e : i = a := by omega
      subst e
      rw [List.getD_append_right _ _ _ _ (by rw [flatMap_range_length]; omega),
        flatMap_range_length]
      simp only [List.flatMap_cons, List.flatMap_nil, List.append_nil]
      rw [show i * b + j - i * b = j by omega,
        List.getD_eq_getElem _ _ (by simpa using hj)]
      simp

theorem foldl_max_spec (g : Nat → Int) (c : Nat) :
    (∀ k, k < c + 1 → g k ≤ (List.range' 1 c).foldl (fun acc k => max acc (g k)) (g 0)) ∧
    ∃ k, k < c + 1 ∧ (List.range' 1 c).foldl (fun acc k => max acc (g k)) (g 0) = g k := by
  induction c with
  | zero =>
    simp only [List.range'_zero, List.foldl_nil]
    exact ⟨fun k hk => by have : k = 0 := by omega
                          subst this; exact le_refl _, 0, by omega, rfl⟩
  | succ c ih =>
    obtain ⟨h1, k0, hk0, h2⟩ := ih
    rw [List.range'_concat, List.foldl_append]
    simp only [List.foldl_cons, List.foldl_nil, Nat.one_mul]
    rw [show 1 + c = c + 1 by omega]
    constructor
    · intro k hk
      by_cases h : k < c + 1
      · exact le_trans (h1 k h) (le_max_left _ _)
      · have : k = c + 1 := by omega
        subst this
        exact le_max_right _ _
    · rcases le_total ((List.range' 1 c).foldl (fun acc k => max acc (g k)) (g 0)) (g (c + 1))
        with h | h
      · exact ⟨c + 1, by omega, max_eq_right h⟩
      · exact ⟨k0, by omega, by rw [max_eq_left h, h2]⟩

namespace Metric

theorem entry_length (graph : Graph) (cf : CostFunction) (v : Nat) :
    (entryTurnTableDifferences graph cf v).length = graph.getInDegree v * graph.getInDegree v :=
  flatMap_range_length _ _ _

theorem exit_length (graph : Graph) (cf : CostFunction) (v : Nat) :
    (exitTurnTableDifferences graph cf v).length = graph.getOutDegree v * graph.getOutDegree v :=
  flatMap_range_length _ _ _

theorem entry_getD (graph : Graph) (cf : CostFunction) (v i j : Nat)
    (hi : i < graph.getInDegree v) (hj : j < graph.getInDegree v) :
    (entryTurnTableDifferences graph cf v).getD (i * graph.getInDegree v + j) 0 =
      (List.range' 1 (graph.getOutDegree v - 1)).foldl
        (fun maxDiff k => max maxDiff (entryDiff graph cf v i j k))
        (entryDiff graph cf v i j 0) :=
  flatMap_range_getD _ _ _ 0 i j hi hj

theorem exit_getD (graph : Graph) (cf : CostFunction) (v i j : Nat)
    (hi : i < graph.getOutDegree v) (hj : j < graph.getOutDegree v) :
    (exitTurnTableDifferences graph cf v).getD (i * graph.getOutDegree v + j) 0 =
      (List.range' 1 (graph.getInDegree v - 1)).foldl
        (fun maxDiff k => max maxDiff (exitDiff graph cf v i j k))
        (exitDiff graph cf v i j 0) :=
  flatMap_range_getD _ _ _ 0 i j hi hj

theorem entryDiff_eq (graph : Graph) (cf : CostFunction) (hb : cf.Bounded) (v i j k : Nat) :
    entryDiff graph cf v i j k =
      (cf.getTurnCosts (graph.getTurnType v i k) : Int) -
        (cf.getTurnCosts (graph.getTurnType v j k) : Int) := by
  have h1 := hb.turn (graph.getTurnType v i k)
  have h2 := hb.turn (graph.getTurnType v j k)
  unfold inf_weight at h1 h2
  unfold entryDiff
  rw [toInt32_eq (cf.getTurnCosts (graph.getTurnType v i k)) (by omega) (by omega),
    toInt32_eq (cf.getTurnCosts (graph.getTurnType v j k)) (by omega) (by omega),
    toInt32_eq _ (by omega) (by omega)]

theorem exitDiff_eq (graph : Graph) (cf : CostFunction) (hb : cf.Bounded) (v i j k : Nat) :
    exitDiff graph cf v i j k =
      (cf.getTurnCosts (graph.getTurnType v k i) : Int) -
        (cf.getTurnCosts (graph.getTurnType v k j) : Int) := by
  have h1 := hb.turn (graph.getTurnType v k i)
  have h2 := hb.turn (graph.getTurnType v k j)
  unfold inf_weight at h1 h2
  unfold exitDiff
  rw [toInt32_eq (cf.getTurnCosts (graph.getTurnType v k i)) (by omega) (by omega),
    toInt32_eq (cf.getTurnCosts (graph.getTurnType v k j)) (by omega) (by omega),
    toInt32_eq _ (by omega) (by omega)]

theorem matrixFind_some (key : List Int) (o : Nat) :
    ∀ map : List (List Int × Nat), matrixFind key map = some o → (key, o) ∈ map := by
  intro map
  induction map with
  | nil => intro h; simp [matrixFind] at h
  | cons a rest ih =>
    obtain ⟨k, x⟩ := a
    intro h
    unfold matrixFind at h
    by_cases e : k = key
    · rw [if_pos e] at h
      have : x = o := by simpa using h
      subst this; subst e
      exact List.mem_cons_self _ _
    · rw [if_neg e] at h
      exact List.mem_cons_of_mem _ (ih h)

theorem storedAt_append {diffs : List Int} {L : Nat} {key : List Int} (more : List Int)
    (h : StoredAt diffs L key) : StoredAt (diffs ++ more) L key := by
  obtain ⟨h1, h2⟩ := h
  refine ⟨by rw [List.length_append]; omega, ?_⟩
  intro i hi
  rw [List.getD_append _ _ _ _ (by omega)]
  exact h2 i hi

theorem storedAt_new (diffs key : List Int) : StoredAt (diffs ++ key) diffs.length key := by
  refine ⟨by rw [List.length_append], ?_⟩
  intro i hi
  rw [List.getD_append_right _ _ _ _ (by omega)]
  congr 1
  omega

/-- The effect of the lookup and the insertion of one matrix. -/
theorem storeMatrix_spec (st : TurnTableBuild) (d : List Int)
    (hoff : st.matrixOffset = u32 st.turnTableDiffs.length)
    (hmap : ∀ key o, (key, o) ∈ st.matrixMap →
      ∃ L, o = u32 L ∧ StoredAt st.turnTableDiffs L key)
    (o : Nat) (st' : TurnTableBuild) (hr : storeMatrix st d = (o, st')) :
    st'.turnTablePtr = st.turnTablePtr ∧
    (∃ more, st'.turnTableDiffs = st.turnTableDiffs ++ more) ∧
    st'.matrixOffset = u32 st'.turnTableDiffs.length ∧
    (∀ key o, (key, o) ∈ st'.matrixMap → ∃ L, o = u32 L ∧ StoredAt st'.turnTableDiffs L key) ∧
    ∃ L, o = u32 L ∧ StoredAt st'.turnTableDiffs L d := by
  unfold storeMatrix at hr
  cases hf : matrixFind d st.matrixMap with
  | some o' =>
    rw [hf] at hr
    obtain ⟨rfl, rfl⟩ := Prod.mk.inj hr
    exact ⟨rfl, ⟨[], by simp⟩, hoff, hmap, hmap d _ (matrixFind_some d _ _ hf)⟩
  | none =>
    rw [hf] at hr
    obtain ⟨rfl, rfl⟩ := Prod.mk.inj hr
    refine ⟨rfl, ⟨d, rfl⟩, ?_, ?_, ?_⟩
    · show u32 (st.matrixOffset + d.length) = u32 (st.turnTableDiffs ++ d).length
      rw [hoff, List.length_append]
      unfold u32
      omega
    · intro key o hmem
      have hmem' : (key, o) ∈ st.matrixMap ++ [(d, st.matrixOffset)] := hmem
      show ∃ L, o = u32 L ∧ StoredAt (st.turnTableDiffs ++ d) L key
      rcases List.mem_append.1 hmem' with h | h
      · obtain ⟨L, h1, h2⟩ := hmap key o h
        exact ⟨L, h1, storedAt_append d h2⟩
      · have : (key, o) = (d, st.matrixOffset) := by simpa using h
        obtain ⟨rfl, rfl⟩ := Prod.mk.inj this
        exact ⟨st.turnTableDiffs.length, hoff, storedAt_new _ _⟩
    · exact ⟨st.turnTableDiffs.length, hoff, storedAt_new _ _⟩

theorem turnTableStep_eq (graph : Graph) (cf : CostFunction) (st : TurnTableBuild) (k : Nat)
    (hz : ¬ (graph.getInDegree k = 0 ∨ graph.getOutDegree k = 0))
    (o1 : Nat) (st1 : TurnTableBuild)
    (h1 : storeMatrix st (entryTurnTableDifferences graph cf k) = (o1, st1))
    (o2 : Nat) (st2 : TurnTableBuild)
    (h2 : storeMatrix { st1 with turnTablePtr := st1.turnTablePtr.set k o1 }
      (exitTurnTableDifferences graph cf k) = (o2, st2)) :
    turnTableStep graph cf st k =
      { st2 with
        turnTablePtr :=
          st2.turnTablePtr.set k (st2.turnTablePtr.getD k 0 ||| u32 (o2 <<< 16)) } := by
  unfold turnTableStep
  simp only [if_neg hz, h1, h2]

theorem turnTableStep_skip (graph : Graph) (cf : CostFunction) (st : TurnTableBuild) (k : Nat)
    (hz : graph.getInDegree k = 0 ∨ graph.getOutDegree k = 0) :
    turnTableStep graph cf st k = st := by
  unfold turnTableStep
  simp only [if_pos hz]

theorem turnTableStep_inv (graph : Graph) (cf : CostFunction) (k : Nat)
    (hk : k < graph.numberOfVertices) (st : TurnTableBuild) (h : TableInv graph cf k st) :
    TableInv graph cf (k + 1) (turnTableStep graph cf st k) ∧
    ∃ more, (turnTableStep graph cf st k).turnTableDiffs = st.turnTableDiffs ++ more := by
  obtain ⟨hl, ho, hm, hp⟩ := h
  by_cases hz : graph.getInDegree k = 0 ∨ graph.getOutDegree k = 0
  · rw [turnTableStep_skip graph cf st k hz]
    refine ⟨⟨hl, ho, hm, ?_⟩, [], by simp⟩
    intro v hv h1 h2
    have : v < k := by
      rcases Nat.lt_or_ge v k with h | h
      · exact h
      · have : v = k := by omega
        subst this
        omega
    exact hp v this h1 h2
  · rcases hr1 : storeMatrix st (entryTurnTableDifferences graph cf k) with ⟨o1, st1⟩
    rcases hr2 : storeMatrix { st1 with turnTablePtr := st1.turnTablePtr.set k o1 }
      (exitTurnTableDifferences graph cf k) with ⟨o2, st2⟩
    rw [turnTableStep_eq graph cf st k hz o1 st1 hr1 o2 st2 hr2]
    obtain ⟨a1, ⟨m1, a2⟩, a3, a4, LE, a5, a6⟩ := storeMatrix_spec st _ ho hm o1 st1 hr1
    obtain ⟨b1, ⟨m2, b2⟩, b3, b4, LX, b5, b6⟩ :=
      storeMatrix_spec { st1 with turnTablePtr := st1.turnTablePtr.set k o1 } _ a3 a4 o2 st2 hr2
    have b1' : st2.turnTablePtr = st1.turnTablePtr.set k o1 := b1
    have b2' : st2.turnTableDiffs = st1.turnTableDiffs ++ m2 := b2
    refine ⟨⟨?_, b3, b4, ?_⟩, m1 ++ m2, ?_⟩
    · show (st2.turnTablePtr.set k (st2.turnTablePtr.getD k 0 ||| u32 (o2 <<< 16))).length =
        graph.numberOfVertices
      rw [List.length_set, b1', List.length_set, a1]
      exact hl
    · intro v hv h1 h2
      show ∃ LE LX,
        (st2.turnTablePtr.set k (st2.turnTablePtr.getD k 0 ||| u32 (o2 <<< 16))).getD v 0 =
          u32 LE ||| u32 (u32 LX <<< 16) ∧
        StoredAt st2.turnTableDiffs LE (entryTurnTableDifferences graph cf v) ∧
        StoredAt st2.turnTableDiffs LX (exitTurnTableDifferences graph cf v)
      by_cases e : v = k
      · subst e
        rw [getD_set_eq _ _ _ _ (by rw [b1', List.length_set, a1, hl]; exact hk), b1',
          getD_set_eq _ _ _ _ (by rw [a1, hl]; exact hk)]
        refine ⟨LE, LX, ?_, ?_, b6⟩
        · rw [a5, b5]
        · rw [b2']
          exact storedAt_append m2 a6
      · rw [getD_set_ne _ _ _ _ _ (fun h => e h.symm), b1',
          getD_set_ne _ _ _ _ _ (fun h => e h.symm), a1]
        obtain ⟨LE', LX', c1, c2, c3⟩ := hp v (by omega) h1 h2
        refine ⟨LE', LX', c1, ?_, ?_⟩
        · rw [b2', a2]
          exact storedAt_append m2 (storedAt_append m1 c2)
        · rw [b2', a2]
          exact storedAt_append m2 (storedAt_append m1 c3)
    · show st2.turnTableDiffs = st.turnTableDiffs ++ (m1 ++ m2)
      rw [b2', a2, List.append_assoc]

/-- The tables after the loop of the constructor. -/
theorem buildTurnTables_inv (graph : Graph) (cf : CostFunction) :
    TableInv graph cf graph.numberOfVertices (buildTurnTables graph cf) := by
  have key : ∀ k, k ≤ graph.numberOfVertices → TableInv graph cf k
      ((List.range k).foldl (turnTableStep graph cf)
        { matrixOffset := 0, matrixMap := [], turnTableDiffs := [],
          turnTablePtr := List.replicate graph.numberOfVertices 0 }) := by
    intro k
    induction k with
    | zero =>
      intro _
      refine ⟨by simp, by simp [u32], ?_, ?_⟩
      · intro key o h
        simp at h
      · intro v hv
        omega
    | succ k ih =>
      intro hk
      rw [List.range_succ, List.foldl_append, List.foldl_cons, List.foldl_nil]
      exact (turnTableStep_inv graph cf k (by omega) _ (ih (by omega))).1
  exact key graph.numberOfVertices (le_refl _)

theorem mask_low (a b : Nat) (ha : a < 65536) : (a ||| u32 (b <<< 16)) &&& 65535 = a := by
  have e : (65535 : Nat) = 2 ^ 16 - 1 := by norm_num
  rw [e, Nat.and_pow_two_sub_one_eq_mod]
  apply Nat.eq_of_testBit_eq
  intro i
  rw [Nat.testBit_mod_two_pow, Nat.testBit_or]
  by_cases hi : i < 16
  · have h2 : (u32 (b <<< 16)).testBit i = false := by
      unfold u32
      rw [show (4294967296 : Nat) = 2 ^ 32 by norm_num, Nat.testBit_mod_two_pow,
        Nat.testBit_shiftLeft]
      simp
      omega
    simp [hi, h2]
  · simp only [hi, decide_False, Bool.false_and]
    symm
    apply Nat.testBit_lt_two_pow
    calc a < 65536 := ha
      _ = 2 ^ 16 := by norm_num
      _ ≤ 2 ^ i := Nat.pow_le_pow_right (by norm_num) (by omega)

end Metric

end CRP
namespace CRP

namespace Metric

theorem exitDiff_self (graph : Graph) (cf : CostFunction) (v i k : Nat) :
    exitDiff graph cf v i i k = 0 := by
  unfold exitDiff
  rw [sub_self]
  rfl

/-- The exit matrix of a vertex with one outgoing edge. -/
theorem exit_single (graph : Graph) (cf : CostFunction) (v : Nat)
    (hm : graph.getOutDegree v = 1) : exitTurnTableDifferences graph cf v = [0] := by
  have hl := exit_length graph cf v
  rw [hm] at hl
  have hg := exit_getD graph cf v 0 0 (by omega) (by omega)
  obtain ⟨_, k, _, h2⟩ := foldl_max_spec (fun k => exitDiff graph cf v 0 0 k)
    (graph.getInDegree v - 1)
  rw [h2, exitDiff_self] at hg
  match hx : exitTurnTableDifferences graph cf v, hl, hg with
  | [x], _, hg =>
    simp at hg
    rw [hg]

set_option maxRecDepth 100000 in
theorem wide_facts :
    wideGraph.numberOfVertices = 3 ∧
    wideGraph.getInDegree 0 = 256 ∧ wideGraph.getOutDegree 0 = 1 ∧
    wideGraph.getInDegree 1 = 2 ∧ wideGraph.getOutDegree 1 = 1 ∧
    wideGraph.getInDegree 2 = 0 ∧
    entryTurnTableDifferences wideGraph HopFunction 1 = [0, 1431655765, -1431655765, 0] ∧
    entryDiff wideGraph HopFunction 0 0 2 0 = 0 := by
  refine ⟨by decide, by decide, by decide, by decide, by decide, by decide, by decide,
    by decide⟩

/-- The tables after two vertices with the matrices `E0` and `[0]`, then `E1` and `[0]`,
when `E0` has 65536 entries. -/
theorem wide_steps (E0 : List Int) (hlen : E0.length = 65536) (ptr : List Nat) (o1 : Nat)
    (st1 : TurnTableBuild) (h1 : storeMatrix ⟨0, [], [], ptr⟩ E0 = (o1, st1)) (o2 : Nat)
    (st2 : TurnTableBuild)
    (h2 : storeMatrix { st1 with turnTablePtr := st1.turnTablePtr.set 0 o1 } [0] = (o2, st2))
    (o3 : Nat) (st3 : TurnTableBuild)
    (h3 : storeMatrix
      { st2 with
        turnTablePtr := st2.turnTablePtr.set 0 (st2.turnTablePtr.getD 0 0 ||| u32 (o2 <<< 16)) }
      [0, 1431655765, -1431655765, 0] = (o3, st3))
    (o4 : Nat) (st4 : TurnTableBuild)
    (h4 : storeMatrix { st3 with turnTablePtr := st3.turnTablePtr.set 1 o3 } [0] = (o4, st4)) :
    o1 = 0 ∧ o2 = 65536 ∧ o3 = 65537 ∧ o4 = 65536 ∧
    st4.turnTableDiffs = E0 ++ [0, 0, 1431655765, -1431655765, 0] ∧
    st4.turnTablePtr = ((ptr.set 0 0).set 0 (((ptr.set 0 0).getD 0 0) ||| 0)).set 1 65537 := by
  have hne1 : ¬ E0 = [0] := by
    intro h; rw [h] at hlen; simp at hlen
  have hne2 : ¬ E0 = [0, 1431655765, -1431655765, 0] := by
    intro h; rw [h] at hlen; simp at hlen
  have hne3 : ¬ ([0] : List Int) = [0, 1431655765, -1431655765, 0] := by decide
  have u1 : u32 65536 = 65536 := by decide
  have u2 : u32 (65536 + 1) = 65537 := by decide
  have u3 : u32 (65537 + 4) = 65541 := by decide
  have u4 : u32 (65536 <<< 16) = 0 := by decide
  unfold storeMatrix at h1
  simp only [matrixFind] at h1
  obtain ⟨rfl, rfl⟩ := Prod.mk.inj h1
  unfold storeMatrix at h2
  simp only [matrixFind, hne1, if_false, List.nil_append, Nat.zero_add, hlen, u1,
    List.length_singleton, u2, List.cons_append] at h2
  obtain ⟨rfl, rfl⟩ := Prod.mk.inj h2
  unfold storeMatrix at h3
  simp only [matrixFind, hne2, hne3, if_false, List.nil_append, List.cons_append, u4,
    List.length_cons, List.length_nil, u3, Nat.zero_add, List.append_assoc] at h3
  obtain ⟨rfl, rfl⟩ := Prod.mk.inj h3
  unfold storeMatrix at h4
  simp only [matrixFind, hne1, if_false, if_true] at h4
  obtain ⟨rfl, rfl⟩ := Prod.mk.inj h4
  refine ⟨rfl, rfl, rfl, rfl, rfl, rfl⟩

/-- The tables that the constructor builds for `wideGraph` with the hop function: the matrix
of the entry points of the vertex 1 stands at the offset 65537. -/
theorem wide_tables :
    (buildTurnTables wideGraph HopFunction).turnTablePtr = [0, 65537, 0] ∧
    (buildTurnTables wideGraph HopFunction).turnTableDiffs =
      entryTurnTableDifferences wideGraph HopFunction 0 ++
        [0, 0, 1431655765, -1431655765, 0] := by
  obtain ⟨hn, i0, o0, i1, o1, i2, hE1, _⟩ := wide_facts
  have hX0 := exit_single wideGraph HopFunction 0 o0
  have hX1 := exit_single wideGraph HopFunction 1 o1
  have hlen := entry_length wideGraph HopFunction 0
  rw [i0] at hlen
  have hz0 : ¬ (wideGraph.getInDegree 0 = 0 ∨ wideGraph.getOutDegree 0 = 0) := by
    rw [i0, o0]; omega
  have hz1 : ¬ (wideGraph.getInDegree 1 = 0 ∨ wideGraph.getOutDegree 1 = 0) := by
    rw [i1, o1]; omega
  unfold buildTurnTables
  rw [hn, show List.range 3 = [0, 1, 2] from rfl]
  simp only [List.foldl_cons, List.foldl_nil]
  rw [turnTableStep_skip _ _ _ 2 (Or.inl i2)]
  rcases hr1 : storeMatrix ⟨0, [], [], List.replicate 3 0⟩
    (entryTurnTableDifferences wideGraph HopFunction 0) with ⟨p1, st1⟩
  rcases hr2 : storeMatrix { st1 with turnTablePtr := st1.turnTablePtr.set 0 p1 }
    (exitTurnTableDifferences wideGraph HopFunction 0) with ⟨p2, st2⟩
  rw [turnTableStep_eq wideGraph HopFunction _ 0 hz0 p1 st1 hr1 p2 st2 hr2]
  rcases hr3 : storeMatrix
    { st2 with
      turnTablePtr := st2.turnTablePtr.set 0 (st2.turnTablePtr.getD 0 0 ||| u32 (p2 <<< 16)) }
    (entryTurnTableDifferences wideGraph HopFunction 1) with ⟨p3, st3⟩
  rcases hr4 : storeMatrix { st3 with turnTablePtr := st3.turnTablePtr.set 1 p3 }
    (exitTurnTableDifferences wideGraph HopFunction 1) with ⟨p4, st4⟩
  rw [turnTableStep_eq wideGraph HopFunction _ 1 hz1 p3 st3 hr3 p4 st4 hr4]
  rw [hX0] at hr2
  rw [hE1] at hr3
  rw [hX1] at hr4
  obtain ⟨e1, e2, e3, e4, e5, e6⟩ := wide_steps _ hlen _ p1 st1 hr1 p2 st2 hr2 p3 st3 hr3 p4
    st4 hr4
  subst e4
  refine ⟨?_, e5⟩
  show st4.turnTablePtr.set 1 (st4.turnTablePtr.getD 1 0 ||| u32 (65536 <<< 16)) = _
  rw [e6]
  decide

/-- The value that `getMaxEntryTurnTableDiff(1, 0 * 2 + 1)` reads in the tables of
`wideGraph`. -/
theorem wide_lookup (cf : CostFunction) (w : List Nat) :
    (⟨cf, w, (buildTurnTables wideGraph HopFunction).turnTablePtr,
      (buildTurnTables wideGraph HopFunction).turnTableDiffs⟩ :
        Metric).getMaxEntryTurnTableDiff 1 (0 * 2 + 1) = 0 := by
  obtain ⟨t1, t2⟩ := wide_tables
  obtain ⟨hn, i0, o0, i1, o1, i2, hE1, hd0⟩ := wide_facts
  have hlen := entry_length wideGraph HopFunction 0
  rw [i0] at hlen
  have hg := entry_getD wideGraph HopFunction 0 0 2 (by rw [i0]; omega) (by rw [i0]; omega)
  rw [o0] at hg
  simp only [Nat.sub_self, List.range'_zero, List.foldl_nil, Nat.zero_mul, Nat.zero_add] at hg
  rw [hd0] at hg
  unfold getMaxEntryTurnTableDiff
  simp only
  rw [t1, t2]
  have e : u32 ((([0, 65537, 0] : List Nat).getD 1 0 &&& 65535) + (0 * 2 + 1)) = 2 := by decide
  rw [e, List.getD_append _ _ _ _ (by rw [hlen]; omega)]
  exact hg

end Metric

end CRP

namespace CRP

/-! ### Decimal digits -/

theorem digitChar_spec (k : Nat) (hk : k < 10) :
    (Nat.digitChar k).isDigit = true ∧ (Nat.digitChar k).toNat - 48 = k := by
  interval_cases k <;> exact ⟨by decide, by decide⟩

theorem isDigit_ne (c : Char) (h : c.isDigit = true) :
    c ≠ ' ' ∧ c ≠ '\n' ∧ c ≠ '-' ∧ c ≠ '+' ∧ isSpace c = false := by
  refine ⟨?_, ?_, ?_, ?_, ?_⟩
  · rintro rfl; exact absurd h (by decide)
  · rintro rfl; exact absurd h (by decide)
  · rintro rfl; exact absurd h (by decide)
  · rintro rfl; exact absurd h (by decide)
  · unfold Char.isDigit at h
    unfold isSpace
    have h1 : 48 ≤ c.toNat := by
      rw [Bool.and_eq_true] at h
      exact of_decide_eq_true h.1
    have hne : ∀ d : Char, d.toNat < 48 → c ≠ d := by
      intro d hd e
      subst e
      exact absurd h1 (by omega)
    have hn : c.toNat ≠ 11 ∧ c.toNat ≠ 12 := by omega
    simp [hne ' ' (by decide), hne '\t' (by decide), hne '\n' (by decide),
      hne '\r' (by decide), hn.1, hn.2]

/-- The digits that `Nat.toDigitsCore` writes in front of `ds`. -/
theorem toDigitsCore_spec : ∀ fuel n ds, n < fuel →
    ∃ xs, Nat.toDigitsCore 10 fuel n ds = xs ++ ds ∧ xs ≠ [] ∧
      (∀ c, c ∈ xs → c.isDigit = true) ∧
      xs.foldl (fun acc c => 10 * acc + (c.toNat - 48)) 0 = n := by
  intro fuel
  induction fuel with
  | zero => intro n ds h; omega
  | succ fuel ih =>
    intro n ds h
    obtain ⟨d1, d2⟩ := digitChar_spec (n % 10) (Nat.mod_lt _ (by norm_num))
    unfold Nat.toDigitsCore
    by_cases h0 : n / 10 = 0
    · simp only [h0, if_true]
      refine ⟨[Nat.digitChar (n % 10)], rfl, by simp, ?_, ?_⟩
      · intro c hc
        have : c = Nat.digitChar (n % 10) := by simpa using hc
        rw [this]; exact d1
      · simp only [List.foldl_cons, List.foldl_nil, d2]
        omega
    · simp only [h0, if_false]
      obtain ⟨xs, e1, e2, e3, e4⟩ := ih (n / 10) (Nat.digitChar (n % 10) :: ds) (by omega)
      refine ⟨xs ++ [Nat.digitChar (n % 10)], by rw [e1]; simp, by simp, ?_, ?_⟩
      · intro c hc
        rcases List.mem_append.1 hc with h | h
        · exact e3 c h
        · have : c = Nat.digitChar (n % 10) := by simpa using h
          rw [this]; exact d1
      · rw [List.foldl_append, e4]
        simp only [List.foldl_cons, List.foldl_nil, d2]
        omega

/-- The text of an unsigned number: digits, at least one, with the value of the number. -/
theorem writeUnsigned_spec (n : Nat) :
    writeUnsigned n ≠ [] ∧ (∀ c, c ∈ writeUnsigned n → c.isDigit = true) ∧
    (writeUnsigned n).foldl (fun acc c => 10 * acc + (c.toNat - 48)) 0 = n := by
  obtain ⟨xs, e1, e2, e3, e4⟩ := toDigitsCore_spec (n + 1) n [] (by omega)
  unfold writeUnsigned Nat.toDigits
  rw [e1, List.append_nil]
  exact ⟨e2, e3, e4⟩

theorem takeWhile_all {α : Type} (p : α → Bool) (l : List α) (h : ∀ c, c ∈ l → p c = true) :
    l.takeWhile p = l := by
  induction l with
  | nil => rfl
  | cons a l ih =>
    rw [List.takeWhile_cons, h a (List.mem_cons_self _ _),
      ih (fun c hc => h c (List.mem_cons_of_mem _ hc))]
    rfl

theorem digitsValue_digits (ds : List Char) (h : ∀ c, c ∈ ds → c.isDigit = true) :
    digitsValue ds = ds.foldl (fun acc c => 10 * acc + (c.toNat - 48)) 0 := by
  unfold digitsValue
  rw [takeWhile_all _ _ h]

/-- The conversion of the digits of a number that fits. -/
theorem parseUnsigned_digits (bits : Nat) (ds : List Char) (hne : ds ≠ [])
    (h : ∀ c, c ∈ ds → c.isDigit = true)
    (hv : ds.foldl (fun acc c => 10 * acc + (c.toNat - 48)) 0 < 2 ^ bits) :
    parseUnsigned bits ds = some (ds.foldl (fun acc c => 10 * acc + (c.toNat - 48)) 0) := by
  obtain ⟨c, rest, rfl⟩ := List.exists_cons_of_ne_nil hne
  obtain ⟨_, _, c3, c4, c5⟩ := isDigit_ne c (h c (List.mem_cons_self _ _))
  unfold parseUnsigned
  have e1 : (c :: rest).dropWhile isSpace = c :: rest := by
    rw [List.dropWhile_cons, c5]; rfl
  simp only [e1, List.head?_cons, Option.some.injEq, c3, c4, or_self, if_false,
    decide_False]
  rw [takeWhile_all _ _ h, digitsValue_digits _ h]
  simp only [List.isEmpty_cons, Bool.false_eq_true, if_false]
  rw [if_neg (by omega)]

theorem stoul_writeUnsigned (n : Nat) (h : n < 2 ^ 64) : stoul (writeUnsigned n) = some n := by
  obtain ⟨a, b, c⟩ := writeUnsigned_spec n
  unfold stoul
  rw [parseUnsigned_digits 64 _ a b (by rw [c]; exact h), c]

theorem stoull_writeUnsigned (n : Nat) (h : n < 2 ^ 64) :
    stoull (writeUnsigned n) = some n := stoul_writeUnsigned n h

theorem stoui_writeUnsigned (n : Nat) (h : n < 2 ^ 32) :
    GraphIO.stoui (writeUnsigned n) = some n := by
  unfold GraphIO.stoui
  rw [stoul_writeUnsigned n (lt_trans h (by norm_num))]
  have : u32 n = n := by unfold u32; omega
  simp [this]

theorem stoi_writeInt (x : Int) (h1 : -2147483648 ≤ x) (h2 : x < 2147483648) :
    stoi (writeInt x) = some x := by
  unfold writeInt
  by_cases hx : x < 0
  · rw [if_pos hx]
    obtain ⟨a, b, c⟩ := writeUnsigned_spec (-x).toNat
    unfold writeUnsigned at a b c
    obtain ⟨d, rest, hd⟩ := List.exists_cons_of_ne_nil a
    unfold stoi
    have e1 : ('-' :: Nat.toDigits 10 (-x).toNat).dropWhile isSpace =
        '-' :: Nat.toDigits 10 (-x).toNat := by
      rw [List.dropWhile_cons]
      rfl
    simp only [e1, List.head?_cons, true_or, if_true, List.tail_cons, decide_True]
    rw [takeWhile_all _ _ b, digitsValue_digits _ b, c, hd]
    simp only [List.isEmpty_cons, Bool.false_eq_true, if_false]
    rw [if_neg (by omega)]
    congr 1
    omega
  · rw [if_neg hx]
    obtain ⟨a, b, c⟩ := writeUnsigned_spec x.toNat
    unfold writeUnsigned at a b c
    obtain ⟨d, rest, hd⟩ := List.exists_cons_of_ne_nil a
    obtain ⟨_, _, c3, c4, c5⟩ := isDigit_ne d (b d (by rw [hd]; exact List.mem_cons_self _ _))
    unfold stoi
    have e1 : (Nat.toDigits 10 x.toNat).dropWhile isSpace = Nat.toDigits 10 x.toNat := by
      rw [hd, List.dropWhile_cons, c5]; rfl
    rw [e1]
    have e2 : (Nat.toDigits 10 x.toNat).head? = some d := by rw [hd]; rfl
    simp only [e2, Option.some.injEq, c3, c4, or_self, if_false, decide_False]
    rw [takeWhile_all _ _ b, digitsValue_digits _ b, c, hd]
    simp only [List.isEmpty_cons, Bool.false_eq_true, if_false]
    rw [if_neg (by omega)]
    congr 1
    omega

end CRP
namespace CRP

/-! ### Tokens and lines -/

theorem writeUnsigned_chars (n : Nat) :
    ' ' ∉ writeUnsigned n ∧ '\n' ∉ writeUnsigned n := by
  obtain ⟨_, b, _⟩ := writeUnsigned_spec n
  exact ⟨fun h => (isDigit_ne _ (b _ h)).1 rfl, fun h => (isDigit_ne _ (b _ h)).2.1 rfl⟩

theorem writeInt_chars (x : Int) : ' ' ∉ writeInt x ∧ '\n' ∉ writeInt x := by
  unfold writeInt
  split_ifs
  · obtain ⟨a, b⟩ := writeUnsigned_chars (-x).toNat
    unfold writeUnsigned at a b
    constructor
    · intro h
      rcases List.mem_cons.1 h with h | h
      · exact absurd h (by decide)
      · exact a h
    · intro h
      rcases List.mem_cons.1 h with h | h
      · exact absurd h (by decide)
      · exact b h
  · exact writeUnsigned_chars x.toNat

namespace GraphIO

theorem splitLoop_token (t rest : List Char) (h : ' ' ∉ t) :
    ∀ acc, splitLoop ' ' (t ++ rest) acc = splitLoop ' ' rest (acc ++ t) := by
  induction t with
  | nil => intro acc; simp
  | cons c t ih =>
    intro acc
    have hc : c ≠ ' ' := fun e => h (by rw [e]; exact List.mem_cons_self _ _)
    have ht : ' ' ∉ t := fun e => h (List.mem_cons_of_mem _ e)
    rw [List.cons_append, splitLoop, if_neg hc, ih ht]
    simp

/-- The tokens of a line that has one blank in front of every item but the first. -/
theorem splitLoop_tokens (ts : List (List Char)) :
    ∀ (t0 acc : List Char), ' ' ∉ t0 → (∀ t, t ∈ ts → ' ' ∉ t) →
      splitLoop ' ' (t0 ++ ts.flatMap (fun t => ' ' :: t)) acc = (acc ++ t0) :: ts := by
  induction ts with
  | nil =>
    intro t0 acc h0 _
    rw [List.flatMap_nil, splitLoop_token t0 [] h0]
    rfl
  | cons t1 ts ih =>
    intro t0 acc h0 h
    rw [List.flatMap_cons, splitLoop_token t0 _ h0, List.cons_append, splitLoop, if_pos rfl,
      ih t1 [] (h t1 (List.mem_cons_self _ _)) (fun t ht => h t (List.mem_cons_of_mem _ ht))]
    rfl

theorem splitString_tokens (t0 : List Char) (ts : List (List Char)) (h0 : ' ' ∉ t0)
    (h : ∀ t, t ∈ ts → ' ' ∉ t) :
    splitString (t0 ++ ts.flatMap (fun t => ' ' :: t)) ' ' = t0 :: ts := by
  unfold splitString
  rw [splitLoop_tokens ts t0 [] h0 h]
  rfl

/-- The tokens of a line that has one blank after every item. -/
theorem splitString_trailing (ts : List (List Char)) (h : ∀ t, t ∈ ts → ' ' ∉ t) :
    splitString (ts.flatMap (fun t => t ++ [' '])) ' ' = ts ++ [[]] := by
  unfold splitString
  induction ts with
  | nil => rfl
  | cons t1 ts ih =>
    rw [List.flatMap_cons, List.append_assoc,
      splitLoop_token t1 _ (h t1 (List.mem_cons_self _ _)), List.singleton_append, splitLoop,
      if_pos rfl, ih (fun t ht => h t (List.mem_cons_of_mem _ ht))]
    rfl

end GraphIO

theorem writeSeparated_cons {α : Type} (write : α → List Char) (rest : List α) :
    ∀ x, writeSeparated write (x :: rest) =
      write x ++ (rest.map write).flatMap (fun t => ' ' :: t) := by
  induction rest with
  | nil => intro x; simp [writeSeparated]
  | cons y rest ih =>
    intro x
    rw [writeSeparated, ih y]
    simp

/-- The tokens of a line of items that is not empty. -/
theorem splitString_writeSeparated {α : Type} (write : α → List Char) (xs : List α)
    (hne : xs ≠ []) (h : ∀ x, ' ' ∉ write x) :
    GraphIO.splitString (writeSeparated write xs) ' ' = xs.map write := by
  obtain ⟨x, rest, rfl⟩ := List.exists_cons_of_ne_nil hne
  rw [writeSeparated_cons, GraphIO.splitString_tokens _ _ (h x)]
  · rfl
  · intro t ht
    obtain ⟨y, _, rfl⟩ := List.mem_map.1 ht
    exact h y

theorem writeSeparated_noLF {α : Type} (write : α → List Char) (xs : List α)
    (h : ∀ x, '\n' ∉ write x) : '\n' ∉ writeSeparated write xs := by
  cases xs with
  | nil => simp [writeSeparated]
  | cons x rest =>
    rw [writeSeparated_cons]
    intro hm
    rcases List.mem_append.1 hm with hm | hm
    · exact h x hm
    · obtain ⟨t, ht, hm⟩ := List.mem_flatMap.1 hm
      obtain ⟨y, _, rfl⟩ := List.mem_map.1 ht
      rcases List.mem_cons.1 hm with hm | hm
      · exact absurd hm (by decide)
      · exact h y hm

theorem readLine_line (line rest : List Char) (h : '\n' ∉ line) :
    readLine (line ++ '\n' :: rest) = (line, some rest) := by
  induction line with
  | nil => simp [readLine]
  | cons c line ih =>
    have hc : c ≠ '\n' := fun e => h (by rw [e]; exact List.mem_cons_self _ _)
    have ht : '\n' ∉ line := fun e => h (List.mem_cons_of_mem _ e)
    rw [List.cons_append, readLine, if_neg hc, ih ht]

theorem readLine_last (line : List Char) (h : '\n' ∉ line) : readLine line = (line, none) := by
  induction line with
  | nil => rfl
  | cons c line ih =>
    have hc : c ≠ '\n' := fun e => h (by rw [e]; exact List.mem_cons_self _ _)
    have ht : '\n' ∉ line := fun e => h (List.mem_cons_of_mem _ e)
    rw [readLine, if_neg hc, ih ht]

theorem getline_line (line rest old : List Char) (h : '\n' ∉ line) :
    getline ⟨line ++ '\n' :: rest, false, false⟩ old = (⟨rest, false, false⟩, line) := by
  unfold getline
  simp [readLine_line line rest h]

theorem getline_last (line old : List Char) (h : '\n' ∉ line) :
    getline ⟨line, false, false⟩ old = (⟨[], true, line.isEmpty⟩, line) := by
  unfold getline
  simp [readLine_last line h]

theorem mapM_some {α β : Type} (f : α → Option β) (g : α → β) (xs : List α)
    (h : ∀ x, x ∈ xs → f x = some (g x)) : xs.mapM f = some (xs.map g) := by
  induction xs with
  | nil => rfl
  | cons x xs ih =>
    rw [List.mapM_cons, h x (List.mem_cons_self _ _),
      ih (fun y hy => h y (List.mem_cons_of_mem _ hy))]
    rfl

end CRP
namespace CRP

theorem mapM_map_some {α β : Type} (f : β → Option α) (w : α → β) (xs : List α)
    (h : ∀ x, x ∈ xs → f (w x) = some x) : (xs.map w).mapM f = some xs := by
  induction xs with
  | nil => rfl
  | cons x xs ih =>
    rw [List.map_cons, List.mapM_cons, h x (List.mem_cons_self _ _),
      ih (fun y hy => h y (List.mem_cons_of_mem _ hy))]
    rfl

namespace Metric

/-- The header line of `Metric::write` and its tokens. -/
theorem header_tokens (a b c : Nat) :
    '\n' ∉ (writeUnsigned a ++ ' ' :: writeUnsigned b ++ ' ' :: writeUnsigned c) ∧
    GraphIO.splitString (writeUnsigned a ++ ' ' :: writeUnsigned b ++ ' ' :: writeUnsigned c)
      ' ' = [writeUnsigned a, writeUnsigned b, writeUnsigned c] := by
  obtain ⟨a1, a2⟩ := writeUnsigned_chars a
  obtain ⟨b1, b2⟩ := writeUnsigned_chars b
  obtain ⟨c1, c2⟩ := writeUnsigned_chars c
  constructor
  · simp only [List.mem_append, List.mem_cons, not_or]
    exact ⟨⟨a2, by decide, b2⟩, by decide, c2⟩
  · have := GraphIO.splitString_tokens (writeUnsigned a) [writeUnsigned b, writeUnsigned c] a1
      (by
        intro t ht
        rcases List.mem_cons.1 ht with h | h
        · rw [h]; exact b1
        · have : t = writeUnsigned c := by simpa using h
          rw [this]; exact c1)
    simpa [List.append_assoc] using this

/-- The text of `Metric::write` as four lines. -/
theorem write_eq (metric : Metric) :
    metric.write =
      (writeUnsigned metric.weights.length ++ ' ' :: writeUnsigned metric.turnTablePtr.length ++
        ' ' :: writeUnsigned metric.turnTableDiffs.length) ++ '\n' ::
      (writeSeparated writeUnsigned metric.weights ++ '\n' ::
      (writeSeparated writeUnsigned metric.turnTablePtr ++ '\n' ::
      writeSeparated writeInt metric.turnTableDiffs)) := by
  unfold write
  simp [List.append_assoc]

theorem split_nil : GraphIO.splitString [] ' ' = [[]] := rfl

/-- `Metric::read` of the text of `Metric::write`, when the entries of the vectors fit their
types: the assertion on the number of tokens fails for an empty vector, and otherwise the
three vectors are read back. -/
theorem read_of_write (metric : Metric) (costFunction : CostFunction)
    (hlw : metric.weights.length < 2 ^ 64) (hlp : metric.turnTablePtr.length < 2 ^ 64)
    (hld : metric.turnTableDiffs.length < 2 ^ 64)
    (hw : ∀ x, x ∈ metric.weights → x < 2 ^ 32)
    (hp : ∀ x, x ∈ metric.turnTablePtr → x < 2 ^ 32)
    (hd : ∀ x, x ∈ metric.turnTableDiffs → -2147483648 ≤ x ∧ x < 2147483648) :
    read metric.write costFunction =
      if metric.weights = [] ∨ metric.turnTablePtr = [] ∨ metric.turnTableDiffs = [] then none
      else some ⟨costFunction, metric.weights, metric.turnTablePtr, metric.turnTableDiffs⟩ := by
  obtain ⟨h1, h2⟩ := header_tokens metric.weights.length metric.turnTablePtr.length
    metric.turnTableDiffs.length
  have n2 := writeSeparated_noLF writeUnsigned metric.weights (fun x => (writeUnsigned_chars x).2)
  have n3 := writeSeparated_noLF writeUnsigned metric.turnTablePtr
    (fun x => (writeUnsigned_chars x).2)
  have n4 := writeSeparated_noLF writeInt metric.turnTableDiffs (fun x => (writeInt_chars x).2)
  rw [write_eq]
  unfold read IStream.ofText
  simp only [getline_line _ _ _ h1, h2, List.length_cons, List.length_nil, List.getD_cons_zero,
    List.getD_cons_succ, stoul_writeUnsigned _ hlw, stoul_writeUnsigned _ hlp,
    stoul_writeUnsigned _ hld, Option.some_bind, getline_line _ _ _ n2, getline_line _ _ _ n3,
    getline_last _ _ n4]
  simp only [ne_eq, not_true_eq_false, if_false, Nat.zero_add, Nat.reduceAdd]
  by_cases e1 : metric.weights = []
  · rw [e1]
    simp [writeSeparated, split_nil]
  · rw [splitString_writeSeparated _ _ e1 (fun x => (writeUnsigned_chars x).1),
      List.length_map]
    simp only [not_true_eq_false, if_false]
    rw [mapM_map_some _ _ _ (fun x hx => stoul_writeUnsigned x
      (lt_trans (hw x hx) (by norm_num)))]
    simp only [Option.some_bind]
    by_cases e2 : metric.turnTablePtr = []
    · rw [e2]
      simp [writeSeparated, split_nil]
    · rw [splitString_writeSeparated _ _ e2 (fun x => (writeUnsigned_chars x).1),
        List.length_map]
      simp only [not_true_eq_false, if_false]
      rw [mapM_map_some _ _ _ (fun x hx => stoul_writeUnsigned x
        (lt_trans (hp x hx) (by norm_num)))]
      simp only [Option.some_bind]
      by_cases e3 : metric.turnTableDiffs = []
      · rw [e3]
        simp [writeSeparated, split_nil]
      · rw [splitString_writeSeparated _ _ e3 (fun x => (writeInt_chars x).1),
          List.length_map]
        simp only [not_true_eq_false, if_false]
        rw [mapM_map_some _ _ _ (fun x hx => stoi_writeInt x (hd x hx).1 (hd x hx).2)]
        simp only [Option.some_bind, e1, e2, e3, or_self, if_false]
        have m1 : metric.weights.map u32 = metric.weights := by
          conv => rhs; rw [← List.map_id metric.weights]
          apply List.map_congr_left
          intro x hx
          have := hw x hx
          unfold u32
          simp only [id]
          omega
        have m2 : metric.turnTablePtr.map u32 = metric.turnTablePtr := by
          conv => rhs; rw [← List.map_id metric.turnTablePtr]
          apply List.map_congr_left
          intro x hx
          have := hp x hx
          unfold u32
          simp only [id]
          omega
        rw [m1, m2]

end Metric

end CRP
namespace CRP

namespace GraphIO

/-- The line of an overlay vertex without its line feed, and its tokens. -/
theorem writeVertex_tokens (v : OverlayVertex) :
    ∃ line, writeVertex v = line ++ ['\n'] ∧ '\n' ∉ line ∧
      splitString line ' ' =
        [writeUnsigned v.cellNumber, writeUnsigned v.neighborOverlayVertex,
          writeUnsigned v.originalVertex, writeUnsigned v.originalEdge] ++
        v.entryExitPoint.map writeUnsigned := by
  refine ⟨writeUnsigned v.cellNumber ++
    ([writeUnsigned v.neighborOverlayVertex, writeUnsigned v.originalVertex,
      writeUnsigned v.originalEdge] ++ v.entryExitPoint.map writeUnsigned).flatMap
      (fun t => ' ' :: t), ?_, ?_, ?_⟩
  · unfold writeVertex
    simp [List.append_assoc, List.flatMap_map]
  · simp only [List.mem_append, List.mem_flatMap, List.mem_cons, List.mem_map, not_or]
    refine ⟨(writeUnsigned_chars _).2, ?_⟩
    rintro ⟨t, ht, h⟩
    have hne : '\n' ≠ ' ' := by decide
    rcases h with h | h
    · exact hne h
    · simp only [List.mem_singleton, List.not_mem_nil, or_false] at ht
      rcases ht with (rfl | rfl | rfl) | ⟨e, _, rfl⟩
      · exact (writeUnsigned_chars _).2 h
      · exact (writeUnsigned_chars _).2 h
      · exact (writeUnsigned_chars _).2 h
      · exact (writeUnsigned_chars _).2 h
  · rw [splitString_tokens _ _ (writeUnsigned_chars _).1]
    · rfl
    · intro t ht
      simp only [List.mem_append, List.mem_cons, List.mem_singleton, List.not_mem_nil,
        or_false, List.mem_map] at ht
      rcases ht with (rfl | rfl | rfl) | ⟨e, _, rfl⟩
      · exact (writeUnsigned_chars _).1
      · exact (writeUnsigned_chars _).1
      · exact (writeUnsigned_chars _).1
      · exact (writeUnsigned_chars _).1

/-- The loop of `readOverlayGraph` over the lines of the overlay vertices `vs`. -/
theorem readVertices_write (vs : List OverlayVertex)
    (h : ∀ v, v ∈ vs →
      v.cellNumber < 2 ^ 64 ∧ v.neighborOverlayVertex < 2 ^ 32 ∧ v.originalVertex < 2 ^ 32 ∧
      v.originalEdge < 2 ^ 32 ∧ v.entryExitPoint ≠ [] ∧
      ∀ e, e ∈ v.entryExitPoint → e < 2 ^ 32) :
    ∀ (rest line : List Char) (acc : List OverlayVertex),
      ∃ line', readVertices vs.length ⟨vs.flatMap writeVertex ++ rest, false, false⟩ line acc =
        some (⟨rest, false, false⟩, line', acc ++ vs) := by
  induction vs with
  | nil =>
    intro rest line acc
    exact ⟨line, by simp [readVertices]⟩
  | cons v vs ih =>
    intro rest line acc
    obtain ⟨h1, h2, h3, h4, h5, h6⟩ := h v (List.mem_cons_self _ _)
    obtain ⟨l, e1, e2, e3⟩ := writeVertex_tokens v
    obtain ⟨line', ih'⟩ := ih (fun w hw => h w (List.mem_cons_of_mem _ hw)) rest l
      (acc ++ [v])
    refine ⟨line', ?_⟩
    obtain ⟨x, xs, hx⟩ := List.exists_cons_of_ne_nil h5
    have elen : ¬ ([writeUnsigned v.cellNumber, writeUnsigned v.neighborOverlayVertex,
        writeUnsigned v.originalVertex, writeUnsigned v.originalEdge] ++
        v.entryExitPoint.map writeUnsigned).length < 5 := by
      rw [hx]; simp
    rw [List.length_cons, List.flatMap_cons, e1, List.append_assoc, List.append_assoc,
      List.singleton_append, readVertices]
    simp only [IStream.eof, Bool.false_eq_true, if_false, getline_line _ _ _ e2, e3, elen]
    simp only [List.cons_append, List.nil_append, List.getD_cons_zero, List.getD_cons_succ,
      stoull_writeUnsigned _ h1, stoui_writeUnsigned _ h2, stoui_writeUnsigned _ h3,
      stoui_writeUnsigned _ h4, Option.some_bind, List.drop_succ_cons, List.drop_zero]
    rw [mapM_map_some _ _ _ (fun e he => stoui_writeUnsigned e (h6 e he))]
    simp only [Option.some_bind]
    rw [ih']
    simp

end GraphIO

end CRP
namespace CRP

namespace GraphIO

/-- The line of a cell without its line feed, and its tokens. -/
theorem writeCell_tokens (p : Nat × Cell) :
    ∃ line, writeCell p = line ++ ['\n'] ∧ '\n' ∉ line ∧
      splitString line ' ' =
        [writeUnsigned p.1, writeUnsigned p.2.numEntryPoints, writeUnsigned p.2.numExitPoints,
          writeUnsigned p.2.cellOffset, writeUnsigned p.2.overlayIdOffset] := by
  refine ⟨writeUnsigned p.1 ++
    ([writeUnsigned p.2.numEntryPoints, writeUnsigned p.2.numExitPoints,
      writeUnsigned p.2.cellOffset, writeUnsigned p.2.overlayIdOffset]).flatMap
      (fun t => ' ' :: t), ?_, ?_, ?_⟩
  · unfold writeCell
    simp [List.append_assoc]
  · simp only [List.mem_append, List.mem_flatMap, List.mem_cons, not_or]
    refine ⟨(writeUnsigned_chars _).2, ?_⟩
    rintro ⟨t, ht, h⟩
    have hne : '\n' ≠ ' ' := by decide
    rcases h with h | h
    · exact hne h
    · simp only [List.not_mem_nil, or_false] at ht
      rcases ht with rfl | rfl | rfl | rfl
      · exact (writeUnsigned_chars _).2 h
      · exact (writeUnsigned_chars _).2 h
      · exact (writeUnsigned_chars _).2 h
      · exact (writeUnsigned_chars _).2 h
  · rw [splitString_tokens _ _ (writeUnsigned_chars _).1]
    intro t ht
    simp only [List.mem_cons, List.not_mem_nil, or_false] at ht
    rcases ht with rfl | rfl | rfl | rfl
    · exact (writeUnsigned_chars _).1
    · exact (writeUnsigned_chars _).1
    · exact (writeUnsigned_chars _).1
    · exact (writeUnsigned_chars _).1

theorem cellAssign_append (key : Nat) (cell : Cell) (m : List (Nat × Cell))
    (h : key ∉ m.map Prod.fst) : cellAssign key cell m = m ++ [(key, cell)] := by
  induction m with
  | nil => rfl
  | cons a m ih =>
    obtain ⟨k, c⟩ := a
    have h1 : k ≠ key := fun e => h (by rw [← e]; simp)
    have h2 : key ∉ m.map Prod.fst := fun e => h (by simp at e ⊢; exact Or.inr e)
    rw [cellAssign, if_neg h1, ih h2]
    rfl

/-- The loop of `readOverlayGraph` over the lines of the cells `cells` of the level with the
index `i`. -/
theorem readCells_write (i : Nat) (cells : List (Nat × Cell))
    (h : ∀ p, p ∈ cells → p.1 < 2 ^ 64 ∧ p.2.numEntryPoints < 2 ^ 32 ∧
      p.2.numExitPoints < 2 ^ 32 ∧ p.2.cellOffset < 2 ^ 32 ∧ p.2.overlayIdOffset < 2 ^ 32) :
    ∀ (done : List (Nat × Cell)) (rest line : List Char) (acc : List (List (Nat × Cell))),
      i < acc.length → acc.getD i [] = done → ((done ++ cells).map Prod.fst).Nodup →
      ∃ line', readCells i cells.length ⟨cells.flatMap writeCell ++ rest, false, false⟩ line
          acc = some (⟨rest, false, false⟩, line', acc.set i (done ++ cells)) := by
  induction cells with
  | nil =>
    intro done rest line acc hi hd _
    refine ⟨line, ?_⟩
    simp only [List.length_nil, List.flatMap_nil, List.nil_append, readCells, List.append_nil]
    rw [← hd]
    congr 3
    apply List.ext_getElem
    · simp
    · intro j h1 h2
      by_cases e : i = j
      · subst e
        rw [List.getElem_set_self, List.getD_eq_getElem _ _ hi]
      · rw [List.getElem_set_ne e]
  | cons p cells ih =>
    intro done rest line acc hi hd hnd
    obtain ⟨h1, h2, h3, h4, h5⟩ := h p (List.mem_cons_self _ _)
    obtain ⟨l, e1, e2, e3⟩ := writeCell_tokens p
    have hkey : p.1 ∉ done.map Prod.fst := by
      intro hm
      rw [List.map_append, List.map_cons] at hnd
      have := (List.nodup_append.1 hnd).2.2
      exact this hm (List.mem_cons_self _ _)
    have hnd' : (((done ++ [p]) ++ cells).map Prod.fst).Nodup := by
      rw [List.append_assoc]; exact hnd
    obtain ⟨line', ih'⟩ := ih (fun q hq => h q (List.mem_cons_of_mem _ hq)) (done ++ [p]) rest l
      (acc.set i (done ++ [p])) (by rw [List.length_set]; exact hi)
      (getD_set_eq _ _ _ _ hi) hnd'
    refine ⟨line', ?_⟩
    rw [List.length_cons, List.flatMap_cons, e1, List.append_assoc, List.append_assoc,
      List.singleton_append, readCells]
    simp only [IStream.eof, Bool.false_eq_true, if_false, getline_line _ _ _ e2, e3,
      List.length_cons, List.length_nil, Nat.reduceAdd, ne_eq, not_true_eq_false,
      List.getD_cons_zero, List.getD_cons_succ, stoull_writeUnsigned _ h1,
      stoui_writeUnsigned _ h2, stoui_writeUnsigned _ h3, stoui_writeUnsigned _ h4,
      stoui_writeUnsigned _ h5, Option.some_bind]
    rw [hd, cellAssign_append _ _ _ hkey, ih']
    simp

theorem take_set_succ {α : Type} (acc : List α) (i : Nat) (m : α) (hi : i < acc.length) :
    (acc.set i m).take (i + 1) = acc.take i ++ [m] := by
  induction acc generalizing i with
  | nil => simp at hi
  | cons a acc ih =>
    cases i with
    | zero => simp
    | succ i =>
      simp only [List.set_cons_succ, List.take_succ_cons, List.cons_append]
      rw [ih i (by simpa using hi)]

/-- The loop of `readOverlayGraph` over the levels, on the text that `writeOverlayGraph`
writes for the cell tables `cms`. -/
theorem readLevels_write (cms : List (List (Nat × Cell)))
    (h : ∀ m, m ∈ cms → m.length < 2 ^ 32 ∧ (m.map Prod.fst).Nodup ∧
      ∀ p, p ∈ m → p.1 < 2 ^ 64 ∧ p.2.numEntryPoints < 2 ^ 32 ∧ p.2.numExitPoints < 2 ^ 32 ∧
        p.2.cellOffset < 2 ^ 32 ∧ p.2.overlayIdOffset < 2 ^ 32) :
    ∀ (i : Nat) (rest line : List Char) (acc : List (List (Nat × Cell))),
      acc.length = i + cms.length → (∀ j, i ≤ j → acc.getD j [] = []) →
      ∃ line', readLevels cms.length i
          ⟨(cms.flatMap fun m => writeUnsigned m.length ++ '\n' :: m.flatMap writeCell) ++ rest,
            false, false⟩ line acc =
        some (⟨rest, false, false⟩, line', acc.take i ++ cms) := by
  induction cms with
  | nil =>
    intro i rest line acc hl _
    refine ⟨line, ?_⟩
    simp only [List.length_nil, List.flatMap_nil, List.nil_append, readLevels, List.append_nil]
    rw [List.take_of_length_le (by simp at hl; omega)]
  | cons m cms ih =>
    intro i rest line acc hl hz
    obtain ⟨h1, h2, h3⟩ := h m (List.mem_cons_self _ _)
    rw [List.length_cons] at hl
    obtain ⟨l1, hc⟩ := readCells_write i m h3 [] (cms.flatMap
      (fun m => writeUnsigned m.length ++ '\n' :: m.flatMap writeCell) ++ rest)
      (writeUnsigned m.length) acc (by omega) (hz i (le_refl _)) (by simpa using h2)
    obtain ⟨line', ih'⟩ := ih (fun q hq => h q (List.mem_cons_of_mem _ hq)) (i + 1) rest l1
      (acc.set i m) (by rw [List.length_set]; omega)
      (fun j hj => by rw [getD_set_ne _ _ _ _ _ (by omega)]; exact hz j (by omega))
    refine ⟨line', ?_⟩
    rw [List.length_cons, List.flatMap_cons, readLevels]
    simp only [IStream.eof, Bool.false_eq_true, if_false, List.append_assoc, List.cons_append,
      getline_line _ _ _ (writeUnsigned_chars m.length).2, stoui_writeUnsigned _ h1,
      Option.some_bind]
    rw [hc]
    simp only [Option.some_bind, List.nil_append]
    rw [ih']
    congr 3
    rw [take_set_succ _ _ _ (by omega), List.append_assoc]
    rfl

end GraphIO

end CRP
namespace CRP

namespace GraphIO

theorem map_range'_getD {α : Type} (xs : List α) (d : α) :
    (List.range' 1 xs.length).map (fun l => xs.getD (l - 1) d) = xs := by
  apply List.ext_getElem
  · simp
  · intro i h1 h2
    rw [List.getElem_map, List.getElem_range', Nat.one_mul,
      show 1 + i - 1 = i by omega, List.getD_eq_getElem _ _ h2]

theorem map_id_of {α : Type} (f : α → α) (xs : List α) (h : ∀ x, x ∈ xs → f x = x) :
    xs.map f = xs := by
  conv => rhs; rw [← List.map_id xs]
  apply List.map_congr_left
  intro x hx
  rw [h x hx]
  rfl

/-- The text of `writeOverlayGraph` as lines. -/
theorem writeOverlayGraph_eq (g : OverlayGraph)
    (h1 : g.vertexCountInLevel.length = g.levelInfo.getLevelCount)
    (h2 : g.cellMapping.length = g.levelInfo.getLevelCount) :
    writeOverlayGraph g =
      writeSeparated writeUnsigned g.levelInfo.offset ++ '\n' ::
      (writeSeparated writeUnsigned g.vertexCountInLevel ++ '\n' ::
      (g.overlayVertices.flatMap writeVertex ++
      (writeUnsigned g.weightVectorSize ++ '\n' ::
      (((g.overlayIdMapping.map writeUnsigned).flatMap fun t => t ++ [' ']) ++ '\n' ::
      ((g.cellMapping.flatMap fun m =>
        writeUnsigned m.length ++ '\n' :: m.flatMap writeCell) ++ []))))) := by
  have e1 : (List.range' 1 g.levelInfo.getLevelCount).map g.numberOfVerticesInLevel =
      g.vertexCountInLevel := by
    rw [← h1]
    exact map_range'_getD g.vertexCountInLevel 0
  have e2 : ((List.range' 1 g.levelInfo.getLevelCount).flatMap fun l =>
      writeUnsigned (g.numberOfCellsInLevel l) ++ '\n' :: (g.forCells l).flatMap writeCell) =
      g.cellMapping.flatMap fun m => writeUnsigned m.length ++ '\n' :: m.flatMap writeCell := by
    have := map_range'_getD g.cellMapping []
    rw [h2] at this
    conv => rhs; rw [← this]
    rw [List.flatMap_map]
    rfl
  unfold writeOverlayGraph
  rw [e1, e2]
  simp [List.append_assoc, List.flatMap_map, OverlayGraph.getWeightVectorSize]

/-- `readOverlayGraph` reads back the overlay graph that `writeOverlayGraph` wrote. -/
theorem readOverlayGraph_write (g : OverlayGraph) (hg : Writable g) :
    readOverlayGraph (writeOverlayGraph g) = some g := by
  obtain ⟨⟨hL, _⟩, hoff, hlc, hcnt, hlv, hv, hws, hmap, hlcm, hcells⟩ := hg
  have hne : g.levelInfo.offset ≠ [] := by
    intro e
    unfold LevelInfo.getLevelCount at hL
    rw [e] at hL
    simp at hL
  have hne2 : g.vertexCountInLevel ≠ [] := by
    intro e
    rw [e] at hlc
    simp at hlc
    omega
  have n1 := writeSeparated_noLF writeUnsigned g.levelInfo.offset
    (fun x => (writeUnsigned_chars x).2)
  have n2 := writeSeparated_noLF writeUnsigned g.vertexCountInLevel
    (fun x => (writeUnsigned_chars x).2)
  have n4 : '\n' ∉ ((g.overlayIdMapping.map writeUnsigned).flatMap fun t => t ++ [' ']) := by
    simp only [List.mem_flatMap, List.mem_map, List.mem_append, List.mem_singleton, not_exists,
      not_and, not_or]
    rintro t ⟨x, _, rfl⟩
    exact ⟨(writeUnsigned_chars x).2, by decide⟩
  have hmod : (g.levelInfo.offset.map fun x => x % 256) = g.levelInfo.offset :=
    map_id_of _ _ (fun x hx => Nat.mod_eq_of_lt (hoff x hx))
  obtain ⟨lv, hrv⟩ := readVertices_write g.overlayVertices hv
    (writeUnsigned g.weightVectorSize ++ '\n' ::
      (((g.overlayIdMapping.map writeUnsigned).flatMap fun t => t ++ [' ']) ++ '\n' ::
      ((g.cellMapping.flatMap fun m =>
        writeUnsigned m.length ++ '\n' :: m.flatMap writeCell) ++ [])))
    (writeSeparated writeUnsigned g.vertexCountInLevel) []
  obtain ⟨ll, hrl⟩ := readLevels_write g.cellMapping hcells 0 []
    ((g.overlayIdMapping.map writeUnsigned).flatMap fun t => t ++ [' '])
    (List.replicate g.levelInfo.getLevelCount [])
    (by rw [List.length_replicate, hlcm]; omega)
    (fun j _ => by
      by_cases hj : j < g.levelInfo.getLevelCount
      · rw [List.getD_eq_getElem _ _ (by simpa using hj)]; simp
      · rw [List.getD_eq_default _ _ (by simpa using hj)])
  rw [writeOverlayGraph_eq g hlc hlcm]
  unfold readOverlayGraph IStream.ofText
  simp only [IStream.eof, Bool.false_eq_true, if_false, getline_line _ _ _ n1,
    splitString_writeSeparated _ _ hne (fun x => (writeUnsigned_chars x).1),
    mapM_map_some _ _ _ (fun x hx => stoui_writeUnsigned x
      (lt_trans (hoff x hx) (by norm_num))), Option.some_bind, hmod,
    getline_line _ _ _ n2,
    splitString_writeSeparated _ _ hne2 (fun x => (writeUnsigned_chars x).1),
    List.length_map, hlc, ne_eq, not_true_eq_false,
    mapM_map_some _ _ _ (fun x hx => stoui_writeUnsigned x (hcnt x hx))]
  rw [← hlv, hrv]
  simp only [Option.some_bind, IStream.eof, Bool.false_eq_true, if_false,
    getline_line _ _ _ (writeUnsigned_chars g.weightVectorSize).2,
    stoui_writeUnsigned _ hws, getline_line _ _ _ n4,
    splitString_trailing _ (fun t ht => by
      obtain ⟨x, _, rfl⟩ := List.mem_map.1 ht
      exact (writeUnsigned_chars x).1),
    List.length_append, List.length_singleton, Nat.add_sub_cancel, List.take_left',
    List.length_map]
  have heta : (⟨g.levelInfo.offset⟩ : LevelInfo) = g.levelInfo := rfl
  rw [hlcm] at hrl
  rw [heta, splitString_trailing _ (fun t ht => by
      obtain ⟨x, _, rfl⟩ := List.mem_map.1 ht
      exact (writeUnsigned_chars x).1)]
  simp only [List.length_append, List.length_singleton, Nat.add_sub_cancel, List.take_left',
    List.length_map]
  rw [mapM_map_some _ _ _ (fun x hx => stoui_writeUnsigned x (hmap x hx))]
  simp only [Option.some_bind]
  rw [hrl]
  simp

end GraphIO

end CRP

namespace CRP

/-! ## Termination of the searches -/

theorem labSum_set (n : Nat) (dist round : List Nat) (cur y v : Nat) (hy : y < n)
    (hd : y < dist.length) (hr : y < round.length) (hv : v < inf_weight)
    (hB : round.getD y 0 < cur ∨ v < dist.getD y 0) :
    labSum n (dist.set y v) (round.set y cur) cur + 1 ≤ labSum n dist round cur := by
  unfold labSum
  have hold : v < (labOf dist round cur y).getD inf_weight := by
    unfold labOf
    by_cases h : round.getD y 0 = cur
    · rw [if_pos h]
      simp only [Option.getD_some]
      omega
    · rw [if_neg h]
      exact hv
  have : (Finset.range n).sum (fun x =>
      (labOf (dist.set y v) (round.set y cur) cur x).getD inf_weight) <
      (Finset.range n).sum (fun x => (labOf dist round cur x).getD inf_weight) := by
    apply Finset.sum_lt_sum
    · intro x _
      rw [labOf_set _ _ _ _ _ _ hd hr]
      by_cases hxy : x = y
      · subst hxy
        simp only [if_true, Option.getD_some]
        exact le_of_lt hold
      · simp only [hxy, if_false]
        exact le_refl _
    · refine ⟨y, Finset.mem_range.2 hy, ?_⟩
      rw [labOf_set _ _ _ _ _ _ hd hr]
      simp only [if_true, Option.getD_some]
      exact hold
  omega

namespace MinIDQueue

variable {α : Type} [IDKey α]

theorem pushOrDecrease_length_le (q : List α) (p : α) :
    (pushOrDecrease q p).length ≤ q.length + 1 := by
  unfold pushOrDecrease
  split_ifs
  · simp [decrease_key]
  · omega
  · simp [push]

theorem mem_pushOrDecrease (q : List α) (p b : α) (h : b ∈ pushOrDecrease q p) :
    b = p ∨ b ∈ q := by
  unfold pushOrDecrease at h
  split_ifs at h
  · unfold decrease_key at h
    obtain ⟨x, hx, rfl⟩ := List.mem_map.1 h
    split_ifs
    · exact Or.inl rfl
    · exact Or.inr hx
  · exact Or.inr h
  · unfold push at h
    rcases List.mem_append.1 h with h | h
    · exact Or.inr h
    · exact Or.inl (by simpa using h)

end MinIDQueue

end CRP

namespace CRP

theorem foldl_preserves {α β : Type} (P : β → Prop) (f : β → α → β) (l : List α) :
    ∀ b, P b → (∀ b a, a ∈ l → P b → P (f b a)) → P (l.foldl f b) := by
  induction l with
  | nil => intro b h _; exact h
  | cons x rest ih =>
    intro b h hs
    exact ih (f b x) (hs b x (List.mem_cons_self _ _) h)
      (fun b a ha hb => hs b a (List.mem_cons_of_mem _ ha) hb)

theorem labSum_le (n : Nat) (dist round : List Nat) (cur : Nat)
    (h : ∀ x, x < n → (labOf dist round cur x).getD inf_weight ≤ inf_weight) :
    labSum n dist round cur ≤ n * inf_weight := by
  unfold labSum
  have := Finset.sum_le_card_nsmul (Finset.range n)
    (fun x => (labOf dist round cur x).getD inf_weight) inf_weight
    (fun x hx => h x (Finset.mem_range.1 hx))
  simpa using this

/-- The labels with which a query starts: only the source has one. -/
theorem labSum_init (n : Nat) (dist round : List Nat) (cur sId : Nat)
    (hr : ∀ i, round.getD i 0 ≤ cur) :
    labSum n (dist.set sId 0) (round.set sId (cur + 1)) (cur + 1) ≤ n * inf_weight := by
  apply labSum_le
  intro x _
  unfold labOf
  by_cases h : (round.set sId (cur + 1)).getD x 0 = cur + 1
  · rw [if_pos h]
    simp only [Option.getD_some]
    have hx : sId = x ∧ sId < round.length := by
      by_contra hne
      rw [getD_set_self_or, if_neg hne] at h
      have := hr x
      omega
    rw [getD_set_self_or]
    split_ifs with h1
    · exact Nat.zero_le _
    · have := hr x
      rw [getD_set_self_or, if_pos hx] at h
      by_cases hd : sId < dist.length
      · exact absurd ⟨hx.1, hd⟩ h1
      · rw [List.getD_eq_default _ _ (by omega)]
        exact Nat.zero_le _
  · rw [if_neg h]
    exact le_refl _

namespace Dijkstra

theorem update_term (graph : Graph) (st : Search) (hT : Term graph st) (y v nd : Nat)
    (p : VertexIdPair) (hy : graph.isEntry v y) (hym : y < graph.numberOfEdges) :
    Term graph (if nd ≥ inf_weight then st
      else if st.self.round.getD y 0 < st.self.currentRound ∨ nd < st.self.dist.getD y 0 then
        { st with
          self :=
            { st.self with
              dist := st.self.dist.set y nd
              graphPQ := MinIDQueue.pushOrDecrease st.self.graphPQ ⟨y, v, nd⟩
              round := st.self.round.set y st.self.currentRound
              parent := st.self.parent.set y p } }
      else st) ∧
    potential graph (if nd ≥ inf_weight then st
      else if st.self.round.getD y 0 < st.self.currentRound ∨ nd < st.self.dist.getD y 0 then
        { st with
          self :=
            { st.self with
              dist := st.self.dist.set y nd
              graphPQ := MinIDQueue.pushOrDecrease st.self.graphPQ ⟨y, v, nd⟩
              round := st.self.round.set y st.self.currentRound
              parent := st.self.parent.set y p } }
      else st).self ≤ potential graph st.self ∧
    (if nd ≥ inf_weight then st
      else if st.self.round.getD y 0 < st.self.currentRound ∨ nd < st.self.dist.getD y 0 then
        { st with
          self :=
            { st.self with
              dist := st.self.dist.set y nd
              graphPQ := MinIDQueue.pushOrDecrease st.self.graphPQ ⟨y, v, nd⟩
              round := st.self.round.set y st.self.currentRound
              parent := st.self.parent.set y p } }
      else st).shortestPath = st.shortestPath ∧
    (if nd ≥ inf_weight then st
      else if st.self.round.getD y 0 < st.self.currentRound ∨ nd < st.self.dist.getD y 0 then
        { st with
          self :=
            { st.self with
              dist := st.self.dist.set y nd
              graphPQ := MinIDQueue.pushOrDecrease st.self.graphPQ ⟨y, v, nd⟩
              round := st.self.round.set y st.self.currentRound
              parent := st.self.parent.set y p } }
      else st).tId = st.tId := by
  split_ifs with h1 h2
  · exact ⟨hT, le_refl _, rfl, rfl⟩
  · refine ⟨⟨?_, ?_, ?_⟩, ?_, rfl, rfl⟩
    · simp only [List.length_set]; exact hT.lenDist
    · simp only [List.length_set]; exact hT.lenRound
    · intro q hq
      rcases MinIDQueue.mem_pushOrDecrease _ _ _ hq with h | h
      · subst h; exact hy
      · exact hT.queue q h
    · have hsum := labSum_set graph.numberOfEdges st.self.dist st.self.round
        st.self.currentRound y nd hym (by rw [hT.lenDist]; exact hym)
        (by rw [hT.lenRound]; exact hym) (by omega) h2
      have hlen := MinIDQueue.pushOrDecrease_length_le st.self.graphPQ
        (⟨y, v, nd⟩ : IDKeyTriple)
      have h : 2 * labSum graph.numberOfEdges (st.self.dist.set y nd)
          (st.self.round.set y st.self.currentRound) st.self.currentRound +
          (MinIDQueue.pushOrDecrease st.self.graphPQ (⟨y, v, nd⟩ : IDKeyTriple)).length ≤
          2 * labSum graph.numberOfEdges st.self.dist st.self.round st.self.currentRound +
            st.self.graphPQ.length := by omega
      exact h
  · exact ⟨hT, le_refl _, rfl, rfl⟩

theorem relax_term (graph : Graph) (hg : graph.Consistent) (metric : Metric)
    (s t u uId : Nat) (hu : u < graph.numberOfVertices) (st : Search) (hT : Term graph st)
    (k : Nat) (hk : k < graph.getOutDegree u) (tt : TURN_TYPE) :
    Term graph (relax graph metric s t u uId st
      (graph.getForwardEdge ((graph.vertex u).firstOut + k), k, tt)) ∧
    potential graph (relax graph metric s t u uId st
      (graph.getForwardEdge ((graph.vertex u).firstOut + k), k, tt)).self ≤
      potential graph st.self ∧
    (relax graph metric s t u uId st
      (graph.getForwardEdge ((graph.vertex u).firstOut + k), k, tt)).shortestPath =
      st.shortestPath ∧
    (relax graph metric s t u uId st
      (graph.getForwardEdge ((graph.vertex u).firstOut + k), k, tt)).tId = st.tId :=
  update_term graph st hT (graph.arcId u k) (graph.arcHead u k) _ ⟨u, uId⟩
    (graph.arc_isEntry hg hu hk) (graph.isEntry_lt hg (graph.arc_isEntry hg hu hk))

end Dijkstra

end CRP

namespace CRP

namespace Dijkstra

theorem relaxAll_term (graph : Graph) (hg : graph.Consistent) (metric : Metric)
    (s t u uId ep : Nat) (hu : u < graph.numberOfVertices) (st : Search) (hT : Term graph st) :
    Term graph ((graph.forOutEdgesOf u ep).foldl (relax graph metric s t u uId) st) ∧
    potential graph ((graph.forOutEdgesOf u ep).foldl (relax graph metric s t u uId) st).self ≤
      potential graph st.self ∧
    ((graph.forOutEdgesOf u ep).foldl (relax graph metric s t u uId) st).shortestPath =
      st.shortestPath ∧
    ((graph.forOutEdgesOf u ep).foldl (relax graph metric s t u uId) st).tId = st.tId := by
  apply foldl_preserves (fun st' : Search => Term graph st' ∧
    potential graph st'.self ≤ potential graph st.self ∧
    st'.shortestPath = st.shortestPath ∧ st'.tId = st.tId)
  · exact ⟨hT, le_refl _, rfl, rfl⟩
  · intro b a ha hb
    unfold Graph.forOutEdgesOf at ha
    obtain ⟨k, hk, rfl⟩ := List.mem_map.1 ha
    obtain ⟨h1, h2, h3, h4⟩ := relax_term graph hg metric s t u uId hu b hb.1 k
      (List.mem_range.1 hk)
      (graph.turnTables.getD ((graph.vertex u).turnTablePtr + ep * graph.getOutDegree u + k)
        default)
    exact ⟨h1, le_trans h2 hb.2.1, h3.trans hb.2.2.1, h4.trans hb.2.2.2⟩

theorem pop_term (graph : Graph) (st : Search) (hT : Term graph st) (triple : IDKeyTriple)
    (q : List IDKeyTriple) (hpop : MinIDQueue.pop st.self.graphPQ = some (triple, q))
    (sp ti : Nat) :
    Term graph (⟨{ st.self with graphPQ := q }, sp, ti⟩ : Search) ∧
    potential graph (⟨{ st.self with graphPQ := q }, sp, ti⟩ : Search).self <
      potential graph st.self := by
  have hlen := MinIDQueue.pop_length _ _ _ hpop
  refine ⟨⟨hT.lenDist, hT.lenRound, fun p hp =>
    hT.queue p ((MinIDQueue.mem_pop _ _ _ hpop p).1 hp).1⟩, ?_⟩
  have h : 2 * labSum graph.numberOfEdges st.self.dist st.self.round st.self.currentRound +
      q.length < 2 * labSum graph.numberOfEdges st.self.dist st.self.round
        st.self.currentRound + st.self.graphPQ.length := by omega
  exact h

/-- The state after the test `u == t` in an iteration of the loop of `edgeQuery`. -/
theorem target_state (st : Search) (q : List IDKeyTriple) (triple : IDKeyTriple) (t : Nat) :
    ∃ sp ti, (if triple.vertexId = t then
        if st.self.dist.getD triple.id 0 < st.shortestPath then
          ({ self := { st.self with graphPQ := q },
             shortestPath := st.self.dist.getD triple.id 0, tId := triple.id } : Search)
        else { st with self := { st.self with graphPQ := q } }
      else { st with self := { st.self with graphPQ := q } }) =
      (⟨{ st.self with graphPQ := q }, sp, ti⟩ : Search) ∧
      (st.shortestPath = 0 → sp = 0 ∧ ti = st.tId) := by
  split_ifs with h1 h2
  · exact ⟨_, _, rfl, fun h => by omega⟩
  · exact ⟨_, _, rfl, fun h => ⟨h, rfl⟩⟩
  · exact ⟨_, _, rfl, fun h => ⟨h, rfl⟩⟩

/-- The loop of `edgeQuery` ends within the fuel that the measure allows. -/
theorem loop_terminates (graph : Graph) (hg : graph.Consistent) (metric : Metric) (s t : Nat) :
    ∀ (fuel : Nat) (st : Search), Term graph st → potential graph st.self < fuel →
      ∃ st', loop graph metric s t fuel st = some st' := by
  intro fuel
  induction fuel with
  | zero => intro st _ h; exact absurd h (Nat.not_lt_zero _)
  | succ fuel ih =>
    intro st hT hpot
    rw [loop_succ]
    cases hpop : MinIDQueue.pop st.self.graphPQ with
    | none => exact ⟨st, rfl⟩
    | some r =>
      obtain ⟨triple, q⟩ := r
      simp only []
      split
      · exact ⟨_, rfl⟩
      · have hmem := (MinIDQueue.pop_spec _ _ _ hpop).1
        have hu := (hT.queue triple hmem).1
        obtain ⟨sp, ti, hst2, _⟩ := target_state st q triple t
        rw [hst2]
        obtain ⟨hT1, hP1⟩ := pop_term graph st hT triple q hpop sp ti
        obtain ⟨a1, a2, _, _⟩ := relaxAll_term graph hg metric s t triple.vertexId triple.id
          (graph.getEntryOrder triple.vertexId triple.id) hu _ hT1
        exact ih _ a1 (by omega)

/-- Once `shortestPath` is 0 the loop of `edgeQuery` keeps it and `tId`. -/
theorem loop_zero (graph : Graph) (hg : graph.Consistent) (metric : Metric) (s t : Nat) :
    ∀ (fuel : Nat) (st st' : Search), Term graph st →
      loop graph metric s t fuel st = some st' → st.shortestPath = 0 →
      st'.shortestPath = 0 ∧ st'.tId = st.tId := by
  intro fuel
  induction fuel with
  | zero => intro st st' _ h; simp [loop] at h
  | succ fuel ih =>
    intro st st' hT h h0
    rw [loop_succ] at h
    cases hpop : MinIDQueue.pop st.self.graphPQ with
    | none =>
      rw [hpop] at h
      simp only [Option.some.injEq] at h
      subst h
      exact ⟨h0, rfl⟩
    | some r =>
      obtain ⟨triple, q⟩ := r
      rw [hpop] at h
      simp only [] at h
      split at h
      · simp only [Option.some.injEq] at h
        subst h
        exact ⟨h0, rfl⟩
      · have hmem := (MinIDQueue.pop_spec _ _ _ hpop).1
        have hu := (hT.queue triple hmem).1
        obtain ⟨sp, ti, hst2, hz⟩ := target_state st q triple t
        rw [hst2] at h
        obtain ⟨hT1, _⟩ := pop_term graph st hT triple q hpop sp ti
        obtain ⟨a1, _, a3, a4⟩ := relaxAll_term graph hg metric s t triple.vertexId triple.id
          (graph.getEntryOrder triple.vertexId triple.id) hu _ hT1
        obtain ⟨b1, b2⟩ := ih _ st' a1 h (a3.trans (hz h0).1)
        exact ⟨b1, b2.trans (a4.trans (hz h0).2)⟩

end Dijkstra

end CRP

namespace CRP

namespace Dijkstra

/-- The first iteration of the loop of `edgeQuery` when the source is the target. -/
theorem loop_first (graph : Graph) (metric : Metric) (s fuel sId : Nat) (self0 : Dijkstra)
    (hq : self0.graphPQ = [⟨sId, s, 0⟩]) (hd : self0.dist.getD sId 0 = 0) :
    loop graph metric s s (fuel + 1) ⟨self0, 2 * inf_weight, invalid_id⟩ =
      loop graph metric s s fuel
        ((graph.forOutEdgesOf s (graph.getEntryOrder s sId)).foldl
          (relax graph metric s s s sId) ⟨{ self0 with graphPQ := [] }, 0, sId⟩) := by
  have hpop : MinIDQueue.pop self0.graphPQ = some (⟨sId, s, 0⟩, []) := by
    rw [hq]
    simp [MinIDQueue.pop, MinIDQueue.peek, IDKey.id]
  rw [loop_succ]
  simp only [hpop, hd]
  have h1 : ¬ (self0.round.getD sId 0 = self0.currentRound ∧ 0 > 2 * inf_weight) := by
    intro h; exact absurd h.2 (by decide)
  have h2 : (0 : Nat) < 2 * inf_weight := by decide
  simp only [h1, h2, if_true, if_false]

theorem edgeQuery_self (graph : Graph) (hg : graph.Consistent) (metric : Metric) (fuel : Nat)
    (self : Dijkstra) (hv : Valid graph self) (hround : self.currentRound < 4294967295)
    (sourceEdgeId targetEdgeId : Nat)
    (hs : sourceEdgeId < graph.numberOfEdges)
    (hst : (graph.getBackwardEdge targetEdgeId).tail = (graph.getForwardEdge sourceEdgeId).head)
    (hfuel : 2 * graph.numberOfEdges * inf_weight + 2 ≤ fuel) :
    ∃ self', edgeQuery graph metric fuel self sourceEdgeId targetEdgeId =
      some (⟨[(graph.getForwardEdge sourceEdgeId).head], 0⟩, self') := by
  have hu32 := u32_of_lt (show self.currentRound + 1 < 4294967296 by omega)
  obtain ⟨f, rfl⟩ : ∃ f, fuel = f + 1 := ⟨fuel - 1, by omega⟩
  have hsE := graph.source_isEntry hg sourceEdgeId hs
  have hsm := graph.isEntry_lt hg hsE
  generalize hsv : (graph.getForwardEdge sourceEdgeId).head = s at hsE hsm hst
  generalize hsId : graph.getEntryOffset s +
    (graph.getForwardEdge sourceEdgeId).entryPoint = sId at hsE hsm
  have hd0 : (self.dist.set sId 0).getD sId 0 = 0 :=
    getD_set_eq _ _ _ _ (by rw [hv.lenDist]; exact hsm)
  have hT1 : Term graph (⟨⟨self.dist.set sId 0, self.round.set sId (self.currentRound + 1),
      self.parent.set sId ⟨s, sId⟩, self.currentRound + 1, []⟩, 0, sId⟩ : Search) :=
    ⟨by simp only [List.length_set]; exact hv.lenDist,
      by simp only [List.length_set]; exact hv.lenRound, fun p hp => by simp at hp⟩
  have hP1 : potential graph (⟨⟨self.dist.set sId 0, self.round.set sId (self.currentRound + 1),
      self.parent.set sId ⟨s, sId⟩, self.currentRound + 1, []⟩, 0, sId⟩ : Search).self ≤
      2 * graph.numberOfEdges * inf_weight := by
    have := labSum_init graph.numberOfEdges self.dist self.round self.currentRound sId hv.rounds
    have h : 2 * labSum graph.numberOfEdges (self.dist.set sId 0)
        (self.round.set sId (self.currentRound + 1)) (self.currentRound + 1) + 0 ≤
        2 * graph.numberOfEdges * inf_weight := by
      rw [Nat.mul_assoc]; omega
    exact h
  obtain ⟨a1, a2, a3, a4⟩ := relaxAll_term graph hg metric s s s sId
    (graph.getEntryOrder s sId) hsE.1 _ hT1
  obtain ⟨st', hloop⟩ := loop_terminates graph hg metric s s f _ a1 (by omega)
  obtain ⟨b1, b2⟩ := loop_zero graph hg metric s s f _ st' a1 hloop a3
  have hfirst := loop_first graph metric s f sId
    ⟨self.dist.set sId 0, self.round.set sId (self.currentRound + 1),
      self.parent.set sId ⟨s, sId⟩, self.currentRound + 1, MinIDQueue.push [] ⟨sId, s, 0⟩⟩
    rfl hd0
  refine ⟨st'.self, ?_⟩
  unfold edgeQuery
  simp only [hsv, hsId, hst, hu32]
  rw [hfirst, hloop]
  simp only []
  have hne : ¬ (st'.shortestPath = 2 * inf_weight) := by
    rw [b1]; decide
  rw [if_neg hne, b2.trans a4, b1]
  simp [pathLoop]

end Dijkstra

end CRP

namespace CRP

/-! ## The levels of the cells -/

theorem hdl_comm (li : LevelInfo) (a b : Nat) :
    li.getHighestDifferingLevel a b = li.getHighestDifferingLevel b a := by
  unfold LevelInfo.getHighestDifferingLevel
  rw [Nat.xor_comm]

theorem hdl_self (li : LevelInfo) (a : Nat) : li.getHighestDifferingLevel a a = 0 := by
  unfold LevelInfo.getHighestDifferingLevel
  simp

theorem hdl_triangle (li : LevelInfo) (a b c : Nat) :
    li.getHighestDifferingLevel a c ≤
      max (li.getHighestDifferingLevel a b) (li.getHighestDifferingLevel b c) := by
  obtain ⟨h1, h2, _⟩ := hdl_spec li a c
  by_cases h0 : li.getHighestDifferingLevel a c = 0
  · omega
  have hne := h2 (by omega)
  rw [shiftRight_ne_iff] at hne
  by_cases hab : a >>> li.offset.getD (li.getHighestDifferingLevel a c - 1) 0 =
      b >>> li.offset.getD (li.getHighestDifferingLevel a c - 1) 0
  · have hbc : b >>> li.offset.getD (li.getHighestDifferingLevel a c - 1) 0 ≠
        c >>> li.offset.getD (li.getHighestDifferingLevel a c - 1) 0 := by
      rw [← hab]; exact hne
    have := (hdl_spec li b c).2.2 _ (by omega) h1 ((shiftRight_ne_iff _ _ _).2 hbc)
    exact le_trans this (le_max_right _ _)
  · have := (hdl_spec li a b).2.2 _ (by omega) h1 ((shiftRight_ne_iff _ _ _).2 hab)
    exact le_trans this (le_max_left _ _)

theorem hdl_lt_of_truncate_eq (li : LevelInfo) (hmono : li.offset.Pairwise (fun a b => a ≤ b))
    (a b l : Nat) (hl1 : 1 ≤ l) (hl2 : l ≤ li.getLevelCount)
    (h : li.truncateToLevel a l = li.truncateToLevel b l) :
    li.getHighestDifferingLevel a b < l := by
  by_contra hge
  exact (truncate_ne_iff li hmono a b l hl1 hl2).2 (by omega) h

/-- The query level of the head of an edge out of a vertex on the query level 0 is at most
the level of the edge. -/
theorem queryLevel_le_of_zero (li : LevelInfo) (cs ct cu cv : Nat)
    (h0 : li.getQueryLevel cs ct cu = 0) :
    li.getQueryLevel cs ct cv ≤ li.getHighestDifferingLevel cu cv := by
  unfold LevelInfo.getQueryLevel at *
  simp only [] at *
  have t1 := hdl_triangle li cs cu cv
  have t2 := hdl_triangle li cv cu ct
  have c1 := hdl_comm li cv cu
  omega

/-- The query level of the vertex behind an exit vertex `v` of the cell of `u` on the query
level `l` of `u` is at most the level of the edge that leaves the cell at `v`. -/
theorem queryLevel_le_of_exit (li : LevelInfo) (cs ct cu cv cw : Nat)
    (huv : li.getHighestDifferingLevel cu cv < li.getQueryLevel cs ct cu)
    (hvw : li.getQueryLevel cs ct cu ≤ li.getHighestDifferingLevel cv cw) :
    li.getQueryLevel cs ct cw ≤ li.getHighestDifferingLevel cv cw := by
  unfold LevelInfo.getQueryLevel at *
  simp only [] at *
  have t1 := hdl_triangle li cu cv cw
  have t2 := hdl_triangle li cs cu cw
  have t3 := hdl_triangle li cw cu ct
  have c1 := hdl_comm li cw cu
  omega

end CRP

namespace CRP

/-! ## Termination of the loop of CRPQueryUni::edgeQuery -/

namespace CRPQueryUni

theorem step_refl (graph : Graph) (og : OverlayGraph) (exitFlags : List Bool) (cs ct : Nat)
    (st : Search) (hT : Term graph og exitFlags cs ct st) :
    Step graph og exitFlags cs ct st st :=
  ⟨hT, le_refl _, rfl, rfl⟩

theorem step_trans (graph : Graph) (og : OverlayGraph) (exitFlags : List Bool) (cs ct : Nat)
    {a b c : Search} (h1 : Step graph og exitFlags cs ct a b)
    (h2 : Step graph og exitFlags cs ct b c) : Step graph og exitFlags cs ct a c :=
  ⟨h2.1, le_trans h2.2.1 h1.2.1, h2.2.2.1.trans h1.2.2.1, h2.2.2.2.trans h1.2.2.2⟩

/-- The update of the label of an exit vertex in `relaxOverlay`. -/
theorem exit_step (graph : Graph) (og : OverlayGraph) (exitFlags : List Bool) (cs ct : Nat)
    (st : Search) (hT : Term graph og exitFlags cs ct st) (v nd : Nat) (p : VertexIdPair)
    (hv : v < og.numberOfVertices) (hnd : nd < inf_weight)
    (hB : st.self.round.getD (v + graph.numberOfEdges) 0 < st.self.currentRound ∨
      nd < st.self.dist.getD (v + graph.numberOfEdges) 0) :
    Step graph og exitFlags cs ct st
      { st with
        self :=
          { st.self with
            dist := st.self.dist.set (v + graph.numberOfEdges) nd
            round := st.self.round.set (v + graph.numberOfEdges) st.self.currentRound
            parent := st.self.parent.set (v + graph.numberOfEdges) p } } := by
  refine ⟨⟨?_, ?_, hT.graphQ, hT.overlayQ⟩, ?_, rfl, rfl⟩
  · simp only [List.length_set]; exact hT.lenDist
  · simp only [List.length_set]; exact hT.lenRound
  · have hsum := labSum_set (graph.numberOfEdges + og.numberOfVertices) st.self.dist
      st.self.round st.self.currentRound (v + graph.numberOfEdges) nd (by omega)
      (by rw [hT.lenDist]; omega) (by rw [hT.lenRound]; omega) hnd hB
    have h : 2 * labSum (graph.numberOfEdges + og.numberOfVertices)
        (st.self.dist.set (v + graph.numberOfEdges) nd)
        (st.self.round.set (v + graph.numberOfEdges) st.self.currentRound)
        st.self.currentRound + st.self.graphPQ.length + st.self.overlayGraphPQ.length ≤
        2 * labSum (graph.numberOfEdges + og.numberOfVertices) st.self.dist st.self.round
          st.self.currentRound + st.self.graphPQ.length + st.self.overlayGraphPQ.length := by
      omega
    exact h

/-- The relaxation of an edge whose head is on the query level `ql`: the label of the entry
point `y` of the vertex `v` of the base graph if `ql = 0`, and the label of the entry overlay
vertex `x` otherwise. -/
theorem push_step (graph : Graph) (og : OverlayGraph) (exitFlags : List Bool) (cs ct : Nat)
    (st : Search) (hT : Term graph og exitFlags cs ct st) (nd ql y v x : Nat)
    (pg po : VertexIdPair) (hym : y < graph.numberOfEdges)
    (hg0 : ql = 0 → graph.isEntry v y ∧ og.getQueryLevel cs ct (graph.getCellNumber v) = 0)
    (ho : ql ≠ 0 → Queueable og exitFlags cs ct x) :
    Step graph og exitFlags cs ct st
      (if nd ≥ inf_weight then st
      else if ql = 0 then
        if st.self.round.getD y 0 < st.self.currentRound ∨ nd < st.self.dist.getD y 0 then
          { st with
            self :=
              { st.self with
                dist := st.self.dist.set y nd
                graphPQ := MinIDQueue.pushOrDecrease st.self.graphPQ ⟨y, v, nd⟩
                round := st.self.round.set y st.self.currentRound
                parent := st.self.parent.set y pg } }
        else st
      else
        if st.self.round.getD (x + graph.numberOfEdges) 0 < st.self.currentRound ∨
            nd < st.self.dist.getD (x + graph.numberOfEdges) 0 then
          { st with
            self :=
              { st.self with
                dist := st.self.dist.set (x + graph.numberOfEdges) nd
                overlayGraphPQ := MinIDQueue.pushOrDecrease st.self.overlayGraphPQ ⟨x, nd⟩
                round := st.self.round.set (x + graph.numberOfEdges) st.self.currentRound
                parent := st.self.parent.set (x + graph.numberOfEdges) po } }
        else st) := by
  split_ifs with h1 h2 h3 h4
  · exact step_refl _ _ _ _ _ _ hT
  · refine ⟨⟨?_, ?_, ?_, hT.overlayQ⟩, ?_, rfl, rfl⟩
    · simp only [List.length_set]; exact hT.lenDist
    · simp only [List.length_set]; exact hT.lenRound
    · intro q hq
      rcases MinIDQueue.mem_pushOrDecrease _ _ _ hq with h | h
      · subst h; exact hg0 h2
      · exact hT.graphQ q h
    · have hsum := labSum_set (graph.numberOfEdges + og.numberOfVertices) st.self.dist
        st.self.round st.self.currentRound y nd (by omega)
        (by rw [hT.lenDist]; omega) (by rw [hT.lenRound]; omega) (by omega) h3
      have hlen := MinIDQueue.pushOrDecrease_length_le st.self.graphPQ
        (⟨y, v, nd⟩ : IDKeyTriple)
      have h : 2 * labSum (graph.numberOfEdges + og.numberOfVertices)
          (st.self.dist.set y nd) (st.self.round.set y st.self.currentRound)
          st.self.currentRound +
          (MinIDQueue.pushOrDecrease st.self.graphPQ (⟨y, v, nd⟩ : IDKeyTriple)).length +
          st.self.overlayGraphPQ.length ≤
          2 * labSum (graph.numberOfEdges + og.numberOfVertices) st.self.dist st.self.round
            st.self.currentRound + st.self.graphPQ.length + st.self.overlayGraphPQ.length := by
        omega
      exact h
  · exact step_refl _ _ _ _ _ _ hT
  · have hx := ho h2
    refine ⟨⟨?_, ?_, hT.graphQ, ?_⟩, ?_, rfl, rfl⟩
    · simp only [List.length_set]; exact hT.lenDist
    · simp only [List.length_set]; exact hT.lenRound
    · intro q hq
      rcases MinIDQueue.mem_pushOrDecrease _ _ _ hq with h | h
      · subst h; exact hx
      · exact hT.overlayQ q h
    · have hsum := labSum_set (graph.numberOfEdges + og.numberOfVertices) st.self.dist
        st.self.round st.self.currentRound (x + graph.numberOfEdges) nd
        (by have := hx.1; omega)
        (by rw [hT.lenDist]; have := hx.1; omega) (by rw [hT.lenRound]; have := hx.1; omega)
        (by omega) h4
      have hlen := MinIDQueue.pushOrDecrease_length_le st.self.overlayGraphPQ
        (⟨x, nd⟩ : IDKeyPair)
      have h : 2 * labSum (graph.numberOfEdges + og.numberOfVertices)
          (st.self.dist.set (x + graph.numberOfEdges) nd)
          (st.self.round.set (x + graph.numberOfEdges) st.self.currentRound)
          st.self.currentRound + st.self.graphPQ.length +
          (MinIDQueue.pushOrDecrease st.self.overlayGraphPQ (⟨x, nd⟩ : IDKeyPair)).length ≤
          2 * labSum (graph.numberOfEdges + og.numberOfVertices) st.self.dist st.self.round
            st.self.currentRound + st.self.graphPQ.length + st.self.overlayGraphPQ.length := by
        omega
      exact h
  · exact step_refl _ _ _ _ _ _ hT

end CRPQueryUni

end CRP

namespace CRP

namespace CRPQueryUni

theorem relaxGraph_step (graph : Graph) (hg : graph.Consistent) (og : OverlayGraph)
    (exitFlags : List Bool) (hR : og.Routable graph exitFlags) (metric : Metric)
    (s t cs ct u uId : Nat) (hu : u < graph.numberOfVertices)
    (hu0 : og.getQueryLevel cs ct (graph.getCellNumber u) = 0) (st : Search)
    (hT : Term graph og exitFlags cs ct st) (k : Nat) (hk : k < graph.getOutDegree u)
    (tt : TURN_TYPE) :
    Step graph og exitFlags cs ct st (relaxGraph graph og metric s t cs ct u uId st
      (graph.getForwardEdge ((graph.vertex u).firstOut + k), k, tt)) := by
  have hy := graph.arc_isEntry hg hu hk
  have hym := graph.isEntry_lt hg hy
  refine push_step graph og exitFlags cs ct st hT _
    (og.getQueryLevel cs ct (graph.getCellNumber (graph.arcHead u k)))
    (graph.arcId u k) (graph.arcHead u k)
    (graph.getOverlayVertex (graph.arcHead u k)
      (graph.getForwardEdge ((graph.vertex u).firstOut + k)).entryPoint false)
    ⟨u, uId⟩ ⟨u, uId⟩ hym (fun h => ⟨hy, h⟩) ?_
  intro hne
  have hle := queryLevel_le_of_zero og.levelInfo cs ct (graph.getCellNumber u)
    (graph.getCellNumber (graph.arcHead u k)) hu0
  have hql : og.getQueryLevel cs ct (graph.getCellNumber (graph.arcHead u k)) =
      og.levelInfo.getQueryLevel cs ct (graph.getCellNumber (graph.arcHead u k)) := rfl
  obtain ⟨e1, e2, e3, e4⟩ := hR.entry u k hu hk (by omega)
  refine ⟨e1, e2, ?_, ?_⟩
  · rw [e3]; omega
  · rw [e3, e4]; omega

theorem relaxOverlay_step (graph : Graph) (hg : graph.Consistent) (og : OverlayGraph)
    (exitFlags : List Bool) (hR : og.Routable graph exitFlags) (metric : Metric)
    (cs ct u uId : Nat) (hu : Queueable og exitFlags cs ct u) (st : Search)
    (hT : Term graph og exitFlags cs ct st) (x : Nat × Nat)
    (hx : x ∈ og.forOutNeighborsOf u (og.getQueryLevel cs ct (og.getVertex u).cellNumber)) :
    Step graph og exitFlags cs ct st (relaxOverlay graph og metric cs ct u uId st x) := by
  obtain ⟨o1, o2, o3, o4⟩ := hR.out u _ hu.1 hu.2.1 hu.2.2.1 hu.2.2.2 x hx
  obtain ⟨w1, w2, w3, w4, u', k', hu', hk', w5, w6, w7⟩ := hR.twin x.1 o1 o2
  have hy := graph.arc_isEntry hg hu' hk'
  have hym := graph.isEntry_lt hg hy
  show Step graph og exitFlags cs ct st
    (if u32 (st.self.dist.getD uId 0 + metric.getCellWeight x.2) ≥ inf_weight then st
      else if st.self.round.getD (x.1 + graph.numberOfEdges) 0 < st.self.currentRound ∨
          u32 (st.self.dist.getD uId 0 + metric.getCellWeight x.2) <
            st.self.dist.getD (x.1 + graph.numberOfEdges) 0 then _
      else st)
  by_cases h1 : u32 (st.self.dist.getD uId 0 + metric.getCellWeight x.2) ≥ inf_weight
  · rw [if_pos h1]; exact step_refl _ _ _ _ _ _ hT
  rw [if_neg h1]
  by_cases h2 : st.self.round.getD (x.1 + graph.numberOfEdges) 0 < st.self.currentRound ∨
      u32 (st.self.dist.getD uId 0 + metric.getCellWeight x.2) <
        st.self.dist.getD (x.1 + graph.numberOfEdges) 0
  swap
  · rw [if_neg h2]; exact step_refl _ _ _ _ _ _ hT
  rw [if_pos h2]
  have hs1 := exit_step graph og exitFlags cs ct st hT x.1
    (u32 (st.self.dist.getD uId 0 + metric.getCellWeight x.2))
    ⟨(og.getVertex u).originalVertex, uId⟩ o1 (by omega) h2
  refine step_trans graph og exitFlags cs ct hs1 ?_
  have hql : ∀ c, og.getQueryLevel cs ct c = og.levelInfo.getQueryLevel cs ct c := fun _ => rfl
  refine push_step graph og exitFlags cs ct _ hs1.1 _
    (og.getQueryLevel cs ct (og.getVertex (og.getVertex x.1).neighborOverlayVertex).cellNumber)
    (graph.getEntryOffset (og.getVertex (og.getVertex x.1).neighborOverlayVertex).originalVertex +
      (graph.getForwardEdge (og.getVertex x.1).originalEdge).entryPoint)
    (og.getVertex (og.getVertex x.1).neighborOverlayVertex).originalVertex
    (og.getVertex x.1).neighborOverlayVertex
    ⟨(og.getVertex x.1).originalVertex, x.1 + graph.numberOfEdges⟩
    ⟨(og.getVertex x.1).originalVertex, x.1 + graph.numberOfEdges⟩ ?_ ?_ ?_
  · rw [w5, w6]; exact hym
  · intro h0
    rw [w5, w6]
    rw [w7] at h0
    exact ⟨hy, h0⟩
  · intro hne
    refine ⟨w1, w2, by omega, ?_⟩
    rw [w4, hql]
    rw [hql] at o3 o4
    exact queryLevel_le_of_exit og.levelInfo cs ct _ _ _ o4 (by rw [← w3]; exact o3)

end CRPQueryUni

end CRP

namespace CRP

namespace CRPQueryUni

theorem relaxGraphAll_step (graph : Graph) (hg : graph.Consistent) (og : OverlayGraph)
    (exitFlags : List Bool) (hR : og.Routable graph exitFlags) (metric : Metric)
    (s t cs ct u uId ep : Nat) (hu : u < graph.numberOfVertices)
    (hu0 : og.getQueryLevel cs ct (graph.getCellNumber u) = 0) (st : Search)
    (hT : Term graph og exitFlags cs ct st) :
    Step graph og exitFlags cs ct st ((graph.forOutEdgesOf u ep).foldl
      (relaxGraph graph og metric s t cs ct u uId) st) := by
  apply foldl_preserves (fun st' : Search => Step graph og exitFlags cs ct st st')
  · exact step_refl _ _ _ _ _ _ hT
  · intro b a ha hb
    unfold Graph.forOutEdgesOf at ha
    obtain ⟨k, hk, rfl⟩ := List.mem_map.1 ha
    exact step_trans graph og exitFlags cs ct hb
      (relaxGraph_step graph hg og exitFlags hR metric s t cs ct u uId hu hu0 b hb.1 k
        (List.mem_range.1 hk) _)

theorem relaxOverlayAll_step (graph : Graph) (hg : graph.Consistent) (og : OverlayGraph)
    (exitFlags : List Bool) (hR : og.Routable graph exitFlags) (metric : Metric)
    (cs ct u uId : Nat) (hu : Queueable og exitFlags cs ct u) (st : Search)
    (hT : Term graph og exitFlags cs ct st) :
    Step graph og exitFlags cs ct st
      ((og.forOutNeighborsOf u (og.getQueryLevel cs ct (og.getVertex u).cellNumber)).foldl
        (relaxOverlay graph og metric cs ct u uId) st) := by
  apply foldl_preserves (fun st' : Search => Step graph og exitFlags cs ct st st')
  · exact step_refl _ _ _ _ _ _ hT
  · intro b a ha hb
    exact step_trans graph og exitFlags cs ct hb
      (relaxOverlay_step graph hg og exitFlags hR metric cs ct u uId hu b hb.1 a ha)

theorem popGraph_term (graph : Graph) (og : OverlayGraph) (exitFlags : List Bool) (cs ct : Nat)
    (st : Search) (hT : Term graph og exitFlags cs ct st) (triple : IDKeyTriple)
    (q : List IDKeyTriple) (hpop : MinIDQueue.pop st.self.graphPQ = some (triple, q))
    (sp ti : Nat) :
    Term graph og exitFlags cs ct (⟨{ st.self with graphPQ := q }, sp, ti⟩ : Search) ∧
    potential (graph.numberOfEdges + og.numberOfVertices)
      (⟨{ st.self with graphPQ := q }, sp, ti⟩ : Search).self <
      potential (graph.numberOfEdges + og.numberOfVertices) st.self := by
  have hlen := MinIDQueue.pop_length _ _ _ hpop
  refine ⟨⟨hT.lenDist, hT.lenRound, fun p hp =>
    hT.graphQ p ((MinIDQueue.mem_pop _ _ _ hpop p).1 hp).1, hT.overlayQ⟩, ?_⟩
  have h : 2 * labSum (graph.numberOfEdges + og.numberOfVertices) st.self.dist st.self.round
      st.self.currentRound + q.length + st.self.overlayGraphPQ.length <
      2 * labSum (graph.numberOfEdges + og.numberOfVertices) st.self.dist st.self.round
        st.self.currentRound + st.self.graphPQ.length + st.self.overlayGraphPQ.length := by
    omega
  exact h

theorem popOverlay_term (graph : Graph) (og : OverlayGraph) (exitFlags : List Bool)
    (cs ct : Nat) (st : Search) (hT : Term graph og exitFlags cs ct st) (pair : IDKeyPair)
    (q : List IDKeyPair) (hpop : MinIDQueue.pop st.self.overlayGraphPQ = some (pair, q)) :
    Term graph og exitFlags cs ct ({ st with self := { st.self with overlayGraphPQ := q } } :
      Search) ∧
    potential (graph.numberOfEdges + og.numberOfVertices)
      ({ st with self := { st.self with overlayGraphPQ := q } } : Search).self <
      potential (graph.numberOfEdges + og.numberOfVertices) st.self := by
  have hlen := MinIDQueue.pop_length _ _ _ hpop
  refine ⟨⟨hT.lenDist, hT.lenRound, hT.graphQ, fun p hp =>
    hT.overlayQ p ((MinIDQueue.mem_pop _ _ _ hpop p).1 hp).1⟩, ?_⟩
  have h : 2 * labSum (graph.numberOfEdges + og.numberOfVertices) st.self.dist st.self.round
      st.self.currentRound + st.self.graphPQ.length + q.length <
      2 * labSum (graph.numberOfEdges + og.numberOfVertices) st.self.dist st.self.round
        st.self.currentRound + st.self.graphPQ.length + st.self.overlayGraphPQ.length := by
    omega
  exact h

/-- The state after the test `u == t` in an iteration of the loop of `edgeQuery`. -/
theorem crp_target_state (st : Search) (q : List IDKeyTriple) (triple : IDKeyTriple) (t : Nat) :
    ∃ sp ti, (if triple.vertexId = t then
        if st.self.dist.getD triple.id 0 < st.shortestPath then
          ({ self := { st.self with graphPQ := q },
             shortestPath := st.self.dist.getD triple.id 0, tId := triple.id } : Search)
        else { st with self := { st.self with graphPQ := q } }
      else { st with self := { st.self with graphPQ := q } }) =
      (⟨{ st.self with graphPQ := q }, sp, ti⟩ : Search) ∧
      (st.shortestPath = 0 → sp = 0 ∧ ti = st.tId) := by
  split_ifs with h1 h2
  · exact ⟨_, _, rfl, fun h => by omega⟩
  · exact ⟨_, _, rfl, fun h => ⟨h, rfl⟩⟩
  · exact ⟨_, _, rfl, fun h => ⟨h, rfl⟩⟩

theorem crp_loop_succ (graph : Graph) (og : OverlayGraph) (metric : Metric)
    (s t cs ct fuel : Nat) (st : Search) :
    loop graph og metric s t cs ct (fuel + 1) st =
      if st.self.graphPQ.isEmpty ∧ st.self.overlayGraphPQ.isEmpty then some st
      else if takeGraph st.self.graphPQ st.self.overlayGraphPQ then
        match MinIDQueue.pop st.self.graphPQ with
        | none => some st
        | some (triple, q) =>
          if st.self.round.getD triple.id 0 = st.self.currentRound ∧
              st.self.dist.getD triple.id 0 > st.shortestPath then
            some { st with self := { st.self with graphPQ := q } }
          else
            loop graph og metric s t cs ct fuel
              ((graph.forOutEdgesOf triple.vertexId
                  (graph.getEntryOrder triple.vertexId triple.id)).foldl
                (relaxGraph graph og metric s t cs ct triple.vertexId triple.id)
                (if triple.vertexId = t then
                  if st.self.dist.getD triple.id 0 < st.shortestPath then
                    { self := { st.self with graphPQ := q },
                      shortestPath := st.self.dist.getD triple.id 0, tId := triple.id }
                  else { st with self := { st.self with graphPQ := q } }
                else { st with self := { st.self with graphPQ := q } }))
      else
        match MinIDQueue.pop st.self.overlayGraphPQ with
        | none => some st
        | some (pair, q) =>
          if st.self.round.getD (pair.id + graph.numberOfEdges) 0 = st.self.currentRound ∧
              st.self.dist.getD (pair.id + graph.numberOfEdges) 0 > st.shortestPath then
            some { st with self := { st.self with overlayGraphPQ := q } }
          else
            loop graph og metric s t cs ct fuel
              ((og.forOutNeighborsOf pair.id
                  (og.getQueryLevel cs ct (og.getVertex pair.id).cellNumber)).foldl
                (relaxOverlay graph og metric cs ct pair.id (pair.id + graph.numberOfEdges))
                { st with self := { st.self with overlayGraphPQ := q } }) := by
  rfl

/-- An iteration of the loop of `edgeQuery` ends the loop or leads to a state that follows
the state before it with a smaller measure. -/
theorem crp_loop_step (graph : Graph) (hg : graph.Consistent) (og : OverlayGraph)
    (exitFlags : List Bool) (hR : og.Routable graph exitFlags) (metric : Metric)
    (s t cs ct fuel : Nat) (st : Search) (hT : Term graph og exitFlags cs ct st) :
    (∃ st', loop graph og metric s t cs ct (fuel + 1) st = some st' ∧
      (st.shortestPath = 0 → st'.shortestPath = 0 ∧ st'.tId = st.tId)) ∨
    ∃ st1, loop graph og metric s t cs ct (fuel + 1) st = loop graph og metric s t cs ct fuel st1 ∧
      Term graph og exitFlags cs ct st1 ∧
      potential (graph.numberOfEdges + og.numberOfVertices) st1.self <
        potential (graph.numberOfEdges + og.numberOfVertices) st.self ∧
      (st.shortestPath = 0 → st1.shortestPath = 0 ∧ st1.tId = st.tId) := by
  rw [crp_loop_succ]
  split
  · exact Or.inl ⟨st, rfl, fun h => ⟨h, rfl⟩⟩
  split
  · cases hpop : MinIDQueue.pop st.self.graphPQ with
    | none => exact Or.inl ⟨st, rfl, fun h => ⟨h, rfl⟩⟩
    | some r =>
      obtain ⟨triple, q⟩ := r
      simp only []
      split
      · exact Or.inl ⟨_, rfl, fun h => ⟨h, rfl⟩⟩
      · have hmem := (MinIDQueue.pop_spec _ _ _ hpop).1
        obtain ⟨hu, hu0⟩ := hT.graphQ triple hmem
        obtain ⟨sp, ti, hst2, hz⟩ := crp_target_state st q triple t
        rw [hst2]
        obtain ⟨hT1, hP1⟩ := popGraph_term graph og exitFlags cs ct st hT triple q hpop sp ti
        obtain ⟨a1, a2, a3, a4⟩ := relaxGraphAll_step graph hg og exitFlags hR metric s t cs ct
          triple.vertexId triple.id (graph.getEntryOrder triple.vertexId triple.id) hu.1 hu0
          _ hT1
        refine Or.inr ⟨_, rfl, a1, lt_of_le_of_lt a2 hP1, fun h0 => ?_⟩
        exact ⟨a3.trans (hz h0).1, a4.trans (hz h0).2⟩
  · cases hpop : MinIDQueue.pop st.self.overlayGraphPQ with
    | none => exact Or.inl ⟨st, rfl, fun h => ⟨h, rfl⟩⟩
    | some r =>
      obtain ⟨pair, q⟩ := r
      simp only []
      split
      · exact Or.inl ⟨_, rfl, fun h => ⟨h, rfl⟩⟩
      · have hmem := (MinIDQueue.pop_spec _ _ _ hpop).1
        have hu := hT.overlayQ pair hmem
        obtain ⟨hT1, hP1⟩ := popOverlay_term graph og exitFlags cs ct st hT pair q hpop
        obtain ⟨a1, a2, a3, a4⟩ := relaxOverlayAll_step graph hg og exitFlags hR metric cs ct
          pair.id (pair.id + graph.numberOfEdges) hu _ hT1
        refine Or.inr ⟨_, rfl, a1, lt_of_le_of_lt a2 hP1, fun h0 => ?_⟩
        exact ⟨a3.trans h0, a4⟩

/-- The loop of `edgeQuery` ends within the fuel that the measure allows, and once
`shortestPath` is 0 it keeps it and `tId`. -/
theorem crp_loop_terminates (graph : Graph) (hg : graph.Consistent) (og : OverlayGraph)
    (exitFlags : List Bool) (hR : og.Routable graph exitFlags) (metric : Metric)
    (s t cs ct : Nat) :
    ∀ (fuel : Nat) (st : Search), Term graph og exitFlags cs ct st →
      potential (graph.numberOfEdges + og.numberOfVertices) st.self < fuel →
      ∃ st', loop graph og metric s t cs ct fuel st = some st' ∧
        (st.shortestPath = 0 → st'.shortestPath = 0 ∧ st'.tId = st.tId) := by
  intro fuel
  induction fuel with
  | zero => intro st _ h; exact absurd h (Nat.not_lt_zero _)
  | succ fuel ih =>
    intro st hT hpot
    rcases crp_loop_step graph hg og exitFlags hR metric s t cs ct fuel st hT with h | h
    · exact h
    · obtain ⟨st1, h1, h2, h3, h4⟩ := h
      obtain ⟨st', b1, b2⟩ := ih st1 h2 (by omega)
      refine ⟨st', by rw [h1]; exact b1, fun h0 => ?_⟩
      obtain ⟨c1, c2⟩ := h4 h0
      obtain ⟨d1, d2⟩ := b2 c1
      exact ⟨d1, d2.trans c2⟩

end CRPQueryUni

end CRP

namespace CRP

namespace CRPQueryUni

/-- The first iteration of the loop of `edgeQuery` when the source is the target. -/
theorem crp_loop_first (graph : Graph) (og : OverlayGraph) (metric : Metric)
    (s cs ct fuel sId : Nat) (self0 : CRPQueryUni)
    (hq : self0.graphPQ = [⟨sId, s, 0⟩]) (ho : self0.overlayGraphPQ = [])
    (hd : self0.dist.getD sId 0 = 0) :
    loop graph og metric s s cs ct (fuel + 1) ⟨self0, 2 * inf_weight, invalid_id⟩ =
      loop graph og metric s s cs ct fuel
        ((graph.forOutEdgesOf s (graph.getEntryOrder s sId)).foldl
          (relaxGraph graph og metric s s cs ct s sId) ⟨{ self0 with graphPQ := [] }, 0, sId⟩) := by
  have hpop : MinIDQueue.pop self0.graphPQ = some (⟨sId, s, 0⟩, []) := by
    rw [hq]
    simp [MinIDQueue.pop, MinIDQueue.peek, IDKey.id]
  rw [crp_loop_succ]
  have h0 : ¬ (self0.graphPQ.isEmpty = true ∧ self0.overlayGraphPQ.isEmpty = true) := by
    rw [hq]; simp
  have h3 : takeGraph self0.graphPQ self0.overlayGraphPQ = true := by
    rw [ho]; rfl
  simp only [h0, h3, hpop, hd, if_true, if_false]
  have h1 : ¬ (self0.round.getD sId 0 = self0.currentRound ∧ 0 > 2 * inf_weight) := by
    intro h; exact absurd h.2 (by decide)
  have h2 : (0 : Nat) < 2 * inf_weight := by decide
  simp only [h1, h2, if_true, if_false]

theorem crp_edgeQuery_self (graph : Graph) (hg : graph.Consistent) (og : OverlayGraph)
    (exitFlags : List Bool) (hR : og.Routable graph exitFlags) (metric : Metric) (fuel : Nat)
    (self : CRPQueryUni) (hv : Valid graph og self) (hround : self.currentRound < 4294967295)
    (pathUnpacker : PathUnpacker)
    (sourceEdgeId targetEdgeId : Nat) (hs : sourceEdgeId < graph.numberOfEdges)
    (hst : (graph.getBackwardEdge targetEdgeId).tail = (graph.getForwardEdge sourceEdgeId).head)
    (hfuel : 2 * (graph.numberOfEdges + og.numberOfVertices) * inf_weight + 2 ≤ fuel) :
    ∃ self', edgeQuery graph og metric fuel self pathUnpacker sourceEdgeId targetEdgeId =
      some (⟨[(graph.getForwardEdge sourceEdgeId).head], 0⟩, self', pathUnpacker) := by
  have hu32 := u32_of_lt (show self.currentRound + 1 < 4294967296 by omega)
  obtain ⟨f, rfl⟩ : ∃ f, fuel = f + 1 := ⟨fuel - 1, by omega⟩
  have hsE := graph.source_isEntry hg sourceEdgeId hs
  have hsm := graph.isEntry_lt hg hsE
  generalize hsv : (graph.getForwardEdge sourceEdgeId).head = s at hsE hsm hst
  generalize hsId : graph.getEntryOffset s +
    (graph.getForwardEdge sourceEdgeId).entryPoint = sId at hsE hsm
  have hd0 : (self.dist.set sId 0).getD sId 0 = 0 :=
    getD_set_eq _ _ _ _ (by rw [hv.lenDist]; omega)
  have hT1 : Term graph og exitFlags (graph.getCellNumber s) (graph.getCellNumber s)
      (⟨⟨self.dist.set sId 0, self.round.set sId (self.currentRound + 1),
        self.parent.set sId ⟨s, sId⟩, self.currentRound + 1, [], []⟩, 0, sId⟩ : Search) :=
    ⟨by simp only [List.length_set]; exact hv.lenDist,
      by simp only [List.length_set]; exact hv.lenRound, fun p hp => by simp at hp,
      fun p hp => by simp at hp⟩
  have hP1 : potential (graph.numberOfEdges + og.numberOfVertices)
      (⟨⟨self.dist.set sId 0, self.round.set sId (self.currentRound + 1),
        self.parent.set sId ⟨s, sId⟩, self.currentRound + 1, [], []⟩, 0, sId⟩ : Search).self ≤
      2 * (graph.numberOfEdges + og.numberOfVertices) * inf_weight := by
    have := labSum_init (graph.numberOfEdges + og.numberOfVertices) self.dist self.round
      self.currentRound sId hv.rounds
    have h : 2 * labSum (graph.numberOfEdges + og.numberOfVertices) (self.dist.set sId 0)
        (self.round.set sId (self.currentRound + 1)) (self.currentRound + 1) + 0 + 0 ≤
        2 * (graph.numberOfEdges + og.numberOfVertices) * inf_weight := by
      rw [Nat.mul_assoc]; omega
    exact h
  have hu0 : og.getQueryLevel (graph.getCellNumber s) (graph.getCellNumber s)
      (graph.getCellNumber s) = 0 := by
    show min (og.levelInfo.getHighestDifferingLevel _ _)
      (og.levelInfo.getHighestDifferingLevel _ _) = 0
    rw [hdl_self]
    exact Nat.zero_min _
  obtain ⟨a1, a2, a3, a4⟩ := relaxGraphAll_step graph hg og exitFlags hR metric s s
    (graph.getCellNumber s) (graph.getCellNumber s) s sId
    (graph.getEntryOrder s sId) hsE.1 hu0 _ hT1
  obtain ⟨st', hloop, hz⟩ := crp_loop_terminates graph hg og exitFlags hR metric s s
    (graph.getCellNumber s) (graph.getCellNumber s) f _ a1 (lt_of_le_of_lt a2 (by omega))
  obtain ⟨b1, b2⟩ := hz a3
  have hfirst := crp_loop_first graph og metric s (graph.getCellNumber s) (graph.getCellNumber s)
    f sId
    ⟨self.dist.set sId 0, self.round.set sId (self.currentRound + 1),
      self.parent.set sId ⟨s, sId⟩, self.currentRound + 1, MinIDQueue.push [] ⟨sId, s, 0⟩, []⟩
    rfl rfl hd0
  refine ⟨{ st'.self with graphPQ := [], overlayGraphPQ := [] }, ?_⟩
  unfold edgeQuery
  simp only [hsv, hsId, hst, hu32]
  rw [hfirst, hloop]
  simp only []
  have hne : ¬ (st'.shortestPath = 2 * inf_weight) := by
    rw [b1]; decide
  rw [if_neg hne, b2.trans a4, b1]
  simp [pathLoop, PathUnpacker.unpackPath, PathUnpacker.unpackLoop, hsm]

end CRPQueryUni

end CRP

namespace CRP

/-! ## The overlay graph of the constructor serves the queries -/

theorem findBackwardEdgeLoop_spec (g : Graph) (u : Nat) :
    ∀ (n e p : Nat), p < n → (g.getBackwardEdge (e + p)).tail = u →
      ∃ p0, p0 ≤ p ∧ g.findBackwardEdgeLoop u e n = e + p0 ∧
        (g.getBackwardEdge (e + p0)).tail = u := by
  intro n
  induction n with
  | zero => intro e p hp; omega
  | succ n ih =>
    intro e p hp ht
    unfold Graph.findBackwardEdgeLoop
    by_cases h : (g.getBackwardEdge e).tail = u
    · rw [if_pos h]
      exact ⟨0, Nat.zero_le _, rfl, h⟩
    · rw [if_neg h]
      have hp0 : p ≠ 0 := by
        intro e0
        rw [e0, Nat.add_zero] at ht
        exact h ht
      obtain ⟨p', rfl⟩ : ∃ p', p = p' + 1 := ⟨p - 1, by omega⟩
      obtain ⟨p0, h1, h2, h3⟩ := ih (e + 1) p' (by omega) (by
        have : e + 1 + p' = e + (p' + 1) := by omega
        rw [this]; exact ht)
      refine ⟨p0 + 1, by omega, ?_, ?_⟩
      · rw [h2]; omega
      · have : e + (p0 + 1) = e + 1 + p0 := by omega
        rw [this]; exact h3

/-- The backward edge that `findBackwardEdge` finds for the edge that leaves `u` at the exit
point `k`: an incoming edge of the head with the tail `u`, at or before the entry point of
the edge. -/
theorem findBackwardEdge_spec (g : Graph) (hg : g.Consistent) (u k : Nat)
    (hu : u < g.numberOfVertices) (hk : k < g.getOutDegree u) :
    ∃ p0, p0 ≤ (g.getForwardEdge ((g.vertex u).firstOut + k)).entryPoint ∧
      g.findBackwardEdge u (g.arcHead u k) = (g.vertex (g.arcHead u k)).firstIn + p0 ∧
      (g.getBackwardEdge ((g.vertex (g.arcHead u k)).firstIn + p0)).tail = u := by
  obtain ⟨h1, h2, h3⟩ := hg.forward u hu k hk
  unfold Graph.findBackwardEdge
  exact findBackwardEdgeLoop_spec g u _ _ _ h2 (by
    show (g.getBackwardEdge ((g.vertex (g.getForwardEdge ((g.vertex u).firstOut + k)).head).firstIn
      + _)).tail = u
    rw [h3])

end CRP

namespace CRP

theorem mapKey_entry (g : Graph) (li : LevelInfo) (b : OverlayGraph.OverlayVertexBuild)
    (t : Nat × Nat × Nat) (xe xn : Nat) (hp : OverlayGraph.TwinPair g li b t xe xn) :
    OverlayGraph.mapKey g b xn =
      ⟨t.2.1, g.getEntryOrder t.2.1 (g.findBackwardEdge t.1 t.2.1), false⟩ := by
  unfold OverlayGraph.mapKey
  simp only [hp.entryFlag, hp.entryVertex]
  rfl

/-- The entry vertex of a boundary edge is found in the map under the head of the edge and
the entry point of the edge, when the map has one key per overlay vertex. -/
theorem entry_lookup (g : Graph) (hg : g.Consistent) (li : LevelInfo) (L : Nat)
    (hlev : li.getLevelCount ≤ L)
    (hsize : (OverlayGraph.buildOverlayVertices g li L).originalToOverlayVertexMap.length =
      (OverlayGraph.buildOverlayVertices g li L).overlayVertices.length)
    (u k : Nat) (hu : u < g.numberOfVertices) (hk : k < g.getOutDegree u)
    (h0 : 0 < li.getHighestDifferingLevel (g.getCellNumber u)
      (g.getCellNumber (g.arcHead u k))) :
    ∃ xe xn, OverlayGraph.TwinPair g li (OverlayGraph.buildOverlayVertices g li L)
        (u, g.arcHead u k, (g.vertex u).firstOut + k) xe xn ∧
      Graph.findOverlayVertex
        ⟨g.arcHead u k, (g.getForwardEdge ((g.vertex u).firstOut + k)).entryPoint, false⟩
        (OverlayGraph.buildOverlayVertices g li L).originalToOverlayVertexMap = some xn := by
  have hL : li.getHighestDifferingLevel (g.getCellNumber u)
      (g.getCellNumber (g.arcHead u k)) ≤ L := le_trans (hdl_spec li _ _).1 hlev
  have ht : (u, g.arcHead u k, (g.vertex u).firstOut + k) ∈ g.forEdges :=
    (mem_forEdges g _).2 ⟨hu, Nat.le_add_right _ _, by simpa using hk, rfl⟩
  obtain ⟨xe, xn, hp⟩ := twinPair_exists g li L _ ht h0 hL
  refine ⟨xe, xn, hp, ?_⟩
  have hfind := map_lookup g li L hsize xn hp.entryLt
  rw [mapKey_entry g li _ _ xe xn hp] at hfind
  obtain ⟨p0, hp0, hfb, htail⟩ := findBackwardEdge_spec g hg u k hu hk
  obtain ⟨f1, f2, f3⟩ := hg.forward u hu k hk
  have hp0in : p0 < g.getInDegree (g.arcHead u k) := lt_of_le_of_lt hp0 f2
  obtain ⟨b1, b2, b3⟩ := hg.backward (g.arcHead u k) f1 p0 hp0in
  rw [htail] at b2 b3
  -- the edge that leaves `u` at the exit point of the backward edge found
  have ht' : (u, g.arcHead u k, (g.vertex u).firstOut +
      (g.getBackwardEdge ((g.vertex (g.arcHead u k)).firstIn + p0)).exitPoint) ∈ g.forEdges :=
    (mem_forEdges g _).2 ⟨hu, Nat.le_add_right _ _, by simpa using b2, by
      show g.arcHead u k = _
      rw [b3]⟩
  obtain ⟨xe', xn', hp'⟩ := twinPair_exists g li L _ ht' h0 hL
  have hfind' := map_lookup g li L hsize xn' hp'.entryLt
  rw [mapKey_entry g li _ _ xe' xn' hp'] at hfind'
  have hxn : xn' = xn := by
    have := hfind'.symm.trans hfind
    exact Option.some.inj this
  have hxe : xe' = xe := by
    have h1 := hp.entryVertex
    have h2 := hp'.entryVertex
    rw [hxn, h1] at h2
    simp only [OverlayVertex.mk.injEq] at h2
    exact h2.2.1.symm
  have hk' : (g.getBackwardEdge ((g.vertex (g.arcHead u k)).firstIn + p0)).exitPoint = k := by
    have h1 := hp.exitVertex
    have h2 := hp'.exitVertex
    rw [hxe, h1] at h2
    simp only [OverlayVertex.mk.injEq] at h2
    have := h2.2.2.2.1
    omega
  rw [hk'] at b3
  have hpe : (g.getForwardEdge ((g.vertex u).firstOut + k)).entryPoint = p0 := by
    rw [b3]
  have hord : g.getEntryOrder (g.arcHead u k) (g.findBackwardEdge u (g.arcHead u k)) =
      (g.getForwardEdge ((g.vertex u).firstOut + k)).entryPoint := by
    rw [hfb, hpe]
    unfold Graph.getEntryOrder
    omega
  rw [← hord]
  exact hfind

end CRP

namespace CRP

/-- The overlay graph that `buildCells` makes of the overlay vertices of the base graph serves
the queries on the base graph with the map of these overlay vertices. -/
theorem buildCells_routable (g : Graph) (hg : g.Consistent) (li : LevelInfo) (L : Nat)
    (hmono : li.offset.Pairwise (fun a b => a ≤ b)) (hlev : li.getLevelCount = L)
    (hsize : (OverlayGraph.buildOverlayVertices g li L).originalToOverlayVertexMap.length =
      (OverlayGraph.buildOverlayVertices g li L).overlayVertices.length) :
    (OverlayGraph.buildCells li L (OverlayGraph.buildOverlayVertices g li L)).Routable
      { g with overlayVertices :=
        (OverlayGraph.buildOverlayVertices g li L).originalToOverlayVertexMap }
      (OverlayGraph.buildOverlayVertices g li L).exitFlagsArray := by
  have wf := buildOverlayVertices_wf g li L
  have hn := (buildCells_fields li L (OverlayGraph.buildOverlayVertices g li L) 0).1
  have hcell : ∀ x, ((OverlayGraph.buildCells li L
      (OverlayGraph.buildOverlayVertices g li L)).getVertex x).cellNumber =
      ((OverlayGraph.buildOverlayVertices g li L).overlayVertices.getD x default).cellNumber :=
    fun x => (buildCells_fields li L (OverlayGraph.buildOverlayVertices g li L) x).2.2.2.1
  refine ⟨?_, ?_, ?_⟩
  · intro u k hu hk h0
    have hu' : u < g.numberOfVertices := hu
    have hk' : k < g.getOutDegree u := hk
    have h0' : 0 < li.getHighestDifferingLevel (g.getCellNumber u)
      (g.getCellNumber (g.arcHead u k)) := h0
    obtain ⟨xe, xn, hp, hfind⟩ := entry_lookup g hg li L (by omega) hsize u k hu' hk' h0'
    have hov : Graph.getOverlayVertex
        { g with overlayVertices :=
          (OverlayGraph.buildOverlayVertices g li L).originalToOverlayVertexMap }
        (Graph.arcHead { g with overlayVertices :=
          (OverlayGraph.buildOverlayVertices g li L).originalToOverlayVertexMap } u k)
        (Graph.getForwardEdge { g with overlayVertices :=
          (OverlayGraph.buildOverlayVertices g li L).originalToOverlayVertexMap }
          ((Graph.vertex { g with overlayVertices :=
            (OverlayGraph.buildOverlayVertices g li L).originalToOverlayVertexMap } u).firstOut
            + k)).entryPoint false = xn := by
      show (Graph.findOverlayVertex
        ⟨g.arcHead u k, (g.getForwardEdge ((g.vertex u).firstOut + k)).entryPoint, false⟩
        (OverlayGraph.buildOverlayVertices g li L).originalToOverlayVertexMap).getD
          invalid_id = xn
      rw [hfind]; rfl
    rw [hov]
    obtain ⟨_, _, _, _, h5, h6, _, h8⟩ := twinPair_overlay g li L _ xe xn hp
    refine ⟨h5, h6, ?_, h8⟩
    rw [hcell, hp.entryVertex]
    rfl
  · intro x l hx hf hl1 hl2 p hp
    have hlL : l ≤ L := by
      obtain ⟨t, xe, xn, _, _, hL, hpair, hor⟩ := twinPair_cases g li L x (by rw [← hn]; exact hx)
      obtain ⟨_, _, _, _, _, _, h7, h8⟩ := twinPair_overlay g li L t xe xn hpair
      rcases hor with h | h
      · rw [h, h7] at hl2; omega
      · rw [h, h8] at hl2; omega
    have hxl := (level_iff li L _ wf l hl1 hlL x hx).1 hl2
    obtain ⟨C, hC, _, _⟩ := cell_of_vertex li _ L (OverlayGraph.levelsDown L) _
      (buildCellsState_inv li L (OverlayGraph.buildOverlayVertices g li L)) (l - 1)
      ((mem_levelsDown L (l - 1)).2 (by omega)) x hxl
    have hCm : (levelKey li (OverlayGraph.buildOverlayVertices g li L).overlayVertices (l - 1) x,
        C) ∈ (OverlayGraph.buildCells li L
          (OverlayGraph.buildOverlayVertices g li L)).forCells l := cellFind_mem hC
    have hkey := key_eq li L (OverlayGraph.buildOverlayVertices g li L) l hl1 x
    obtain ⟨i, hi, hix⟩ := (entry_points li L _ wf l hl1 hlL _ C hCm).2 x hx hf hl2 hkey
    have hout := out_neighbors li L _ wf l hl1 hlL _ C hCm i hi
    rw [hix] at hout
    rw [hout] at hp
    obtain ⟨j, hj, rfl⟩ := List.mem_map.1 hp
    obtain ⟨e1, e2, e3, e4, _⟩ := (exit_points li L _ wf l hl1 hlL _ C hCm).1 j
      (List.mem_range.1 hj)
    refine ⟨e1, e2, e3, ?_⟩
    exact hdl_lt_of_truncate_eq li hmono _ _ l hl1 (by omega) (hkey.trans e4.symm)
  · intro v hv hf
    obtain ⟨t, xe, xn, ht, h0, hL, hpair, hor⟩ := twinPair_cases g li L v
      (by rw [← hn]; exact hv)
    have hve : v = xe := by
      rcases hor with h | h
      · exact h
      · rw [h, hpair.entryFlag] at hf
        exact absurd hf (by simp)
    subst hve
    obtain ⟨hE, h2, h3, h4, h5, h6, h7, h8⟩ := twinPair_overlay g li L t v xn hpair
    obtain ⟨m1, m2, m3, m4⟩ := (mem_forEdges g t).1 ht
    have hc1 : ((OverlayGraph.buildCells li L
        (OverlayGraph.buildOverlayVertices g li L)).getVertex v).cellNumber =
        g.getCellNumber t.1 := by
      rw [hcell, hpair.exitVertex]
    have hc2 : ((OverlayGraph.buildCells li L
        (OverlayGraph.buildOverlayVertices g li L)).getVertex xn).cellNumber =
        g.getCellNumber t.2.1 := by
      rw [hcell, hpair.entryVertex]
    rw [h2]
    refine ⟨h5, h6, ?_, ?_, t.1, t.2.2 - (g.vertex t.1).firstOut, m1, ?_, ?_, ?_, ?_⟩
    · rw [h7, hc1, hc2]; rfl
    · rw [h8, hc1, hc2]; rfl
    · show t.2.2 - (g.vertex t.1).firstOut < g.getOutDegree t.1
      omega
    · rw [hE.2.2.2]
      show t.2.2 = (g.vertex t.1).firstOut + (t.2.2 - (g.vertex t.1).firstOut)
      omega
    · rw [h4, m4]
      show _ = (g.getForwardEdge ((g.vertex t.1).firstOut +
        (t.2.2 - (g.vertex t.1).firstOut))).head
      have : (g.vertex t.1).firstOut + (t.2.2 - (g.vertex t.1).firstOut) = t.2.2 := by omega
      rw [this]
    · rw [hc2, m4]
      show _ = g.getCellNumber (g.getForwardEdge ((g.vertex t.1).firstOut +
        (t.2.2 - (g.vertex t.1).firstOut))).head
      have : (g.vertex t.1).firstOut + (t.2.2 - (g.vertex t.1).firstOut) = t.2.2 := by omega
      rw [this]

/-- The overlay graph of the constructor `OverlayGraph(graph, mlp)` serves the queries. -/
theorem build_routable (graph : Graph) (mlp : MultiLevelPartition) (hg : graph.Consistent)
    (hmono : mlp.getPVOffsets.Pairwise (fun a b => a ≤ b))
    (hlevels : mlp.getPVOffsets.length = mlp.getNumberOfLevels + 1)
    (hsize : (OverlayGraph.build graph mlp).2.2.overlayVertices.length =
      (OverlayGraph.build graph mlp).1.numberOfVertices) :
    (OverlayGraph.build graph mlp).1.Routable (OverlayGraph.build graph mlp).2.2
      (OverlayGraph.build graph mlp).2.1 := by
  have hn := (buildCells_fields ⟨mlp.getPVOffsets⟩ mlp.getNumberOfLevels
    (OverlayGraph.buildOverlayVertices graph ⟨mlp.getPVOffsets⟩ mlp.getNumberOfLevels) 0).1
  exact buildCells_routable graph hg ⟨mlp.getPVOffsets⟩ mlp.getNumberOfLevels hmono
    (by unfold LevelInfo.getLevelCount; show mlp.getPVOffsets.length - 1 = _; omega)
    (by rw [← hn]; exact hsize)

/-- The graph with the map of the overlay vertices is as consistent as the graph. -/
theorem build_consistent (graph : Graph) (mlp : MultiLevelPartition) (hg : graph.Consistent) :
    (OverlayGraph.build graph mlp).2.2.Consistent :=
  ⟨hg.sentinel, hg.lenBackward, hg.firstOutLast, hg.firstInLast, hg.firstOutZero,
    hg.firstInZero, hg.monoOut, hg.monoIn, hg.forward, hg.backward⟩

end CRP

namespace CRP

theorem CRPQueryUni.crp_create_valid (graph : Graph) (overlayGraph : OverlayGraph) :
    CRPQueryUni.Valid graph overlayGraph (CRPQueryUni.create graph overlayGraph) where
  lenDist := by simp [CRPQueryUni.create]
  lenRound := by simp [CRPQueryUni.create]
  lenParent := by simp [CRPQueryUni.create]
  rounds := by
    intro i
    show (List.replicate (graph.numberOfEdges + overlayGraph.numberOfVertices) 0).getD i 0 ≤ 0
    by_cases h : i < graph.numberOfEdges + overlayGraph.numberOfVertices
    · rw [List.getD_eq_getElem _ _ (by simpa using h)]
      simp
    · rw [List.getD_eq_default _ _ (by simpa using h)]

end CRP

namespace CRP

/-! ## Walks with their vertices -/

namespace Graph

theorem walk_cost_le (g : Graph) (cf : CostFunction) (s t : Nat) (ks : List Nat) :
    ∀ (u x d v y e : Nat), g.walk cf s t u x d ks = some (v, y, e) → d ≤ e := by
  induction ks with
  | nil =>
    intro u x d v y e hw
    simp only [Graph.walk, Option.some.injEq, Prod.mk.injEq] at hw
    omega
  | cons k ks ih =>
    intro u x d v y e hw
    simp only [Graph.walk] at hw
    by_cases hk : k < g.getOutDegree u
    · simp only [hk, if_true] at hw
      have := ih _ _ _ v y e hw
      omega
    · simp [hk] at hw

theorem walkVertices_append (g : Graph) (cf : CostFunction) (s t : Nat) (ks : List Nat) :
    ∀ (u x d v y e k : Nat), g.walk cf s t u x d ks = some (v, y, e) →
      g.walkVertices u (ks ++ [k]) = g.walkVertices u ks ++ [g.arcHead v k] := by
  induction ks with
  | nil =>
    intro u x d v y e k hw
    simp only [Graph.walk, Option.some.injEq, Prod.mk.injEq] at hw
    obtain ⟨rfl, rfl, rfl⟩ := hw
    simp [Graph.walkVertices]
  | cons k' ks ih =>
    intro u x d v y e k hw
    simp only [Graph.walk] at hw
    by_cases hk' : k' < g.getOutDegree u
    · simp only [hk', if_true] at hw
      show u :: g.walkVertices (g.arcHead u k') (ks ++ [k]) = _
      rw [ih _ _ _ v y e k hw]
      rfl
    · simp [hk'] at hw

theorem walkVertices_last (g : Graph) (cf : CostFunction) (s t : Nat) (ks : List Nat) :
    ∀ (u x d v y e : Nat), g.walk cf s t u x d ks = some (v, y, e) →
      ∃ vs, g.walkVertices u ks = vs ++ [v] := by
  induction ks with
  | nil =>
    intro u x d v y e hw
    simp only [Graph.walk, Option.some.injEq, Prod.mk.injEq] at hw
    obtain ⟨rfl, rfl, rfl⟩ := hw
    exact ⟨[], rfl⟩
  | cons k' ks ih =>
    intro u x d v y e hw
    simp only [Graph.walk] at hw
    by_cases hk' : k' < g.getOutDegree u
    · simp only [hk', if_true] at hw
      obtain ⟨vs, hvs⟩ := ih _ _ _ v y e hw
      exact ⟨u :: vs, by simp [Graph.walkVertices, hvs]⟩
    · simp [hk'] at hw

/-- The cost of a walk is at least the cost that it has before a turn plus the cost of the
turn, at every vertex other than `s` and `t`. -/
theorem walkTurns_cost (g : Graph) (cf : CostFunction) (s t : Nat) (ks : List Nat) :
    ∀ (u x d v y e : Nat), g.walk cf s t u x d ks = some (v, y, e) →
      ∀ q, q ∈ g.walkTurns u x ks → q.1 ≠ s → q.1 ≠ t →
        d + cf.getTurnCosts (g.getTurnType q.1 q.2.1 q.2.2) ≤ e := by
  induction ks with
  | nil =>
    intro u x d v y e _ q hq
    simp [Graph.walkTurns] at hq
  | cons k ks ih =>
    intro u x d v y e hw q hq hs ht
    simp only [Graph.walk] at hw
    by_cases hk : k < g.getOutDegree u
    · simp only [hk, if_true] at hw
      simp only [Graph.walkTurns, List.mem_cons] at hq
      rcases hq with rfl | hq
      · have := g.walk_cost_le cf s t ks _ _ _ v y e hw
        have hc : g.arcCost cf s t u x k =
            cf.getTurnCosts (g.getTurnType u (g.getEntryOrder u x) k) +
              cf.getWeight (g.getForwardEdge ((g.vertex u).firstOut + k)).attributes := by
          unfold Graph.arcCost
          have : ¬ (u = s ∨ u = t) := by
            rintro (h | h)
            · exact hs h
            · exact ht h
          rw [if_neg this]
        rw [hc] at this
        show d + cf.getTurnCosts (g.getTurnType u (g.getEntryOrder u x) k) ≤ e
        omega
      · have := ih _ _ _ v y e hw q hq hs ht
        omega
    · simp [hk] at hw

theorem trail_trans (g : Graph) (cost : Nat → Nat → Nat → Nat) {x0 x y d e : Nat}
    {vs ws : List Nat} (h1 : g.Trail cost x0 x d vs) (h2 : g.Trail cost x y e ws) :
    g.Trail cost x0 y (d + e) (vs ++ ws) := by
  induction h2 with
  | start => simpa using h1
  | step _ hu hk ih =>
    rw [← Nat.add_assoc, ← List.append_assoc]
    exact Trail.step ih hu hk

theorem trail_mono (g : Graph) (cost cost' : Nat → Nat → Nat → Nat) {x0 x d : Nat}
    {vs : List Nat} (h : g.Trail cost x0 x d vs)
    (hc : ∀ u, u ∈ vs → ∀ y k, cost u y k = cost' u y k) : g.Trail cost' x0 x d vs := by
  induction h with
  | start => exact Trail.start
  | @step x d vs u k _ hu hk ih =>
    rw [hc u (by simp) x k]
    exact Trail.step (ih (fun w hw => hc w (by simp [hw]))) hu hk

theorem trail_isEntry (g : Graph) (hg : g.Consistent) (cost : Nat → Nat → Nat → Nat)
    {x0 x d : Nat} {vs : List Nat} (h : g.Trail cost x0 x d vs) (h0 : ∃ u, g.isEntry u x0) :
    ∃ u, g.isEntry u x := by
  cases h with
  | start => exact h0
  | step _ hu hk => exact ⟨_, g.arc_isEntry hg hu.1 hk⟩

/-- A trail under the costs of a query is a walk, and its vertices are the vertices of the
walk. -/
theorem trail_walk (g : Graph) (hg : g.Consistent) (cf : CostFunction) (s t u0 x0 : Nat)
    (h0 : g.isEntry u0 x0) {x d : Nat} {vs : List Nat}
    (h : g.Trail (g.arcCost cf s t) x0 x d vs) :
    ∃ ks v, g.isEntry v x ∧ g.walk cf s t u0 x0 0 ks = some (v, x, d) ∧
      g.walkVertices u0 ks = vs ++ [v] := by
  induction h with
  | start => exact ⟨[], u0, h0, rfl, rfl⟩
  | @step x d vs u k _ hu hk ih =>
    obtain ⟨ks, v, hv, hw, hvs⟩ := ih
    have huv : u = v := g.isEntry_unique hg hu hv
    subst huv
    refine ⟨ks ++ [k], _, g.arc_isEntry hg hu.1 hk,
      g.walk_append cf s t ks _ _ _ _ _ _ k hw hk, ?_⟩
    rw [g.walkVertices_append cf s t ks _ _ _ _ _ _ k hw, hvs]

theorem arcCost_eq_fullCost (g : Graph) (cf : CostFunction) (s t u x k : Nat) (hs : u ≠ s)
    (ht : u ≠ t) : g.arcCost cf s t u x k = g.fullCost cf u x k := by
  unfold Graph.arcCost Graph.fullCost
  have : ¬ (u = s ∨ u = t) := by
    rintro (h | h)
    · exact hs h
    · exact ht h
  rw [if_neg this]

end Graph

/-! ## Parent pointers -/

theorem parOk_update {Edge : Nat → Nat → Nat → Prop} {s : Nat} {lab : Nat → Option Nat}
    {par : Nat → Nat} (inv : ParOk Edge s lab par) (y u du c v : Nat)
    (hu : lab u = some du) (he : Edge u y c) (hv : du + c ≤ v)
    (hlt : ∀ d, lab y = some d → v < d) :
    ParOk Edge s (fun x => if x = y then some v else lab x)
      (fun x => if x = y then u else par x) := by
  have huy : u ≠ y := by
    intro e
    have := hlt du (e ▸ hu)
    omega
  intro x d hx hxs
  by_cases hxy : x = y
  · subst hxy
    simp only [if_true] at hx ⊢
    simp only [Option.some.injEq] at hx
    subst hx
    exact ⟨du, c, by simp [huy, hu], he, hv⟩
  · simp only [hxy, if_false] at hx ⊢
    obtain ⟨dp, c', h1, h2, h3⟩ := inv x d hx hxs
    by_cases hpy : par x = y
    · have hlt' := hlt dp (hpy ▸ h1)
      exact ⟨v, c', by simp [hpy], h2, by omega⟩
    · exact ⟨dp, c', by simp [hpy, h1], h2, h3⟩

theorem parOk_of_parInv {Edge : Nat → Nat → Nat → Prop} {s : Nat} {lab : Nat → Option Nat}
    {par : Nat → Nat} (inv : ParInv Edge s lab par) : ParOk Edge s lab par := by
  obtain ⟨rank, hr⟩ := inv
  intro x d hx hxs
  obtain ⟨dp, c, h1, h2, h3, _⟩ := hr x d hx hxs
  exact ⟨dp, c, h1, h2, h3⟩

theorem parOk_mono {Edge Edge' : Nat → Nat → Nat → Prop} {s : Nat} {lab : Nat → Option Nat}
    {par : Nat → Nat} (inv : ParOk Edge s lab par) (h : ∀ a b c, Edge a b c → Edge' a b c) :
    ParOk Edge' s lab par := by
  intro x d hx hxs
  obtain ⟨dp, c, h1, h2, h3⟩ := inv x d hx hxs
  exact ⟨dp, c, h1, h _ _ _ h2, h3⟩

end CRP


namespace CRP

/-! ## The paths that `Dijkstra::edgeQuery` returns -/

theorem labOf_set_fun (dist round : List Nat) (cur y v : Nat) (hd : y < dist.length)
    (hr : y < round.length) :
    labOf (dist.set y v) (round.set y cur) cur =
      fun x => if x = y then some v else labOf dist round cur x :=
  funext fun x => labOf_set dist round cur y v x hd hr

theorem parent_set_fun (parent : List VertexIdPair) (y : Nat) (p : VertexIdPair)
    (hp : y < parent.length) :
    (fun x => ((parent.set y p).getD x default).id) =
      fun x => if x = y then p.id else (parent.getD x default).id := by
  funext x
  rw [getD_set_self_or]
  by_cases h : x = y
  · subst h
    simp [hp]
  · have : ¬ (y = x ∧ y < parent.length) := fun h' => h h'.1.symm
    simp [h, this]

/-- A label that is set together with its parent pointer keeps `ParOk`. -/
theorem parOk_set {Edge : Nat → Nat → Nat → Prop} {s : Nat} (dist round : List Nat)
    (parent : List VertexIdPair) (cur y v : Nat) (p : VertexIdPair)
    (inv : ParOk Edge s (labOf dist round cur) (fun x => (parent.getD x default).id))
    (hd : y < dist.length) (hr : y < round.length) (hp : y < parent.length) (du c : Nat)
    (hu : labOf dist round cur p.id = some du) (he : Edge p.id y c) (hv : du + c ≤ v)
    (hlt : ∀ d, labOf dist round cur y = some d → v < d) :
    ParOk Edge s (labOf (dist.set y v) (round.set y cur) cur)
      (fun x => ((parent.set y p).getD x default).id) := by
  rw [labOf_set_fun _ _ _ _ _ hd hr, parent_set_fun _ _ _ hp]
  exact parOk_update inv y p.id du c v hu he hv hlt

/-- A label that is set together with a parent pointer that names the owner of its id keeps
`Owned`. -/
theorem owned_set (graph : Graph) (sId : Nat) (dist round : List Nat)
    (parent : List VertexIdPair) (cur y v : Nat) (p : VertexIdPair)
    (inv : Owned graph sId (labOf dist round cur) parent)
    (hd : y < dist.length) (hr : y < round.length) (hp : y < parent.length)
    (ho : graph.isEntry p.originalVertex p.id) :
    Owned graph sId (labOf (dist.set y v) (round.set y cur) cur) (parent.set y p) := by
  intro x d hx hne
  rw [labOf_set _ _ _ _ _ _ hd hr] at hx
  rw [getD_set_self_or]
  by_cases h : x = y
  · subst h
    simp only [hp, and_self, if_true]
    exact ho
  · have : ¬ (y = x ∧ y < parent.length) := fun h' => h h'.1.symm
    rw [if_neg this]
    rw [if_neg h] at hx
    exact inv x d hx hne

theorem chain_ne_nil {par : Nat → Nat} {s u : Nat} {l : List Nat} (h : Chain par s u l) :
    l ≠ [] := by
  cases h <;> simp

theorem chain_head {par : Nat → Nat} {s u : Nat} {l : List Nat} (h : Chain par s u l) :
    ∃ r, l = u :: r := by
  cases h
  · exact ⟨[], rfl⟩
  · exact ⟨_, rfl⟩

/-- The walk that the parent pointers describe: its cost is at most the label of its last
entry point, and it takes its exit points at the vertices that the parent pointers name,
which have the property `P` that the arcs give to their tails. -/
theorem chain_trail (g : Graph) (hg : g.Consistent) (cost : Nat → Nat → Nat → Nat)
    (Edge : Nat → Nat → Nat → Prop) (P : Nat → Prop) (sId : Nat) (lab : Nat → Option Nat)
    (parent : List VertexIdPair)
    (hE : ∀ a b c, Edge a b c → ∃ u k, g.isEntry u a ∧ k < g.getOutDegree u ∧
      b = g.arcId u k ∧ c = cost u a k ∧ P u)
    (hpar : ParOk Edge sId lab (fun x => (parent.getD x default).id))
    (hown : Owned g sId lab parent) {u : Nat} {l : List Nat}
    (hc : Chain (fun x => (parent.getD x default).id) sId u l) :
    ∀ d, lab u = some d → ∃ d', d' ≤ d ∧ g.Trail cost sId u d'
        ((l.dropLast.map fun x => (parent.getD x default).originalVertex).reverse) ∧
      ∀ v, v ∈ (l.dropLast.map fun x => (parent.getD x default).originalVertex) → P v := by
  induction hc with
  | base =>
    intro d _
    exact ⟨0, Nat.zero_le _, Graph.Trail.start, fun v hv => absurd hv (by simp)⟩
  | @step u l hne hc ih =>
    intro d hd
    obtain ⟨dp, c, h1, h2, h3⟩ := hpar u d hd hne
    obtain ⟨d', h4, h5, h6⟩ := ih dp h1
    obtain ⟨u', k, e1, e2, e3, e4, e5⟩ := hE _ _ _ h2
    have ho := hown u d hd hne
    have hu' : (parent.getD u default).originalVertex = u' := g.isEntry_unique hg ho e1
    obtain ⟨r, hr⟩ := chain_head hc
    have hl : (u :: l).dropLast = u :: l.dropLast := by
      rw [hr]; rfl
    rw [hl, List.map_cons, List.reverse_cons, hu']
    have e4' : c = cost u' (parent.getD u default).id k := e4
    refine ⟨d' + cost u' (parent.getD u default).id k, by omega, ?_, ?_⟩
    · have := @Graph.Trail.step g cost _ _ _ _ _ k h5 e1 e2
      rw [← e3] at this
      exact this
    · intro v hv
      rcases List.mem_cons.1 hv with hv | hv
      · rw [hv]; exact e5
      · exact h6 v hv

namespace Dijkstra

theorem pathLoop_chain (parent : List VertexIdPair) (sId : Nat) :
    ∀ (fuel uId : Nat) (path p : List Nat), pathLoop parent sId fuel uId path = some p →
      ∃ l, Chain (fun x => (parent.getD x default).id) sId uId l ∧
        p = path ++ (l.dropLast.map fun x => (parent.getD x default).originalVertex) := by
  intro fuel
  induction fuel with
  | zero => intro uId path p h; exact absurd h (by simp [pathLoop])
  | succ fuel ih =>
    intro uId path p h
    unfold pathLoop at h
    by_cases hu : uId = sId
    · rw [if_pos hu] at h
      subst hu
      refine ⟨[uId], Chain.base, ?_⟩
      simp only [Option.some.injEq] at h
      simp [h]
    · rw [if_neg hu] at h
      obtain ⟨l, h1, h2⟩ := ih _ _ _ h
      refine ⟨uId :: l, Chain.step hu h1, ?_⟩
      obtain ⟨r, hr⟩ := chain_head h1
      have hl : (uId :: l).dropLast = uId :: l.dropLast := by
        rw [hr]; rfl
      rw [hl, h2]
      simp

end Dijkstra

end CRP

namespace CRP

namespace Dijkstra

theorem update_pathInv (graph : Graph) (hg : graph.Consistent) (cf : CostFunction)
    (s sId t : Nat) (st : Search) (hI : PathInv graph cf s sId t st) (u uId k k0 : Nat)
    (hu : graph.isEntry u uId) (hk : k < graph.getOutDegree u)
    (hk0 : labOf st.self.dist st.self.round st.self.currentRound uId = some k0) :
    PathInv graph cf s sId t
      (if inf_weight ≤ k0 + graph.arcCost cf s t u uId k then st
      else if st.self.round.getD (graph.arcId u k) 0 < st.self.currentRound ∨
          k0 + graph.arcCost cf s t u uId k < st.self.dist.getD (graph.arcId u k) 0 then
        { st with
          self :=
            { st.self with
              dist := st.self.dist.set (graph.arcId u k) (k0 + graph.arcCost cf s t u uId k)
              graphPQ := MinIDQueue.pushOrDecrease st.self.graphPQ
                ⟨graph.arcId u k, graph.arcHead u k, k0 + graph.arcCost cf s t u uId k⟩
              round := st.self.round.set (graph.arcId u k) st.self.currentRound
              parent := st.self.parent.set (graph.arcId u k) ⟨u, uId⟩ } }
      else st) ∧
    ∃ d, labOf
      (if inf_weight ≤ k0 + graph.arcCost cf s t u uId k then st
      else if st.self.round.getD (graph.arcId u k) 0 < st.self.currentRound ∨
          k0 + graph.arcCost cf s t u uId k < st.self.dist.getD (graph.arcId u k) 0 then
        { st with
          self :=
            { st.self with
              dist := st.self.dist.set (graph.arcId u k) (k0 + graph.arcCost cf s t u uId k)
              graphPQ := MinIDQueue.pushOrDecrease st.self.graphPQ
                ⟨graph.arcId u k, graph.arcHead u k, k0 + graph.arcCost cf s t u uId k⟩
              round := st.self.round.set (graph.arcId u k) st.self.currentRound
              parent := st.self.parent.set (graph.arcId u k) ⟨u, uId⟩ } }
      else st).self.dist
      (if inf_weight ≤ k0 + graph.arcCost cf s t u uId k then st
      else if st.self.round.getD (graph.arcId u k) 0 < st.self.currentRound ∨
          k0 + graph.arcCost cf s t u uId k < st.self.dist.getD (graph.arcId u k) 0 then
        { st with
          self :=
            { st.self with
              dist := st.self.dist.set (graph.arcId u k) (k0 + graph.arcCost cf s t u uId k)
              graphPQ := MinIDQueue.pushOrDecrease st.self.graphPQ
                ⟨graph.arcId u k, graph.arcHead u k, k0 + graph.arcCost cf s t u uId k⟩
              round := st.self.round.set (graph.arcId u k) st.self.currentRound
              parent := st.self.parent.set (graph.arcId u k) ⟨u, uId⟩ } }
      else st).self.round st.self.currentRound uId = some d := by
  have hy := graph.arc_isEntry hg hu.1 hk
  have hym := graph.isEntry_lt hg hy
  split_ifs with h1 h2
  · exact ⟨hI, _, hk0⟩
  · have hd : graph.arcId u k < st.self.dist.length := by rw [hI.lenDist]; exact hym
    have hr : graph.arcId u k < st.self.round.length := by rw [hI.lenRound]; exact hym
    have hp : graph.arcId u k < st.self.parent.length := by rw [hI.lenParent]; exact hym
    have hlt : ∀ d, labOf st.self.dist st.self.round st.self.currentRound (graph.arcId u k) =
        some d → k0 + graph.arcCost cf s t u uId k < d := by
      intro d hd'
      obtain ⟨e1, e2⟩ := labOf_some_iff.1 hd'
      rcases h2 with h2 | h2
      · omega
      · omega
    refine ⟨⟨?_, ?_, ?_, ?_, ?_, ?_, ?_, ?_⟩, ?_⟩
    · simp only [List.length_set]; exact hI.lenDist
    · simp only [List.length_set]; exact hI.lenRound
    · simp only [List.length_set]; exact hI.lenParent
    · intro x d hx
      have hx' : labOf (st.self.dist.set (graph.arcId u k) (k0 + graph.arcCost cf s t u uId k))
          (st.self.round.set (graph.arcId u k) st.self.currentRound) st.self.currentRound x =
          some d := hx
      rw [labOf_set _ _ _ _ _ _ hd hr] at hx'
      split_ifs at hx' with hxy
      · simp only [Option.some.injEq] at hx'
        omega
      · exact hI.labLt x d hx'
    · intro p hp'
      have hl : ∀ x, (∃ d, labOf st.self.dist st.self.round st.self.currentRound x = some d) →
          ∃ d, labOf (st.self.dist.set (graph.arcId u k)
            (k0 + graph.arcCost cf s t u uId k))
            (st.self.round.set (graph.arcId u k) st.self.currentRound)
            st.self.currentRound x = some d := by
        intro x hx
        rw [labOf_set _ _ _ _ _ _ hd hr]
        split_ifs
        · exact ⟨_, rfl⟩
        · exact hx
      rcases MinIDQueue.mem_pushOrDecrease _ _ _ hp' with h | h
      · subst h
        refine ⟨hy, ?_⟩
        show ∃ d, labOf (st.self.dist.set (graph.arcId u k)
            (k0 + graph.arcCost cf s t u uId k))
            (st.self.round.set (graph.arcId u k) st.self.currentRound)
            st.self.currentRound (graph.arcId u k) = some d
        rw [labOf_set _ _ _ _ _ _ hd hr, if_pos rfl]
        exact ⟨_, rfl⟩
      · exact ⟨(hI.queue p h).1, hl _ (hI.queue p h).2⟩
    · exact parOk_set st.self.dist st.self.round st.self.parent st.self.currentRound
        (graph.arcId u k) _ ⟨u, uId⟩ hI.par hd hr hp k0 (graph.arcCost cf s t u uId k) hk0
        ⟨u, k, hu, hk, rfl, rfl⟩ (le_refl _) hlt
    · exact owned_set graph sId st.self.dist st.self.round st.self.parent st.self.currentRound
        (graph.arcId u k) _ ⟨u, uId⟩ hI.own hd hr hp hu
    · rcases hI.best with hb | ⟨hb1, hb2, d, hb3, hb4⟩
      · exact Or.inl hb
      · refine Or.inr ⟨hb1, hb2, ?_⟩
        show ∃ d, labOf (st.self.dist.set (graph.arcId u k)
            (k0 + graph.arcCost cf s t u uId k))
            (st.self.round.set (graph.arcId u k) st.self.currentRound)
            st.self.currentRound st.tId = some d ∧ d ≤ st.shortestPath
        rw [labOf_set _ _ _ _ _ _ hd hr]
        split_ifs with hty
        · refine ⟨_, rfl, ?_⟩
          rw [hty] at hb3
          have := hlt d hb3
          omega
        · exact ⟨d, hb3, hb4⟩
    · show ∃ d, labOf (st.self.dist.set (graph.arcId u k)
          (k0 + graph.arcCost cf s t u uId k))
          (st.self.round.set (graph.arcId u k) st.self.currentRound)
          st.self.currentRound uId = some d
      rw [labOf_set _ _ _ _ _ _ hd hr]
      split_ifs
      · exact ⟨_, rfl⟩
      · exact ⟨_, hk0⟩
  · exact ⟨hI, _, hk0⟩

theorem relax_pathInv (graph : Graph) (hg : graph.Consistent) (metric : Metric)
    (hb : metric.costFunction.Bounded) (s sId t : Nat) (st : Search)
    (hI : PathInv graph metric.costFunction s sId t st) (u uId k : Nat)
    (hu : graph.isEntry u uId) (hk : k < graph.getOutDegree u)
    (hl : ∃ d, labOf st.self.dist st.self.round st.self.currentRound uId = some d) :
    PathInv graph metric.costFunction s sId t
      (relax graph metric s t u uId st (graph.getForwardEdge ((graph.vertex u).firstOut + k), k,
        graph.turnTables.getD ((graph.vertex u).turnTablePtr +
          graph.getEntryOrder u uId * graph.getOutDegree u + k) default)) ∧
    ∃ d, labOf
      (relax graph metric s t u uId st (graph.getForwardEdge ((graph.vertex u).firstOut + k), k,
        graph.turnTables.getD ((graph.vertex u).turnTablePtr +
          graph.getEntryOrder u uId * graph.getOutDegree u + k) default)).self.dist
      (relax graph metric s t u uId st (graph.getForwardEdge ((graph.vertex u).firstOut + k), k,
        graph.turnTables.getD ((graph.vertex u).turnTablePtr +
          graph.getEntryOrder u uId * graph.getOutDegree u + k) default)).self.round
      (relax graph metric s t u uId st (graph.getForwardEdge ((graph.vertex u).firstOut + k), k,
        graph.turnTables.getD ((graph.vertex u).turnTablePtr +
          graph.getEntryOrder u uId * graph.getOutDegree u + k) default)).self.currentRound
      uId = some d := by
  obtain ⟨k0, hk0⟩ := hl
  have hd0 := (labOf_some_iff.1 hk0).2
  rw [relax_eq graph metric s t u uId k0 k hb st hd0 (hI.labLt _ _ hk0)]
  obtain ⟨h1, h2⟩ := update_pathInv graph hg metric.costFunction s sId t st hI u uId k k0 hu hk
    hk0
  refine ⟨h1, ?_⟩
  have hc : (if inf_weight ≤ k0 + graph.arcCost metric.costFunction s t u uId k then st
      else if st.self.round.getD (graph.arcId u k) 0 < st.self.currentRound ∨
          k0 + graph.arcCost metric.costFunction s t u uId k <
            st.self.dist.getD (graph.arcId u k) 0 then
        { st with
          self :=
            { st.self with
              dist := st.self.dist.set (graph.arcId u k)
                (k0 + graph.arcCost metric.costFunction s t u uId k)
              graphPQ := MinIDQueue.pushOrDecrease st.self.graphPQ
                ⟨graph.arcId u k, graph.arcHead u k,
                  k0 + graph.arcCost metric.costFunction s t u uId k⟩
              round := st.self.round.set (graph.arcId u k) st.self.currentRound
              parent := st.self.parent.set (graph.arcId u k) ⟨u, uId⟩ } }
      else st).self.currentRound = st.self.currentRound := by
    split_ifs <;> rfl
  rw [hc]
  exact h2

theorem relaxAll_pathInv (graph : Graph) (hg : graph.Consistent) (metric : Metric)
    (hb : metric.costFunction.Bounded) (s sId t : Nat) (st : Search)
    (hI : PathInv graph metric.costFunction s sId t st) (u uId : Nat)
    (hu : graph.isEntry u uId)
    (hl : ∃ d, labOf st.self.dist st.self.round st.self.currentRound uId = some d) :
    PathInv graph metric.costFunction s sId t
      ((graph.forOutEdgesOf u (graph.getEntryOrder u uId)).foldl
        (relax graph metric s t u uId) st) := by
  refine (foldl_preserves (fun st' : Search => PathInv graph metric.costFunction s sId t st' ∧
    ∃ d, labOf st'.self.dist st'.self.round st'.self.currentRound uId = some d)
    _ _ st ⟨hI, hl⟩ ?_).1
  intro b a ha hb'
  unfold Graph.forOutEdgesOf at ha
  obtain ⟨k, hk, rfl⟩ := List.mem_map.1 ha
  exact relax_pathInv graph hg metric hb s sId t b hb'.1 u uId k hu (List.mem_range.1 hk) hb'.2

theorem target_cases (st : Search) (q : List IDKeyTriple) (triple : IDKeyTriple) (t : Nat) :
    ∃ sp ti, (if triple.vertexId = t then
        if st.self.dist.getD triple.id 0 < st.shortestPath then
          ({ self := { st.self with graphPQ := q },
             shortestPath := st.self.dist.getD triple.id 0, tId := triple.id } : Search)
        else { st with self := { st.self with graphPQ := q } }
      else { st with self := { st.self with graphPQ := q } }) =
        (⟨{ st.self with graphPQ := q }, sp, ti⟩ : Search) ∧
      ((sp = st.shortestPath ∧ ti = st.tId) ∨
        (triple.vertexId = t ∧ sp = st.self.dist.getD triple.id 0 ∧ ti = triple.id)) := by
  split_ifs with h1 h2
  · exact ⟨_, _, rfl, Or.inr ⟨h1, rfl, rfl⟩⟩
  · exact ⟨_, _, rfl, Or.inl ⟨rfl, rfl⟩⟩
  · exact ⟨_, _, rfl, Or.inl ⟨rfl, rfl⟩⟩

theorem pop_pathInv (graph : Graph) (cf : CostFunction) (s sId t : Nat) (st : Search)
    (hI : PathInv graph cf s sId t st) (triple : IDKeyTriple) (q : List IDKeyTriple)
    (hpop : MinIDQueue.pop st.self.graphPQ = some (triple, q)) (sp ti : Nat)
    (h : (sp = st.shortestPath ∧ ti = st.tId) ∨
      (triple.vertexId = t ∧ sp = st.self.dist.getD triple.id 0 ∧ ti = triple.id)) :
    PathInv graph cf s sId t (⟨{ st.self with graphPQ := q }, sp, ti⟩ : Search) := by
  refine ⟨hI.lenDist, hI.lenRound, hI.lenParent, hI.labLt, fun p hp =>
    hI.queue p ((MinIDQueue.mem_pop _ _ _ hpop p).1 hp).1, hI.par, hI.own, ?_⟩
  rcases h with ⟨h1, h2⟩ | ⟨h1, h2, h3⟩
  · rw [h1, h2]; exact hI.best
  · have hmem := (MinIDQueue.pop_spec _ _ _ hpop).1
    obtain ⟨he, d, hd⟩ := hI.queue triple hmem
    have hd2 := (labOf_some_iff.1 hd).2
    right
    refine ⟨?_, ?_, d, ?_, ?_⟩
    · show sp < inf_weight
      rw [h2, hd2]; exact hI.labLt _ _ hd
    · show graph.isEntry t ti
      rw [h3, ← h1]; exact he
    · show labOf st.self.dist st.self.round st.self.currentRound ti = some d
      rw [h3]; exact hd
    · show d ≤ sp
      omega

/-- The loop of `edgeQuery` keeps the invariant on which the validity of the path rests. -/
theorem loop_pathInv (graph : Graph) (hg : graph.Consistent) (metric : Metric)
    (hb : metric.costFunction.Bounded) (s sId t : Nat) :
    ∀ (fuel : Nat) (st st' : Search), PathInv graph metric.costFunction s sId t st →
      loop graph metric s t fuel st = some st' →
      PathInv graph metric.costFunction s sId t st' := by
  intro fuel
  induction fuel with
  | zero => intro st st' _ h; simp [loop] at h
  | succ fuel ih =>
    intro st st' hI h
    rw [loop_succ] at h
    cases hpop : MinIDQueue.pop st.self.graphPQ with
    | none =>
      rw [hpop] at h
      simp only [Option.some.injEq] at h
      subst h
      exact hI
    | some r =>
      obtain ⟨triple, q⟩ := r
      rw [hpop] at h
      simp only [] at h
      split at h
      · simp only [Option.some.injEq] at h
        subst h
        exact pop_pathInv graph _ s sId t st hI triple q hpop _ _ (Or.inl ⟨rfl, rfl⟩)
      · have hmem := (MinIDQueue.pop_spec _ _ _ hpop).1
        obtain ⟨hu, hl⟩ := hI.queue triple hmem
        obtain ⟨sp, ti, hst2, hz⟩ := target_cases st q triple t
        rw [hst2] at h
        have hI1 := pop_pathInv graph _ s sId t st hI triple q hpop sp ti hz
        exact ih _ st' (relaxAll_pathInv graph hg metric hb s sId t _ hI1 triple.vertexId
          triple.id hu hl) h

end Dijkstra

end CRP

namespace CRP

/-- After the round counter has moved on, only the id that is set has a label. -/
theorem labOf_fresh (dist round : List Nat) (cur y v x d : Nat) (hd : y < dist.length)
    (hr : y < round.length) (hrounds : ∀ i, round.getD i 0 ≤ cur)
    (h : labOf (dist.set y v) (round.set y (cur + 1)) (cur + 1) x = some d) :
    x = y ∧ d = v := by
  rw [labOf_set _ _ _ _ _ _ hd hr] at h
  split_ifs at h with hxy
  · simp only [Option.some.injEq] at h
    exact ⟨hxy, h.symm⟩
  · obtain ⟨e1, _⟩ := labOf_some_iff.1 h
    have := hrounds x
    omega

namespace Dijkstra

theorem init_pathInv (graph : Graph) (hg : graph.Consistent) (cf : CostFunction)
    (self : Dijkstra) (s sId t : Nat) (hv : Valid graph self) (hs : graph.isEntry s sId) :
    PathInv graph cf s sId t
      ⟨⟨self.dist.set sId 0, self.round.set sId (self.currentRound + 1),
        self.parent.set sId ⟨s, sId⟩, self.currentRound + 1, MinIDQueue.push [] ⟨sId, s, 0⟩⟩,
        2 * inf_weight, invalid_id⟩ := by
  have hm := graph.isEntry_lt hg hs
  have hd : sId < self.dist.length := by rw [hv.lenDist]; exact hm
  have hr : sId < self.round.length := by rw [hv.lenRound]; exact hm
  have hfresh : ∀ x d, labOf (self.dist.set sId 0) (self.round.set sId (self.currentRound + 1))
      (self.currentRound + 1) x = some d → x = sId ∧ d = 0 :=
    fun x d h => labOf_fresh _ _ _ _ _ _ _ hd hr hv.rounds h
  refine ⟨?_, ?_, ?_, ?_, ?_, ?_, ?_, Or.inl rfl⟩
  · simp only [List.length_set]; exact hv.lenDist
  · simp only [List.length_set]; exact hv.lenRound
  · simp only [List.length_set]; exact hv.lenParent
  · intro x d hx
    have := (hfresh x d hx).2
    unfold inf_weight
    omega
  · intro p hp
    have hp' : p = ⟨sId, s, 0⟩ := by simpa [MinIDQueue.push] using hp
    subst hp'
    refine ⟨hs, 0, ?_⟩
    show labOf (self.dist.set sId 0) (self.round.set sId (self.currentRound + 1))
      (self.currentRound + 1) sId = some 0
    rw [labOf_set _ _ _ _ _ _ hd hr, if_pos rfl]
  · intro x d hx hne
    exact absurd (hfresh x d hx).1 hne
  · intro x d hx hne
    exact absurd (hfresh x d hx).1 hne

/-- The path that `edgeQuery` returns: the vertices of a walk from the entry point of the
source edge at `s` to `t` whose cost, with the turn costs at `s` and `t` counted as 0, is at
most the weight returned, which is below `inf_weight`. -/
theorem edgeQuery_walk (graph : Graph) (metric : Metric) (fuel : Nat) (self : Dijkstra)
    (sourceEdgeId targetEdgeId : Nat) (hg : graph.Consistent)
    (hb : metric.costFunction.Bounded) (hv : Valid graph self)
    (hround : self.currentRound < 4294967295)
    (hs : sourceEdgeId < graph.numberOfEdges) (r : QueryResult) (self' : Dijkstra)
    (h : edgeQuery graph metric fuel self sourceEdgeId targetEdgeId = some (r, self')) :
    (r.path = [] ∧ r.pathWeight = inf_weight) ∨
      ∃ ks y d, graph.walk metric.costFunction (graph.getForwardEdge sourceEdgeId).head
          (graph.getBackwardEdge targetEdgeId).tail (graph.getForwardEdge sourceEdgeId).head
          (graph.getEntryOffset (graph.getForwardEdge sourceEdgeId).head +
            (graph.getForwardEdge sourceEdgeId).entryPoint) 0 ks =
          some ((graph.getBackwardEdge targetEdgeId).tail, y, d) ∧
        d ≤ r.pathWeight ∧ r.pathWeight < inf_weight ∧
        graph.walkVertices (graph.getForwardEdge sourceEdgeId).head ks = r.path := by
  have hsE := graph.source_isEntry hg sourceEdgeId hs
  have hI0 := init_pathInv graph hg metric.costFunction self _ _
    (graph.getBackwardEdge targetEdgeId).tail hv hsE
  unfold edgeQuery at h
  simp only [] at h
  rw [u32_of_lt (show self.currentRound + 1 < 4294967296 by omega)] at h
  cases hloop : loop graph metric (graph.getForwardEdge sourceEdgeId).head
      (graph.getBackwardEdge targetEdgeId).tail fuel
      ⟨⟨self.dist.set (graph.getEntryOffset (graph.getForwardEdge sourceEdgeId).head +
          (graph.getForwardEdge sourceEdgeId).entryPoint) 0,
        self.round.set (graph.getEntryOffset (graph.getForwardEdge sourceEdgeId).head +
          (graph.getForwardEdge sourceEdgeId).entryPoint) (self.currentRound + 1),
        self.parent.set (graph.getEntryOffset (graph.getForwardEdge sourceEdgeId).head +
          (graph.getForwardEdge sourceEdgeId).entryPoint)
          ⟨(graph.getForwardEdge sourceEdgeId).head,
            graph.getEntryOffset (graph.getForwardEdge sourceEdgeId).head +
              (graph.getForwardEdge sourceEdgeId).entryPoint⟩,
        self.currentRound + 1,
        MinIDQueue.push [] ⟨graph.getEntryOffset (graph.getForwardEdge sourceEdgeId).head +
          (graph.getForwardEdge sourceEdgeId).entryPoint,
          (graph.getForwardEdge sourceEdgeId).head, 0⟩⟩, 2 * inf_weight, invalid_id⟩ with
  | none =>
    rw [hloop] at h
    simp at h
  | some st =>
    rw [hloop] at h
    simp only [] at h
    have hI := loop_pathInv graph hg metric hb _ _ _ fuel _ st hI0 hloop
    by_cases hsp : st.shortestPath = 2 * inf_weight
    · rw [if_pos hsp] at h
      simp only [Option.some.injEq, Prod.mk.injEq] at h
      left
      rw [← h.1]
      exact ⟨rfl, rfl⟩
    · rw [if_neg hsp] at h
      right
      rcases hI.best with hb0 | ⟨hb1, hb2, d, hb3, hb4⟩
      · exact absurd hb0 hsp
      · cases hpl : pathLoop st.self.parent
            (graph.getEntryOffset (graph.getForwardEdge sourceEdgeId).head +
              (graph.getForwardEdge sourceEdgeId).entryPoint) fuel st.tId
            [(graph.getBackwardEdge targetEdgeId).tail] with
        | none =>
          rw [hpl] at h
          simp at h
        | some path =>
          rw [hpl] at h
          simp only [Option.some.injEq, Prod.mk.injEq] at h
          obtain ⟨l, hc, hp⟩ := pathLoop_chain _ _ _ _ _ _ hpl
          obtain ⟨d', hd1, htr, _⟩ := chain_trail graph hg
            (graph.arcCost metric.costFunction (graph.getForwardEdge sourceEdgeId).head
              (graph.getBackwardEdge targetEdgeId).tail)
            (graph.QEdge metric.costFunction (graph.getForwardEdge sourceEdgeId).head
              (graph.getBackwardEdge targetEdgeId).tail) (fun _ => True) _ _ st.self.parent
            (fun a b c he => by
              obtain ⟨u, k, h1, h2, h3, h4⟩ := he
              exact ⟨u, k, h1, h2, h3, h4, trivial⟩) hI.par hI.own hc d hb3
          obtain ⟨ks, v, w1, w2, w3⟩ := graph.trail_walk hg metric.costFunction _ _ _ _ hsE htr
          have hvt : v = (graph.getBackwardEdge targetEdgeId).tail :=
            graph.isEntry_unique hg w1 hb2
          rw [hvt] at w2 w3
          refine ⟨ks, st.tId, d', w2, ?_, ?_, ?_⟩
          · rw [← h.1]
            show d' ≤ st.shortestPath
            omega
          · rw [← h.1]
            exact hb1
          · rw [w3, ← h.1, hp]
            simp

end Dijkstra

end CRP


namespace CRP

/-! ## Searches with a queue -/

section

variable {α : Type} [IDKey α]

theorem qInv_pop {Edge : Nat → Nat → Nat → Prop} {s B : Nat} {dist round : List Nat}
    {cur : Nat} (q : List α) (a : α) (q' : List α) (hpop : MinIDQueue.pop q = some (a, q'))
    (h : QInv Edge s B dist round cur q (fun _ => False)) :
    QInv Edge s B dist round cur q' (fun x => x = IDKey.id a) ∧ a ∈ q ∧
      (∀ b, b ∈ q → IDKey.key a ≤ IDKey.key b) ∧
      labOf dist round cur (IDKey.id a) = some (IDKey.key a) ∧ ¬ QOpen q' (IDKey.id a) ∧
      ∀ x, QOpen q' x ↔ (QOpen q x ∧ x ≠ IDKey.id a) := by
  obtain ⟨hmem, hmin, _⟩ := MinIDQueue.pop_spec _ _ _ hpop
  have hmemq := MinIDQueue.mem_pop _ _ _ hpop
  have hiff : ∀ x, QOpen q' x ↔ (QOpen q x ∧ x ≠ IDKey.id a) := by
    intro x
    constructor
    · rintro ⟨p, hp, rfl⟩
      exact ⟨⟨p, ((hmemq p).1 hp).1, rfl⟩, ((hmemq p).1 hp).2⟩
    · rintro ⟨⟨p, hp, rfl⟩, hne⟩
      exact ⟨p, (hmemq p).2 ⟨hp, hne⟩, rfl⟩
  refine ⟨⟨?_, MinIDQueue.pop_nodup _ _ _ hpop h.nodup, fun p hp =>
    h.keys p ((hmemq p).1 hp).1⟩, hmem, hmin, h.keys a hmem, fun hq => ((hiff _).1 hq).2 rfl,
    hiff⟩
  apply searchInv_close h.search
  intro x hx hx'
  exfalso
  rcases hx with hx | hx
  · by_cases hxa : x = IDKey.id a
    · exact hx' (Or.inr hxa)
    · exact hx' (Or.inl ((hiff x).2 ⟨hx, hxa⟩))
  · exact hx

theorem qInv_push {Edge : Nat → Nat → Nat → Prop} {s B : Nat} {dist round : List Nat}
    {cur : Nat} {q : List α} {extra : Nat → Prop} (h : QInv Edge s B dist round cur q extra)
    (y v : Nat) (p : α) (hid : IDKey.id p = y) (hkey : IDKey.key p = v)
    (hd : y < dist.length) (hr : y < round.length) (hreach : Reach Edge s y v)
    (hlt : ∀ d, labOf dist round cur y = some d → v < d) :
    QInv Edge s B (dist.set y v) (round.set y cur) cur (MinIDQueue.pushOrDecrease q p) extra ∧
      ∀ x, QOpen (MinIDQueue.pushOrDecrease q p) x ↔ (x = y ∨ QOpen q x) := by
  have himp : ∀ b, b ∈ q → IDKey.id b = IDKey.id p → IDKey.key p < IDKey.key b := by
    intro b hb hbp
    have := h.keys b hb
    rw [hbp, hid] at this
    rw [hkey]
    exact hlt _ this
  obtain ⟨hmem, hnd, _⟩ := MinIDQueue.pushOrDecrease_spec q p h.nodup himp
  have hiff : ∀ x, QOpen (MinIDQueue.pushOrDecrease q p) x ↔ (x = y ∨ QOpen q x) := by
    intro x
    constructor
    · rintro ⟨b, hb, rfl⟩
      rcases (hmem b).1 hb with hb | hb
      · left; rw [hb, hid]
      · right; exact ⟨b, hb.1, rfl⟩
    · rintro (hx | ⟨b, hb, rfl⟩)
      · exact ⟨p, (hmem p).2 (Or.inl rfl), by rw [hid, hx]⟩
      · by_cases hby : IDKey.id b = IDKey.id p
        · exact ⟨p, (hmem p).2 (Or.inl rfl), hby.symm⟩
        · exact ⟨b, (hmem b).2 (Or.inr ⟨hb, hby⟩), rfl⟩
  refine ⟨⟨?_, hnd, ?_⟩, hiff⟩
  · rw [labOf_set_fun _ _ _ _ _ hd hr]
    apply searchInv_update h.search y v hreach hlt
    · intro x hx
      rcases hx with hx | hx
      · exact Or.inl ((hiff x).2 (Or.inr hx))
      · exact Or.inr hx
    · exact Or.inl ((hiff y).2 (Or.inl rfl))
  · intro b hb
    rw [labOf_set _ _ _ _ _ _ hd hr]
    rcases (hmem b).1 hb with hb | hb
    · rw [hb, hid, if_pos rfl, hkey]
    · rw [hid] at hb
      rw [if_neg hb.2]
      exact h.keys b hb.1

theorem qInv_label {Edge : Nat → Nat → Nat → Prop} {s B : Nat} {dist round : List Nat}
    {cur : Nat} {q : List α} {extra : Nat → Prop} (h : QInv Edge s B dist round cur q extra)
    (y v : Nat) (hd : y < dist.length) (hr : y < round.length) (hreach : Reach Edge s y v)
    (hlt : ∀ d, labOf dist round cur y = some d → v < d) (hnq : ¬ QOpen q y)
    (extra' : Nat → Prop) (hex : ∀ x, extra x → extra' x) (hy : extra' y) :
    QInv Edge s B (dist.set y v) (round.set y cur) cur q extra' := by
  refine ⟨?_, h.nodup, ?_⟩
  · rw [labOf_set_fun _ _ _ _ _ hd hr]
    apply searchInv_update h.search y v hreach hlt
    · intro x hx
      rcases hx with hx | hx
      · exact Or.inl hx
      · exact Or.inr (hex x hx)
    · exact Or.inr hy
  · intro b hb
    rw [labOf_set _ _ _ _ _ _ hd hr]
    have : IDKey.id b ≠ y := fun e => hnq ⟨b, hb, e⟩
    rw [if_neg this]
    exact h.keys b hb

theorem qInv_close {Edge : Nat → Nat → Nat → Prop} {s B : Nat} {dist round : List Nat}
    {cur : Nat} {q : List α} {extra : Nat → Prop} (h : QInv Edge s B dist round cur q extra)
    (extra' : Nat → Prop)
    (hcl : ∀ x, extra x → ¬ extra' x → ¬ QOpen q x →
      ClosedAt Edge B (labOf dist round cur) x) :
    QInv Edge s B dist round cur q extra' := by
  refine ⟨?_, h.nodup, h.keys⟩
  apply searchInv_close h.search
  intro x hx hx'
  rcases hx with hx | hx
  · exact absurd (Or.inl hx) hx'
  · exact hcl x hx (fun e => hx' (Or.inr e)) (fun e => hx' (Or.inl e))

/-- While the state `y`, which a walk of cost `d` reaches, has no label or is queued, the
queue holds a key that is at most `d`. -/
theorem qInv_open_le {Edge : Nat → Nat → Nat → Prop} {s B : Nat} {dist round : List Nat}
    {cur : Nat} {q : List α} (h : QInv Edge s B dist round cur q (fun _ => False))
    {y d : Nat} (hreach : Reach Edge s y d) (hd : d < B)
    (htgt : ∀ d', labOf dist round cur y = some d' → QOpen q y) :
    ∃ p, p ∈ q ∧ IDKey.key p ≤ d := by
  rcases searchInv_reach h.search hreach hd with ⟨d', h1, h2⟩ | ⟨x, dx, h1, h2, h3⟩
  · obtain ⟨p, hp, hpy⟩ := htgt d' h1
    have := h.keys p hp
    rw [hpy, h1] at this
    simp only [Option.some.injEq] at this
    exact ⟨p, hp, by omega⟩
  · rcases h1 with ⟨p, hp, hpx⟩ | h1
    · have := h.keys p hp
      rw [hpx, h2] at this
      simp only [Option.some.injEq] at this
      exact ⟨p, hp, by omega⟩
    · exact absurd h1 id

end

end CRP

namespace CRP

namespace PathUnpacker

/-! ## The search of `unpackPathInLowestLevelCell` -/

theorem lowestRelax_eq (graph : Graph) (metric : Metric) (hb : metric.costFunction.Bounded)
    (cellNumber targetId : Nat) (minTriple : IDKeyTriple) (hkey : minTriple.key < inf_weight)
    (st : PathUnpacker × List IDKeyTriple) (k : Nat) :
    lowestRelax graph metric cellNumber targetId minTriple st
      (graph.getForwardEdge ((graph.vertex minTriple.vertexId).firstOut + k), k,
        graph.turnTables.getD ((graph.vertex minTriple.vertexId).turnTablePtr +
          graph.getEntryOrder minTriple.vertexId minTriple.id *
            graph.getOutDegree minTriple.vertexId + k) default) =
      if graph.getCellNumber (graph.arcHead minTriple.vertexId k) ≠ cellNumber ∧
          graph.arcId minTriple.vertexId k ≠ targetId then st
      else if inf_weight < minTriple.key +
          graph.fullCost metric.costFunction minTriple.vertexId minTriple.id k then st
      else if st.1.round.getD (graph.arcId minTriple.vertexId k) 0 = st.1.currentRound ∧
          st.1.dist.getD (graph.arcId minTriple.vertexId k) 0 ≤ minTriple.key +
            graph.fullCost metric.costFunction minTriple.vertexId minTriple.id k then st
      else
        ({ st.1 with
            round := st.1.round.set (graph.arcId minTriple.vertexId k) st.1.currentRound
            dist := st.1.dist.set (graph.arcId minTriple.vertexId k) (minTriple.key +
              graph.fullCost metric.costFunction minTriple.vertexId minTriple.id k)
            parent := st.1.parent.set (graph.arcId minTriple.vertexId k)
              ⟨minTriple.vertexId, minTriple.id⟩ },
          MinIDQueue.pushOrDecrease st.2
            ⟨graph.arcId minTriple.vertexId k, graph.arcHead minTriple.vertexId k,
              minTriple.key +
                graph.fullCost metric.costFunction minTriple.vertexId minTriple.id k⟩) := by
  have hnew := Dijkstra.newDist_eq metric.costFunction hb minTriple.key hkey _
    (hb.turn (graph.getTurnType minTriple.vertexId
      (graph.getEntryOrder minTriple.vertexId minTriple.id) k))
    (graph.getForwardEdge ((graph.vertex minTriple.vertexId).firstOut + k)).attributes
  unfold lowestRelax
  simp only [Metric.getWeight, Metric.getTurnCosts]
  unfold Graph.fullCost Graph.arcId Graph.arcHead
  unfold Graph.getTurnType at hnew
  rw [hnew]
  rfl

theorem lowestRelax_inv (graph : Graph) (hg : graph.Consistent) (metric : Metric)
    (hb : metric.costFunction.Bounded) (n cellNumber sourceId targetId : Nat)
    (hn : graph.numberOfEdges ≤ n) (minTriple : IDKeyTriple)
    (hkey : minTriple.key < inf_weight) (st : PathUnpacker × List IDKeyTriple)
    (hinv : LowestInv graph metric.costFunction n cellNumber sourceId targetId st
      (fun x => x = minTriple.id))
    (hu : graph.isEntry minTriple.vertexId minTriple.id)
    (hcell : graph.getCellNumber minTriple.vertexId = cellNumber)
    (hk0 : labOf st.1.dist st.1.round st.1.currentRound minTriple.id = some minTriple.key)
    (hnq : ¬ QOpen st.2 minTriple.id) (k : Nat)
    (hk : k < graph.getOutDegree minTriple.vertexId) (st' : PathUnpacker × List IDKeyTriple)
    (hst' : st' = lowestRelax graph metric cellNumber targetId minTriple st
      (graph.getForwardEdge ((graph.vertex minTriple.vertexId).firstOut + k), k,
        graph.turnTables.getD ((graph.vertex minTriple.vertexId).turnTablePtr +
          graph.getEntryOrder minTriple.vertexId minTriple.id *
            graph.getOutDegree minTriple.vertexId + k) default)) :
    LowestInv graph metric.costFunction n cellNumber sourceId targetId st'
      (fun x => x = minTriple.id) ∧
    labOf st'.1.dist st'.1.round st'.1.currentRound minTriple.id = some minTriple.key ∧
    ¬ QOpen st'.2 minTriple.id ∧
    LabLe (labOf st.1.dist st.1.round st.1.currentRound)
      (labOf st'.1.dist st'.1.round st'.1.currentRound) ∧
    ((graph.getCellNumber (graph.arcHead minTriple.vertexId k) = cellNumber ∨
        graph.arcId minTriple.vertexId k = targetId) →
      EdgeOk (inf_weight + 1) (labOf st'.1.dist st'.1.round st'.1.currentRound) minTriple.id
        (graph.arcId minTriple.vertexId k)
        (graph.fullCost metric.costFunction minTriple.vertexId minTriple.id k)) := by
  rw [lowestRelax_eq graph metric hb cellNumber targetId minTriple hkey st k] at hst'
  have hy := graph.arc_isEntry hg hu.1 hk
  have hym := graph.isEntry_lt hg hy
  split_ifs at hst' with h1 h2 h3
  · subst hst'
    refine ⟨hinv, hk0, hnq, labLe_refl _, ?_⟩
    intro h
    exfalso
    rcases h with h | h
    · exact h1.1 h
    · exact h1.2 h
  · subst hst'
    exact ⟨hinv, hk0, hnq, labLe_refl _, fun _ => edgeOk_of_ge hk0 (by omega)⟩
  · subst hst'
    exact ⟨hinv, hk0, hnq, labLe_refl _, fun _ =>
      edgeOk_of_le hk0 (labOf_some_iff.2 ⟨h3.1, rfl⟩) h3.2⟩
  · have hd : graph.arcId minTriple.vertexId k < st.1.dist.length := by
      rw [hinv.valid.lenDist]; omega
    have hr : graph.arcId minTriple.vertexId k < st.1.round.length := by
      rw [hinv.valid.lenRound]; omega
    have hp : graph.arcId minTriple.vertexId k < st.1.parent.length := by
      rw [hinv.valid.lenParent]; omega
    have hlt : ∀ d, labOf st.1.dist st.1.round st.1.currentRound
        (graph.arcId minTriple.vertexId k) = some d →
        minTriple.key + graph.fullCost metric.costFunction minTriple.vertexId minTriple.id k
          < d := by
      intro d hd'
      obtain ⟨e1, e2⟩ := labOf_some_iff.1 hd'
      by_contra hcon
      exact h3 ⟨e1, by omega⟩
    have hne : graph.arcId minTriple.vertexId k ≠ minTriple.id := by
      intro e
      have := hlt minTriple.key (by rw [e]; exact hk0)
      omega
    have hedge : graph.LEdge metric.costFunction cellNumber (fun b => b = targetId)
        minTriple.id (graph.arcId minTriple.vertexId k)
        (graph.fullCost metric.costFunction minTriple.vertexId minTriple.id k) := by
      refine ⟨minTriple.vertexId, k, hu, hcell, hk, rfl, rfl, ?_⟩
      by_contra hcon
      exact h1 ⟨fun e => hcon (Or.inl e), fun e => hcon (Or.inr e)⟩
    have hreach := Reach.step (hinv.search.search.sound _ _ hk0) hedge
    obtain ⟨hq, hqo⟩ := qInv_push hinv.search (graph.arcId minTriple.vertexId k)
      (minTriple.key + graph.fullCost metric.costFunction minTriple.vertexId minTriple.id k)
      (⟨graph.arcId minTriple.vertexId k, graph.arcHead minTriple.vertexId k,
        minTriple.key +
          graph.fullCost metric.costFunction minTriple.vertexId minTriple.id k⟩ : IDKeyTriple)
      rfl rfl hd hr hreach hlt
    have hlab : ∀ x, labOf st'.1.dist st'.1.round st'.1.currentRound x =
        if x = graph.arcId minTriple.vertexId k then some (minTriple.key +
          graph.fullCost metric.costFunction minTriple.vertexId minTriple.id k)
        else labOf st.1.dist st.1.round st.1.currentRound x := by
      intro x
      rw [hst']
      exact labOf_set _ _ _ _ _ _ hd hr
    subst hst'
    refine ⟨⟨⟨?_, ?_, ?_, ?_⟩, hq, ?_, ?_, ?_, ?_⟩, ?_, ?_, ?_, ?_⟩
    · simp only [List.length_set]; exact hinv.valid.lenDist
    · simp only [List.length_set]; exact hinv.valid.lenRound
    · simp only [List.length_set]; exact hinv.valid.lenParent
    · intro i
      show (st.1.round.set (graph.arcId minTriple.vertexId k) st.1.currentRound).getD i 0 ≤
        st.1.currentRound
      rw [getD_set_self_or]
      split_ifs
      · exact le_refl _
      · exact hinv.valid.rounds i
    · intro p hp'
      rcases MinIDQueue.mem_pushOrDecrease _ _ _ hp' with h | h
      · subst h
        refine ⟨hy, fun hne' => ?_⟩
        by_contra hcon
        exact h1 ⟨hcon, hne'⟩
      · exact hinv.queue p h
    · exact parOk_set st.1.dist st.1.round st.1.parent st.1.currentRound
        (graph.arcId minTriple.vertexId k) _ ⟨minTriple.vertexId, minTriple.id⟩ hinv.par hd hr
        hp minTriple.key _ hk0 hedge (le_refl _) hlt
    · exact owned_set graph sourceId st.1.dist st.1.round st.1.parent st.1.currentRound
        (graph.arcId minTriple.vertexId k) _ ⟨minTriple.vertexId, minTriple.id⟩ hinv.own hd hr
        hp hu
    · intro d hd'
      rw [hlab] at hd'
      apply (hqo targetId).2
      split_ifs at hd' with e
      · exact Or.inl e
      · exact Or.inr (hinv.tgtOpen d hd')
    · rw [hlab, if_neg (Ne.symm hne)]
      exact hk0
    · intro hq'
      rcases (hqo _).1 hq' with e | e
      · exact hne e.symm
      · exact hnq e
    · have := labLe_update (labOf st.1.dist st.1.round st.1.currentRound)
        (graph.arcId minTriple.vertexId k) (minTriple.key +
          graph.fullCost metric.costFunction minTriple.vertexId minTriple.id k)
        (fun d hd' => le_of_lt (hlt d hd'))
      intro x d hx
      obtain ⟨d', e1, e2⟩ := this x d hx
      exact ⟨d', by rw [hlab]; exact e1, e2⟩
    · intro _
      apply @edgeOk_of_le _ _ _ _ _ _ (minTriple.key +
        graph.fullCost metric.costFunction minTriple.vertexId minTriple.id k)
      · rw [hlab, if_neg (Ne.symm hne)]
        exact hk0
      · rw [hlab, if_pos rfl]
      · exact le_refl _

end PathUnpacker

end CRP

namespace CRP

namespace PathUnpacker

theorem lowestRange_inv (graph : Graph) (hg : graph.Consistent) (metric : Metric)
    (hb : metric.costFunction.Bounded) (n cellNumber sourceId targetId : Nat)
    (hn : graph.numberOfEdges ≤ n) (minTriple : IDKeyTriple)
    (hkey : minTriple.key < inf_weight) (st : PathUnpacker × List IDKeyTriple)
    (hinv : LowestInv graph metric.costFunction n cellNumber sourceId targetId st
      (fun x => x = minTriple.id))
    (hu : graph.isEntry minTriple.vertexId minTriple.id)
    (hcell : graph.getCellNumber minTriple.vertexId = cellNumber)
    (hk0 : labOf st.1.dist st.1.round st.1.currentRound minTriple.id = some minTriple.key)
    (hnq : ¬ QOpen st.2 minTriple.id) (m : Nat)
    (hm : m ≤ graph.getOutDegree minTriple.vertexId) (st' : PathUnpacker × List IDKeyTriple)
    (hst' : st' = (List.range m).foldl (fun acc exitPoint =>
      lowestRelax graph metric cellNumber targetId minTriple acc
        (graph.getForwardEdge ((graph.vertex minTriple.vertexId).firstOut + exitPoint),
          exitPoint,
          graph.turnTables.getD ((graph.vertex minTriple.vertexId).turnTablePtr +
            graph.getEntryOrder minTriple.vertexId minTriple.id *
              graph.getOutDegree minTriple.vertexId + exitPoint) default)) st) :
    LowestInv graph metric.costFunction n cellNumber sourceId targetId st'
      (fun x => x = minTriple.id) ∧
    labOf st'.1.dist st'.1.round st'.1.currentRound minTriple.id = some minTriple.key ∧
    ¬ QOpen st'.2 minTriple.id ∧
    ∀ k, k < m → (graph.getCellNumber (graph.arcHead minTriple.vertexId k) = cellNumber ∨
        graph.arcId minTriple.vertexId k = targetId) →
      EdgeOk (inf_weight + 1) (labOf st'.1.dist st'.1.round st'.1.currentRound) minTriple.id
        (graph.arcId minTriple.vertexId k)
        (graph.fullCost metric.costFunction minTriple.vertexId minTriple.id k) := by
  induction m generalizing st' with
  | zero =>
    simp only [List.range_zero, List.foldl_nil] at hst'
    rw [hst']
    exact ⟨hinv, hk0, hnq, fun k hk => absurd hk (Nat.not_lt_zero k)⟩
  | succ m ih =>
    rw [List.range_succ, List.foldl_append] at hst'
    simp only [List.foldl_cons, List.foldl_nil] at hst'
    obtain ⟨h1, h2, h3, h4⟩ := ih (by omega) _ rfl
    obtain ⟨g1, g2, g3, g4, g5⟩ := lowestRelax_inv graph hg metric hb n cellNumber sourceId
      targetId hn minTriple hkey _ h1 hu hcell h2 h3 m (by omega) st' hst'
    refine ⟨g1, g2, g3, ?_⟩
    intro k hk hc
    by_cases hkm : k = m
    · subst hkm; exact g5 hc
    · exact edgeOk_mono (h4 k (by omega) hc) (g2.trans h2.symm) g4

theorem lowestAll_inv (graph : Graph) (hg : graph.Consistent) (metric : Metric)
    (hb : metric.costFunction.Bounded) (n cellNumber sourceId targetId : Nat)
    (hn : graph.numberOfEdges ≤ n) (minTriple : IDKeyTriple)
    (hkey : minTriple.key < inf_weight) (st : PathUnpacker × List IDKeyTriple)
    (hinv : LowestInv graph metric.costFunction n cellNumber sourceId targetId st
      (fun x => x = minTriple.id))
    (hu : graph.isEntry minTriple.vertexId minTriple.id)
    (hcell : graph.getCellNumber minTriple.vertexId = cellNumber)
    (hk0 : labOf st.1.dist st.1.round st.1.currentRound minTriple.id = some minTriple.key)
    (hnq : ¬ QOpen st.2 minTriple.id) :
    LowestInv graph metric.costFunction n cellNumber sourceId targetId
      ((graph.forOutEdgesOf minTriple.vertexId
          (graph.getEntryOrder minTriple.vertexId minTriple.id)).foldl
        (lowestRelax graph metric cellNumber targetId minTriple) st) (fun _ => False) := by
  unfold Graph.forOutEdgesOf
  rw [List.foldl_map]
  obtain ⟨h1, h2, h3, h4⟩ := lowestRange_inv graph hg metric hb n cellNumber sourceId targetId
    hn minTriple hkey st hinv hu hcell hk0 hnq (graph.getOutDegree minTriple.vertexId)
    (le_refl _) _ rfl
  refine ⟨h1.valid, ?_, h1.queue, h1.par, h1.own, h1.tgtOpen⟩
  apply qInv_close h1.search
  intro x hx _ _
  have hxu : x = minTriple.id := hx
  subst hxu
  intro y c he
  obtain ⟨u', k, e1, _, e3, rfl, rfl, e6⟩ := he
  have : u' = minTriple.vertexId := graph.isEntry_unique hg e1 hu
  subst this
  exact h4 k e3 e6

theorem lowestLoop_succ (graph : Graph) (metric : Metric) (cellNumber targetId fuel : Nat)
    (st : PathUnpacker × List IDKeyTriple) :
    lowestLoop graph metric cellNumber targetId (fuel + 1) st =
      match MinIDQueue.pop st.2 with
      | none => some st.1
      | some (minTriple, q) =>
        if minTriple.id = targetId then some st.1
        else
          lowestLoop graph metric cellNumber targetId fuel
            ((graph.forOutEdgesOf minTriple.vertexId
                (graph.getEntryOrder minTriple.vertexId minTriple.id)).foldl
              (lowestRelax graph metric cellNumber targetId minTriple) (st.1, q)) := rfl

/-- The loop of `unpackPathInLowestLevelCell` ends with a label of the target that is at most
the cost of every walk to it in the cell, and with parent pointers that account for the
labels. -/
theorem lowestLoop_spec (graph : Graph) (hg : graph.Consistent) (metric : Metric)
    (hb : metric.costFunction.Bounded) (n cellNumber sourceId targetId D : Nat)
    (hn : graph.numberOfEdges ≤ n)
    (hreach : Reach (graph.LEdge metric.costFunction cellNumber (fun b => b = targetId))
      sourceId targetId D) (hD : D < inf_weight) :
    ∀ (fuel : Nat) (st : PathUnpacker × List IDKeyTriple) (self' : PathUnpacker),
      LowestInv graph metric.costFunction n cellNumber sourceId targetId st (fun _ => False) →
      lowestLoop graph metric cellNumber targetId fuel st = some self' →
      Valid n self' ∧ self'.currentRound = st.1.currentRound ∧
      (∃ d, labOf self'.dist self'.round self'.currentRound targetId = some d ∧ d ≤ D) ∧
      ParOk (graph.LEdge metric.costFunction cellNumber (fun b => b = targetId)) sourceId
        (labOf self'.dist self'.round self'.currentRound)
        (fun x => (self'.parent.getD x default).id) ∧
      Owned graph sourceId (labOf self'.dist self'.round self'.currentRound) self'.parent := by
  intro fuel
  induction fuel with
  | zero => intro st self' _ h; simp [lowestLoop] at h
  | succ fuel ih =>
    intro st self' hinv h
    rw [lowestLoop_succ] at h
    obtain ⟨p0, hp0, hp0D⟩ := qInv_open_le hinv.search hreach (by omega) hinv.tgtOpen
    cases hpop : MinIDQueue.pop st.2 with
    | none =>
      rw [(MinIDQueue.pop_eq_none _).1 hpop] at hp0
      exact absurd hp0 (List.not_mem_nil _)
    | some r =>
      obtain ⟨minTriple, q⟩ := r
      rw [hpop] at h
      simp only [] at h
      obtain ⟨hq1, hmem, hmin, hlab, hnq, hiff⟩ := qInv_pop _ _ _ hpop hinv.search
      have hkey : minTriple.key ≤ D := le_trans (hmin p0 hp0) hp0D
      by_cases ht : minTriple.id = targetId
      · rw [if_pos ht] at h
        simp only [Option.some.injEq] at h
        subst h
        refine ⟨hinv.valid, rfl, ⟨minTriple.key, ?_, hkey⟩, hinv.par, hinv.own⟩
        rw [← ht]; exact hlab
      · rw [if_neg ht] at h
        have hinv1 : LowestInv graph metric.costFunction n cellNumber sourceId targetId
            (st.1, q) (fun x => x = minTriple.id) := by
          refine ⟨hinv.valid, hq1, fun p hp =>
            hinv.queue p ((MinIDQueue.mem_pop _ _ _ hpop p).1 hp).1, hinv.par, hinv.own, ?_⟩
          intro d hd
          exact (hiff targetId).2 ⟨hinv.tgtOpen d hd, fun e => ht e.symm⟩
        obtain ⟨hu, hcell⟩ := hinv.queue minTriple hmem
        have hall := lowestAll_inv graph hg metric hb n cellNumber sourceId targetId hn
          minTriple (by omega) (st.1, q) hinv1 hu (hcell ht) hlab hnq
        obtain ⟨a1, a2, a3⟩ := ih _ self' hall h
        refine ⟨a1, a2.trans ?_, a3⟩
        have hcur : ∀ (l : List (ForwardEdge × Nat × TURN_TYPE))
            (s0 : PathUnpacker × List IDKeyTriple),
            (l.foldl (lowestRelax graph metric cellNumber targetId minTriple) s0).1.currentRound
              = s0.1.currentRound := by
          intro l
          induction l with
          | nil => intro s0; rfl
          | cons x rest ihl =>
            intro s0
            rw [List.foldl_cons, ihl]
            unfold lowestRelax
            simp only []
            split_ifs <;> rfl
        exact hcur _ _

end PathUnpacker

end CRP

namespace CRP

theorem Graph.head_of_entry (g : Graph) (hg : g.Consistent) {v x : Nat} (h : g.isEntry v x) :
    g.getHeadOfBackwardEdge x = v := by
  obtain ⟨h1, h2, h3⟩ := h
  have hp : x - (g.vertex v).firstIn < g.getInDegree v := by
    unfold Graph.getInDegree; omega
  obtain ⟨_, _, b3⟩ := hg.backward v h1 _ hp
  have hx : (g.vertex v).firstIn + (x - (g.vertex v).firstIn) = x := by omega
  rw [hx] at b3
  unfold Graph.getHeadOfBackwardEdge
  simp only []
  rw [b3]

namespace PathUnpacker

theorem lowestPath_chain (parent : List VertexIdPair) (sourceId : Nat) :
    ∀ (fuel uId : Nat) (path p : List Nat), uId ≠ sourceId →
      lowestPath parent sourceId fuel uId path = some p →
      ∃ l, Chain (fun x => (parent.getD x default).id) sourceId uId l ∧
        p = path ++ (l.dropLast.map fun x => (parent.getD x default).originalVertex) := by
  intro fuel
  induction fuel with
  | zero => intro uId path p _ h; exact absurd h (by simp [lowestPath])
  | succ fuel ih =>
    intro uId path p hu h
    unfold lowestPath at h
    by_cases hq : (parent.getD uId default).id ≠ sourceId
    · rw [if_pos hq] at h
      obtain ⟨l, h1, h2⟩ := ih _ _ _ hq h
      refine ⟨uId :: l, Chain.step hu h1, ?_⟩
      obtain ⟨r, hr⟩ := chain_head h1
      have hl : (uId :: l).dropLast = uId :: l.dropLast := by
        rw [hr]; rfl
      rw [hl, h2]
      simp
    · rw [if_neg hq] at h
      simp only [Option.some.injEq] at h
      have hq' : (parent.getD uId default).id = sourceId := not_not.1 hq
      refine ⟨[uId, sourceId], Chain.step hu (by
        show Chain _ sourceId ((parent.getD uId default).id) [sourceId]
        rw [hq']; exact Chain.base), ?_⟩
      rw [← h]
      rfl

theorem lowest_init (graph : Graph) (cf : CostFunction) (n sourceId targetId v : Nat)
    (hn : graph.numberOfEdges ≤ n) (hm : sourceId < graph.numberOfEdges)
    (self : PathUnpacker) (hv : Valid n self) (hs : graph.isEntry v sourceId)
    (hne : sourceId ≠ targetId) :
    LowestInv graph cf n (graph.getCellNumber v) sourceId targetId
      ({ self with
          currentRound := self.currentRound + 1
          dist := self.dist.set sourceId 0
          round := self.round.set sourceId (self.currentRound + 1) },
        MinIDQueue.push [] ⟨sourceId, v, 0⟩) (fun _ => False) := by
  have hd : sourceId < self.dist.length := by rw [hv.lenDist]; omega
  have hr : sourceId < self.round.length := by rw [hv.lenRound]; omega
  have hfresh : ∀ x d, labOf (self.dist.set sourceId 0)
      (self.round.set sourceId (self.currentRound + 1)) (self.currentRound + 1) x = some d →
      x = sourceId ∧ d = 0 :=
    fun x d h => labOf_fresh _ _ _ _ _ _ _ hd hr hv.rounds h
  have hsrc : labOf (self.dist.set sourceId 0)
      (self.round.set sourceId (self.currentRound + 1)) (self.currentRound + 1) sourceId =
      some 0 := by
    rw [labOf_set _ _ _ _ _ _ hd hr, if_pos rfl]
  refine ⟨⟨?_, ?_, hv.lenParent, ?_⟩, ⟨⟨hsrc, ?_, ?_⟩, ?_, ?_⟩, ?_, ?_, ?_, ?_⟩
  · simp only [List.length_set]; exact hv.lenDist
  · simp only [List.length_set]; exact hv.lenRound
  · intro i
    show (self.round.set sourceId (self.currentRound + 1)).getD i 0 ≤ self.currentRound + 1
    rw [getD_set_self_or]
    split_ifs
    · exact le_refl _
    · exact le_trans (hv.rounds i) (Nat.le_succ _)
  · intro x d hx
    obtain ⟨e1, e2⟩ := hfresh x d hx
    rw [e1, e2]
    exact Reach.start
  · intro x hx
    apply closedAt_of_none
    cases hl : labOf (self.dist.set sourceId 0)
        (self.round.set sourceId (self.currentRound + 1)) (self.currentRound + 1) x with
    | none => rfl
    | some d =>
      exfalso
      apply hx
      left
      exact ⟨⟨sourceId, v, 0⟩, by simp [MinIDQueue.push], (hfresh x d hl).1.symm⟩
  · simp [MinIDQueue.push]
  · intro p hp
    have hp' : p = ⟨sourceId, v, 0⟩ := by simpa [MinIDQueue.push] using hp
    subst hp'
    exact hsrc
  · intro p hp
    have hp' : p = ⟨sourceId, v, 0⟩ := by simpa [MinIDQueue.push] using hp
    subst hp'
    exact ⟨hs, fun _ => rfl⟩
  · intro x d hx hne'
    exact absurd (hfresh x d hx).1 hne'
  · intro x d hx hne'
    exact absurd (hfresh x d hx).1 hne'
  · intro d hd'
    exact absurd (hfresh _ d hd').1 (Ne.symm hne)

/-- The vertices that `unpackPathInLowestLevelCell` appends: those at which a walk from the
source entry point to the target entry point takes its exit points, all of them in the cell
of the source; the cost of the walk is at most the cost of every walk between the two entry
points in the cell that is below `inf_weight`. -/
theorem unpackPathInLowestLevelCell_spec (graph : Graph) (hg : graph.Consistent)
    (metric : Metric) (hb : metric.costFunction.Bounded) (n sourceId targetId v D : Nat)
    (hn : graph.numberOfEdges ≤ n) (fuel : Nat) (self : PathUnpacker) (hv : Valid n self)
    (hround : self.currentRound < 4294967295)
    (hs : graph.isEntry v sourceId) (hne : sourceId ≠ targetId)
    (hreach : Reach (graph.LEdge metric.costFunction (graph.getCellNumber v)
      (fun b => b = targetId)) sourceId targetId D) (hD : D < inf_weight)
    (result : List Nat) (self' : PathUnpacker) (result' : List Nat)
    (h : unpackPathInLowestLevelCell graph metric fuel self sourceId targetId result =
      some (self', result')) :
    Valid n self' ∧ ∃ d vs, graph.Trail (graph.fullCost metric.costFunction) sourceId targetId
        d vs ∧ d ≤ D ∧ result' = result ++ vs ∧
      ∀ u, u ∈ vs → graph.getCellNumber u = graph.getCellNumber v := by
  have hm := graph.isEntry_lt hg hs
  have hinv := lowest_init graph metric.costFunction n sourceId targetId v hn hm self hv hs hne
  unfold unpackPathInLowestLevelCell at h
  simp only [] at h
  rw [graph.head_of_entry hg hs,
    u32_of_lt (show self.currentRound + 1 < 4294967296 by omega)] at h
  cases hloop : lowestLoop graph metric (graph.getCellNumber v) targetId fuel
      ({ self with
          currentRound := self.currentRound + 1
          dist := self.dist.set sourceId 0
          round := self.round.set sourceId (self.currentRound + 1) },
        MinIDQueue.push [] ⟨sourceId, v, 0⟩) with
  | none =>
    rw [hloop] at h
    simp at h
  | some self1 =>
    rw [hloop] at h
    simp only [] at h
    obtain ⟨a1, _, ⟨d, a3, a4⟩, a5, a6⟩ := lowestLoop_spec graph hg metric hb n
      (graph.getCellNumber v) sourceId targetId D hn hreach hD fuel _ self1 hinv hloop
    cases hpath : lowestPath self1.parent sourceId fuel targetId [] with
    | none =>
      rw [hpath] at h
      simp at h
    | some path =>
      rw [hpath] at h
      simp only [Option.some.injEq, Prod.mk.injEq] at h
      obtain ⟨l, hc, hp⟩ := lowestPath_chain _ _ _ _ _ _ (Ne.symm hne) hpath
      obtain ⟨d', hd1, htr, hP⟩ := chain_trail graph hg (graph.fullCost metric.costFunction)
        (graph.LEdge metric.costFunction (graph.getCellNumber v) (fun b => b = targetId))
        (fun u => graph.getCellNumber u = graph.getCellNumber v) _ _ self1.parent
        (fun a b c he => by
          obtain ⟨u, k, h1, h2, h3, h4, h5, _⟩ := he
          exact ⟨u, k, h1, h3, h4, h5, h2⟩) a5 a6 hc d a3
      rw [← h.1]
      refine ⟨a1, d', _, htr, by omega, ?_, ?_⟩
      · rw [← h.2, hp]
        simp
      · intro u hu
        apply hP u
        simpa using hu

end PathUnpacker

end CRP


namespace CRP

/-! ## The states that the loops of the queries pass -/

namespace Dijkstra

theorem edgeQuery_start (graph : Graph) (metric : Metric) (fuel : Nat) (self : Dijkstra)
    (sourceEdgeId targetEdgeId : Nat) :
    edgeQuery graph metric fuel self sourceEdgeId targetEdgeId =
      match loop graph metric (graph.getForwardEdge sourceEdgeId).head
          (graph.getBackwardEdge targetEdgeId).tail fuel (start graph self sourceEdgeId) with
      | none => none
      | some st =>
        if st.shortestPath = 2 * inf_weight then some (⟨[], inf_weight⟩, st.self)
        else
          match pathLoop st.self.parent
              (graph.getEntryOffset (graph.getForwardEdge sourceEdgeId).head +
                (graph.getForwardEdge sourceEdgeId).entryPoint) fuel st.tId
              [(graph.getBackwardEdge targetEdgeId).tail] with
          | none => none
          | some path => some (⟨path.reverse, st.shortestPath⟩, st.self) := rfl

/-- An iteration that does not leave the loop is a step of `loop`. -/
theorem iteration_loop (graph : Graph) (metric : Metric) (s t : Nat) {st st' : Search}
    (h : Iteration graph metric s t st st') (fuel : Nat) :
    loop graph metric s t (fuel + 1) st = loop graph metric s t fuel st' := by
  cases h with
  | @pop triple q hpop hbreak =>
    rw [loop_succ, hpop]
    simp only []
    rw [if_neg hbreak]
    rfl

/-- The result of the loop from a state that the run passes is the result of the loop. -/
theorem reached_loop (graph : Graph) (metric : Metric) (s t : Nat) {st0 st : Search}
    (h : Reached graph metric s t st0 st) :
    ∀ fuel, ∃ n, loop graph metric s t (fuel + n) st0 = loop graph metric s t fuel st := by
  induction h with
  | start => intro fuel; exact ⟨0, rfl⟩
  | @next st st' _ hi ih =>
    intro fuel
    obtain ⟨n, hn⟩ := ih (fuel + 1)
    refine ⟨n + 1, ?_⟩
    have : fuel + (n + 1) = fuel + 1 + n := by omega
    rw [this, hn]
    exact iteration_loop graph metric s t hi fuel

end Dijkstra

namespace CRPQueryUni

theorem crp_edgeQuery_start (graph : Graph) (overlayGraph : OverlayGraph) (metric : Metric)
    (fuel : Nat) (self : CRPQueryUni) (pathUnpacker : PathUnpacker)
    (sourceEdgeId targetEdgeId : Nat) :
    edgeQuery graph overlayGraph metric fuel self pathUnpacker sourceEdgeId targetEdgeId =
      match loop graph overlayGraph metric (graph.getForwardEdge sourceEdgeId).head
          (graph.getBackwardEdge targetEdgeId).tail
          (graph.getCellNumber (graph.getForwardEdge sourceEdgeId).head)
          (graph.getCellNumber (graph.getBackwardEdge targetEdgeId).tail) fuel
          (start graph self sourceEdgeId) with
      | none => none
      | some st =>
        if st.shortestPath = 2 * inf_weight then
          some (⟨[], inf_weight⟩, { st.self with graphPQ := [], overlayGraphPQ := [] },
            pathUnpacker)
        else
          match pathLoop st.self.parent
              (graph.getEntryOffset (graph.getForwardEdge sourceEdgeId).head +
                (graph.getForwardEdge sourceEdgeId).entryPoint) fuel st.tId
              [(graph.getBackwardEdge targetEdgeId).tail]
              [⟨(graph.getBackwardEdge targetEdgeId).tail, st.tId⟩] with
          | none => none
          | some (_, idPath) =>
            match PathUnpacker.unpackPath graph overlayGraph metric fuel pathUnpacker
                idPath.reverse (graph.getCellNumber (graph.getForwardEdge sourceEdgeId).head)
                (graph.getCellNumber (graph.getBackwardEdge targetEdgeId).tail) with
            | none => none
            | some (pathUnpacker, unpackedPath) =>
              some (⟨unpackedPath, st.shortestPath⟩,
                { st.self with graphPQ := [], overlayGraphPQ := [] }, pathUnpacker) := rfl

/-- An iteration that does not leave the loop is a step of `loop`. -/
theorem crp_iteration_loop (graph : Graph) (og : OverlayGraph) (metric : Metric)
    (s t cs ct : Nat) {st st' : Search} (h : Iteration graph og metric s t cs ct st st')
    (fuel : Nat) :
    loop graph og metric s t cs ct (fuel + 1) st = loop graph og metric s t cs ct fuel st' := by
  cases h with
  | @base triple q h1 h2 hpop hbreak =>
    rw [crp_loop_succ, if_neg h1, if_pos h2, hpop]
    simp only []
    rw [if_neg hbreak]
    rfl
  | @overlay pair q h1 h2 hpop hbreak =>
    rw [crp_loop_succ, if_neg h1, if_neg (by rw [h2]; simp), hpop]
    simp only []
    rw [if_neg hbreak]

/-- The result of the loop from a state that the run passes is the result of the loop. -/
theorem crp_reached_loop (graph : Graph) (og : OverlayGraph) (metric : Metric)
    (s t cs ct : Nat) {st0 st : Search} (h : Reached graph og metric s t cs ct st0 st) :
    ∀ fuel, ∃ n, loop graph og metric s t cs ct (fuel + n) st0 =
      loop graph og metric s t cs ct fuel st := by
  induction h with
  | start => intro fuel; exact ⟨0, rfl⟩
  | @next st st' _ hi ih =>
    intro fuel
    obtain ⟨n, hn⟩ := ih (fuel + 1)
    refine ⟨n + 1, ?_⟩
    have : fuel + (n + 1) = fuel + 1 + n := by omega
    rw [this, hn]
    exact crp_iteration_loop graph og metric s t cs ct hi fuel

theorem popped_eq (st : Search) (triple : IDKeyTriple) (q : List IDKeyTriple) (t : Nat) :
    ∃ sp ti, popped st triple q t = (⟨{ st.self with graphPQ := q }, sp, ti⟩ : Search) := by
  unfold popped
  split_ifs
  · exact ⟨_, _, rfl⟩
  · exact ⟨_, _, rfl⟩
  · exact ⟨_, _, rfl⟩

theorem iteration_term (graph : Graph) (hg : graph.Consistent) (og : OverlayGraph)
    (exitFlags : List Bool) (hR : og.Routable graph exitFlags) (metric : Metric)
    (s t cs ct : Nat) {st st' : Search} (hT : Term graph og exitFlags cs ct st)
    (h : Iteration graph og metric s t cs ct st st') : Term graph og exitFlags cs ct st' := by
  cases h with
  | @base triple q h1 h2 hpop hbreak =>
    obtain ⟨sp, ti, hp⟩ := popped_eq st triple q t
    rw [hp]
    have hmem := (MinIDQueue.pop_spec _ _ _ hpop).1
    obtain ⟨hu, hu0⟩ := hT.graphQ triple hmem
    obtain ⟨hT1, _⟩ := popGraph_term graph og exitFlags cs ct st hT triple q hpop sp ti
    exact (relaxGraphAll_step graph hg og exitFlags hR metric s t cs ct triple.vertexId
      triple.id _ hu.1 hu0 _ hT1).1
  | @overlay pair q h1 h2 hpop hbreak =>
    have hmem := (MinIDQueue.pop_spec _ _ _ hpop).1
    have hq := hT.overlayQ pair hmem
    obtain ⟨hT1, _⟩ := popOverlay_term graph og exitFlags cs ct st hT pair q hpop
    exact (relaxOverlayAll_step graph hg og exitFlags hR metric cs ct pair.id _ hq _ hT1).1

theorem start_term (graph : Graph) (hg : graph.Consistent) (og : OverlayGraph)
    (exitFlags : List Bool) (self : CRPQueryUni) (hv : Valid graph og self)
    (sourceEdgeId : Nat) (hs : sourceEdgeId < graph.numberOfEdges) (ct : Nat) :
    Term graph og exitFlags (graph.getCellNumber (graph.getForwardEdge sourceEdgeId).head) ct
      (start graph self sourceEdgeId) := by
  have hsE := graph.source_isEntry hg sourceEdgeId hs
  refine ⟨?_, ?_, ?_, ?_⟩
  · show (self.dist.set _ _).length = _
    rw [List.length_set]; exact hv.lenDist
  · show (self.round.set _ _).length = _
    rw [List.length_set]; exact hv.lenRound
  · intro p hp
    have hp' : p = ⟨graph.getEntryOffset (graph.getForwardEdge sourceEdgeId).head +
        (graph.getForwardEdge sourceEdgeId).entryPoint,
        (graph.getForwardEdge sourceEdgeId).head, 0⟩ := by
      simpa [start, MinIDQueue.push] using hp
    subst hp'
    refine ⟨hsE, ?_⟩
    show min (og.levelInfo.getHighestDifferingLevel _ _)
      (og.levelInfo.getHighestDifferingLevel _ _) = 0
    rw [hdl_self]
    exact Nat.zero_min _
  · intro p hp
    exact absurd hp (List.not_mem_nil _)

/-- Every state that the run of `edgeQuery` passes keeps the invariant of the queues. -/
theorem reached_term (graph : Graph) (hg : graph.Consistent) (og : OverlayGraph)
    (exitFlags : List Bool) (hR : og.Routable graph exitFlags) (metric : Metric)
    (s t cs ct : Nat) {st0 st : Search} (hT : Term graph og exitFlags cs ct st0)
    (h : Reached graph og metric s t cs ct st0 st) : Term graph og exitFlags cs ct st := by
  induction h with
  | start => exact hT
  | @next st st' _ hi ih =>
    exact iteration_term graph hg og exitFlags hR metric s t cs ct ih hi

end CRPQueryUni

/-- On the overlay graph that `buildCells` makes, a vertex has a cell on every level that its
`entryExitPoint` reaches: the level is a level of the overlay graph, and `getCell` finds the
cell of the vertex in the map of that level. -/
theorem buildCells_cell_exists (g : Graph) (li : LevelInfo) (L : Nat) (x l : Nat)
    (hx : x < (OverlayGraph.buildCells li L
      (OverlayGraph.buildOverlayVertices g li L)).numberOfVertices)
    (hl1 : 1 ≤ l)
    (hl2 : l ≤ ((OverlayGraph.buildCells li L
      (OverlayGraph.buildOverlayVertices g li L)).getVertex x).entryExitPoint.length) :
    l ≤ L ∧
    (OverlayGraph.buildCells li L (OverlayGraph.buildOverlayVertices g li L)).cellMapping.length
      = L ∧
    ∃ C, cellFind
      ((OverlayGraph.buildCells li L (OverlayGraph.buildOverlayVertices g li L)).levelInfo.truncateToLevel
        ((OverlayGraph.buildCells li L (OverlayGraph.buildOverlayVertices g li L)).getVertex
          x).cellNumber l)
      ((OverlayGraph.buildCells li L
        (OverlayGraph.buildOverlayVertices g li L)).cellMapping.getD (l - 1) []) = some C := by
  have wf := buildOverlayVertices_wf g li L
  have hn := (buildCells_fields li L (OverlayGraph.buildOverlayVertices g li L) 0).1
  have hlL : l ≤ L := by
    obtain ⟨t, xe, xn, _, _, hL, hpair, hor⟩ := twinPair_cases g li L x (by rw [← hn]; exact hx)
    obtain ⟨_, _, _, _, _, _, h7, h8⟩ := twinPair_overlay g li L t xe xn hpair
    rcases hor with h | h
    · rw [h, h7] at hl2; omega
    · rw [h, h8] at hl2; omega
  have hxl := (level_iff li L _ wf l hl1 hlL x hx).1 hl2
  have hinv := buildCellsState_inv li L (OverlayGraph.buildOverlayVertices g li L)
  obtain ⟨C, hC, _, _⟩ := cell_of_vertex li _ L (OverlayGraph.levelsDown L) _ hinv (l - 1)
    ((mem_levelsDown L (l - 1)).2 (by omega)) x hxl
  have hkey := key_eq li L (OverlayGraph.buildOverlayVertices g li L) l hl1 x
  refine ⟨hlL, hinv.lenMap, C, ?_⟩
  rw [hkey]
  exact hC

/-- The offsets of the partition of OverlayGraphTest.cpp do not decrease. -/
theorem testPartition_mono : testPartition.getPVOffsets.Pairwise (fun a b => a ≤ b) := by
  decide

theorem testPartition_levels :
    testPartition.getPVOffsets.length = testPartition.getNumberOfLevels + 1 := by decide

set_option maxRecDepth 100000 in
theorem testOverlay_size :
    (OverlayGraph.build testSortedGraph testPartition).2.2.overlayVertices.length =
      (OverlayGraph.build testSortedGraph testPartition).1.numberOfVertices := by decide!

end CRP


namespace CRP

/-! ## The bound `inf_weight` on the entries of `dist` -/

theorem distBound_set (dist : List Nat) (k v : Nat) (h : DistBound dist) (hv : v ≤ inf_weight) :
    DistBound (dist.set k v) := by
  intro i
  rw [getD_set_self_or]
  split_ifs
  · exact hv
  · exact h i

theorem distBound_replicate (n : Nat) : DistBound (List.replicate n inf_weight) := by
  intro i
  by_cases h : i < n
  · rw [List.getD_eq_getElem _ _ (by simpa using h)]
    simp
  · rw [List.getD_eq_default _ _ (by simpa using h)]
    exact Nat.zero_le _

namespace Dijkstra

theorem relax_distBound (graph : Graph) (metric : Metric) (s t u uId : Nat) (st : Search)
    (x : ForwardEdge × Nat × TURN_TYPE) (h : DistBound st.self.dist) :
    DistBound (relax graph metric s t u uId st x).self.dist := by
  unfold relax
  simp only []
  split_ifs <;>
    first
    | exact h
    | exact distBound_set _ _ _ h (by omega)

theorem relaxAll_distBound (graph : Graph) (metric : Metric) (s t u uId : Nat)
    (l : List (ForwardEdge × Nat × TURN_TYPE)) (st : Search) (h : DistBound st.self.dist) :
    DistBound (l.foldl (relax graph metric s t u uId) st).self.dist :=
  foldl_preserves (fun st => DistBound st.self.dist) _ l st h
    (fun b a _ hb => relax_distBound graph metric s t u uId b a hb)

theorem popped_dist (st : Search) (triple : IDKeyTriple) (q : List IDKeyTriple) (t : Nat) :
    (popped st triple q t).self.dist = st.self.dist := by
  unfold popped
  split_ifs <;> rfl

theorem start_distBound (graph : Graph) (self : Dijkstra) (sourceEdgeId : Nat)
    (h : DistBound self.dist) : DistBound (start graph self sourceEdgeId).self.dist :=
  distBound_set _ _ _ h (Nat.zero_le _)

/-- The entries of `dist` stay at most `inf_weight` in every state that the run passes. -/
theorem reached_distBound (graph : Graph) (metric : Metric) (s t : Nat) {st0 st : Search}
    (h0 : DistBound st0.self.dist) (h : Reached graph metric s t st0 st) :
    DistBound st.self.dist := by
  induction h with
  | start => exact h0
  | @next st st' _ hi ih =>
    cases hi with
    | @pop triple q hpop hbreak =>
      apply relaxAll_distBound
      rw [popped_dist]
      exact ih

theorem loop_distBound (graph : Graph) (metric : Metric) (s t : Nat) :
    ∀ (fuel : Nat) (st st' : Search), DistBound st.self.dist →
      loop graph metric s t fuel st = some st' → DistBound st'.self.dist := by
  intro fuel
  induction fuel with
  | zero => intro st st' _ h; simp [loop] at h
  | succ fuel ih =>
    intro st st' hd h
    rw [loop_succ] at h
    split at h
    · cases h; exact hd
    · rename_i triple q hpop
      simp only [] at h
      split_ifs at h <;>
        first
        | (cases h; exact hd)
        | (refine ih _ _ ?_ h; apply relaxAll_distBound; exact hd)

end Dijkstra

namespace CRPQueryUni

theorem relaxGraph_distBound (graph : Graph) (og : OverlayGraph) (metric : Metric)
    (s t cs ct u uId : Nat) (st : Search) (x : ForwardEdge × Nat × TURN_TYPE)
    (h : DistBound st.self.dist) :
    DistBound (relaxGraph graph og metric s t cs ct u uId st x).self.dist := by
  unfold relaxGraph
  simp only []
  split_ifs <;>
    first
    | exact h
    | exact distBound_set _ _ _ h (by omega)

theorem relaxOverlay_distBound (graph : Graph) (og : OverlayGraph) (metric : Metric)
    (cs ct u uId : Nat) (st : Search) (x : Nat × Nat) (h : DistBound st.self.dist) :
    DistBound (relaxOverlay graph og metric cs ct u uId st x).self.dist := by
  unfold relaxOverlay
  simp only []
  split_ifs <;>
    first
    | exact h
    | exact distBound_set _ _ _ h (by omega)
    | exact distBound_set _ _ _ (distBound_set _ _ _ h (by omega)) (by omega)

theorem relaxGraphAll_distBound (graph : Graph) (og : OverlayGraph) (metric : Metric)
    (s t cs ct u uId : Nat) (l : List (ForwardEdge × Nat × TURN_TYPE)) (st : Search)
    (h : DistBound st.self.dist) :
    DistBound (l.foldl (relaxGraph graph og metric s t cs ct u uId) st).self.dist :=
  foldl_preserves (fun st => DistBound st.self.dist) _ l st h
    (fun b a _ hb => relaxGraph_distBound graph og metric s t cs ct u uId b a hb)

theorem relaxOverlayAll_distBound (graph : Graph) (og : OverlayGraph) (metric : Metric)
    (cs ct u uId : Nat) (l : List (Nat × Nat)) (st : Search) (h : DistBound st.self.dist) :
    DistBound (l.foldl (relaxOverlay graph og metric cs ct u uId) st).self.dist :=
  foldl_preserves (fun st => DistBound st.self.dist) _ l st h
    (fun b a _ hb => relaxOverlay_distBound graph og metric cs ct u uId b a hb)

theorem crp_popped_dist (st : Search) (triple : IDKeyTriple) (q : List IDKeyTriple) (t : Nat) :
    (popped st triple q t).self.dist = st.self.dist := by
  unfold popped
  split_ifs <;> rfl

theorem crp_start_distBound (graph : Graph) (self : CRPQueryUni) (sourceEdgeId : Nat)
    (h : DistBound self.dist) : DistBound (start graph self sourceEdgeId).self.dist :=
  distBound_set _ _ _ h (Nat.zero_le _)

/-- The entries of `dist` stay at most `inf_weight` in every state that the run passes. -/
theorem crp_reached_distBound (graph : Graph) (og : OverlayGraph) (metric : Metric)
    (s t cs ct : Nat) {st0 st : Search} (h0 : DistBound st0.self.dist)
    (h : Reached graph og metric s t cs ct st0 st) : DistBound st.self.dist := by
  induction h with
  | start => exact h0
  | @next st st' _ hi ih =>
    cases hi with
    | @base triple q h1 h2 hpop hbreak =>
      apply relaxGraphAll_distBound
      rw [crp_popped_dist]
      exact ih
    | @overlay pair q h1 h2 hpop hbreak =>
      apply relaxOverlayAll_distBound
      exact ih

theorem crp_loop_distBound (graph : Graph) (og : OverlayGraph) (metric : Metric)
    (s t cs ct : Nat) :
    ∀ (fuel : Nat) (st st' : Search), DistBound st.self.dist →
      loop graph og metric s t cs ct fuel st = some st' → DistBound st'.self.dist := by
  intro fuel
  induction fuel with
  | zero => intro st st' _ h; simp [loop] at h
  | succ fuel ih =>
    intro st st' hd h
    rw [crp_loop_succ] at h
    split_ifs at h with h1 h2
    · cases h; exact hd
    · split at h
      · cases h; exact hd
      · rename_i triple q hpop
        split_ifs at h <;>
          first
          | (cases h; exact hd)
          | (refine ih _ _ ?_ h; apply relaxGraphAll_distBound; exact hd)
    · split at h
      · cases h; exact hd
      · rename_i pair q hpop
        split_ifs at h with hb
        · cases h; exact hd
        · refine ih _ _ ?_ h
          apply relaxOverlayAll_distBound
          exact hd

end CRPQueryUni

/-- The object that `Dijkstra::edgeQuery` leaves keeps the bound on the entries of `dist`. -/
theorem Dijkstra.edgeQuery_distBound (graph : Graph) (metric : Metric) (fuel : Nat)
    (self : Dijkstra) (sourceEdgeId targetEdgeId : Nat) (h : DistBound self.dist)
    (r : QueryResult) (self' : Dijkstra)
    (he : Dijkstra.edgeQuery graph metric fuel self sourceEdgeId targetEdgeId =
      some (r, self')) : DistBound self'.dist := by
  rw [Dijkstra.edgeQuery_start] at he
  split at he
  · exact absurd he (by simp)
  · rename_i st hloop
    have hst := Dijkstra.loop_distBound graph metric _ _ fuel _ st
      (Dijkstra.start_distBound graph self sourceEdgeId h) hloop
    split_ifs at he
    · cases he; exact hst
    · split at he
      · exact absurd he (by simp)
      · cases he; exact hst

/-- The object that `CRPQueryUni::edgeQuery` leaves keeps the bound on the entries of
`dist`. -/
theorem CRPQueryUni.crp_edgeQuery_distBound (graph : Graph) (og : OverlayGraph)
    (metric : Metric) (fuel : Nat) (self : CRPQueryUni) (pathUnpacker : PathUnpacker)
    (sourceEdgeId targetEdgeId : Nat) (h : DistBound self.dist)
    (r : QueryResult) (self' : CRPQueryUni) (pathUnpacker' : PathUnpacker)
    (he : CRPQueryUni.edgeQuery graph og metric fuel self pathUnpacker sourceEdgeId
      targetEdgeId = some (r, self', pathUnpacker')) : DistBound self'.dist := by
  rw [CRPQueryUni.crp_edgeQuery_start] at he
  split at he
  · exact absurd he (by simp)
  · rename_i st hloop
    have hst := CRPQueryUni.crp_loop_distBound graph og metric _ _ _ _ fuel _ st
      (CRPQueryUni.crp_start_distBound graph self sourceEdgeId h) hloop
    split_ifs at he
    · cases he; exact hst
    · split at he
      · exact absurd he (by simp)
      · split at he
        · exact absurd he (by simp)
        · cases he; exact hst

end CRP


namespace CRP

/-! ## The customization keeps the weights at most `inf_weight` -/

theorem optionFold_preserves {α β : Type} (P : β → Prop) (f : β → α → Option β) (l : List α) :
    ∀ (o : Option β), (∀ b, o = some b → P b) → (∀ b a b', a ∈ l → P b → f b a = some b' → P b') →
      ∀ b', l.foldl (fun (st : Option β) a => st.bind fun st => f st a) o = some b' → P b' := by
  induction l with
  | nil => intro o h _ b' hb; exact h b' hb
  | cons x rest ih =>
    intro o h hs b' hb
    rw [List.foldl_cons] at hb
    refine ih _ ?_ (fun b a b'' ha => hs b a b'' (List.mem_cons_of_mem _ ha)) b' hb
    intro b1 hb1
    cases o with
    | none => simp at hb1
    | some b0 => exact hs b0 x b1 (List.mem_cons_self _ _) (h b0 rfl) hb1

namespace OverlayWeights

theorem lowestRelax_bound (graph : Graph) (cf : CostFunction) (cellNumber fco : Nat)
    (minTriple : IDKeyTriple) (st : Lowest) (x : ForwardEdge × Nat × TURN_TYPE)
    (h : LowestBound st) : LowestBound (lowestRelax graph cf cellNumber fco minTriple st x) := by
  unfold lowestRelax
  simp only []
  split_ifs with h1 h2 h3 h4
  · exact h
  · exact h
  · exact h
  · exact ⟨distBound_set _ _ _ h.1 (le_of_lt (lt_of_lt_of_le h4 (h.1 _))), h.2⟩
  · exact h

theorem lowestLoop_bound (graph : Graph) (cf : CostFunction) (cellNumber fco : Nat) :
    ∀ (fuel : Nat) (st st' : Lowest), LowestBound st →
      lowestLoop graph cf cellNumber fco fuel st = some st' → LowestBound st' := by
  intro fuel
  induction fuel with
  | zero => intro st st' _ h; simp [lowestLoop] at h
  | succ fuel ih =>
    intro st st' hb h
    unfold lowestLoop at h
    split at h
    · cases h; exact hb
    · refine ih _ _ ?_ h
      exact foldl_preserves LowestBound _ _ _ hb
        (fun b a _ hb' => lowestRelax_bound graph cf cellNumber fco _ b a hb')

theorem lowestStore_bound (og : OverlayGraph) (cell : Cell) (i : Nat) (st : Lowest) (j : Nat)
    (h : LowestBound st) : LowestBound (lowestStore og cell i st j) :=
  ⟨distBound_set _ _ _ h.1 (le_refl _), distBound_set _ _ _ h.2 (h.1 _)⟩

theorem lowestEntry_bound (graph : Graph) (og : OverlayGraph) (cf : CostFunction) (fuel : Nat)
    (cell : Cell) (cellNumber : Nat) (st st' : Lowest) (i : Nat) (h : LowestBound st)
    (he : lowestEntry graph og cf fuel cell cellNumber st i = some st') : LowestBound st' := by
  unfold lowestEntry at he
  simp only [] at he
  split at he
  · exact absurd he (by simp)
  · rename_i st1 hloop
    cases he
    refine foldl_preserves LowestBound _ _ _ ?_
      (fun b a _ hb' => lowestStore_bound og cell i b a hb')
    refine lowestLoop_bound graph cf cellNumber _ fuel _ st1 ?_ hloop
    exact ⟨h.1, h.2⟩

/-- The weights that `buildLowestLevel` returns are at most `inf_weight` when those that it
starts with are. -/
theorem buildLowestLevel_bound (graph : Graph) (og : OverlayGraph) (cf : CostFunction)
    (fuel : Nat) (weights weights' : List Nat) (h : DistBound weights)
    (he : buildLowestLevel graph og cf fuel weights = some weights') : DistBound weights' := by
  unfold buildLowestLevel at he
  simp only [Option.map_eq_some'] at he
  obtain ⟨st, hst, rfl⟩ := he
  have key : ∀ (cells : List (Nat × Cell)) (o : Option Lowest),
      (∀ b, o = some b → LowestBound b) →
      ∀ b', cells.foldl
        (fun (st : Option Lowest) (p : Nat × Cell) =>
          (List.range p.2.numEntryPoints).foldl
            (fun (st : Option Lowest) i =>
              st.bind fun st => lowestEntry graph og cf fuel p.2 p.1 st i) st) o = some b' →
        LowestBound b' := by
    intro cells
    induction cells with
    | nil => intro o h _ hb; exact h _ hb
    | cons p rest ih =>
      intro o ho b' hb
      rw [List.foldl_cons] at hb
      refine ih _ ?_ b' hb
      intro b1 hb1
      exact optionFold_preserves LowestBound
        (fun st i => lowestEntry graph og cf fuel p.2 p.1 st i) _ o ho
        (fun b a b'' _ hb0 hf => lowestEntry_bound graph og cf fuel p.2 p.1 b b'' a hb0 hf)
        b1 hb1
  exact (key _ _ (by
    intro b hb
    cases hb
    exact ⟨distBound_replicate _, h⟩) st hst).2

theorem levelRelax_bound (graph : Graph) (og : OverlayGraph) (exitFlags : List Bool)
    (hR : og.Routable graph exitFlags) (cf : CostFunction) (l k : Nat) (hl : 2 ≤ l)
    (minPair : IDKeyPair) (hq : minPair.id < og.numberOfVertices ∧
      exitFlags.getD minPair.id false = false ∧
      l - 1 ≤ (og.getVertex minPair.id).entryExitPoint.length)
    (st : Upper) (x : Nat × Nat) (hx : x ∈ og.forOutNeighborsOf minPair.id (l - 1))
    (h : UpperBound og exitFlags l st) :
    UpperBound og exitFlags l (levelRelax graph og cf l k minPair st x) := by
  obtain ⟨e1, e2, e3, _⟩ := hR.out minPair.id (l - 1) hq.1 hq.2.1 (by omega) hq.2.2 x hx
  obtain ⟨t1, t2, t3, t4, _⟩ := hR.twin x.1 e1 e2
  have hset1 : ∀ (d : List Nat) (v : Nat), v ≤ inf_weight →
      (∀ y, exitFlags.getD y false = true → d.getD y 0 ≤ inf_weight) →
      ∀ y, exitFlags.getD y false = true → (d.set x.1 v).getD y 0 ≤ inf_weight := by
    intro d v hv hd y hy
    rw [getD_set_self_or]
    split_ifs
    · exact hv
    · exact hd y hy
  have hset2 : ∀ (d : List Nat) (v : Nat),
      (∀ y, exitFlags.getD y false = true → d.getD y 0 ≤ inf_weight) →
      ∀ y, exitFlags.getD y false = true →
        (d.set (og.getVertex x.1).neighborOverlayVertex v).getD y 0 ≤ inf_weight := by
    intro d v hd y hy
    rw [getD_set_self_or]
    split_ifs with hc
    · rw [← hc.1, t2] at hy
      exact absurd hy (by simp)
    · exact hd y hy
  have hnq : (og.getVertex x.1).neighborOverlayVertex < og.numberOfVertices ∧
      exitFlags.getD (og.getVertex x.1).neighborOverlayVertex false = false ∧
      l - 1 ≤ (og.getVertex (og.getVertex x.1).neighborOverlayVertex).entryExitPoint.length :=
    ⟨t1, t2, by rw [t4, ← t3]; exact e3⟩
  unfold levelRelax
  simp only []
  split_ifs with h1 h2 h3 h4
  · exact h
  · exact h
  · exact ⟨hset1 _ _ (by omega) h.dist, h.weights, h.queue⟩
  · refine ⟨hset2 _ _ (hset1 _ _ (by omega) h.dist), h.weights, ?_⟩
    intro p hp
    have hc := (MinIDQueue.contains_id_iff st.queue _).1 h4
    rcases (MinIDQueue.mem_decrease_key st.queue _ p (by
      obtain ⟨b, hb, hbi⟩ := hc
      exact ⟨b, hb, hbi⟩)).1 hp with rfl | ⟨hp', _⟩
    · exact hnq
    · exact h.queue p hp'
  · refine ⟨hset2 _ _ (hset1 _ _ (by omega) h.dist), h.weights, ?_⟩
    intro p hp
    rcases List.mem_append.1 hp with hp' | hp'
    · exact h.queue p hp'
    · rw [List.mem_singleton.1 hp']
      exact hnq

theorem levelLoop_bound (graph : Graph) (og : OverlayGraph) (exitFlags : List Bool)
    (hR : og.Routable graph exitFlags) (cf : CostFunction) (l k : Nat) (hl : 2 ≤ l) :
    ∀ (fuel : Nat) (st st' : Upper), UpperBound og exitFlags l st →
      levelLoop graph og cf l k fuel st = some st' → UpperBound og exitFlags l st' := by
  intro fuel
  induction fuel with
  | zero => intro st st' _ h; simp [levelLoop] at h
  | succ fuel ih =>
    intro st st' hb h
    unfold levelLoop at h
    split at h
    · cases h; exact hb
    · rename_i minPair q hpop
      refine ih _ _ ?_ h
      have hmem := (MinIDQueue.pop_spec _ _ _ hpop).1
      have hq := hb.queue minPair hmem
      refine foldl_preserves (UpperBound og exitFlags l) _ _ _ ?_
        (fun b a ha hb' => levelRelax_bound graph og exitFlags hR cf l k hl minPair hq b a ha hb')
      refine ⟨hb.dist, hb.weights, ?_⟩
      intro p hp
      exact hb.queue p ((MinIDQueue.mem_pop _ _ _ hpop p).1 hp).1

theorem levelStore_bound (og : OverlayGraph) (exitFlags : List Bool) (l : Nat) (cell : Cell)
    (i : Nat) (st : Upper) (j : Nat) (hj : exitFlags.getD (og.getExitPoint cell j) false = true)
    (h : UpperBound og exitFlags l st) :
    UpperBound og exitFlags l (levelStore og cell i st j) := by
  refine ⟨h.dist, ?_, h.queue⟩
  apply distBound_set _ _ _ h.weights
  split_ifs
  · exact h.dist _ hj
  · exact le_refl _

theorem levelEntry_bound (graph : Graph) (og : OverlayGraph) (exitFlags : List Bool)
    (hR : og.Routable graph exitFlags) (hC : og.CellsOk exitFlags) (cf : CostFunction)
    (fuel l : Nat) (hl : 2 ≤ l) (k : Nat) (cell : Cell) (hcell : (k, cell) ∈ og.forCells l)
    (st st' : Upper) (i : Nat) (hi : i < cell.numEntryPoints)
    (h : UpperBound og exitFlags l st)
    (he : levelEntry graph og cf fuel l cell k st i = some st') :
    UpperBound og exitFlags l st' := by
  obtain ⟨c1, c2, c3⟩ := hC.entry l k cell (by omega) hcell i hi
  unfold levelEntry at he
  simp only [] at he
  split at he
  · exact absurd he (by simp)
  · rename_i st1 hloop
    cases he
    refine foldl_preserves (UpperBound og exitFlags l) _ _ _ ?_ ?_
    · refine levelLoop_bound graph og exitFlags hR cf l k hl fuel _ st1 ?_ hloop
      refine ⟨?_, h.weights, ?_⟩
      · intro y hy
        show (st.dist.set (og.getEntryPoint cell i) 0).getD y 0 ≤ inf_weight
        rw [getD_set_self_or]
        split_ifs
        · exact Nat.zero_le _
        · exact h.dist y hy
      · intro p hp
        rcases List.mem_append.1 hp with hp' | hp'
        · exact h.queue p hp'
        · rw [List.mem_singleton.1 hp']
          exact ⟨c1, c2, Nat.le_trans (Nat.sub_le l 1) c3⟩
    · intro b j hj hb'
      exact levelStore_bound og exitFlags l cell i b j
        (hC.exit l k cell (by omega) hcell j (List.mem_range.1 hj)) hb'

/-- The weights that `buildLevel` returns are at most `inf_weight` when those that it starts
with are. -/
theorem buildLevel_bound (graph : Graph) (og : OverlayGraph) (exitFlags : List Bool)
    (hR : og.Routable graph exitFlags) (hC : og.CellsOk exitFlags) (cf : CostFunction)
    (fuel : Nat) (weights weights' : List Nat) (l : Nat) (hl : 2 ≤ l) (h : DistBound weights)
    (he : buildLevel graph og cf fuel weights l = some weights') : DistBound weights' := by
  unfold buildLevel at he
  simp only [Option.map_eq_some'] at he
  obtain ⟨st, hst, rfl⟩ := he
  have key : ∀ (cells : List (Nat × Cell)), (∀ p, p ∈ cells → p ∈ og.forCells l) →
      ∀ (o : Option Upper), (∀ b, o = some b → UpperBound og exitFlags l b) →
      ∀ b', cells.foldl
        (fun (st : Option Upper) (p : Nat × Cell) =>
          (List.range p.2.numEntryPoints).foldl
            (fun (st : Option Upper) i =>
              st.bind fun st => levelEntry graph og cf fuel l p.2 p.1 st i) st) o = some b' →
        UpperBound og exitFlags l b' := by
    intro cells
    induction cells with
    | nil => intro _ o h _ hb; exact h _ hb
    | cons p rest ih =>
      intro hsub o ho b' hb
      rw [List.foldl_cons] at hb
      refine ih (fun p' hp' => hsub p' (List.mem_cons_of_mem _ hp')) _ ?_ b' hb
      intro b1 hb1
      exact optionFold_preserves (UpperBound og exitFlags l)
        (fun st i => levelEntry graph og cf fuel l p.2 p.1 st i) _ o ho
        (fun b a b'' ha hb0 hf => levelEntry_bound graph og exitFlags hR hC cf fuel l hl p.1 p.2
          (hsub p (List.mem_cons_self _ _)) b b'' a (List.mem_range.1 ha) hb0 hf)
        b1 hb1
  exact (key _ (fun p hp => hp) _ (by
    intro b hb
    cases hb
    refine ⟨?_, h, ?_⟩
    · intro y _
      exact distBound_replicate _ y
    · intro p hp
      exact absurd hp (List.not_mem_nil _)) st hst).weights

/-- The weights that `OverlayWeights::build` computes are at most `inf_weight`. -/
theorem build_bound (graph : Graph) (og : OverlayGraph) (exitFlags : List Bool)
    (hR : og.Routable graph exitFlags) (hC : og.CellsOk exitFlags) (cf : CostFunction)
    (fuel : Nat) (weights : List Nat)
    (he : build graph og cf fuel = some weights) : DistBound weights := by
  unfold build at he
  have key : ∀ (ls : List Nat), (∀ l, l ∈ ls → 2 ≤ l) → ∀ (o : Option (List Nat)),
      (∀ b, o = some b → DistBound b) →
      ∀ b', ls.foldl (fun (weights : Option (List Nat)) l =>
        weights.bind fun weights => buildLevel graph og cf fuel weights l) o = some b' →
      DistBound b' := by
    intro ls hls o ho b' hb
    exact optionFold_preserves DistBound (fun w l => buildLevel graph og cf fuel w l) ls o ho
      (fun b a b'' ha hb0 hf => buildLevel_bound graph og exitFlags hR hC cf fuel b b'' a
        (hls a ha) hb0 hf) b' hb
  refine key _ ?_ _ ?_ weights he
  · intro l hl
    exact (List.mem_range'_1.1 hl).1
  · intro b hb
    exact buildLowestLevel_bound graph og cf fuel _ b (distBound_replicate _) hb

end OverlayWeights

/-- The cells of the overlay graph of the constructor `OverlayGraph(graph, mlp)` are as the
customization needs them. -/
theorem build_cellsOk (graph : Graph) (mlp : MultiLevelPartition) :
    (OverlayGraph.build graph mlp).1.CellsOk (OverlayGraph.build graph mlp).2.1 := by
  have wf := buildOverlayVertices_wf graph ⟨mlp.getPVOffsets⟩ mlp.getNumberOfLevels
  have hinv := buildCellsState_inv ⟨mlp.getPVOffsets⟩ mlp.getNumberOfLevels
    (OverlayGraph.buildOverlayVertices graph ⟨mlp.getPVOffsets⟩ mlp.getNumberOfLevels)
  have hlen : (OverlayGraph.build graph mlp).1.cellMapping.length = mlp.getNumberOfLevels :=
    hinv.lenMap
  have hL : ∀ l k C, 1 ≤ l → (k, C) ∈ (OverlayGraph.build graph mlp).1.forCells l →
      l ≤ mlp.getNumberOfLevels := by
    intro l k C hl hm
    by_contra hc
    have : (OverlayGraph.build graph mlp).1.forCells l = [] := by
      unfold OverlayGraph.forCells
      rw [List.getD_eq_default _ _ (by rw [hlen]; omega)]
    rw [this] at hm
    exact absurd hm (List.not_mem_nil _)
  refine ⟨?_, ?_⟩
  · intro l k C hl hm i hi
    obtain ⟨a1, a2, a3, _⟩ := (entry_points ⟨mlp.getPVOffsets⟩ mlp.getNumberOfLevels _ wf l
      (by omega) (hL l k C hl hm) k C hm).1 i hi
    exact ⟨a1, a2, a3⟩
  · intro l k C hl hm j hj
    exact ((exit_points ⟨mlp.getPVOffsets⟩ mlp.getNumberOfLevels _ wf l
      (by omega) (hL l k C hl hm) k C hm).1 j hj).2.1

end CRP


namespace CRP

/-! ## The local ids of ParallelCRPQuery -/

theorem buildCellNumbersStep_nodup (mlp : MultiLevelPartition) (st : List Nat × List Vertex)
    (u : Nat) (h : st.1.Nodup) : (buildCellNumbersStep mlp st u).1.Nodup := by
  unfold buildCellNumbersStep
  simp only []
  split_ifs with hc
  · exact h
  · show (st.1 ++ [mlp.getCellNumber u]).Nodup
    rw [List.nodup_append]
    refine ⟨h, List.nodup_singleton _, ?_⟩
    intro a ha hb
    rw [List.mem_singleton.1 hb] at ha
    exact hc (List.indexOf_lt_length.2 ha)

/-- The cell numbers that `buildCellNumbers` collects are pairwise different. -/
theorem buildCellNumbers_nodup (g : Graph) (mlp : MultiLevelPartition) :
    (buildCellNumbers g mlp).cellNumbers.Nodup := by
  show ((List.range g.numberOfVertices).foldl (buildCellNumbersStep mlp) ([], g.vertices)).1.Nodup
  exact foldl_preserves (fun st : List Nat × List Vertex => st.1.Nodup) _ _ _ List.nodup_nil
    (fun b a _ hb => buildCellNumbersStep_nodup mlp b a hb)

/-- The numbers of the forward and of the backward edges of a cell of the sorted graph are at
most `getMaxEdgesInCell()`. -/
theorem sorted_cell_sum_le (g : Graph) (hoff : g.Offsets) (c : Nat)
    (hc : c < g.cellNumbers.length) :
    (((List.range g.sortVerticesByCellNumber.numberOfVertices).filter
      (fun v => decide ((g.sortVerticesByCellNumber.vertex v).pvPtr = c))).map
      g.sortVerticesByCellNumber.getOutDegree).sum ≤
        g.sortVerticesByCellNumber.getMaxEdgesInCell ∧
    (((List.range g.sortVerticesByCellNumber.numberOfVertices).filter
      (fun v => decide ((g.sortVerticesByCellNumber.vertex v).pvPtr = c))).map
      g.sortVerticesByCellNumber.getInDegree).sum ≤
        g.sortVerticesByCellNumber.getMaxEdgesInCell := by
  obtain ⟨_, _, nF, nB, bd, _⟩ := sortScratch_count g hoff.cell
  have eM : g.sortVerticesByCellNumber.getMaxEdgesInCell = g.sortScratch.maxEdgesInCell := rfl
  obtain ⟨s1, s2⟩ := sorted_cell_count g hoff c hc
  rw [eM, s1, s2, ← nF c hc, ← nB c hc]
  exact bd c hc

/-- In the sorted graph, vertices with the same cell number have the same `pvPtr` when the
cell numbers are pairwise different. -/
theorem sorted_pvPtr_of_cellNumber (g : Graph) (hoff : g.Offsets) (hn : g.cellNumbers.Nodup)
    (v s : Nat) (hv : v < g.sortVerticesByCellNumber.numberOfVertices)
    (hs : s < g.sortVerticesByCellNumber.numberOfVertices)
    (h : g.sortVerticesByCellNumber.getCellNumber v = g.sortVerticesByCellNumber.getCellNumber s) :
    (g.sortVerticesByCellNumber.vertex v).pvPtr = (g.sortVerticesByCellNumber.vertex s).pvPtr := by
  have ho := sorted_offsets g hoff
  have h1 := ho.cell v hv
  have h2 := ho.cell s hs
  have eC : g.sortVerticesByCellNumber.cellNumbers = g.cellNumbers := rfl
  unfold Graph.getCellNumber at h
  rw [eC] at h h1 h2
  rw [List.getD_eq_getElem _ _ h1, List.getD_eq_getElem _ _ h2] at h
  exact (List.Nodup.getElem_inj_iff hn).1 h

/-- The ids of the entry points and of the exit points of a vertex of the sorted graph lie
in the ranges of its cell. -/
theorem sorted_local_ids (g : Graph) (hoff : g.Offsets) (v : Nat)
    (hv : v < g.sortVerticesByCellNumber.numberOfVertices) :
    (∀ p, p < g.sortVerticesByCellNumber.getInDegree v →
      g.sortVerticesByCellNumber.getBackwardEdgeCellOffset v ≤
        g.sortVerticesByCellNumber.getEntryOffset v + p ∧
      g.sortVerticesByCellNumber.getEntryOffset v + p <
        g.sortVerticesByCellNumber.getBackwardEdgeCellOffset v +
          g.sortVerticesByCellNumber.getMaxEdgesInCell) ∧
    (∀ k, k < g.sortVerticesByCellNumber.getOutDegree v →
      g.sortVerticesByCellNumber.getForwardEdgeCellOffset v ≤
        g.sortVerticesByCellNumber.getExitOffset v + k ∧
      g.sortVerticesByCellNumber.getExitOffset v + k <
        g.sortVerticesByCellNumber.getForwardEdgeCellOffset v +
          g.sortVerticesByCellNumber.getMaxEdgesInCell) := by
  have ho := sorted_offsets g hoff
  have hc := ho.cell v hv
  have eC : g.sortVerticesByCellNumber.cellNumbers = g.cellNumbers := rfl
  rw [eC] at hc
  obtain ⟨e1, e2⟩ := sorted_cell_sum_le g hoff _ hc
  constructor
  · intro p hp
    have := ((sorted_cell_edges g hoff _ hc
      ((g.sortVerticesByCellNumber.vertex v).firstIn + p)).2).1
      ⟨v, hv, rfl, Nat.le_add_right _ _, by omega⟩
    unfold Graph.getBackwardEdgeCellOffset Graph.getEntryOffset
    omega
  · intro k hk
    have := ((sorted_cell_edges g hoff _ hc
      ((g.sortVerticesByCellNumber.vertex v).firstOut + k)).1).1
      ⟨v, hv, rfl, Nat.le_add_right _ _, by omega⟩
    unfold Graph.getForwardEdgeCellOffset Graph.getExitOffset
    omega

end CRP


namespace CRP

/-! ## The stalling step and the labels -/

namespace ParallelCRPQuery

theorem stallKeeps_refl (cur : Nat) (info : List VertexInfo) : StallKeeps cur info info :=
  ⟨rfl, fun _ => ⟨rfl, rfl, le_refl _, fun _ => rfl⟩⟩

theorem stallKeeps_trans (cur : Nat) {a b c : List VertexInfo} (h1 : StallKeeps cur a b)
    (h2 : StallKeeps cur b c) : StallKeeps cur a c := by
  refine ⟨h2.1.trans h1.1, fun i => ?_⟩
  obtain ⟨a1, a2, a3, a4⟩ := h1.2 i
  obtain ⟨b1, b2, b3, b4⟩ := h2.2 i
  refine ⟨b1.trans a1, b2.trans a2, le_trans b3 a3, fun h => ?_⟩
  rw [b4 (by rw [a1]; exact h), a4 h]

theorem stallEntry_keeps (metric : Metric) (cur u uId uOffset : Nat) (info : List VertexInfo)
    (j entryId : Nat) : StallKeeps cur info (stallEntry metric cur u uId uOffset info j entryId) := by
  unfold stallEntry
  split_ifs with h
  · refine ⟨List.length_set _ _ _, fun i => ?_⟩
    rw [getD_set_self_or]
    split_ifs with hc
    · obtain ⟨rfl, _⟩ := hc
      exact ⟨rfl, rfl, Nat.min_le_left _ _, fun h' => absurd h (by omega)⟩
    · exact ⟨rfl, rfl, le_refl _, fun _ => rfl⟩
  · exact stallKeeps_refl cur info

theorem stallFold_keeps (cur : Nat) (f : List VertexInfo → Nat → List VertexInfo)
    (hf : ∀ info j, StallKeeps cur info (f info j)) (l : List Nat) :
    ∀ info, StallKeeps cur info (l.foldl f info) := by
  induction l with
  | nil => intro info; exact stallKeeps_refl cur info
  | cons x rest ih =>
    intro info
    exact stallKeeps_trans cur (hf info x) (ih (f info x))

/-- The stalling step keeps the labels of the current round. -/
theorem stall_keeps (graph : Graph) (metric : Metric) (cur fS fT : Nat)
    (info : List VertexInfo) (triple : IDKeyTriple) :
    StallKeeps cur info (stall graph metric cur fS fT info triple) := by
  unfold stall
  exact stallFold_keeps cur _ (fun info j => stallEntry_keeps metric cur _ _ _ info j _) _ info

end ParallelCRPQuery

/-- On `stallGraph` with the hop function, every walk from the entry point with the id 0 to
an entry point costs at least 0, 1, 3, 2 for the ids 0, 1, 2, 3. -/
theorem stallGraph_dist (x d : Nat) (vs : List Nat)
    (h : stallGraph.Trail (stallGraph.fullCost HopFunction) 0 x d vs) :
    [0, 1, 3, 2].getD x 0 ≤ d := by
  induction h with
  | start => decide
  | @step x d vs u k _ hE hk ih =>
    have hu : u < 4 := hE.1
    have hx : x < 5 := by
      have h2 := hE.2.2
      have : ∀ u, u < 4 → (stallGraph.vertex (u + 1)).firstIn ≤ 5 := by decide
      have := this u hu
      omega
    have hk2 : k < 2 := by
      have : ∀ u, u < 4 → stallGraph.getOutDegree u ≤ 2 := by decide
      have := this u hu
      omega
    have h1 := hE.2.1
    have h2 := hE.2.2
    have key : (stallGraph.vertex u).firstIn ≤ x → x < (stallGraph.vertex (u + 1)).firstIn →
        k < stallGraph.getOutDegree u →
        [0, 1, 3, 2].getD (stallGraph.arcId u k) 0 ≤
          [0, 1, 3, 2].getD x 0 + stallGraph.fullCost HopFunction u x k := by
      clear ih hE hk h1 h2
      interval_cases u <;> interval_cases x <;> interval_cases k <;> decide
    have := key h1 h2 hk
    omega

end CRP


namespace CRP

/-! ## A query on a used object and the same query on a fresh one -/

theorem labelled_label (a : Scratch) (n : Nat) (hlen : a.round.length = n) (v nd : Nat)
    (p : VertexIdPair) (i : Nat) :
    (a.label v nd p).labelled i ↔ (i = v ∧ v < n) ∨ (a.labelled i ∧ ¬ (i = v ∧ v < n)) := by
  unfold Scratch.labelled Scratch.label
  simp only []
  rw [getD_set_self_or, hlen]
  by_cases h : v = i ∧ v < n
  · rw [if_pos h]
    obtain ⟨rfl, h2⟩ := h
    simp [h2]
  · rw [if_neg h]
    constructor
    · intro h'
      exact Or.inr ⟨h', fun hc => h ⟨hc.1.symm, hc.2⟩⟩
    · rintro (hc | hc)
      · exact absurd ⟨hc.1.symm, hc.2⟩ h
      · exact hc.1

theorem scratchSim_test {n sId : Nat} {a b : Scratch} (h : ScratchSim n sId a b) (v nd : Nat) :
    (a.round.getD v 0 < a.cur ∨ nd < a.dist.getD v 0) ↔
      (b.round.getD v 0 < b.cur ∨ nd < b.dist.getD v 0) := by
  have hA := h.leA v
  have hB := h.leB v
  by_cases hl : a.labelled v
  · have hl' := (h.lab v).1 hl
    have hv := (h.val v hl).1
    unfold Scratch.labelled at hl hl'
    rw [hv]
    constructor
    · rintro (h1 | h1)
      · omega
      · exact Or.inr h1
    · rintro (h1 | h1)
      · omega
      · exact Or.inr h1
  · have hl' : ¬ b.labelled v := fun hc => hl ((h.lab v).2 hc)
    unfold Scratch.labelled at hl hl'
    constructor
    · intro _; left; omega
    · intro _; left; omega

theorem scratchSim_label {n sId : Nat} {a b : Scratch} (h : ScratchSim n sId a b)
    (v nd : Nat) (p : VertexIdPair) (hp : a.labelled p.id) :
    ScratchSim n sId (a.label v nd p) (b.label v nd p) := by
  have hlA := labelled_label a n h.lenRoundA v nd p
  have hlB := labelled_label b n h.lenRoundB v nd p
  refine ⟨?_, ?_, ?_, ?_, ?_, ?_, ?_, ?_, ?_, ?_, ?_⟩
  · show (a.dist.set v nd).length = n
    rw [List.length_set]; exact h.lenDistA
  · show (a.round.set v a.cur).length = n
    rw [List.length_set]; exact h.lenRoundA
  · show (a.parent.set v p).length = n
    rw [List.length_set]; exact h.lenParentA
  · show (b.dist.set v nd).length = n
    rw [List.length_set]; exact h.lenDistB
  · show (b.round.set v b.cur).length = n
    rw [List.length_set]; exact h.lenRoundB
  · show (b.parent.set v p).length = n
    rw [List.length_set]; exact h.lenParentB
  · intro i
    show (a.round.set v a.cur).getD i 0 ≤ a.cur
    rw [getD_set_self_or]
    split_ifs
    · exact le_refl _
    · exact h.leA i
  · intro i
    show (b.round.set v b.cur).getD i 0 ≤ b.cur
    rw [getD_set_self_or]
    split_ifs
    · exact le_refl _
    · exact h.leB i
  · intro i
    rw [hlA, hlB, h.lab i]
  · intro i hi
    show (a.dist.set v nd).getD i 0 = (b.dist.set v nd).getD i 0 ∧
      (a.parent.set v p).getD i default = (b.parent.set v p).getD i default
    rw [getD_set_self_or, getD_set_self_or, getD_set_self_or, getD_set_self_or,
      h.lenDistA, h.lenDistB, h.lenParentA, h.lenParentB]
    by_cases hc : v = i ∧ v < n
    · rw [if_pos hc, if_pos hc, if_pos hc, if_pos hc]
      exact ⟨rfl, rfl⟩
    · rw [if_neg hc, if_neg hc, if_neg hc, if_neg hc]
      rcases (hlA i).1 hi with h1 | h1
      · exact absurd ⟨h1.1.symm, h1.2⟩ hc
      · exact h.val i h1.1
  · intro i hi hne
    show (a.label v nd p).labelled ((a.parent.set v p).getD i default).id
    rw [getD_set_self_or, h.lenParentA]
    have keep : ∀ j, a.labelled j → (a.label v nd p).labelled j := by
      intro j hj
      rw [hlA]
      by_cases hc : j = v ∧ v < n
      · exact Or.inl hc
      · exact Or.inr ⟨hj, hc⟩
    by_cases hc : v = i ∧ v < n
    · rw [if_pos hc]
      exact keep _ hp
    · rw [if_neg hc]
      rcases (hlA i).1 hi with h1 | h1
      · exact absurd ⟨h1.1.symm, h1.2⟩ hc
      · exact keep _ (h.chain i h1.1 hne)

theorem optSim_some {α β : Type} {R : α → β → Prop} {x : Option α} {y : Option β}
    (h : OptSim R x y) : (x = none ∧ y = none) ∨ ∃ a b, x = some a ∧ y = some b ∧ R a b := by
  cases x <;> cases y
  · exact Or.inl ⟨rfl, rfl⟩
  · exact absurd h (by simp [OptSim])
  · exact absurd h (by simp [OptSim])
  · exact Or.inr ⟨_, _, rfl, rfl, h⟩

/-- The labels of the used object after `currentRound++` and the label of the source agree
with those of a fresh object. -/
theorem scratchSim_start (n sId : Nat) (hs : sId < n) (dist round : List Nat)
    (parent : List VertexIdPair) (cur : Nat) (hd : dist.length = n) (hr : round.length = n)
    (hp : parent.length = n) (hle : ∀ i, round.getD i 0 ≤ cur) (p : VertexIdPair) :
    ScratchSim n sId
      ⟨dist.set sId 0, round.set sId (cur + 1), parent.set sId p, cur + 1⟩
      ⟨(List.replicate n inf_weight).set sId 0, (List.replicate n 0).set sId 1,
        (List.replicate n default).set sId p, 1⟩ := by
  have hrep : ∀ i, (List.replicate n 0).getD i 0 = 0 := by
    intro i
    by_cases h : i < n
    · rw [List.getD_eq_getElem _ _ (by simpa using h)]; simp
    · rw [List.getD_eq_default _ _ (by simpa using h)]
  have labA : ∀ i, (round.set sId (cur + 1)).getD i 0 = cur + 1 ↔ i = sId := by
    intro i
    rw [getD_set_self_or, hr]
    by_cases hc : sId = i
    · rw [if_pos ⟨hc, hs⟩]
      exact ⟨fun _ => hc.symm, fun _ => rfl⟩
    · rw [if_neg (fun h => hc h.1)]
      have := hle i
      constructor
      · intro h; omega
      · intro h; exact absurd h.symm hc
  have labB : ∀ i, ((List.replicate n 0).set sId 1).getD i 0 = 1 ↔ i = sId := by
    intro i
    rw [getD_set_self_or, List.length_replicate]
    by_cases hc : sId = i
    · rw [if_pos ⟨hc, hs⟩]
      exact ⟨fun _ => hc.symm, fun _ => rfl⟩
    · rw [if_neg (fun h => hc h.1), hrep]
      constructor
      · intro h; omega
      · intro h; exact absurd h.symm hc
  refine ⟨?_, ?_, ?_, ?_, ?_, ?_, ?_, ?_, ?_, ?_, ?_⟩
  · show (dist.set sId 0).length = n
    rw [List.length_set]; exact hd
  · show (round.set sId (cur + 1)).length = n
    rw [List.length_set]; exact hr
  · show (parent.set sId p).length = n
    rw [List.length_set]; exact hp
  · show ((List.replicate n inf_weight).set sId 0).length = n
    simp
  · show ((List.replicate n 0).set sId 1).length = n
    simp
  · show ((List.replicate n (default : VertexIdPair)).set sId p).length = n
    simp
  · intro i
    show (round.set sId (cur + 1)).getD i 0 ≤ cur + 1
    rw [getD_set_self_or]
    split_ifs
    · exact le_refl _
    · have := hle i; omega
  · intro i
    show ((List.replicate n 0).set sId 1).getD i 0 ≤ 1
    rw [getD_set_self_or]
    split_ifs
    · exact le_refl _
    · rw [hrep]; omega
  · intro i
    show (round.set sId (cur + 1)).getD i 0 = cur + 1 ↔
      ((List.replicate n 0).set sId 1).getD i 0 = 1
    rw [labA, labB]
  · intro i hi
    have hi' : i = sId := (labA i).1 hi
    subst hi'
    show (dist.set i 0).getD i 0 = ((List.replicate n inf_weight).set i 0).getD i 0 ∧
      (parent.set i p).getD i default = ((List.replicate n default).set i p).getD i default
    rw [getD_set_eq _ _ _ _ (by omega), getD_set_eq _ _ _ _ (by simpa using hs),
      getD_set_eq _ _ _ _ (by omega), getD_set_eq _ _ _ _ (by simpa using hs)]
    exact ⟨rfl, rfl⟩
  · intro i hi hne
    exact absurd ((labA i).1 hi) hne

namespace Dijkstra

theorem relax_sim (graph : Graph) (metric : Metric) (s t u uId n sId : Nat) (st st' : Search)
    (x : ForwardEdge × Nat × TURN_TYPE) (h : Sim n sId st st')
    (hu : (scratch st.self).labelled uId) :
    Sim n sId (relax graph metric s t u uId st x) (relax graph metric s t u uId st' x) := by
  have hd : st'.self.dist.getD uId 0 = st.self.dist.getD uId 0 := (h.labels.val uId hu).1.symm
  have htest := fun v nd => scratchSim_test h.labels v nd
  unfold relax
  simp only []
  rw [hd]
  generalize (if u = s ∨ u = t then 0 else metric.getTurnCosts x.2.2) = tc
  split_ifs with c2 c3 c4 c4
  · exact h
  · refine ⟨scratchSim_label h.labels _ _ ⟨u, uId⟩ hu, ?_, h.shortest, h.target, ?_, ?_⟩
    · show MinIDQueue.pushOrDecrease st.self.graphPQ _ = MinIDQueue.pushOrDecrease st'.self.graphPQ _
      rw [h.queue]
    · intro p hp
      show (Scratch.label (scratch st.self) _ _ _).labelled p.id ∨ _
      rw [labelled_label _ n h.labels.lenRoundA]
      rcases MinIDQueue.mem_pushOrDecrease _ _ _ hp with rfl | hp'
      · by_cases hc : graph.getEntryOffset x.1.head + x.1.entryPoint < n
        · exact Or.inl (Or.inl ⟨rfl, hc⟩)
        · exact Or.inr (by show n ≤ graph.getEntryOffset x.1.head + x.1.entryPoint; omega)
      · rcases h.queued p hp' with hq | hq
        · by_cases hc : p.id = graph.getEntryOffset x.1.head + x.1.entryPoint ∧
            graph.getEntryOffset x.1.head + x.1.entryPoint < n
          · exact Or.inl (Or.inl hc)
          · exact Or.inl (Or.inr ⟨hq, hc⟩)
        · exact Or.inr hq
    · rcases h.best with hb | hb
      · exact Or.inl hb
      · right
        show (Scratch.label (scratch st.self) _ _ _).labelled st.tId
        rw [labelled_label _ n h.labels.lenRoundA]
        by_cases hc : st.tId = graph.getEntryOffset x.1.head + x.1.entryPoint ∧
            graph.getEntryOffset x.1.head + x.1.entryPoint < n
        · exact Or.inl hc
        · exact Or.inr ⟨hb, hc⟩
  · exact absurd ((htest _ _).1 c3) c4
  · exact absurd ((htest _ _).2 c4) c3
  · exact h

theorem relax_labelled (graph : Graph) (metric : Metric) (s t u uId n : Nat) (st : Search)
    (x : ForwardEdge × Nat × TURN_TYPE) (hlen : st.self.round.length = n) (j : Nat)
    (hj : (scratch st.self).labelled j) :
    (scratch (relax graph metric s t u uId st x).self).labelled j := by
  unfold relax
  simp only []
  generalize (if u = s ∨ u = t then 0 else metric.getTurnCosts x.2.2) = tc
  split_ifs
  · exact hj
  · show (Scratch.label (scratch st.self) _ _ _).labelled j
    rw [labelled_label _ n hlen]
    by_cases hc : j = graph.getEntryOffset x.1.head + x.1.entryPoint ∧
        graph.getEntryOffset x.1.head + x.1.entryPoint < n
    · exact Or.inl hc
    · exact Or.inr ⟨hj, hc⟩
  · exact hj

theorem relaxAll_sim (graph : Graph) (metric : Metric) (s t u uId n sId : Nat)
    (l : List (ForwardEdge × Nat × TURN_TYPE)) :
    ∀ (st st' : Search), Sim n sId st st' → (scratch st.self).labelled uId →
      Sim n sId (l.foldl (relax graph metric s t u uId) st)
        (l.foldl (relax graph metric s t u uId) st') ∧
      (scratch (l.foldl (relax graph metric s t u uId) st).self).labelled uId := by
  induction l with
  | nil => intro st st' h hu; exact ⟨h, hu⟩
  | cons x rest ih =>
    intro st st' h hu
    rw [List.foldl_cons, List.foldl_cons]
    exact ih _ _ (relax_sim graph metric s t u uId n sId st st' x h hu)
      (relax_labelled graph metric s t u uId n st x h.labels.lenRoundA uId hu)

end Dijkstra

namespace Dijkstra

theorem loop_popped (graph : Graph) (metric : Metric) (s t fuel : Nat) (st : Search) :
    loop graph metric s t (fuel + 1) st =
      match MinIDQueue.pop st.self.graphPQ with
      | none => some st
      | some (triple, q) =>
        if st.self.round.getD triple.id 0 = st.self.currentRound ∧
            st.self.dist.getD triple.id 0 > st.shortestPath then
          some { st with self := { st.self with graphPQ := q } }
        else
          loop graph metric s t fuel
            ((graph.forOutEdgesOf triple.vertexId
                (graph.getEntryOrder triple.vertexId triple.id)).foldl
              (relax graph metric s t triple.vertexId triple.id) (popped st triple q t)) := rfl

theorem popped_sim (n sId t : Nat) (st st' : Search) (h : Sim n sId st st')
    (triple : IDKeyTriple) (q : List IDKeyTriple)
    (hpop : MinIDQueue.pop st.self.graphPQ = some (triple, q))
    (hu : (scratch st.self).labelled triple.id) :
    Sim n sId (popped st triple q t) (popped st' triple q t) ∧
    (scratch (popped st triple q t).self).labelled triple.id := by
  have hd : st'.self.dist.getD triple.id 0 = st.self.dist.getD triple.id 0 :=
    (h.labels.val _ hu).1.symm
  have hq : ∀ p, p ∈ q → (scratch st.self).labelled p.id ∨ n ≤ p.id := fun p hp =>
    h.queued p ((MinIDQueue.mem_pop _ _ _ hpop p).1 hp).1
  unfold popped
  rw [hd, ← h.shortest]
  split_ifs
  · exact ⟨⟨h.labels, rfl, rfl, rfl, hq, Or.inr hu⟩, hu⟩
  · exact ⟨⟨h.labels, rfl, rfl, h.target, hq, h.best⟩, hu⟩
  · exact ⟨⟨h.labels, rfl, rfl, h.target, hq, h.best⟩, hu⟩

/-- The loops of the two queries run in step. -/
theorem loop_sim (graph : Graph) (hg : graph.Consistent) (metric : Metric) (s t sId : Nat) :
    ∀ (fuel : Nat) (st st' : Search), Sim graph.numberOfEdges sId st st' → Term graph st →
      OptSim (FinalSim graph.numberOfEdges sId) (loop graph metric s t fuel st)
        (loop graph metric s t fuel st') := by
  intro fuel
  induction fuel with
  | zero => intro st st' _ _; exact trivial
  | succ fuel ih =>
    intro st st' h hT
    rw [loop_popped, loop_popped, ← h.queue]
    cases hpop : MinIDQueue.pop st.self.graphPQ with
    | none => exact ⟨h.labels, h.shortest, h.target, h.best⟩
    | some pr =>
      obtain ⟨triple, q⟩ := pr
      have hmem := (MinIDQueue.pop_spec _ _ _ hpop).1
      have hE := hT.queue triple hmem
      have hu : (scratch st.self).labelled triple.id := by
        rcases h.queued triple hmem with h1 | h1
        · exact h1
        · have := graph.isEntry_lt hg hE
          omega
      have hd : st'.self.dist.getD triple.id 0 = st.self.dist.getD triple.id 0 :=
        (h.labels.val _ hu).1.symm
      have hr : st'.self.round.getD triple.id 0 = st'.self.currentRound :=
        (h.labels.lab _).1 hu
      have hr0 : st.self.round.getD triple.id 0 = st.self.currentRound := hu
      simp only []
      rw [hd, hr, hr0, ← h.shortest]
      simp only [true_and]
      split_ifs with hb
      · exact ⟨h.labels, rfl, h.target, h.best⟩
      · obtain ⟨hps, hpu⟩ := popped_sim graph.numberOfEdges sId t st st' h triple q hpop hu
        obtain ⟨sp, ti, hst⟩ : ∃ sp ti, popped st triple q t =
            (⟨{ st.self with graphPQ := q }, sp, ti⟩ : Search) := by
          unfold popped
          split_ifs
          · exact ⟨_, _, rfl⟩
          · exact ⟨_, _, rfl⟩
          · exact ⟨_, _, rfl⟩
        have hT1 : Term graph (popped st triple q t) := by
          rw [hst]
          exact (pop_term graph st hT triple q hpop sp ti).1
        obtain ⟨hs1, _⟩ := relaxAll_sim graph metric s t triple.vertexId triple.id
          graph.numberOfEdges sId
          (graph.forOutEdgesOf triple.vertexId (graph.getEntryOrder triple.vertexId triple.id))
          _ _ hps hpu
        exact ih _ _ hs1 (relaxAll_term graph hg metric s t triple.vertexId triple.id _ hE.1 _
          hT1).1

theorem pathLoop_sim {n sId : Nat} {a b : Scratch} (h : ScratchSim n sId a b) :
    ∀ (fuel uId : Nat) (path : List Nat), a.labelled uId →
      pathLoop a.parent sId fuel uId path = pathLoop b.parent sId fuel uId path := by
  intro fuel
  induction fuel with
  | zero => intro uId path _; rfl
  | succ fuel ih =>
    intro uId path hu
    unfold pathLoop
    split_ifs with hc
    · rfl
    · rw [← (h.val uId hu).2]
      exact ih _ _ (h.chain uId hu hc)

end Dijkstra

namespace Dijkstra

theorem start_sim (graph : Graph) (hg : graph.Consistent) (self : Dijkstra)
    (hv : Valid graph self) (hround : self.currentRound < 4294967295) (sourceEdgeId : Nat)
    (hs : sourceEdgeId < graph.numberOfEdges) :
    Sim graph.numberOfEdges
      (graph.getEntryOffset (graph.getForwardEdge sourceEdgeId).head +
        (graph.getForwardEdge sourceEdgeId).entryPoint)
      (start graph self sourceEdgeId) (start graph (create graph) sourceEdgeId) ∧
    Term graph (start graph self sourceEdgeId) := by
  have hsE := graph.source_isEntry hg sourceEdgeId hs
  have hsn := graph.isEntry_lt hg hsE
  have e1 : u32 (self.currentRound + 1) = self.currentRound + 1 :=
    u32_of_lt (show self.currentRound + 1 < 4294967296 by omega)
  have e2 : u32 ((create graph).currentRound + 1) = 1 := rfl
  have hlab := scratchSim_start graph.numberOfEdges _ hsn self.dist self.round self.parent
    self.currentRound hv.lenDist hv.lenRound hv.lenParent hv.rounds
    ⟨(graph.getForwardEdge sourceEdgeId).head,
      graph.getEntryOffset (graph.getForwardEdge sourceEdgeId).head +
        (graph.getForwardEdge sourceEdgeId).entryPoint⟩
  have hsrc : (scratch (start graph self sourceEdgeId).self).labelled
      (graph.getEntryOffset (graph.getForwardEdge sourceEdgeId).head +
        (graph.getForwardEdge sourceEdgeId).entryPoint) := by
    show (self.round.set _ _).getD _ 0 = u32 (self.currentRound + 1)
    rw [getD_set_eq _ _ _ _ (by rw [hv.lenRound]; exact hsn)]
  refine ⟨⟨?_, rfl, rfl, rfl, ?_, Or.inl rfl⟩, ?_, ?_, ?_⟩
  · show ScratchSim _ _
      ⟨self.dist.set _ 0, self.round.set _ (u32 (self.currentRound + 1)), self.parent.set _ _,
        u32 (self.currentRound + 1)⟩
      ⟨(create graph).dist.set _ 0, (create graph).round.set _ (u32 ((create graph).currentRound + 1)),
        (create graph).parent.set _ _, u32 ((create graph).currentRound + 1)⟩
    rw [e1, e2]
    exact hlab
  · intro p hp
    have hp' : p = ⟨graph.getEntryOffset (graph.getForwardEdge sourceEdgeId).head +
        (graph.getForwardEdge sourceEdgeId).entryPoint,
        (graph.getForwardEdge sourceEdgeId).head, 0⟩ := by
      simpa [start, MinIDQueue.push] using hp
    subst hp'
    exact Or.inl hsrc
  · show (self.dist.set _ _).length = _
    rw [List.length_set]; exact hv.lenDist
  · show (self.round.set _ _).length = _
    rw [List.length_set]; exact hv.lenRound
  · intro p hp
    have hp' : p = ⟨graph.getEntryOffset (graph.getForwardEdge sourceEdgeId).head +
        (graph.getForwardEdge sourceEdgeId).entryPoint,
        (graph.getForwardEdge sourceEdgeId).head, 0⟩ := by
      simpa [start, MinIDQueue.push] using hp
    subst hp'
    exact hsE

/-- The result of `Dijkstra::edgeQuery` on an object that earlier queries have used is the
result on a fresh object. -/
theorem edgeQuery_fresh (graph : Graph) (hg : graph.Consistent) (metric : Metric) (fuel : Nat)
    (self : Dijkstra) (hv : Valid graph self) (hround : self.currentRound < 4294967295)
    (sourceEdgeId targetEdgeId : Nat) (hs : sourceEdgeId < graph.numberOfEdges) :
    (edgeQuery graph metric fuel self sourceEdgeId targetEdgeId).map Prod.fst =
      (edgeQuery graph metric fuel (create graph) sourceEdgeId targetEdgeId).map Prod.fst := by
  obtain ⟨hsim, hT⟩ := start_sim graph hg self hv hround sourceEdgeId hs
  have hl := loop_sim graph hg metric (graph.getForwardEdge sourceEdgeId).head
    (graph.getBackwardEdge targetEdgeId).tail _ fuel _ _ hsim hT
  rw [edgeQuery_start, edgeQuery_start]
  rcases optSim_some hl with ⟨e1, e2⟩ | ⟨a, b, e1, e2, hf⟩
  · rw [e1, e2]
  · rw [e1, e2]
    simp only []
    rw [← hf.shortest, ← hf.target]
    split_ifs with hc
    · rfl
    · have hlab : (scratch a.self).labelled a.tId := by
        rcases hf.best with h1 | h1
        · exact absurd h1 hc
        · exact h1
      have hp := pathLoop_sim hf.labels fuel a.tId [(graph.getBackwardEdge targetEdgeId).tail]
        hlab
      have hp' : pathLoop a.self.parent
          (graph.getEntryOffset (graph.getForwardEdge sourceEdgeId).head +
            (graph.getForwardEdge sourceEdgeId).entryPoint) fuel a.tId
          [(graph.getBackwardEdge targetEdgeId).tail] =
          pathLoop b.self.parent
          (graph.getEntryOffset (graph.getForwardEdge sourceEdgeId).head +
            (graph.getForwardEdge sourceEdgeId).entryPoint) fuel a.tId
          [(graph.getBackwardEdge targetEdgeId).tail] := hp
      rw [hp']
      cases pathLoop b.self.parent
          (graph.getEntryOffset (graph.getForwardEdge sourceEdgeId).head +
            (graph.getForwardEdge sourceEdgeId).entryPoint) fuel a.tId
          [(graph.getBackwardEdge targetEdgeId).tail] with
      | none => rfl
      | some path => rfl

end Dijkstra

namespace CRPQueryUni

theorem sim_label_graph {n m sId : Nat} {st st' : Search} (h : Sim n m sId st st')
    (v nd : Nat) (p : VertexIdPair) (hp : (scratch st.self).labelled p.id) (w : Nat) :
    Sim n m sId
      { st with
        self :=
          { st.self with
            dist := st.self.dist.set v nd
            graphPQ := MinIDQueue.pushOrDecrease st.self.graphPQ ⟨v, w, nd⟩
            round := st.self.round.set v st.self.currentRound
            parent := st.self.parent.set v p } }
      { st' with
        self :=
          { st'.self with
            dist := st'.self.dist.set v nd
            graphPQ := MinIDQueue.pushOrDecrease st'.self.graphPQ ⟨v, w, nd⟩
            round := st'.self.round.set v st'.self.currentRound
            parent := st'.self.parent.set v p } } := by
  have keep : ∀ j, (scratch st.self).labelled j ∨ n ≤ j →
      (Scratch.label (scratch st.self) v nd p).labelled j ∨ n ≤ j := by
    intro j hj
    rcases hj with hj | hj
    · left
      rw [labelled_label _ n h.labels.lenRoundA]
      by_cases hc : j = v ∧ v < n
      · exact Or.inl hc
      · exact Or.inr ⟨hj, hc⟩
    · exact Or.inr hj
  refine ⟨scratchSim_label h.labels v nd p hp, ?_, h.overlayQueue, h.shortest, h.target, ?_, ?_,
    ?_⟩
  · show MinIDQueue.pushOrDecrease st.self.graphPQ _ = MinIDQueue.pushOrDecrease st'.self.graphPQ _
    rw [h.graphQueue]
  · intro q hq
    rcases MinIDQueue.mem_pushOrDecrease _ _ _ hq with rfl | hq'
    · show (Scratch.label (scratch st.self) v nd p).labelled v ∨ n ≤ v
      rw [labelled_label _ n h.labels.lenRoundA]
      by_cases hc : v < n
      · exact Or.inl (Or.inl ⟨rfl, hc⟩)
      · exact Or.inr (by omega)
    · exact keep _ (h.graphQueued q hq')
  · intro q hq
    exact keep _ (h.overlayQueued q hq)
  · rcases h.best with hb | hb
    · exact Or.inl hb
    · right
      have := keep st.tId (Or.inl hb)
      rcases this with h1 | h1
      · exact h1
      · have hb' : st.self.round.getD st.tId 0 = st.self.currentRound := hb
        have hlen := h.labels.lenRoundA
        have hlen' : st.self.round.length = n := hlen
        rw [List.getD_eq_default _ _ (by omega)] at hb'
        show (st.self.round.set v st.self.currentRound).getD st.tId 0 = st.self.currentRound
        rw [List.getD_eq_default _ _ (by rw [List.length_set]; omega)]
        exact hb'

theorem sim_label_overlay {n m sId : Nat} {st st' : Search} (h : Sim n m sId st st')
    (v nd : Nat) (p : VertexIdPair) (hp : (scratch st.self).labelled p.id) :
    Sim n m sId
      { st with
        self :=
          { st.self with
            dist := st.self.dist.set (v + m) nd
            overlayGraphPQ := MinIDQueue.pushOrDecrease st.self.overlayGraphPQ ⟨v, nd⟩
            round := st.self.round.set (v + m) st.self.currentRound
            parent := st.self.parent.set (v + m) p } }
      { st' with
        self :=
          { st'.self with
            dist := st'.self.dist.set (v + m) nd
            overlayGraphPQ := MinIDQueue.pushOrDecrease st'.self.overlayGraphPQ ⟨v, nd⟩
            round := st'.self.round.set (v + m) st'.self.currentRound
            parent := st'.self.parent.set (v + m) p } } := by
  have keep : ∀ j, (scratch st.self).labelled j ∨ n ≤ j →
      (Scratch.label (scratch st.self) (v + m) nd p).labelled j ∨ n ≤ j := by
    intro j hj
    rcases hj with hj | hj
    · left
      rw [labelled_label _ n h.labels.lenRoundA]
      by_cases hc : j = v + m ∧ v + m < n
      · exact Or.inl hc
      · exact Or.inr ⟨hj, hc⟩
    · exact Or.inr hj
  refine ⟨scratchSim_label h.labels (v + m) nd p hp, h.graphQueue, ?_, h.shortest, h.target, ?_,
    ?_, ?_⟩
  · show MinIDQueue.pushOrDecrease st.self.overlayGraphPQ _ =
      MinIDQueue.pushOrDecrease st'.self.overlayGraphPQ _
    rw [h.overlayQueue]
  · intro q hq
    exact keep _ (h.graphQueued q hq)
  · intro q hq
    rcases MinIDQueue.mem_pushOrDecrease _ _ _ hq with rfl | hq'
    · show (Scratch.label (scratch st.self) (v + m) nd p).labelled (v + m) ∨ n ≤ v + m
      rw [labelled_label _ n h.labels.lenRoundA]
      by_cases hc : v + m < n
      · exact Or.inl (Or.inl ⟨rfl, hc⟩)
      · exact Or.inr (by omega)
    · exact keep _ (h.overlayQueued q hq')
  · rcases h.best with hb | hb
    · exact Or.inl hb
    · right
      have := keep st.tId (Or.inl hb)
      rcases this with h1 | h1
      · exact h1
      · have hb' : st.self.round.getD st.tId 0 = st.self.currentRound := hb
        have hlen' : st.self.round.length = n := h.labels.lenRoundA
        rw [List.getD_eq_default _ _ (by omega)] at hb'
        show (st.self.round.set (v + m) st.self.currentRound).getD st.tId 0 =
          st.self.currentRound
        rw [List.getD_eq_default _ _ (by rw [List.length_set]; omega)]
        exact hb'

theorem sim_label_only {n m sId : Nat} {st st' : Search} (h : Sim n m sId st st')
    (v nd : Nat) (p : VertexIdPair) (hp : (scratch st.self).labelled p.id) :
    Sim n m sId
      { st with
        self :=
          { st.self with
            dist := st.self.dist.set v nd
            round := st.self.round.set v st.self.currentRound
            parent := st.self.parent.set v p } }
      { st' with
        self :=
          { st'.self with
            dist := st'.self.dist.set v nd
            round := st'.self.round.set v st'.self.currentRound
            parent := st'.self.parent.set v p } } := by
  have keep : ∀ j, (scratch st.self).labelled j ∨ n ≤ j →
      (Scratch.label (scratch st.self) v nd p).labelled j ∨ n ≤ j := by
    intro j hj
    rcases hj with hj | hj
    · left
      rw [labelled_label _ n h.labels.lenRoundA]
      by_cases hc : j = v ∧ v < n
      · exact Or.inl hc
      · exact Or.inr ⟨hj, hc⟩
    · exact Or.inr hj
  refine ⟨scratchSim_label h.labels v nd p hp, h.graphQueue, h.overlayQueue, h.shortest,
    h.target, fun q hq => keep _ (h.graphQueued q hq),
    fun q hq => keep _ (h.overlayQueued q hq), ?_⟩
  rcases h.best with hb | hb
  · exact Or.inl hb
  · right
    have := keep st.tId (Or.inl hb)
    rcases this with h1 | h1
    · exact h1
    · have hb' : st.self.round.getD st.tId 0 = st.self.currentRound := hb
      have hlen' : st.self.round.length = n := h.labels.lenRoundA
      rw [List.getD_eq_default _ _ (by omega)] at hb'
      show (st.self.round.set v st.self.currentRound).getD st.tId 0 = st.self.currentRound
      rw [List.getD_eq_default _ _ (by rw [List.length_set]; omega)]
      exact hb'

end CRPQueryUni

namespace CRPQueryUni

theorem sim_test {n m sId : Nat} {st st' : Search} (h : Sim n m sId st st') (v nd : Nat) :
    (st'.self.round.getD v 0 < st'.self.currentRound ∨ nd < st'.self.dist.getD v 0) ↔
      (st.self.round.getD v 0 < st.self.currentRound ∨ nd < st.self.dist.getD v 0) :=
  (scratchSim_test h.labels v nd).symm

theorem relaxGraph_sim (graph : Graph) (og : OverlayGraph) (metric : Metric)
    (s t cs ct u uId n sId : Nat) (st st' : Search) (x : ForwardEdge × Nat × TURN_TYPE)
    (h : Sim n graph.numberOfEdges sId st st') (hu : (scratch st.self).labelled uId) :
    Sim n graph.numberOfEdges sId (relaxGraph graph og metric s t cs ct u uId st x)
      (relaxGraph graph og metric s t cs ct u uId st' x) := by
  have hd : st'.self.dist.getD uId 0 = st.self.dist.getD uId 0 := (h.labels.val uId hu).1.symm
  unfold relaxGraph
  simp only []
  rw [hd]
  generalize (if u = s ∨ u = t then 0 else metric.getTurnCosts x.2.2) = tc
  simp only [sim_test h]
  split_ifs
  · exact h
  · exact sim_label_graph h _ _ ⟨u, uId⟩ hu _
  · exact h
  · exact sim_label_overlay h _ _ ⟨u, uId⟩ hu
  · exact h

theorem relaxGraph_labelled (graph : Graph) (og : OverlayGraph) (metric : Metric)
    (s t cs ct u uId n : Nat) (st : Search) (x : ForwardEdge × Nat × TURN_TYPE)
    (hlen : st.self.round.length = n) (j : Nat) (hj : (scratch st.self).labelled j) :
    (scratch (relaxGraph graph og metric s t cs ct u uId st x).self).labelled j := by
  have keep : ∀ v nd p, (Scratch.label (scratch st.self) v nd p).labelled j := by
    intro v nd p
    rw [labelled_label _ n hlen]
    by_cases hc : j = v ∧ v < n
    · exact Or.inl hc
    · exact Or.inr ⟨hj, hc⟩
  unfold relaxGraph
  simp only []
  generalize (if u = s ∨ u = t then 0 else metric.getTurnCosts x.2.2) = tc
  split_ifs
  · exact hj
  · exact keep _ _ _
  · exact hj
  · exact keep _ _ _
  · exact hj

theorem relaxGraphAll_sim (graph : Graph) (og : OverlayGraph) (metric : Metric)
    (s t cs ct u uId n sId : Nat) (l : List (ForwardEdge × Nat × TURN_TYPE)) :
    ∀ (st st' : Search), Sim n graph.numberOfEdges sId st st' →
      (scratch st.self).labelled uId →
      Sim n graph.numberOfEdges sId (l.foldl (relaxGraph graph og metric s t cs ct u uId) st)
        (l.foldl (relaxGraph graph og metric s t cs ct u uId) st') := by
  induction l with
  | nil => intro st st' h _; exact h
  | cons x rest ih =>
    intro st st' h hu
    rw [List.foldl_cons, List.foldl_cons]
    exact ih _ _ (relaxGraph_sim graph og metric s t cs ct u uId n sId st st' x h hu)
      (relaxGraph_labelled graph og metric s t cs ct u uId n st x h.labels.lenRoundA uId hu)

theorem relaxOverlay_sim (graph : Graph) (og : OverlayGraph) (metric : Metric)
    (cs ct u uId n sId : Nat) (st st' : Search) (x : Nat × Nat)
    (h : Sim n graph.numberOfEdges sId st st') (hu : (scratch st.self).labelled uId)
    (hx : x.1 + graph.numberOfEdges < n) :
    Sim n graph.numberOfEdges sId (relaxOverlay graph og metric cs ct u uId st x)
      (relaxOverlay graph og metric cs ct u uId st' x) := by
  have hd : st'.self.dist.getD uId 0 = st.self.dist.getD uId 0 := (h.labels.val uId hu).1.symm
  have hlenA : st.self.dist.length = n := h.labels.lenDistA
  have hlenB : st'.self.dist.length = n := h.labels.lenDistB
  have h1 := fun nd => sim_label_only h (x.1 + graph.numberOfEdges) nd
    ⟨(og.getVertex u).originalVertex, uId⟩ hu
  have hv1 : ∀ nd, (scratch ({ st with
        self :=
          { st.self with
            dist := st.self.dist.set (x.1 + graph.numberOfEdges) nd
            round := st.self.round.set (x.1 + graph.numberOfEdges) st.self.currentRound
            parent := st.self.parent.set (x.1 + graph.numberOfEdges)
              ⟨(og.getVertex u).originalVertex, uId⟩ } } : Search).self).labelled
      (x.1 + graph.numberOfEdges) := by
    intro nd
    show (Scratch.label (scratch st.self) _ _ _).labelled _
    rw [labelled_label _ n h.labels.lenRoundA]
    exact Or.inl ⟨rfl, hx⟩
  have ht1 : ∀ nd v nd2,
      ((st'.self.round.set (x.1 + graph.numberOfEdges) st'.self.currentRound).getD v 0 <
          st'.self.currentRound ∨
        nd2 < (st'.self.dist.set (x.1 + graph.numberOfEdges) nd).getD v 0) ↔
      ((st.self.round.set (x.1 + graph.numberOfEdges) st.self.currentRound).getD v 0 <
          st.self.currentRound ∨
        nd2 < (st.self.dist.set (x.1 + graph.numberOfEdges) nd).getD v 0) :=
    fun nd v nd2 => sim_test (h1 nd) v nd2
  unfold relaxOverlay
  simp only []
  rw [hd]
  simp only [sim_test h]
  rw [getD_set_eq _ _ _ _ (by rw [hlenA]; exact hx), getD_set_eq _ _ _ _ (by rw [hlenB]; exact hx)]
  simp only [ht1]
  split_ifs <;>
    first
    | exact h
    | exact h1 _
    | exact sim_label_graph (h1 _) _ _ ⟨(og.getVertex x.1).originalVertex, _⟩ (hv1 _) _
    | exact sim_label_overlay (h1 _) _ _ ⟨(og.getVertex x.1).originalVertex, _⟩ (hv1 _)

end CRPQueryUni

theorem label_keeps (a : Scratch) (v nd : Nat) (p : VertexIdPair) (j : Nat)
    (hj : a.labelled j) : (a.label v nd p).labelled j := by
  rw [labelled_label a a.round.length rfl]
  by_cases hc : j = v ∧ v < a.round.length
  · exact Or.inl hc
  · exact Or.inr ⟨hj, hc⟩

namespace CRPQueryUni

theorem relaxOverlay_labelled (graph : Graph) (og : OverlayGraph) (metric : Metric)
    (cs ct u uId : Nat) (st : Search) (x : Nat × Nat) (j : Nat)
    (hj : (scratch st.self).labelled j) :
    (scratch (relaxOverlay graph og metric cs ct u uId st x).self).labelled j := by
  have k1 := fun v nd p => label_keeps (scratch st.self) v nd p j hj
  have k2 := fun v nd p v' nd' p' =>
    label_keeps (Scratch.label (scratch st.self) v nd p) v' nd' p' j (k1 v nd p)
  unfold relaxOverlay
  simp only []
  split_ifs <;>
    first
    | exact hj
    | exact k1 _ _ _
    | exact k2 _ _ _ _ _ _

theorem relaxOverlayAll_sim (graph : Graph) (og : OverlayGraph) (metric : Metric)
    (cs ct u uId n sId : Nat) (l : List (Nat × Nat))
    (hl : ∀ x, x ∈ l → x.1 + graph.numberOfEdges < n) :
    ∀ (st st' : Search), Sim n graph.numberOfEdges sId st st' →
      (scratch st.self).labelled uId →
      Sim n graph.numberOfEdges sId (l.foldl (relaxOverlay graph og metric cs ct u uId) st)
        (l.foldl (relaxOverlay graph og metric cs ct u uId) st') := by
  induction l with
  | nil => intro st st' h _; exact h
  | cons x rest ih =>
    intro st st' h hu
    rw [List.foldl_cons, List.foldl_cons]
    exact ih (fun y hy => hl y (List.mem_cons_of_mem _ hy)) _ _
      (relaxOverlay_sim graph og metric cs ct u uId n sId st st' x h hu
        (hl x (List.mem_cons_self _ _)))
      (relaxOverlay_labelled graph og metric cs ct u uId st x uId hu)

theorem crp_loop_popped (graph : Graph) (og : OverlayGraph) (metric : Metric)
    (s t cs ct fuel : Nat) (st : Search) :
    loop graph og metric s t cs ct (fuel + 1) st =
      if st.self.graphPQ.isEmpty ∧ st.self.overlayGraphPQ.isEmpty then some st
      else if takeGraph st.self.graphPQ st.self.overlayGraphPQ then
        match MinIDQueue.pop st.self.graphPQ with
        | none => some st
        | some (triple, q) =>
          if st.self.round.getD triple.id 0 = st.self.currentRound ∧
              st.self.dist.getD triple.id 0 > st.shortestPath then
            some { st with self := { st.self with graphPQ := q } }
          else
            loop graph og metric s t cs ct fuel
              ((graph.forOutEdgesOf triple.vertexId
                  (graph.getEntryOrder triple.vertexId triple.id)).foldl
                (relaxGraph graph og metric s t cs ct triple.vertexId triple.id)
                (popped st triple q t))
      else
        match MinIDQueue.pop st.self.overlayGraphPQ with
        | none => some st
        | some (pair, q) =>
          if st.self.round.getD (pair.id + graph.numberOfEdges) 0 = st.self.currentRound ∧
              st.self.dist.getD (pair.id + graph.numberOfEdges) 0 > st.shortestPath then
            some { st with self := { st.self with overlayGraphPQ := q } }
          else
            loop graph og metric s t cs ct fuel
              ((og.forOutNeighborsOf pair.id
                  (og.getQueryLevel cs ct (og.getVertex pair.id).cellNumber)).foldl
                (relaxOverlay graph og metric cs ct pair.id (pair.id + graph.numberOfEdges))
                { st with self := { st.self with overlayGraphPQ := q } }) := rfl

theorem crp_popped_sim (n m sId t : Nat) (st st' : Search) (h : Sim n m sId st st')
    (triple : IDKeyTriple) (q : List IDKeyTriple)
    (hpop : MinIDQueue.pop st.self.graphPQ = some (triple, q))
    (hu : (scratch st.self).labelled triple.id) :
    Sim n m sId (popped st triple q t) (popped st' triple q t) ∧
    (scratch (popped st triple q t).self).labelled triple.id := by
  have hd : st'.self.dist.getD triple.id 0 = st.self.dist.getD triple.id 0 :=
    (h.labels.val _ hu).1.symm
  have hq : ∀ p, p ∈ q → (scratch st.self).labelled p.id ∨ n ≤ p.id := fun p hp =>
    h.graphQueued p ((MinIDQueue.mem_pop _ _ _ hpop p).1 hp).1
  unfold popped
  rw [hd, ← h.shortest]
  split_ifs
  · exact ⟨⟨h.labels, rfl, h.overlayQueue, rfl, rfl, hq, h.overlayQueued, Or.inr hu⟩, hu⟩
  · exact ⟨⟨h.labels, rfl, h.overlayQueue, rfl, h.target, hq, h.overlayQueued, h.best⟩, hu⟩
  · exact ⟨⟨h.labels, rfl, h.overlayQueue, rfl, h.target, hq, h.overlayQueued, h.best⟩, hu⟩

/-- The loops of the two queries run in step. -/
theorem crp_loop_sim (graph : Graph) (hg : graph.Consistent) (og : OverlayGraph)
    (exitFlags : List Bool) (hR : og.Routable graph exitFlags) (metric : Metric)
    (s t cs ct sId : Nat) :
    ∀ (fuel : Nat) (st st' : Search),
      Sim (graph.numberOfEdges + og.numberOfVertices) graph.numberOfEdges sId st st' →
      Term graph og exitFlags cs ct st →
      OptSim (FinalSim (graph.numberOfEdges + og.numberOfVertices) sId)
        (loop graph og metric s t cs ct fuel st) (loop graph og metric s t cs ct fuel st') := by
  intro fuel
  induction fuel with
  | zero => intro st st' _ _; exact trivial
  | succ fuel ih =>
    intro st st' h hT
    have hfin : FinalSim (graph.numberOfEdges + og.numberOfVertices) sId st st' :=
      ⟨h.labels, h.shortest, h.target, h.best⟩
    rw [crp_loop_popped, crp_loop_popped, ← h.graphQueue, ← h.overlayQueue]
    split_ifs with c1 c2
    · exact hfin
    · cases hpop : MinIDQueue.pop st.self.graphPQ with
      | none => exact hfin
      | some pr =>
        obtain ⟨triple, q⟩ := pr
        have hmem := (MinIDQueue.pop_spec _ _ _ hpop).1
        obtain ⟨hE, hE0⟩ := hT.graphQ triple hmem
        have hu : (scratch st.self).labelled triple.id := by
          rcases h.graphQueued triple hmem with h1 | h1
          · exact h1
          · have := graph.isEntry_lt hg hE
            omega
        have hd : st'.self.dist.getD triple.id 0 = st.self.dist.getD triple.id 0 :=
          (h.labels.val _ hu).1.symm
        have hr : st'.self.round.getD triple.id 0 = st'.self.currentRound :=
          (h.labels.lab _).1 hu
        have hr0 : st.self.round.getD triple.id 0 = st.self.currentRound := hu
        simp only []
        rw [hd, hr, hr0, ← h.shortest]
        simp only [true_and]
        split_ifs with hb
        · exact ⟨h.labels, rfl, h.target, h.best⟩
        · obtain ⟨hps, hpu⟩ := crp_popped_sim _ graph.numberOfEdges sId t st st' h triple q hpop
            hu
          obtain ⟨sp, ti, hst⟩ := popped_eq st triple q t
          have hT1 : Term graph og exitFlags cs ct (popped st triple q t) := by
            rw [hst]
            exact (popGraph_term graph og exitFlags cs ct st hT triple q hpop sp ti).1
          have hs1 := relaxGraphAll_sim graph og metric s t cs ct triple.vertexId triple.id
            _ sId
            (graph.forOutEdgesOf triple.vertexId
              (graph.getEntryOrder triple.vertexId triple.id)) _ _ hps hpu
          exact ih _ _ hs1 (relaxGraphAll_step graph hg og exitFlags hR metric s t cs ct
            triple.vertexId triple.id _ hE.1 hE0 _ hT1).1
    · cases hpop : MinIDQueue.pop st.self.overlayGraphPQ with
      | none => exact hfin
      | some pr =>
        obtain ⟨pair, q⟩ := pr
        have hmem := (MinIDQueue.pop_spec _ _ _ hpop).1
        have hQ := hT.overlayQ pair hmem
        have hu : (scratch st.self).labelled (pair.id + graph.numberOfEdges) := by
          rcases h.overlayQueued pair hmem with h1 | h1
          · exact h1
          · have := hQ.1
            omega
        have hd : st'.self.dist.getD (pair.id + graph.numberOfEdges) 0 =
            st.self.dist.getD (pair.id + graph.numberOfEdges) 0 := (h.labels.val _ hu).1.symm
        have hr : st'.self.round.getD (pair.id + graph.numberOfEdges) 0 =
            st'.self.currentRound := (h.labels.lab _).1 hu
        have hr0 : st.self.round.getD (pair.id + graph.numberOfEdges) 0 =
            st.self.currentRound := hu
        simp only []
        rw [hd, hr, hr0]
        simp only [true_and]
        have hsp := h.shortest
        split_ifs with hb hb'
        · exact ⟨h.labels, h.shortest, h.target, h.best⟩
        · exfalso; omega
        · exfalso; omega
        · have hps : Sim (graph.numberOfEdges + og.numberOfVertices) graph.numberOfEdges sId
              ({ st with self := { st.self with overlayGraphPQ := q } } : Search)
              ({ st' with self := { st'.self with overlayGraphPQ := q } } : Search) :=
            ⟨h.labels, h.graphQueue, rfl, h.shortest, h.target, h.graphQueued,
              fun p hp => h.overlayQueued p ((MinIDQueue.mem_pop _ _ _ hpop p).1 hp).1, h.best⟩
          have hT1 := (popOverlay_term graph og exitFlags cs ct st hT pair q hpop).1
          have hl : ∀ x, x ∈ og.forOutNeighborsOf pair.id
              (og.getQueryLevel cs ct (og.getVertex pair.id).cellNumber) →
              x.1 + graph.numberOfEdges < graph.numberOfEdges + og.numberOfVertices := by
            intro x hx
            have := (hR.out pair.id _ hQ.1 hQ.2.1 hQ.2.2.1 hQ.2.2.2 x hx).1
            omega
          have hs1 := relaxOverlayAll_sim graph og metric cs ct pair.id
            (pair.id + graph.numberOfEdges) _ sId _ hl _ _ hps hu
          exact ih _ _ hs1 (relaxOverlayAll_step graph hg og exitFlags hR metric cs ct pair.id
            _ hQ _ hT1).1

end CRPQueryUni

namespace CRPQueryUni

theorem crp_pathLoop_sim {n sId : Nat} {a b : Scratch} (h : ScratchSim n sId a b) :
    ∀ (fuel uId : Nat) (path : List Nat) (idPath : List VertexIdPair), a.labelled uId →
      pathLoop a.parent sId fuel uId path idPath = pathLoop b.parent sId fuel uId path idPath := by
  intro fuel
  induction fuel with
  | zero => intro uId path idPath _; rfl
  | succ fuel ih =>
    intro uId path idPath hu
    unfold pathLoop
    split_ifs with hc
    · rfl
    · rw [← (h.val uId hu).2]
      exact ih _ _ _ (h.chain uId hu hc)

theorem crp_start_sim (graph : Graph) (hg : graph.Consistent) (og : OverlayGraph)
    (self : CRPQueryUni) (hv : Valid graph og self) (hround : self.currentRound < 4294967295)
    (sourceEdgeId : Nat) (hs : sourceEdgeId < graph.numberOfEdges) :
    Sim (graph.numberOfEdges + og.numberOfVertices) graph.numberOfEdges
      (graph.getEntryOffset (graph.getForwardEdge sourceEdgeId).head +
        (graph.getForwardEdge sourceEdgeId).entryPoint)
      (start graph self sourceEdgeId) (start graph (create graph og) sourceEdgeId) := by
  have hsE := graph.source_isEntry hg sourceEdgeId hs
  have hsn := graph.isEntry_lt hg hsE
  have hsn' : graph.getEntryOffset (graph.getForwardEdge sourceEdgeId).head +
      (graph.getForwardEdge sourceEdgeId).entryPoint <
      graph.numberOfEdges + og.numberOfVertices := by omega
  have e1 : u32 (self.currentRound + 1) = self.currentRound + 1 :=
    u32_of_lt (show self.currentRound + 1 < 4294967296 by omega)
  have e2 : u32 ((create graph og).currentRound + 1) = 1 := rfl
  have hlab := scratchSim_start (graph.numberOfEdges + og.numberOfVertices) _ hsn' self.dist
    self.round self.parent self.currentRound hv.lenDist hv.lenRound hv.lenParent hv.rounds
    ⟨(graph.getForwardEdge sourceEdgeId).head,
      graph.getEntryOffset (graph.getForwardEdge sourceEdgeId).head +
        (graph.getForwardEdge sourceEdgeId).entryPoint⟩
  have hsrc : (scratch (start graph self sourceEdgeId).self).labelled
      (graph.getEntryOffset (graph.getForwardEdge sourceEdgeId).head +
        (graph.getForwardEdge sourceEdgeId).entryPoint) := by
    show (self.round.set _ _).getD _ 0 = u32 (self.currentRound + 1)
    rw [getD_set_eq _ _ _ _ (by rw [hv.lenRound]; exact hsn')]
  refine ⟨?_, rfl, rfl, rfl, rfl, ?_, ?_, Or.inl rfl⟩
  · show ScratchSim _ _
      ⟨self.dist.set _ 0, self.round.set _ (u32 (self.currentRound + 1)), self.parent.set _ _,
        u32 (self.currentRound + 1)⟩
      ⟨(create graph og).dist.set _ 0,
        (create graph og).round.set _ (u32 ((create graph og).currentRound + 1)),
        (create graph og).parent.set _ _, u32 ((create graph og).currentRound + 1)⟩
    rw [e1, e2]
    exact hlab
  · intro p hp
    have hp' : p = ⟨graph.getEntryOffset (graph.getForwardEdge sourceEdgeId).head +
        (graph.getForwardEdge sourceEdgeId).entryPoint,
        (graph.getForwardEdge sourceEdgeId).head, 0⟩ := by
      simpa [start, MinIDQueue.push] using hp
    subst hp'
    exact Or.inl hsrc
  · intro p hp
    exact absurd hp (List.not_mem_nil _)

/-- The result of `CRPQueryUni::edgeQuery` on an object that earlier queries have used is the
result on a fresh object, and the calls leave the path unpacker in the same state. -/
theorem crp_edgeQuery_fresh (graph : Graph) (hg : graph.Consistent) (og : OverlayGraph)
    (exitFlags : List Bool) (hR : og.Routable graph exitFlags) (metric : Metric) (fuel : Nat)
    (self : CRPQueryUni) (hv : Valid graph og self) (hround : self.currentRound < 4294967295)
    (pathUnpacker : PathUnpacker) (sourceEdgeId targetEdgeId : Nat)
    (hs : sourceEdgeId < graph.numberOfEdges) :
    (edgeQuery graph og metric fuel self pathUnpacker sourceEdgeId targetEdgeId).map
        (fun r => (r.1, r.2.2)) =
      (edgeQuery graph og metric fuel (create graph og) pathUnpacker sourceEdgeId
        targetEdgeId).map (fun r => (r.1, r.2.2)) := by
  have hsim := crp_start_sim graph hg og self hv hround sourceEdgeId hs
  have hT := start_term graph hg og exitFlags self hv sourceEdgeId hs
    (graph.getCellNumber (graph.getBackwardEdge targetEdgeId).tail)
  have hl := crp_loop_sim graph hg og exitFlags hR metric
    (graph.getForwardEdge sourceEdgeId).head (graph.getBackwardEdge targetEdgeId).tail
    (graph.getCellNumber (graph.getForwardEdge sourceEdgeId).head)
    (graph.getCellNumber (graph.getBackwardEdge targetEdgeId).tail) _ fuel _ _ hsim hT
  rw [crp_edgeQuery_start, crp_edgeQuery_start]
  rcases optSim_some hl with ⟨e1, e2⟩ | ⟨a, b, e1, e2, hf⟩
  · rw [e1, e2]
  · rw [e1, e2]
    simp only []
    rw [← hf.shortest, ← hf.target]
    split_ifs with hc
    · rfl
    · have hlab : (scratch a.self).labelled a.tId := by
        rcases hf.best with h1 | h1
        · exact absurd h1 hc
        · exact h1
      have hp : pathLoop a.self.parent
          (graph.getEntryOffset (graph.getForwardEdge sourceEdgeId).head +
            (graph.getForwardEdge sourceEdgeId).entryPoint) fuel a.tId
          [(graph.getBackwardEdge targetEdgeId).tail]
          [⟨(graph.getBackwardEdge targetEdgeId).tail, a.tId⟩] =
          pathLoop b.self.parent
          (graph.getEntryOffset (graph.getForwardEdge sourceEdgeId).head +
            (graph.getForwardEdge sourceEdgeId).entryPoint) fuel a.tId
          [(graph.getBackwardEdge targetEdgeId).tail]
          [⟨(graph.getBackwardEdge targetEdgeId).tail, a.tId⟩] :=
        crp_pathLoop_sim hf.labels fuel a.tId _ _ hlab
      rw [hp]
      cases pathLoop b.self.parent
          (graph.getEntryOffset (graph.getForwardEdge sourceEdgeId).head +
            (graph.getForwardEdge sourceEdgeId).entryPoint) fuel a.tId
          [(graph.getBackwardEdge targetEdgeId).tail]
          [⟨(graph.getBackwardEdge targetEdgeId).tail, a.tId⟩] with
      | none => rfl
      | some pr =>
        obtain ⟨path, idPath⟩ := pr
        simp only []
        cases PathUnpacker.unpackPath graph og metric fuel pathUnpacker idPath.reverse
          (graph.getCellNumber (graph.getForwardEdge sourceEdgeId).head)
          (graph.getCellNumber (graph.getBackwardEdge targetEdgeId).tail) with
        | none => rfl
        | some r => rfl

end CRPQueryUni

/-- The object that `Dijkstra::edgeQuery` leaves satisfies the invariant of the objects. -/
theorem Dijkstra.edgeQuery_valid (graph : Graph) (hg : graph.Consistent) (metric : Metric)
    (fuel : Nat) (self : Dijkstra) (hv : Dijkstra.Valid graph self)
    (hround : self.currentRound < 4294967295) (sourceEdgeId targetEdgeId : Nat)
    (hs : sourceEdgeId < graph.numberOfEdges) (r : QueryResult) (self' : Dijkstra)
    (he : Dijkstra.edgeQuery graph metric fuel self sourceEdgeId targetEdgeId =
      some (r, self')) : Dijkstra.Valid graph self' := by
  obtain ⟨hsim, hT⟩ := Dijkstra.start_sim graph hg self hv hround sourceEdgeId hs
  have hl := Dijkstra.loop_sim graph hg metric (graph.getForwardEdge sourceEdgeId).head
    (graph.getBackwardEdge targetEdgeId).tail _ fuel _ _ hsim hT
  rw [Dijkstra.edgeQuery_start] at he
  rcases optSim_some hl with ⟨e1, _⟩ | ⟨a, b, e1, _, hf⟩
  · rw [e1] at he
    exact absurd he (by simp)
  · rw [e1] at he
    simp only [] at he
    have hva : Dijkstra.Valid graph a.self :=
      ⟨hf.labels.lenDistA, hf.labels.lenRoundA, hf.labels.lenParentA, hf.labels.leA⟩
    split_ifs at he
    · cases he; exact hva
    · split at he
      · exact absurd he (by simp)
      · cases he; exact hva

/-- The object that `CRPQueryUni::edgeQuery` leaves satisfies the invariant of the
objects. -/
theorem CRPQueryUni.crp_edgeQuery_valid (graph : Graph) (hg : graph.Consistent)
    (og : OverlayGraph) (exitFlags : List Bool) (hR : og.Routable graph exitFlags)
    (metric : Metric) (fuel : Nat) (self : CRPQueryUni)
    (hv : CRPQueryUni.Valid graph og self) (hround : self.currentRound < 4294967295)
    (pathUnpacker : PathUnpacker) (sourceEdgeId targetEdgeId : Nat)
    (hs : sourceEdgeId < graph.numberOfEdges) (r : QueryResult) (self' : CRPQueryUni)
    (pathUnpacker' : PathUnpacker)
    (he : CRPQueryUni.edgeQuery graph og metric fuel self pathUnpacker sourceEdgeId
      targetEdgeId = some (r, self', pathUnpacker')) : CRPQueryUni.Valid graph og self' := by
  have hsim := CRPQueryUni.crp_start_sim graph hg og self hv hround sourceEdgeId hs
  have hT := CRPQueryUni.start_term graph hg og exitFlags self hv sourceEdgeId hs
    (graph.getCellNumber (graph.getBackwardEdge targetEdgeId).tail)
  have hl := CRPQueryUni.crp_loop_sim graph hg og exitFlags hR metric
    (graph.getForwardEdge sourceEdgeId).head (graph.getBackwardEdge targetEdgeId).tail
    (graph.getCellNumber (graph.getForwardEdge sourceEdgeId).head)
    (graph.getCellNumber (graph.getBackwardEdge targetEdgeId).tail) _ fuel _ _ hsim hT
  rw [CRPQueryUni.crp_edgeQuery_start] at he
  rcases optSim_some hl with ⟨e1, _⟩ | ⟨a, b, e1, _, hf⟩
  · rw [e1] at he
    exact absurd he (by simp)
  · rw [e1] at he
    simp only [] at he
    have hva : CRPQueryUni.Valid graph og
        { a.self with graphPQ := [], overlayGraphPQ := [] } :=
      ⟨hf.labels.lenDistA, hf.labels.lenRoundA, hf.labels.lenParentA, hf.labels.leA⟩
    split_ifs at he
    · cases he; exact hva
    · split at he
      · exact absurd he (by simp)
      · split at he
        · exact absurd he (by simp)
        · cases he; exact hva

/-- The object `testUsedDijkstra` satisfies the invariant of the objects. -/
theorem testUsedDijkstra_valid : Dijkstra.Valid testSortedGraph testUsedDijkstra := by
  unfold testUsedDijkstra
  cases he : Dijkstra.edgeQuery testSortedGraph ⟨HopFunction, [], [], []⟩ 1000
    (Dijkstra.create testSortedGraph) 1 0 with
  | none => exact Dijkstra.create_valid testSortedGraph
  | some r =>
    exact Dijkstra.edgeQuery_valid testSortedGraph testSortedGraph_consistent _ 1000 _
      (Dijkstra.create_valid testSortedGraph) (by decide) 1 0 (by decide) r.1 r.2 he

/-- The object `testUsedQuery` satisfies the invariant of the objects. -/
theorem testUsedQuery_valid :
    CRPQueryUni.Valid (OverlayGraph.build testSortedGraph testPartition).2.2
      (OverlayGraph.build testSortedGraph testPartition).1 testUsedQuery := by
  unfold testUsedQuery
  cases he : CRPQueryUni.edgeQuery (OverlayGraph.build testSortedGraph testPartition).2.2
    (OverlayGraph.build testSortedGraph testPartition).1
    ⟨HopFunction, [1, 0, 0, 1, 2, 1, 1, 0, inf_weight, inf_weight, 1, 0, 0, 0, 0, 1, 1, 1, 1, 1,
      0, 0], [], []⟩ 1000
    (CRPQueryUni.create (OverlayGraph.build testSortedGraph testPartition).2.2
      (OverlayGraph.build testSortedGraph testPartition).1)
    (PathUnpacker.create (OverlayGraph.build testSortedGraph testPartition).2.2
      (OverlayGraph.build testSortedGraph testPartition).1) 1 1 with
  | none => exact CRPQueryUni.crp_create_valid _ _
  | some r =>
    exact CRPQueryUni.crp_edgeQuery_valid _
      (build_consistent testSortedGraph testPartition testSortedGraph_consistent) _ _
      (build_routable testSortedGraph testPartition testSortedGraph_consistent
        testPartition_mono testPartition_levels testOverlay_size) _ 1000 _
      (CRPQueryUni.crp_create_valid _ _) (by decide) _ 1 1 (by decide) r.1 r.2.1 r.2.2 he

end CRP


namespace CRP

/-! ## The cells of the overlay graph of the constructor -/

theorem buildCells_wired (g : Graph) (li : LevelInfo) (L : Nat)
    (hmono : li.offset.Pairwise (fun a b => a ≤ b)) (hlev : li.getLevelCount = L) :
    (OverlayGraph.buildCells li L (OverlayGraph.buildOverlayVertices g li L)).Wired
      (OverlayGraph.buildOverlayVertices g li L).exitFlagsArray := by
  have wf := buildOverlayVertices_wf g li L
  have hinv := buildCellsState_inv li L (OverlayGraph.buildOverlayVertices g li L)
  have hn := (buildCells_fields li L (OverlayGraph.buildOverlayVertices g li L) 0).1
  have hlen : (OverlayGraph.buildCells li L
      (OverlayGraph.buildOverlayVertices g li L)).cellMapping.length = L := hinv.lenMap
  have hL : ∀ l k C, 1 ≤ l → (k, C) ∈ (OverlayGraph.buildCells li L
      (OverlayGraph.buildOverlayVertices g li L)).forCells l → l ≤ L := by
    intro l k C hl hm
    by_contra hc
    have : (OverlayGraph.buildCells li L
        (OverlayGraph.buildOverlayVertices g li L)).forCells l = [] := by
      unfold OverlayGraph.forCells
      rw [List.getD_eq_default _ _ (by rw [hlen]; omega)]
    rw [this] at hm
    exact absurd hm (List.not_mem_nil _)
  have hwb := weight_blocks li L (OverlayGraph.buildOverlayVertices g li L)
  refine ⟨hmono, ?_, ?_, ?_, ?_, ?_, ?_, ?_⟩
  · intro l k C hl hm
    rw [buildCells_levelInfo, hlev]
    exact hL l k C hl hm
  · intro x hx
    exact (twin_neighbor g li L x hx).2.1
  · intro l k C hl hm i hi
    exact ((entry_points li L _ wf l (by omega) (hL l k C hl hm) k C hm).1 i hi).2.2.2.1
  · intro l k C hl hm j hj
    obtain ⟨e1, _, e3, e4, _⟩ := (exit_points li L _ wf l (by omega) (hL l k C hl hm) k C hm).1 j hj
    exact ⟨e1, e3, e4⟩
  · intro x l hx hf hl1 hl2
    obtain ⟨hlL, _, _⟩ := buildCells_cell_exists g li L x l hx hl1 hl2
    have hxl := (level_iff li L _ wf l hl1 hlL x hx).1 hl2
    obtain ⟨C, hC, _, _⟩ := cell_of_vertex li _ L (OverlayGraph.levelsDown L) _
      (buildCellsState_inv li L (OverlayGraph.buildOverlayVertices g li L)) (l - 1)
      ((mem_levelsDown L (l - 1)).2 (by omega)) x hxl
    have hCm : (levelKey li (OverlayGraph.buildOverlayVertices g li L).overlayVertices (l - 1) x,
        C) ∈ (OverlayGraph.buildCells li L
          (OverlayGraph.buildOverlayVertices g li L)).forCells l := cellFind_mem hC
    have hkey := key_eq li L (OverlayGraph.buildOverlayVertices g li L) l hl1 x
    obtain ⟨i, hi, hix⟩ := (entry_points li L _ wf l hl1 hlL _ C hCm).2 x hx hf hl2 hkey
    have hout := out_neighbors li L _ wf l hl1 hlL _ C hCm i hi
    rw [hix] at hout
    exact ⟨_, C, i, hCm, hi, hix.symm, hout⟩
  · intro l k C i j l' k' C' i' j' hl hm hi hj hl' hm' hi' hj' he
    have hlL := hL l k C hl hm
    have hlL' := hL l' k' C' hl' hm'
    have h1 : i * C.numExitPoints + j < C.numEntryPoints * C.numExitPoints := by
      have : (i + 1) * C.numExitPoints ≤ C.numEntryPoints * C.numExitPoints :=
        Nat.mul_le_mul_right _ (by omega)
      rw [Nat.add_mul] at this
      omega
    have h1' : i' * C'.numExitPoints + j' < C'.numEntryPoints * C'.numExitPoints := by
      have : (i' + 1) * C'.numExitPoints ≤ C'.numEntryPoints * C'.numExitPoints :=
        Nat.mul_le_mul_right _ (by omega)
      rw [Nat.add_mul] at this
      omega
    by_cases hlk : l ≠ l' ∨ k ≠ k'
    · exfalso
      rcases hwb.1 l k C l' k' C' (by omega) hlL hm (by omega) hlL' hm' hlk with h | h <;> omega
    · have hll : l = l' := by
        by_contra hc; exact hlk (Or.inl hc)
      have hkk : k = k' := by
        by_contra hc; exact hlk (Or.inr hc)
      subst hll
      subst hkk
      have hF := forCells_cellFind li L _ l (by omega) hlL k C hm
      have hF' := forCells_cellFind li L _ l (by omega) hlL k C' hm'
      rw [hF] at hF'
      simp only [Option.some.injEq] at hF'
      subst hF'
      have he2 : i * C.numExitPoints + j = i' * C.numExitPoints + j' := by omega
      have hij : i = i' := by
        rcases Nat.lt_trichotomy i i' with h | h | h
        · exfalso
          have : (i + 1) * C.numExitPoints ≤ i' * C.numExitPoints :=
            Nat.mul_le_mul_right _ (by omega)
          rw [Nat.add_mul] at this
          omega
        · exact h
        · exfalso
          have : (i' + 1) * C.numExitPoints ≤ i * C.numExitPoints :=
            Nat.mul_le_mul_right _ (by omega)
          rw [Nat.add_mul] at this
          omega
      subst hij
      exact ⟨rfl, rfl, rfl, rfl, by omega⟩
  · intro l k C i j hl hm hi hj
    have hlL := hL l k C hl hm
    have h1 : i * C.numExitPoints + j < C.numEntryPoints * C.numExitPoints := by
      have : (i + 1) * C.numExitPoints ≤ C.numEntryPoints * C.numExitPoints :=
        Nat.mul_le_mul_right _ (by omega)
      rw [Nat.add_mul] at this
      omega
    have := hwb.2.1 l k C (by omega) hlL hm
    show _ < (OverlayGraph.buildCells li L
      (OverlayGraph.buildOverlayVertices g li L)).weightVectorSize
    omega

/-- The overlay graph of the constructor `OverlayGraph(graph, mlp)` serves the searches on
the overlay graph. -/
theorem build_wired (graph : Graph) (mlp : MultiLevelPartition)
    (hmono : mlp.getPVOffsets.Pairwise (fun a b => a ≤ b))
    (hlevels : mlp.getPVOffsets.length = mlp.getNumberOfLevels + 1) :
    (OverlayGraph.build graph mlp).1.Wired (OverlayGraph.build graph mlp).2.1 :=
  buildCells_wired graph ⟨mlp.getPVOffsets⟩ mlp.getNumberOfLevels hmono
    (by unfold LevelInfo.getLevelCount; show mlp.getPVOffsets.length - 1 = _; omega)

end CRP

namespace CRP

/-! ## The arcs of the searches on the overlay graph -/

namespace OverlayGraph

/-- An arc out of a vertex of the cell leads to a vertex of the cell with the other exit
flag. -/
theorem oedge_inCell (graph : Graph) (og : OverlayGraph) (exitFlags : List Bool)
    (hR : og.Routable graph exitFlags) (hW : og.Wired exitFlags) (cf : CostFunction)
    (weights : List Nat) (l k : Nat) (hl : 2 ≤ l) (hL : l ≤ og.levelInfo.getLevelCount)
    {a b c : Nat} (ha : og.InCell l k a)
    (he : og.OEdge graph exitFlags cf weights l k a b c) :
    og.InCell l k b ∧ exitFlags.getD b false = !exitFlags.getD a false := by
  obtain ⟨a1, a2, a3⟩ := ha
  rcases he with ⟨hf, wo, hmem, _⟩ | ⟨hf, hb, hk, _⟩
  · obtain ⟨e1, e2, e3, e4⟩ := hR.out a (l - 1) a1 hf (by omega) a2 (b, wo) hmem
    refine ⟨⟨e1, e3, ?_⟩, by rw [e2, hf]; rfl⟩
    rw [← a3]
    by_contra hne
    have := (truncate_ne_iff og.levelInfo hW.mono _ _ l (by omega) hL).1 (fun e => hne e.symm)
    have e4' : og.levelInfo.getHighestDifferingLevel (og.getVertex a).cellNumber
        (og.getVertex b).cellNumber < l - 1 := e4
    omega
  · obtain ⟨t1, t2, t3, t4, _⟩ := hR.twin a a1 hf
    subst hb
    exact ⟨⟨t1, by rw [t4, ← t3]; exact a2, hk⟩, by rw [t2, hf]; rfl⟩

theorem reach_inCell (graph : Graph) (og : OverlayGraph) (exitFlags : List Bool)
    (hR : og.Routable graph exitFlags) (hW : og.Wired exitFlags) (cf : CostFunction)
    (weights : List Nat) (l k : Nat) (hl : 2 ≤ l) (hL : l ≤ og.levelInfo.getLevelCount)
    {s x d : Nat} (hs : og.InCell l k s)
    (h : Reach (og.OEdge graph exitFlags cf weights l k) s x d) : og.InCell l k x := by
  induction h with
  | start => exact hs
  | step _ he ih => exact (oedge_inCell graph og exitFlags hR hW cf weights l k hl hL ih he).1

/-- The index of the weight of an arc from an entry vertex of the cell is the index of a
weight of a cell of the level below. -/
theorem hop_weightAt (og : OverlayGraph) (exitFlags : List Bool)
    (hW : og.Wired exitFlags) (l k : Nat) (hl : 2 ≤ l) {a : Nat} (ha : og.InCell l k a)
    (hf : exitFlags.getD a false = false) {p : Nat × Nat}
    (hp : p ∈ og.forOutNeighborsOf a (l - 1)) : og.WeightAt (l - 1) p.2 := by
  obtain ⟨k', C, i, hC, hi, _, hout⟩ := hW.hop a (l - 1) ha.1 hf (by omega) ha.2.1
  rw [hout] at hp
  obtain ⟨j, hj, rfl⟩ := List.mem_map.1 hp
  exact ⟨k', C, i, j, hC, hi, List.mem_range.1 hj, rfl⟩

/-- An arc stays an arc of the same cost when the weights of the level below stay. -/
theorem oedge_frame (graph : Graph) (og : OverlayGraph) (exitFlags : List Bool)
    (hW : og.Wired exitFlags) (cf : CostFunction) (weights weights' : List Nat) (l k : Nat)
    (hl : 2 ≤ l)
    (hfr : ∀ wo, og.WeightAt (l - 1) wo → weights'.getD wo 0 = weights.getD wo 0)
    {a b c : Nat} (ha : og.InCell l k a)
    (he : og.OEdge graph exitFlags cf weights l k a b c) :
    og.OEdge graph exitFlags cf weights' l k a b c := by
  rcases he with ⟨hf, wo, hmem, hc⟩ | h
  · refine Or.inl ⟨hf, wo, hmem, ?_⟩
    rw [hc]
    exact (hfr wo (hop_weightAt og exitFlags hW l k hl ha hf hmem)).symm
  · exact Or.inr h

theorem reach_frame (graph : Graph) (og : OverlayGraph) (exitFlags : List Bool)
    (hR : og.Routable graph exitFlags) (hW : og.Wired exitFlags) (cf : CostFunction)
    (weights weights' : List Nat) (l k : Nat) (hl : 2 ≤ l)
    (hL : l ≤ og.levelInfo.getLevelCount)
    (hfr : ∀ wo, og.WeightAt (l - 1) wo → weights'.getD wo 0 = weights.getD wo 0)
    {s x d : Nat} (hs : og.InCell l k s)
    (h : Reach (og.OEdge graph exitFlags cf weights l k) s x d) :
    Reach (og.OEdge graph exitFlags cf weights' l k) s x d := by
  induction h with
  | start => exact Reach.start
  | step hprev he ih =>
    exact Reach.step ih (oedge_frame graph og exitFlags hW cf weights weights' l k hl hfr
      (reach_inCell graph og exitFlags hR hW cf weights l k hl hL hs hprev) he)

/-- The entry points of a cell are vertices of the cell. -/
theorem entryPoint_inCell (og : OverlayGraph) (exitFlags : List Bool)
    (hC : og.CellsOk exitFlags) (hW : og.Wired exitFlags) (l k : Nat) (C : Cell) (hl : 1 ≤ l)
    (hm : (k, C) ∈ og.forCells l) (i : Nat) (hi : i < C.numEntryPoints) :
    og.InCell l k (og.getEntryPoint C i) := by
  obtain ⟨c1, _, c3⟩ := hC.entry l k C hl hm i hi
  exact ⟨c1, Nat.le_trans (Nat.sub_le l 1) c3, hW.entryKey l k C hl hm i hi⟩

/-- A write to a weight of the level `m` keeps the weights of the other levels. -/
theorem weightAt_ne (og : OverlayGraph) (exitFlags : List Bool) (hW : og.Wired exitFlags)
    (m m' wo wo' : Nat) (hm : 1 ≤ m) (hm' : 1 ≤ m') (h : og.WeightAt m wo)
    (h' : og.WeightAt m' wo') (hne : m ≠ m') : wo ≠ wo' := by
  obtain ⟨k, C, i, j, hC, hi, hj, rfl⟩ := h
  obtain ⟨k', C', i', j', hC', hi', hj', rfl⟩ := h'
  intro e
  exact hne (hW.index m k C i j m' k' C' i' j' hm hC hi hj hm' hC' hi' hj' e).1

end OverlayGraph

end CRP


namespace CRP

/-! ## The weights of the customization are costs of walks -/

namespace OverlayWeights

theorem levelRelax_weights (graph : Graph) (og : OverlayGraph) (cf : CostFunction)
    (l k : Nat) (minPair : IDKeyPair) (st : Upper) (x : Nat × Nat) :
    (levelRelax graph og cf l k minPair st x).weights = st.weights := by
  unfold levelRelax
  simp only []
  split_ifs <;> rfl

theorem levelRelax_sound (graph : Graph) (og : OverlayGraph) (exitFlags : List Bool)
    (hR : og.Routable graph exitFlags) (cf : CostFunction) (hb : cf.Bounded) (l k s : Nat)
    (hl : 2 ≤ l) (minPair : IDKeyPair)
    (hq : minPair.id < og.numberOfVertices ∧ exitFlags.getD minPair.id false = false ∧
      l - 1 ≤ (og.getVertex minPair.id).entryExitPoint.length)
    (hkey : minPair.key < 2 * inf_weight) (st : Upper)
    (hreach : Reach (og.OEdge graph exitFlags cf st.weights l k) s minPair.id minPair.key)
    (x : Nat × Nat) (hx : x ∈ og.forOutNeighborsOf minPair.id (l - 1))
    (hB : UpperBound og exitFlags l st) (h : UpperSound graph og exitFlags cf l k s st) :
    UpperSound graph og exitFlags cf l k s (levelRelax graph og cf l k minPair st x) := by
  obtain ⟨e1, e2, e3, _⟩ := hR.out minPair.id (l - 1) hq.1 hq.2.1 (by omega) hq.2.2 x hx
  obtain ⟨t1, t2, t3, t4, _⟩ := hR.twin x.1 e1 e2
  have hw := hB.weights x.2
  have hinf : inf_weight = 1431655765 := rfl
  have hnew : u32 (minPair.key + st.weights.getD x.2 0) = minPair.key + st.weights.getD x.2 0 :=
    u32_of_lt (by omega)
  have hexit : Reach (og.OEdge graph exitFlags cf st.weights l k) s x.1
      (minPair.key + st.weights.getD x.2 0) :=
    Reach.step hreach (Or.inl ⟨hq.2.1, x.2, hx, rfl⟩)
  have hne : x.1 ≠ (og.getVertex x.1).neighborOverlayVertex := by
    intro e
    rw [← e, e2] at t2
    exact absurd t2 (by simp)
  have hlab1 : ∀ y, exitFlags.getD y false = true →
      (st.round.set x.1 st.currentRound).getD y 0 = st.currentRound →
      Reach (og.OEdge graph exitFlags cf st.weights l k) s y
        ((st.dist.set x.1 (minPair.key + st.weights.getD x.2 0)).getD y 0) := by
    intro y hy hr
    by_cases hyx : x.1 = y
    · subst hyx
      have hlt : x.1 < st.round.length := by
        by_contra hc
        rw [getD_set_of_ge _ _ _ _ _ (by omega)] at hr
        rw [List.getD_eq_default _ _ (by omega)] at hr
        have := h.pos
        omega
      rw [getD_set_eq _ _ _ _ (by rw [h.len]; exact hlt)]
      exact hexit
    · rw [getD_set_ne _ _ _ _ _ hyx] at hr ⊢
      exact h.lab y hy hr
  have hrounds : ∀ (r : List Nat) (z : Nat), (∀ y, r.getD y 0 ≤ st.currentRound) →
      ∀ y, (r.set z st.currentRound).getD y 0 ≤ st.currentRound := by
    intro r z hr y
    rw [getD_set_self_or]
    split_ifs
    · exact le_refl _
    · exact hr y
  unfold levelRelax
  simp only []
  rw [hnew]
  split_ifs with h1 h2 h3 h4
  · exact h
  · exact h
  · exact ⟨by simp only [List.length_set]; exact h.len, h.pos, hrounds _ _ h.rounds, hlab1,
      h.queue⟩
  · have hw2 := hb.weight (graph.getForwardEdge (og.getVertex x.1).originalEdge).attributes
    have hnew2 : u32 (minPair.key + st.weights.getD x.2 0 +
        cf.getWeight (graph.getForwardEdge (og.getVertex x.1).originalEdge).attributes) =
        minPair.key + st.weights.getD x.2 0 +
        cf.getWeight (graph.getForwardEdge (og.getVertex x.1).originalEdge).attributes :=
      u32_of_lt (by omega)
    rw [hnew2]
    refine ⟨by simp only [List.length_set]; exact h.len, h.pos, hrounds _ _ h.rounds, ?_, ?_⟩
    · intro y hy hr
      have hyn : (og.getVertex x.1).neighborOverlayVertex ≠ y := by
        intro e
        rw [← e, t2] at hy
        exact absurd hy (by simp)
      show Reach _ s y (((st.dist.set x.1 _).set _ _).getD y 0)
      rw [getD_set_ne _ _ _ _ _ hyn]
      exact hlab1 y hy hr
    · intro p hp
      have hc := (MinIDQueue.contains_id_iff st.queue _).1 h4
      rcases (MinIDQueue.mem_decrease_key st.queue _ p (by
        obtain ⟨b, hb', hbi⟩ := hc
        exact ⟨b, hb', hbi⟩)).1 hp with rfl | ⟨hp', _⟩
      · refine ⟨t2, ?_, ?_⟩
        · show minPair.key + st.weights.getD x.2 0 + _ < 2 * inf_weight
          omega
        · exact Reach.step hexit (Or.inr ⟨e2, rfl, by
            by_contra hc'
            exact h3 hc', rfl⟩)
      · exact h.queue p hp'
  · have hw2 := hb.weight (graph.getForwardEdge (og.getVertex x.1).originalEdge).attributes
    have hnew2 : u32 (minPair.key + st.weights.getD x.2 0 +
        cf.getWeight (graph.getForwardEdge (og.getVertex x.1).originalEdge).attributes) =
        minPair.key + st.weights.getD x.2 0 +
        cf.getWeight (graph.getForwardEdge (og.getVertex x.1).originalEdge).attributes :=
      u32_of_lt (by omega)
    rw [hnew2]
    refine ⟨by simp only [List.length_set]; exact h.len, h.pos,
      hrounds _ _ (hrounds _ _ h.rounds), ?_, ?_⟩
    · intro y hy hr
      have hyn : (og.getVertex x.1).neighborOverlayVertex ≠ y := by
        intro e
        rw [← e, t2] at hy
        exact absurd hy (by simp)
      show Reach _ s y (((st.dist.set x.1 _).set _ _).getD y 0)
      rw [getD_set_ne _ _ _ _ _ hyn]
      have hr' : (((st.round.set x.1 st.currentRound).set _ st.currentRound).getD y 0) =
          st.currentRound := hr
      rw [getD_set_ne _ _ _ _ _ hyn] at hr'
      exact hlab1 y hy hr'
    · intro p hp
      rcases List.mem_append.1 hp with hp' | hp'
      · exact h.queue p hp'
      · rw [List.mem_singleton.1 hp']
        refine ⟨t2, ?_, ?_⟩
        · show minPair.key + st.weights.getD x.2 0 + _ < 2 * inf_weight
          omega
        · exact Reach.step hexit (Or.inr ⟨e2, rfl, by
            by_contra hc'
            exact h3 hc', rfl⟩)

theorem levelLoop_sound (graph : Graph) (og : OverlayGraph) (exitFlags : List Bool)
    (hR : og.Routable graph exitFlags) (cf : CostFunction) (hb : cf.Bounded) (l k s : Nat)
    (hl : 2 ≤ l) :
    ∀ (fuel : Nat) (st st' : Upper), UpperBound og exitFlags l st →
      UpperSound graph og exitFlags cf l k s st →
      levelLoop graph og cf l k fuel st = some st' →
      UpperSound graph og exitFlags cf l k s st' ∧ st'.queue = [] ∧
        st'.weights = st.weights := by
  intro fuel
  induction fuel with
  | zero => intro st st' _ _ h; simp [levelLoop] at h
  | succ fuel ih =>
    intro st st' hB hS h
    unfold levelLoop at h
    split at h
    · rename_i hpop
      cases h
      exact ⟨hS, (MinIDQueue.pop_eq_none _).1 hpop, rfl⟩
    · rename_i minPair q hpop
      have hmem := (MinIDQueue.pop_spec _ _ _ hpop).1
      have hq := hB.queue minPair hmem
      obtain ⟨_, q2, q3⟩ := hS.queue minPair hmem
      have hB0 : UpperBound og exitFlags l { st with queue := q } :=
        ⟨hB.dist, hB.weights, fun p hp =>
          hB.queue p ((MinIDQueue.mem_pop _ _ _ hpop p).1 hp).1⟩
      have hS0 : UpperSound graph og exitFlags cf l k s { st with queue := q } :=
        ⟨hS.len, hS.pos, hS.rounds, hS.lab, fun p hp =>
          hS.queue p ((MinIDQueue.mem_pop _ _ _ hpop p).1 hp).1⟩
      have hfold := foldl_preserves
        (fun b : Upper => UpperBound og exitFlags l b ∧
          UpperSound graph og exitFlags cf l k s b ∧ b.weights = st.weights)
        (levelRelax graph og cf l k minPair) (og.forOutNeighborsOf minPair.id (l - 1))
        { st with queue := q } ⟨hB0, hS0, rfl⟩
        (fun b a ha hb' =>
          ⟨levelRelax_bound graph og exitFlags hR cf l k hl minPair hq b a ha hb'.1,
            levelRelax_sound graph og exitFlags hR cf hb l k s hl minPair hq q2 b
              (by rw [hb'.2.2]; exact q3) a ha hb'.1 hb'.2.1,
            (levelRelax_weights graph og cf l k minPair b a).trans hb'.2.2⟩)
      obtain ⟨a1, a2, a3⟩ := ih _ _ hfold.1 hfold.2.1 h
      exact ⟨a1, a2, a3.trans hfold.2.2⟩

/-- A write to the weight of a pair of points of a cell of the level `m` keeps the state of
the vector `weights` when a value below `inf_weight` is the cost of a walk in the cell. -/
theorem winv_set (graph : Graph) (og : OverlayGraph) (exitFlags : List Bool)
    (hR : og.Routable graph exitFlags) (hC : og.CellsOk exitFlags) (hW : og.Wired exitFlags)
    (cf : CostFunction) (m : Nat) (hm : 1 ≤ m) (weights : List Nat)
    (h : WInv graph og exitFlags cf m weights) (k : Nat) (C : Cell)
    (hCm : (k, C) ∈ og.forCells m) (i j : Nat) (hi : i < C.numEntryPoints)
    (hj : j < C.numExitPoints) (v : Nat)
    (hv : 2 ≤ m → v < inf_weight →
      Reach (og.OEdge graph exitFlags cf weights m k) (og.getEntryPoint C i)
        (og.getExitPoint C j) v) :
    WInv graph og exitFlags cf m (weights.set (C.cellOffset + i * C.numExitPoints + j) v) := by
  have hat : og.WeightAt m (C.cellOffset + i * C.numExitPoints + j) :=
    ⟨k, C, i, j, hCm, hi, hj, rfl⟩
  have hfr : ∀ l, 2 ≤ l → l ≤ m → ∀ wo, og.WeightAt (l - 1) wo →
      (weights.set (C.cellOffset + i * C.numExitPoints + j) v).getD wo 0 =
        weights.getD wo 0 := by
    intro l hl2 hlm wo hwo
    apply getD_set_ne
    exact OverlayGraph.weightAt_ne og exitFlags hW m (l - 1) _ _ hm (by omega) hat hwo (by omega)
  refine ⟨by simp only [List.length_set]; exact h.len, ?_, ?_⟩
  · intro l k' C' i' j' hl hC' hi' hj'
    rw [getD_set_ne]
    · exact h.above l k' C' i' j' hl hC' hi' hj'
    · exact OverlayGraph.weightAt_ne og exitFlags hW m l _ _ hm (by omega) hat
        ⟨k', C', i', j', hC', hi', hj', rfl⟩ (by omega)
  · intro l k' C' i' j' hl hC' hi' hj' hlt
    have hL := hW.levels l k' C' (by omega) hC'
    have hs := OverlayGraph.entryPoint_inCell og exitFlags hC hW l k' C' (by omega) hC' i' hi'
    by_cases he : C.cellOffset + i * C.numExitPoints + j =
        C'.cellOffset + i' * C'.numExitPoints + j'
    · obtain ⟨e1, e2, e3, e4, e5⟩ := hW.index m k C i j l k' C' i' j' hm hCm hi hj (by omega)
        hC' hi' hj' he
      subst e1; subst e2; subst e3; subst e4; subst e5
      have hlen : C.cellOffset + i * C.numExitPoints + j < weights.length := by
        rw [h.len]
        exact hW.size m k C i j hm hCm hi hj
      rw [getD_set_eq _ _ _ _ hlen] at hlt ⊢
      exact OverlayGraph.reach_frame graph og exitFlags hR hW cf weights _ m k hl hL
        (hfr m hl (le_refl _)) hs (hv hl hlt)
    · rw [getD_set_ne _ _ _ _ _ he] at hlt ⊢
      have hlm : l ≤ m := by
        by_contra hc
        have := h.above l k' C' i' j' (by omega) hC' hi' hj'
        omega
      exact OverlayGraph.reach_frame graph og exitFlags hR hW cf weights _ l k' hl hL
        (hfr l hl hlm) hs (h.sound l k' C' i' j' hl hC' hi' hj' hlt)

theorem levelStore_sound (graph : Graph) (og : OverlayGraph) (exitFlags : List Bool)
    (hR : og.Routable graph exitFlags) (hC : og.CellsOk exitFlags) (hW : og.Wired exitFlags)
    (cf : CostFunction) (l k : Nat) (hl : 2 ≤ l) (C : Cell) (hCm : (k, C) ∈ og.forCells l)
    (i : Nat) (hi : i < C.numEntryPoints) (st : Upper) (j : Nat) (hj : j < C.numExitPoints)
    (h : WInv graph og exitFlags cf l st.weights)
    (hS : UpperSound graph og exitFlags cf l k (og.getEntryPoint C i) st) :
    WInv graph og exitFlags cf l (levelStore og C i st j).weights ∧
      UpperSound graph og exitFlags cf l k (og.getEntryPoint C i) (levelStore og C i st j) := by
  have hat : og.WeightAt l (C.cellOffset + i * C.numExitPoints + j) :=
    ⟨k, C, i, j, hCm, hi, hj, rfl⟩
  have hL := hW.levels l k C (by omega) hCm
  have hs := OverlayGraph.entryPoint_inCell og exitFlags hC hW l k C (by omega) hCm i hi
  have hfr : ∀ wo, og.WeightAt (l - 1) wo →
      (levelStore og C i st j).weights.getD wo 0 = st.weights.getD wo 0 := by
    intro wo hwo
    apply getD_set_ne
    exact OverlayGraph.weightAt_ne og exitFlags hW l (l - 1) _ _ (by omega) (by omega) hat hwo (by omega)
  constructor
  · apply winv_set graph og exitFlags hR hC hW cf l (by omega) st.weights h k C hCm i j hi hj
    intro _ hv
    split_ifs at hv ⊢ with hlab
    · exact hS.lab _ (hC.exit l k C (by omega) hCm j hj) hlab
    · omega
  · refine ⟨hS.len, hS.pos, hS.rounds, ?_, ?_⟩
    · intro x hx hr
      exact OverlayGraph.reach_frame graph og exitFlags hR hW cf st.weights _ l k hl hL hfr hs
        (hS.lab x hx hr)
    · intro p hp
      obtain ⟨a1, a2, a3⟩ := hS.queue p hp
      exact ⟨a1, a2, OverlayGraph.reach_frame graph og exitFlags hR hW cf st.weights _ l k hl hL hfr hs a3⟩

/-- The state of `buildLevel` between the searches. -/
theorem levelEntry_sound (graph : Graph) (og : OverlayGraph) (exitFlags : List Bool)
    (hR : og.Routable graph exitFlags) (hC : og.CellsOk exitFlags) (hW : og.Wired exitFlags)
    (cf : CostFunction) (hb : cf.Bounded) (fuel l : Nat) (hl : 2 ≤ l) (k : Nat) (C : Cell)
    (hCm : (k, C) ∈ og.forCells l) (st st' : Upper) (i : Nat) (hi : i < C.numEntryPoints)
    (hB : UpperBound og exitFlags l st)
    (h : WInv graph og exitFlags cf l st.weights ∧ st.dist.length = st.round.length ∧
      (∀ x, st.round.getD x 0 ≤ st.currentRound) ∧ st.queue = [])
    (he : levelEntry graph og cf fuel l C k st i = some st') :
    UpperBound og exitFlags l st' ∧
    WInv graph og exitFlags cf l st'.weights ∧ st'.dist.length = st'.round.length ∧
      (∀ x, st'.round.getD x 0 ≤ st'.currentRound) ∧ st'.queue = [] := by
  refine ⟨levelEntry_bound graph og exitFlags hR hC cf fuel l hl k C hCm st st' i hi hB he, ?_⟩
  obtain ⟨c1, c2, c3⟩ := hC.entry l k C (by omega) hCm i hi
  obtain ⟨h1, h2, h3, h4⟩ := h
  unfold levelEntry at he
  simp only [] at he
  split at he
  · exact absurd he (by simp)
  · rename_i st1 hloop
    cases he
    have hB0 : UpperBound og exitFlags l
        { st with
          currentRound := st.currentRound + 1
          dist := st.dist.set (og.getEntryPoint C i) 0
          round := st.round.set (og.getEntryPoint C i) (st.currentRound + 1)
          queue := MinIDQueue.push st.queue ⟨og.getEntryPoint C i, 0⟩ } := by
      refine ⟨?_, hB.weights, ?_⟩
      · intro y hy
        show (st.dist.set (og.getEntryPoint C i) 0).getD y 0 ≤ inf_weight
        rw [getD_set_self_or]
        split_ifs
        · exact Nat.zero_le _
        · exact hB.dist y hy
      · intro p hp
        rcases List.mem_append.1 hp with hp' | hp'
        · exact hB.queue p hp'
        · rw [List.mem_singleton.1 hp']
          exact ⟨c1, c2, Nat.le_trans (Nat.sub_le l 1) c3⟩
    have hS0 : UpperSound graph og exitFlags cf l k (og.getEntryPoint C i)
        { st with
          currentRound := st.currentRound + 1
          dist := st.dist.set (og.getEntryPoint C i) 0
          round := st.round.set (og.getEntryPoint C i) (st.currentRound + 1)
          queue := MinIDQueue.push st.queue ⟨og.getEntryPoint C i, 0⟩ } := by
      refine ⟨by simp only [List.length_set]; exact h2, Nat.succ_le_succ (Nat.zero_le _), ?_,
        ?_, ?_⟩
      · intro x
        show (st.round.set (og.getEntryPoint C i) (st.currentRound + 1)).getD x 0 ≤
          st.currentRound + 1
        rw [getD_set_self_or]
        split_ifs
        · exact le_refl _
        · exact Nat.le_succ_of_le (h3 x)
      · intro x hx hr
        exfalso
        have hr' : (st.round.set (og.getEntryPoint C i) (st.currentRound + 1)).getD x 0 =
          st.currentRound + 1 := hr
        rw [getD_set_self_or] at hr'
        split_ifs at hr' with hc
        · rw [← hc.1, c2] at hx
          exact absurd hx (by simp)
        · have := h3 x
          omega
      · intro p hp
        have hp' : p ∈ MinIDQueue.push st.queue ⟨og.getEntryPoint C i, 0⟩ := hp
        rw [h4] at hp'
        have hp2 : p = ⟨og.getEntryPoint C i, 0⟩ := by
          simpa [MinIDQueue.push] using hp'
        rw [hp2]
        refine ⟨c2, ?_, Reach.start⟩
        show 0 < 2 * inf_weight
        unfold inf_weight
        omega
    obtain ⟨a1, a2, a3⟩ := levelLoop_sound graph og exitFlags hR cf hb l k
      (og.getEntryPoint C i) hl fuel _ st1 hB0 hS0 hloop
    have hw1 : WInv graph og exitFlags cf l st1.weights := by
      rw [a3]; exact h1
    have hfold := foldl_preserves
      (fun b : Upper => WInv graph og exitFlags cf l b.weights ∧
        UpperSound graph og exitFlags cf l k (og.getEntryPoint C i) b ∧ b.queue = [])
      (levelStore og C i) (List.range C.numExitPoints) st1 ⟨hw1, a1, a2⟩
      (fun b j hj hb' =>
        ⟨(levelStore_sound graph og exitFlags hR hC hW cf l k hl C hCm i hi b j
            (List.mem_range.1 hj) hb'.1 hb'.2.1).1,
          (levelStore_sound graph og exitFlags hR hC hW cf l k hl C hCm i hi b j
            (List.mem_range.1 hj) hb'.1 hb'.2.1).2, hb'.2.2⟩)
    exact ⟨hfold.1, hfold.2.1.len, hfold.2.1.rounds, hfold.2.2⟩

/-- The level `l` of the customization keeps the state of the vector `weights`. -/
theorem buildLevel_sound (graph : Graph) (og : OverlayGraph) (exitFlags : List Bool)
    (hR : og.Routable graph exitFlags) (hC : og.CellsOk exitFlags) (hW : og.Wired exitFlags)
    (cf : CostFunction) (hb : cf.Bounded) (fuel : Nat) (weights weights' : List Nat) (l : Nat)
    (hl : 2 ≤ l) (hd : DistBound weights) (h : WInv graph og exitFlags cf (l - 1) weights)
    (he : buildLevel graph og cf fuel weights l = some weights') :
    WInv graph og exitFlags cf l weights' := by
  unfold buildLevel at he
  simp only [Option.map_eq_some'] at he
  obtain ⟨st, hst, rfl⟩ := he
  have key : ∀ (cells : List (Nat × Cell)), (∀ p, p ∈ cells → p ∈ og.forCells l) →
      ∀ (o : Option Upper), (∀ b, o = some b → UpperBound og exitFlags l b ∧
        WInv graph og exitFlags cf l b.weights ∧ b.dist.length = b.round.length ∧
        (∀ x, b.round.getD x 0 ≤ b.currentRound) ∧ b.queue = []) →
      ∀ b', cells.foldl
        (fun (st : Option Upper) (p : Nat × Cell) =>
          (List.range p.2.numEntryPoints).foldl
            (fun (st : Option Upper) i =>
              st.bind fun st => levelEntry graph og cf fuel l p.2 p.1 st i) st) o = some b' →
        UpperBound og exitFlags l b' ∧
        WInv graph og exitFlags cf l b'.weights ∧ b'.dist.length = b'.round.length ∧
        (∀ x, b'.round.getD x 0 ≤ b'.currentRound) ∧ b'.queue = [] := by
    intro cells
    induction cells with
    | nil => intro _ o h _ hb; exact h _ hb
    | cons p rest ih =>
      intro hsub o ho b' hfold
      rw [List.foldl_cons] at hfold
      refine ih (fun p' hp' => hsub p' (List.mem_cons_of_mem _ hp')) _ ?_ b' hfold
      intro b1 hb1
      exact optionFold_preserves
        (fun b : Upper => UpperBound og exitFlags l b ∧
          WInv graph og exitFlags cf l b.weights ∧ b.dist.length = b.round.length ∧
          (∀ x, b.round.getD x 0 ≤ b.currentRound) ∧ b.queue = [])
        (fun st i => levelEntry graph og cf fuel l p.2 p.1 st i) _ o ho
        (fun b a b'' ha hb0 hf => levelEntry_sound graph og exitFlags hR hC hW cf hb fuel l hl
          p.1 p.2 (hsub p (List.mem_cons_self _ _)) b b'' a (List.mem_range.1 ha) hb0.1 hb0.2
          hf)
        b1 hb1
  refine (key _ (fun p hp => hp) _ ?_ st hst).2.1
  intro b hb'
  cases hb'
  refine ⟨⟨?_, hd, ?_⟩, ⟨h.len, ?_, h.sound⟩, ?_, ?_, rfl⟩
  · intro y _
    exact distBound_replicate _ y
  · intro p hp
    exact absurd hp (List.not_mem_nil _)
  · intro l' k C i j hl' hC' hi hj
    exact h.above l' k C i j (by omega) hC' hi hj
  · simp
  · intro x
    show (List.replicate _ 0).getD x 0 ≤ 0
    rw [List.getD_eq_getElem?_getD, List.getElem?_replicate]
    split_ifs <;> simp

theorem lowestRelax_weights (graph : Graph) (cf : CostFunction) (cellNumber fco : Nat)
    (minTriple : IDKeyTriple) (st : Lowest) (x : ForwardEdge × Nat × TURN_TYPE) :
    (lowestRelax graph cf cellNumber fco minTriple st x).weights = st.weights := by
  unfold lowestRelax
  simp only []
  split_ifs <;> rfl

theorem lowestLoop_weights (graph : Graph) (cf : CostFunction) (cellNumber fco : Nat) :
    ∀ (fuel : Nat) (st st' : Lowest),
      lowestLoop graph cf cellNumber fco fuel st = some st' → st'.weights = st.weights := by
  intro fuel
  induction fuel with
  | zero => intro st st' h; simp [lowestLoop] at h
  | succ fuel ih =>
    intro st st' h
    unfold lowestLoop at h
    split at h
    · cases h; rfl
    · rw [ih _ _ h]
      exact foldl_preserves (fun b : Lowest => b.weights = st.weights) _ _ _ rfl
        (fun b a _ hb' => (lowestRelax_weights graph cf cellNumber fco _ b a).trans hb')

theorem lowestEntry_winv (graph : Graph) (og : OverlayGraph) (exitFlags : List Bool)
    (hR : og.Routable graph exitFlags) (hC : og.CellsOk exitFlags) (hW : og.Wired exitFlags)
    (cf : CostFunction) (fuel : Nat) (k : Nat) (C : Cell) (hCm : (k, C) ∈ og.forCells 1)
    (cellNumber : Nat) (st st' : Lowest) (i : Nat) (hi : i < C.numEntryPoints)
    (h : WInv graph og exitFlags cf 1 st.weights)
    (he : lowestEntry graph og cf fuel C cellNumber st i = some st') :
    WInv graph og exitFlags cf 1 st'.weights := by
  unfold lowestEntry at he
  simp only [] at he
  split at he
  · exact absurd he (by simp)
  · rename_i st1 hloop
    cases he
    have h1 : WInv graph og exitFlags cf 1 st1.weights := by
      rw [lowestLoop_weights graph cf _ _ fuel _ st1 hloop]
      exact h
    exact foldl_preserves (fun b : Lowest => WInv graph og exitFlags cf 1 b.weights)
      (lowestStore og C i) (List.range C.numExitPoints) st1 h1
      (fun b j hj hb' => winv_set graph og exitFlags hR hC hW cf 1 (le_refl _) b.weights hb'
        k C hCm i j hi (List.mem_range.1 hj) _ (fun h2 => absurd h2 (by omega)))

/-- The lowest level of the customization keeps the state of the vector `weights`. -/
theorem buildLowestLevel_winv (graph : Graph) (og : OverlayGraph) (exitFlags : List Bool)
    (hR : og.Routable graph exitFlags) (hC : og.CellsOk exitFlags) (hW : og.Wired exitFlags)
    (cf : CostFunction) (fuel : Nat) (weights weights' : List Nat)
    (h : WInv graph og exitFlags cf 1 weights)
    (he : buildLowestLevel graph og cf fuel weights = some weights') :
    WInv graph og exitFlags cf 1 weights' := by
  unfold buildLowestLevel at he
  simp only [Option.map_eq_some'] at he
  obtain ⟨st, hst, rfl⟩ := he
  have key : ∀ (cells : List (Nat × Cell)), (∀ p, p ∈ cells → p ∈ og.forCells 1) →
      ∀ (o : Option Lowest), (∀ b, o = some b → WInv graph og exitFlags cf 1 b.weights) →
      ∀ b', cells.foldl
        (fun (st : Option Lowest) (p : Nat × Cell) =>
          (List.range p.2.numEntryPoints).foldl
            (fun (st : Option Lowest) i =>
              st.bind fun st => lowestEntry graph og cf fuel p.2 p.1 st i) st) o = some b' →
        WInv graph og exitFlags cf 1 b'.weights := by
    intro cells
    induction cells with
    | nil => intro _ o h _ hb; exact h _ hb
    | cons p rest ih =>
      intro hsub o ho b' hb
      rw [List.foldl_cons] at hb
      refine ih (fun p' hp' => hsub p' (List.mem_cons_of_mem _ hp')) _ ?_ b' hb
      intro b1 hb1
      exact optionFold_preserves (fun b : Lowest => WInv graph og exitFlags cf 1 b.weights)
        (fun st i => lowestEntry graph og cf fuel p.2 p.1 st i) _ o ho
        (fun b a b'' ha hb0 hf => lowestEntry_winv graph og exitFlags hR hC hW cf fuel p.1 p.2
          (hsub p (List.mem_cons_self _ _)) p.1 b b'' a (List.mem_range.1 ha) hb0 hf)
        b1 hb1
  exact key _ (fun p hp => hp) _ (by
    intro b hb
    cases hb
    exact h) st hst

/-- The vector `weights` that the constructor fills with `inf_weight`. -/
theorem winv_init (graph : Graph) (og : OverlayGraph) (exitFlags : List Bool)
    (hW : og.Wired exitFlags) (cf : CostFunction) (m : Nat) (hm : 1 ≤ m) :
    WInv graph og exitFlags cf m (List.replicate og.getWeightVectorSize inf_weight) := by
  have hget : ∀ l k C i j, 1 ≤ l → (k, C) ∈ og.forCells l → i < C.numEntryPoints →
      j < C.numExitPoints →
      (List.replicate og.getWeightVectorSize inf_weight).getD
        (C.cellOffset + i * C.numExitPoints + j) 0 = inf_weight := by
    intro l k C i j hl hC hi hj
    have := hW.size l k C i j hl hC hi hj
    rw [List.getD_eq_getElem?_getD, List.getElem?_replicate, if_pos this]
    rfl
  refine ⟨by simp, ?_, ?_⟩
  · intro l k C i j hl hC hi hj
    exact hget l k C i j (by omega) hC hi hj
  · intro l k C i j hl hC hi hj hlt
    rw [hget l k C i j (by omega) hC hi hj] at hlt
    exact absurd hlt (lt_irrefl _)

/-- A weight below `inf_weight` that `OverlayWeights::build` computes for an entry point and
an exit point of a cell of a level from 2 on is the cost of a walk in the cell from the entry
point to the exit point over the weights of the level below and the edges between the twins
in the cell. -/
theorem build_sound (graph : Graph) (og : OverlayGraph) (exitFlags : List Bool)
    (hR : og.Routable graph exitFlags) (hC : og.CellsOk exitFlags) (hW : og.Wired exitFlags)
    (cf : CostFunction) (hb : cf.Bounded) (fuel : Nat) (weights : List Nat)
    (he : build graph og cf fuel = some weights) :
    ∀ l k C i j, 2 ≤ l → (k, C) ∈ og.forCells l → i < C.numEntryPoints →
      j < C.numExitPoints →
      weights.getD (C.cellOffset + i * C.numExitPoints + j) 0 < inf_weight →
      Reach (og.OEdge graph exitFlags cf weights l k) (og.getEntryPoint C i)
        (og.getExitPoint C j) (weights.getD (C.cellOffset + i * C.numExitPoints + j) 0) := by
  unfold build at he
  have key : ∀ (n start : Nat), 2 ≤ start → ∀ (o : Option (List Nat)),
      (∀ b, o = some b → DistBound b ∧ WInv graph og exitFlags cf (start - 1) b) →
      ∀ b', (List.range' start n).foldl (fun (weights : Option (List Nat)) l =>
        weights.bind fun weights => buildLevel graph og cf fuel weights l) o = some b' →
      ∃ m, WInv graph og exitFlags cf m b' := by
    intro n
    induction n with
    | zero =>
      intro start _ o ho b' hb'
      exact ⟨_, (ho b' hb').2⟩
    | succ n ih =>
      intro start hs o ho b' hb'
      rw [List.range'_succ, List.foldl_cons] at hb'
      refine ih (start + 1) (by omega) _ ?_ b' hb'
      intro b hb1
      cases o with
      | none => simp at hb1
      | some w =>
        obtain ⟨d1, d2⟩ := ho w rfl
        have hb2 : buildLevel graph og cf fuel w start = some b := hb1
        exact ⟨buildLevel_bound graph og exitFlags hR hC cf fuel w b start hs d1 hb2,
          buildLevel_sound graph og exitFlags hR hC hW cf hb fuel w b start hs d1 d2 hb2⟩
  obtain ⟨m, hm⟩ := key _ 2 (le_refl _) _ (by
    intro b hb1
    exact ⟨buildLowestLevel_bound graph og cf fuel _ b (distBound_replicate _) hb1,
      buildLowestLevel_winv graph og exitFlags hR hC hW cf fuel _ b
        (winv_init graph og exitFlags hW cf 1 (le_refl _)) hb1⟩) weights he
  exact hm.sound

end OverlayWeights

end CRP


namespace CRP

/-! ## The search of `unpackPathInOverlayCell` -/

theorem labTotal_set (B n : Nat) (dist round : List Nat) (cur y v : Nat) (hy : y < n)
    (hd : y < dist.length) (hr : y < round.length) (hv : v < B)
    (hlt : ∀ d, labOf dist round cur y = some d → v < d) :
    labTotal B n (dist.set y v) (round.set y cur) cur + 1 ≤ labTotal B n dist round cur := by
  unfold labTotal
  have hold : v < (labOf dist round cur y).getD B := by
    cases h : labOf dist round cur y with
    | none => exact hv
    | some d => exact hlt d h
  have : (Finset.range n).sum (fun x =>
      (labOf (dist.set y v) (round.set y cur) cur x).getD B) <
      (Finset.range n).sum (fun x => (labOf dist round cur x).getD B) := by
    apply Finset.sum_lt_sum
    · intro x _
      rw [labOf_set _ _ _ _ _ _ hd hr]
      by_cases hxy : x = y
      · subst hxy
        simp only [if_true, Option.getD_some]
        exact le_of_lt hold
      · simp only [hxy, if_false]
        exact le_refl _
    · refine ⟨y, Finset.mem_range.2 hy, ?_⟩
      rw [labOf_set _ _ _ _ _ _ hd hr]
      simp only [if_true, Option.getD_some]
      exact hold
  omega

theorem parInv_set {Edge : Nat → Nat → Nat → Prop} {s : Nat} (dist round : List Nat)
    (parent : List VertexIdPair) (cur y : Nat) (p : VertexIdPair)
    (inv : ParInv Edge s (labOf dist round cur) (fun x => (parent.getD x default).id))
    (hd : y < dist.length) (hr : y < round.length) (hp : y < parent.length) (du c : Nat)
    (hu : labOf dist round cur p.id = some du) (he : Edge p.id y c)
    (hlt : ∀ d, labOf dist round cur y = some d → du + c < d) :
    ParInv Edge s (labOf (dist.set y (du + c)) (round.set y cur) cur)
      (fun x => ((parent.set y p).getD x default).id) := by
  rw [labOf_set_fun _ _ _ _ _ hd hr, parent_set_fun _ _ _ hp]
  exact parInv_update inv y p.id du c hu he hlt

namespace PathUnpacker

/-- The invariant after the label of `y` has been lowered along the arc from `u` and `y`
has been queued. -/
theorem overlay_push (graph : Graph) (og : OverlayGraph) (exitFlags : List Bool)
    (metric : Metric) (n l k sourceId targetId : Nat) (self : PathUnpacker)
    (q : List IDKeyPair) (extra : Nat → Prop)
    (hinv : OverlayInv graph og exitFlags metric n l k sourceId targetId (self, q) extra)
    (u y c du ov : Nat) (hy : y < n) (hu : labOf self.dist self.round self.currentRound u =
      some du)
    (he : og.OEdge graph exitFlags metric.costFunction metric.weights l k u y c)
    (hlt : ∀ d, labOf self.dist self.round self.currentRound y = some d → du + c < d)
    (hsmall : du + c < 3 * inf_weight)
    (hyq : y ≠ targetId → exitFlags.getD y false = false) :
    OverlayInv graph og exitFlags metric n l k sourceId targetId
      ({ self with
          dist := self.dist.set y (du + c)
          round := self.round.set y self.currentRound
          parent := self.parent.set y ⟨ov, u⟩ },
        MinIDQueue.pushOrDecrease q ⟨y, du + c⟩) extra ∧
    (∀ x, QOpen (MinIDQueue.pushOrDecrease q (⟨y, du + c⟩ : IDKeyPair)) x ↔
      (x = y ∨ QOpen q x)) ∧
    (∀ x, labOf (self.dist.set y (du + c)) (self.round.set y self.currentRound)
      self.currentRound x =
        if x = y then some (du + c) else labOf self.dist self.round self.currentRound x) ∧
    overlayPotential n ({ self with
          dist := self.dist.set y (du + c)
          round := self.round.set y self.currentRound
          parent := self.parent.set y ⟨ov, u⟩ },
        MinIDQueue.pushOrDecrease q ⟨y, du + c⟩) + 2 ≤ overlayPotential n (self, q) := by
  have hd : y < self.dist.length := by rw [hinv.valid.lenDist]; exact hy
  have hr : y < self.round.length := by rw [hinv.valid.lenRound]; exact hy
  have hp : y < self.parent.length := by rw [hinv.valid.lenParent]; exact hy
  have hreach := Reach.step (hinv.search.search.sound _ _ hu) he
  obtain ⟨hq, hqo⟩ := qInv_push hinv.search y (du + c) (⟨y, du + c⟩ : IDKeyPair) rfl rfl hd hr
    hreach hlt
  have hlab := fun x => labOf_set self.dist self.round self.currentRound y (du + c) x hd hr
  refine ⟨⟨⟨?_, ?_, ?_, ?_⟩, hq, ?_, ?_, ?_, ?_⟩, hqo, hlab, ?_⟩
  · simp only [List.length_set]; exact hinv.valid.lenDist
  · simp only [List.length_set]; exact hinv.valid.lenRound
  · simp only [List.length_set]; exact hinv.valid.lenParent
  · intro i
    show (self.round.set y self.currentRound).getD i 0 ≤ self.currentRound
    rw [getD_set_self_or]
    split_ifs
    · exact le_refl _
    · exact hinv.valid.rounds i
  · intro p hp' hne
    rcases MinIDQueue.mem_pushOrDecrease _ _ _ hp' with h | h
    · subst h
      exact hyq hne
    · exact hinv.queue p h hne
  · exact parInv_set self.dist self.round self.parent self.currentRound y ⟨ov, u⟩ hinv.par hd hr
      hp du c hu he hlt
  · intro d hd'
    have hd2 : labOf (self.dist.set y (du + c)) (self.round.set y self.currentRound)
      self.currentRound targetId = some d := hd'
    rw [hlab] at hd2
    apply (hqo targetId).2
    split_ifs at hd2 with e
    · exact Or.inl e
    · exact Or.inr (hinv.tgtOpen d hd2)
  · intro x d hx
    have hx2 : labOf (self.dist.set y (du + c)) (self.round.set y self.currentRound)
      self.currentRound x = some d := hx
    rw [hlab] at hx2
    split_ifs at hx2 with e
    · simp only [Option.some.injEq] at hx2
      omega
    · exact hinv.small x d hx2
  · have h1 := labTotal_set (3 * inf_weight) n self.dist self.round self.currentRound y
      (du + c) hy hd hr hsmall hlt
    have h2 := MinIDQueue.pushOrDecrease_length_le q (⟨y, du + c⟩ : IDKeyPair)
    unfold overlayPotential
    simp only []
    omega

/-- The invariant after the label of `y`, which is not queued and not the target, has been
lowered along the arc from `u`; `y` stays open. -/
theorem overlay_label (graph : Graph) (og : OverlayGraph) (exitFlags : List Bool)
    (metric : Metric) (n l k sourceId targetId : Nat) (self : PathUnpacker)
    (q : List IDKeyPair) (extra : Nat → Prop)
    (hinv : OverlayInv graph og exitFlags metric n l k sourceId targetId (self, q) extra)
    (u y c du ov : Nat) (hy : y < n) (hu : labOf self.dist self.round self.currentRound u =
      some du)
    (he : og.OEdge graph exitFlags metric.costFunction metric.weights l k u y c)
    (hlt : ∀ d, labOf self.dist self.round self.currentRound y = some d → du + c < d)
    (hsmall : du + c < 3 * inf_weight) (hnq : ¬ QOpen q y) (hyt : y ≠ targetId) :
    OverlayInv graph og exitFlags metric n l k sourceId targetId
      ({ self with
          dist := self.dist.set y (du + c)
          round := self.round.set y self.currentRound
          parent := self.parent.set y ⟨ov, u⟩ }, q) (fun x => extra x ∨ x = y) ∧
    (∀ x, labOf (self.dist.set y (du + c)) (self.round.set y self.currentRound)
      self.currentRound x =
        if x = y then some (du + c) else labOf self.dist self.round self.currentRound x) ∧
    overlayPotential n ({ self with
          dist := self.dist.set y (du + c)
          round := self.round.set y self.currentRound
          parent := self.parent.set y ⟨ov, u⟩ }, q) + 3 ≤ overlayPotential n (self, q) := by
  have hd : y < self.dist.length := by rw [hinv.valid.lenDist]; exact hy
  have hr : y < self.round.length := by rw [hinv.valid.lenRound]; exact hy
  have hp : y < self.parent.length := by rw [hinv.valid.lenParent]; exact hy
  have hreach := Reach.step (hinv.search.search.sound _ _ hu) he
  have hq := qInv_label hinv.search y (du + c) hd hr hreach hlt hnq
    (fun x => extra x ∨ x = y) (fun x hx => Or.inl hx) (Or.inr rfl)
  have hlab := fun x => labOf_set self.dist self.round self.currentRound y (du + c) x hd hr
  refine ⟨⟨⟨?_, ?_, ?_, ?_⟩, hq, hinv.queue, ?_, ?_, ?_⟩, hlab, ?_⟩
  · simp only [List.length_set]; exact hinv.valid.lenDist
  · simp only [List.length_set]; exact hinv.valid.lenRound
  · simp only [List.length_set]; exact hinv.valid.lenParent
  · intro i
    show (self.round.set y self.currentRound).getD i 0 ≤ self.currentRound
    rw [getD_set_self_or]
    split_ifs
    · exact le_refl _
    · exact hinv.valid.rounds i
  · exact parInv_set self.dist self.round self.parent self.currentRound y ⟨ov, u⟩ hinv.par hd hr
      hp du c hu he hlt
  · intro d hd'
    have hd2 : labOf (self.dist.set y (du + c)) (self.round.set y self.currentRound)
      self.currentRound targetId = some d := hd'
    rw [hlab, if_neg (Ne.symm hyt)] at hd2
    exact hinv.tgtOpen d hd2
  · intro x d hx
    have hx2 : labOf (self.dist.set y (du + c)) (self.round.set y self.currentRound)
      self.currentRound x = some d := hx
    rw [hlab] at hx2
    split_ifs at hx2 with e
    · simp only [Option.some.injEq] at hx2
      omega
    · exact hinv.small x d hx2
  · have h1 := labTotal_set (3 * inf_weight) n self.dist self.round self.currentRound y
      (du + c) hy hd hr hsmall hlt
    unfold overlayPotential
    simp only []
    omega

theorem overlay_close (graph : Graph) (og : OverlayGraph) (exitFlags : List Bool)
    (metric : Metric) (n l k sourceId targetId : Nat) (st : PathUnpacker × List IDKeyPair)
    (extra extra' : Nat → Prop)
    (hinv : OverlayInv graph og exitFlags metric n l k sourceId targetId st extra)
    (hcl : ∀ x, extra x → ¬ extra' x → ¬ QOpen st.2 x →
      ClosedAt (og.OEdge graph exitFlags metric.costFunction metric.weights l k) inf_weight
        (labOf st.1.dist st.1.round st.1.currentRound) x) :
    OverlayInv graph og exitFlags metric n l k sourceId targetId st extra' :=
  ⟨hinv.valid, qInv_close hinv.search extra' hcl, hinv.queue, hinv.par, hinv.tgtOpen,
    hinv.small⟩

/-- The twin of an exit vertex of the cell that a search reaches is not the source: the edge
into the source crosses the boundary of the cell. -/
theorem twin_ne_source (graph : Graph) (og : OverlayGraph) (exitFlags : List Bool)
    (hR : og.Routable graph exitFlags) (hW : og.Wired exitFlags) (l k : Nat) (hl : 2 ≤ l)
    (hL : l ≤ og.levelInfo.getLevelCount) (sourceId : Nat) (hs : og.InCell l k sourceId)
    (hsl : l ≤ (og.getVertex sourceId).entryExitPoint.length) (x : Nat)
    (hx : og.InCell l k x) (hf : exitFlags.getD x false = true) :
    (og.getVertex x).neighborOverlayVertex ≠ sourceId := by
  intro e
  obtain ⟨_, _, t3, t4, _⟩ := hR.twin x hx.1 hf
  rw [e] at t3 t4
  have h1 : l ≤ og.levelInfo.getHighestDifferingLevel (og.getVertex x).cellNumber
      (og.getVertex sourceId).cellNumber := by omega
  have := (truncate_ne_iff og.levelInfo hW.mono _ _ l (by omega) hL).2 h1
  exact this (hx.2.2.trans hs.2.2.symm)

set_option maxHeartbeats 1000000 in
theorem overlayRelax_inv (graph : Graph) (og : OverlayGraph) (exitFlags : List Bool)
    (hR : og.Routable graph exitFlags) (hW : og.Wired exitFlags) (metric : Metric)
    (hb : metric.costFunction.Bounded) (hw : DistBound metric.weights)
    (n l k sourceId targetId : Nat) (hn : og.numberOfVertices ≤ n) (hl : 2 ≤ l)
    (hL : l ≤ og.levelInfo.getLevelCount) (hs : og.InCell l k sourceId)
    (hsl : l ≤ (og.getVertex sourceId).entryExitPoint.length)
    (htf : exitFlags.getD targetId false = true) (minPair : IDKeyPair)
    (hkey : minPair.key < inf_weight) (hmf : exitFlags.getD minPair.id false = false)
    (st : PathUnpacker × List IDKeyPair)
    (hinv : OverlayInv graph og exitFlags metric n l k sourceId targetId st
      (fun z => z = minPair.id))
    (hk0 : labOf st.1.dist st.1.round st.1.currentRound minPair.id = some minPair.key)
    (hnq : ¬ QOpen st.2 minPair.id) (x : Nat × Nat)
    (hx : x ∈ og.forOutNeighborsOf minPair.id (l - 1)) :
    OverlayInv graph og exitFlags metric n l k sourceId targetId
      (overlayRelax graph og metric l k targetId minPair st x) (fun z => z = minPair.id) ∧
    labOf (overlayRelax graph og metric l k targetId minPair st x).1.dist
      (overlayRelax graph og metric l k targetId minPair st x).1.round
      (overlayRelax graph og metric l k targetId minPair st x).1.currentRound minPair.id =
      some minPair.key ∧
    ¬ QOpen (overlayRelax graph og metric l k targetId minPair st x).2 minPair.id ∧
    LabLe (labOf st.1.dist st.1.round st.1.currentRound)
      (labOf (overlayRelax graph og metric l k targetId minPair st x).1.dist
        (overlayRelax graph og metric l k targetId minPair st x).1.round
        (overlayRelax graph og metric l k targetId minPair st x).1.currentRound) ∧
    EdgeOk inf_weight
      (labOf (overlayRelax graph og metric l k targetId minPair st x).1.dist
        (overlayRelax graph og metric l k targetId minPair st x).1.round
        (overlayRelax graph og metric l k targetId minPair st x).1.currentRound)
      minPair.id x.1 (metric.weights.getD x.2 0) ∧
    overlayPotential n (overlayRelax graph og metric l k targetId minPair st x) ≤
      overlayPotential n st ∧
    (overlayRelax graph og metric l k targetId minPair st x).1.currentRound =
      st.1.currentRound := by
  have hmin := OverlayGraph.reach_inCell graph og exitFlags hR hW metric.costFunction
    metric.weights l k hl hL hs (hinv.search.search.sound _ _ hk0)
  have hedge1 : og.OEdge graph exitFlags metric.costFunction metric.weights l k minPair.id x.1
      (metric.weights.getD x.2 0) := Or.inl ⟨hmf, x.2, hx, rfl⟩
  obtain ⟨hxin, hxf'⟩ := OverlayGraph.oedge_inCell graph og exitFlags hR hW metric.costFunction
    metric.weights l k hl hL hmin hedge1
  have hxf : exitFlags.getD x.1 false = true := by rw [hxf', hmf]; rfl
  have hx1 : x.1 < og.numberOfVertices := hxin.1
  obtain ⟨t1, t2, _, _, _⟩ := hR.twin x.1 hxin.1 hxf
  have hcw := hw x.2
  have hew := hb.weight (graph.getForwardEdge (og.getVertex x.1).originalEdge).attributes
  have hinf : inf_weight = 1431655765 := rfl
  have hnew : u32 (minPair.key + metric.weights.getD x.2 0) =
      minPair.key + metric.weights.getD x.2 0 := u32_of_lt (by omega)
  have hnew2 : u32 (minPair.key + metric.weights.getD x.2 0 + metric.costFunction.getWeight
      (graph.getForwardEdge (og.getVertex x.1).originalEdge).attributes) =
      minPair.key + metric.weights.getD x.2 0 + metric.costFunction.getWeight
        (graph.getForwardEdge (og.getVertex x.1).originalEdge).attributes :=
    u32_of_lt (by omega)
  have hne1 : x.1 ≠ minPair.id := by
    intro e
    rw [e, hmf] at hxf
    exact absurd hxf (by simp)
  have hne2 : (og.getVertex x.1).neighborOverlayVertex ≠ x.1 := by
    intro e
    rw [e, hxf] at t2
    exact absurd t2 (by simp)
  have hnt : (og.getVertex x.1).neighborOverlayVertex ≠ targetId := by
    intro e
    rw [e, htf] at t2
    exact absurd t2 (by simp)
  unfold overlayRelax
  simp only [Metric.getCellWeight, Metric.getWeight]
  rw [hnew, hnew2]
  by_cases hskip : st.1.round.getD x.1 0 = st.1.currentRound ∧
      st.1.dist.getD x.1 0 ≤ minPair.key + metric.weights.getD x.2 0
  · rw [if_pos hskip]
    exact ⟨hinv, hk0, hnq, labLe_refl _,
      edgeOk_of_le hk0 (labOf_some_iff.2 ⟨hskip.1, rfl⟩) hskip.2, le_refl _, rfl⟩
  · rw [if_neg hskip]
    have hlt1 : ∀ d, labOf st.1.dist st.1.round st.1.currentRound x.1 = some d →
        minPair.key + metric.weights.getD x.2 0 < d := by
      intro d hd'
      obtain ⟨e1, e2⟩ := labOf_some_iff.1 hd'
      by_contra hcon
      exact hskip ⟨e1, by omega⟩
    -- the state after the label of the exit vertex has been set
    have hA : ∃ (q1 : List IDKeyPair),
        q1 = (if x.1 = targetId then
          MinIDQueue.pushOrDecrease st.2 ⟨x.1, minPair.key + metric.weights.getD x.2 0⟩
          else st.2) ∧
        OverlayInv graph og exitFlags metric n l k sourceId targetId
          ({ st.1 with
              dist := st.1.dist.set x.1 (minPair.key + metric.weights.getD x.2 0)
              round := st.1.round.set x.1 st.1.currentRound
              parent := st.1.parent.set x.1 ⟨(og.getVertex minPair.id).originalVertex,
                minPair.id⟩ }, q1)
          (fun z => z = minPair.id ∨ (z = x.1 ∧ x.1 ≠ targetId)) ∧
        (∀ z, QOpen q1 z → z = x.1 ∨ QOpen st.2 z) ∧
        (∀ z, QOpen st.2 z → QOpen q1 z) ∧
        overlayPotential n ({ st.1 with
              dist := st.1.dist.set x.1 (minPair.key + metric.weights.getD x.2 0)
              round := st.1.round.set x.1 st.1.currentRound
              parent := st.1.parent.set x.1 ⟨(og.getVertex minPair.id).originalVertex,
                minPair.id⟩ }, q1) + 2 ≤ overlayPotential n st := by
      by_cases hxt : x.1 = targetId
      · obtain ⟨a1, a2, _, a4⟩ := overlay_push graph og exitFlags metric n l k sourceId targetId
          st.1 st.2 _ hinv minPair.id x.1 (metric.weights.getD x.2 0) minPair.key
          (og.getVertex minPair.id).originalVertex (by omega) hk0 hedge1 hlt1 (by omega)
          (fun h => absurd hxt h)
        refine ⟨_, rfl, ?_, ?_, ?_, ?_⟩
        · rw [if_pos hxt]
          exact overlay_close graph og exitFlags metric n l k sourceId targetId _ _ _ a1
            (fun z hz hz' _ => absurd (Or.inl hz) hz')
        · rw [if_pos hxt]
          intro z hz
          exact (a2 z).1 hz
        · rw [if_pos hxt]
          intro z hz
          exact (a2 z).2 (Or.inr hz)
        · rw [if_pos hxt]
          exact a4
      · have hnqx : ¬ QOpen st.2 x.1 := by
          rintro ⟨p, hp, hpx⟩
          have hpx' : p.id = x.1 := hpx
          have := hinv.queue p hp (by rw [hpx']; exact hxt)
          rw [hpx', hxf] at this
          exact absurd this (by simp)
        obtain ⟨a1, _, a3⟩ := overlay_label graph og exitFlags metric n l k sourceId targetId
          st.1 st.2 _ hinv minPair.id x.1 (metric.weights.getD x.2 0) minPair.key
          (og.getVertex minPair.id).originalVertex (by omega) hk0 hedge1 hlt1 (by omega)
          hnqx hxt
        refine ⟨_, rfl, ?_, ?_, ?_, ?_⟩
        · rw [if_neg hxt]
          exact overlay_close graph og exitFlags metric n l k sourceId targetId _ _ _ a1
            (fun z hz hz' _ => by
              exfalso
              apply hz'
              rcases hz with hz | hz
              · exact Or.inl hz
              · exact Or.inr ⟨hz, hxt⟩)
        · rw [if_neg hxt]
          intro z hz
          exact Or.inr hz
        · rw [if_neg hxt]
          intro z hz
          exact hz
        · rw [if_neg hxt]
          exact Nat.le_trans (Nat.add_le_add_left (by decide : 2 ≤ 3) _) a3
    obtain ⟨q1, hq1, hA1, hA2, hA3, hA4⟩ := hA
    rw [← hq1]
    have hd : x.1 < st.1.dist.length := by rw [hinv.valid.lenDist]; omega
    have hr : x.1 < st.1.round.length := by rw [hinv.valid.lenRound]; omega
    have hlab1 := fun z => labOf_set st.1.dist st.1.round st.1.currentRound x.1
      (minPair.key + metric.weights.getD x.2 0) z hd hr
    by_cases hcell : og.levelInfo.truncateToLevel
        (og.getVertex (og.getVertex x.1).neighborOverlayVertex).cellNumber l ≠ k
    · rw [if_pos hcell]
      refine ⟨?_, ?_, ?_, ?_, ?_, Nat.le_trans (Nat.le_add_right _ 2) hA4, rfl⟩
      · apply overlay_close graph og exitFlags metric n l k sourceId targetId _ _ _ hA1
        intro z hz hz' _
        rcases hz with hz | ⟨hz, _⟩
        · exact absurd hz hz'
        · subst hz
          intro y c he
          rcases he with ⟨hf, _⟩ | ⟨_, hy, hk, _⟩
          · rw [hxf] at hf
            exact absurd hf (by simp)
          · rw [hy] at hk
            exact absurd hk hcell
      · show labOf (st.1.dist.set x.1 _) (st.1.round.set x.1 _) st.1.currentRound minPair.id = _
        rw [hlab1, if_neg (Ne.symm hne1)]
        exact hk0
      · intro hq
        rcases hA2 _ hq with e | e
        · exact hne1 e.symm
        · exact hnq e
      · have := labLe_update (labOf st.1.dist st.1.round st.1.currentRound) x.1
          (minPair.key + metric.weights.getD x.2 0) (fun d hd' => le_of_lt (hlt1 d hd'))
        intro z d hz
        obtain ⟨d', e1, e2⟩ := this z d hz
        exact ⟨d', by
          show labOf (st.1.dist.set x.1 _) (st.1.round.set x.1 _) st.1.currentRound z = _
          rw [hlab1]; exact e1, e2⟩
      · apply @edgeOk_of_le _ _ _ _ _ _ (minPair.key + metric.weights.getD x.2 0)
        · show labOf (st.1.dist.set x.1 _) (st.1.round.set x.1 _) st.1.currentRound
            minPair.id = _
          rw [hlab1, if_neg (Ne.symm hne1)]
          exact hk0
        · show labOf (st.1.dist.set x.1 _) (st.1.round.set x.1 _) st.1.currentRound x.1 = _
          rw [hlab1, if_pos rfl]
        · exact le_refl _
    · rw [if_neg hcell]
      have hcell' : og.levelInfo.truncateToLevel
          (og.getVertex (og.getVertex x.1).neighborOverlayVertex).cellNumber l = k := by
        by_contra hc
        exact hcell hc
      have hedge2 : og.OEdge graph exitFlags metric.costFunction metric.weights l k x.1
          (og.getVertex x.1).neighborOverlayVertex (metric.costFunction.getWeight
            (graph.getForwardEdge (og.getVertex x.1).originalEdge).attributes) :=
        Or.inr ⟨hxf, rfl, hcell', rfl⟩
      have hxlab : labOf (st.1.dist.set x.1 (minPair.key + metric.weights.getD x.2 0))
          (st.1.round.set x.1 st.1.currentRound) st.1.currentRound x.1 =
          some (minPair.key + metric.weights.getD x.2 0) := by
        rw [hlab1, if_pos rfl]
      have hens : (og.getVertex x.1).neighborOverlayVertex ≠ sourceId :=
        twin_ne_source graph og exitFlags hR hW l k hl hL sourceId hs hsl x.1 hxin hxf
      have hlt2 : ∀ d, labOf (st.1.dist.set x.1 (minPair.key + metric.weights.getD x.2 0))
          (st.1.round.set x.1 st.1.currentRound) st.1.currentRound
          (og.getVertex x.1).neighborOverlayVertex = some d →
          minPair.key + metric.weights.getD x.2 0 + metric.costFunction.getWeight
            (graph.getForwardEdge (og.getVertex x.1).originalEdge).attributes < d := by
        intro d hd'
        rw [hlab1, if_neg hne2] at hd'
        obtain ⟨rank, hrank⟩ := hinv.par
        obtain ⟨dp, c, p1, p2, p3, _⟩ := hrank _ d hd' hens
        beta_reduce at p1 p2
        have hpin := OverlayGraph.reach_inCell graph og exitFlags hR hW metric.costFunction
          metric.weights l k hl hL hs (hinv.search.search.sound _ _ p1)
        rcases p2 with ⟨pf, wo, pm, _⟩ | ⟨pf, py, _, pc⟩
        · exfalso
          have := (hR.out _ (l - 1) hpin.1 pf (by omega) hpin.2.1 _ pm).2.1
          rw [t2] at this
          exact absurd this (by simp)
        · have hpar : (st.1.parent.getD (og.getVertex x.1).neighborOverlayVertex default).id
              = x.1 := by
            have h1 := hW.twin _ hpin.1
            rw [← py] at h1
            rw [← h1]
            exact hW.twin x.1 hxin.1
          rw [hpar] at p1 pc
          have := hlt1 dp p1
          omega
      obtain ⟨b1, b2, b3, b4⟩ := overlay_push graph og exitFlags metric n l k sourceId targetId
        _ q1 _ hA1 x.1 (og.getVertex x.1).neighborOverlayVertex
        (metric.costFunction.getWeight
          (graph.getForwardEdge (og.getVertex x.1).originalEdge).attributes)
        (minPair.key + metric.weights.getD x.2 0) (og.getVertex x.1).originalVertex
        (by omega) hxlab hedge2 hlt2 (by omega) (fun _ => t2)
      have hne3 : (og.getVertex x.1).neighborOverlayVertex ≠ minPair.id := by
        intro e
        have := hlt2 minPair.key (by rw [hlab1, if_neg hne2, e]; exact hk0)
        omega
      have hfin : ∀ z, labOf ((st.1.dist.set x.1 (minPair.key + metric.weights.getD x.2 0)).set
          (og.getVertex x.1).neighborOverlayVertex
          (minPair.key + metric.weights.getD x.2 0 + metric.costFunction.getWeight
            (graph.getForwardEdge (og.getVertex x.1).originalEdge).attributes))
          ((st.1.round.set x.1 st.1.currentRound).set
            (og.getVertex x.1).neighborOverlayVertex st.1.currentRound) st.1.currentRound z =
          if z = (og.getVertex x.1).neighborOverlayVertex then
            some (minPair.key + metric.weights.getD x.2 0 + metric.costFunction.getWeight
              (graph.getForwardEdge (og.getVertex x.1).originalEdge).attributes)
          else if z = x.1 then some (minPair.key + metric.weights.getD x.2 0)
          else labOf st.1.dist st.1.round st.1.currentRound z := by
        intro z
        rw [b3 z, hlab1]
      refine ⟨?_, ?_, ?_, ?_, ?_, Nat.le_trans (Nat.le_add_right _ 2)
        (Nat.le_trans b4 (Nat.le_trans (Nat.le_add_right _ 2) hA4)), rfl⟩
      · apply overlay_close graph og exitFlags metric n l k sourceId targetId _ _ _ b1
        intro z hz hz' _
        rcases hz with hz | ⟨hz, _⟩
        · exact absurd hz hz'
        · subst hz
          intro y c he
          rcases he with ⟨hf, _⟩ | ⟨_, hy, _, hc⟩
          · rw [hxf] at hf
            exact absurd hf (by simp)
          · subst hy
            subst hc
            apply @edgeOk_of_le _ _ _ _ _ (minPair.key + metric.weights.getD x.2 0)
              (minPair.key + metric.weights.getD x.2 0 + metric.costFunction.getWeight
                (graph.getForwardEdge (og.getVertex x.1).originalEdge).attributes)
            · exact (hfin _).trans (by rw [if_neg (Ne.symm hne2), if_pos rfl])
            · exact (hfin _).trans (by rw [if_pos rfl])
            · exact le_refl _
      · exact (hfin _).trans (by rw [if_neg (Ne.symm hne3), if_neg (Ne.symm hne1)]; exact hk0)
      · intro hq
        rcases (b2 _).1 hq with e | e
        · exact hne3 e.symm
        · rcases hA2 _ e with e' | e'
          · exact hne1 e'.symm
          · exact hnq e'
      · intro z d hz
        by_cases hz1 : z = (og.getVertex x.1).neighborOverlayVertex
        · refine ⟨_, (hfin z).trans (by rw [if_pos hz1]), ?_⟩
          have := hlt2 d (by rw [hlab1, if_neg hne2, ← hz1]; exact hz)
          omega
        · by_cases hz2 : z = x.1
          · refine ⟨_, (hfin z).trans (by rw [if_neg hz1, if_pos hz2]), ?_⟩
            have := hlt1 d (by rw [← hz2]; exact hz)
            omega
          · exact ⟨d, (hfin z).trans (by rw [if_neg hz1, if_neg hz2]; exact hz), le_refl _⟩
      · apply @edgeOk_of_le _ _ _ _ _ minPair.key (minPair.key + metric.weights.getD x.2 0)
        · exact (hfin _).trans (by
            rw [if_neg (Ne.symm hne3), if_neg (Ne.symm hne1)]; exact hk0)
        · exact (hfin _).trans (by rw [if_neg (Ne.symm hne2), if_pos rfl])
        · exact le_refl _

end PathUnpacker

/-- A fold whose steps keep `Inv`, establish `Ok` for the element of the step and keep `Ok`
for the other elements establishes `Ok` for all elements. -/
theorem foldl_collect {α β : Type} (Inv : β → Prop) (Ok : β → α → Prop) (P : α → Prop)
    (f : β → α → β)
    (step : ∀ b a, P a → Inv b → Inv (f b a) ∧ Ok (f b a) a ∧ ∀ a', Ok b a' → Ok (f b a) a')
    (l : List α) (hP : ∀ a, a ∈ l → P a) (b : β) (hb : Inv b) :
    Inv (l.foldl f b) ∧ ∀ a, a ∈ l → Ok (l.foldl f b) a := by
  induction l using List.reverseRecOn with
  | nil => exact ⟨hb, fun a ha => absurd ha (List.not_mem_nil _)⟩
  | append_singleton l0 a ih =>
    obtain ⟨h1, h2⟩ := ih (fun a' ha' => hP a' (List.mem_append_left _ ha'))
    rw [List.foldl_append]
    simp only [List.foldl_cons, List.foldl_nil]
    obtain ⟨s1, s2, s3⟩ := step (l0.foldl f b) a
      (hP a (List.mem_append_right _ (List.mem_singleton_self a))) h1
    refine ⟨s1, ?_⟩
    intro a' ha'
    rcases List.mem_append.1 ha' with h | h
    · exact s3 a' (h2 a' h)
    · rw [List.mem_singleton.1 h]
      exact s2

namespace PathUnpacker

theorem overlayAll_inv (graph : Graph) (og : OverlayGraph) (exitFlags : List Bool)
    (hR : og.Routable graph exitFlags) (hW : og.Wired exitFlags) (metric : Metric)
    (hb : metric.costFunction.Bounded) (hw : DistBound metric.weights)
    (n l k sourceId targetId : Nat) (hn : og.numberOfVertices ≤ n) (hl : 2 ≤ l)
    (hL : l ≤ og.levelInfo.getLevelCount) (hs : og.InCell l k sourceId)
    (hsl : l ≤ (og.getVertex sourceId).entryExitPoint.length)
    (htf : exitFlags.getD targetId false = true) (minPair : IDKeyPair)
    (hkey : minPair.key < inf_weight) (hmf : exitFlags.getD minPair.id false = false)
    (st : PathUnpacker × List IDKeyPair)
    (hinv : OverlayInv graph og exitFlags metric n l k sourceId targetId st
      (fun z => z = minPair.id))
    (hk0 : labOf st.1.dist st.1.round st.1.currentRound minPair.id = some minPair.key)
    (hnq : ¬ QOpen st.2 minPair.id) :
    OverlayInv graph og exitFlags metric n l k sourceId targetId
      ((og.forOutNeighborsOf minPair.id (l - 1)).foldl
        (overlayRelax graph og metric l k targetId minPair) st) (fun _ => False) ∧
    overlayPotential n ((og.forOutNeighborsOf minPair.id (l - 1)).foldl
        (overlayRelax graph og metric l k targetId minPair) st) ≤ overlayPotential n st ∧
    ((og.forOutNeighborsOf minPair.id (l - 1)).foldl
        (overlayRelax graph og metric l k targetId minPair) st).1.currentRound =
      st.1.currentRound := by
  obtain ⟨⟨h1, h2, h3, h4, h5⟩, h6⟩ := foldl_collect
    (fun b : PathUnpacker × List IDKeyPair =>
      OverlayInv graph og exitFlags metric n l k sourceId targetId b
        (fun z => z = minPair.id) ∧
      labOf b.1.dist b.1.round b.1.currentRound minPair.id = some minPair.key ∧
      ¬ QOpen b.2 minPair.id ∧ overlayPotential n b ≤ overlayPotential n st ∧
      b.1.currentRound = st.1.currentRound)
    (fun b a => EdgeOk inf_weight (labOf b.1.dist b.1.round b.1.currentRound) minPair.id a.1
      (metric.weights.getD a.2 0))
    (fun a => a ∈ og.forOutNeighborsOf minPair.id (l - 1))
    (overlayRelax graph og metric l k targetId minPair)
    (by
      intro b a ha hb'
      obtain ⟨g1, g2, g3, g4, g5, g6, g7⟩ := overlayRelax_inv graph og exitFlags hR hW metric hb
        hw n l k sourceId targetId hn hl hL hs hsl htf minPair hkey hmf b hb'.1 hb'.2.1
        hb'.2.2.1 a ha
      refine ⟨⟨g1, g2, g3, le_trans g6 hb'.2.2.2.1, g7.trans hb'.2.2.2.2⟩, g5, ?_⟩
      intro a' ha'
      exact edgeOk_mono ha' (g2.trans hb'.2.1.symm) g4)
    (og.forOutNeighborsOf minPair.id (l - 1)) (fun a ha => ha) st
    ⟨hinv, hk0, hnq, le_refl _, rfl⟩
  refine ⟨?_, h4, h5⟩
  apply overlay_close graph og exitFlags metric n l k sourceId targetId _ _ _ h1
  intro z hz _ _
  have hzm : z = minPair.id := hz
  subst hzm
  intro y c he
  rcases he with ⟨_, wo, hm, hc⟩ | ⟨hf, _⟩
  · rw [hc]
    exact h6 (y, wo) hm
  · rw [hmf] at hf
    exact absurd hf (by simp)

theorem overlayLoop_succ (graph : Graph) (og : OverlayGraph) (metric : Metric)
    (l k targetId fuel : Nat) (st : PathUnpacker × List IDKeyPair) :
    overlayLoop graph og metric l k targetId (fuel + 1) st =
      match MinIDQueue.pop st.2 with
      | none => some st.1
      | some (minPair, q) =>
        if minPair.id = targetId then some st.1
        else
          overlayLoop graph og metric l k targetId fuel
            ((og.forOutNeighborsOf minPair.id (l - 1)).foldl
              (overlayRelax graph og metric l k targetId minPair) (st.1, q)) := rfl

/-- With enough fuel, the loop of `unpackPathInOverlayCell` ends with a label of the target
that is at most the cost of every walk to it in the cell that is below `inf_weight`, with
labels that are costs of walks, and with parent pointers that lead to the source. -/
theorem overlayLoop_spec (graph : Graph) (og : OverlayGraph) (exitFlags : List Bool)
    (hR : og.Routable graph exitFlags) (hW : og.Wired exitFlags) (metric : Metric)
    (hb : metric.costFunction.Bounded) (hw : DistBound metric.weights)
    (n l k sourceId targetId D : Nat) (hn : og.numberOfVertices ≤ n) (hl : 2 ≤ l)
    (hL : l ≤ og.levelInfo.getLevelCount) (hs : og.InCell l k sourceId)
    (hsl : l ≤ (og.getVertex sourceId).entryExitPoint.length)
    (htf : exitFlags.getD targetId false = true)
    (hreach : Reach (og.OEdge graph exitFlags metric.costFunction metric.weights l k)
      sourceId targetId D) (hD : D < inf_weight) :
    ∀ (fuel : Nat) (st : PathUnpacker × List IDKeyPair),
      OverlayInv graph og exitFlags metric n l k sourceId targetId st (fun _ => False) →
      overlayPotential n st < fuel →
      ∃ self', overlayLoop graph og metric l k targetId fuel st = some self' ∧
        Valid n self' ∧ self'.currentRound = st.1.currentRound ∧
        (∃ d, labOf self'.dist self'.round self'.currentRound targetId = some d ∧ d ≤ D) ∧
        ParInv (og.OEdge graph exitFlags metric.costFunction metric.weights l k) sourceId
          (labOf self'.dist self'.round self'.currentRound)
          (fun x => (self'.parent.getD x default).id) ∧
        ∀ x d, labOf self'.dist self'.round self'.currentRound x = some d →
          Reach (og.OEdge graph exitFlags metric.costFunction metric.weights l k)
            sourceId x d := by
  intro fuel
  induction fuel with
  | zero => intro st _ h; exact absurd h (Nat.not_lt_zero _)
  | succ fuel ih =>
    intro st hinv hpot
    rw [overlayLoop_succ]
    obtain ⟨p0, hp0, hp0D⟩ := qInv_open_le hinv.search hreach hD hinv.tgtOpen
    cases hpop : MinIDQueue.pop st.2 with
    | none =>
      rw [(MinIDQueue.pop_eq_none _).1 hpop] at hp0
      exact absurd hp0 (List.not_mem_nil _)
    | some r =>
      obtain ⟨minPair, q⟩ := r
      simp only []
      obtain ⟨hq1, hmem, hmin, hlab, hnq, hiff⟩ := qInv_pop _ _ _ hpop hinv.search
      have hkey : minPair.key ≤ D := le_trans (hmin p0 hp0) hp0D
      by_cases ht : minPair.id = targetId
      · rw [if_pos ht]
        refine ⟨st.1, rfl, hinv.valid, rfl, ⟨minPair.key, ?_, hkey⟩, hinv.par,
          hinv.search.search.sound⟩
        rw [← ht]; exact hlab
      · rw [if_neg ht]
        have hinv1 : OverlayInv graph og exitFlags metric n l k sourceId targetId
            (st.1, q) (fun z => z = minPair.id) := by
          refine ⟨hinv.valid, hq1, fun p hp =>
            hinv.queue p ((MinIDQueue.mem_pop _ _ _ hpop p).1 hp).1, hinv.par, ?_, hinv.small⟩
          intro d hd
          exact (hiff targetId).2 ⟨hinv.tgtOpen d hd, fun e => ht e.symm⟩
        have hmf := hinv.queue minPair hmem ht
        obtain ⟨a1, a2, a3⟩ := overlayAll_inv graph og exitFlags hR hW metric hb hw n l k
          sourceId targetId hn hl hL hs hsl htf minPair (by omega) hmf (st.1, q) hinv1 hlab hnq
        have hlen := MinIDQueue.pop_length _ _ _ hpop
        have hpot1 : overlayPotential n (st.1, q) < overlayPotential n st := by
          unfold overlayPotential
          simp only []
          omega
        obtain ⟨self', b1, b2, b3, b4⟩ := ih _ a1 (by omega)
        exact ⟨self', b1, b2, b3.trans a3, b4⟩

end PathUnpacker

end CRP


namespace CRP

/-! ## The overlay path that `unpackPathInOverlayCell` collects -/

namespace PathUnpacker

theorem overlayLoop_mono (graph : Graph) (og : OverlayGraph) (metric : Metric)
    (l k targetId : Nat) :
    ∀ (fuel : Nat) (st : PathUnpacker × List IDKeyPair) (r : PathUnpacker),
      overlayLoop graph og metric l k targetId fuel st = some r →
      ∀ fuel', fuel ≤ fuel' → overlayLoop graph og metric l k targetId fuel' st = some r := by
  intro fuel
  induction fuel with
  | zero => intro st r h; simp [overlayLoop] at h
  | succ fuel ih =>
    intro st r h fuel' hle
    obtain ⟨f, rfl⟩ : ∃ f, fuel' = f + 1 := ⟨fuel' - 1, by omega⟩
    rw [overlayLoop_succ] at h ⊢
    cases hpop : MinIDQueue.pop st.2 with
    | none =>
      rw [hpop] at h
      exact h
    | some p =>
      obtain ⟨minPair, q⟩ := p
      rw [hpop] at h
      simp only [] at h ⊢
      by_cases ht : minPair.id = targetId
      · rw [if_pos ht] at h ⊢
        exact h
      · rw [if_neg ht] at h ⊢
        exact ih _ r h f (by omega)

/-- The walk back along the parent pointers ends when they lead to the source. -/
theorem overlayPath_iterate (parent : List VertexIdPair) (sourceId : Nat) :
    ∀ (m fuel uId : Nat) (path : List Nat),
      (fun x => (parent.getD x default).id)^[m] uId = sourceId → m < fuel →
      ∃ m', m' ≤ m ∧ (fun x => (parent.getD x default).id)^[m'] uId = sourceId ∧
        (∀ i, i < m' → (fun x => (parent.getD x default).id)^[i] uId ≠ sourceId) ∧
        overlayPath parent sourceId fuel uId path =
          some (path ++ (List.range m').map
            (fun i => (fun x => (parent.getD x default).id)^[i + 1] uId)) := by
  intro m
  induction m with
  | zero =>
    intro fuel uId path h hf
    obtain ⟨f, rfl⟩ : ∃ f, fuel = f + 1 := ⟨fuel - 1, by omega⟩
    have hu : uId = sourceId := h
    refine ⟨0, le_refl _, h, fun i hi => absurd hi (Nat.not_lt_zero _), ?_⟩
    unfold overlayPath
    simp [hu]
  | succ m ih =>
    intro fuel uId path h hf
    obtain ⟨f, rfl⟩ : ∃ f, fuel = f + 1 := ⟨fuel - 1, by omega⟩
    by_cases hu : uId = sourceId
    · refine ⟨0, Nat.zero_le _, hu, fun i hi => absurd hi (Nat.not_lt_zero _), ?_⟩
      unfold overlayPath
      simp [hu]
    · rw [Function.iterate_succ_apply] at h
      obtain ⟨m', h1, h2, h3, h4⟩ := ih f (parent.getD uId default).id
        (path ++ [(parent.getD uId default).id]) h (by omega)
      refine ⟨m' + 1, by omega, ?_, ?_, ?_⟩
      · rw [Function.iterate_succ_apply]
        exact h2
      · intro i hi
        cases i with
        | zero => exact hu
        | succ i =>
          rw [Function.iterate_succ_apply]
          exact h3 i (by omega)
      · unfold overlayPath
        rw [if_pos hu, h4]
        congr 1
        rw [List.range_succ_eq_map, List.map_cons, List.map_map, List.append_assoc]
        rfl

end PathUnpacker

/-- The exit flags along a chain of parent pointers alternate when they change with every
pointer. -/
theorem alternates_iterate (exitFlags : List Bool) (par : Nat → Nat) (good : Nat → Prop)
    (hstep : ∀ y, good y → exitFlags.getD (par y) false = !exitFlags.getD y false) :
    ∀ (m x : Nat) (b : Bool), exitFlags.getD x false = b →
      (∀ i, i < m → good (par^[i] x)) →
      Alternates exitFlags (!b) ((List.range m).map (fun i => par^[i + 1] x)) ∧
        exitFlags.getD (par^[m] x) false = (if m % 2 = 0 then b else !b) := by
  intro m
  induction m with
  | zero =>
    intro x b hb _
    exact ⟨trivial, by simpa using hb⟩
  | succ m ih =>
    intro x b hb hg
    have h0 : exitFlags.getD (par x) false = !b := by
      rw [hstep x (hg 0 (Nat.succ_pos _)), hb]
    obtain ⟨a1, a2⟩ := ih (par x) (!b) h0 (fun i hi => by
      have := hg (i + 1) (by omega)
      rwa [Function.iterate_succ_apply] at this)
    constructor
    · rw [List.range_succ_eq_map, List.map_cons, List.map_map]
      exact ⟨h0, a1⟩
    · rw [Function.iterate_succ_apply, a2]
      by_cases hm : m % 2 = 0
      · have : (m + 1) % 2 ≠ 0 := by omega
        rw [if_pos hm, if_neg this]
      · have : (m + 1) % 2 = 0 := by omega
        rw [if_neg hm, if_pos this]
        simp

/-- A list of even length splits into pairs. -/
theorem pairs_even : ∀ (m : Nat) (l : List Nat), l.length = 2 * m →
    ∃ ps, PathUnpacker.pairs l = some ps := by
  intro m
  induction m with
  | zero =>
    intro l hl
    have : l = [] := List.length_eq_zero.1 (by omega)
    subst this
    exact ⟨[], rfl⟩
  | succ m ih =>
    intro l hl
    match l, hl with
    | a :: b :: rest, hl =>
      obtain ⟨ps, hps⟩ := ih rest (by simp only [List.length_cons] at hl; omega)
      exact ⟨(a, b) :: ps, by simp [PathUnpacker.pairs, hps]⟩
    | [_], hl => simp at hl; omega
    | [], hl => simp at hl

namespace PathUnpacker

/-- The path unpacker that the constructor leaves is valid. -/
theorem unpacker_create_valid (graph : Graph) (og : OverlayGraph) :
    Valid (graph.numberOfEdges + og.numberOfVertices) (create graph og) where
  lenDist := by simp [create]
  lenRound := by simp [create]
  lenParent := by simp [create]
  rounds := by
    intro i
    show (List.replicate _ 0).getD i 0 ≤ 1
    rw [List.getD_eq_getElem?_getD, List.getElem?_replicate]
    split_ifs <;> simp

/-- The state with which the loop of `unpackPathInOverlayCell` starts. -/
theorem overlay_init (graph : Graph) (og : OverlayGraph) (exitFlags : List Bool)
    (metric : Metric) (n l k sourceId targetId : Nat) (hm : sourceId < n)
    (self : PathUnpacker) (hv : Valid n self)
    (hsf : exitFlags.getD sourceId false = false)
    (htf : exitFlags.getD targetId false = true) :
    OverlayInv graph og exitFlags metric n l k sourceId targetId
      ({ self with
          currentRound := self.currentRound + 1
          dist := self.dist.set sourceId 0
          round := self.round.set sourceId (self.currentRound + 1) },
        MinIDQueue.push [] ⟨sourceId, 0⟩) (fun _ => False) := by
  have hd : sourceId < self.dist.length := by rw [hv.lenDist]; exact hm
  have hr : sourceId < self.round.length := by rw [hv.lenRound]; exact hm
  have hfresh : ∀ x d, labOf (self.dist.set sourceId 0)
      (self.round.set sourceId (self.currentRound + 1)) (self.currentRound + 1) x = some d →
      x = sourceId ∧ d = 0 :=
    fun x d h => labOf_fresh _ _ _ _ _ _ _ hd hr hv.rounds h
  have hsrc : labOf (self.dist.set sourceId 0)
      (self.round.set sourceId (self.currentRound + 1)) (self.currentRound + 1) sourceId =
      some 0 := by
    rw [labOf_set _ _ _ _ _ _ hd hr, if_pos rfl]
  have hne : sourceId ≠ targetId := by
    intro e
    rw [e, htf] at hsf
    exact absurd hsf (by simp)
  refine ⟨⟨?_, ?_, hv.lenParent, ?_⟩, ⟨⟨hsrc, ?_, ?_⟩, ?_, ?_⟩, ?_, ?_, ?_, ?_⟩
  · simp only [List.length_set]; exact hv.lenDist
  · simp only [List.length_set]; exact hv.lenRound
  · intro i
    show (self.round.set sourceId (self.currentRound + 1)).getD i 0 ≤ self.currentRound + 1
    rw [getD_set_self_or]
    split_ifs
    · exact le_refl _
    · exact le_trans (hv.rounds i) (Nat.le_succ _)
  · intro x d hx
    obtain ⟨e1, e2⟩ := hfresh x d hx
    rw [e1, e2]
    exact Reach.start
  · intro x hx
    apply closedAt_of_none
    cases hl : labOf (self.dist.set sourceId 0)
        (self.round.set sourceId (self.currentRound + 1)) (self.currentRound + 1) x with
    | none => rfl
    | some d =>
      exfalso
      apply hx
      left
      exact ⟨⟨sourceId, 0⟩, by simp [MinIDQueue.push], (hfresh x d hl).1.symm⟩
  · simp [MinIDQueue.push]
  · intro p hp
    have hp' : p = ⟨sourceId, 0⟩ := by simpa [MinIDQueue.push] using hp
    subst hp'
    exact hsrc
  · intro p hp _
    have hp' : p = ⟨sourceId, 0⟩ := by simpa [MinIDQueue.push] using hp
    subst hp'
    exact hsf
  · exact ⟨fun _ => 0, fun x d hx hne' => absurd (hfresh x d hx).1 hne'⟩
  · intro d hd'
    exact absurd (hfresh _ d hd').1 (Ne.symm hne)
  · intro x d hx
    rw [(hfresh x d hx).2]
    unfold inf_weight
    omega

/-- The overlay path of `unpackPathInOverlayCell`: with enough fuel the search ends and the
walk back from the target reaches the source; the collected path starts with the target,
ends with the source, alternates exit and entry vertices of the cell and has an even
length, so that it splits into pairs. -/
theorem overlayPath_spec (graph : Graph) (og : OverlayGraph) (exitFlags : List Bool)
    (hR : og.Routable graph exitFlags) (hW : og.Wired exitFlags) (metric : Metric)
    (hb : metric.costFunction.Bounded) (hw : DistBound metric.weights)
    (n l k sourceId targetId D : Nat) (hn : og.numberOfVertices ≤ n) (hl : 2 ≤ l)
    (hL : l ≤ og.levelInfo.getLevelCount) (hs : og.InCell l k sourceId)
    (hsl : l ≤ (og.getVertex sourceId).entryExitPoint.length)
    (hsf : exitFlags.getD sourceId false = false)
    (htf : exitFlags.getD targetId false = true)
    (hreach : Reach (og.OEdge graph exitFlags metric.costFunction metric.weights l k)
      sourceId targetId D) (hD : D < inf_weight)
    (self : PathUnpacker) (hv : Valid n self) :
    ∃ fuel0, ∀ fuel, fuel0 ≤ fuel → ∃ self' path ps,
      overlayLoop graph og metric l k targetId fuel
        ({ self with
            currentRound := self.currentRound + 1
            dist := self.dist.set sourceId 0
            round := self.round.set sourceId (self.currentRound + 1) },
          MinIDQueue.push [] ⟨sourceId, 0⟩) = some self' ∧
      Valid n self' ∧
      overlayPath self'.parent sourceId fuel targetId [targetId] = some path ∧
      path.length % 2 = 0 ∧ Alternates exitFlags true path ∧
      (∀ x, x ∈ path → og.InCell l k x) ∧
      path.head? = some targetId ∧ path.getLast? = some sourceId ∧
      pairs path.reverse = some ps := by
  have hm : sourceId < n := Nat.lt_of_lt_of_le hs.1 hn
  have hinv := overlay_init graph og exitFlags metric n l k sourceId targetId hm self hv hsf htf
  obtain ⟨self', b1, b2, _, ⟨d, b4, _⟩, b5, b6⟩ := overlayLoop_spec graph og exitFlags hR hW
    metric hb hw n l k sourceId targetId D hn hl hL hs hsl htf hreach hD _ _ hinv
    (Nat.lt_succ_self _)
  obtain ⟨m, c1, c2⟩ := parInv_chain b5 targetId d b4
  refine ⟨max (overlayPotential n
    ({ self with
        currentRound := self.currentRound + 1
        dist := self.dist.set sourceId 0
        round := self.round.set sourceId (self.currentRound + 1) },
      MinIDQueue.push [] ⟨sourceId, 0⟩) + 1) (m + 1), ?_⟩
  intro fuel hfuel
  have hloop := overlayLoop_mono graph og metric l k targetId _ _ self' b1 fuel
    (le_trans (le_max_left _ _) hfuel)
  obtain ⟨m', e1, e2, e3, e4⟩ := overlayPath_iterate self'.parent sourceId m fuel targetId
    [targetId] c1 (Nat.lt_of_lt_of_le (Nat.lt_succ_self m) (le_trans (le_max_right _ _) hfuel))
  have hin : ∀ i, i ≤ m' → og.InCell l k
      ((fun x => (self'.parent.getD x default).id)^[i] targetId) := by
    intro i hi
    obtain ⟨di, hdi⟩ := c2 i (by omega)
    exact OverlayGraph.reach_inCell graph og exitFlags hR hW metric.costFunction
      metric.weights l k hl hL hs (b6 _ _ hdi)
  obtain ⟨f1, f2⟩ := alternates_iterate exitFlags (fun x => (self'.parent.getD x default).id)
    (fun y => (∃ dy, labOf self'.dist self'.round self'.currentRound y = some dy) ∧
      y ≠ sourceId)
    (by
      rintro y ⟨⟨dy, hy⟩, hys⟩
      obtain ⟨rank, hrank⟩ := b5
      obtain ⟨dp, c, p1, p2, _, _⟩ := hrank y dy hy hys
      have hpin := OverlayGraph.reach_inCell graph og exitFlags hR hW metric.costFunction
        metric.weights l k hl hL hs (b6 _ _ p1)
      have := (OverlayGraph.oedge_inCell graph og exitFlags hR hW metric.costFunction
        metric.weights l k hl hL hpin p2).2
      beta_reduce at this ⊢
      rw [this]
      simp)
    m' targetId true htf (fun i hi => ⟨c2 i (by omega), e3 i hi⟩)
  rw [e2, hsf] at f2
  have hodd : m' % 2 = 1 := by
    by_contra hc
    have : m' % 2 = 0 := by omega
    rw [if_pos this] at f2
    exact absurd f2 (by simp)
  have hlen : ([targetId] ++ (List.range m').map
      (fun i => (fun x => (self'.parent.getD x default).id)^[i + 1] targetId)).length % 2 = 0 := by
    simp only [List.length_append, List.length_singleton, List.length_map, List.length_range]
    omega
  obtain ⟨ps, hps⟩ := pairs_even
    (([targetId] ++ (List.range m').map
      (fun i => (fun x => (self'.parent.getD x default).id)^[i + 1] targetId)).length / 2)
    ([targetId] ++ (List.range m').map
      (fun i => (fun x => (self'.parent.getD x default).id)^[i + 1] targetId)).reverse
    (by rw [List.length_reverse]; omega)
  refine ⟨self', _, ps, hloop, b2, e4, hlen, ⟨htf, f1⟩, ?_, rfl, ?_, hps⟩
  · intro x hx
    rcases List.mem_append.1 hx with h | h
    · rw [List.mem_singleton.1 h]
      exact hin 0 (Nat.zero_le _)
    · obtain ⟨i, hi, rfl⟩ := List.mem_map.1 h
      exact hin (i + 1) (by have := List.mem_range.1 hi; omega)
  · obtain ⟨m0, rfl⟩ : ∃ m0, m' = m0 + 1 := ⟨m' - 1, by omega⟩
    rw [List.range_succ, List.map_append, ← List.append_assoc]
    simp only [List.map_cons, List.map_nil, List.getLast?_append, List.getLast?_singleton]
    simpa using e2

end PathUnpacker

end CRP

namespace CRP

/-! ## The queues of the base graph in ParallelCRPQuery::edgeQuery -/

/-- The cell that `getCell` returns is a cell of a level of the overlay graph, or the
default cell when the level has no cell with the key. -/
theorem getCell_cases (li : LevelInfo) (L : Nat) (b : OverlayGraph.OverlayVertexBuild)
    (c l : Nat) :
    (OverlayGraph.buildCells li L b).getCell c l = default ∨
    (l - 1 < L ∧ ∃ k, (k, (OverlayGraph.buildCells li L b).getCell c l) ∈
      (OverlayGraph.buildCells li L b).forCells (l - 1 + 1)) := by
  have hinv := buildCellsState_inv li L b
  have hlen : (OverlayGraph.buildCells li L b).cellMapping.length = L := hinv.lenMap
  unfold OverlayGraph.getCell
  cases hf : cellFind ((OverlayGraph.buildCells li L b).levelInfo.truncateToLevel c l)
      ((OverlayGraph.buildCells li L b).cellMapping.getD (l - 1) []) with
  | none => exact Or.inl rfl
  | some C =>
    have hm := cellFind_mem hf
    have hlt : l - 1 < L := by
      by_contra hc
      rw [List.getD_eq_default _ _ (by omega)] at hm
      exact absurd hm (List.not_mem_nil _)
    exact Or.inr ⟨hlt, _, hm⟩

/-- The exit overlay vertices that `forOutNeighborsOf` hands over are vertices of the overlay
graph that `buildCells` builds, for every vertex and every level that it is called with. -/
theorem out_neighbors_lt (g : Graph) (li : LevelInfo) (L : Nat) (u l : Nat) (p : Nat × Nat)
    (hp : p ∈ (OverlayGraph.buildCells li L
      (OverlayGraph.buildOverlayVertices g li L)).forOutNeighborsOf u l) :
    p.1 < (OverlayGraph.buildCells li L
      (OverlayGraph.buildOverlayVertices g li L)).numberOfVertices := by
  have wf := buildOverlayVertices_wf g li L
  unfold OverlayGraph.forOutNeighborsOf at hp
  obtain ⟨i, hi, rfl⟩ := List.mem_map.1 hp
  have hi' := List.mem_range.1 hi
  rcases getCell_cases li L (OverlayGraph.buildOverlayVertices g li L)
    ((OverlayGraph.buildCells li L
      (OverlayGraph.buildOverlayVertices g li L)).getVertex u).cellNumber l with h | ⟨hlt, k, hC⟩
  · rw [h] at hi'
    exact absurd hi' (by show ¬ i < 0; omega)
  · exact ((exit_points li L _ wf (l - 1 + 1) (by omega) (by omega) k _ hC).1 i hi').1

/-- The entry overlay vertices that `forInNeighborsOf` hands over are vertices of the overlay
graph that `buildCells` builds. -/
theorem in_neighbors_lt (g : Graph) (li : LevelInfo) (L : Nat) (u l : Nat) (p : Nat × Nat)
    (hp : p ∈ (OverlayGraph.buildCells li L
      (OverlayGraph.buildOverlayVertices g li L)).forInNeighborsOf u l) :
    p.1 < (OverlayGraph.buildCells li L
      (OverlayGraph.buildOverlayVertices g li L)).numberOfVertices := by
  have wf := buildOverlayVertices_wf g li L
  unfold OverlayGraph.forInNeighborsOf at hp
  obtain ⟨i, hi, rfl⟩ := List.mem_map.1 hp
  have hi' := List.mem_range.1 hi
  rcases getCell_cases li L (OverlayGraph.buildOverlayVertices g li L)
    ((OverlayGraph.buildCells li L
      (OverlayGraph.buildOverlayVertices g li L)).getVertex u).cellNumber l with h | ⟨hlt, k, hC⟩
  · rw [h] at hi'
    exact absurd hi' (by show ¬ i < 0; omega)
  · exact ((entry_points li L _ wf (l - 1 + 1) (by omega) (by omega) k _ hC).1 i hi').1

/-- The cell number of an overlay vertex is the cell number of its original vertex. -/
theorem overlay_cellNumber (g : Graph) (li : LevelInfo) (L : Nat) (x : Nat)
    (hx : x < (OverlayGraph.buildCells li L
      (OverlayGraph.buildOverlayVertices g li L)).numberOfVertices) :
    g.getCellNumber ((OverlayGraph.buildCells li L
      (OverlayGraph.buildOverlayVertices g li L)).getVertex x).originalVertex =
    ((OverlayGraph.buildCells li L
      (OverlayGraph.buildOverlayVertices g li L)).getVertex x).cellNumber := by
  obtain ⟨hn, h1, _, h3, _, _⟩ := buildCells_fields li L
    (OverlayGraph.buildOverlayVertices g li L) x
  obtain ⟨t, xe, xn, _, _, _, hp, hor⟩ := twinPair_cases g li L x (by rw [← hn]; exact hx)
  rw [h1, h3]
  rcases hor with h | h
  · subst h; rw [hp.exitVertex]
  · subst h; rw [hp.entryVertex]

namespace ParallelCRPQuery

theorem forwardMeet_self (metric : Metric) (v vId : Nat) (acc : Search × Nat)
    (x : ForwardEdge × Nat × TURN_TYPE) :
    (forwardMeet metric v vId acc x).1.self = acc.1.self := by
  unfold forwardMeet
  simp only
  split_ifs <;> rfl

theorem forwardMeet_fold_self (metric : Metric) (v vId : Nat)
    (l : List (ForwardEdge × Nat × TURN_TYPE)) :
    ∀ acc, (l.foldl (forwardMeet metric v vId) acc).1.self = acc.1.self := by
  induction l with
  | nil => intro acc; rfl
  | cons x rest ih =>
    intro acc
    rw [List.foldl_cons, ih]
    exact forwardMeet_self metric v vId acc x

/-- The update of a label of the base graph in the forward search leaves the queue of the base
graph of the other search alone, and a label that it places belongs to the vertex `v`. -/
theorem forwardPushGraph_queues (graph : Graph) (metric : Metric) (loc : Locals) (st : Search)
    (v point vId newDist : Nat) (vInSCell : Bool) (parent : VertexIdPair) :
    (forwardPushGraph graph metric loc st v point vId newDist vInSCell
      parent).self.backwardGraphPQ = st.self.backwardGraphPQ ∧
    ∀ p, p ∈ (forwardPushGraph graph metric loc st v point vId newDist vInSCell
      parent).self.forwardGraphPQ → p ∈ st.self.forwardGraphPQ ∨ p.vertexId = v := by
  unfold forwardPushGraph
  by_cases h1 : (st.self.forwardInfo.getD vId default).round < st.self.currentRound ∧
      newDist > (st.self.forwardInfo.getD vId default).dist
  · rw [if_pos h1]; exact ⟨rfl, fun p hp => Or.inl hp⟩
  rw [if_neg h1]
  by_cases h2 : (st.self.forwardInfo.getD vId default).round < st.self.currentRound ∨
      newDist < (st.self.forwardInfo.getD vId default).dist
  swap
  · rw [if_neg h2]; exact ⟨rfl, fun p hp => Or.inl hp⟩
  rw [if_pos h2]
  simp only [forwardMeet_fold_self]
  refine ⟨trivial, fun p hp => ?_⟩
  rcases MinIDQueue.mem_pushOrDecrease _ _ _ hp with h | h
  · exact Or.inr (by rw [h])
  · exact Or.inl h

/-- The update of a label of the overlay graph in the forward search leaves the queues of the
base graph alone. -/
theorem forwardPushOverlay_queues (st : Search) (v vQueryLevel vId newDist : Nat)
    (parent : VertexIdPair) (midVertex : Nat) :
    (forwardPushOverlay st v vQueryLevel vId newDist parent midVertex).self.backwardGraphPQ =
      st.self.backwardGraphPQ ∧
    (forwardPushOverlay st v vQueryLevel vId newDist parent midVertex).self.forwardGraphPQ =
      st.self.forwardGraphPQ := by
  unfold forwardPushOverlay
  simp only
  split_ifs <;> exact ⟨rfl, rfl⟩

/-- The handler of the forward search for an edge of the base graph places labels of vertices of
the source cell and of the target cell only. -/
theorem forwardRelaxGraph_queues (graph : Graph) (og : OverlayGraph) (metric : Metric)
    (loc : Locals)
    (hkey : ∀ cv, og.getQueryLevel loc.sCellNumber loc.tCellNumber cv = 0 →
      cv = loc.sCellNumber ∨ cv = loc.tCellNumber)
    (u uId : Nat) (st : Search) (x : ForwardEdge × Nat × TURN_TYPE) :
    (forwardRelaxGraph graph og metric loc u uId st x).self.backwardGraphPQ =
      st.self.backwardGraphPQ ∧
    ∀ p, p ∈ (forwardRelaxGraph graph og metric loc u uId st x).self.forwardGraphPQ →
      p ∈ st.self.forwardGraphPQ ∨ graph.getCellNumber p.vertexId = loc.sCellNumber ∨
        graph.getCellNumber p.vertexId = loc.tCellNumber := by
  unfold forwardRelaxGraph
  simp only
  split_ifs
  all_goals first
    | exact ⟨rfl, fun p hp => Or.inl hp⟩
    | (refine ⟨(forwardPushGraph_queues graph metric loc _ _ _ _ _ _ _).1, fun p hp => ?_⟩
       rcases (forwardPushGraph_queues graph metric loc _ _ _ _ _ _ _).2 p hp with h | h
       · exact Or.inl h
       · exact Or.inr (by rw [h]; exact hkey _ (by assumption)))
    | (refine ⟨(forwardPushOverlay_queues _ _ _ _ _ _ _).1, fun p hp => Or.inl ?_⟩
       rw [(forwardPushOverlay_queues _ _ _ _ _ _ _).2] at hp
       exact hp)

/-- The handler of the forward search for a neighbour in the overlay graph places labels of
vertices of the source cell and of the target cell only on the queue of the base graph. -/
theorem forwardRelaxOverlay_queues (graph : Graph) (og : OverlayGraph) (metric : Metric)
    (loc : Locals)
    (hkey : ∀ cv, og.getQueryLevel loc.sCellNumber loc.tCellNumber cv = 0 →
      cv = loc.sCellNumber ∨ cv = loc.tCellNumber)
    (htwin : ∀ x, x < og.numberOfVertices →
      (og.getVertex x).neighborOverlayVertex < og.numberOfVertices)
    (hcell : ∀ x, x < og.numberOfVertices →
      graph.getCellNumber (og.getVertex x).originalVertex = (og.getVertex x).cellNumber)
    (u uId : Nat) (st : Search) (x : Nat × Nat) (hx : x.1 < og.numberOfVertices) :
    (forwardRelaxOverlay graph og metric loc u uId st x).self.backwardGraphPQ =
      st.self.backwardGraphPQ ∧
    ∀ p, p ∈ (forwardRelaxOverlay graph og metric loc u uId st x).self.forwardGraphPQ →
      p ∈ st.self.forwardGraphPQ ∨ graph.getCellNumber p.vertexId = loc.sCellNumber ∨
        graph.getCellNumber p.vertexId = loc.tCellNumber := by
  unfold forwardRelaxOverlay
  simp only
  split_ifs
  all_goals first
    | exact ⟨rfl, fun p hp => Or.inl hp⟩
    | (refine ⟨(forwardPushGraph_queues graph metric loc _ _ _ _ _ _ _).1, fun p hp => ?_⟩
       rcases (forwardPushGraph_queues graph metric loc _ _ _ _ _ _ _).2 p hp with h | h
       · exact Or.inl h
       · refine Or.inr ?_
         rw [h, hcell _ (htwin _ hx)]
         exact hkey _ (by assumption))
    | (refine ⟨(forwardPushOverlay_queues _ _ _ _ _ _ _).1, fun p hp => Or.inl ?_⟩
       rw [(forwardPushOverlay_queues _ _ _ _ _ _ _).2] at hp
       exact hp)

theorem backwardMeet_self (metric : Metric) (v vId : Nat) (acc : Search × Nat)
    (x : BackwardEdge × Nat × TURN_TYPE) :
    (backwardMeet metric v vId acc x).1.self = acc.1.self := by
  unfold backwardMeet
  simp only
  split_ifs <;> rfl

theorem backwardMeet_fold_self (metric : Metric) (v vId : Nat)
    (l : List (BackwardEdge × Nat × TURN_TYPE)) :
    ∀ acc, (l.foldl (backwardMeet metric v vId) acc).1.self = acc.1.self := by
  induction l with
  | nil => intro acc; rfl
  | cons x rest ih =>
    intro acc
    rw [List.foldl_cons, ih]
    exact backwardMeet_self metric v vId acc x

/-- The update of a label of the base graph in the backward search leaves the queue of the base
graph of the other search alone, and a label that it places belongs to the vertex `v`. -/
theorem backwardPushGraph_queues (graph : Graph) (metric : Metric) (loc : Locals) (st : Search)
    (v point vId newDist : Nat) (vInSCell : Bool) (parent : VertexIdPair) :
    (backwardPushGraph graph metric loc st v point vId newDist vInSCell
      parent).self.forwardGraphPQ = st.self.forwardGraphPQ ∧
    ∀ p, p ∈ (backwardPushGraph graph metric loc st v point vId newDist vInSCell
      parent).self.backwardGraphPQ → p ∈ st.self.backwardGraphPQ ∨ p.vertexId = v := by
  unfold backwardPushGraph
  by_cases h1 : (st.self.backwardInfo.getD vId default).round < st.self.currentRound ∧
      newDist > (st.self.backwardInfo.getD vId default).dist
  · rw [if_pos h1]; exact ⟨rfl, fun p hp => Or.inl hp⟩
  rw [if_neg h1]
  by_cases h2 : (st.self.backwardInfo.getD vId default).round < st.self.currentRound ∨
      newDist < (st.self.backwardInfo.getD vId default).dist
  swap
  · rw [if_neg h2]; exact ⟨rfl, fun p hp => Or.inl hp⟩
  rw [if_pos h2]
  simp only [backwardMeet_fold_self]
  refine ⟨trivial, fun p hp => ?_⟩
  rcases MinIDQueue.mem_pushOrDecrease _ _ _ hp with h | h
  · exact Or.inr (by rw [h])
  · exact Or.inl h

/-- The update of a label of the overlay graph in the backward search leaves the queues of the
base graph alone. -/
theorem backwardPushOverlay_queues (st : Search) (v vQueryLevel vId newDist key : Nat)
    (parent : VertexIdPair) (midVertex : Nat) :
    (backwardPushOverlay st v vQueryLevel vId newDist key parent midVertex).self.forwardGraphPQ =
      st.self.forwardGraphPQ ∧
    (backwardPushOverlay st v vQueryLevel vId newDist key parent midVertex).self.backwardGraphPQ =
      st.self.backwardGraphPQ := by
  unfold backwardPushOverlay
  simp only
  split_ifs <;> exact ⟨rfl, rfl⟩

/-- The handler of the backward search for an edge of the base graph places labels of vertices of
the source cell and of the target cell only. -/
theorem backwardRelaxGraph_queues (graph : Graph) (og : OverlayGraph) (metric : Metric)
    (loc : Locals)
    (hkey : ∀ cv, og.getQueryLevel loc.sCellNumber loc.tCellNumber cv = 0 →
      cv = loc.sCellNumber ∨ cv = loc.tCellNumber)
    (u uId : Nat) (st : Search) (x : BackwardEdge × Nat × TURN_TYPE) :
    (backwardRelaxGraph graph og metric loc u uId st x).self.forwardGraphPQ =
      st.self.forwardGraphPQ ∧
    ∀ p, p ∈ (backwardRelaxGraph graph og metric loc u uId st x).self.backwardGraphPQ →
      p ∈ st.self.backwardGraphPQ ∨ graph.getCellNumber p.vertexId = loc.sCellNumber ∨
        graph.getCellNumber p.vertexId = loc.tCellNumber := by
  unfold backwardRelaxGraph
  simp only
  split_ifs
  all_goals first
    | exact ⟨rfl, fun p hp => Or.inl hp⟩
    | (refine ⟨(backwardPushGraph_queues graph metric loc _ _ _ _ _ _ _).1, fun p hp => ?_⟩
       rcases (backwardPushGraph_queues graph metric loc _ _ _ _ _ _ _).2 p hp with h | h
       · exact Or.inl h
       · exact Or.inr (by rw [h]; exact hkey _ (by assumption)))
    | (refine ⟨(backwardPushOverlay_queues _ _ _ _ _ _ _ _).1, fun p hp => Or.inl ?_⟩
       rw [(backwardPushOverlay_queues _ _ _ _ _ _ _ _).2] at hp
       exact hp)

/-- The handler of the backward search for a neighbour in the overlay graph places labels of
vertices of the source cell and of the target cell only on the queue of the base graph. -/
theorem backwardRelaxOverlay_queues (graph : Graph) (og : OverlayGraph) (metric : Metric)
    (loc : Locals)
    (hkey : ∀ cv, og.getQueryLevel loc.sCellNumber loc.tCellNumber cv = 0 →
      cv = loc.sCellNumber ∨ cv = loc.tCellNumber)
    (htwin : ∀ x, x < og.numberOfVertices →
      (og.getVertex x).neighborOverlayVertex < og.numberOfVertices)
    (hcell : ∀ x, x < og.numberOfVertices →
      graph.getCellNumber (og.getVertex x).originalVertex = (og.getVertex x).cellNumber)
    (u uId : Nat) (st : Search) (x : Nat × Nat) (hx : x.1 < og.numberOfVertices) :
    (backwardRelaxOverlay graph og metric loc u uId st x).self.forwardGraphPQ =
      st.self.forwardGraphPQ ∧
    ∀ p, p ∈ (backwardRelaxOverlay graph og metric loc u uId st x).self.backwardGraphPQ →
      p ∈ st.self.backwardGraphPQ ∨ graph.getCellNumber p.vertexId = loc.sCellNumber ∨
        graph.getCellNumber p.vertexId = loc.tCellNumber := by
  unfold backwardRelaxOverlay
  simp only
  split_ifs
  all_goals first
    | exact ⟨rfl, fun p hp => Or.inl hp⟩
    | (refine ⟨(backwardPushGraph_queues graph metric loc _ _ _ _ _ _ _).1, fun p hp => ?_⟩
       rcases (backwardPushGraph_queues graph metric loc _ _ _ _ _ _ _).2 p hp with h | h
       · exact Or.inl h
       · refine Or.inr ?_
         rw [h, hcell _ (htwin _ hx)]
         exact hkey _ (by assumption))
    | (refine ⟨(backwardPushOverlay_queues _ _ _ _ _ _ _ _).1, fun p hp => Or.inl ?_⟩
       rw [(backwardPushOverlay_queues _ _ _ _ _ _ _ _).2] at hp
       exact hp)

theorem forwardWork_ofGraph_ne_overlay (u uId : Nat)
    (l : List (ForwardEdge × Nat × TURN_TYPE)) (u' uId' : Nat) (todo : List (Nat × Nat)) :
    ForwardWork.ofGraph u uId l ≠ ForwardWork.overlay u' uId' todo := by
  cases l <;> simp [ForwardWork.ofGraph]

theorem forwardWork_ofOverlay_todo (u uId : Nat) (l : List (Nat × Nat)) (u' uId' : Nat)
    (todo : List (Nat × Nat))
    (h : ForwardWork.ofOverlay u uId l = ForwardWork.overlay u' uId' todo) : todo = l := by
  cases l with
  | nil => simp [ForwardWork.ofOverlay] at h
  | cons x rest =>
    simp only [ForwardWork.ofOverlay, ForwardWork.overlay.injEq] at h
    exact h.2.2.symm

theorem backwardWork_ofGraph_ne_overlay (u uId : Nat)
    (l : List (BackwardEdge × Nat × TURN_TYPE)) (u' uId' : Nat) (todo : List (Nat × Nat)) :
    BackwardWork.ofGraph u uId l ≠ BackwardWork.overlay u' uId' todo := by
  cases l <;> simp [BackwardWork.ofGraph]

theorem backwardWork_ofOverlay_todo (u uId : Nat) (l : List (Nat × Nat)) (u' uId' : Nat)
    (todo : List (Nat × Nat))
    (h : BackwardWork.ofOverlay u uId l = BackwardWork.overlay u' uId' todo) : todo = l := by
  cases l with
  | nil => simp [BackwardWork.ofOverlay] at h
  | cons x rest =>
    simp only [BackwardWork.ofOverlay, BackwardWork.overlay.injEq] at h
    exact h.2.2.symm

/-- A step of one of the two threads keeps the labels in the queues of the base graph in the
source cell and in the target cell. -/
theorem step_baseInCells (graph : Graph) (og : OverlayGraph) (metric : Metric) (loc : Locals)
    (hkey : ∀ cv, og.getQueryLevel loc.sCellNumber loc.tCellNumber cv = 0 →
      cv = loc.sCellNumber ∨ cv = loc.tCellNumber)
    (hout : ∀ u l p, p ∈ og.forOutNeighborsOf u l → p.1 < og.numberOfVertices)
    (hin : ∀ u l p, p ∈ og.forInNeighborsOf u l → p.1 < og.numberOfVertices)
    (htwin : ∀ x, x < og.numberOfVertices →
      (og.getVertex x).neighborOverlayVertex < og.numberOfVertices)
    (hcell : ∀ x, x < og.numberOfVertices →
      graph.getCellNumber (og.getVertex x).originalVertex = (og.getVertex x).cellNumber)
    {r r' : Run} (hI : BaseInCells graph og loc.sCellNumber loc.tCellNumber r)
    (hs : Step graph og metric loc r r') :
    BaseInCells graph og loc.sCellNumber loc.tCellNumber r' := by
  cases hs with
  | @forwardPopGraph triple q hw hpop =>
    refine ⟨fun p hp => hI.forwardQ p ((MinIDQueue.mem_pop _ _ _ hpop p).1 hp).1,
      hI.backwardQ, ?_, hI.backwardTodo⟩
    intro u uId todo h
    exact absurd h (forwardWork_ofGraph_ne_overlay _ _ _ _ _ _)
  | @forwardGraph u uId x todo hw =>
    obtain ⟨a, b⟩ := forwardRelaxGraph_queues graph og metric loc hkey u uId r.search x
    refine ⟨fun p hp => ?_, fun p hp => ?_, ?_, hI.backwardTodo⟩
    · rcases b p hp with h | h
      · exact hI.forwardQ p h
      · exact h
    · exact hI.backwardQ p (by rw [← a]; exact hp)
    · intro u' uId' todo' h
      exact absurd h (forwardWork_ofGraph_ne_overlay _ _ _ _ _ _)
  | @forwardPopOverlay triple q hw hpop =>
    refine ⟨hI.forwardQ, hI.backwardQ, ?_, hI.backwardTodo⟩
    intro u uId todo h x hx
    rw [forwardWork_ofOverlay_todo _ _ _ _ _ _ h] at hx
    exact hout _ _ x hx
  | @forwardOverlay u uId x todo hw =>
    have hx := hI.forwardTodo u uId (x :: todo) hw x (List.mem_cons_self _ _)
    obtain ⟨a, b⟩ := forwardRelaxOverlay_queues graph og metric loc hkey htwin hcell u uId
      r.search x hx
    refine ⟨fun p hp => ?_, fun p hp => ?_, ?_, hI.backwardTodo⟩
    · rcases b p hp with h | h
      · exact hI.forwardQ p h
      · exact h
    · exact hI.backwardQ p (by rw [← a]; exact hp)
    · intro u' uId' todo' h y hy
      rw [forwardWork_ofOverlay_todo _ _ _ _ _ _ h] at hy
      exact hI.forwardTodo u uId (x :: todo) hw y (List.mem_cons_of_mem _ hy)
  | @backwardPopGraph triple q hw hpop =>
    refine ⟨hI.forwardQ,
      fun p hp => hI.backwardQ p ((MinIDQueue.mem_pop _ _ _ hpop p).1 hp).1,
      hI.forwardTodo, ?_⟩
    intro u uId todo h
    exact absurd h (backwardWork_ofGraph_ne_overlay _ _ _ _ _ _)
  | @backwardGraph u uId x todo hw =>
    obtain ⟨a, b⟩ := backwardRelaxGraph_queues graph og metric loc hkey u uId r.search x
    refine ⟨fun p hp => ?_, fun p hp => ?_, hI.forwardTodo, ?_⟩
    · exact hI.forwardQ p (by rw [← a]; exact hp)
    · rcases b p hp with h | h
      · exact hI.backwardQ p h
      · exact h
    · intro u' uId' todo' h
      exact absurd h (backwardWork_ofGraph_ne_overlay _ _ _ _ _ _)
  | @backwardPopOverlay triple q hw hpop =>
    refine ⟨hI.forwardQ, hI.backwardQ, hI.forwardTodo, ?_⟩
    intro u uId todo h x hx
    rw [backwardWork_ofOverlay_todo _ _ _ _ _ _ h] at hx
    exact hin _ _ x hx
  | @backwardOverlay u uId x todo hw =>
    have hx := hI.backwardTodo u uId (x :: todo) hw x (List.mem_cons_self _ _)
    obtain ⟨a, b⟩ := backwardRelaxOverlay_queues graph og metric loc hkey htwin hcell u uId
      r.search x hx
    refine ⟨fun p hp => ?_, fun p hp => ?_, hI.forwardTodo, ?_⟩
    · exact hI.forwardQ p (by rw [← a]; exact hp)
    · rcases b p hp with h | h
      · exact hI.backwardQ p h
      · exact h
    · intro u' uId' todo' h y hy
      rw [backwardWork_ofOverlay_todo _ _ _ _ _ _ h] at hy
      exact hI.backwardTodo u uId (x :: todo) hw y (List.mem_cons_of_mem _ hy)

/-- The state in which `edgeQuery` starts its two threads has the source in the queue of the
base graph of the forward search and the target in the one of the backward search. -/
theorem start_baseInCells (graph : Graph) (og : OverlayGraph) (self : ParallelCRPQuery)
    (sourceEdgeId targetEdgeId : Nat) :
    BaseInCells graph og (locals graph sourceEdgeId targetEdgeId).sCellNumber
      (locals graph sourceEdgeId targetEdgeId).tCellNumber
      ⟨start graph self sourceEdgeId targetEdgeId, ForwardWork.head, BackwardWork.head⟩ := by
  refine ⟨fun p hp => ?_, fun p hp => ?_, ?_, ?_⟩
  · have : p = ⟨(locals graph sourceEdgeId targetEdgeId).sForwardId,
        (locals graph sourceEdgeId targetEdgeId).s, 0⟩ := by
      simpa [start, MinIDQueue.push] using hp
    rw [this]
    exact Or.inl rfl
  · have : p = ⟨(locals graph sourceEdgeId targetEdgeId).tBackwardId,
        (locals graph sourceEdgeId targetEdgeId).t, 0⟩ := by
      simpa [start, MinIDQueue.push] using hp
    rw [this]
    exact Or.inr rfl
  · intro u uId todo h
    exact absurd h (by simp)
  · intro u uId todo h
    exact absurd h (by simp)

/-- In every state of a run of the two threads, the labels in the queues of the base graph
belong to vertices of the source cell and of the target cell. -/
theorem reached_baseInCells (graph : Graph) (og : OverlayGraph) (metric : Metric)
    (self : ParallelCRPQuery) (sourceEdgeId targetEdgeId : Nat)
    (hkey : ∀ cs ct cv, og.getQueryLevel cs ct cv = 0 → cv = cs ∨ cv = ct)
    (hout : ∀ u l p, p ∈ og.forOutNeighborsOf u l → p.1 < og.numberOfVertices)
    (hin : ∀ u l p, p ∈ og.forInNeighborsOf u l → p.1 < og.numberOfVertices)
    (htwin : ∀ x, x < og.numberOfVertices →
      (og.getVertex x).neighborOverlayVertex < og.numberOfVertices)
    (hcell : ∀ x, x < og.numberOfVertices →
      graph.getCellNumber (og.getVertex x).originalVertex = (og.getVertex x).cellNumber)
    {r : Run}
    (hr : Reached graph og metric (locals graph sourceEdgeId targetEdgeId)
      ⟨start graph self sourceEdgeId targetEdgeId, ForwardWork.head, BackwardWork.head⟩ r) :
    BaseInCells graph og (locals graph sourceEdgeId targetEdgeId).sCellNumber
      (locals graph sourceEdgeId targetEdgeId).tCellNumber r := by
  induction hr with
  | start => exact start_baseInCells graph og self sourceEdgeId targetEdgeId
  | next _ hs ih =>
    exact step_baseInCells graph og metric _ (hkey _ _) hout hin htwin hcell ih hs

end ParallelCRPQuery

end CRP

namespace CRP

/-! ## The values that the stalling step of the forward search writes -/

namespace ParallelCRPQuery

/-- The labels after the first `n` rounds of the stalling loop, when the popped label is a
label of the current round. -/
theorem stallFold_getD (metric : Metric) (cur u uId uOffset first : Nat) (info : List VertexInfo)
    (hcur : cur ≤ (info.getD uId default).round) (i : Nat) (n : Nat) :
    ((List.range n).foldl
        (fun (info : List VertexInfo) j =>
          stallEntry metric cur u uId uOffset info j (first + j)) info).getD i default =
      if first ≤ i ∧ i < first + n ∧ (info.getD i default).round < cur then
        { info.getD i default with
          dist := min (info.getD i default).dist
            (max 0 (toInt32 (toInt32 (info.getD uId default).dist +
              metric.getMaxEntryTurnTableDiff u (u32 (uOffset + (i - first)))))).toNat }
      else info.getD i default := by
  induction n with
  | zero =>
    rw [if_neg (by omega)]
    rfl
  | succ n ih =>
    rw [List.range_succ, List.foldl_append]
    have hk := stallFold_keeps cur
      (fun (info : List VertexInfo) j => stallEntry metric cur u uId uOffset info j (first + j))
      (fun info j => stallEntry_keeps metric cur u uId uOffset info j (first + j))
      (List.range n) info
    generalize hI : (List.range n).foldl
      (fun (info : List VertexInfo) j => stallEntry metric cur u uId uOffset info j (first + j))
      info = info' at ih hk
    have hu : info'.getD uId default = info.getD uId default := (hk.2 uId).2.2.2 hcur
    have hlen : info'.length = info.length := hk.1
    show (stallEntry metric cur u uId uOffset info' n (first + n)).getD i default = _
    unfold stallEntry
    by_cases hin : i = first + n
    · subst hin
      have hself : info'.getD (first + n) default = info.getD (first + n) default := by
        rw [ih, if_neg (by omega)]
      rw [hself, hu]
      by_cases hr : (info.getD (first + n) default).round < cur
      · rw [if_pos hr, if_pos ⟨by omega, by omega, hr⟩, getD_set_self_or]
        by_cases hl : first + n < info'.length
        · rw [if_pos ⟨rfl, hl⟩]
          simp
        · rw [if_neg (by tauto), hself]
          have hd : info.getD (first + n) default = default :=
            List.getD_eq_default _ _ (by omega)
          rw [hd]
          show (default : VertexInfo) = { dist := min 0 _, round := 0, parent := default }
          rw [Nat.zero_min]
          rfl
      · rw [if_neg hr, if_neg (by tauto), hself]
    · have : (if (info'.getD (first + n) default).round < cur then
          info'.set (first + n)
            { info'.getD (first + n) default with
              dist := min (info'.getD (first + n) default).dist
                (max 0 (toInt32 (toInt32 (info'.getD uId default).dist +
                  metric.getMaxEntryTurnTableDiff u (u32 (uOffset + n))))).toNat }
          else info').getD i default = info'.getD i default := by
        split_ifs
        · rw [getD_set_ne _ _ _ _ _ (fun h => hin h.symm)]
        · rfl
      rw [this, ih]
      by_cases hc : first ≤ i ∧ i < first + n ∧ (info.getD i default).round < cur
      · rw [if_pos hc, if_pos ⟨hc.1, by omega, hc.2.2⟩]
      · rw [if_neg hc, if_neg (by intro h; exact hc ⟨h.1, by omega, h.2.2⟩)]

/-- What the stalling step of the forward search writes: when the popped label is a label of
the current round, the step changes the `dist` of the entry ids from `stallFirst` to
`stallLast` without a label of the current round, to the minimum of the `dist` and the value
`stallValue` of the entry point, and nothing else. -/
theorem stall_getD (graph : Graph) (metric : Metric) (cur fS fT : Nat)
    (info : List VertexInfo) (triple : IDKeyTriple)
    (hcur : cur ≤ (info.getD triple.id default).round) (i : Nat) :
    (stall graph metric cur fS fT info triple).getD i default =
      if stallFirst graph fS fT triple ≤ i ∧ i < stallLast graph fS fT triple ∧
          (info.getD i default).round < cur then
        { info.getD i default with
          dist := min (info.getD i default).dist
            (stallValue graph metric fS fT info triple (i - stallFirst graph fS fT triple)) }
      else info.getD i default := by
  have h := stallFold_getD metric cur triple.vertexId triple.id
    (u32 (graph.getInDegree triple.vertexId * forwardEntryPoint graph fS fT triple))
    (stallFirst graph fS fT triple) info hcur i
    (stallLast graph fS fT triple - stallFirst graph fS fT triple)
  have hs : stall graph metric cur fS fT info triple =
      (List.range (stallLast graph fS fT triple - stallFirst graph fS fT triple)).foldl
        (fun (info : List VertexInfo) j =>
          stallEntry metric cur triple.vertexId triple.id
            (u32 (graph.getInDegree triple.vertexId * forwardEntryPoint graph fS fT triple))
            info j (stallFirst graph fS fT triple + j)) info := by
    unfold stall forwardEntryPoint stallFirst stallLast
    simp only
  rw [hs, h]
  by_cases hc : stallFirst graph fS fT triple ≤ i ∧ i < stallLast graph fS fT triple ∧
      (info.getD i default).round < cur
  · rw [if_pos hc, if_pos ⟨hc.1, by omega, hc.2.2⟩]
    rfl
  · rw [if_neg hc, if_neg (by intro h; exact hc ⟨h.1, by omega, h.2.2⟩)]

end ParallelCRPQuery

end CRP

namespace CRP

/-! ## Dijkstra -/

/-- C2: on a consistent base graph and with a cost function whose values are at most
`inf_weight`, `Dijkstra::edgeQuery(sourceEdgeId, targetEdgeId, m)` returns (on an object
whose round counter the call does not wrap), and when some walk
from the entry point of `sourceEdgeId` at `s = head(forward(sourceEdgeId))` to
`t = tail(backward(targetEdgeId))` has a cost below `inf_weight`, the returned `pathWeight` is
the cost of such a walk and is at most the cost of every such walk; the cost of a walk is the
sum of the weights of its edges and of the turn costs at the vertices that it passes, the turn
costs at `s` and at `t` counting as 0. -/
theorem Dijkstra_edgeQuery_pathWeight_min (graph : Graph) (metric : Metric) (fuel : Nat)
    (self : Dijkstra) (sourceEdgeId targetEdgeId : Nat) (hg : graph.Consistent)
    (hb : metric.costFunction.Bounded) (hv : Dijkstra.Valid graph self)
    (hround : self.currentRound < 4294967295)
    (hs : sourceEdgeId < graph.numberOfEdges)
    (hfuel : 2 * graph.numberOfEdges * inf_weight + 2 ≤ fuel) (ks0 : List Nat) (y0 d0 : Nat)
    (hw0 : graph.walk metric.costFunction (graph.getForwardEdge sourceEdgeId).head
      (graph.getBackwardEdge targetEdgeId).tail (graph.getForwardEdge sourceEdgeId).head
      (graph.getEntryOffset (graph.getForwardEdge sourceEdgeId).head +
        (graph.getForwardEdge sourceEdgeId).entryPoint) 0 ks0 =
      some ((graph.getBackwardEdge targetEdgeId).tail, y0, d0))
    (hd0 : d0 < inf_weight) :
    ∃ r self', Dijkstra.edgeQuery graph metric fuel self sourceEdgeId targetEdgeId =
        some (r, self') ∧
      (∃ ks y, graph.walk metric.costFunction (graph.getForwardEdge sourceEdgeId).head
        (graph.getBackwardEdge targetEdgeId).tail (graph.getForwardEdge sourceEdgeId).head
        (graph.getEntryOffset (graph.getForwardEdge sourceEdgeId).head +
          (graph.getForwardEdge sourceEdgeId).entryPoint) 0 ks =
        some ((graph.getBackwardEdge targetEdgeId).tail, y, r.pathWeight)) ∧
      ∀ ks y d, graph.walk metric.costFunction (graph.getForwardEdge sourceEdgeId).head
        (graph.getBackwardEdge targetEdgeId).tail (graph.getForwardEdge sourceEdgeId).head
        (graph.getEntryOffset (graph.getForwardEdge sourceEdgeId).head +
          (graph.getForwardEdge sourceEdgeId).entryPoint) 0 ks =
        some ((graph.getBackwardEdge targetEdgeId).tail, y, d) → r.pathWeight ≤ d := by
  have hsE := graph.source_isEntry hg sourceEdgeId hs
  obtain ⟨r, self', he, _, h⟩ := Dijkstra.edgeQuery_spec graph metric fuel self sourceEdgeId
    targetEdgeId hg hb hv hround hs hfuel
  refine ⟨r, self', he, ?_⟩
  have hwr := fun ks y d => graph.walk_reach hg metric.costFunction
    (graph.getForwardEdge sourceEdgeId).head (graph.getBackwardEdge targetEdgeId).tail _ ks
    _ _ 0 (graph.getBackwardEdge targetEdgeId).tail y d hsE Reach.start
  rcases h with ⟨_, _, h3⟩ | ⟨_, _, ⟨y, hy, hr⟩, h4⟩
  · obtain ⟨g1, g2⟩ := hwr ks0 y0 d0 hw0
    have := h3 y0 d0 g2 g1
    omega
  · refine ⟨?_, ?_⟩
    · obtain ⟨ks, v, hv', hw⟩ := graph.reach_walk hg metric.costFunction _ _ _ _ _ _ hsE hr
      have : v = (graph.getBackwardEdge targetEdgeId).tail := graph.isEntry_unique hg hv' hy
      subst this
      exact ⟨ks, y, hw⟩
    · intro ks y d hw
      obtain ⟨g1, g2⟩ := hwr ks y d hw
      exact h4 y d g2 g1

set_option maxRecDepth 100000 in
/-- On the graph of OverlayGraphTest.cpp with the hop metric, the query from the edge 0
(into the vertex 6) to the edge 4 (out of the vertex 2) returns. -/
theorem Dijkstra_edgeQuery_pathWeight_min_witness :
    ((Dijkstra.create testSortedGraph).currentRound < 4294967295 ∧
      0 < testSortedGraph.numberOfEdges ∧
      2 * testSortedGraph.numberOfEdges * inf_weight + 2 ≤ 40000000000 ∧
      testSortedGraph.walk HopFunction (testSortedGraph.getForwardEdge 0).head
          (testSortedGraph.getBackwardEdge 4).tail (testSortedGraph.getForwardEdge 0).head
          (testSortedGraph.getEntryOffset (testSortedGraph.getForwardEdge 0).head +
            (testSortedGraph.getForwardEdge 0).entryPoint) 0 [0, 0, 1] =
        some ((testSortedGraph.getBackwardEdge 4).tail, 2, 3) ∧ 3 < inf_weight) ∧
    ∃ r self', Dijkstra.edgeQuery testSortedGraph ⟨HopFunction, [], [], []⟩ 40000000000
        (Dijkstra.create testSortedGraph) 0 4 = some (r, self') ∧
      (∃ ks y, testSortedGraph.walk HopFunction (testSortedGraph.getForwardEdge 0).head
        (testSortedGraph.getBackwardEdge 4).tail (testSortedGraph.getForwardEdge 0).head
        (testSortedGraph.getEntryOffset (testSortedGraph.getForwardEdge 0).head +
          (testSortedGraph.getForwardEdge 0).entryPoint) 0 ks =
        some ((testSortedGraph.getBackwardEdge 4).tail, y, r.pathWeight)) ∧
      ∀ ks y d, testSortedGraph.walk HopFunction (testSortedGraph.getForwardEdge 0).head
        (testSortedGraph.getBackwardEdge 4).tail (testSortedGraph.getForwardEdge 0).head
        (testSortedGraph.getEntryOffset (testSortedGraph.getForwardEdge 0).head +
          (testSortedGraph.getForwardEdge 0).entryPoint) 0 ks =
        some ((testSortedGraph.getBackwardEdge 4).tail, y, d) → r.pathWeight ≤ d :=
  ⟨⟨by decide, by decide, by decide, by decide, by decide⟩,
    Dijkstra_edgeQuery_pathWeight_min testSortedGraph ⟨HopFunction, [], [], []⟩ 40000000000
      (Dijkstra.create testSortedGraph) 0 4 testSortedGraph_consistent hopFunction_bounded
      (Dijkstra.create_valid testSortedGraph) (by decide) (by decide) (by decide) [0, 0, 1] 2 3
      (by decide) (by decide)⟩

end CRP

namespace CRP

/-! ## A query does not depend on the queries before it -/

/-- C32: on a consistent base graph, the result of `Dijkstra::edgeQuery(sEdge, tEdge, m)` on
an object that earlier queries have used (an object as the constructor or a query leaves it,
whose counter `currentRound` the call does not wrap) is the result of the same call on a
freshly constructed object, and the call leaves such an object again. The same holds for
`CRPQueryUni::edgeQuery` on the overlay graph built by `OverlayGraph(graph, mlp)` (whose
assertion `originalToOverlayVertexMap.size() == overlayVertexCount` holds, the bit offsets of
`mlp` being non-decreasing, one more than its levels): the result and the state in which the
call leaves the path unpacker are those of the call on a fresh `CRPQueryUni` object with the
same path unpacker. The results are compared for every bound on the iterations of the loops:
a query that does not end within the bound on one of the objects does not end within it on
the other. -/
theorem edgeQuery_history_independent (graph : Graph) (mlp : MultiLevelPartition)
    (metric : Metric) (fuel : Nat) (dijkstra : Dijkstra) (query : CRPQueryUni)
    (pathUnpacker : PathUnpacker) (sourceEdgeId targetEdgeId : Nat) (hg : graph.Consistent)
    (hmono : mlp.getPVOffsets.Pairwise (fun a b => a ≤ b))
    (hlevels : mlp.getPVOffsets.length = mlp.getNumberOfLevels + 1)
    (hsize : (OverlayGraph.build graph mlp).2.2.overlayVertices.length =
      (OverlayGraph.build graph mlp).1.numberOfVertices)
    (hd : Dijkstra.Valid graph dijkstra) (hdr : dijkstra.currentRound < 4294967295)
    (hq : CRPQueryUni.Valid (OverlayGraph.build graph mlp).2.2 (OverlayGraph.build graph mlp).1
      query) (hqr : query.currentRound < 4294967295)
    (hs : sourceEdgeId < graph.numberOfEdges) :
    ((Dijkstra.edgeQuery graph metric fuel dijkstra sourceEdgeId targetEdgeId).map Prod.fst =
      (Dijkstra.edgeQuery graph metric fuel (Dijkstra.create graph) sourceEdgeId
        targetEdgeId).map Prod.fst) ∧
    (∀ r dijkstra', Dijkstra.edgeQuery graph metric fuel dijkstra sourceEdgeId targetEdgeId =
      some (r, dijkstra') → Dijkstra.Valid graph dijkstra') ∧
    ((CRPQueryUni.edgeQuery (OverlayGraph.build graph mlp).2.2 (OverlayGraph.build graph mlp).1
        metric fuel query pathUnpacker sourceEdgeId targetEdgeId).map (fun r => (r.1, r.2.2)) =
      (CRPQueryUni.edgeQuery (OverlayGraph.build graph mlp).2.2
        (OverlayGraph.build graph mlp).1 metric fuel
        (CRPQueryUni.create (OverlayGraph.build graph mlp).2.2 (OverlayGraph.build graph mlp).1)
        pathUnpacker sourceEdgeId targetEdgeId).map (fun r => (r.1, r.2.2))) ∧
    (∀ r query' pathUnpacker',
      CRPQueryUni.edgeQuery (OverlayGraph.build graph mlp).2.2 (OverlayGraph.build graph mlp).1
        metric fuel query pathUnpacker sourceEdgeId targetEdgeId =
        some (r, query', pathUnpacker') →
      CRPQueryUni.Valid (OverlayGraph.build graph mlp).2.2 (OverlayGraph.build graph mlp).1
        query') := by
  have hG := build_consistent graph mlp hg
  have hR := build_routable graph mlp hg hmono hlevels hsize
  refine ⟨?_, ?_, ?_, ?_⟩
  · exact Dijkstra.edgeQuery_fresh graph hg metric fuel dijkstra hd hdr sourceEdgeId
      targetEdgeId hs
  · intro r dijkstra' he
    exact Dijkstra.edgeQuery_valid graph hg metric fuel dijkstra hd hdr sourceEdgeId
      targetEdgeId hs r dijkstra' he
  · exact CRPQueryUni.crp_edgeQuery_fresh (OverlayGraph.build graph mlp).2.2 hG
      (OverlayGraph.build graph mlp).1 (OverlayGraph.build graph mlp).2.1 hR metric fuel query
      hq hqr pathUnpacker sourceEdgeId targetEdgeId hs
  · intro r query' pathUnpacker' he
    exact CRPQueryUni.crp_edgeQuery_valid (OverlayGraph.build graph mlp).2.2 hG
      (OverlayGraph.build graph mlp).1 (OverlayGraph.build graph mlp).2.1 hR metric fuel query
      hq hqr pathUnpacker sourceEdgeId targetEdgeId hs r query' pathUnpacker' he

set_option maxRecDepth 1000000 in
/-- On the graph of OverlayGraphTest.cpp with its partition and the weights of the hop
function: the objects that a first query has used (`currentRound = 1`, labels of the round 1
in the vectors) answer the query from the edge 0 to the edge 3 as fresh objects do, with a
path of the weight 5. -/
theorem edgeQuery_history_independent_witness :
    (testPartition.getPVOffsets.Pairwise (fun a b => a ≤ b) ∧
      testPartition.getPVOffsets.length = testPartition.getNumberOfLevels + 1 ∧
      (OverlayGraph.build testSortedGraph testPartition).2.2.overlayVertices.length =
        (OverlayGraph.build testSortedGraph testPartition).1.numberOfVertices ∧
      testUsedDijkstra.currentRound = 1 ∧ testUsedDijkstra.currentRound < 4294967295 ∧
      testUsedQuery.currentRound = 1 ∧ testUsedQuery.currentRound < 4294967295 ∧
      0 < testSortedGraph.numberOfEdges ∧
      ((Dijkstra.edgeQuery testSortedGraph
        ⟨HopFunction, [1, 0, 0, 1, 2, 1, 1, 0, inf_weight, inf_weight, 1, 0, 0, 0, 0, 1, 1, 1,
          1, 1, 0, 0], [], []⟩ 1000 (Dijkstra.create testSortedGraph) 0 3).map
        fun r => r.1.pathWeight) = some 5) ∧
    ((Dijkstra.edgeQuery testSortedGraph
        ⟨HopFunction, [1, 0, 0, 1, 2, 1, 1, 0, inf_weight, inf_weight, 1, 0, 0, 0, 0, 1, 1, 1,
          1, 1, 0, 0], [], []⟩ 1000 testUsedDijkstra 0 3).map Prod.fst =
      (Dijkstra.edgeQuery testSortedGraph
        ⟨HopFunction, [1, 0, 0, 1, 2, 1, 1, 0, inf_weight, inf_weight, 1, 0, 0, 0, 0, 1, 1, 1,
          1, 1, 0, 0], [], []⟩ 1000 (Dijkstra.create testSortedGraph) 0 3).map Prod.fst) ∧
    ((CRPQueryUni.edgeQuery (OverlayGraph.build testSortedGraph testPartition).2.2
        (OverlayGraph.build testSortedGraph testPartition).1
        ⟨HopFunction, [1, 0, 0, 1, 2, 1, 1, 0, inf_weight, inf_weight, 1, 0, 0, 0, 0, 1, 1, 1,
          1, 1, 0, 0], [], []⟩ 1000 testUsedQuery
        (PathUnpacker.create (OverlayGraph.build testSortedGraph testPartition).2.2
          (OverlayGraph.build testSortedGraph testPartition).1) 0 3).map
        (fun r => (r.1, r.2.2)) =
      (CRPQueryUni.edgeQuery (OverlayGraph.build testSortedGraph testPartition).2.2
        (OverlayGraph.build testSortedGraph testPartition).1
        ⟨HopFunction, [1, 0, 0, 1, 2, 1, 1, 0, inf_weight, inf_weight, 1, 0, 0, 0, 0, 1, 1, 1,
          1, 1, 0, 0], [], []⟩ 1000
        (CRPQueryUni.create (OverlayGraph.build testSortedGraph testPartition).2.2
          (OverlayGraph.build testSortedGraph testPartition).1)
        (PathUnpacker.create (OverlayGraph.build testSortedGraph testPartition).2.2
          (OverlayGraph.build testSortedGraph testPartition).1) 0 3).map
        (fun r => (r.1, r.2.2))) :=
  ⟨⟨testPartition_mono, testPartition_levels, testOverlay_size, by decide!, by decide!,
      by decide!, by decide!, by decide, by decide!⟩,
    (edgeQuery_history_independent testSortedGraph testPartition
      ⟨HopFunction, [1, 0, 0, 1, 2, 1, 1, 0, inf_weight, inf_weight, 1, 0, 0, 0, 0, 1, 1, 1,
        1, 1, 0, 0], [], []⟩ 1000 testUsedDijkstra testUsedQuery
      (PathUnpacker.create (OverlayGraph.build testSortedGraph testPartition).2.2
        (OverlayGraph.build testSortedGraph testPartition).1) 0 3 testSortedGraph_consistent
      testPartition_mono testPartition_levels testOverlay_size testUsedDijkstra_valid
      (by decide!) testUsedQuery_valid (by decide!) (by decide)).1,
    (edgeQuery_history_independent testSortedGraph testPartition
      ⟨HopFunction, [1, 0, 0, 1, 2, 1, 1, 0, inf_weight, inf_weight, 1, 0, 0, 0, 0, 1, 1, 1,
        1, 1, 0, 0], [], []⟩ 1000 testUsedDijkstra testUsedQuery
      (PathUnpacker.create (OverlayGraph.build testSortedGraph testPartition).2.2
        (OverlayGraph.build testSortedGraph testPartition).1) 0 3 testSortedGraph_consistent
      testPartition_mono testPartition_levels testOverlay_size testUsedDijkstra_valid
      (by decide!) testUsedQuery_valid (by decide!) (by decide)).2.2.1⟩

end CRP

namespace CRP

/-! ## The text files of the overlay graph and of the metric -/

/-- C26: for every overlay graph `g` that has at least one level, one entry of
`vertexCountInLevel` and one cell table per level, `vertexCountInLevel[0]` overlay vertices,
each with an `entryExitPoint` that is not empty, cell tables with pairwise different keys, and
numbers that fit their types, `readOverlayGraph` succeeds on the text that
`writeOverlayGraph(g)` writes and yields the overlay graph `g`: the same level offsets,
`vertexCountInLevel`, overlay vertices (`cellNumber`, `neighborOverlayVertex`,
`originalVertex`, `originalEdge`, `entryExitPoint`), `weightVectorSize`, `overlayIdMapping`
and cell tables of every level. -/
theorem readOverlayGraph_writeOverlayGraph (g : OverlayGraph) (hg : GraphIO.Writable g) :
    GraphIO.readOverlayGraph ( GraphIO.writeOverlayGraph g) = some g ∧
    ∃ g', GraphIO.readOverlayGraph ( GraphIO.writeOverlayGraph g) = some g' ∧
      g'.levelInfo.offset = g.levelInfo.offset ∧
      g'.vertexCountInLevel = g.vertexCountInLevel ∧
      g'.overlayVertices = g.overlayVertices ∧
      g'.weightVectorSize = g.weightVectorSize ∧
      g'.overlayIdMapping = g.overlayIdMapping ∧
      g'.cellMapping = g.cellMapping :=
  ⟨ GraphIO.readOverlayGraph_write g hg, g, GraphIO.readOverlayGraph_write g hg, rfl, rfl, rfl, rfl, rfl, rfl⟩

set_option maxRecDepth 100000 in
/-- The overlay graph of OverlayGraphTest.cpp can be written, and it is read back. -/
theorem readOverlayGraph_writeOverlayGraph_witness :
    GraphIO.Writable testOverlay.1 ∧
    GraphIO.readOverlayGraph ( GraphIO.writeOverlayGraph testOverlay.1) = some testOverlay.1 :=
  ⟨⟨by decide, by decide, by decide, by decide, by decide, by decide, by decide, by decide,
      by decide, by decide⟩,
    (readOverlayGraph_writeOverlayGraph testOverlay.1
      ⟨by decide, by decide, by decide, by decide, by decide, by decide, by decide, by decide,
        by decide, by decide⟩).1⟩

/-- C27: `Metric::read` does not read back every text that `Metric::write` writes. When the
entries of the vectors fit their types, `Metric::read` succeeds on the text of
`Metric::write(m)` and yields the vectors `weights`, `turnTablePtr` and `turnTableDiffs` of
`m` if none of the three vectors is empty; if one of them is empty, its line is empty,
`splitString` returns one empty token for it, and the assertion that the number of tokens is
the size of the vector fails. -/
theorem Metric_read_write (metric : Metric) (costFunction : CostFunction)
    (hlw : metric.weights.length < 2 ^ 64) (hlp : metric.turnTablePtr.length < 2 ^ 64)
    (hld : metric.turnTableDiffs.length < 2 ^ 64)
    (hw : ∀ x, x ∈ metric.weights → x < 2 ^ 32)
    (hp : ∀ x, x ∈ metric.turnTablePtr → x < 2 ^ 32)
    (hd : ∀ x, x ∈ metric.turnTableDiffs → -2147483648 ≤ x ∧ x < 2147483648) :
    (metric.weights ≠ [] → metric.turnTablePtr ≠ [] → metric.turnTableDiffs ≠ [] →
      Metric.read metric.write costFunction =
        some ⟨costFunction, metric.weights, metric.turnTablePtr, metric.turnTableDiffs⟩) ∧
    (metric.weights = [] ∨ metric.turnTablePtr = [] ∨ metric.turnTableDiffs = [] →
      Metric.read metric.write costFunction = none) := by
  have h := Metric.read_of_write metric costFunction hlw hlp hld hw hp hd
  constructor
  · intro h1 h2 h3
    rw [h, if_neg (by simp [h1, h2, h3])]
  · intro h1
    rw [h, if_pos h1]

set_option maxRecDepth 100000 in
/-- The metric of `turnGraph` has no overlay weights: `Metric::write` writes the text
`0 2 9`, an empty line, `65536 5` and `0 0 0 0 0 0 1431655765 -1431655765 0`, and
`Metric::read` fails on it. -/
theorem Metric_read_write_witness :
    (turnMetric.weights = [] ∧ turnMetric.turnTablePtr = [65536, 5] ∧
      turnMetric.turnTableDiffs = [0, 0, 0, 0, 0, 0, 1431655765, -1431655765, 0] ∧
      turnMetric.write = "0 2 9\n\n65536 5\n0 0 0 0 0 0 1431655765 -1431655765 0".data) ∧
    Metric.read turnMetric.write HopFunction = none :=
  ⟨⟨by decide, by decide, by decide, by decide⟩,
    (Metric_read_write turnMetric HopFunction (by decide) (by decide) (by decide) (by decide)
      (by decide) (by decide)).2 (Or.inl (by decide))⟩

end CRP

namespace CRP

/-! ## Level offsets, packed cell numbers and packed edge attributes -/

/-- C15: for all cell numbers `c1`, `c2`, the level `h = getHighestDifferingLevel(c1, c2)` is
at most `L`; if `h >= 1` then `(c1 XOR c2) >> o[h-1] != 0`; every level `l` in `[1, L]` with
`(c1 XOR c2) >> o[l-1] != 0` is at most `h`, so `h` is the largest such level; and `h = 0` if
there is no such level. For offsets with `o[0] = 0` and at least one level (the chain
`o[0] <= o[1] <= ... <= o[L]` of the offsets), `h = 0` exactly when `c1 = c2`. -/
theorem getHighestDifferingLevel_largest (li : LevelInfo) (c1 c2 : Nat) :
    li.getHighestDifferingLevel c1 c2 ≤ li.getLevelCount ∧
    (1 ≤ li.getHighestDifferingLevel c1 c2 →
      (c1 ^^^ c2) >>> li.offset.getD (li.getHighestDifferingLevel c1 c2 - 1) 0 ≠ 0) ∧
    (∀ l, 1 ≤ l → l ≤ li.getLevelCount → (c1 ^^^ c2) >>> li.offset.getD (l - 1) 0 ≠ 0 →
      l ≤ li.getHighestDifferingLevel c1 c2) ∧
    ((∀ l, 1 ≤ l → l ≤ li.getLevelCount → (c1 ^^^ c2) >>> li.offset.getD (l - 1) 0 = 0) →
      li.getHighestDifferingLevel c1 c2 = 0) ∧
    (li.offset.getD 0 0 = 0 → 1 ≤ li.getLevelCount →
      (li.getHighestDifferingLevel c1 c2 = 0 ↔ c1 = c2)) := by
  obtain ⟨h1, h2, h3⟩ := hdl_spec li c1 c2
  refine ⟨h1, h2, h3, ?_, fun h0 hL => hdl_eq_zero_iff li c1 c2 h0 hL⟩
  intro hnone
  by_contra hne
  exact h2 (by omega) (hnone _ (by omega) h1)

/-- The offsets 0, 2, 3 of the partition of OverlayGraphTest.cpp: the cell numbers 5 and 1
differ on level 2, the cell numbers 2 and 1 on level 1 only. -/
theorem getHighestDifferingLevel_largest_witness :
    ((⟨[0, 2, 3]⟩ : LevelInfo).offset.getD 0 0 = 0 ∧ 1 ≤ (⟨[0, 2, 3]⟩ : LevelInfo).getLevelCount) ∧
    (⟨[0, 2, 3]⟩ : LevelInfo).getHighestDifferingLevel 5 1 = 2 ∧
    (⟨[0, 2, 3]⟩ : LevelInfo).getHighestDifferingLevel 2 1 = 1 ∧
    ((⟨[0, 2, 3]⟩ : LevelInfo).getHighestDifferingLevel 5 5 = 0 ↔ 5 = 5) ∧
    (⟨[0, 2, 3]⟩ : LevelInfo).getHighestDifferingLevel 5 1 ≤
      (⟨[0, 2, 3]⟩ : LevelInfo).getLevelCount :=
  ⟨⟨by decide, by decide⟩, by decide, by decide,
    (getHighestDifferingLevel_largest ⟨[0, 2, 3]⟩ 5 5).2.2.2.2 (by decide) (by decide),
    (getHighestDifferingLevel_largest ⟨[0, 2, 3]⟩ 5 1).1⟩

/-- C16: for non-decreasing level offsets and all cell numbers `cs`, `ct`, `cv`, the level
`q = getQueryLevel(cs, ct, cv)` is `min(HDL(cs, cv), HDL(cv, ct))` and is at most `L`; if
`q >= 1` then `truncateToLevel(cv, q)` differs from `truncateToLevel(cs, q)` and from
`truncateToLevel(ct, q)`; every level `l` in `[1, L]` on which `truncateToLevel(cv, l)`
differs from both is at most `q`, so `q` is the largest such level; and `q = 0` if there is
no such level. -/
theorem getQueryLevel_largest (li : LevelInfo) (cs ct cv : Nat)
    (hmono : li.offset.Pairwise (fun a b => a ≤ b)) :
    li.getQueryLevel cs ct cv =
      min (li.getHighestDifferingLevel cs cv) (li.getHighestDifferingLevel cv ct) ∧
    li.getQueryLevel cs ct cv ≤ li.getLevelCount ∧
    (1 ≤ li.getQueryLevel cs ct cv →
      li.truncateToLevel cv (li.getQueryLevel cs ct cv) ≠
        li.truncateToLevel cs (li.getQueryLevel cs ct cv) ∧
      li.truncateToLevel cv (li.getQueryLevel cs ct cv) ≠
        li.truncateToLevel ct (li.getQueryLevel cs ct cv)) ∧
    (∀ l, 1 ≤ l → l ≤ li.getLevelCount →
      li.truncateToLevel cv l ≠ li.truncateToLevel cs l →
      li.truncateToLevel cv l ≠ li.truncateToLevel ct l → l ≤ li.getQueryLevel cs ct cv) ∧
    ((∀ l, 1 ≤ l → l ≤ li.getLevelCount →
      ¬ (li.truncateToLevel cv l ≠ li.truncateToLevel cs l ∧
        li.truncateToLevel cv l ≠ li.truncateToLevel ct l)) →
      li.getQueryLevel cs ct cv = 0) := by
  have hq : li.getQueryLevel cs ct cv =
      min (li.getHighestDifferingLevel cs cv) (li.getHighestDifferingLevel cv ct) := rfl
  have hle1 := (hdl_spec li cs cv).1
  have hle2 := (hdl_spec li cv ct).1
  have hqL : li.getQueryLevel cs ct cv ≤ li.getLevelCount := by
    rw [hq]; exact le_trans (min_le_left _ _) hle1
  have hboth : 1 ≤ li.getQueryLevel cs ct cv →
      li.truncateToLevel cv (li.getQueryLevel cs ct cv) ≠
        li.truncateToLevel cs (li.getQueryLevel cs ct cv) ∧
      li.truncateToLevel cv (li.getQueryLevel cs ct cv) ≠
        li.truncateToLevel ct (li.getQueryLevel cs ct cv) := by
    intro h1
    constructor
    · exact Ne.symm ((truncate_ne_iff li hmono cs cv _ h1 hqL).2
        (by rw [hq]; exact min_le_left _ _))
    · exact (truncate_ne_iff li hmono cv ct _ h1 hqL).2 (by rw [hq]; exact min_le_right _ _)
  refine ⟨hq, hqL, hboth, ?_, ?_⟩
  · intro l hl1 hl2 hs ht
    rw [hq]
    exact le_min ((truncate_ne_iff li hmono cs cv l hl1 hl2).1 (Ne.symm hs))
      ((truncate_ne_iff li hmono cv ct l hl1 hl2).1 ht)
  · intro hnone
    by_contra hne
    exact hnone _ (by omega) hqL (hboth (by omega))

/-- The offsets 0, 2, 3 of the partition of OverlayGraphTest.cpp: seen from the source cell 0
and the target cell 1, a vertex of the cell 6 is on query level 2, and seen from the source
cell 5 and the target cell 1 it is on query level 1. -/
theorem getQueryLevel_largest_witness :
    (⟨[0, 2, 3]⟩ : LevelInfo).offset.Pairwise (fun a b => a ≤ b) ∧
    (⟨[0, 2, 3]⟩ : LevelInfo).getQueryLevel 0 1 6 = 2 ∧
    (⟨[0, 2, 3]⟩ : LevelInfo).getQueryLevel 5 1 6 = 1 ∧
    (⟨[0, 2, 3]⟩ : LevelInfo).getQueryLevel 5 1 6 ≤ (⟨[0, 2, 3]⟩ : LevelInfo).getLevelCount :=
  ⟨by decide, by decide, by decide,
    (getQueryLevel_largest ⟨[0, 2, 3]⟩ 5 1 6 (by decide)).2.1⟩

/-- C17: `getCell` does not return the cell id that `setCell` stored on a level between the
lowest and the highest one. With three levels of two cells each, `computeBitmap` gives the
offsets 0, 1, 2, 3; after `setCell(0, 0, 0)`, `setCell(1, 0, 1)` and `setCell(2, 0, 1)` the
cell number of the vertex 0 is 6, and `getCell(1, 0)` is 3 although the cell id on level 1 is
1, which is what `(cellNumber >> o[1]) & ((1 << (o[2] - o[1])) - 1)` gives: the mask of
`getCell` has `o[level+1]` bits. On the levels 0 and 2 `getCell` returns the ids 0 and 1. -/
theorem getCell_setCell_middle_level :
    ((MultiLevelPartition.prepare [2, 2, 2] 1).setCells 0 [0, 1, 1]).pvOffset = [0, 1, 2, 3] ∧
    ((MultiLevelPartition.prepare [2, 2, 2] 1).setCells 0 [0, 1, 1]).getCellNumber 0 = 6 ∧
    ((MultiLevelPartition.prepare [2, 2, 2] 1).setCells 0 [0, 1, 1]).getCell 1 0 = 3 ∧
    ((MultiLevelPartition.prepare [2, 2, 2] 1).setCells 0 [0, 1, 1]).getCell 1 0 ≠
      ([0, 1, 1] : List Nat).getD 1 0 ∧
    (((MultiLevelPartition.prepare [2, 2, 2] 1).setCells 0 [0, 1, 1]).getCellNumber 0 >>>
        ((MultiLevelPartition.prepare [2, 2, 2] 1).setCells 0 [0, 1, 1]).pvOffset.getD 1 0) &&&
      (2 ^ (((MultiLevelPartition.prepare [2, 2, 2] 1).setCells 0 [0, 1, 1]).pvOffset.getD 2 0 -
        ((MultiLevelPartition.prepare [2, 2, 2] 1).setCells 0 [0, 1, 1]).pvOffset.getD 1 0) - 1)
      = 1 ∧
    ((MultiLevelPartition.prepare [2, 2, 2] 1).setCells 0 [0, 1, 1]).getCell 0 0 = 0 ∧
    ((MultiLevelPartition.prepare [2, 2, 2] 1).setCells 0 [0, 1, 1]).getCell 2 0 = 1 := by
  decide

/-- C18: for the attribute word `w = type + 16*speed + 4096*length` with `type < 16`,
`speed < 256` and `length < 2^20`, the word fits 32 bits, `getStreetType()` is `type`,
`getSpeed()` is `speed` and `getLength()` is `length`. -/
theorem EdgeAttributes_getters (type speed length : Nat) (ht : type < 16) (hs : speed < 256)
    (hl : length < 2 ^ 20) :
    type + 16 * speed + 4096 * length < 2 ^ 32 ∧
    (⟨type + 16 * speed + 4096 * length⟩ : EdgeAttributes).getStreetType = type ∧
    (⟨type + 16 * speed + 4096 * length⟩ : EdgeAttributes).getSpeed = speed ∧
    (⟨type + 16 * speed + 4096 * length⟩ : EdgeAttributes).getLength = length := by
  unfold EdgeAttributes.getStreetType EdgeAttributes.getSpeed EdgeAttributes.getLength
  simp only
  have e15 : (15 : Nat) = 2 ^ 4 - 1 := by norm_num
  have e255 : (255 : Nat) = 2 ^ 8 - 1 := by norm_num
  rw [e15, e255, and_mask, and_mask, Nat.shiftRight_eq_div_pow, Nat.shiftRight_eq_div_pow]
  norm_num at hl ⊢
  refine ⟨by omega, by omega, by omega, by omega⟩

/-- A motorway-like word: street type 3, speed 120, length 1000 metres. -/
theorem EdgeAttributes_getters_witness :
    (3 < 16 ∧ 120 < 256 ∧ 1000 < 2 ^ 20) ∧
    (⟨3 + 16 * 120 + 4096 * 1000⟩ : EdgeAttributes).getStreetType = 3 ∧
    (⟨3 + 16 * 120 + 4096 * 1000⟩ : EdgeAttributes).getSpeed = 120 ∧
    (⟨3 + 16 * 120 + 4096 * 1000⟩ : EdgeAttributes).getLength = 1000 :=
  ⟨⟨by decide, by decide, by decide⟩,
    (EdgeAttributes_getters 3 120 1000 (by decide) (by decide) (by decide)).2⟩

end CRP

namespace CRP

/-! ## The local ids of ParallelCRPQuery -/

/-- C34: on the graph that `sortVerticesByCellNumber` produces from a graph whose offsets
split the edge arrays, whose vertices point to cells and whose cell numbers are pairwise
different (as `buildCellNumbers` collects them), for all vertices `s`, `t`, `v` and every
entry point `p < inDegree(v)`: if `cellNumber(v) = cellNumber(s)`, the forward local id
`entryOffset(v) + p - backwardEdgeCellOffset(s)` lies in `[0, maxEdgesInCell)`, and if
`cellNumber(v) = cellNumber(t)`, the id
`entryOffset(v) + p - (backwardEdgeCellOffset(t) - maxEdgesInCell)` lies in
`[maxEdgesInCell, 2 * maxEdgesInCell)` (also when `cellNumber(t) = cellNumber(s)`); the same
bounds hold for the exit points `k < outDegree(v)` with `exitOffset` and the offsets
`forwardEdgeCellOffset`. The differences are taken in the integers. -/
theorem local_ids_in_range (g : Graph) (hoff : g.Offsets) (hn : g.cellNumbers.Nodup)
    (s t v : Nat) (hs : s < g.sortVerticesByCellNumber.numberOfVertices)
    (ht : t < g.sortVerticesByCellNumber.numberOfVertices)
    (hv : v < g.sortVerticesByCellNumber.numberOfVertices) :
    (∀ p, p < g.sortVerticesByCellNumber.getInDegree v →
      (g.sortVerticesByCellNumber.getCellNumber v = g.sortVerticesByCellNumber.getCellNumber s →
        0 ≤ ((g.sortVerticesByCellNumber.getEntryOffset v + p : Nat) : Int) -
          (g.sortVerticesByCellNumber.getBackwardEdgeCellOffset s : Int) ∧
        ((g.sortVerticesByCellNumber.getEntryOffset v + p : Nat) : Int) -
          (g.sortVerticesByCellNumber.getBackwardEdgeCellOffset s : Int) <
          g.sortVerticesByCellNumber.getMaxEdgesInCell) ∧
      (g.sortVerticesByCellNumber.getCellNumber v = g.sortVerticesByCellNumber.getCellNumber t →
        (g.sortVerticesByCellNumber.getMaxEdgesInCell : Int) ≤
          ((g.sortVerticesByCellNumber.getEntryOffset v + p : Nat) : Int) -
            ((g.sortVerticesByCellNumber.getBackwardEdgeCellOffset t : Int) -
              g.sortVerticesByCellNumber.getMaxEdgesInCell) ∧
        ((g.sortVerticesByCellNumber.getEntryOffset v + p : Nat) : Int) -
            ((g.sortVerticesByCellNumber.getBackwardEdgeCellOffset t : Int) -
              g.sortVerticesByCellNumber.getMaxEdgesInCell) <
          2 * (g.sortVerticesByCellNumber.getMaxEdgesInCell : Int))) ∧
    (∀ k, k < g.sortVerticesByCellNumber.getOutDegree v →
      (g.sortVerticesByCellNumber.getCellNumber v = g.sortVerticesByCellNumber.getCellNumber s →
        0 ≤ ((g.sortVerticesByCellNumber.getExitOffset v + k : Nat) : Int) -
          (g.sortVerticesByCellNumber.getForwardEdgeCellOffset s : Int) ∧
        ((g.sortVerticesByCellNumber.getExitOffset v + k : Nat) : Int) -
          (g.sortVerticesByCellNumber.getForwardEdgeCellOffset s : Int) <
          g.sortVerticesByCellNumber.getMaxEdgesInCell) ∧
      (g.sortVerticesByCellNumber.getCellNumber v = g.sortVerticesByCellNumber.getCellNumber t →
        (g.sortVerticesByCellNumber.getMaxEdgesInCell : Int) ≤
          ((g.sortVerticesByCellNumber.getExitOffset v + k : Nat) : Int) -
            ((g.sortVerticesByCellNumber.getForwardEdgeCellOffset t : Int) -
              g.sortVerticesByCellNumber.getMaxEdgesInCell) ∧
        ((g.sortVerticesByCellNumber.getExitOffset v + k : Nat) : Int) -
            ((g.sortVerticesByCellNumber.getForwardEdgeCellOffset t : Int) -
              g.sortVerticesByCellNumber.getMaxEdgesInCell) <
          2 * (g.sortVerticesByCellNumber.getMaxEdgesInCell : Int))) := by
  obtain ⟨a1, a2⟩ := sorted_local_ids g hoff v hv
  have eB : ∀ x, x < g.sortVerticesByCellNumber.numberOfVertices →
      g.sortVerticesByCellNumber.getCellNumber v = g.sortVerticesByCellNumber.getCellNumber x →
      g.sortVerticesByCellNumber.getBackwardEdgeCellOffset x =
        g.sortVerticesByCellNumber.getBackwardEdgeCellOffset v ∧
      g.sortVerticesByCellNumber.getForwardEdgeCellOffset x =
        g.sortVerticesByCellNumber.getForwardEdgeCellOffset v := by
    intro x hx h
    have := sorted_pvPtr_of_cellNumber g hoff hn v x hv hx h
    unfold Graph.getBackwardEdgeCellOffset Graph.getForwardEdgeCellOffset
    rw [this]
    exact ⟨rfl, rfl⟩
  constructor
  · intro p hp
    obtain ⟨b1, b2⟩ := a1 p hp
    constructor
    · intro h
      rw [(eB s hs h).1]
      omega
    · intro h
      rw [(eB t ht h).1]
      omega
  · intro k hk
    obtain ⟨b1, b2⟩ := a2 k hk
    constructor
    · intro h
      rw [(eB s hs h).2]
      omega
    · intro h
      rw [(eB t ht h).2]
      omega

set_option maxRecDepth 100000 in
/-- On the sorted graph of OverlayGraphTest.cpp (`maxEdgesInCell = 5`): the vertex 3 is in the
cell of the vertex 2, whose backward edges start at the offset 2, and its entry point 0 has
the id 4, so the local id is 2 in the source cell and 7 in the target cell. -/
theorem local_ids_in_range_witness :
    ((buildCellNumbers testGraph testPartition).Offsets ∧
      (buildCellNumbers testGraph testPartition).cellNumbers.Nodup ∧
      2 < testSortedGraph.numberOfVertices ∧ 3 < testSortedGraph.numberOfVertices ∧
      0 < testSortedGraph.getInDegree 3 ∧
      testSortedGraph.getCellNumber 3 = testSortedGraph.getCellNumber 2) ∧
    (0 ≤ ((testSortedGraph.getEntryOffset 3 + 0 : Nat) : Int) -
        (testSortedGraph.getBackwardEdgeCellOffset 2 : Int) ∧
      ((testSortedGraph.getEntryOffset 3 + 0 : Nat) : Int) -
        (testSortedGraph.getBackwardEdgeCellOffset 2 : Int) <
        testSortedGraph.getMaxEdgesInCell) ∧
    ((testSortedGraph.getMaxEdgesInCell : Int) ≤
        ((testSortedGraph.getEntryOffset 3 + 0 : Nat) : Int) -
          ((testSortedGraph.getBackwardEdgeCellOffset 2 : Int) -
            testSortedGraph.getMaxEdgesInCell) ∧
      ((testSortedGraph.getEntryOffset 3 + 0 : Nat) : Int) -
          ((testSortedGraph.getBackwardEdgeCellOffset 2 : Int) -
            testSortedGraph.getMaxEdgesInCell) <
        2 * (testSortedGraph.getMaxEdgesInCell : Int)) :=
  ⟨⟨testCellGraph_offsets, buildCellNumbers_nodup _ _, by decide, by decide, by decide,
      by decide⟩,
    ((local_ids_in_range (buildCellNumbers testGraph testPartition) testCellGraph_offsets
      (buildCellNumbers_nodup _ _) 2 2 3 (by decide) (by decide) (by decide)).1 0
      (by decide)).1 (by decide),
    ((local_ids_in_range (buildCellNumbers testGraph testPartition) testCellGraph_offsets
      (buildCellNumbers_nodup _ _) 2 2 3 (by decide) (by decide) (by decide)).1 0
      (by decide)).2 (by decide)⟩

end CRP

namespace CRP
/-! ## maxEdgesInCell -/
/-- C21: when the offsets of the graph are consistent and every vertex points to a cell, then
after `sortVerticesByCellNumber` the value of `getMaxEdgesInCell()` is the maximum, over the
level-0 cells `c` (the indices of `cellNumbers`), of the larger of the number of forward edges
that leave the vertices of `c` and the number of backward edges that enter the vertices of
`c` (0 when there is no cell): it bounds both numbers of every cell, and it is 0 or one of
these numbers. -/
theorem getMaxEdgesInCell_max (g : Graph) (hoff : g.Offsets) :
    g.sortVerticesByCellNumber.getMaxEdgesInCell =
      ((List.range g.sortVerticesByCellNumber.cellNumbers.length).map fun c =>
        max
          ((((List.range g.sortVerticesByCellNumber.numberOfVertices).filter
            (fun v => decide ((g.sortVerticesByCellNumber.vertex v).pvPtr = c))).map
            g.sortVerticesByCellNumber.getOutDegree).sum)
          ((((List.range g.sortVerticesByCellNumber.numberOfVertices).filter
            (fun v => decide ((g.sortVerticesByCellNumber.vertex v).pvPtr = c))).map
            g.sortVerticesByCellNumber.getInDegree).sum)).foldr max 0 ∧
    (∀ c, c < g.sortVerticesByCellNumber.cellNumbers.length →
      (((List.range g.sortVerticesByCellNumber.numberOfVertices).filter
        (fun v => decide ((g.sortVerticesByCellNumber.vertex v).pvPtr = c))).map
        g.sortVerticesByCellNumber.getOutDegree).sum ≤
          g.sortVerticesByCellNumber.getMaxEdgesInCell ∧
      (((List.range g.sortVerticesByCellNumber.numberOfVertices).filter
        (fun v => decide ((g.sortVerticesByCellNumber.vertex v).pvPtr = c))).map
        g.sortVerticesByCellNumber.getInDegree).sum ≤
          g.sortVerticesByCellNumber.getMaxEdgesInCell) ∧
    (g.sortVerticesByCellNumber.getMaxEdgesInCell = 0 ∨
      ∃ c, c < g.sortVerticesByCellNumber.cellNumbers.length ∧
        (g.sortVerticesByCellNumber.getMaxEdgesInCell =
          (((List.range g.sortVerticesByCellNumber.numberOfVertices).filter
            (fun v => decide ((g.sortVerticesByCellNumber.vertex v).pvPtr = c))).map
            g.sortVerticesByCellNumber.getOutDegree).sum ∨
        g.sortVerticesByCellNumber.getMaxEdgesInCell =
          (((List.range g.sortVerticesByCellNumber.numberOfVertices).filter
            (fun v => decide ((g.sortVerticesByCellNumber.vertex v).pvPtr = c))).map
            g.sortVerticesByCellNumber.getInDegree).sum)) := by
  obtain ⟨_, _, nF, nB, bd, att⟩ := sortScratch_count g hoff.cell
  have eM : g.sortVerticesByCellNumber.getMaxEdgesInCell = g.sortScratch.maxEdgesInCell := rfl
  have eC : g.sortVerticesByCellNumber.cellNumbers = g.cellNumbers := rfl
  rw [eM, eC]
  have hb : ∀ c, c < g.cellNumbers.length →
      (((List.range g.sortVerticesByCellNumber.numberOfVertices).filter
        (fun v => decide ((g.sortVerticesByCellNumber.vertex v).pvPtr = c))).map
        g.sortVerticesByCellNumber.getOutDegree).sum ≤ g.sortScratch.maxEdgesInCell ∧
      (((List.range g.sortVerticesByCellNumber.numberOfVertices).filter
        (fun v => decide ((g.sortVerticesByCellNumber.vertex v).pvPtr = c))).map
        g.sortVerticesByCellNumber.getInDegree).sum ≤ g.sortScratch.maxEdgesInCell := by
    intro c hc
    obtain ⟨s1, s2⟩ := sorted_cell_count g hoff c hc
    rw [s1, s2, ← nF c hc, ← nB c hc]
    exact bd c hc
  have ha : g.sortScratch.maxEdgesInCell = 0 ∨
      ∃ c, c < g.cellNumbers.length ∧
        (g.sortScratch.maxEdgesInCell =
          (((List.range g.sortVerticesByCellNumber.numberOfVertices).filter
            (fun v => decide ((g.sortVerticesByCellNumber.vertex v).pvPtr = c))).map
            g.sortVerticesByCellNumber.getOutDegree).sum ∨
        g.sortScratch.maxEdgesInCell =
          (((List.range g.sortVerticesByCellNumber.numberOfVertices).filter
            (fun v => decide ((g.sortVerticesByCellNumber.vertex v).pvPtr = c))).map
            g.sortVerticesByCellNumber.getInDegree).sum) := by
    rcases att with h | ⟨c, hc, h⟩
    · exact Or.inl h
    · right
      refine ⟨c, hc, ?_⟩
      obtain ⟨s1, s2⟩ := sorted_cell_count g hoff c hc
      have := bd c hc
      rw [s1, s2, ← nF c hc, ← nB c hc]
      rcases h with h | h
      · left; omega
      · right; omega
  refine ⟨?_, hb, ha⟩
  symm
  apply foldr_max_eq
  · intro x hx
    obtain ⟨c, hc, rfl⟩ := List.mem_map.1 hx
    have := hb c (List.mem_range.1 hc)
    omega
  · rcases ha with h | ⟨c, hc, h⟩
    · exact Or.inl h
    · right
      apply List.mem_map.2
      refine ⟨c, List.mem_range.2 hc, ?_⟩
      have := hb c hc
      rcases h with h | h <;> omega
set_option maxRecDepth 100000 in
/-- On the graph of OverlayGraphTest.cpp after `buildCellNumbers`, the sorted graph has 4
cells, `getMaxEdgesInCell()` is 5, which is the number of forward edges of the cells 0 and
1, and no cell has more backward edges. -/
theorem getMaxEdgesInCell_max_witness :
    (testSortedGraph.getMaxEdgesInCell = 5 ∧ testSortedGraph.cellNumbers.length = 4 ∧
      (((List.range testSortedGraph.numberOfVertices).filter
        (fun v => decide ((testSortedGraph.vertex v).pvPtr = 1))).map
        testSortedGraph.getOutDegree).sum = 5) ∧
    testSortedGraph.getMaxEdgesInCell =
      ((List.range testSortedGraph.cellNumbers.length).map fun c =>
        max
          ((((List.range testSortedGraph.numberOfVertices).filter
            (fun v => decide ((testSortedGraph.vertex v).pvPtr = c))).map
            testSortedGraph.getOutDegree).sum)
          ((((List.range testSortedGraph.numberOfVertices).filter
            (fun v => decide ((testSortedGraph.vertex v).pvPtr = c))).map
            testSortedGraph.getInDegree).sum)).foldr max 0 :=
  ⟨⟨by decide, by decide, by decide⟩,
    (getMaxEdgesInCell_max (buildCellNumbers testGraph testPartition)
      testCellGraph_offsets).1⟩
end CRP

namespace CRP

/-! ## The sums of the relaxations fit 32 bits -/

/-- C38: `inf_weight = 0x55555555` satisfies `3 * inf_weight < 2^32`, and for a metric
whose cost function has edge weights and turn costs of at most `inf_weight` and whose cell
weights are at most `inf_weight` (as the customization computes them), no relaxation in
`Dijkstra::edgeQuery` or `CRPQueryUni::edgeQuery` overflows 32 bits. The objects have
entries of `dist` of at most `inf_weight`, as the constructors make them and as the queries
leave them. In the state before the relaxation of the `n`-th edge out of the popped label,
in every iteration of the loop of every run, the sum `dist[uId] + turnCosts + edgeWeight`
is below `2^32` as a number, so the reductions modulo `2^32` do not change it; in the branch
of the overlay graph the sum `dist[uId] + cellWeight` is below `2^32`, and so is the sum of
that new label (when it is below `inf_weight`) and the weight of the edge to the next
cell. -/
theorem relaxation_sums_fit (graph : Graph) (overlayGraph : OverlayGraph) (metric : Metric)
    (sourceEdgeId targetEdgeId : Nat) (hb : metric.costFunction.Bounded)
    (hw : ∀ i, metric.getCellWeight i ≤ inf_weight) :
    inf_weight = 0x55555555 ∧ 3 * inf_weight < 2 ^ 32 ∧
    (DistBound (Dijkstra.create graph).dist ∧
      DistBound (CRPQueryUni.create graph overlayGraph).dist) ∧
    (∀ (fuel : Nat) (self self' : Dijkstra) (r : QueryResult), DistBound self.dist →
      Dijkstra.edgeQuery graph metric fuel self sourceEdgeId targetEdgeId = some (r, self') →
      DistBound self'.dist) ∧
    (∀ (fuel : Nat) (self self' : CRPQueryUni) (pathUnpacker pathUnpacker' : PathUnpacker)
      (r : QueryResult), DistBound self.dist →
      CRPQueryUni.edgeQuery graph overlayGraph metric fuel self pathUnpacker sourceEdgeId
        targetEdgeId = some (r, self', pathUnpacker') → DistBound self'.dist) ∧
    (∀ (self : Dijkstra) (st : Dijkstra.Search), DistBound self.dist →
      Dijkstra.Reached graph metric (graph.getForwardEdge sourceEdgeId).head
        (graph.getBackwardEdge targetEdgeId).tail (Dijkstra.start graph self sourceEdgeId) st →
      ∀ (triple : IDKeyTriple) (q : List IDKeyTriple) (n : Nat)
        (x : ForwardEdge × Nat × TURN_TYPE),
        (((graph.forOutEdgesOf triple.vertexId
            (graph.getEntryOrder triple.vertexId triple.id)).take n).foldl
          (Dijkstra.relax graph metric (graph.getForwardEdge sourceEdgeId).head
            (graph.getBackwardEdge targetEdgeId).tail triple.vertexId triple.id)
          (Dijkstra.popped st triple q
            (graph.getBackwardEdge targetEdgeId).tail)).self.dist.getD triple.id 0 +
          (if triple.vertexId = (graph.getForwardEdge sourceEdgeId).head ∨
              triple.vertexId = (graph.getBackwardEdge targetEdgeId).tail then 0
            else metric.getTurnCosts x.2.2) + metric.getWeight x.1.attributes < 2 ^ 32) ∧
    (∀ (self : CRPQueryUni) (st : CRPQueryUni.Search), DistBound self.dist →
      CRPQueryUni.Reached graph overlayGraph metric (graph.getForwardEdge sourceEdgeId).head
        (graph.getBackwardEdge targetEdgeId).tail
        (graph.getCellNumber (graph.getForwardEdge sourceEdgeId).head)
        (graph.getCellNumber (graph.getBackwardEdge targetEdgeId).tail)
        (CRPQueryUni.start graph self sourceEdgeId) st →
      (∀ (triple : IDKeyTriple) (q : List IDKeyTriple) (n : Nat)
        (x : ForwardEdge × Nat × TURN_TYPE),
        (((graph.forOutEdgesOf triple.vertexId
            (graph.getEntryOrder triple.vertexId triple.id)).take n).foldl
          (CRPQueryUni.relaxGraph graph overlayGraph metric
            (graph.getForwardEdge sourceEdgeId).head (graph.getBackwardEdge targetEdgeId).tail
            (graph.getCellNumber (graph.getForwardEdge sourceEdgeId).head)
            (graph.getCellNumber (graph.getBackwardEdge targetEdgeId).tail)
            triple.vertexId triple.id)
          (CRPQueryUni.popped st triple q
            (graph.getBackwardEdge targetEdgeId).tail)).self.dist.getD triple.id 0 +
          (if triple.vertexId = (graph.getForwardEdge sourceEdgeId).head ∨
              triple.vertexId = (graph.getBackwardEdge targetEdgeId).tail then 0
            else metric.getTurnCosts x.2.2) + metric.getWeight x.1.attributes < 2 ^ 32) ∧
      ∀ (pair : IDKeyPair) (q : List IDKeyPair) (n : Nat) (x : Nat × Nat)
        (attributes : EdgeAttributes),
        (((overlayGraph.forOutNeighborsOf pair.id
            (overlayGraph.getQueryLevel
              (graph.getCellNumber (graph.getForwardEdge sourceEdgeId).head)
              (graph.getCellNumber (graph.getBackwardEdge targetEdgeId).tail)
              (overlayGraph.getVertex pair.id).cellNumber)).take n).foldl
          (CRPQueryUni.relaxOverlay graph overlayGraph metric
            (graph.getCellNumber (graph.getForwardEdge sourceEdgeId).head)
            (graph.getCellNumber (graph.getBackwardEdge targetEdgeId).tail) pair.id
            (pair.id + graph.numberOfEdges))
          ({ st with self := { st.self with overlayGraphPQ := q } } :
            CRPQueryUni.Search)).self.dist.getD (pair.id + graph.numberOfEdges) 0 +
          metric.getCellWeight x.2 < 2 ^ 32 ∧
        ((((overlayGraph.forOutNeighborsOf pair.id
            (overlayGraph.getQueryLevel
              (graph.getCellNumber (graph.getForwardEdge sourceEdgeId).head)
              (graph.getCellNumber (graph.getBackwardEdge targetEdgeId).tail)
              (overlayGraph.getVertex pair.id).cellNumber)).take n).foldl
          (CRPQueryUni.relaxOverlay graph overlayGraph metric
            (graph.getCellNumber (graph.getForwardEdge sourceEdgeId).head)
            (graph.getCellNumber (graph.getBackwardEdge targetEdgeId).tail) pair.id
            (pair.id + graph.numberOfEdges))
          ({ st with self := { st.self with overlayGraphPQ := q } } :
            CRPQueryUni.Search)).self.dist.getD (pair.id + graph.numberOfEdges) 0 +
          metric.getCellWeight x.2 < inf_weight →
        (((overlayGraph.forOutNeighborsOf pair.id
            (overlayGraph.getQueryLevel
              (graph.getCellNumber (graph.getForwardEdge sourceEdgeId).head)
              (graph.getCellNumber (graph.getBackwardEdge targetEdgeId).tail)
              (overlayGraph.getVertex pair.id).cellNumber)).take n).foldl
          (CRPQueryUni.relaxOverlay graph overlayGraph metric
            (graph.getCellNumber (graph.getForwardEdge sourceEdgeId).head)
            (graph.getCellNumber (graph.getBackwardEdge targetEdgeId).tail) pair.id
            (pair.id + graph.numberOfEdges))
          ({ st with self := { st.self with overlayGraphPQ := q } } :
            CRPQueryUni.Search)).self.dist.getD (pair.id + graph.numberOfEdges) 0 +
          metric.getCellWeight x.2 + metric.getWeight attributes < 2 ^ 32)) := by
  have hinf : inf_weight = 1431655765 := rfl
  have e32 : (2 : Nat) ^ 32 = 4294967296 := by norm_num
  refine ⟨rfl, by rw [hinf, e32]; omega, ⟨distBound_replicate _, distBound_replicate _⟩, ?_, ?_,
    ?_, ?_⟩
  · intro fuel self self' r h he
    exact Dijkstra.edgeQuery_distBound graph metric fuel self sourceEdgeId targetEdgeId h r
      self' he
  · intro fuel self self' pathUnpacker pathUnpacker' r h he
    exact CRPQueryUni.crp_edgeQuery_distBound graph overlayGraph metric fuel self pathUnpacker
      sourceEdgeId targetEdgeId h r self' pathUnpacker' he
  · intro self st h hreach triple q n x
    have h1 := Dijkstra.reached_distBound graph metric _ _
      (Dijkstra.start_distBound graph self sourceEdgeId h) hreach
    have h2 := Dijkstra.relaxAll_distBound graph metric (graph.getForwardEdge sourceEdgeId).head
      (graph.getBackwardEdge targetEdgeId).tail triple.vertexId triple.id
      ((graph.forOutEdgesOf triple.vertexId
        (graph.getEntryOrder triple.vertexId triple.id)).take n)
      (Dijkstra.popped st triple q (graph.getBackwardEdge targetEdgeId).tail)
      (by rw [Dijkstra.popped_dist]; exact h1) triple.id
    have h3 : metric.getTurnCosts x.2.2 ≤ inf_weight := hb.turn _
    have h4 : metric.getWeight x.1.attributes ≤ inf_weight := hb.weight _
    rw [hinf] at h2 h3 h4
    rw [e32]
    split_ifs <;> omega
  · intro self st h hreach
    have h1 := CRPQueryUni.crp_reached_distBound graph overlayGraph metric _ _ _ _
      (CRPQueryUni.crp_start_distBound graph self sourceEdgeId h) hreach
    refine ⟨?_, ?_⟩
    · intro triple q n x
      have h2 := CRPQueryUni.relaxGraphAll_distBound graph overlayGraph metric
        (graph.getForwardEdge sourceEdgeId).head (graph.getBackwardEdge targetEdgeId).tail
        (graph.getCellNumber (graph.getForwardEdge sourceEdgeId).head)
        (graph.getCellNumber (graph.getBackwardEdge targetEdgeId).tail)
        triple.vertexId triple.id
        ((graph.forOutEdgesOf triple.vertexId
          (graph.getEntryOrder triple.vertexId triple.id)).take n)
        (CRPQueryUni.popped st triple q (graph.getBackwardEdge targetEdgeId).tail)
        (by rw [CRPQueryUni.crp_popped_dist]; exact h1) triple.id
      have h3 : metric.getTurnCosts x.2.2 ≤ inf_weight := hb.turn _
      have h4 : metric.getWeight x.1.attributes ≤ inf_weight := hb.weight _
      rw [hinf] at h2 h3 h4
      rw [e32]
      split_ifs <;> omega
    · intro pair q n x attributes
      have h2 := CRPQueryUni.relaxOverlayAll_distBound graph overlayGraph metric
        (graph.getCellNumber (graph.getForwardEdge sourceEdgeId).head)
        (graph.getCellNumber (graph.getBackwardEdge targetEdgeId).tail) pair.id
        (pair.id + graph.numberOfEdges)
        ((overlayGraph.forOutNeighborsOf pair.id
          (overlayGraph.getQueryLevel
            (graph.getCellNumber (graph.getForwardEdge sourceEdgeId).head)
            (graph.getCellNumber (graph.getBackwardEdge targetEdgeId).tail)
            (overlayGraph.getVertex pair.id).cellNumber)).take n)
        ({ st with self := { st.self with overlayGraphPQ := q } } : CRPQueryUni.Search)
        h1 (pair.id + graph.numberOfEdges)
      have h3 := hw x.2
      have h4 : metric.getWeight attributes ≤ inf_weight := hb.weight _
      rw [hinf] at h2 h3 h4 ⊢
      rw [e32]
      constructor
      · omega
      · intro _; omega

/-- The hop function, with no cell weights: the constant and the constructors. -/
theorem relaxation_sums_fit_witness :
    (HopFunction.Bounded ∧
      ∀ i, (⟨HopFunction, [], [], []⟩ : Metric).getCellWeight i ≤ inf_weight) ∧
    3 * inf_weight < 2 ^ 32 ∧ DistBound (Dijkstra.create turnGraph).dist :=
  ⟨⟨hopFunction_bounded, fun i => by simp [Metric.getCellWeight, inf_weight]⟩,
    (relaxation_sums_fit turnGraph ⟨[], [], [], [], ⟨[0]⟩, 0⟩ ⟨HopFunction, [], [], []⟩ 0 0
      hopFunction_bounded (fun i => by simp [Metric.getCellWeight, inf_weight])).2.1,
    (relaxation_sums_fit turnGraph ⟨[], [], [], [], ⟨[0]⟩, 0⟩ ⟨HopFunction, [], [], []⟩ 0 0
      hopFunction_bounded (fun i => by simp [Metric.getCellWeight, inf_weight])).2.2.1.1⟩

end CRP

namespace CRP

/-! ## The overlay graph: entry and exit points, neighbours, counts, weight blocks -/

/-- C7: in the overlay graph built by `OverlayGraph(graph, mlp)`, for a cell `C` with key `k`
listed on level `l`, the ids `getEntryPoint(C, i)` for `i < C.numEntryPoints` are pairwise
distinct; an id `x` is one of them exactly when `x` is an overlay vertex that is an entry
vertex (its exit flag is false), is boundary on a level `>= l` (its `entryExitPoint` has at
least `l` entries) and has `truncateToLevel(x.cellNumber, l) = k`; and the vertex returned
for index `i` has `entryExitPoint[l-1] = i`. The same holds for `getExitPoint` and the exit
vertices (exit flag true). -/
theorem getEntryPoint_getExitPoint_exact (graph : Graph) (mlp : MultiLevelPartition)
    (l k : Nat) (C : Cell) (hl : 0 < l) (hL : l ≤ mlp.getNumberOfLevels)
    (hC : (k, C) ∈ (OverlayGraph.build graph mlp).1.forCells l) :
    ((∀ i j, i < C.numEntryPoints → j < C.numEntryPoints →
        (OverlayGraph.build graph mlp).1.getEntryPoint C i =
          (OverlayGraph.build graph mlp).1.getEntryPoint C j → i = j) ∧
      (∀ x, (∃ i, i < C.numEntryPoints ∧
          (OverlayGraph.build graph mlp).1.getEntryPoint C i = x) ↔
        (x < (OverlayGraph.build graph mlp).1.numberOfVertices ∧
          (OverlayGraph.build graph mlp).2.1.getD x false = false ∧
          l ≤ ((OverlayGraph.build graph mlp).1.getVertex x).entryExitPoint.length ∧
          (OverlayGraph.build graph mlp).1.levelInfo.truncateToLevel
            ((OverlayGraph.build graph mlp).1.getVertex x).cellNumber l = k)) ∧
      (∀ i, i < C.numEntryPoints →
        ((OverlayGraph.build graph mlp).1.getVertex
          ((OverlayGraph.build graph mlp).1.getEntryPoint C i)).entryExitPoint.getD (l - 1) 0
          = i)) ∧
    ((∀ i j, i < C.numExitPoints → j < C.numExitPoints →
        (OverlayGraph.build graph mlp).1.getExitPoint C i =
          (OverlayGraph.build graph mlp).1.getExitPoint C j → i = j) ∧
      (∀ x, (∃ i, i < C.numExitPoints ∧
          (OverlayGraph.build graph mlp).1.getExitPoint C i = x) ↔
        (x < (OverlayGraph.build graph mlp).1.numberOfVertices ∧
          (OverlayGraph.build graph mlp).2.1.getD x false = true ∧
          l ≤ ((OverlayGraph.build graph mlp).1.getVertex x).entryExitPoint.length ∧
          (OverlayGraph.build graph mlp).1.levelInfo.truncateToLevel
            ((OverlayGraph.build graph mlp).1.getVertex x).cellNumber l = k)) ∧
      (∀ i, i < C.numExitPoints →
        ((OverlayGraph.build graph mlp).1.getVertex
          ((OverlayGraph.build graph mlp).1.getExitPoint C i)).entryExitPoint.getD (l - 1) 0
          = i)) := by
  have wf := buildOverlayVertices_wf graph ⟨mlp.getPVOffsets⟩ mlp.getNumberOfLevels
  obtain ⟨hE1, hE2⟩ := entry_points ⟨mlp.getPVOffsets⟩ mlp.getNumberOfLevels _ wf l hl hL k C hC
  obtain ⟨hX1, hX2⟩ := exit_points ⟨mlp.getPVOffsets⟩ mlp.getNumberOfLevels _ wf l hl hL k C hC
  refine ⟨⟨?_, ?_, ?_⟩, ⟨?_, ?_, ?_⟩⟩
  · intro i j hi hj he
    have h1 := (hE1 i hi).2.2.2.2
    have h2 := (hE1 j hj).2.2.2.2
    have he' : (OverlayGraph.buildCells ⟨mlp.getPVOffsets⟩ mlp.getNumberOfLevels
        (OverlayGraph.buildOverlayVertices graph ⟨mlp.getPVOffsets⟩
          mlp.getNumberOfLevels)).getEntryPoint C i = (OverlayGraph.buildCells
        ⟨mlp.getPVOffsets⟩ mlp.getNumberOfLevels (OverlayGraph.buildOverlayVertices graph
          ⟨mlp.getPVOffsets⟩ mlp.getNumberOfLevels)).getEntryPoint C j := he
    rw [he'] at h1
    omega
  · intro x
    constructor
    · rintro ⟨i, hi, rfl⟩
      obtain ⟨a, b, c, d, _⟩ := hE1 i hi
      exact ⟨a, b, c, d⟩
    · rintro ⟨a, b, c, d⟩
      exact hE2 x a b c d
  · intro i hi
    exact (hE1 i hi).2.2.2.2
  · intro i j hi hj he
    have h1 := (hX1 i hi).2.2.2.2
    have h2 := (hX1 j hj).2.2.2.2
    have he' : (OverlayGraph.buildCells ⟨mlp.getPVOffsets⟩ mlp.getNumberOfLevels
        (OverlayGraph.buildOverlayVertices graph ⟨mlp.getPVOffsets⟩
          mlp.getNumberOfLevels)).getExitPoint C i = (OverlayGraph.buildCells
        ⟨mlp.getPVOffsets⟩ mlp.getNumberOfLevels (OverlayGraph.buildOverlayVertices graph
          ⟨mlp.getPVOffsets⟩ mlp.getNumberOfLevels)).getExitPoint C j := he
    rw [he'] at h1
    omega
  · intro x
    constructor
    · rintro ⟨i, hi, rfl⟩
      obtain ⟨a, b, c, d, _⟩ := hX1 i hi
      exact ⟨a, b, c, d⟩
    · rintro ⟨a, b, c, d⟩
      exact hX2 x a b c d
  · intro i hi
    exact (hX1 i hi).2.2.2.2

set_option maxRecDepth 100000 in
/-- The level-1 cell with key 6 of the overlay graph of OverlayGraphTest.cpp: its three
entry points are distinct and carry their ordinals. -/
theorem getEntryPoint_getExitPoint_exact_witness :
    (0 < 1 ∧ 1 ≤ testPartition.getNumberOfLevels ∧
      ((6, ⟨3, 2, 16, 20⟩) : Nat × Cell) ∈ testOverlay.1.forCells 1) ∧
    ((testOverlay.1.getEntryPoint ⟨3, 2, 16, 20⟩ 0 = testOverlay.1.getEntryPoint ⟨3, 2, 16, 20⟩ 2
        → 0 = 2) ∧
      (testOverlay.1.getVertex (testOverlay.1.getEntryPoint ⟨3, 2, 16, 20⟩ 2)).entryExitPoint.getD
        (1 - 1) 0 = 2) :=
  ⟨⟨by decide, by decide, by decide⟩,
    (getEntryPoint_getExitPoint_exact testSortedGraph testPartition 1 6 ⟨3, 2, 16, 20⟩
      (by decide) (by decide) (by decide)).1.1 0 2 (by decide) (by decide),
    (getEntryPoint_getExitPoint_exact testSortedGraph testPartition 1 6 ⟨3, 2, 16, 20⟩
      (by decide) (by decide) (by decide)).1.2.2 2 (by decide)⟩

end CRP

namespace CRP

/-- C8: in the overlay graph built by `OverlayGraph(graph, mlp)`, for a cell `C` listed on
level `l`, an entry ordinal `i < C.numEntryPoints` and an exit ordinal
`j < C.numExitPoints`: `forOutNeighborsOf(getEntryPoint(C, i), l)` produces
`C.numExitPoints` pairs and the `j`-th is
`(getExitPoint(C, j), C.cellOffset + i * C.numExitPoints + j)`, and
`forInNeighborsOf(getExitPoint(C, j), l)` produces `C.numEntryPoints` pairs and the `i`-th
is `(getEntryPoint(C, i), C.cellOffset + i * C.numExitPoints + j)`. -/
theorem forOutNeighborsOf_forInNeighborsOf_pairs (graph : Graph) (mlp : MultiLevelPartition)
    (l k : Nat) (C : Cell) (hl : 0 < l) (hL : l ≤ mlp.getNumberOfLevels)
    (hC : (k, C) ∈ (OverlayGraph.build graph mlp).1.forCells l) (i j : Nat)
    (hi : i < C.numEntryPoints) (hj : j < C.numExitPoints) :
    ((OverlayGraph.build graph mlp).1.forOutNeighborsOf
        ((OverlayGraph.build graph mlp).1.getEntryPoint C i) l).length = C.numExitPoints ∧
    ((OverlayGraph.build graph mlp).1.forOutNeighborsOf
        ((OverlayGraph.build graph mlp).1.getEntryPoint C i) l)[j]? =
      some ((OverlayGraph.build graph mlp).1.getExitPoint C j,
        C.cellOffset + i * C.numExitPoints + j) ∧
    ((OverlayGraph.build graph mlp).1.forInNeighborsOf
        ((OverlayGraph.build graph mlp).1.getExitPoint C j) l).length = C.numEntryPoints ∧
    ((OverlayGraph.build graph mlp).1.forInNeighborsOf
        ((OverlayGraph.build graph mlp).1.getExitPoint C j) l)[i]? =
      some ((OverlayGraph.build graph mlp).1.getEntryPoint C i,
        C.cellOffset + i * C.numExitPoints + j) := by
  have wf := buildOverlayVertices_wf graph ⟨mlp.getPVOffsets⟩ mlp.getNumberOfLevels
  have hO := out_neighbors ⟨mlp.getPVOffsets⟩ mlp.getNumberOfLevels _ wf l hl hL k C hC i hi
  have hI := in_neighbors ⟨mlp.getPVOffsets⟩ mlp.getNumberOfLevels _ wf l hl hL k C hC j hj
  have hO' : (OverlayGraph.build graph mlp).1.forOutNeighborsOf
      ((OverlayGraph.build graph mlp).1.getEntryPoint C i) l =
      (List.range C.numExitPoints).map fun j =>
        ((OverlayGraph.build graph mlp).1.getExitPoint C j,
          C.cellOffset + i * C.numExitPoints + j) := hO
  have hI' : (OverlayGraph.build graph mlp).1.forInNeighborsOf
      ((OverlayGraph.build graph mlp).1.getExitPoint C j) l =
      (List.range C.numEntryPoints).map fun i =>
        ((OverlayGraph.build graph mlp).1.getEntryPoint C i,
          C.cellOffset + i * C.numExitPoints + j) := hI
  rw [hO', hI']
  refine ⟨by simp, ?_, by simp, ?_⟩
  · rw [List.getElem?_map, List.getElem?_range hj]; rfl
  · rw [List.getElem?_map, List.getElem?_range hi]; rfl

set_option maxRecDepth 100000 in
/-- The level-1 cell with key 6 of the overlay graph of OverlayGraphTest.cpp, entry 2 and
exit 1. -/
theorem forOutNeighborsOf_forInNeighborsOf_pairs_witness :
    (0 < 1 ∧ 1 ≤ testPartition.getNumberOfLevels ∧
      ((6, ⟨3, 2, 16, 20⟩) : Nat × Cell) ∈ testOverlay.1.forCells 1 ∧
      2 < (⟨3, 2, 16, 20⟩ : Cell).numEntryPoints ∧ 1 < (⟨3, 2, 16, 20⟩ : Cell).numExitPoints) ∧
    (testOverlay.1.forOutNeighborsOf (testOverlay.1.getEntryPoint ⟨3, 2, 16, 20⟩ 2) 1)[1]? =
      some (testOverlay.1.getExitPoint ⟨3, 2, 16, 20⟩ 1, 16 + 2 * 2 + 1) :=
  ⟨⟨by decide, by decide, by decide, by decide, by decide⟩,
    (forOutNeighborsOf_forInNeighborsOf_pairs testSortedGraph testPartition 1 6
      ⟨3, 2, 16, 20⟩ (by decide) (by decide) (by decide) 2 1 (by decide) (by decide)).2.1⟩

/-- C9: in the overlay graph built by `OverlayGraph(graph, mlp)`, for a cell `C` with key `k`
listed on level `l`, `C.numEntryPoints` is the number of overlay vertices that are entry
vertices (exit flag false), are boundary on a level `>= l` (their `entryExitPoint` has at
least `l` entries) and whose cell number truncates to `k` on level `l`, and
`C.numExitPoints` is the number of such exit vertices. On the graph of OverlayGraphTest.cpp
the level-1 cells are 0, 1, 6, 7 with (entries, exits) = (1,4), (1,2), (3,2), (3,0) and the
level-2 cells are 0, 1 with (1,5), (5,1). -/
theorem cell_numEntryPoints_numExitPoints (graph : Graph) (mlp : MultiLevelPartition)
    (l k : Nat) (C : Cell) (hl : 0 < l) (hL : l ≤ mlp.getNumberOfLevels)
    (hC : (k, C) ∈ (OverlayGraph.build graph mlp).1.forCells l) :
    C.numEntryPoints =
      (List.range (OverlayGraph.build graph mlp).1.numberOfVertices).countP (fun x =>
        ((OverlayGraph.build graph mlp).2.1.getD x false == false) &&
        decide (l ≤ ((OverlayGraph.build graph mlp).1.getVertex x).entryExitPoint.length) &&
        decide ((OverlayGraph.build graph mlp).1.levelInfo.truncateToLevel
          ((OverlayGraph.build graph mlp).1.getVertex x).cellNumber l = k)) ∧
    C.numExitPoints =
      (List.range (OverlayGraph.build graph mlp).1.numberOfVertices).countP (fun x =>
        ((OverlayGraph.build graph mlp).2.1.getD x false == true) &&
        decide (l ≤ ((OverlayGraph.build graph mlp).1.getVertex x).entryExitPoint.length) &&
        decide ((OverlayGraph.build graph mlp).1.levelInfo.truncateToLevel
          ((OverlayGraph.build graph mlp).1.getVertex x).cellNumber l = k)) ∧
    (testOverlay.1.forCells 1).map (fun p => (p.1, p.2.numEntryPoints, p.2.numExitPoints)) =
      [(0, 1, 4), (1, 1, 2), (6, 3, 2), (7, 3, 0)] ∧
    (testOverlay.1.forCells 2).map (fun p => (p.1, p.2.numEntryPoints, p.2.numExitPoints)) =
      [(0, 1, 5), (1, 5, 1)] := by
  have wf := buildOverlayVertices_wf graph ⟨mlp.getPVOffsets⟩ mlp.getNumberOfLevels
  have hE := cell_counts_vertices ⟨mlp.getPVOffsets⟩ mlp.getNumberOfLevels _ wf l hl hL k C hC
    false
  have hX := cell_counts_vertices ⟨mlp.getPVOffsets⟩ mlp.getNumberOfLevels _ wf l hl hL k C hC
    true
  refine ⟨hE.symm, hX.symm, ?_, ?_⟩
  · set_option maxRecDepth 100000 in decide
  · set_option maxRecDepth 100000 in decide

set_option maxRecDepth 100000 in
/-- The level-1 cell with key 6 of the overlay graph of OverlayGraphTest.cpp has as many entry
points as there are entry overlay vertices in it. -/
theorem cell_numEntryPoints_numExitPoints_witness :
    (0 < 1 ∧ 1 ≤ testPartition.getNumberOfLevels ∧
      ((6, ⟨3, 2, 16, 20⟩) : Nat × Cell) ∈ testOverlay.1.forCells 1) ∧
    (⟨3, 2, 16, 20⟩ : Cell).numEntryPoints =
      (List.range testOverlay.1.numberOfVertices).countP (fun x =>
        (testOverlay.2.1.getD x false == false) &&
        decide (1 ≤ (testOverlay.1.getVertex x).entryExitPoint.length) &&
        decide (testOverlay.1.levelInfo.truncateToLevel
          (testOverlay.1.getVertex x).cellNumber 1 = 6)) :=
  ⟨⟨by decide, by decide, by decide⟩,
    (cell_numEntryPoints_numExitPoints testSortedGraph testPartition 1 6 ⟨3, 2, 16, 20⟩
      (by decide) (by decide) (by decide)).1⟩

/-- C10: in the overlay graph built by `OverlayGraph(graph, mlp)`, the weight blocks
`[C.cellOffset, C.cellOffset + C.numEntryPoints * C.numExitPoints)` of two different cells
(different level or different key) are disjoint, every block lies inside
`[0, weightVectorSize)`, every index below `weightVectorSize` lies in the block of some
cell, and `weightVectorSize` is the sum over all levels and all cells of
`numEntryPoints * numExitPoints`; on the graph of OverlayGraphTest.cpp it is 22. -/
theorem weight_blocks_partition (graph : Graph) (mlp : MultiLevelPartition) :
    (∀ l k C l' k' C', 0 < l → l ≤ mlp.getNumberOfLevels →
      (k, C) ∈ (OverlayGraph.build graph mlp).1.forCells l →
      0 < l' → l' ≤ mlp.getNumberOfLevels →
      (k', C') ∈ (OverlayGraph.build graph mlp).1.forCells l' →
      (l ≠ l' ∨ k ≠ k') →
      C.cellOffset + C.numEntryPoints * C.numExitPoints ≤ C'.cellOffset ∨
      C'.cellOffset + C'.numEntryPoints * C'.numExitPoints ≤ C.cellOffset) ∧
    (∀ l k C, 0 < l → l ≤ mlp.getNumberOfLevels →
      (k, C) ∈ (OverlayGraph.build graph mlp).1.forCells l →
      C.cellOffset + C.numEntryPoints * C.numExitPoints ≤
        (OverlayGraph.build graph mlp).1.getWeightVectorSize) ∧
    (∀ w, w < (OverlayGraph.build graph mlp).1.getWeightVectorSize →
      ∃ l k C, 0 < l ∧ l ≤ mlp.getNumberOfLevels ∧
        (k, C) ∈ (OverlayGraph.build graph mlp).1.forCells l ∧
        C.cellOffset ≤ w ∧ w < C.cellOffset + C.numEntryPoints * C.numExitPoints) ∧
    (OverlayGraph.build graph mlp).1.getWeightVectorSize =
      ((List.range mlp.getNumberOfLevels).map fun l =>
        (((OverlayGraph.build graph mlp).1.forCells (l + 1)).map fun p =>
          p.2.numEntryPoints * p.2.numExitPoints).sum).sum ∧
    testOverlay.1.getWeightVectorSize = 22 := by
  obtain ⟨h1, h2, h3, h4⟩ := weight_blocks ⟨mlp.getPVOffsets⟩ mlp.getNumberOfLevels
    (OverlayGraph.buildOverlayVertices graph ⟨mlp.getPVOffsets⟩ mlp.getNumberOfLevels)
  refine ⟨h1, h2, h3, h4, ?_⟩
  set_option maxRecDepth 100000 in decide

set_option maxRecDepth 100000 in
/-- The blocks of the level-1 cells 0 and 6 of the overlay graph of OverlayGraphTest.cpp are
disjoint. -/
theorem weight_blocks_partition_witness :
    (0 < 1 ∧ 1 ≤ testPartition.getNumberOfLevels ∧
      ((0, ⟨1, 4, 10, 12⟩) : Nat × Cell) ∈ testOverlay.1.forCells 1 ∧
      ((6, ⟨3, 2, 16, 20⟩) : Nat × Cell) ∈ testOverlay.1.forCells 1 ∧ (1 ≠ 1 ∨ 0 ≠ 6)) ∧
    (10 + 1 * 4 ≤ 16 ∨ 16 + 3 * 2 ≤ 10) :=
  ⟨⟨by decide, by decide, by decide, by decide, by decide⟩,
    (weight_blocks_partition testSortedGraph testPartition).1 1 0 ⟨1, 4, 10, 12⟩ 1 6
      ⟨3, 2, 16, 20⟩ (by decide) (by decide) (by decide) (by decide) (by decide) (by decide)
      (by decide)⟩

end CRP

namespace CRP

/-! ## The overlay vertices that the query pops -/

/-- C39: in every run of `CRPQueryUni::edgeQuery` on a consistent base graph and the overlay
graph built by `OverlayGraph(graph, mlp)` (whose assertion
`originalToOverlayVertexMap.size() == overlayVertexCount` holds, the bit offsets of `mlp`
being non-decreasing, one more than its levels), on an object as its constructor or earlier
queries leave it: at the head of every iteration of the loop, the overlay vertex `u` that
`overlayGraphPQ.pop()` returns is a vertex of the overlay graph with
`1 <= getQueryLevel(cs, ct, u.cellNumber) <= u.entryExitPoint.size()`; that query level `l`
is at most the number of levels, so `entryExitPoint[l - 1]` and `cellMapping[l - 1]` are in
range, and `getCell` finds the cell of `truncateToLevel(u.cellNumber, l)` in
`cellMapping[l - 1]`. -/
theorem overlay_pop_level_in_range (graph : Graph) (mlp : MultiLevelPartition)
    (metric : Metric) (self : CRPQueryUni) (sourceEdgeId targetEdgeId : Nat)
    (hg : graph.Consistent)
    (hmono : mlp.getPVOffsets.Pairwise (fun a b => a ≤ b))
    (hlevels : mlp.getPVOffsets.length = mlp.getNumberOfLevels + 1)
    (hsize : (OverlayGraph.build graph mlp).2.2.overlayVertices.length =
      (OverlayGraph.build graph mlp).1.numberOfVertices)
    (hv : CRPQueryUni.Valid (OverlayGraph.build graph mlp).2.2 (OverlayGraph.build graph mlp).1
      self)
    (hs : sourceEdgeId < graph.numberOfEdges) (st : CRPQueryUni.Search)
    (hreach : CRPQueryUni.Reached (OverlayGraph.build graph mlp).2.2
      (OverlayGraph.build graph mlp).1 metric
      ((OverlayGraph.build graph mlp).2.2.getForwardEdge sourceEdgeId).head
      ((OverlayGraph.build graph mlp).2.2.getBackwardEdge targetEdgeId).tail
      ((OverlayGraph.build graph mlp).2.2.getCellNumber
        ((OverlayGraph.build graph mlp).2.2.getForwardEdge sourceEdgeId).head)
      ((OverlayGraph.build graph mlp).2.2.getCellNumber
        ((OverlayGraph.build graph mlp).2.2.getBackwardEdge targetEdgeId).tail)
      (CRPQueryUni.start (OverlayGraph.build graph mlp).2.2 self sourceEdgeId) st)
    (pair : IDKeyPair) (q : List IDKeyPair)
    (hpop : MinIDQueue.pop st.self.overlayGraphPQ = some (pair, q)) :
    pair.id < (OverlayGraph.build graph mlp).1.numberOfVertices ∧
    1 ≤ (OverlayGraph.build graph mlp).1.getQueryLevel
      ((OverlayGraph.build graph mlp).2.2.getCellNumber
        ((OverlayGraph.build graph mlp).2.2.getForwardEdge sourceEdgeId).head)
      ((OverlayGraph.build graph mlp).2.2.getCellNumber
        ((OverlayGraph.build graph mlp).2.2.getBackwardEdge targetEdgeId).tail)
      ((OverlayGraph.build graph mlp).1.getVertex pair.id).cellNumber ∧
    (OverlayGraph.build graph mlp).1.getQueryLevel
      ((OverlayGraph.build graph mlp).2.2.getCellNumber
        ((OverlayGraph.build graph mlp).2.2.getForwardEdge sourceEdgeId).head)
      ((OverlayGraph.build graph mlp).2.2.getCellNumber
        ((OverlayGraph.build graph mlp).2.2.getBackwardEdge targetEdgeId).tail)
      ((OverlayGraph.build graph mlp).1.getVertex pair.id).cellNumber ≤
        ((OverlayGraph.build graph mlp).1.getVertex pair.id).entryExitPoint.length ∧
    (OverlayGraph.build graph mlp).1.getQueryLevel
      ((OverlayGraph.build graph mlp).2.2.getCellNumber
        ((OverlayGraph.build graph mlp).2.2.getForwardEdge sourceEdgeId).head)
      ((OverlayGraph.build graph mlp).2.2.getCellNumber
        ((OverlayGraph.build graph mlp).2.2.getBackwardEdge targetEdgeId).tail)
      ((OverlayGraph.build graph mlp).1.getVertex pair.id).cellNumber ≤
        (OverlayGraph.build graph mlp).1.levelInfo.getLevelCount ∧
    (OverlayGraph.build graph mlp).1.getQueryLevel
      ((OverlayGraph.build graph mlp).2.2.getCellNumber
        ((OverlayGraph.build graph mlp).2.2.getForwardEdge sourceEdgeId).head)
      ((OverlayGraph.build graph mlp).2.2.getCellNumber
        ((OverlayGraph.build graph mlp).2.2.getBackwardEdge targetEdgeId).tail)
      ((OverlayGraph.build graph mlp).1.getVertex pair.id).cellNumber - 1 <
        (OverlayGraph.build graph mlp).1.cellMapping.length ∧
    ∃ C, cellFind
      ((OverlayGraph.build graph mlp).1.levelInfo.truncateToLevel
        ((OverlayGraph.build graph mlp).1.getVertex pair.id).cellNumber
        ((OverlayGraph.build graph mlp).1.getQueryLevel
          ((OverlayGraph.build graph mlp).2.2.getCellNumber
            ((OverlayGraph.build graph mlp).2.2.getForwardEdge sourceEdgeId).head)
          ((OverlayGraph.build graph mlp).2.2.getCellNumber
            ((OverlayGraph.build graph mlp).2.2.getBackwardEdge targetEdgeId).tail)
          ((OverlayGraph.build graph mlp).1.getVertex pair.id).cellNumber))
      ((OverlayGraph.build graph mlp).1.cellMapping.getD
        ((OverlayGraph.build graph mlp).1.getQueryLevel
          ((OverlayGraph.build graph mlp).2.2.getCellNumber
            ((OverlayGraph.build graph mlp).2.2.getForwardEdge sourceEdgeId).head)
          ((OverlayGraph.build graph mlp).2.2.getCellNumber
            ((OverlayGraph.build graph mlp).2.2.getBackwardEdge targetEdgeId).tail)
          ((OverlayGraph.build graph mlp).1.getVertex pair.id).cellNumber - 1) []) = some C := by
  have hR := build_routable graph mlp hg hmono hlevels hsize
  have hG := build_consistent graph mlp hg
  have hT0 := CRPQueryUni.start_term (OverlayGraph.build graph mlp).2.2 hG
    (OverlayGraph.build graph mlp).1 (OverlayGraph.build graph mlp).2.1 self hv sourceEdgeId hs
    ((OverlayGraph.build graph mlp).2.2.getCellNumber
      ((OverlayGraph.build graph mlp).2.2.getBackwardEdge targetEdgeId).tail)
  have hT := CRPQueryUni.reached_term (OverlayGraph.build graph mlp).2.2 hG
    (OverlayGraph.build graph mlp).1 (OverlayGraph.build graph mlp).2.1 hR metric _ _ _ _ hT0
    hreach
  obtain ⟨h1, _, h3, h4⟩ := hT.overlayQ pair (MinIDQueue.pop_spec _ _ _ hpop).1
  obtain ⟨c1, c2, C, hC⟩ := buildCells_cell_exists graph ⟨mlp.getPVOffsets⟩
    mlp.getNumberOfLevels pair.id _ h1 h3 h4
  have hlc : (OverlayGraph.build graph mlp).1.levelInfo.getLevelCount =
      mlp.getNumberOfLevels := by
    have : (OverlayGraph.build graph mlp).1.levelInfo = ⟨mlp.getPVOffsets⟩ :=
      buildCells_levelInfo _ _ _
    rw [this]
    show mlp.getPVOffsets.length - 1 = _
    omega
  refine ⟨h1, h3, h4, ?_, ?_, C, hC⟩
  · rw [hlc]; exact c1
  · have : (OverlayGraph.build graph mlp).1.cellMapping.length = mlp.getNumberOfLevels := c2
    rw [this]
    omega

set_option maxRecDepth 100000 in
/-- On the graph of OverlayGraphTest.cpp with its partition and the hop metric, the query from
the edge 1 to the edge 0 has the overlay vertex 6 in its queue after the first iteration. -/
theorem overlay_pop_level_in_range_witness :
    (testPartition.getPVOffsets.Pairwise (fun a b => a ≤ b) ∧
      testPartition.getPVOffsets.length = testPartition.getNumberOfLevels + 1 ∧
      (OverlayGraph.build testSortedGraph testPartition).2.2.overlayVertices.length =
        (OverlayGraph.build testSortedGraph testPartition).1.numberOfVertices ∧
      1 < testSortedGraph.numberOfEdges ∧
      MinIDQueue.pop testFirstState.self.overlayGraphPQ = some (⟨6, 1⟩, [])) ∧
    (6 < (OverlayGraph.build testSortedGraph testPartition).1.numberOfVertices ∧
      1 ≤ (OverlayGraph.build testSortedGraph testPartition).1.getQueryLevel
        ((OverlayGraph.build testSortedGraph testPartition).2.2.getCellNumber
          ((OverlayGraph.build testSortedGraph testPartition).2.2.getForwardEdge 1).head)
        ((OverlayGraph.build testSortedGraph testPartition).2.2.getCellNumber
          ((OverlayGraph.build testSortedGraph testPartition).2.2.getBackwardEdge 0).tail)
        ((OverlayGraph.build testSortedGraph testPartition).1.getVertex 6).cellNumber) :=
  ⟨⟨testPartition_mono, testPartition_levels, testOverlay_size, by decide, by decide!⟩,
    have h := overlay_pop_level_in_range testSortedGraph testPartition
      ⟨HopFunction, [], [], []⟩
      (CRPQueryUni.create (OverlayGraph.build testSortedGraph testPartition).2.2
        (OverlayGraph.build testSortedGraph testPartition).1) 1 0 testSortedGraph_consistent
      testPartition_mono testPartition_levels testOverlay_size
      (CRPQueryUni.crp_create_valid _ _) (by decide) testFirstState
      (CRPQueryUni.Reached.next CRPQueryUni.Reached.start
        (@CRPQueryUni.Iteration.base _ _ _ _ _ _ _ _ ⟨0, 0, 0⟩ [] (by decide!) (by decide!)
          (by decide!) (by decide!)))
      ⟨6, 1⟩ [] (by decide!)
    ⟨h.1, h.2.1⟩⟩

end CRP

namespace CRP

/-! ## Parallel boundary edges -/

set_option maxRecDepth 100000 in
/-- C29: the entry overlay vertex of a boundary edge does not reference the matching backward
edge when the graph has parallel edges. The graph `parallelSortedGraph` is consistent and has
the two edges 0 and 1 from the vertex 0 (cell number 0) to the vertex 1 (cell number 1); the
forward edge 1 enters the vertex 1 at the entry point 1, and its backward edge is the edge
`firstIn(1) + 1 = 1`. The overlay vertex 3 is the entry vertex of the forward edge 1 (an entry
vertex at the vertex 1 whose neighbour, the overlay vertex 1, is the exit vertex of the edge
1), and its `originalEdge` is `findBackwardEdge(0, 1) = 0`, the backward edge of the forward
edge 0. The two entry vertices 2 and 3 get the same key, and `originalToOverlayVertexMap` has
3 entries for 4 overlay vertices. -/
theorem entry_originalEdge_parallel_edges :
    parallelSortedGraph.Consistent ∧
    parallelSortedGraph.forEdges = [(0, 1, 0), (0, 1, 1)] ∧
    parallelSortedGraph.getCellNumber 0 ≠ parallelSortedGraph.getCellNumber 1 ∧
    (parallelSortedGraph.getForwardEdge 1).entryPoint = 1 ∧
    (parallelSortedGraph.vertex 1).firstIn + (parallelSortedGraph.getForwardEdge 1).entryPoint
      = 1 ∧
    parallelSortedGraph.getBackwardEdge 1 = ⟨0, 1, (parallelSortedGraph.getForwardEdge 1).attributes⟩ ∧
    parallelOverlay.1.IsExitOf parallelOverlay.2.1 1 0 1 ∧
    parallelOverlay.1.IsEntryOf parallelOverlay.2.1 3 0 1 1 ∧
    (parallelOverlay.1.getVertex 3).originalEdge = parallelSortedGraph.findBackwardEdge 0 1 ∧
    (parallelOverlay.1.getVertex 3).originalEdge = 0 ∧
    (parallelOverlay.1.getVertex 3).originalEdge ≠
      (parallelSortedGraph.vertex 1).firstIn +
        (parallelSortedGraph.getForwardEdge 1).entryPoint ∧
    (parallelOverlay.1.getVertex 2).originalEdge = 0 ∧
    parallelOverlay.1.numberOfVertices = 4 ∧
    parallelOverlay.2.2.overlayVertices.length = 3 :=
  ⟨⟨by decide, by decide, by decide, by decide, by decide, by decide, by decide, by decide,
      by decide, by decide⟩,
    by decide, by decide, by decide, by decide, by decide,
    ⟨by decide, by decide, by decide, by decide⟩,
    ⟨by decide, by decide, by decide, by decide, by decide, by decide, by decide⟩,
    by decide, by decide, by decide, by decide, by decide, by decide⟩

end CRP

namespace CRP

/-! ## The overlay path of the path unpacker has an even length -/

/-- C36: let the overlay graph be built by `OverlayGraph(graph, mlp)` for a consistent base
graph (the assertion `originalToOverlayVertexMap.size() == overlayVertexCount` holds, the
bit offsets of `mlp` do not decrease and are one more than its levels), let the weights of
the metric be those that `OverlayWeights::build` computes for its cost function, which is
bounded by `inf_weight`, and let the path unpacker be valid (its vectors hold the ids of the
overlay vertices, no round is ahead of `currentRound`) with a counter that does not wrap in
this call. For every level `l >= 2`, every entry point `s` and exit point `t` of a cell of
the level `l` whose overlay weight from `s` to `t` is below `inf_weight`, enough fuel makes
the search of `unpackPathInOverlayCell(s, t, l)` end and the walk back along the parent
pointers from `t` reach `s`; the collected overlay path starts with `t`, ends with `s`,
alternates exit and entry overlay vertices of that cell and has an even length, so that the
assertion `overlayPath.size() % 2 == 0` holds: the path splits into the pairs on which
`unpackPathInOverlayCell` recurses. -/
theorem unpackPathInOverlayCell_even_length (graph : Graph) (mlp : MultiLevelPartition)
    (metric : Metric) (fuelW n l k : Nat) (C : Cell) (i j : Nat) (self : PathUnpacker)
    (hg : graph.Consistent) (hmono : mlp.getPVOffsets.Pairwise (fun a b => a ≤ b))
    (hlevels : mlp.getPVOffsets.length = mlp.getNumberOfLevels + 1)
    (hsize : (OverlayGraph.build graph mlp).2.2.overlayVertices.length =
      (OverlayGraph.build graph mlp).1.numberOfVertices)
    (hb : metric.costFunction.Bounded)
    (hw : OverlayWeights.build (OverlayGraph.build graph mlp).2.2
      (OverlayGraph.build graph mlp).1 metric.costFunction fuelW = some metric.weights)
    (hl : 2 ≤ l) (hC : (k, C) ∈ (OverlayGraph.build graph mlp).1.forCells l)
    (hi : i < C.numEntryPoints) (hj : j < C.numExitPoints)
    (hfin : metric.getCellWeight (C.cellOffset + i * C.numExitPoints + j) < inf_weight)
    (hn : (OverlayGraph.build graph mlp).1.numberOfVertices ≤ n)
    (hv : PathUnpacker.Valid n self) (hround : self.currentRound < 4294967295) :
    ∃ fuel0, ∀ fuel, fuel0 ≤ fuel → ∃ self' path ps,
      PathUnpacker.overlayLoop (OverlayGraph.build graph mlp).2.2
        (OverlayGraph.build graph mlp).1 metric l
        ((OverlayGraph.build graph mlp).1.levelInfo.truncateToLevel
          ((OverlayGraph.build graph mlp).1.getVertex
            ((OverlayGraph.build graph mlp).1.getEntryPoint C i)).cellNumber l)
        ((OverlayGraph.build graph mlp).1.getExitPoint C j) fuel
        ({ self with
            currentRound := u32 (self.currentRound + 1)
            dist := self.dist.set ((OverlayGraph.build graph mlp).1.getEntryPoint C i) 0
            round := self.round.set ((OverlayGraph.build graph mlp).1.getEntryPoint C i)
              (u32 (self.currentRound + 1)) },
          MinIDQueue.push [] ⟨(OverlayGraph.build graph mlp).1.getEntryPoint C i, 0⟩) =
        some self' ∧
      PathUnpacker.overlayPath self'.parent
        ((OverlayGraph.build graph mlp).1.getEntryPoint C i) fuel
        ((OverlayGraph.build graph mlp).1.getExitPoint C j)
        [(OverlayGraph.build graph mlp).1.getExitPoint C j] = some path ∧
      path.length % 2 = 0 ∧
      Alternates (OverlayGraph.build graph mlp).2.1 true path ∧
      (∀ x, x ∈ path → (OverlayGraph.build graph mlp).1.InCell l k x) ∧
      path.head? = some ((OverlayGraph.build graph mlp).1.getExitPoint C j) ∧
      path.getLast? = some ((OverlayGraph.build graph mlp).1.getEntryPoint C i) ∧
      PathUnpacker.pairs path.reverse = some ps ∧
      ∀ result, PathUnpacker.unpackPathInOverlayCell (OverlayGraph.build graph mlp).2.2
          (OverlayGraph.build graph mlp).1 metric fuel l self
          ((OverlayGraph.build graph mlp).1.getEntryPoint C i)
          ((OverlayGraph.build graph mlp).1.getExitPoint C j) result =
        ps.foldl
          (fun (acc : Option (PathUnpacker × List Nat)) (p : Nat × Nat) =>
            acc.bind fun acc =>
              PathUnpacker.unpackPathInOverlayCell (OverlayGraph.build graph mlp).2.2
                (OverlayGraph.build graph mlp).1 metric fuel (l - 1) acc.1 p.1 p.2 acc.2)
          (some (self', result)) := by
  have hR := build_routable graph mlp hg hmono hlevels hsize
  have hCk := build_cellsOk graph mlp
  have hW := build_wired graph mlp hmono hlevels
  have hd := OverlayWeights.build_bound _ _ _ hR hCk metric.costFunction fuelW metric.weights hw
  have hreach := OverlayWeights.build_sound _ _ _ hR hCk hW metric.costFunction hb fuelW
    metric.weights hw l k C i j hl hC hi hj hfin
  have hs := OverlayGraph.entryPoint_inCell _ _ hCk hW l k C (by omega) hC i hi
  obtain ⟨_, c2, c3⟩ := hCk.entry l k C (by omega) hC i hi
  have htf := hCk.exit l k C (by omega) hC j hj
  have hL := hW.levels l k C (by omega) hC
  obtain ⟨fuel0, h0⟩ := PathUnpacker.overlayPath_spec _ _ _ hR hW metric hb hd n l k _ _ _ hn
    hl hL hs c3 c2 htf hreach hfin self hv
  refine ⟨fuel0, ?_⟩
  intro fuel hfuel
  obtain ⟨self', path, ps, a1, _, a3, a4, a5, a6, a7, a8, a9⟩ := h0 fuel hfuel
  have hu : u32 (self.currentRound + 1) = self.currentRound + 1 :=
    u32_of_lt (show self.currentRound + 1 < 4294967296 by omega)
  have hk := hW.entryKey l k C (by omega) hC i hi
  rw [hu, hk]
  refine ⟨self', path, ps, a1, a3, a4, a5, a6, a7, a8, a9, ?_⟩
  intro result
  obtain ⟨l', rfl⟩ : ∃ l', l = l' + 1 := ⟨l - 1, by omega⟩
  have hne : ¬ (l' + 1 = 1) := by omega
  rw [PathUnpacker.unpackPathInOverlayCell]
  simp only [hne, if_false, hu, hk, a1, a3, a9]
  rfl

set_option maxRecDepth 1000000 in
/-- On the graph of OverlayGraphTest.cpp with its partition and the hop function, the cell
with the key 0 of the level 2 has the entry point 3 and the exit point 5 at the overlay
weight 2: with enough fuel `unpackPathInOverlayCell(3, 5, 2)` of a new path unpacker collects
an overlay path of even length that splits into pairs, and with the fuel 20 it collects the
path `[5, 13, 12, 3]` with the pairs `(3, 12)` and `(13, 5)`. -/
theorem unpackPathInOverlayCell_even_length_witness :
    (testPartition.getPVOffsets.Pairwise (fun a b => a ≤ b) ∧
      testPartition.getPVOffsets.length = testPartition.getNumberOfLevels + 1 ∧
      (OverlayGraph.build testSortedGraph testPartition).2.2.overlayVertices.length =
        (OverlayGraph.build testSortedGraph testPartition).1.numberOfVertices ∧
      OverlayWeights.build (OverlayGraph.build testSortedGraph testPartition).2.2
        (OverlayGraph.build testSortedGraph testPartition).1 testMetric.costFunction 100 =
        some testMetric.weights ∧
      ((0, ⟨1, 5, 0, 0⟩) : Nat × Cell) ∈
        (OverlayGraph.build testSortedGraph testPartition).1.forCells 2 ∧
      (OverlayGraph.build testSortedGraph testPartition).1.getEntryPoint ⟨1, 5, 0, 0⟩ 0 = 3 ∧
      (OverlayGraph.build testSortedGraph testPartition).1.getExitPoint ⟨1, 5, 0, 0⟩ 4 = 5 ∧
      testMetric.getCellWeight 4 = 2 ∧
      (PathUnpacker.create (OverlayGraph.build testSortedGraph testPartition).2.2
        (OverlayGraph.build testSortedGraph testPartition).1).currentRound = 1) ∧
    (∃ fuel0, ∀ fuel, fuel0 ≤ fuel →
      ∃ (self' : PathUnpacker) (path : List Nat) (ps : List (Nat × Nat)),
      PathUnpacker.overlayPath self'.parent
        ((OverlayGraph.build testSortedGraph testPartition).1.getEntryPoint ⟨1, 5, 0, 0⟩ 0) fuel
        ((OverlayGraph.build testSortedGraph testPartition).1.getExitPoint ⟨1, 5, 0, 0⟩ 4)
        [(OverlayGraph.build testSortedGraph testPartition).1.getExitPoint ⟨1, 5, 0, 0⟩ 4] =
        some path ∧
      path.length % 2 = 0 ∧
      Alternates (OverlayGraph.build testSortedGraph testPartition).2.1 true path ∧
      PathUnpacker.pairs path.reverse = some ps) ∧
    ((PathUnpacker.overlayLoop (OverlayGraph.build testSortedGraph testPartition).2.2
        (OverlayGraph.build testSortedGraph testPartition).1 testMetric 2 0 5 20
        ({ PathUnpacker.create (OverlayGraph.build testSortedGraph testPartition).2.2
            (OverlayGraph.build testSortedGraph testPartition).1 with
            currentRound := 2
            dist := (PathUnpacker.create (OverlayGraph.build testSortedGraph testPartition).2.2
              (OverlayGraph.build testSortedGraph testPartition).1).dist.set 3 0
            round := (PathUnpacker.create (OverlayGraph.build testSortedGraph testPartition).2.2
              (OverlayGraph.build testSortedGraph testPartition).1).round.set 3 2 },
          MinIDQueue.push [] ⟨3, 0⟩)).bind fun self' =>
      (PathUnpacker.overlayPath self'.parent 3 20 5 [5]).map fun path =>
        (path, PathUnpacker.pairs path.reverse)) =
      some ([5, 13, 12, 3], some [(3, 12), (13, 5)]) := by
  refine ⟨⟨testPartition_mono, testPartition_levels, testOverlay_size, by decide!, by decide!,
    by decide!, by decide!, by decide!, by decide!⟩, ?_, by decide!⟩
  obtain ⟨fuel0, h⟩ := unpackPathInOverlayCell_even_length testSortedGraph testPartition
    testMetric 100 ((OverlayGraph.build testSortedGraph testPartition).2.2.numberOfEdges +
      (OverlayGraph.build testSortedGraph testPartition).1.numberOfVertices) 2 0 ⟨1, 5, 0, 0⟩
    0 4 (PathUnpacker.create (OverlayGraph.build testSortedGraph testPartition).2.2
      (OverlayGraph.build testSortedGraph testPartition).1) testSortedGraph_consistent
    testPartition_mono testPartition_levels testOverlay_size hopFunction_bounded (by decide!)
    (by decide!) (by decide!) (by decide!) (by decide!) (by decide!) (Nat.le_add_left _ _)
    (PathUnpacker.unpacker_create_valid _ _) (by decide!)
  refine ⟨fuel0, fun fuel hf => ?_⟩
  obtain ⟨self', path, ps, _, a2, a3, a4, _, _, _, a8, _⟩ := h fuel hf
  exact ⟨self', path, ps, a2, a3, a4, a8⟩

end CRP

namespace CRP

/-! ## The query level 0 -/

/-- C35: for the overlay graph built by `OverlayGraph(graph, mlp)` from a partition with at
least one level whose lowest bit offset is 0 (as `computeBitmap` sets it; the bit offsets
non-decreasing, one more than the levels, and the assertion
`originalToOverlayVertexMap.size() == overlayVertexCount` holding on a consistent graph):
`getQueryLevel(cs, ct, cv) = 0` exactly when `cv = cs` or `cv = ct`; hence at the head of
every iteration of the loop of `CRPQueryUni::edgeQuery` every label in the queue of the base
graph belongs to a vertex whose cell number is the cell number of the source or of the
target, and an overlay vertex `w` with `getQueryLevel(cs, ct, w.cellNumber) = 0` has
`w.cellNumber = cs` or `w.cellNumber = ct`, which is what the assertion on the way back to
the base graph tests in both queries. In every state that the two threads of
`ParallelCRPQuery::edgeQuery` pass, in whatever order their steps follow each other, every
label in `forwardGraphPQ` and every label in `backwardGraphPQ` belongs to a vertex whose cell
number is the cell number of the source or of the target. -/
theorem base_labels_in_source_or_target_cell (graph : Graph) (mlp : MultiLevelPartition)
    (metric : Metric) (self : CRPQueryUni) (sourceEdgeId targetEdgeId : Nat)
    (hg : graph.Consistent)
    (hmono : mlp.getPVOffsets.Pairwise (fun a b => a ≤ b))
    (hlevels : mlp.getPVOffsets.length = mlp.getNumberOfLevels + 1)
    (hsize : (OverlayGraph.build graph mlp).2.2.overlayVertices.length =
      (OverlayGraph.build graph mlp).1.numberOfVertices)
    (h0 : mlp.getPVOffsets.getD 0 0 = 0) (hL : 1 ≤ mlp.getNumberOfLevels)
    (hv : CRPQueryUni.Valid (OverlayGraph.build graph mlp).2.2 (OverlayGraph.build graph mlp).1
      self)
    (hs : sourceEdgeId < graph.numberOfEdges) :
    (∀ cs ct cv, (OverlayGraph.build graph mlp).1.getQueryLevel cs ct cv = 0 ↔
      (cv = cs ∨ cv = ct)) ∧
    (∀ st, CRPQueryUni.Reached (OverlayGraph.build graph mlp).2.2
      (OverlayGraph.build graph mlp).1 metric
      ((OverlayGraph.build graph mlp).2.2.getForwardEdge sourceEdgeId).head
      ((OverlayGraph.build graph mlp).2.2.getBackwardEdge targetEdgeId).tail
      ((OverlayGraph.build graph mlp).2.2.getCellNumber
        ((OverlayGraph.build graph mlp).2.2.getForwardEdge sourceEdgeId).head)
      ((OverlayGraph.build graph mlp).2.2.getCellNumber
        ((OverlayGraph.build graph mlp).2.2.getBackwardEdge targetEdgeId).tail)
      (CRPQueryUni.start (OverlayGraph.build graph mlp).2.2 self sourceEdgeId) st →
      ∀ p, p ∈ st.self.graphPQ →
        (OverlayGraph.build graph mlp).2.2.getCellNumber p.vertexId =
          (OverlayGraph.build graph mlp).2.2.getCellNumber
            ((OverlayGraph.build graph mlp).2.2.getForwardEdge sourceEdgeId).head ∨
        (OverlayGraph.build graph mlp).2.2.getCellNumber p.vertexId =
          (OverlayGraph.build graph mlp).2.2.getCellNumber
            ((OverlayGraph.build graph mlp).2.2.getBackwardEdge targetEdgeId).tail) ∧
    (∀ cs ct w, (OverlayGraph.build graph mlp).1.getQueryLevel cs ct
        ((OverlayGraph.build graph mlp).1.getVertex w).cellNumber = 0 →
      ((OverlayGraph.build graph mlp).1.getVertex w).cellNumber = cs ∨
      ((OverlayGraph.build graph mlp).1.getVertex w).cellNumber = ct) ∧
    (∀ (object : ParallelCRPQuery) (r : ParallelCRPQuery.Run),
      ParallelCRPQuery.Reached (OverlayGraph.build graph mlp).2.2
        (OverlayGraph.build graph mlp).1 metric
        (ParallelCRPQuery.locals (OverlayGraph.build graph mlp).2.2 sourceEdgeId targetEdgeId)
        ⟨ParallelCRPQuery.start (OverlayGraph.build graph mlp).2.2 object sourceEdgeId
          targetEdgeId, ParallelCRPQuery.ForwardWork.head, ParallelCRPQuery.BackwardWork.head⟩
        r →
      (∀ p, p ∈ r.search.self.forwardGraphPQ →
        (OverlayGraph.build graph mlp).2.2.getCellNumber p.vertexId =
          (OverlayGraph.build graph mlp).2.2.getCellNumber
            ((OverlayGraph.build graph mlp).2.2.getForwardEdge sourceEdgeId).head ∨
        (OverlayGraph.build graph mlp).2.2.getCellNumber p.vertexId =
          (OverlayGraph.build graph mlp).2.2.getCellNumber
            ((OverlayGraph.build graph mlp).2.2.getBackwardEdge targetEdgeId).tail) ∧
      (∀ p, p ∈ r.search.self.backwardGraphPQ →
        (OverlayGraph.build graph mlp).2.2.getCellNumber p.vertexId =
          (OverlayGraph.build graph mlp).2.2.getCellNumber
            ((OverlayGraph.build graph mlp).2.2.getForwardEdge sourceEdgeId).head ∨
        (OverlayGraph.build graph mlp).2.2.getCellNumber p.vertexId =
          (OverlayGraph.build graph mlp).2.2.getCellNumber
            ((OverlayGraph.build graph mlp).2.2.getBackwardEdge targetEdgeId).tail)) := by
  have hli : (OverlayGraph.build graph mlp).1.levelInfo = ⟨mlp.getPVOffsets⟩ :=
    buildCells_levelInfo _ _ _
  have hlc : 1 ≤ (⟨mlp.getPVOffsets⟩ : LevelInfo).getLevelCount := by
    show 1 ≤ mlp.getPVOffsets.length - 1
    omega
  have key : ∀ cs ct cv, (OverlayGraph.build graph mlp).1.getQueryLevel cs ct cv = 0 ↔
      (cv = cs ∨ cv = ct) := by
    intro cs ct cv
    show min ((OverlayGraph.build graph mlp).1.levelInfo.getHighestDifferingLevel cs cv)
      ((OverlayGraph.build graph mlp).1.levelInfo.getHighestDifferingLevel cv ct) = 0 ↔ _
    rw [hli]
    have e1 := hdl_eq_zero_iff ⟨mlp.getPVOffsets⟩ cs cv h0 hlc
    have e2 := hdl_eq_zero_iff ⟨mlp.getPVOffsets⟩ cv ct h0 hlc
    constructor
    · intro h
      rcases Nat.min_eq_zero_iff.1 h with h | h
      · exact Or.inl (e1.1 h).symm
      · exact Or.inr (e2.1 h)
    · intro h
      rcases h with h | h
      · exact Nat.min_eq_zero_iff.2 (Or.inl (e1.2 h.symm))
      · exact Nat.min_eq_zero_iff.2 (Or.inr (e2.2 h))
  refine ⟨key, ?_, fun cs ct w h => (key cs ct _).1 h, ?_⟩
  swap
  · intro object r hr
    have hI := ParallelCRPQuery.reached_baseInCells (OverlayGraph.build graph mlp).2.2
      (OverlayGraph.build graph mlp).1 metric object sourceEdgeId targetEdgeId
      (fun cs ct cv h => (key cs ct cv).1 h)
      (fun u l p hp => out_neighbors_lt graph ⟨mlp.getPVOffsets⟩ mlp.getNumberOfLevels u l p hp)
      (fun u l p hp => in_neighbors_lt graph ⟨mlp.getPVOffsets⟩ mlp.getNumberOfLevels u l p hp)
      (fun x hx => (twin_neighbor graph ⟨mlp.getPVOffsets⟩ mlp.getNumberOfLevels x hx).1)
      (fun x hx => overlay_cellNumber graph ⟨mlp.getPVOffsets⟩ mlp.getNumberOfLevels x hx) hr
    exact ⟨hI.forwardQ, hI.backwardQ⟩
  intro st hreach p hp
  have hR := build_routable graph mlp hg hmono hlevels hsize
  have hG := build_consistent graph mlp hg
  have hT0 := CRPQueryUni.start_term (OverlayGraph.build graph mlp).2.2 hG
    (OverlayGraph.build graph mlp).1 (OverlayGraph.build graph mlp).2.1 self hv sourceEdgeId hs
    ((OverlayGraph.build graph mlp).2.2.getCellNumber
      ((OverlayGraph.build graph mlp).2.2.getBackwardEdge targetEdgeId).tail)
  have hT := CRPQueryUni.reached_term (OverlayGraph.build graph mlp).2.2 hG
    (OverlayGraph.build graph mlp).1 (OverlayGraph.build graph mlp).2.1 hR metric _ _ _ _ hT0
    hreach
  exact (key _ _ _).1 (hT.graphQ p hp).2

set_option maxRecDepth 100000 in
/-- On the graph of OverlayGraphTest.cpp with its partition (bit offsets 0, 2, 3): the cell
number 1 has the query level 0 between the cells 0 and 1, and in the state in which
`ParallelCRPQuery::edgeQuery(1, 0, m)` starts its threads the labels in `forwardGraphPQ`
belong to vertices of the cell of the source or of the target. -/
theorem base_labels_in_source_or_target_cell_witness :
    (testPartition.getPVOffsets.Pairwise (fun a b => a ≤ b) ∧
      testPartition.getPVOffsets.length = testPartition.getNumberOfLevels + 1 ∧
      (OverlayGraph.build testSortedGraph testPartition).2.2.overlayVertices.length =
        (OverlayGraph.build testSortedGraph testPartition).1.numberOfVertices ∧
      testPartition.getPVOffsets.getD 0 0 = 0 ∧ 1 ≤ testPartition.getNumberOfLevels ∧
      1 < testSortedGraph.numberOfEdges) ∧
    ((OverlayGraph.build testSortedGraph testPartition).1.getQueryLevel 0 1 1 = 0 ↔
      (1 = 0 ∨ 1 = 1)) ∧
    (∀ p, p ∈ (ParallelCRPQuery.start (OverlayGraph.build testSortedGraph testPartition).2.2
        (ParallelCRPQuery.create (OverlayGraph.build testSortedGraph testPartition).2.2
          (OverlayGraph.build testSortedGraph testPartition).1) 1 0).self.forwardGraphPQ →
      (OverlayGraph.build testSortedGraph testPartition).2.2.getCellNumber p.vertexId =
        (OverlayGraph.build testSortedGraph testPartition).2.2.getCellNumber
          ((OverlayGraph.build testSortedGraph testPartition).2.2.getForwardEdge 1).head ∨
      (OverlayGraph.build testSortedGraph testPartition).2.2.getCellNumber p.vertexId =
        (OverlayGraph.build testSortedGraph testPartition).2.2.getCellNumber
          ((OverlayGraph.build testSortedGraph testPartition).2.2.getBackwardEdge 0).tail) :=
  ⟨⟨testPartition_mono, testPartition_levels, testOverlay_size, by decide, by decide,
      by decide⟩,
    (base_labels_in_source_or_target_cell testSortedGraph testPartition
      ⟨HopFunction, [], [], []⟩
      (CRPQueryUni.create (OverlayGraph.build testSortedGraph testPartition).2.2
        (OverlayGraph.build testSortedGraph testPartition).1) 1 0 testSortedGraph_consistent
      testPartition_mono testPartition_levels testOverlay_size (by decide) (by decide)
      (CRPQueryUni.crp_create_valid _ _) (by decide)).1 0 1 1,
    ((base_labels_in_source_or_target_cell testSortedGraph testPartition
      ⟨HopFunction, [], [], []⟩
      (CRPQueryUni.create (OverlayGraph.build testSortedGraph testPartition).2.2
        (OverlayGraph.build testSortedGraph testPartition).1) 1 0 testSortedGraph_consistent
      testPartition_mono testPartition_levels testOverlay_size (by decide) (by decide)
      (CRPQueryUni.crp_create_valid _ _) (by decide)).2.2.2
      (ParallelCRPQuery.create (OverlayGraph.build testSortedGraph testPartition).2.2
        (OverlayGraph.build testSortedGraph testPartition).1) _
      ParallelCRPQuery.Reached.start).1⟩

end CRP


namespace CRP

/-! ## The sort of the vertices renames them -/

/-- C40: `Graph::sortVerticesByCellNumber` only renames the vertices. The vector `newId` of
the function is a bijection on the vertex ids; the vertex `newId(u)` of the new graph has the
in- and out-degree of the old vertex `u`; its `k`-th forward edge is the `k`-th forward edge
of `u` with the head renamed (same entry point, same attributes), its `k`-th backward edge
is the `k`-th backward edge of `u` with the tail renamed (same exit point, same attributes);
and `getTurnType(newId(u), i, k)` is the old `getTurnType(u, i, k)` for all ordinals. -/
theorem sortVerticesByCellNumber_renames (g : Graph) (hoff : g.Offsets) :
    (∀ u, u < g.numberOfVertices →
      (g.sortNewId g.sortScratch.cellVertices).getD u 0 < g.numberOfVertices) ∧
    (∀ u v, u < g.numberOfVertices → v < g.numberOfVertices →
      (g.sortNewId g.sortScratch.cellVertices).getD u 0 =
        (g.sortNewId g.sortScratch.cellVertices).getD v 0 → u = v) ∧
    (∀ j, j < g.numberOfVertices → ∃ u, u < g.numberOfVertices ∧
      (g.sortNewId g.sortScratch.cellVertices).getD u 0 = j) ∧
    g.sortVerticesByCellNumber.numberOfVertices = g.numberOfVertices ∧
    ∀ u, u < g.numberOfVertices →
      g.sortVerticesByCellNumber.getOutDegree
          ((g.sortNewId g.sortScratch.cellVertices).getD u 0) = g.getOutDegree u ∧
      g.sortVerticesByCellNumber.getInDegree
          ((g.sortNewId g.sortScratch.cellVertices).getD u 0) = g.getInDegree u ∧
      (∀ k, k < g.getOutDegree u →
        g.sortVerticesByCellNumber.getForwardEdge
            ((g.sortVerticesByCellNumber.vertex
              ((g.sortNewId g.sortScratch.cellVertices).getD u 0)).firstOut + k) =
          ⟨(g.sortNewId g.sortScratch.cellVertices).getD
              (g.getForwardEdge ((g.vertex u).firstOut + k)).head 0,
            (g.getForwardEdge ((g.vertex u).firstOut + k)).entryPoint,
            (g.getForwardEdge ((g.vertex u).firstOut + k)).attributes⟩) ∧
      (∀ k, k < g.getInDegree u →
        g.sortVerticesByCellNumber.getBackwardEdge
            ((g.sortVerticesByCellNumber.vertex
              ((g.sortNewId g.sortScratch.cellVertices).getD u 0)).firstIn + k) =
          ⟨(g.sortNewId g.sortScratch.cellVertices).getD
              (g.getBackwardEdge ((g.vertex u).firstIn + k)).tail 0,
            (g.getBackwardEdge ((g.vertex u).firstIn + k)).exitPoint,
            (g.getBackwardEdge ((g.vertex u).firstIn + k)).attributes⟩) ∧
      ∀ i k, g.sortVerticesByCellNumber.getTurnType
          ((g.sortNewId g.sortScratch.cellVertices).getD u 0) i k = g.getTurnType u i k := by
  obtain ⟨n1, n2⟩ := sortNewId_spec g hoff.cell
  obtain ⟨s1, _, _, _, s5, s6, s7⟩ := sorted_spec g hoff
  refine ⟨fun u hu => (n2 u hu).1, ?_, ?_, s1, ?_⟩
  · intro u v hu hv h
    have h1 := (n2 u hu).2
    have h2 := (n2 v hv).2
    rw [h] at h1
    exact h1.symm.trans h2
  · intro j hj
    exact ⟨g.sortOrder.getD j 0, sortOrder_lt g hoff.cell j hj, n1 j hj⟩
  · intro u hu
    obtain ⟨hlt, hord⟩ := n2 u hu
    obtain ⟨_, t2, t3, t4⟩ := s5 _ hlt
    rw [hord] at t2 t3 t4
    refine ⟨t3, t4, ?_, ?_, ?_⟩
    · intro k hk
      have := s6 _ hlt k (by rw [hord]; exact hk)
      rw [hord] at this
      exact this
    · intro k hk
      have := s7 _ hlt k (by rw [hord]; exact hk)
      rw [hord] at this
      exact this
    · intro i k
      unfold Graph.getTurnType
      rw [t2, t3]
      rfl

set_option maxRecDepth 100000 in
/-- On the graph of OverlayGraphTest.cpp after `buildCellNumbers`: the sort keeps the number
of the vertices. -/
theorem sortVerticesByCellNumber_renames_witness :
    (buildCellNumbers testGraph testPartition).Offsets ∧
    (buildCellNumbers testGraph testPartition).sortVerticesByCellNumber.numberOfVertices =
      (buildCellNumbers testGraph testPartition).numberOfVertices :=
  ⟨testCellGraph_offsets,
    (sortVerticesByCellNumber_renames (buildCellNumbers testGraph testPartition)
      testCellGraph_offsets).2.2.2.1⟩

end CRP


namespace CRP

/-! ## The round counter at its wrap-around -/

set_option maxRecDepth 100000 in
set_option maxHeartbeats 2000000 in
/-- C33: `CRPQueryUni::edgeQuery` (and `Dijkstra::edgeQuery`) does not reinitialise `round[]`
when `currentRound++` wraps. On the graph `turnGraph` (one cell, so the overlay graph is
empty) with the hop function, let the object be as the constructor leaves it, but with
`currentRound = 2^32 - 2`. The query from the edge 0 to the edge 0 returns the path `[1]` of
weight 0 and leaves `currentRound = 2^32 - 1` with the labels of this round. The next query,
from the edge 0 to the edge 1, wraps the counter to 0: no test `round[vId] < currentRound`
holds any more, the edge into the entry point 0 of the vertex 0 is not relaxed because the
stale `dist` is not larger than the new distance, and the query returns the empty path with
`inf_weight`, where a freshly constructed object returns the path `[1, 0]` of weight 1. -/
theorem edgeQuery_round_wrap :
    ((CRPQueryUni.edgeQuery turnGraph ⟨[], [], [], [], ⟨[0]⟩, 0⟩ ⟨HopFunction, [], [], []⟩ 10
      { CRPQueryUni.create turnGraph ⟨[], [], [], [], ⟨[0]⟩, 0⟩ with
        currentRound := 4294967294 }
      (PathUnpacker.create turnGraph ⟨[], [], [], [], ⟨[0]⟩, 0⟩) 0 0).bind fun r =>
      (CRPQueryUni.edgeQuery turnGraph ⟨[], [], [], [], ⟨[0]⟩, 0⟩ ⟨HopFunction, [], [], []⟩ 10
        r.2.1 r.2.2 0 1).map fun r' => (r.1, r.2.1.currentRound, r'.1, r'.2.1.currentRound)) =
      some (⟨[1], 0⟩, 4294967295, ⟨[], inf_weight⟩, 0) ∧
    (CRPQueryUni.edgeQuery turnGraph ⟨[], [], [], [], ⟨[0]⟩, 0⟩ ⟨HopFunction, [], [], []⟩ 10
      (CRPQueryUni.create turnGraph ⟨[], [], [], [], ⟨[0]⟩, 0⟩)
      (PathUnpacker.create turnGraph ⟨[], [], [], [], ⟨[0]⟩, 0⟩) 0 1).map Prod.fst =
      some ⟨[1, 0], 1⟩ ∧
    ((Dijkstra.edgeQuery turnGraph ⟨HopFunction, [], [], []⟩ 10
      { Dijkstra.create turnGraph with currentRound := 4294967294 } 0 0).bind fun r =>
      (Dijkstra.edgeQuery turnGraph ⟨HopFunction, [], [], []⟩ 10 r.2 0 1).map fun r' =>
        (r.1, r.2.currentRound, r'.1, r'.2.currentRound)) =
      some (⟨[1], 0⟩, 4294967295, ⟨[], inf_weight⟩, 0) ∧
    (Dijkstra.edgeQuery turnGraph ⟨HopFunction, [], [], []⟩ 10 (Dijkstra.create turnGraph)
      0 1).map Prod.fst = some ⟨[1, 0], 1⟩ :=
  ⟨by decide, by decide, by decide, by decide⟩

end CRP

namespace CRP
set_option maxRecDepth 100000 in
/-- C28, amended: the overlay graph that the constructor builds for the graph of `buildGraph`
and the partition of `buildMultiLevelPartition` (after `buildCellNumbers` and
`sortVerticesByCellNumber`, as in `main` of OverlayGraphTest.cpp) has 16 overlay vertices, two
for each of the eight edges that cross a cell boundary; 12 of them are also boundary vertices
on level 2. -/
theorem testOverlay_numberOfVertices :
    testOverlay.1.numberOfVertices = 16 ∧
      testOverlay.1.numberOfVerticesInLevel 1 = 16 ∧
      testOverlay.1.numberOfVerticesInLevel 2 = 12 ∧
      ((testSortedGraph.forEdges.filter fun x =>
        testSortedGraph.getCellNumber x.1 ≠ testSortedGraph.getCellNumber x.2.1).length = 8) := by
  decide
set_option maxRecDepth 100000 in
/-- C28, as stated: the number of overlay vertices of that overlay graph is not 13. -/
theorem testOverlay_numberOfVertices_ne_13 : testOverlay.1.numberOfVertices ≠ 13 := by
  decide
end CRP

namespace CRP

/-! ## The query from a vertex to itself -/

/-- C24: on a base graph that satisfies the forward/backward consistency invariant, for every
vertex `v` with at least one incoming and one outgoing edge and for every metric,
`Dijkstra::vertexQuery(v, v, m)` returns the path `[v]` with `pathWeight` 0, and so does
`CRPQueryUni::vertexQuery(v, v, m)` on the overlay graph built by `OverlayGraph(graph, mlp)`
(whose assertion `originalToOverlayVertexMap.size() == overlayVertexCount` holds, the bit
offsets of `mlp` being non-decreasing, one more than its levels); the path unpacker is left
as it was. The objects are as their constructors or earlier queries leave them, with round
counters that the call does not wrap, and both queries end within `2 * (numberOfEdges + numberOfOverlayVertices) * inf_weight + 2`
iterations of their loops. -/
theorem vertexQuery_self (graph : Graph) (mlp : MultiLevelPartition) (metric : Metric)
    (fuel : Nat) (dijkstra : Dijkstra) (query : CRPQueryUni) (pathUnpacker : PathUnpacker)
    (v : Nat) (hg : graph.Consistent) (hv : v < graph.numberOfVertices)
    (hin : 1 ≤ graph.getInDegree v) (hout : 1 ≤ graph.getOutDegree v)
    (hmono : mlp.getPVOffsets.Pairwise (fun a b => a ≤ b))
    (hlevels : mlp.getPVOffsets.length = mlp.getNumberOfLevels + 1)
    (hsize : (OverlayGraph.build graph mlp).2.2.overlayVertices.length =
      (OverlayGraph.build graph mlp).1.numberOfVertices)
    (hd : Dijkstra.Valid graph dijkstra) (hdr : dijkstra.currentRound < 4294967295)
    (hq : CRPQueryUni.Valid (OverlayGraph.build graph mlp).2.2 (OverlayGraph.build graph mlp).1
      query) (hqr : query.currentRound < 4294967295)
    (hfuel : 2 * (graph.numberOfEdges + (OverlayGraph.build graph mlp).1.numberOfVertices) *
      inf_weight + 2 ≤ fuel) :
    (∃ dijkstra', Dijkstra.vertexQuery graph metric fuel dijkstra v v =
      some (⟨[v], 0⟩, dijkstra')) ∧
    ∃ query', CRPQueryUni.vertexQuery (OverlayGraph.build graph mlp).2.2
      (OverlayGraph.build graph mlp).1 metric fuel query pathUnpacker v v =
      some (⟨[v], 0⟩, query', pathUnpacker) := by
  obtain ⟨a1, a2⟩ := graph.vertexQuery_source hg v hv hin
  obtain ⟨b1, b2⟩ := graph.vertexQuery_target hg v hv hout
  have hhead : (graph.getForwardEdge
      (graph.getExitOffset (graph.getBackwardEdge (graph.getEntryOffset v)).tail +
        (graph.getBackwardEdge (graph.getEntryOffset v)).exitPoint)).head = v := by rw [a2]
  have htail : (graph.getBackwardEdge
      (graph.getEntryOffset (graph.getForwardEdge (graph.getExitOffset v)).head +
        (graph.getForwardEdge (graph.getExitOffset v)).entryPoint)).tail = v := by rw [b2]
  constructor
  · obtain ⟨d', h⟩ := Dijkstra.edgeQuery_self graph hg metric fuel dijkstra hd hdr _ _ a1
      (htail.trans hhead.symm) (by
        have : 2 * graph.numberOfEdges * inf_weight ≤
            2 * (graph.numberOfEdges + (OverlayGraph.build graph mlp).1.numberOfVertices) *
              inf_weight :=
          Nat.mul_le_mul_right _ (Nat.mul_le_mul_left _ (Nat.le_add_right _ _))
        omega)
    rw [hhead] at h
    exact ⟨d', h⟩
  · obtain ⟨q', h⟩ := CRPQueryUni.crp_edgeQuery_self (OverlayGraph.build graph mlp).2.2
      (build_consistent graph mlp hg) (OverlayGraph.build graph mlp).1
      (OverlayGraph.build graph mlp).2.1 (build_routable graph mlp hg hmono hlevels hsize)
      metric fuel query hq hqr pathUnpacker
      (graph.getExitOffset (graph.getBackwardEdge (graph.getEntryOffset v)).tail +
        (graph.getBackwardEdge (graph.getEntryOffset v)).exitPoint)
      (graph.getEntryOffset (graph.getForwardEdge (graph.getExitOffset v)).head +
        (graph.getForwardEdge (graph.getExitOffset v)).entryPoint) a1
      (htail.trans hhead.symm) hfuel
    have hhead' : ((OverlayGraph.build graph mlp).2.2.getForwardEdge
      (graph.getExitOffset (graph.getBackwardEdge (graph.getEntryOffset v)).tail +
        (graph.getBackwardEdge (graph.getEntryOffset v)).exitPoint)).head = v := hhead
    rw [hhead'] at h
    exact ⟨q', h⟩

set_option maxRecDepth 100000 in
set_option maxHeartbeats 4000000 in
/-- On the graph of OverlayGraphTest.cpp with its partition and the hop metric, the queries
from the vertex 1 to itself return the path `[1]` with the weight 0. -/
theorem vertexQuery_self_witness :
    ((Dijkstra.create testSortedGraph).currentRound < 4294967295 ∧
      (CRPQueryUni.create (OverlayGraph.build testSortedGraph testPartition).2.2
        (OverlayGraph.build testSortedGraph testPartition).1).currentRound < 4294967295 ∧
      1 < testSortedGraph.numberOfVertices ∧ 1 ≤ testSortedGraph.getInDegree 1 ∧
      1 ≤ testSortedGraph.getOutDegree 1 ∧
      testPartition.getPVOffsets.Pairwise (fun a b => a ≤ b) ∧
      testPartition.getPVOffsets.length = testPartition.getNumberOfLevels + 1 ∧
      (OverlayGraph.build testSortedGraph testPartition).2.2.overlayVertices.length =
        (OverlayGraph.build testSortedGraph testPartition).1.numberOfVertices ∧
      2 * (testSortedGraph.numberOfEdges +
        (OverlayGraph.build testSortedGraph testPartition).1.numberOfVertices) * inf_weight + 2 ≤
        100000000000) ∧
    (∃ dijkstra', Dijkstra.vertexQuery testSortedGraph ⟨HopFunction, [], [], []⟩ 100000000000
      (Dijkstra.create testSortedGraph) 1 1 = some (⟨[1], 0⟩, dijkstra')) ∧
    ∃ query', CRPQueryUni.vertexQuery (OverlayGraph.build testSortedGraph testPartition).2.2
      (OverlayGraph.build testSortedGraph testPartition).1 ⟨HopFunction, [], [], []⟩
      100000000000
      (CRPQueryUni.create (OverlayGraph.build testSortedGraph testPartition).2.2
        (OverlayGraph.build testSortedGraph testPartition).1)
      (PathUnpacker.create (OverlayGraph.build testSortedGraph testPartition).2.2
        (OverlayGraph.build testSortedGraph testPartition).1) 1 1 =
      some (⟨[1], 0⟩, query',
        PathUnpacker.create (OverlayGraph.build testSortedGraph testPartition).2.2
          (OverlayGraph.build testSortedGraph testPartition).1) :=
  ⟨⟨by decide, by decide, by decide, by decide, by decide, by decide, by decide, by decide,
      by decide⟩,
    vertexQuery_self testSortedGraph testPartition ⟨HopFunction, [], [], []⟩ 100000000000
      (Dijkstra.create testSortedGraph)
      (CRPQueryUni.create (OverlayGraph.build testSortedGraph testPartition).2.2
        (OverlayGraph.build testSortedGraph testPartition).1)
      (PathUnpacker.create (OverlayGraph.build testSortedGraph testPartition).2.2
        (OverlayGraph.build testSortedGraph testPartition).1) 1 testSortedGraph_consistent
      (by decide) (by decide) (by decide) (by decide) (by decide) (by decide)
      (Dijkstra.create_valid testSortedGraph) (by decide)
      (CRPQueryUni.crp_create_valid _ _) (by decide) (by decide)⟩

end CRP

namespace CRP

/-! ## The base graph sorted by cell -/

/-- C19: let the offsets `firstOut` and `firstIn` of the graph split its edge arrays, which
have equal length, and let every vertex point to a cell. If before
`sortVerticesByCellNumber` every forward edge `f` from `u` at the exit point `k` has, at the
position `firstIn(head(f)) + f.entryPoint`, a backward edge of `head(f)` (the head is a
vertex and `f.entryPoint` is one of its entry points) with `tail = u` and `exitPoint = k`,
then the same holds for the graph after the call, whose edge arrays have equal length and
are split by its offsets. -/
theorem sortVerticesByCellNumber_paired (g : Graph) (hoff : g.Offsets) (hp : g.Paired) :
    g.sortVerticesByCellNumber.backwardEdges.length =
      g.sortVerticesByCellNumber.forwardEdges.length ∧
    g.sortVerticesByCellNumber.Offsets ∧
    (∀ u, u < g.sortVerticesByCellNumber.numberOfVertices →
      ∀ k, k < g.sortVerticesByCellNumber.getOutDegree u →
      (g.sortVerticesByCellNumber.getForwardEdge
        ((g.sortVerticesByCellNumber.vertex u).firstOut + k)).head <
        g.sortVerticesByCellNumber.numberOfVertices ∧
      (g.sortVerticesByCellNumber.getForwardEdge
        ((g.sortVerticesByCellNumber.vertex u).firstOut + k)).entryPoint <
        g.sortVerticesByCellNumber.getInDegree (g.sortVerticesByCellNumber.getForwardEdge
          ((g.sortVerticesByCellNumber.vertex u).firstOut + k)).head ∧
      (g.sortVerticesByCellNumber.getBackwardEdge
        ((g.sortVerticesByCellNumber.vertex (g.sortVerticesByCellNumber.getForwardEdge
          ((g.sortVerticesByCellNumber.vertex u).firstOut + k)).head).firstIn +
          (g.sortVerticesByCellNumber.getForwardEdge
            ((g.sortVerticesByCellNumber.vertex u).firstOut + k)).entryPoint)).tail = u ∧
      (g.sortVerticesByCellNumber.getBackwardEdge
        ((g.sortVerticesByCellNumber.vertex (g.sortVerticesByCellNumber.getForwardEdge
          ((g.sortVerticesByCellNumber.vertex u).firstOut + k)).head).firstIn +
          (g.sortVerticesByCellNumber.getForwardEdge
            ((g.sortVerticesByCellNumber.vertex u).firstOut + k)).entryPoint)).exitPoint = k) :=
  ⟨(sorted_offsets g hoff).lenBackward, sorted_offsets g hoff, sorted_paired g hoff hp⟩

set_option maxRecDepth 100000 in
/-- On the graph of OverlayGraphTest.cpp after `buildCellNumbers`: in the sorted graph the
edge 5 out of the vertex 2 has its backward edge at its entry point. -/
theorem sortVerticesByCellNumber_paired_witness :
    (2 < testSortedGraph.numberOfVertices ∧ 0 < testSortedGraph.getOutDegree 2) ∧
    (testSortedGraph.getBackwardEdge
      ((testSortedGraph.vertex (testSortedGraph.getForwardEdge
        ((testSortedGraph.vertex 2).firstOut + 0)).head).firstIn +
        (testSortedGraph.getForwardEdge
          ((testSortedGraph.vertex 2).firstOut + 0)).entryPoint)).tail = 2 :=
  ⟨⟨by decide, by decide⟩,
    ((sortVerticesByCellNumber_paired (buildCellNumbers testGraph testPartition)
      testCellGraph_offsets testCellGraph_paired).2.2 2 (by decide) 0 (by decide)).2.2.1⟩

/-- C20: let the offsets `firstOut` and `firstIn` of the graph split its edge arrays, which
have equal length, and let every vertex point to a cell. After `sortVerticesByCellNumber`
the vertices with the same `pvPtr` have consecutive ids (a vertex between two vertices of a
cell is in that cell), and for every cell `c` the forward edges of its vertices are exactly
the edges of the index range that starts at `forwardEdgeCellOffset[c]` and whose length is
the sum of the out-degrees of the vertices of the cell, and its backward edges exactly those
of the range that starts at `backwardEdgeCellOffset[c]` and whose length is the sum of their
in-degrees. -/
theorem sortVerticesByCellNumber_cell_ranges (g : Graph) (hoff : g.Offsets) :
    (∀ a b c, a ≤ b → b ≤ c → c < g.sortVerticesByCellNumber.numberOfVertices →
      (g.sortVerticesByCellNumber.vertex a).pvPtr = (g.sortVerticesByCellNumber.vertex c).pvPtr →
      (g.sortVerticesByCellNumber.vertex b).pvPtr =
        (g.sortVerticesByCellNumber.vertex a).pvPtr) ∧
    (∀ c, c < g.sortVerticesByCellNumber.cellNumbers.length → ∀ e,
      ((∃ v, v < g.sortVerticesByCellNumber.numberOfVertices ∧
          (g.sortVerticesByCellNumber.vertex v).pvPtr = c ∧
          (g.sortVerticesByCellNumber.vertex v).firstOut ≤ e ∧
          e < (g.sortVerticesByCellNumber.vertex v).firstOut +
            g.sortVerticesByCellNumber.getOutDegree v) ↔
        (g.sortVerticesByCellNumber.forwardEdgeCellOffset.getD c 0 ≤ e ∧
          e < g.sortVerticesByCellNumber.forwardEdgeCellOffset.getD c 0 +
            (((List.range g.sortVerticesByCellNumber.numberOfVertices).filter
              (fun v => decide ((g.sortVerticesByCellNumber.vertex v).pvPtr = c))).map
              g.sortVerticesByCellNumber.getOutDegree).sum)) ∧
      ((∃ v, v < g.sortVerticesByCellNumber.numberOfVertices ∧
          (g.sortVerticesByCellNumber.vertex v).pvPtr = c ∧
          (g.sortVerticesByCellNumber.vertex v).firstIn ≤ e ∧
          e < (g.sortVerticesByCellNumber.vertex v).firstIn +
            g.sortVerticesByCellNumber.getInDegree v) ↔
        (g.sortVerticesByCellNumber.backwardEdgeCellOffset.getD c 0 ≤ e ∧
          e < g.sortVerticesByCellNumber.backwardEdgeCellOffset.getD c 0 +
            (((List.range g.sortVerticesByCellNumber.numberOfVertices).filter
              (fun v => decide ((g.sortVerticesByCellNumber.vertex v).pvPtr = c))).map
              g.sortVerticesByCellNumber.getInDegree).sum))) :=
  ⟨fun a b c hab hbc hc h => sorted_contiguous g hoff a b c hab hbc hc h,
    fun c hc e => sorted_cell_edges g hoff c hc e⟩

set_option maxRecDepth 100000 in
/-- On the graph of OverlayGraphTest.cpp after `buildCellNumbers`: in the sorted graph the
cell 1 holds the vertices 2, 3 and 4, its forward edges start at the offset 5 and there are 5
of them, so that the edge 7 is an edge of one of its vertices. -/
theorem sortVerticesByCellNumber_cell_ranges_witness :
    (1 < testSortedGraph.cellNumbers.length ∧
      testSortedGraph.forwardEdgeCellOffset.getD 1 0 = 5 ∧
      (((List.range testSortedGraph.numberOfVertices).filter
        (fun v => decide ((testSortedGraph.vertex v).pvPtr = 1))).map
        testSortedGraph.getOutDegree).sum = 5 ∧
      2 ≤ 3 ∧ 3 ≤ 4 ∧ 4 < testSortedGraph.numberOfVertices ∧
      (testSortedGraph.vertex 2).pvPtr = (testSortedGraph.vertex 4).pvPtr) ∧
    (testSortedGraph.vertex 3).pvPtr = (testSortedGraph.vertex 2).pvPtr ∧
    ∃ v, v < testSortedGraph.numberOfVertices ∧ (testSortedGraph.vertex v).pvPtr = 1 ∧
      (testSortedGraph.vertex v).firstOut ≤ 7 ∧
      7 < (testSortedGraph.vertex v).firstOut + testSortedGraph.getOutDegree v :=
  ⟨⟨by decide, by decide, by decide, by decide, by decide, by decide, by decide⟩,
    (sortVerticesByCellNumber_cell_ranges (buildCellNumbers testGraph testPartition)
      testCellGraph_offsets).1 2 3 4 (by decide) (by decide) (by decide) (by decide),
    (((sortVerticesByCellNumber_cell_ranges (buildCellNumbers testGraph testPartition)
      testCellGraph_offsets).2 1 (by decide) 7).1).2 ⟨by decide, by decide⟩⟩

end CRP

namespace CRP

/-! ## The values that the stalling step writes -/

/-- C31 (amended): what the stalling step of the forward search of
`ParallelCRPQuery::edgeQuery` writes. The step keeps the length of `forwardInfo`, the `round`
and the `parent` of every entry, and every entry whose round is the current one (or not
older), and it raises no `dist`. When the popped label `forwardInfo[uId]` is a label of the
current round, the entry with the id `i` after the step is: for an id from
`getEntryOffset(u) - offset` to `getEntryOffset(u) + uInDeg - offset` (the entry point
`j = i - (getEntryOffset(u) - offset)` of `u`) whose round is older than the current one, the
entry before the step with
`dist = min(dist, (weight) max(0, (int) forwardInfo[uId].dist +
getMaxEntryTurnTableDiff(u, uOffset + j)))`, the sum being a value of type `int`; and the
entry before the step for every other id. -/
theorem stall_keeps_current_labels (graph : Graph) (metric : Metric)
    (currentRound forwardSOffset forwardTOffset : Nat)
    (forwardInfo : List ParallelCRPQuery.VertexInfo) (triple : IDKeyTriple) (i : Nat) :
    (ParallelCRPQuery.stall graph metric currentRound forwardSOffset forwardTOffset forwardInfo
      triple).length = forwardInfo.length ∧
    ((ParallelCRPQuery.stall graph metric currentRound forwardSOffset forwardTOffset forwardInfo
      triple).getD i default).round = (forwardInfo.getD i default).round ∧
    ((ParallelCRPQuery.stall graph metric currentRound forwardSOffset forwardTOffset forwardInfo
      triple).getD i default).parent = (forwardInfo.getD i default).parent ∧
    ((ParallelCRPQuery.stall graph metric currentRound forwardSOffset forwardTOffset forwardInfo
      triple).getD i default).dist ≤ (forwardInfo.getD i default).dist ∧
    (currentRound ≤ (forwardInfo.getD i default).round →
      (ParallelCRPQuery.stall graph metric currentRound forwardSOffset forwardTOffset
        forwardInfo triple).getD i default = forwardInfo.getD i default) ∧
    (currentRound ≤ (forwardInfo.getD triple.id default).round →
      (ParallelCRPQuery.stall graph metric currentRound forwardSOffset forwardTOffset
        forwardInfo triple).getD i default =
      if ParallelCRPQuery.stallFirst graph forwardSOffset forwardTOffset triple ≤ i ∧
          i < ParallelCRPQuery.stallLast graph forwardSOffset forwardTOffset triple ∧
          (forwardInfo.getD i default).round < currentRound then
        { forwardInfo.getD i default with
          dist := min (forwardInfo.getD i default).dist
            (ParallelCRPQuery.stallValue graph metric forwardSOffset forwardTOffset forwardInfo
              triple (i - ParallelCRPQuery.stallFirst graph forwardSOffset forwardTOffset
                triple)) }
      else forwardInfo.getD i default) := by
  have h := ParallelCRPQuery.stall_keeps graph metric currentRound forwardSOffset
    forwardTOffset forwardInfo triple
  obtain ⟨h1, h2, h3, h4⟩ := h.2 i
  exact ⟨h.1, h1, h2, h3, h4, fun hcur =>
    ParallelCRPQuery.stall_getD graph metric currentRound forwardSOffset forwardTOffset
      forwardInfo triple hcur i⟩

set_option maxRecDepth 100000 in
/-- On `stallGraph` with the hop function, when the forward search of the query from the
edge 1 to the edge 4 pops the label with the id 1 of the vertex 1 (a label of the current
round 1 with `dist = 1`), the stalling loop runs over the ids 1 and 2, and the entry with the
id 2, which has no label of the current round, gets
`dist = min(inf_weight, max(0, 1 + 0)) = 1`. -/
theorem stall_keeps_current_labels_witness :
    1 ≤ (stallInfo.getD 1 default).round ∧
    ParallelCRPQuery.stallFirst stallGraph 0 4294967291 ⟨1, 1, 1⟩ = 1 ∧
    ParallelCRPQuery.stallLast stallGraph 0 4294967291 ⟨1, 1, 1⟩ = 3 ∧
    (stallInfo.getD 2 default).round < 1 ∧
    ParallelCRPQuery.stallValue stallGraph stallMetric 0 4294967291 stallInfo ⟨1, 1, 1⟩
      (2 - ParallelCRPQuery.stallFirst stallGraph 0 4294967291 ⟨1, 1, 1⟩) = 1 ∧
    (ParallelCRPQuery.stall stallGraph stallMetric 1 0 4294967291 stallInfo ⟨1, 1, 1⟩).getD 2
        default =
      if ParallelCRPQuery.stallFirst stallGraph 0 4294967291 ⟨1, 1, 1⟩ ≤ 2 ∧
          2 < ParallelCRPQuery.stallLast stallGraph 0 4294967291 ⟨1, 1, 1⟩ ∧
          (stallInfo.getD 2 default).round < 1 then
        { stallInfo.getD 2 default with
          dist := min (stallInfo.getD 2 default).dist
            (ParallelCRPQuery.stallValue stallGraph stallMetric 0 4294967291 stallInfo
              ⟨1, 1, 1⟩ (2 - ParallelCRPQuery.stallFirst stallGraph 0 4294967291 ⟨1, 1, 1⟩)) }
      else stallInfo.getD 2 default :=
  ⟨by decide, by decide, by decide, by decide, by decide,
    (stall_keeps_current_labels stallGraph stallMetric 1 0 4294967291 stallInfo ⟨1, 1, 1⟩
      2).2.2.2.2.2 (by decide)⟩

set_option maxRecDepth 100000 in
/-- C31 (counterexample): the stalling step writes a value below the distance. On the
consistent graph `stallGraph` with the hop function, in the query from the edge 1 (into the
vertex 0) to the edge 4 (the loop at the vertex 3, which the search from the vertex 0 never
meets), the forward search first pops the source and gives the entry point 0 of the vertex 1
(id 1) the label 1. When it pops that label, the entry point 1 of the vertex 1 (id 2) has no
label of the current round 1, and the stalling step writes
`min(inf_weight, max(0, 1 + D_entry(1)[0 * 2 + 1])) = 1` into its `dist`. But the entry
point with the id 2 is entered by the edge 2 -> 1 only: a walk from the source to it exists
with the cost 3 (through the vertices 0, 1, 2; edge weights 1, turn costs 0), and every walk
from the source to it costs at least 3. -/
theorem stall_writes_below_distance :
    stallGraph.Consistent ∧
    (stallGraph.getForwardEdge 1).head = 0 ∧
    stallGraph.getEntryOffset 0 + (stallGraph.getForwardEdge 1).entryPoint = 0 ∧
    stallGraph.isEntry 1 1 ∧ stallGraph.isEntry 1 2 ∧
    stallGraph.getBackwardEdgeCellOffset 0 = 0 ∧
    u32 (stallGraph.getBackwardEdgeCellOffset 3 + 4294967296 - stallGraph.getMaxEdgesInCell) =
      4294967291 ∧
    stallMetric.getMaxEntryTurnTableDiff 1 (0 * stallGraph.getInDegree 1 + 1) = 0 ∧
    stallInfo.getD 1 default = ⟨1, 1, ⟨0, 0⟩⟩ ∧
    (stallInfo.getD 2 default).round < 1 ∧
    ((ParallelCRPQuery.stall stallGraph stallMetric 1 0 4294967291 stallInfo
      ⟨1, 1, 1⟩).getD 2 default).dist = 1 ∧
    (∃ vs, stallGraph.Trail (stallGraph.fullCost HopFunction) 0 2 3 vs) ∧
    ∀ d vs, stallGraph.Trail (stallGraph.fullCost HopFunction) 0 2 d vs → 3 ≤ d := by
  refine ⟨⟨by decide, by decide, by decide, by decide, by decide, by decide, by decide,
    by decide, by decide, by decide⟩, by decide, by decide, ⟨by decide, by decide, by decide⟩,
    ⟨by decide, by decide, by decide⟩, by decide, by decide, by decide, by decide, by decide,
    by decide, ?_, ?_⟩
  · have h1 := @Graph.Trail.step stallGraph (stallGraph.fullCost HopFunction) 0 0 0 [] 0 0
      Graph.Trail.start ⟨by decide, by decide, by decide⟩ (by decide)
    have h2 := @Graph.Trail.step stallGraph (stallGraph.fullCost HopFunction) 0 _ _ _ 1 1
      h1 ⟨by decide, by decide, by decide⟩ (by decide)
    have h3 := @Graph.Trail.step stallGraph (stallGraph.fullCost HopFunction) 0 _ _ _ 2 0
      h2 ⟨by decide, by decide, by decide⟩ (by decide)
    exact ⟨_, h3⟩
  · intro d vs h
    exact stallGraph_dist 2 d vs h

end CRP

namespace CRP

/-! ## The stalling step of ParallelCRPQuery -/

set_option maxRecDepth 100000 in
/-- C30: the stalling step of the forward search of `ParallelCRPQuery::edgeQuery` does not
compute `min(dist[q], max(0, dist[p] + D_entry(u)[p * inDeg(u) + q]))` over the integers.
On the consistent graph `turnGraph` with the tables of the hop function, the vertex 1 has the
entry points 0 and 1 (label ids 1 and 2) and `D_entry(1)[0 * 2 + 1] = inf_weight`. When the
label of the entry point 0 with `dist = 1000000000 < inf_weight` is popped and the entry point
1 has no label of the current round (`dist = inf_weight`), the sum
`(int) 1000000000 + 1431655765` leaves the range of `int` and wraps to a negative value, so
the step stores `dist = 0` for the entry point 1, where the formula gives `inf_weight`.
With `dist = 5` the sum fits and the step stores `inf_weight`, as the formula says. The step
also leaves the labels of the current round alone: when the label of the entry point 1 with
`dist = 5` is popped and the entry point 0 has the label 7 of the current round, the formula
gives `min(7, max(0, 5 - inf_weight)) = 0`, and the label stays 7. -/
theorem stall_signed_overflow :
    turnGraph.Consistent ∧ turnGraph.getInDegree 1 = 2 ∧ turnGraph.getEntryOffset 1 = 1 ∧
    turnMetric.getMaxEntryTurnTableDiff 1 (0 * turnGraph.getInDegree 1 + 1) = inf_weight ∧
    turnMetric.getMaxEntryTurnTableDiff 1 (1 * turnGraph.getInDegree 1 + 0) = -inf_weight ∧
    1000000000 < inf_weight ∧
    ((ParallelCRPQuery.stall turnGraph turnMetric 1 0 4294967293
      [⟨inf_weight, 0, default⟩, ⟨1000000000, 1, ⟨0, 0⟩⟩, ⟨inf_weight, 0, default⟩]
      ⟨1, 1, 1000000000⟩).getD 2 default).dist = 0 ∧
    min (inf_weight : Int)
      (max 0 (1000000000 + turnMetric.getMaxEntryTurnTableDiff 1
        (0 * turnGraph.getInDegree 1 + 1))) = inf_weight ∧
    ((ParallelCRPQuery.stall turnGraph turnMetric 1 0 4294967293
      [⟨inf_weight, 0, default⟩, ⟨5, 1, ⟨0, 0⟩⟩, ⟨inf_weight, 0, default⟩]
      ⟨1, 1, 5⟩).getD 2 default).dist = inf_weight ∧
    ((ParallelCRPQuery.stall turnGraph turnMetric 1 0 4294967293
      [⟨inf_weight, 0, default⟩, ⟨7, 1, ⟨0, 0⟩⟩, ⟨5, 1, ⟨0, 0⟩⟩]
      ⟨2, 1, 5⟩).getD 1 default).dist = 7 ∧
    min (7 : Int)
      (max 0 (5 + turnMetric.getMaxEntryTurnTableDiff 1
        (1 * turnGraph.getInDegree 1 + 0))) = 0 :=
  ⟨⟨by decide, by decide, by decide, by decide, by decide, by decide, by decide, by decide,
      by decide, by decide⟩,
    by decide, by decide, by decide, by decide, by decide, by decide, by decide, by decide,
    by decide, by decide⟩

end CRP

namespace CRP

/-! ## The tables for stalling -/

/-- Let the values of the cost function be at most `inf_weight`, and let the
vector `turnTableDiffs` of a metric built by the constructor of `Metric` have at most `2^16`
entries. For every vertex `v` with in-degree `n >= 1` and out-degree `m >= 1` and all entry
points `i, j < n`, `getMaxEntryTurnTableDiff(v, i * n + j)` is the maximum over the exit
points `k < m` of `T(i, k) - T(j, k)`, where `T(a, k) = getTurnCosts(getTurnType(v, a, k))`
as an integer: it is at least every such difference, and it is one of them. -/
theorem getMaxEntryTurnTableDiff_max (graph : Graph) (overlayGraph : OverlayGraph)
    (costFunction : CostFunction) (fuel : Nat) (metric : Metric)
    (hmetric : Metric.create graph overlayGraph costFunction fuel = some metric)
    (hb : costFunction.Bounded) (hsize : metric.turnTableDiffs.length ≤ 65536)
    (v : Nat) (hv : v < graph.numberOfVertices) (hn : 1 ≤ graph.getInDegree v)
    (hm : 1 ≤ graph.getOutDegree v) (i j : Nat) (hi : i < graph.getInDegree v)
    (hj : j < graph.getInDegree v) :
    (∀ k, k < graph.getOutDegree v →
      (metric.getTurnCosts (graph.getTurnType v i k) : Int) -
          (metric.getTurnCosts (graph.getTurnType v j k) : Int) ≤
        metric.getMaxEntryTurnTableDiff v (i * graph.getInDegree v + j)) ∧
    ∃ k, k < graph.getOutDegree v ∧
      metric.getMaxEntryTurnTableDiff v (i * graph.getInDegree v + j) =
        (metric.getTurnCosts (graph.getTurnType v i k) : Int) -
          (metric.getTurnCosts (graph.getTurnType v j k) : Int) := by
  unfold Metric.create at hmetric
  obtain ⟨weights, _, hmk⟩ := Option.map_eq_some'.1 hmetric
  subst hmk
  simp only at hsize
  obtain ⟨_, _, _, hp⟩ := Metric.buildTurnTables_inv graph costFunction
  obtain ⟨LE, LX, p1, ⟨p2, p3⟩, _⟩ := hp v hv hn hm
  have hlen := Metric.entry_length graph costFunction v
  have hpos : 1 ≤ graph.getInDegree v * graph.getInDegree v := Nat.mul_pos hn hn
  have hLE : LE < 65536 := by omega
  have hu : u32 LE = LE := by unfold u32; omega
  have hij : i * graph.getInDegree v + j < graph.getInDegree v * graph.getInDegree v := by
    calc i * graph.getInDegree v + j < i * graph.getInDegree v + graph.getInDegree v := by omega
      _ = (i + 1) * graph.getInDegree v := by rw [Nat.succ_mul]
      _ ≤ graph.getInDegree v * graph.getInDegree v := Nat.mul_le_mul_right _ hi
  have hval : ∀ cf' w, (⟨cf', w, (Metric.buildTurnTables graph costFunction).turnTablePtr,
      (Metric.buildTurnTables graph costFunction).turnTableDiffs⟩ :
        Metric).getMaxEntryTurnTableDiff v (i * graph.getInDegree v + j) =
      (List.range' 1 (graph.getOutDegree v - 1)).foldl
        (fun maxDiff k => max maxDiff (Metric.entryDiff graph costFunction v i j k))
        (Metric.entryDiff graph costFunction v i j 0) := by
    intro cf' w
    unfold Metric.getMaxEntryTurnTableDiff
    simp only
    rw [p1, hu, Metric.mask_low LE _ hLE,
      show u32 (LE + (i * graph.getInDegree v + j)) = LE + (i * graph.getInDegree v + j) by
        unfold u32; omega,
      p3 _ (by rw [hlen]; exact hij), Metric.entry_getD graph costFunction v i j hi hj]
  rw [hval]
  obtain ⟨f1, k0, hk0, f2⟩ := foldl_max_spec
    (fun k => Metric.entryDiff graph costFunction v i j k) (graph.getOutDegree v - 1)
  have hmm : graph.getOutDegree v - 1 + 1 = graph.getOutDegree v := by omega
  rw [hmm] at f1 hk0
  constructor
  · intro k hk
    have := f1 k hk
    rw [Metric.entryDiff_eq graph costFunction hb] at this
    exact this
  · refine ⟨k0, hk0, ?_⟩
    rw [f2, Metric.entryDiff_eq graph costFunction hb]
    rfl

set_option maxRecDepth 100000 in
/-- On the graph `turnGraph` with the hop function (and an overlay graph without cells), the
constructor builds a metric with 9 table entries; at the vertex 1, which has two entry points
and one exit point, `getMaxEntryTurnTableDiff(1, 0 * 2 + 1)` is
`T(0, 0) - T(1, 0) = inf_weight`. -/
theorem getMaxEntryTurnTableDiff_max_witness :
    (Metric.create turnGraph ⟨[], [], [], [], ⟨[0]⟩, 0⟩ HopFunction 0 = some turnMetric ∧
      turnMetric.turnTableDiffs.length ≤ 65536 ∧ 1 < turnGraph.numberOfVertices ∧
      1 ≤ turnGraph.getInDegree 1 ∧ 1 ≤ turnGraph.getOutDegree 1 ∧
      0 < turnGraph.getInDegree 1 ∧ 1 < turnGraph.getInDegree 1 ∧
      turnMetric.getMaxEntryTurnTableDiff 1 (0 * turnGraph.getInDegree 1 + 1) = inf_weight) ∧
    ∃ k, k < turnGraph.getOutDegree 1 ∧
      turnMetric.getMaxEntryTurnTableDiff 1 (0 * turnGraph.getInDegree 1 + 1) =
        (turnMetric.getTurnCosts (turnGraph.getTurnType 1 0 k) : Int) -
          (turnMetric.getTurnCosts (turnGraph.getTurnType 1 1 k) : Int) :=
  ⟨⟨rfl, by decide, by decide, by decide, by decide, by decide, by decide, by decide⟩,
    (getMaxEntryTurnTableDiff_max turnGraph ⟨[], [], [], [], ⟨[0]⟩, 0⟩ HopFunction 0 turnMetric
      rfl hopFunction_bounded (by decide) 1 (by decide) (by decide) (by decide) 0 1
      (by decide) (by decide)).2⟩

set_option maxRecDepth 100000 in
/-- C22: `getMaxEntryTurnTableDiff` does not return the maximum of the differences when the
offset of a matrix does not fit 16 bits. The graph `wideGraph` is consistent, and its vertex
1 has two entry points and one exit point with `T(0, 0) - T(1, 0) = inf_weight`. The vertex 0
has 256 entry points, so its matrix of 65536 entries fills the offsets below `2^16`, and the
matrix of the vertex 1 stands at the offset 65537, which the 16 bits of `turnTablePtr` do not
hold: for every metric that the constructor builds for this graph with the hop function,
`getMaxEntryTurnTableDiff(1, 0 * 2 + 1)` reads the entry 2 of `turnTableDiffs` and is 0, not
`max_k T(0, k) - T(1, k) = inf_weight`. -/
theorem getMaxEntryTurnTableDiff_offset_overflow :
    wideGraph.Consistent ∧ 1 < wideGraph.numberOfVertices ∧ wideGraph.getInDegree 1 = 2 ∧
    wideGraph.getOutDegree 1 = 1 ∧
    (HopFunction.getTurnCosts (wideGraph.getTurnType 1 0 0) : Int) -
      (HopFunction.getTurnCosts (wideGraph.getTurnType 1 1 0) : Int) = inf_weight ∧
    (∃ metric, Metric.create wideGraph ⟨[], [], [], [], ⟨[0]⟩, 0⟩ HopFunction 0 = some metric) ∧
    ∀ (overlayGraph : OverlayGraph) (fuel : Nat) (metric : Metric),
      Metric.create wideGraph overlayGraph HopFunction fuel = some metric →
      metric.turnTablePtr.getD 1 0 = 65537 ∧
      metric.getMaxEntryTurnTableDiff 1 (0 * wideGraph.getInDegree 1 + 1) = 0 ∧
      metric.getMaxEntryTurnTableDiff 1 (0 * wideGraph.getInDegree 1 + 1) ≠
        (metric.getTurnCosts (wideGraph.getTurnType 1 0 0) : Int) -
          (metric.getTurnCosts (wideGraph.getTurnType 1 1 0) : Int) := by
  refine ⟨⟨by decide, by decide, by decide, by decide, by decide, by decide, by decide,
    by decide, by decide, by decide⟩, by decide, by decide, by decide, by decide, ⟨_, rfl⟩, ?_⟩
  intro overlayGraph fuel metric hmetric
  unfold Metric.create at hmetric
  obtain ⟨weights, _, hmk⟩ := Option.map_eq_some'.1 hmetric
  subst hmk
  have h1 := Metric.wide_lookup HopFunction weights
  have e2 : wideGraph.getInDegree 1 = 2 := by decide
  rw [e2]
  refine ⟨?_, h1, ?_⟩
  · dsimp only
    rw [Metric.wide_tables.1]
    rfl
  · rw [h1]
    show (0 : Int) ≠ (HopFunction.getTurnCosts (wideGraph.getTurnType 1 0 0) : Int) -
      (HopFunction.getTurnCosts (wideGraph.getTurnType 1 1 0) : Int)
    decide

end CRP

namespace CRP

/-! ## The overlay vertices: twin pairs, levels and the map of the base graph -/

/-- C11: let the offsets of the partition start with `o[0] = 0` and have one entry per level
and one more, with at least one level. In the overlay graph built by
`OverlayGraph(graph, mlp)`, for every forward edge `e = (u, v)` of `graph.forEdges` with
`cellNumber(u) != cellNumber(v)` there is exactly one exit overlay vertex with
`originalVertex = u` and `originalEdge = e`, and exactly one entry overlay vertex of `e` (an
entry vertex with `originalVertex = v` whose neighbour is that exit vertex); both have an
`entryExitPoint` of length `getHighestDifferingLevel(cellNumber(u), cellNumber(v))`. Every
overlay vertex is the exit vertex or the entry vertex of such an edge, and
`numberOfVertices()` is twice the number of such edges. -/
theorem buildOverlayVertices_twin_pairs (graph : Graph) (mlp : MultiLevelPartition)
    (h0 : mlp.getPVOffsets.getD 0 0 = 0)
    (hlen : mlp.getPVOffsets.length = mlp.getNumberOfLevels + 1)
    (hL : 1 ≤ mlp.getNumberOfLevels) :
    (∀ u v e, (u, v, e) ∈ graph.forEdges → graph.getCellNumber u ≠ graph.getCellNumber v →
      (∃! x, (OverlayGraph.build graph mlp).1.IsExitOf (OverlayGraph.build graph mlp).2.1 x u e) ∧
      (∃! y, (OverlayGraph.build graph mlp).1.IsEntryOf (OverlayGraph.build graph mlp).2.1
        y u v e) ∧
      (∀ x, (OverlayGraph.build graph mlp).1.IsExitOf (OverlayGraph.build graph mlp).2.1 x u e →
        ((OverlayGraph.build graph mlp).1.getVertex x).entryExitPoint.length =
          (OverlayGraph.build graph mlp).1.levelInfo.getHighestDifferingLevel
            (graph.getCellNumber u) (graph.getCellNumber v)) ∧
      (∀ y, (OverlayGraph.build graph mlp).1.IsEntryOf (OverlayGraph.build graph mlp).2.1
          y u v e →
        ((OverlayGraph.build graph mlp).1.getVertex y).entryExitPoint.length =
          (OverlayGraph.build graph mlp).1.levelInfo.getHighestDifferingLevel
            (graph.getCellNumber u) (graph.getCellNumber v))) ∧
    (∀ x, x < (OverlayGraph.build graph mlp).1.numberOfVertices →
      ∃ u v e, (u, v, e) ∈ graph.forEdges ∧ graph.getCellNumber u ≠ graph.getCellNumber v ∧
        ((OverlayGraph.build graph mlp).1.IsExitOf (OverlayGraph.build graph mlp).2.1 x u e ∨
          (OverlayGraph.build graph mlp).1.IsEntryOf (OverlayGraph.build graph mlp).2.1
            x u v e)) ∧
    (OverlayGraph.build graph mlp).1.numberOfVertices =
      2 * (graph.forEdges.filter (fun t =>
        decide (graph.getCellNumber t.1 ≠ graph.getCellNumber t.2.1))).length := by
  have hcount : (⟨mlp.getPVOffsets⟩ : LevelInfo).getLevelCount = mlp.getNumberOfLevels := by
    show mlp.getPVOffsets.length - 1 = _
    omega
  have hiff : ∀ c1 c2 : Nat,
      (0 < (⟨mlp.getPVOffsets⟩ : LevelInfo).getHighestDifferingLevel c1 c2 ∧
        (⟨mlp.getPVOffsets⟩ : LevelInfo).getHighestDifferingLevel c1 c2 ≤
          mlp.getNumberOfLevels) ↔ c1 ≠ c2 := by
    intro c1 c2
    have h1 := (hdl_spec ⟨mlp.getPVOffsets⟩ c1 c2).1
    have h2 := hdl_eq_zero_iff ⟨mlp.getPVOffsets⟩ c1 c2 h0 (by rw [hcount]; exact hL)
    rw [hcount] at h1
    constructor
    · rintro ⟨h3, _⟩ h4
      have := h2.2 h4
      omega
    · intro h3
      refine ⟨Nat.pos_of_ne_zero (fun h4 => h3 (h2.1 h4)), h1⟩
  refine ⟨?_, ?_, ?_⟩
  · intro u v e ht hne
    obtain ⟨h3, h4⟩ := (hiff _ _).2 hne
    exact twin_exists_unique graph ⟨mlp.getPVOffsets⟩ mlp.getNumberOfLevels (u, v, e) ht h3 h4
  · intro x hx
    obtain ⟨t, ht, h3, hor⟩ := twin_of_vertex graph ⟨mlp.getPVOffsets⟩ mlp.getNumberOfLevels x hx
    have h4 := (hdl_spec ⟨mlp.getPVOffsets⟩ (graph.getCellNumber t.1)
      (graph.getCellNumber t.2.1)).1
    rw [hcount] at h4
    exact ⟨t.1, t.2.1, t.2.2, ht, (hiff _ _).1 ⟨h3, h4⟩, hor⟩
  · have h1 := (buildCells_fields ⟨mlp.getPVOffsets⟩ mlp.getNumberOfLevels
      (OverlayGraph.buildOverlayVertices graph ⟨mlp.getPVOffsets⟩ mlp.getNumberOfLevels) 0).1
    have h2 := build_length graph ⟨mlp.getPVOffsets⟩ mlp.getNumberOfLevels
    have h3 : (OverlayGraph.build graph mlp).1.numberOfVertices =
        (OverlayGraph.buildOverlayVertices graph ⟨mlp.getPVOffsets⟩
          mlp.getNumberOfLevels).overlayVertices.length := h1
    rw [h3, h2]
    congr 2
    apply List.filter_congr
    intro t _
    rw [decide_eq_decide]
    exact hiff _ _

set_option maxRecDepth 100000 in
/-- On the graph of OverlayGraphTest.cpp, the edge 0 from the vertex 0 (cell number 0) to the
vertex 6 (cell number 6) has the exit overlay vertex 0 and the entry overlay vertex 6, both
of level 2, and there are twice 8 overlay vertices. -/
theorem buildOverlayVertices_twin_pairs_witness :
    (testPartition.getPVOffsets.getD 0 0 = 0 ∧
      testPartition.getPVOffsets.length = testPartition.getNumberOfLevels + 1 ∧
      1 ≤ testPartition.getNumberOfLevels ∧
      ((0, 6, 0) : Nat × Nat × Nat) ∈ testSortedGraph.forEdges ∧
      testSortedGraph.getCellNumber 0 ≠ testSortedGraph.getCellNumber 6 ∧
      testOverlay.1.IsExitOf testOverlay.2.1 0 0 0 ∧
      testOverlay.1.IsEntryOf testOverlay.2.1 6 0 6 0) ∧
    (testOverlay.1.getVertex 0).entryExitPoint.length =
      testOverlay.1.levelInfo.getHighestDifferingLevel (testSortedGraph.getCellNumber 0)
        (testSortedGraph.getCellNumber 6) ∧
    (testOverlay.1.getVertex 6).entryExitPoint.length =
      testOverlay.1.levelInfo.getHighestDifferingLevel (testSortedGraph.getCellNumber 0)
        (testSortedGraph.getCellNumber 6) ∧
    testOverlay.1.numberOfVertices =
      2 * (testSortedGraph.forEdges.filter (fun t =>
        decide (testSortedGraph.getCellNumber t.1 ≠ testSortedGraph.getCellNumber t.2.1))).length :=
  ⟨⟨by decide, by decide, by decide, by decide, by decide,
      ⟨by decide, by decide, by decide, by decide⟩,
      ⟨by decide, by decide, by decide, by decide, by decide, by decide, by decide⟩⟩,
    ((buildOverlayVertices_twin_pairs testSortedGraph testPartition (by decide) (by decide)
      (by decide)).1 0 6 0 (by decide) (by decide)).2.2.1 0
        ⟨by decide, by decide, by decide, by decide⟩,
    ((buildOverlayVertices_twin_pairs testSortedGraph testPartition (by decide) (by decide)
      (by decide)).1 0 6 0 (by decide) (by decide)).2.2.2 6
        ⟨by decide, by decide, by decide, by decide, by decide, by decide, by decide⟩,
    (buildOverlayVertices_twin_pairs testSortedGraph testPartition (by decide) (by decide)
      (by decide)).2.2⟩

/-- C12: in the overlay graph built by `OverlayGraph(graph, mlp)` (after the sort of every
level by cell number), for every overlay vertex id `x` the neighbour
`getVertex(x).neighborOverlayVertex` is an overlay vertex whose neighbour is `x`; exactly one
of the two is an exit vertex (their exit flags differ); and the head of the `originalEdge` of
the exit vertex, a forward edge, is the `originalVertex` of the entry vertex. -/
theorem neighborOverlayVertex_twins (graph : Graph) (mlp : MultiLevelPartition) (x : Nat)
    (hx : x < (OverlayGraph.build graph mlp).1.numberOfVertices) :
    ((OverlayGraph.build graph mlp).1.getVertex x).neighborOverlayVertex <
      (OverlayGraph.build graph mlp).1.numberOfVertices ∧
    ((OverlayGraph.build graph mlp).1.getVertex
      ((OverlayGraph.build graph mlp).1.getVertex x).neighborOverlayVertex
      ).neighborOverlayVertex = x ∧
    (OverlayGraph.build graph mlp).2.1.getD
      ((OverlayGraph.build graph mlp).1.getVertex x).neighborOverlayVertex false =
      !(OverlayGraph.build graph mlp).2.1.getD x false ∧
    ((OverlayGraph.build graph mlp).2.1.getD x false = true →
      (graph.getForwardEdge ((OverlayGraph.build graph mlp).1.getVertex x).originalEdge).head =
      ((OverlayGraph.build graph mlp).1.getVertex
        ((OverlayGraph.build graph mlp).1.getVertex x).neighborOverlayVertex).originalVertex) ∧
    ((OverlayGraph.build graph mlp).2.1.getD x false = false →
      (graph.getForwardEdge ((OverlayGraph.build graph mlp).1.getVertex
        ((OverlayGraph.build graph mlp).1.getVertex x).neighborOverlayVertex
        ).originalEdge).head =
      ((OverlayGraph.build graph mlp).1.getVertex x).originalVertex) :=
  twin_neighbor graph ⟨mlp.getPVOffsets⟩ mlp.getNumberOfLevels x hx

set_option maxRecDepth 100000 in
/-- On the graph of OverlayGraphTest.cpp, the overlay vertex 12 (the exit vertex of the edge 2
out of the vertex 1) and the overlay vertex 13 (an entry vertex at the vertex 2) are
twins. -/
theorem neighborOverlayVertex_twins_witness :
    12 < testOverlay.1.numberOfVertices ∧
    (testOverlay.1.getVertex 12).neighborOverlayVertex = 13 ∧
    (testOverlay.1.getVertex (testOverlay.1.getVertex 12).neighborOverlayVertex
      ).neighborOverlayVertex = 12 ∧
    testOverlay.2.1.getD 12 false = true ∧
    (testSortedGraph.getForwardEdge (testOverlay.1.getVertex 12).originalEdge).head =
      (testOverlay.1.getVertex (testOverlay.1.getVertex 12).neighborOverlayVertex
        ).originalVertex :=
  ⟨by decide, by decide,
    (neighborOverlayVertex_twins testSortedGraph testPartition 12 (by decide)).2.1, by decide,
    (neighborOverlayVertex_twins testSortedGraph testPartition 12 (by decide)).2.2.2.1
      (by decide)⟩

/-- C13: in the overlay graph built by `OverlayGraph(graph, mlp)`, for every level `l` in
`[1, L]`, the overlay vertices whose `entryExitPoint` has length `>= l` are exactly the ids
in `[0, numberOfVerticesInLevel(l))`, and `numberOfVerticesInLevel(l)` is the number of these
overlay vertices. -/
theorem numberOfVerticesInLevel_count (graph : Graph) (mlp : MultiLevelPartition) (l : Nat)
    (hl : 0 < l) (hL : l ≤ mlp.getNumberOfLevels) :
    (OverlayGraph.build graph mlp).1.numberOfVerticesInLevel l ≤
      (OverlayGraph.build graph mlp).1.numberOfVertices ∧
    (∀ x, x < (OverlayGraph.build graph mlp).1.numberOfVertices →
      (l ≤ ((OverlayGraph.build graph mlp).1.getVertex x).entryExitPoint.length ↔
        x < (OverlayGraph.build graph mlp).1.numberOfVerticesInLevel l)) ∧
    (OverlayGraph.build graph mlp).1.numberOfVerticesInLevel l =
      (List.range (OverlayGraph.build graph mlp).1.numberOfVertices).countP (fun x =>
        decide (l ≤ ((OverlayGraph.build graph mlp).1.getVertex x).entryExitPoint.length)) := by
  have wf := buildOverlayVertices_wf graph ⟨mlp.getPVOffsets⟩ mlp.getNumberOfLevels
  have hn := (buildCells_fields ⟨mlp.getPVOffsets⟩ mlp.getNumberOfLevels
    (OverlayGraph.buildOverlayVertices graph ⟨mlp.getPVOffsets⟩ mlp.getNumberOfLevels) 0).1
  have hle := wf.countLe (l - 1) (by omega)
  have hiff := fun x hx => level_iff ⟨mlp.getPVOffsets⟩ mlp.getNumberOfLevels _ wf l hl hL x hx
  have hle' : (OverlayGraph.build graph mlp).1.numberOfVerticesInLevel l ≤
      (OverlayGraph.build graph mlp).1.numberOfVertices := by
    show (OverlayGraph.buildOverlayVertices graph ⟨mlp.getPVOffsets⟩
      mlp.getNumberOfLevels).vertexCountInLevel.getD (l - 1) 0 ≤
      (OverlayGraph.buildCells ⟨mlp.getPVOffsets⟩ mlp.getNumberOfLevels _).numberOfVertices
    rw [hn]; exact hle
  have hiff' : ∀ x, x < (OverlayGraph.build graph mlp).1.numberOfVertices →
      (l ≤ ((OverlayGraph.build graph mlp).1.getVertex x).entryExitPoint.length ↔
        x < (OverlayGraph.build graph mlp).1.numberOfVerticesInLevel l) := hiff
  refine ⟨hle', hiff', ?_⟩
  obtain ⟨d, hd⟩ := Nat.exists_eq_add_of_le hle'
  rw [hd, countP_range_extend]
  · rw [List.countP_eq_length_filter, List.filter_eq_self.2, List.length_range]
    intro x hx
    rw [decide_eq_true_eq]
    have hx' := List.mem_range.1 hx
    exact (hiff' x (by omega)).2 hx'
  · intro x h1 h2
    rw [decide_eq_false_iff_not]
    intro h3
    have := (hiff' x (by omega)).1 h3
    omega

set_option maxRecDepth 100000 in
/-- On the graph of OverlayGraphTest.cpp, 12 of the 16 overlay vertices are boundary on the
level 2, and they are the ids below 12. -/
theorem numberOfVerticesInLevel_count_witness :
    (0 < 2 ∧ 2 ≤ testPartition.getNumberOfLevels) ∧
    testOverlay.1.numberOfVerticesInLevel 2 = 12 ∧
    testOverlay.1.numberOfVerticesInLevel 2 =
      (List.range testOverlay.1.numberOfVertices).countP (fun x =>
        decide (2 ≤ (testOverlay.1.getVertex x).entryExitPoint.length)) :=
  ⟨⟨by decide, by decide⟩, by decide,
    (numberOfVerticesInLevel_count testSortedGraph testPartition 2 (by decide) (by decide)).2.2⟩

/-- In the overlay graph built by `OverlayGraph(graph, mlp)`, when the assertion
`originalToOverlayVertexMap.size() == overlayVertexCount` of the constructor holds, for every
overlay vertex id `x` with original vertex `v`: if `x` is an exit vertex then
`graph.getOverlayVertex(v, getExitOrder(v, x.originalEdge), true) = x`, and if `x` is an
entry vertex then `graph.getOverlayVertex(v, getEntryOrder(v, x.originalEdge), false) = x`.
The map has exactly one key per overlay vertex: two overlay vertices with the same key are
equal, and every entry of the map is the key of an overlay vertex with the id of that
vertex. -/
theorem getOverlayVertex_of_overlay_vertex (graph : Graph) (mlp : MultiLevelPartition)
    (hsize : (OverlayGraph.build graph mlp).2.2.overlayVertices.length =
      (OverlayGraph.build graph mlp).1.numberOfVertices) :
    (∀ x, x < (OverlayGraph.build graph mlp).1.numberOfVertices →
      ((OverlayGraph.build graph mlp).2.1.getD x false = true →
        (OverlayGraph.build graph mlp).2.2.getOverlayVertex
          ((OverlayGraph.build graph mlp).1.getVertex x).originalVertex
          ((OverlayGraph.build graph mlp).2.2.getExitOrder
            ((OverlayGraph.build graph mlp).1.getVertex x).originalVertex
            ((OverlayGraph.build graph mlp).1.getVertex x).originalEdge) true = x) ∧
      ((OverlayGraph.build graph mlp).2.1.getD x false = false →
        (OverlayGraph.build graph mlp).2.2.getOverlayVertex
          ((OverlayGraph.build graph mlp).1.getVertex x).originalVertex
          ((OverlayGraph.build graph mlp).2.2.getEntryOrder
            ((OverlayGraph.build graph mlp).1.getVertex x).originalVertex
            ((OverlayGraph.build graph mlp).1.getVertex x).originalEdge) false = x)) ∧
    (∀ x y, x < (OverlayGraph.build graph mlp).1.numberOfVertices →
      y < (OverlayGraph.build graph mlp).1.numberOfVertices →
      OverlayGraph.mapKey graph (OverlayGraph.buildOverlayVertices graph ⟨mlp.getPVOffsets⟩
        mlp.getNumberOfLevels) x =
      OverlayGraph.mapKey graph (OverlayGraph.buildOverlayVertices graph ⟨mlp.getPVOffsets⟩
        mlp.getNumberOfLevels) y → x = y) ∧
    (∀ q, q ∈ (OverlayGraph.build graph mlp).2.2.overlayVertices →
      q.2 < (OverlayGraph.build graph mlp).1.numberOfVertices ∧
      q.1 = OverlayGraph.mapKey graph (OverlayGraph.buildOverlayVertices graph
        ⟨mlp.getPVOffsets⟩ mlp.getNumberOfLevels) q.2) := by
  have hn := (buildCells_fields ⟨mlp.getPVOffsets⟩ mlp.getNumberOfLevels
    (OverlayGraph.buildOverlayVertices graph ⟨mlp.getPVOffsets⟩ mlp.getNumberOfLevels) 0).1
  have hsize' : (OverlayGraph.buildOverlayVertices graph ⟨mlp.getPVOffsets⟩
      mlp.getNumberOfLevels).originalToOverlayVertexMap.length =
      (OverlayGraph.buildOverlayVertices graph ⟨mlp.getPVOffsets⟩
        mlp.getNumberOfLevels).overlayVertices.length := by
    rw [← hn]; exact hsize
  have hfind := fun x hx => map_lookup graph ⟨mlp.getPVOffsets⟩ mlp.getNumberOfLevels hsize' x
    (by rw [← hn]; exact hx)
  refine ⟨?_, ?_, ?_⟩
  · intro x hx
    obtain ⟨_, b1, _, _, b4, _⟩ := buildCells_fields ⟨mlp.getPVOffsets⟩ mlp.getNumberOfLevels
      (OverlayGraph.buildOverlayVertices graph ⟨mlp.getPVOffsets⟩ mlp.getNumberOfLevels) x
    have a1 : ((OverlayGraph.build graph mlp).1.getVertex x).originalVertex = _ := b1
    have a4 : ((OverlayGraph.build graph mlp).1.getVertex x).originalEdge = _ := b4
    have h := hfind x hx
    constructor
    · intro hf
      have hf' : (OverlayGraph.buildOverlayVertices graph ⟨mlp.getPVOffsets⟩
        mlp.getNumberOfLevels).exitFlagsArray.getD x false = true := hf
      unfold OverlayGraph.mapKey at h
      simp only [hf', if_true] at h
      unfold Graph.getOverlayVertex
      show (Graph.findOverlayVertex
        ⟨((OverlayGraph.build graph mlp).1.getVertex x).originalVertex,
          graph.getExitOrder ((OverlayGraph.build graph mlp).1.getVertex x).originalVertex
            ((OverlayGraph.build graph mlp).1.getVertex x).originalEdge, true⟩
        (OverlayGraph.buildOverlayVertices graph
          ⟨mlp.getPVOffsets⟩ mlp.getNumberOfLevels).originalToOverlayVertexMap).getD
          invalid_id = x
      rw [a1, a4, h]
      rfl
    · intro hf
      have hf' : (OverlayGraph.buildOverlayVertices graph ⟨mlp.getPVOffsets⟩
        mlp.getNumberOfLevels).exitFlagsArray.getD x false = false := hf
      unfold OverlayGraph.mapKey at h
      simp only [hf', Bool.false_eq_true, if_false] at h
      unfold Graph.getOverlayVertex
      show (Graph.findOverlayVertex
        ⟨((OverlayGraph.build graph mlp).1.getVertex x).originalVertex,
          graph.getEntryOrder ((OverlayGraph.build graph mlp).1.getVertex x).originalVertex
            ((OverlayGraph.build graph mlp).1.getVertex x).originalEdge, false⟩
        (OverlayGraph.buildOverlayVertices graph
          ⟨mlp.getPVOffsets⟩ mlp.getNumberOfLevels).originalToOverlayVertexMap).getD
          invalid_id = x
      rw [a1, a4, h]
      rfl
  · intro x y hx hy hk
    have h1 := hfind x hx
    have h2 := hfind y hy
    rw [hk, h2] at h1
    exact (Option.some.inj h1).symm
  · intro q hq
    have := mapEntries_of_mem graph ⟨mlp.getPVOffsets⟩ mlp.getNumberOfLevels q hq
    exact ⟨by
      show q.2 <
        (OverlayGraph.buildCells ⟨mlp.getPVOffsets⟩ mlp.getNumberOfLevels _).numberOfVertices
      rw [hn]; exact this.1, this.2⟩

set_option maxRecDepth 100000 in
set_option maxHeartbeats 4000000 in
/-- On the graph of OverlayGraphTest.cpp the map has 16 keys for the 16 overlay vertices; the
exit vertex 12 is found under its key, and so is the entry vertex 13. -/
theorem getOverlayVertex_of_overlay_vertex_witness :
    testOverlay.2.2.overlayVertices.length = testOverlay.1.numberOfVertices ∧
    (12 < testOverlay.1.numberOfVertices ∧ testOverlay.2.1.getD 12 false = true) ∧
    testOverlay.2.2.getOverlayVertex (testOverlay.1.getVertex 12).originalVertex
      (testOverlay.2.2.getExitOrder (testOverlay.1.getVertex 12).originalVertex
        (testOverlay.1.getVertex 12).originalEdge) true = 12 ∧
    (13 < testOverlay.1.numberOfVertices ∧ testOverlay.2.1.getD 13 false = false) ∧
    testOverlay.2.2.getOverlayVertex (testOverlay.1.getVertex 13).originalVertex
      (testOverlay.2.2.getEntryOrder (testOverlay.1.getVertex 13).originalVertex
        (testOverlay.1.getVertex 13).originalEdge) false = 13 :=
  ⟨by decide, ⟨by decide, by decide⟩,
    ((getOverlayVertex_of_overlay_vertex testSortedGraph testPartition (by decide)).1 12
      (by decide)).1 (by decide),
    ⟨by decide, by decide⟩,
    ((getOverlayVertex_of_overlay_vertex testSortedGraph testPartition (by decide)).1 13
      (by decide)).2 (by decide)⟩

set_option maxRecDepth 100000 in
/-- C14: the lookup of an overlay vertex in the map of the base graph does not return that
vertex when the graph has parallel boundary edges. The graph `parallelSortedGraph` is
consistent and has the two edges 0 and 1 from the vertex 0 (cell 0) to the vertex 1 (cell 1);
`OverlayGraph(graph, mlp)` builds the four overlay vertices 0, 1 (exit vertices at the vertex
0) and 2, 3 (entry vertices at the vertex 1). Both entry vertices have the original vertex 1
and the original edge `findBackwardEdge(0, 1) = 0`, so both are stored under the key
`{1, getEntryOrder(1, 0), false} = {1, 0, false}` and the second one replaces the first: the
map is `{0, 0, true} -> 0, {0, 1, true} -> 1, {1, 0, false} -> 3` with 3 keys for 4 overlay
vertices (the assertion `originalToOverlayVertexMap.size() == overlayVertexCount` fails), and
for the entry vertex `x = 2` the lookup
`graph.getOverlayVertex(v, getEntryOrder(v, x.originalEdge), false)` returns 3. -/
theorem getOverlayVertex_parallel_edges :
    parallelSortedGraph.Consistent ∧
    parallelSortedGraph.forEdges = [(0, 1, 0), (0, 1, 1)] ∧
    parallelSortedGraph.getCellNumber 0 ≠ parallelSortedGraph.getCellNumber 1 ∧
    parallelOverlay.1.numberOfVertices = 4 ∧
    parallelOverlay.2.1 = [true, true, false, false] ∧
    (parallelOverlay.1.getVertex 2).originalVertex = 1 ∧
    (parallelOverlay.1.getVertex 2).originalEdge = 0 ∧
    (parallelOverlay.1.getVertex 3).originalVertex = 1 ∧
    (parallelOverlay.1.getVertex 3).originalEdge = 0 ∧
    parallelOverlay.2.2.getEntryOrder (parallelOverlay.1.getVertex 2).originalVertex
      (parallelOverlay.1.getVertex 2).originalEdge = 0 ∧
    parallelOverlay.2.2.overlayVertices =
      [(⟨0, 0, true⟩, 0), (⟨0, 1, true⟩, 1), (⟨1, 0, false⟩, 3)] ∧
    parallelOverlay.2.2.overlayVertices.length ≠ parallelOverlay.1.numberOfVertices ∧
    parallelOverlay.2.2.getOverlayVertex (parallelOverlay.1.getVertex 2).originalVertex
      (parallelOverlay.2.2.getEntryOrder (parallelOverlay.1.getVertex 2).originalVertex
        (parallelOverlay.1.getVertex 2).originalEdge) false = 3 ∧
    parallelOverlay.2.2.getOverlayVertex (parallelOverlay.1.getVertex 2).originalVertex
      (parallelOverlay.2.2.getEntryOrder (parallelOverlay.1.getVertex 2).originalVertex
        (parallelOverlay.1.getVertex 2).originalEdge) false ≠ 2 :=
  ⟨⟨by decide, by decide, by decide, by decide, by decide, by decide, by decide, by decide,
      by decide, by decide⟩,
    by decide, by decide, by decide, by decide, by decide, by decide, by decide, by decide,
    by decide, by decide, by decide, by decide, by decide⟩

end CRP

namespace CRP

/-! ## vertexQuery -/

/-- On a consistent base graph, for a vertex `s` with at least one incoming edge
and a vertex `t` with at least one outgoing edge, `Dijkstra::vertexQuery(s, t, m)` and
`CRPQueryUni::vertexQuery(s, t, m)` are the calls `edgeQuery(sEdge, tEdge, m)` where `sEdge` is
the id of a forward edge with head `s` (the one that enters `s` at the entry point 0) and
`tEdge` is the id of a backward edge with tail `t` (the one that leaves `t` at the exit point
0). -/
theorem vertexQuery_edges (graph : Graph) (overlayGraph : OverlayGraph) (metric : Metric)
    (fuel : Nat) (dijkstra : Dijkstra) (query : CRPQueryUni) (pathUnpacker : PathUnpacker)
    (s t : Nat) (hg : graph.Consistent) (hs : s < graph.numberOfVertices)
    (hin : 1 ≤ graph.getInDegree s) (ht : t < graph.numberOfVertices)
    (hout : 1 ≤ graph.getOutDegree t) :
    Dijkstra.vertexQuery graph metric fuel dijkstra s t =
      Dijkstra.edgeQuery graph metric fuel dijkstra
        (graph.getExitOffset (graph.getBackwardEdge (graph.getEntryOffset s)).tail +
          (graph.getBackwardEdge (graph.getEntryOffset s)).exitPoint)
        (graph.getEntryOffset (graph.getForwardEdge (graph.getExitOffset t)).head +
          (graph.getForwardEdge (graph.getExitOffset t)).entryPoint) ∧
    CRPQueryUni.vertexQuery graph overlayGraph metric fuel query pathUnpacker s t =
      CRPQueryUni.edgeQuery graph overlayGraph metric fuel query pathUnpacker
        (graph.getExitOffset (graph.getBackwardEdge (graph.getEntryOffset s)).tail +
          (graph.getBackwardEdge (graph.getEntryOffset s)).exitPoint)
        (graph.getEntryOffset (graph.getForwardEdge (graph.getExitOffset t)).head +
          (graph.getForwardEdge (graph.getExitOffset t)).entryPoint) ∧
    graph.getExitOffset (graph.getBackwardEdge (graph.getEntryOffset s)).tail +
      (graph.getBackwardEdge (graph.getEntryOffset s)).exitPoint < graph.numberOfEdges ∧
    (graph.getForwardEdge
      (graph.getExitOffset (graph.getBackwardEdge (graph.getEntryOffset s)).tail +
        (graph.getBackwardEdge (graph.getEntryOffset s)).exitPoint)).head = s ∧
    (graph.getForwardEdge
      (graph.getExitOffset (graph.getBackwardEdge (graph.getEntryOffset s)).tail +
        (graph.getBackwardEdge (graph.getEntryOffset s)).exitPoint)).entryPoint = 0 ∧
    graph.getEntryOffset (graph.getForwardEdge (graph.getExitOffset t)).head +
      (graph.getForwardEdge (graph.getExitOffset t)).entryPoint < graph.numberOfEdges ∧
    (graph.getBackwardEdge
      (graph.getEntryOffset (graph.getForwardEdge (graph.getExitOffset t)).head +
        (graph.getForwardEdge (graph.getExitOffset t)).entryPoint)).tail = t ∧
    (graph.getBackwardEdge
      (graph.getEntryOffset (graph.getForwardEdge (graph.getExitOffset t)).head +
        (graph.getForwardEdge (graph.getExitOffset t)).entryPoint)).exitPoint = 0 := by
  obtain ⟨a1, a2⟩ := graph.vertexQuery_source hg s hs hin
  obtain ⟨b1, b2⟩ := graph.vertexQuery_target hg t ht hout
  refine ⟨rfl, rfl, a1, ?_, ?_, b1, ?_, ?_⟩
  · rw [a2]
  · rw [a2]
  · rw [b2]
  · rw [b2]

set_option maxRecDepth 100000 in
/-- On the graph of OverlayGraphTest.cpp, `vertexQuery(1, 2, m)` is `edgeQuery(11, 6, m)`:
the forward edge 11 enters the vertex 1, and the backward edge 6 leaves the vertex 2. -/
theorem vertexQuery_edges_witness :
    (1 < testSortedGraph.numberOfVertices ∧ 1 ≤ testSortedGraph.getInDegree 1 ∧
      2 < testSortedGraph.numberOfVertices ∧ 1 ≤ testSortedGraph.getOutDegree 2 ∧
      testSortedGraph.getExitOffset
          (testSortedGraph.getBackwardEdge (testSortedGraph.getEntryOffset 1)).tail +
        (testSortedGraph.getBackwardEdge (testSortedGraph.getEntryOffset 1)).exitPoint = 11 ∧
      testSortedGraph.getEntryOffset
          (testSortedGraph.getForwardEdge (testSortedGraph.getExitOffset 2)).head +
        (testSortedGraph.getForwardEdge (testSortedGraph.getExitOffset 2)).entryPoint = 6) ∧
    (testSortedGraph.getForwardEdge
      (testSortedGraph.getExitOffset
          (testSortedGraph.getBackwardEdge (testSortedGraph.getEntryOffset 1)).tail +
        (testSortedGraph.getBackwardEdge (testSortedGraph.getEntryOffset 1)).exitPoint)).head
      = 1 ∧
    (testSortedGraph.getBackwardEdge
      (testSortedGraph.getEntryOffset
          (testSortedGraph.getForwardEdge (testSortedGraph.getExitOffset 2)).head +
        (testSortedGraph.getForwardEdge (testSortedGraph.getExitOffset 2)).entryPoint)).tail
      = 2 :=
  ⟨⟨by decide, by decide, by decide, by decide, by decide, by decide⟩,
    (vertexQuery_edges testSortedGraph testOverlay.1 ⟨HopFunction, [], [], []⟩ 0
      (Dijkstra.create testSortedGraph) (CRPQueryUni.create testSortedGraph testOverlay.1)
      (PathUnpacker.create testSortedGraph testOverlay.1) 1 2 testSortedGraph_consistent
      (by decide) (by decide) (by decide) (by decide)).2.2.2.1,
    (vertexQuery_edges testSortedGraph testOverlay.1 ⟨HopFunction, [], [], []⟩ 0
      (Dijkstra.create testSortedGraph) (CRPQueryUni.create testSortedGraph testOverlay.1)
      (PathUnpacker.create testSortedGraph testOverlay.1) 1 2 testSortedGraph_consistent
      (by decide) (by decide) (by decide) (by decide)).2.2.2.2.2.2.1⟩

set_option maxRecDepth 100000 in
/-- C25: `vertexQuery` does not pick an outgoing edge of a target vertex that has none. On
the consistent graph of OverlayGraphTest.cpp the vertex 5 has no outgoing edge:
`getExitOffset(5) = 10` is the id of the one outgoing edge of the vertex 6, the forward edge
`{head 7, entryPoint 1}`. For every source vertex `s` the call `vertexQuery(s, 5, m)` is the
call `edgeQuery(sEdge, getEntryOffset(7) + 1, m) = edgeQuery(sEdge, 12, m)`; the backward edge
12 has the tail 6, so the target edge is not an outgoing edge of the vertex 5. -/
theorem vertexQuery_target_not_outgoing :
    testSortedGraph.Consistent ∧ 5 < testSortedGraph.numberOfVertices ∧
    testSortedGraph.getOutDegree 5 = 0 ∧
    testSortedGraph.getExitOffset 5 = 10 ∧
    testSortedGraph.getExitOffset 6 = 10 ∧ testSortedGraph.getOutDegree 6 = 1 ∧
    (testSortedGraph.getForwardEdge 10).head = 7 ∧
    (testSortedGraph.getForwardEdge 10).entryPoint = 1 ∧
    testSortedGraph.getEntryOffset (testSortedGraph.getForwardEdge 10).head +
      (testSortedGraph.getForwardEdge 10).entryPoint = 12 ∧
    (∀ (metric : Metric) (fuel : Nat) (dijkstra : Dijkstra) (query : CRPQueryUni)
        (pathUnpacker : PathUnpacker) (s : Nat),
      Dijkstra.vertexQuery testSortedGraph metric fuel dijkstra s 5 =
        Dijkstra.edgeQuery testSortedGraph metric fuel dijkstra
          (testSortedGraph.getExitOffset
              (testSortedGraph.getBackwardEdge (testSortedGraph.getEntryOffset s)).tail +
            (testSortedGraph.getBackwardEdge (testSortedGraph.getEntryOffset s)).exitPoint)
          12 ∧
      CRPQueryUni.vertexQuery testSortedGraph testOverlay.1 metric fuel query pathUnpacker s 5 =
        CRPQueryUni.edgeQuery testSortedGraph testOverlay.1 metric fuel query pathUnpacker
          (testSortedGraph.getExitOffset
              (testSortedGraph.getBackwardEdge (testSortedGraph.getEntryOffset s)).tail +
            (testSortedGraph.getBackwardEdge (testSortedGraph.getEntryOffset s)).exitPoint)
          12) ∧
    (testSortedGraph.getBackwardEdge 12).tail = 6 ∧
    (testSortedGraph.getBackwardEdge 12).tail ≠ 5 :=
  ⟨testSortedGraph_consistent, by decide, by decide, by decide, by decide, by decide,
    by decide, by decide, by decide,
    fun _ _ _ _ _ _ => ⟨rfl, rfl⟩, by decide, by decide⟩

end CRP

namespace CRP

/-! ## The customization keeps the weights at most `inf_weight` -/

end CRP
